import Mathlib

/-!
# A shallow embedding of `b_plus_plus_tree` (src/bpptree.h)

The container is a B+tree whose nodes live in a heap and point at each other.
The embedding keeps that shape: a `Tree` is the embedded anchor `root_`
together with a memory of nodes addressed by `Ptr`.  Every function below is
the transcription of the C++ member function of the same name; a function
returns `none` where the C++ code dereferences a null pointer, reads a node
through a cast to the wrong node type (in particular the anchor read as a leaf
or as an inner node), uses a freed node, or indexes an array outside of the
slots that hold a constructed item.

On a container that satisfies the invariants the insert has one such read: in
unique mode `insert_one_descend_` takes the anchor for the leaf before the
first leaf and reads an item of it.  The functions `insert_one_descend_stray`,
`insert_nohint_stray`, `insert_stray`, `insert_hint_stray_` and
`insert_hint_stray` transcribe the same C++ functions once more with a result
for that read: their parameter `stray` is the key the read yields.  Wherever
the functions without the parameter return, these return the same.

Conventions of the transcription:
* the key type is scalar (the `std::is_scalar` branches are the ones embedded),
  storage and key coincide, and the comparator is `<` of a linear order;
* `item` and `children` hold only the constructed slots, so a leaf's
  `bound()` (the header field `size`) is `item.length` and an inner node's
  `used` is `item.length`;
* `size_type(-1)` is `SIZE_MAX`, and a `size_t` subtraction is `wsub`.
-/

set_option linter.unusedSectionVars false

namespace BPP

/-- The value of `size_type(-1)`, the level of the anchor. -/
def SIZE_MAX : Nat := 2 ^ 64 - 1

/-- Subtraction of `size_t` values, wrapping below zero. -/
def wsub (a b : Nat) : Nat := if b ≤ a then a - b else a + 2 ^ 64 - b

/-- A `node_t *`: null, the address of the anchor `root_`, or a heap node. -/
inductive Ptr where
  | null : Ptr
  | root : Ptr
  | node (a : Nat) : Ptr
  deriving DecidableEq, Repr

/-- The C++ `inner_node_t`; `used` is `item.length`. -/
structure InnerNode (α : Type) where
  parent : Ptr
  size : Nat
  level : Nat
  children : List Ptr
  item : List α
  deriving DecidableEq, Repr

/-- The C++ `leaf_node_t`; `size` (= `bound()`) is `item.length`, `level` is 0. -/
structure LeafNode (α : Type) where
  parent : Ptr
  prev : Ptr
  next : Ptr
  item : List α
  deriving DecidableEq, Repr

/-- A heap cell. -/
inductive Node (α : Type) where
  | inner (n : InnerNode α) : Node α
  | leaf (n : LeafNode α) : Node α
  deriving DecidableEq, Repr

/-- The compile-time configuration `config_t`. -/
structure Config where
  unique : Bool
  maxLeaf : Nat
  maxInner : Nat
  deriving DecidableEq, Repr

/-- The container: the fields of the anchor `root_` and the node memory. -/
structure Tree (α : Type) where
  parent : Ptr
  size : Nat
  left : Ptr
  right : Ptr
  mem : List (Option (Node α))
  deriving DecidableEq, Repr

/-- A `pair_pos_t` or an iterator: a node and an index in it. -/
abbrev Pos := Ptr × Nat

/-- The C++ `result_t` of the erase engine. -/
structure Result (α : Type) where
  not_found : Bool
  last_key : Option α
  fixmerge : Bool
  deriving DecidableEq, Repr

section Memory
variable {α : Type}

/-- The heap cell a pointer designates, if it designates a live node. -/
def Tree.node? (t : Tree α) (p : Ptr) : Option (Node α) :=
  match p with
  | Ptr.node a => (t.mem[a]?).join
  | _ => none

/-- Read through `static_cast<leaf_node_t *>`. -/
def Tree.leaf? (t : Tree α) (p : Ptr) : Option (LeafNode α) :=
  match t.node? p with
  | some (Node.leaf l) => some l
  | _ => none

/-- Read through `static_cast<inner_node_t *>`. -/
def Tree.inner? (t : Tree α) (p : Ptr) : Option (InnerNode α) :=
  match t.node? p with
  | some (Node.inner n) => some n
  | _ => none

/-- The header field `level`. -/
def Tree.level? (t : Tree α) (p : Ptr) : Option Nat :=
  match p with
  | Ptr.null => none
  | Ptr.root => some SIZE_MAX
  | Ptr.node _ =>
    match t.node? p with
    | some (Node.inner n) => some n.level
    | some (Node.leaf _) => some 0
    | none => none

/-- The header field `parent`. -/
def Tree.parent? (t : Tree α) (p : Ptr) : Option Ptr :=
  match p with
  | Ptr.null => none
  | Ptr.root => some t.parent
  | Ptr.node _ =>
    match t.node? p with
    | some (Node.inner n) => some n.parent
    | some (Node.leaf l) => some l.parent
    | none => none

/-- The header field `size`. -/
def Tree.size? (t : Tree α) (p : Ptr) : Option Nat :=
  match p with
  | Ptr.null => none
  | Ptr.root => some t.size
  | Ptr.node _ =>
    match t.node? p with
    | some (Node.inner n) => some n.size
    | some (Node.leaf l) => some l.item.length
    | none => none

/-- Overwrite a live heap cell. -/
def Tree.write (t : Tree α) (p : Ptr) (n : Node α) : Option (Tree α) :=
  match p with
  | Ptr.node a =>
    match t.node? p with
    | some _ => some { t with mem := t.mem.set a (some n) }
    | none => none
  | _ => none

/-- Store into a leaf. -/
def Tree.setLeaf (t : Tree α) (p : Ptr) (l : LeafNode α) : Option (Tree α) :=
  match t.leaf? p with
  | some _ => t.write p (Node.leaf l)
  | none => none

/-- Store into an inner node. -/
def Tree.setInner (t : Tree α) (p : Ptr) (n : InnerNode α) : Option (Tree α) :=
  match t.inner? p with
  | some _ => t.write p (Node.inner n)
  | none => none

/-- The assignment `p->parent = q` through the common header. -/
def Tree.setParent (t : Tree α) (p q : Ptr) : Option (Tree α) :=
  match p with
  | Ptr.null => none
  | Ptr.root => some { t with parent := q }
  | Ptr.node _ =>
    match t.node? p with
    | some (Node.inner n) => t.write p (Node.inner { n with parent := q })
    | some (Node.leaf l) => t.write p (Node.leaf { l with parent := q })
    | none => none

/-- The assignment `p->size = s` for the anchor or an inner node. -/
def Tree.setSize (t : Tree α) (p : Ptr) (s : Nat) : Option (Tree α) :=
  match p with
  | Ptr.root => some { t with size := s }
  | Ptr.node _ =>
    match t.node? p with
    | some (Node.inner n) => t.write p (Node.inner { n with size := s })
    | _ => none
  | Ptr.null => none

/-- The allocator hands out a fresh block: `alloc_leaf_node_`. -/
def Tree.alloc_leaf_node_ (t : Tree α) (parent : Ptr) : Tree α × Ptr :=
  ({ t with mem := t.mem ++ [some (Node.leaf ⟨parent, Ptr.null, Ptr.null, []⟩)] },
    Ptr.node t.mem.length)

/-- The allocator hands out a fresh block: `alloc_inner_node_`. -/
def Tree.alloc_inner_node_ (t : Tree α) (parent : Ptr) : Tree α × Ptr :=
  ({ t with mem := t.mem ++ [some (Node.inner ⟨parent, 0, 1, [], []⟩)] },
    Ptr.node t.mem.length)

/-- The C++ `free_node_<false>`: give the block of one node back. -/
def Tree.free_node_ (t : Tree α) (p : Ptr) : Option (Tree α) :=
  match p with
  | Ptr.node a =>
    match t.node? p with
    | some _ => some { t with mem := t.mem.set a none }
    | none => none
  | _ => none

/-- The slots `[i, j)` of an array of constructed slots. -/
def slice? (l : List α) (i j : Nat) : Option (List α) :=
  if i ≤ j ∧ j ≤ l.length then some ((l.take j).drop i) else none

/-- Shift the slots from `i` on one to the right and put `v` at `i`. -/
def insertAt? (l : List α) (i : Nat) (v : α) : Option (List α) :=
  if i ≤ l.length then some (l.take i ++ v :: l.drop i) else none

/-- Destroy slot `i` and shift the slots after it one to the left. -/
def eraseAt? (l : List α) (i : Nat) : Option (List α) :=
  if i < l.length then some (l.eraseIdx i) else none

/-- An assignment `item[i] = v` into a raw array of `cap` slots of which the
first `l.length` are constructed: a store to a later slot of the array leaves
the constructed slots as they are, a store past the array is an error. -/
def store? (cap : Nat) (l : List α) (i : Nat) (v : α) : Option (List α) :=
  if i < l.length then some (l.set i v)
  else if i < cap then some l
  else none

end Memory

section Search
variable {α : Type} [LinearOrder α]

/-- The per-node `lower_bound_` (linear scan): the number of leading items
that are less than the key. -/
def lower_bound_node : List α → α → Nat
  | [], _ => 0
  | x :: xs, key => if x < key then lower_bound_node xs key + 1 else 0

/-- The per-node `upper_bound_` (linear scan): the number of leading items
that the key is not less than. -/
def upper_bound_node : List α → α → Nat
  | [], _ => 0
  | x :: xs, key => if ¬ key < x then upper_bound_node xs key + 1 else 0

/-- The descent loop of the tree-level `lower_bound_`. -/
def lower_bound_loop (t : Tree α) (key : α) : Nat → Ptr → Option Pos
  | 0, _ => none
  | fuel + 1, node => do
    let some level := t.level? node | none
    if level > 0 then
      let some inner_node := t.inner? node | none
      let «where» := lower_bound_node inner_node.item key
      let some child := inner_node.children[«where»]? | none
      lower_bound_loop t key fuel child
    else
      let some leaf_node := t.leaf? node | none
      let «where» := lower_bound_node leaf_node.item key
      if «where» ≥ leaf_node.item.length then some (Ptr.null, 0)
      else some (node, «where»)

/-- The tree-level `lower_bound_`: the guard compares `root_.parent` with
`nullptr`. -/
def lower_bound_ (t : Tree α) (key : α) : Option Pos :=
  if t.parent = Ptr.null then some (Ptr.null, 0)
  else lower_bound_loop t key (t.mem.length + 1) t.parent

/-- The descent loop of the tree-level `upper_bound_`. -/
def upper_bound_loop (t : Tree α) (key : α) : Nat → Ptr → Option Pos
  | 0, _ => none
  | fuel + 1, node => do
    let some level := t.level? node | none
    if level > 0 then
      let some inner_node := t.inner? node | none
      let «where» := upper_bound_node inner_node.item key
      let some child := inner_node.children[«where»]? | none
      upper_bound_loop t key fuel child
    else
      let some leaf_node := t.leaf? node | none
      let «where» := upper_bound_node leaf_node.item key
      if «where» ≥ leaf_node.item.length then some (Ptr.null, 0)
      else some (node, «where»)

/-- The tree-level `upper_bound_`: the guard compares `root_.parent` with
`&root_`. -/
def upper_bound_ (t : Tree α) (key : α) : Option Pos :=
  if t.parent = Ptr.root then some (Ptr.null, 0)
  else upper_bound_loop t key (t.mem.length + 1) t.parent

/-- The constructor `iterator(pair_pos_t, self)`: a null leaf becomes the
anchor. -/
def iterator (pos : Pos) : Pos :=
  if pos.1 = Ptr.null then (Ptr.root, pos.2) else pos

/-- The iterator `end()`. -/
def «end» : Pos := (Ptr.root, 0)

/-- The iterator `begin()`. -/
def «begin» (t : Tree α) : Pos := (t.left, 0)

/-- The public `find`. -/
def find (t : Tree α) (key : α) : Option Pos := do
  let some pos := lower_bound_ t key | none
  if pos.1 = Ptr.null then some (Ptr.root, 0)
  else
    let some leaf_node := t.leaf? pos.1 | none
    if pos.2 ≥ leaf_node.item.length then some (Ptr.root, 0)
    else
      let some x := leaf_node.item[pos.2]? | none
      if key < x then some (Ptr.root, 0) else some pos

/-- The public `lower_bound`. -/
def lower_bound (t : Tree α) (key : α) : Option Pos :=
  (lower_bound_ t key).map iterator

/-- The public `upper_bound`. -/
def upper_bound (t : Tree α) (key : α) : Option Pos :=
  (upper_bound_ t key).map iterator

end Search

section Rank
variable {α : Type}

/-- The inner `for` loop of `advance_root_`: walk the children until the one
we came from, adding the sizes of the earlier ones. -/
def advance_root_scan (t : Tree α) (node : Ptr) : List Ptr → Nat → Option Nat
  | [], _ => none
  | c :: cs, «where» =>
    if c = node then some «where»
    else do
      let some s := t.size? c | none
      advance_root_scan t node cs («where» + s)

/-- The C++ `advance_root_`: climb to the real root, turning the index in
the node into an index in the whole tree. -/
def advance_root_ (t : Tree α) : Nat → Ptr → Nat → Option (Ptr × Nat)
  | 0, _, _ => none
  | fuel + 1, node, «where» => do
    let some p := t.parent? node | none
    let some level := t.level? p | none
    if level ≠ SIZE_MAX then
      let some parent := t.inner? p | none
      let some w := advance_root_scan t node parent.children «where» | none
      advance_root_ t fuel p w
    else some (node, «where»)

/-- The C++ `calculate_rank_`, the rank of an iterator. -/
def calculate_rank_ (t : Tree α) (node : Ptr) («where» : Nat) : Option Nat := do
  let some level := t.level? node | none
  if level ≠ 0 then t.size? node
  else
    let some r := advance_root_ t (t.mem.length + 1) node «where» | none
    some r.2

/-- The inner `for` loop of `access_index_`. -/
def access_index_scan (t : Tree α) : List Ptr → Nat → Option (Ptr × Nat)
  | [], _ => none
  | c :: cs, index => do
    let some s := t.size? c | none
    if index ≥ s then access_index_scan t cs (index - s)
    else some (c, index)

/-- The descent loop of `access_index_`. -/
def access_index_loop (t : Tree α) : Nat → Ptr → Nat → Option Pos
  | 0, _, _ => none
  | fuel + 1, node, index => do
    let some level := t.level? node | none
    if level > 0 then
      let some inner_node := t.inner? node | none
      let some r := access_index_scan t inner_node.children index | none
      access_index_loop t fuel r.1 r.2
    else some (node, index)

/-- The C++ `access_index_`. -/
def access_index_ (t : Tree α) (node : Ptr) (index : Nat) : Option Pos := do
  let some s := t.size? node | none
  if index ≥ s then some (Ptr.null, 0)
  else access_index_loop t (t.mem.length + 1) node index

/-- The public `at`. -/
def «at» (t : Tree α) (index : Nat) : Option Pos :=
  (access_index_ t t.parent index).map iterator

end Rank

section RankKey
variable {α : Type} [LinearOrder α]

/-- The public `rank(key)`. -/
def rank (t : Tree α) (key : α) : Option Nat := do
  let some pos := upper_bound_ t key | none
  if pos.1 = Ptr.null then some t.size
  else
    let some r := advance_root_ t (t.mem.length + 1) pos.1 pos.2 | none
    some r.2

end RankKey

section Insert
variable {α : Type} [LinearOrder α]

/-- Apply a sequence of field assignments to a leaf. -/
def Tree.modLeaf (t : Tree α) (p : Ptr) (f : LeafNode α → LeafNode α) : Option (Tree α) := do
  let some l := t.leaf? p | none
  t.write p (Node.leaf (f l))

/-- Apply a sequence of field assignments to an inner node. -/
def Tree.modInner (t : Tree α) (p : Ptr) (f : InnerNode α → InnerNode α) : Option (Tree α) := do
  let some n := t.inner? p | none
  t.write p (Node.inner (f n))

/-- The key `get_key_()(pos)` at a position: `pos.first->item[pos.second]`. -/
def Tree.key? (t : Tree α) (pos : Pos) : Option α := do
  let some l := t.leaf? pos.1 | none
  l.item[pos.2]?

/-- The C++ `update_parent_`: re-parent a run of children and add up their
sizes. -/
def update_parent_ (t : Tree α) : List Ptr → Ptr → Option (Tree α × Nat)
  | [], _ => some (t, 0)
  | node :: rest, parent => do
    let some s := t.size? node | none
    let some t1 := t.setParent node parent | none
    let some r := update_parent_ t1 rest parent | none
    some (r.1, s + r.2)

/-- The C++ `insert_first_`: the first element gets a fresh leaf as real
root. -/
def insert_first_ (t : Tree α) (value : α) : Option (Tree α × (Pos × Bool)) := do
  let (t, node) := t.alloc_leaf_node_ Ptr.root
  let some t := t.modLeaf node (fun l => { l with item := [value] }) | none
  let t := { t with parent := node, left := node, right := node }
  let some t := t.modLeaf node (fun l => { l with next := Ptr.root, prev := Ptr.root }) | none
  let t := { t with size := 1 }
  some (t, ((node, 0), true))

/-- The C++ `split_inner_node_`: returns the state, the evicted key and the
new right node. -/
def split_inner_node_ (t : Tree α) (inner_node : Ptr) («where» : Nat) :
    Option (Tree α × α × Ptr) := do
  let some n := t.inner? inner_node | none
  let bound := n.item.length
  let mid0 := bound / 2
  let mid := if «where» ≤ mid0 ∧ mid0 > wsub bound (mid0 + 1) then wsub mid0 1 else mid0
  let (t, new_inner_node) := t.alloc_inner_node_ Ptr.null
  let some items := slice? n.item (mid + 1) bound | none
  let some children := slice? n.children (mid + 1) (bound + 1) | none
  let some t := t.modInner new_inner_node
    (fun m => { m with level := n.level, item := items, children := children })
    | none
  let some kept := slice? n.item 0 mid | none
  let some keptc := slice? n.children 0 (mid + 1) | none
  let some key := n.item[mid]? | none
  let some t := t.modInner inner_node (fun m => { m with item := kept, children := keptc }) | none
  let some (t, count) := update_parent_ t children new_inner_node | none
  let some t := t.modInner new_inner_node (fun m => { m with size := count }) | none
  let some t := t.modInner inner_node (fun m => { m with size := wsub m.size count }) | none
  some (t, key, new_inner_node)

/-- The C++ `split_leaf_node_`: returns the state, the last key of the left
half and the new right leaf. -/
def split_leaf_node_ (t : Tree α) (leaf_node : Ptr) : Option (Tree α × α × Ptr) := do
  let some l := t.leaf? leaf_node | none
  let bound := l.item.length
  let mid := bound / 2
  let (t, new_leaf_node) := t.alloc_leaf_node_ Ptr.null
  let some t := t.modLeaf new_leaf_node (fun m => { m with next := l.next }) | none
  let some t := (
    if l.next = Ptr.root then some { t with right := new_leaf_node }
    else t.modLeaf l.next (fun m => { m with prev := new_leaf_node }))
    | none
  let some moved := slice? l.item mid bound | none
  let some t := t.modLeaf new_leaf_node (fun m => { m with item := moved }) | none
  let some kept := slice? l.item 0 mid | none
  let some t := t.modLeaf leaf_node (fun m => { m with item := kept, next := new_leaf_node }) | none
  let some t := t.modLeaf new_leaf_node (fun m => { m with prev := leaf_node }) | none
  let some key := kept[wsub mid 1]? | none
  some (t, key, new_leaf_node)

/-- The tail shared by `insert_one_descend_` and `insert_pos_descend_`: put
the separator at slot `where` and the new child right after it. -/
def insert_child_ (t : Tree α) (inner_node : Ptr) («where» : Nat) (key_out : α)
    (new_child : Ptr) : Option (Tree α) := do
  let some n := t.inner? inner_node | none
  let bound := n.item.length
  let some items := insertAt? n.item «where» key_out | none
  let some head := slice? n.children 0 («where» + 1) | none
  let some tail := slice? n.children («where» + 1) (bound + 1) | none
  let some t := t.modInner inner_node
    (fun m => { m with item := items, children := head ++ new_child :: tail })
    | none
  t.setParent new_child inner_node

/-- The rejoin case after `split_inner_node_`: the first child of the right
half moves to the end of the left half and the new child takes its place. -/
def rejoin_ (t : Tree α) (inner_node split_node : Ptr) (split_key : α) (new_child : Ptr) :
    Option (Tree α) := do
  let some n := t.inner? inner_node | none
  let some sp := t.inner? split_node | none
  let some c0 := sp.children[0]? | none
  let some keptc := slice? n.children 0 (n.item.length + 1) | none
  let some c0size := t.size? c0 | none
  let some ncsize := t.size? new_child | none
  let some t := t.modInner inner_node (fun m =>
    { m with item := m.item ++ [split_key], children := keptc ++ [c0],
             size := wsub (m.size + c0size) ncsize })
    | none
  let some t := t.modInner split_node (fun m => { m with size := wsub m.size c0size + ncsize }) | none
  let some t := t.setParent c0 inner_node | none
  let some t := t.setParent new_child split_node | none
  t.modInner split_node (fun m => { m with children := m.children.set 0 new_child })

/-- What an inner node does with a new separator and child handed up from
below: plain insertion, or split with one of the three placements.  Returns
the state and the separator and node to hand further up, if any. -/
def place_child_ (cfg : Config) (t : Tree α) (inner_node : Ptr) («where» : Nat) (key_out : α)
    (new_child : Ptr) : Option (Tree α × Option (α × Ptr)) := do
  let some n := t.inner? inner_node | none
  if n.item.length = cfg.maxInner then
    let some (t, split_key, split_node) := split_inner_node_ t inner_node «where» | none
    let some n := t.inner? inner_node | none
    let some sp := t.inner? split_node | none
    if «where» = n.item.length + 1 ∧ n.item.length < sp.item.length then
      let some t := rejoin_ t inner_node split_node split_key new_child | none
      some (t, some (key_out, split_node))
    else if «where» ≥ n.item.length + 1 then
      let some ncsize := t.size? new_child | none
      let some t := t.modInner inner_node (fun m => { m with size := wsub m.size ncsize }) | none
      let some t := t.modInner split_node (fun m => { m with size := m.size + ncsize }) | none
      let some t := insert_child_ t split_node («where» - (n.item.length + 1)) key_out new_child | none
      some (t, some (split_key, split_node))
    else
      let some t := insert_child_ t inner_node «where» key_out new_child | none
      some (t, some (split_key, split_node))
  else
    let some t := insert_child_ t inner_node «where» key_out new_child | none
    some (t, none)

/-- The leaf half of `insert_one_descend_` and `insert_pos_` after the
position is known: split a full leaf, shift and construct the item, and fix
the key handed up. -/
def insert_leaf_ (cfg : Config) (t : Tree α) (leaf_node : Ptr) («where» : Nat) (value : α) :
    Option (Tree α × Pos × Option (α × Ptr)) := do
  let some l := t.leaf? leaf_node | none
  if l.item.length = cfg.maxLeaf then
    let some (t, split_key, split_node) := split_leaf_node_ t leaf_node | none
    let some l := t.leaf? leaf_node | none
    let (leaf_node1, where1) :=
      if «where» ≥ l.item.length then (split_node, «where» - l.item.length)
      else (leaf_node, «where»)
    let some l1 := t.leaf? leaf_node1 | none
    let some items := insertAt? l1.item where1 value | none
    let some t := t.modLeaf leaf_node1 (fun m => { m with item := items }) | none
    if leaf_node1 ≠ split_node ∧ where1 = wsub items.length 1 then
      let some k := items[where1]? | none
      some (t, (leaf_node1, where1), some (k, split_node))
    else
      some (t, (leaf_node1, where1), some (split_key, split_node))
  else
    let some items := insertAt? l.item «where» value | none
    let some t := t.modLeaf leaf_node (fun m => { m with item := items }) | none
    some (t, (leaf_node, «where»), none)

/-- The C++ `insert_one_descend_<is_leftish>`. -/
def insert_one_descend_ (cfg : Config) (is_leftish : Bool) (value : α) :
    Nat → Tree α → Ptr → Option (Tree α × (Pos × Bool) × Option (α × Ptr))
  | 0, _, _ => none
  | fuel + 1, t, node => do
    let some level := t.level? node | none
    if level > 0 then
      let some inner_node := t.inner? node | none
      let «where» :=
        if is_leftish then lower_bound_node inner_node.item value
        else upper_bound_node inner_node.item value
      let some child := inner_node.children[«where»]? | none
      let some (t, result, new) := insert_one_descend_ cfg is_leftish value fuel t child | none
      let some t := if result.2 then t.modInner node (fun m => { m with size := m.size + 1 }) else some t | none
      match new with
      | none => some (t, result, none)
      | some (key_out, new_child) =>
        let some (t, up) := place_child_ cfg t node «where» key_out new_child | none
        some (t, result, up)
    else
      let some leaf_node := t.leaf? node | none
      let «where» :=
        if is_leftish then lower_bound_node leaf_node.item value
        else upper_bound_node leaf_node.item value
      if is_leftish then
        if cfg.unique then
          let some x := leaf_node.item[«where»]? | none
          if ¬ value < x then some (t, ((node, «where»), false), none)
          else
            let some (t, pos, up) := insert_leaf_ cfg t node «where» value | none
            some (t, (pos, true), up)
        else
          let some (t, pos, up) := insert_leaf_ cfg t node «where» value | none
          some (t, (pos, true), up)
      else
        if cfg.unique ∧ («where» > 0 ∨ leaf_node.prev ≠ Ptr.null) then
          if «where» = 0 then
            let some prev_leaf_node := t.leaf? leaf_node.prev | none
            let some x := prev_leaf_node.item[wsub prev_leaf_node.item.length 1]? | none
            if ¬ x < value then
              some (t, ((leaf_node.prev, wsub prev_leaf_node.item.length 1), false), none)
            else
              let some (t, pos, up) := insert_leaf_ cfg t node «where» value | none
              some (t, (pos, true), up)
          else
            let some x := leaf_node.item[«where» - 1]? | none
            if ¬ x < value then some (t, ((node, «where» - 1), false), none)
            else
              let some (t, pos, up) := insert_leaf_ cfg t node «where» value | none
              some (t, (pos, true), up)
        else
          let some (t, pos, up) := insert_leaf_ cfg t node «where» value | none
          some (t, (pos, true), up)

/-- Root grow: a new inner root over the old real root and its new sibling. -/
def grow_root_ (t : Tree α) (key_out : α) (new_child : Ptr) : Option (Tree α) := do
  let (t, new_root) := t.alloc_inner_node_ Ptr.root
  let some level := t.level? t.parent | none
  let some t := t.modInner new_root (fun m =>
    { m with level := level + 1, item := [key_out], children := [t.parent, new_child] })
    | none
  let some (t, count) := update_parent_ t [t.parent, new_child] new_root | none
  let some t := t.modInner new_root (fun m => { m with size := count }) | none
  some { t with parent := new_root }

/-- The C++ `insert_nohint_<is_leftish>`. -/
def insert_nohint_ (cfg : Config) (is_leftish : Bool) (t : Tree α) (value : α) :
    Option (Tree α × (Pos × Bool)) := do
  if t.parent = Ptr.root then insert_first_ t value
  else
    let some (t, result, new) := (
      insert_one_descend_ cfg is_leftish value (t.mem.length + 1) t t.parent)
      | none
    let t := if result.2 then { t with size := t.size + 1 } else t
    match new with
    | none => some (t, result)
    | some (key_out, new_child) =>
      let some t := grow_root_ t key_out new_child | none
      some (t, result)

/-- The public `insert(value)`: the state, the iterator and the success
flag (the flag is dropped by the multi-mode `result_`). -/
def insert (cfg : Config) (t : Tree α) (value : α) : Option (Tree α × (Pos × Bool)) :=
  insert_nohint_ cfg false t value

end Insert

section InsertHint
variable {α : Type} [LinearOrder α]

/-- The C++ `get_parent_`: the parent as inner node (null for the real root)
and the slot of the node among the parent's children. -/
def get_parent_ (t : Tree α) (node : Ptr) : Option (Ptr × Nat) := do
  let some p := t.parent? node | none
  if p = Ptr.root then some (Ptr.null, 0)
  else
    let some parent := t.inner? p | none
    let some cs := slice? parent.children 0 (parent.item.length + 1) | none
    some (p, cs.indexOf node)

/-- The loop `do { parent = parent->parent; ++parent->size; } while(parent != &root_)`. -/
def size_up_ : Nat → Tree α → Ptr → Option (Tree α)
  | 0, _, _ => none
  | fuel + 1, t, parent => do
    let some p := t.parent? parent | none
    let some s := t.size? p | none
    let some t := t.setSize p (s + 1) | none
    if p ≠ Ptr.root then size_up_ fuel t p else some t

/-- The C++ `insert_pos_descend_`. -/
def insert_pos_descend_ (cfg : Config) :
    Nat → Tree α → Ptr → Nat → α → Ptr → Option (Tree α)
  | 0, _, _, _, _, _ => none
  | fuel + 1, t, inner_node, «where», key_out, new_child =>
    if inner_node = Ptr.null then do
      let t := { t with size := t.size + 1 }
      grow_root_ t key_out new_child
    else do
      let some t := t.modInner inner_node (fun m => { m with size := m.size + 1 }) | none
      let some n := t.inner? inner_node | none
      let some (parent, parent_where) := (
        if n.item.length = cfg.maxInner then get_parent_ t inner_node else some (Ptr.null, 0))
        | none
      let some (t, up) := place_child_ cfg t inner_node «where» key_out new_child | none
      match up with
      | none => size_up_ (t.mem.length + 1) t inner_node
      | some (split_key_out, split_node) =>
        insert_pos_descend_ cfg fuel t parent parent_where split_key_out split_node

/-- The C++ `insert_pos_`: insert at a known leaf position. -/
def insert_pos_ (cfg : Config) (t : Tree α) (leaf_node : Ptr) («where» : Nat) (value : α) :
    Option (Tree α × (Pos × Bool)) := do
  let some l := t.leaf? leaf_node | none
  let some (parent, parent_where) := (
    if l.item.length = cfg.maxLeaf then get_parent_ t leaf_node else some (Ptr.null, 0))
    | none
  let some (t, pos, up) := insert_leaf_ cfg t leaf_node «where» value | none
  match up with
  | none =>
    let some t := size_up_ (t.mem.length + 1) t pos.1 | none
    some (t, (pos, true))
  | some (key_out, split_node) =>
    let some t := insert_pos_descend_ cfg (t.mem.length + 1) t parent parent_where key_out split_node | none
    some (t, (pos, true))

/-- The member `advance_next_(pair_pos_t)`. -/
def advance_next_pos (t : Tree α) (pos : Pos) : Option Pos :=
  if pos.1 = Ptr.null then
    if t.parent = Ptr.root then some (Ptr.null, 0) else some (t.left, 0)
  else do
    let some l := t.leaf? pos.1 | none
    if pos.2 + 1 ≥ l.item.length then
      some (if l.next = Ptr.root then Ptr.null else l.next, 0)
    else some (pos.1, pos.2 + 1)

/-- The member `advance_prev_(pair_pos_t)`. -/
def advance_prev_pos (t : Tree α) (pos : Pos) : Option Pos :=
  if pos.2 = 0 then
    if t.parent = Ptr.root then some (Ptr.null, 0)
    else do
      let some l := t.leaf? pos.1 | none
      if l.prev = Ptr.null then some (Ptr.null, 0)
      else
        let some b := t.size? l.prev | none
        some (l.prev, wsub b 1)
  else some (pos.1, pos.2 - 1)

/-- Insert at the end of the last leaf: `insert_pos_(tail, tail->bound(), value)`. -/
def insert_tail_ (cfg : Config) (t : Tree α) (value : α) : Option (Tree α × (Pos × Bool)) := do
  let some tail := t.leaf? t.right | none
  insert_pos_ cfg t t.right tail.item.length value

/-- The C++ `insert_hint_`; `leaf_node` is null for the hint `end()`. -/
def insert_hint_ (cfg : Config) (t : Tree α) (leaf_node : Ptr) («where» : Nat) (value : α) :
    Option (Tree α × (Pos × Bool)) :=
  if t.parent = Ptr.root then insert_first_ t value
  else if cfg.unique then
    if leaf_node = t.left ∧ «where» = 0 then do
      let some x := t.key? (leaf_node, «where») | none
      if value < x then insert_pos_ cfg t leaf_node 0 value
      else insert_nohint_ cfg false t value
    else if leaf_node = Ptr.null then do
      let some tail := t.leaf? t.right | none
      let some x := tail.item[wsub tail.item.length 1]? | none
      if x < value then insert_pos_ cfg t t.right tail.item.length value
      else insert_nohint_ cfg false t value
    else do
      let some x := t.key? (leaf_node, «where») | none
      let some accept3 := (
        if value < x then do
          let other ← advance_prev_pos t (leaf_node, «where»)
          let y ← t.key? other
          some (decide (y < value))
        else some false)
        | none
      if accept3 then insert_pos_ cfg t leaf_node «where» value
      else if x < value then do
        let some other := advance_next_pos t (leaf_node, «where») | none
        if other.1 = Ptr.null then insert_tail_ cfg t value
        else
          let some y := t.key? other | none
          if value < y then insert_pos_ cfg t other.1 other.2 value
          else insert_nohint_ cfg false t value
      else insert_nohint_ cfg false t value
  else
    if leaf_node = t.left ∧ «where» = 0 then do
      let some x := t.key? (leaf_node, «where») | none
      if ¬ x < value then insert_pos_ cfg t leaf_node 0 value
      else insert_nohint_ cfg true t value
    else if leaf_node = Ptr.null then do
      let some tail := t.leaf? t.right | none
      let some x := tail.item[wsub tail.item.length 1]? | none
      if ¬ value < x then insert_pos_ cfg t t.right tail.item.length value
      else insert_nohint_ cfg false t value
    else do
      let some x := t.key? (leaf_node, «where») | none
      let some accept3 := (
        if ¬ x < value then do
          let other ← advance_prev_pos t (leaf_node, «where»)
          let y ← t.key? other
          some (decide (¬ value < y))
        else some false)
        | none
      if accept3 then insert_pos_ cfg t leaf_node «where» value
      else if ¬ value < x then do
        let some other := advance_next_pos t (leaf_node, «where») | none
        if other.1 = Ptr.null then insert_tail_ cfg t value
        else
          let some y := t.key? other | none
          if ¬ y < value then insert_pos_ cfg t other.1 other.2 value
          else insert_nohint_ cfg true t value
      else insert_nohint_ cfg true t value

/-- The public `insert(hint, value)`. -/
def insert_hint (cfg : Config) (t : Tree α) (hint : Pos) (value : α) :
    Option (Tree α × (Pos × Bool)) :=
  insert_hint_ cfg t (if hint.1 = Ptr.root then Ptr.null else hint.1) hint.2 value

end InsertHint

section Erase
variable {α : Type} [LinearOrder α]

/-- The C++ `result_t(btree_ok)`. -/
def Result.ok : Result α := ⟨false, none, false⟩

/-- The C++ `result_t(btree_not_found)`. -/
def Result.notFound : Result α := ⟨true, none, false⟩

/-- The C++ `result_t(btree_fixmerge)`. -/
def Result.fix : Result α := ⟨false, none, true⟩

/-- The C++ `result_t(btree_update_lastkey, key)`. -/
def Result.lastKey (k : α) : Result α := ⟨false, some k, false⟩

/-- The C++ `result_t::operator |= (result_t &&)`. -/
def Result.or (r other : Result α) : Result α :=
  { not_found := r.not_found || other.not_found
    last_key := match other.last_key with
      | some k => some k
      | none => r.last_key
    fixmerge := r.fixmerge || other.fixmerge }

/-- The test `leaf->is_few()`. -/
def leaf_is_few (cfg : Config) (t : Tree α) (p : Ptr) : Option Bool := do
  let some l := t.leaf? p | none
  some (decide (l.item.length ≤ cfg.maxLeaf / 2))

/-- The test `inner->is_few()`. -/
def inner_is_few (cfg : Config) (t : Tree α) (p : Ptr) : Option Bool := do
  let some n := t.inner? p | none
  some (decide (n.item.length ≤ cfg.maxInner / 2))

/-- The assignment `parent->item[parent_where] = key`. -/
def store_key_ (cfg : Config) (t : Tree α) (parent : Ptr) (parent_where : Nat) (key : α) :
    Option (Tree α) := do
  let some n := t.inner? parent | none
  let some items := store? cfg.maxInner n.item parent_where key | none
  t.modInner parent (fun m => { m with item := items })

/-- The C++ `merge_leaves_`. -/
def merge_leaves_ (cfg : Config) (t : Tree α) (left right : Ptr) : Option (Tree α × Result α) := do
  let some l := t.leaf? left | none
  let some r := t.leaf? right | none
  if l.item.length + r.item.length > cfg.maxLeaf then none
  else
    let some t := t.modLeaf left (fun m => { m with item := m.item ++ r.item }) | none
    let some t := t.modLeaf left (fun m => { m with next := r.next }) | none
    let some t := (
      if r.next ≠ Ptr.root then t.modLeaf r.next (fun m => { m with prev := left })
      else some { t with right := left })
      | none
    let some t := t.modLeaf right (fun m => { m with item := [] }) | none
    let some t := t.modLeaf right (fun m => { m with parent := Ptr.null }) | none
    some (t, Result.fix)

/-- The C++ `shift_left_leaf_`. -/
def shift_left_leaf_ (cfg : Config) (t : Tree α) (left right parent : Ptr) (parent_where : Nat) :
    Option (Tree α × Result α) := do
  let some l := t.leaf? left | none
  let some r := t.leaf? right | none
  let shiftnum := wsub r.item.length l.item.length / 2
  if l.item.length + shiftnum > cfg.maxLeaf then none
  else
    let some moved := slice? r.item 0 shiftnum | none
    let some rest := slice? r.item shiftnum r.item.length | none
    let some t := t.modLeaf left (fun m => { m with item := m.item ++ moved }) | none
    let some t := t.modLeaf right (fun m => { m with item := rest }) | none
    let some l := t.leaf? left | none
    let some last := l.item[wsub l.item.length 1]? | none
    let some p := t.inner? parent | none
    if parent_where < p.item.length then
      let some t := store_key_ cfg t parent parent_where last | none
      some (t, Result.ok)
    else some (t, Result.lastKey last)

/-- The C++ `shift_right_leaf_`. -/
def shift_right_leaf_ (cfg : Config) (t : Tree α) (left right parent : Ptr) (parent_where : Nat) :
    Option (Tree α) := do
  let some l := t.leaf? left | none
  let some r := t.leaf? right | none
  let shiftnum := wsub l.item.length r.item.length / 2
  if r.item.length + shiftnum > cfg.maxLeaf then none
  else
    let some moved := slice? l.item (wsub l.item.length shiftnum) l.item.length | none
    let some kept := slice? l.item 0 (wsub l.item.length shiftnum) | none
    let some t := t.modLeaf right (fun m => { m with item := moved ++ m.item }) | none
    let some t := t.modLeaf left (fun m => { m with item := kept }) | none
    let some last := kept[wsub kept.length 1]? | none
    store_key_ cfg t parent parent_where last

/-- The C++ `merge_inners_`. -/
def merge_inners_ (cfg : Config) (t : Tree α) (left right parent : Ptr) (parent_where : Nat) :
    Option (Tree α × Result α) := do
  let some l := t.inner? left | none
  let some r := t.inner? right | none
  let some p := t.inner? parent | none
  let some k := p.item[parent_where]? | none
  if l.item.length + 1 + r.item.length > cfg.maxInner then none
  else
    let some lc := slice? l.children 0 (l.item.length + 1) | none
    let some rc := slice? r.children 0 (r.item.length + 1) | none
    let some t := t.modInner left (fun m =>
      { m with item := m.item ++ k :: r.item, children := lc ++ rc })
      | none
    let some (t, count) := update_parent_ t rc left | none
    let some t := t.modInner left (fun m => { m with size := m.size + count }) | none
    let some t := t.modInner right (fun m =>
      { m with item := [], children := [], size := 0, parent := Ptr.null })
      | none
    some (t, Result.fix)

/-- The C++ `shift_left_inner_`. -/
def shift_left_inner_ (cfg : Config) (t : Tree α) (left right parent : Ptr) (parent_where : Nat) :
    Option (Tree α) := do
  let some l := t.inner? left | none
  let some r := t.inner? right | none
  let some p := t.inner? parent | none
  let shiftnum := wsub r.item.length l.item.length / 2
  let some k := p.item[parent_where]? | none
  if l.item.length + shiftnum > cfg.maxInner then none
  else
    let some movedItems := slice? r.item 0 (wsub shiftnum 1) | none
    let some lc := slice? l.children 0 (l.item.length + 1) | none
    let some movedCh := slice? r.children 0 shiftnum | none
    let some t := t.modInner left (fun m =>
      { m with item := m.item ++ k :: movedItems, children := lc ++ movedCh })
      | none
    let some (t, count) := update_parent_ t movedCh left | none
    let some t := t.modInner left (fun m => { m with size := m.size + count }) | none
    let some sep := r.item[wsub shiftnum 1]? | none
    let some t := store_key_ cfg t parent parent_where sep | none
    let some restItems := slice? r.item shiftnum r.item.length | none
    let some restCh := slice? r.children shiftnum (r.item.length + 1) | none
    t.modInner right (fun m =>
      { m with item := restItems, children := restCh, size := wsub m.size count })

/-- The C++ `shift_right_inner_`. -/
def shift_right_inner_ (cfg : Config) (t : Tree α) (left right parent : Ptr) (parent_where : Nat) :
    Option (Tree α) := do
  let some l := t.inner? left | none
  let some r := t.inner? right | none
  let some p := t.inner? parent | none
  let shiftnum := wsub l.item.length r.item.length / 2
  let some k := p.item[parent_where]? | none
  if r.item.length + shiftnum > cfg.maxInner then none
  else
    let from_ := wsub l.item.length shiftnum
    let some movedItems := slice? l.item (from_ + 1) l.item.length | none
    let some movedCh := slice? l.children (from_ + 1) (l.item.length + 1) | none
    let some rc := slice? r.children 0 (r.item.length + 1) | none
    let some t := t.modInner right (fun m =>
      { m with item := movedItems ++ k :: m.item, children := movedCh ++ rc })
      | none
    let some (t, count) := update_parent_ t movedCh right | none
    let some sep := l.item[from_]? | none
    let some t := store_key_ cfg t parent parent_where sep | none
    let some keptItems := slice? l.item 0 from_ | none
    let some keptCh := slice? l.children 0 (from_ + 1) | none
    let some t := t.modInner left (fun m =>
      { m with item := keptItems, children := keptCh, size := wsub m.size count })
      | none
    t.modInner right (fun m => { m with size := m.size + count })

/-- The rules applied to an underflowing leaf that has a sibling, shared by
`erase_one_descend_` and `erase_pos_`. -/
def rebalance_leaf_ (cfg : Config) (t : Tree α) (leaf_node leaf_left leaf_right : Ptr)
    (left_parent right_parent parent : Ptr) (parent_where : Nat) (result : Result α) :
    Option (Tree α × Result α) := do
  let some lfew := if leaf_left = Ptr.null then some false else leaf_is_few cfg t leaf_left | none
  let some rfew := if leaf_right = Ptr.null then some false else leaf_is_few cfg t leaf_right | none
  if (leaf_left = Ptr.null ∨ lfew) ∧ (leaf_right = Ptr.null ∨ rfew) then
    if left_parent = parent then
      let some (t, r) := merge_leaves_ cfg t leaf_left leaf_node | none
      some (t, result.or r)
    else
      let some (t, r) := merge_leaves_ cfg t leaf_node leaf_right | none
      some (t, result.or r)
  else if (leaf_left ≠ Ptr.null ∧ lfew) ∧ (leaf_right ≠ Ptr.null ∧ ¬ rfew) then
    if right_parent = parent then
      let some (t, r) := shift_left_leaf_ cfg t leaf_node leaf_right right_parent parent_where | none
      some (t, result.or r)
    else
      let some (t, r) := merge_leaves_ cfg t leaf_left leaf_node | none
      some (t, result.or r)
  else if (leaf_left ≠ Ptr.null ∧ ¬ lfew) ∧ (leaf_right ≠ Ptr.null ∧ rfew) then
    if left_parent = parent then
      let some t := shift_right_leaf_ cfg t leaf_left leaf_node left_parent (wsub parent_where 1) | none
      some (t, result)
    else
      let some (t, r) := merge_leaves_ cfg t leaf_node leaf_right | none
      some (t, result.or r)
  else if left_parent = right_parent then
    let some l := t.leaf? leaf_left | none
    let some r := t.leaf? leaf_right | none
    if l.item.length ≤ r.item.length then
      let some (t, r) := shift_left_leaf_ cfg t leaf_node leaf_right right_parent parent_where | none
      some (t, result.or r)
    else
      let some t := shift_right_leaf_ cfg t leaf_left leaf_node left_parent (wsub parent_where 1) | none
      some (t, result)
  else
    if left_parent = parent then
      let some t := shift_right_leaf_ cfg t leaf_left leaf_node left_parent (wsub parent_where 1) | none
      some (t, result)
    else
      let some (t, r) := shift_left_leaf_ cfg t leaf_node leaf_right right_parent parent_where | none
      some (t, result.or r)

/-- The rules applied to an underflowing inner node that has a sibling,
shared by `erase_one_descend_` and `erase_pos_descend_`. -/
def rebalance_inner_ (cfg : Config) (t : Tree α) (inner_node inner_left inner_right : Ptr)
    (left_parent right_parent parent : Ptr) (parent_where : Nat) (self_result : Result α) :
    Option (Tree α × Result α) := do
  let some lfew := if inner_left = Ptr.null then some false else inner_is_few cfg t inner_left | none
  let some rfew := if inner_right = Ptr.null then some false else inner_is_few cfg t inner_right | none
  if (inner_left = Ptr.null ∨ lfew) ∧ (inner_right = Ptr.null ∨ rfew) then
    if left_parent = parent then
      let some (t, r) := merge_inners_ cfg t inner_left inner_node left_parent (wsub parent_where 1) | none
      some (t, self_result.or r)
    else
      let some (t, r) := merge_inners_ cfg t inner_node inner_right right_parent parent_where | none
      some (t, self_result.or r)
  else if (inner_left ≠ Ptr.null ∧ lfew) ∧ (inner_right ≠ Ptr.null ∧ ¬ rfew) then
    if right_parent = parent then
      let some t := shift_left_inner_ cfg t inner_node inner_right right_parent parent_where | none
      some (t, self_result)
    else
      let some (t, r) := merge_inners_ cfg t inner_left inner_node left_parent (wsub parent_where 1) | none
      some (t, self_result.or r)
  else if (inner_left ≠ Ptr.null ∧ ¬ lfew) ∧ (inner_right ≠ Ptr.null ∧ rfew) then
    if left_parent = parent then
      let some t := shift_right_inner_ cfg t inner_left inner_node left_parent (wsub parent_where 1) | none
      some (t, self_result)
    else
      let some (t, r) := merge_inners_ cfg t inner_node inner_right right_parent parent_where | none
      some (t, self_result.or r)
  else if left_parent = right_parent then
    let some l := t.inner? inner_left | none
    let some r := t.inner? inner_right | none
    if l.item.length ≤ r.item.length then
      let some t := shift_left_inner_ cfg t inner_node inner_right right_parent parent_where | none
      some (t, self_result)
    else
      let some t := shift_right_inner_ cfg t inner_left inner_node left_parent (wsub parent_where 1) | none
      some (t, self_result)
  else
    if left_parent = parent then
      let some t := shift_right_inner_ cfg t inner_left inner_node left_parent (wsub parent_where 1) | none
      some (t, self_result)
    else
      let some t := shift_left_inner_ cfg t inner_node inner_right right_parent parent_where | none
      some (t, self_result)

/-- After the last item of a leaf was removed: write the leaf's new last key
into the parent's separator, or hand it up. -/
def leaf_last_key_ (cfg : Config) (t : Tree α) (leaf_node parent : Ptr) (parent_where : Nat) :
    Option (Tree α × Result α) := do
  let some l := t.leaf? leaf_node | none
  let some inParent := (
    if parent ≠ Ptr.null then do
      let p ← t.inner? parent
      some (decide (parent_where < p.item.length))
    else some false)
    | none
  if inParent then
    let some k := l.item[wsub l.item.length 1]? | none
    let some t := store_key_ cfg t parent parent_where k | none
    some (t, Result.ok)
  else if l.item.length ≥ 1 then
    let some k := l.item[wsub l.item.length 1]? | none
    some (t, Result.lastKey k)
  else some (t, Result.ok)

/-- What an inner node does with `btree_update_lastkey` from below. -/
def inner_last_key_ (cfg : Config) (t : Tree α) (parent : Ptr) (parent_where : Nat) (k : α) :
    Option (Tree α × Result α) := do
  let some inParent := (
    if parent ≠ Ptr.null then do
      let p ← t.inner? parent
      some (decide (parent_where < p.item.length))
    else some false)
    | none
  if inParent then
    let some t := store_key_ cfg t parent parent_where k | none
    some (t, Result.ok)
  else some (t, Result.lastKey k)

/-- What an inner node does with `btree_fixmerge` from below: drop the
merged-away child and its separator, and at level 1 re-sync the separator of
the child that remains. -/
def fixmerge_ (cfg : Config) (t : Tree α) (inner_node : Ptr) (where0 : Nat) : Option (Tree α) := do
  let some n := t.inner? inner_node | none
  let some c := n.children[where0]? | none
  let some cp := t.parent? c | none
  let «where» := if cp ≠ Ptr.null then where0 + 1 else where0
  let some dead := n.children[«where»]? | none
  let some t := t.free_node_ dead | none
  let some n := t.inner? inner_node | none
  let some pre := slice? n.item 0 (n.item.length) | none
  let some items := eraseAt? pre (wsub «where» 1) | none
  let some cs := slice? n.children 0 (n.item.length + 1) | none
  let some children := eraseAt? cs «where» | none
  let some t := t.modInner inner_node (fun m => { m with item := items, children := children }) | none
  if n.level = 1 then
    let w := wsub «where» 1
    let some child := children[w]? | none
    let some cl := t.leaf? child | none
    let some k := cl.item[wsub cl.item.length 1]? | none
    store_key_ cfg t inner_node w k
  else some t

/-- The C++ `erase_one_descend_`. -/
def erase_one_descend_ (cfg : Config) (key : α) :
    Nat → Tree α → Ptr → Ptr → Ptr → Ptr → Ptr → Ptr → Nat → Option (Tree α × Result α)
  | 0, _, _, _, _, _, _, _, _ => none
  | fuel + 1, t, node, left, right, left_parent, right_parent, parent, parent_where => do
    let some level := t.level? node | none
    if level = 0 then
      let some leaf_node := t.leaf? node | none
      let «where» := lower_bound_node leaf_node.item key
      let some found := (
        if «where» ≥ leaf_node.item.length then some false
        else do
          let x ← leaf_node.item[«where»]?
          some (decide (¬ key < x)))
        | none
      if ¬ found then some (t, Result.notFound)
      else
        let some items := eraseAt? leaf_node.item «where» | none
        let some t := t.modLeaf node (fun m => { m with item := items }) | none
        let some (t, result) := (
          if «where» = items.length then leaf_last_key_ cfg t node parent parent_where
          else some (t, Result.ok))
          | none
        if items.length < cfg.maxLeaf / 2 ∧ ¬ (node = t.parent ∧ items.length ≥ 1) then
          if left = Ptr.null ∧ right = Ptr.null then
            let some t := t.free_node_ t.parent | none
            some ({ t with parent := Ptr.root, left := Ptr.null, right := Ptr.null }, Result.ok)
          else
            rebalance_leaf_ cfg t node left right left_parent right_parent parent parent_where
              result
        else some (t, result)
    else
      let some inner_node := t.inner? node | none
      let «where» := lower_bound_node inner_node.item key
      let some (self_left, self_left_parent) := (
        if «where» = 0 then
          if left = Ptr.null then some (Ptr.null, left_parent)
          else do
            let il ← t.inner? left
            let c ← il.children[wsub il.item.length 1]?
            some (c, left_parent)
        else do
          let c ← inner_node.children[«where» - 1]?
          some (c, node))
        | none
      let some (self_right, self_right_parent) := (
        if «where» = inner_node.item.length then
          if right = Ptr.null then some (Ptr.null, right_parent)
          else do
            let ir ← t.inner? right
            let c ← ir.children[0]?
            some (c, right_parent)
        else do
          let c ← inner_node.children[«where» + 1]?
          some (c, node))
        | none
      let some child := inner_node.children[«where»]? | none
      let some (t, result) := erase_one_descend_ cfg key fuel t child self_left self_right
        self_left_parent self_right_parent node «where»
        | none
      if result.not_found then some (t, result)
      else
        let some t := t.modInner node (fun m => { m with size := wsub m.size 1 }) | none
        let some (t, self_result) := (
          match result.last_key with
          | some k => inner_last_key_ cfg t parent parent_where k
          | none => some (t, Result.ok))
          | none
        let some t := if result.fixmerge then fixmerge_ cfg t node «where» else some t | none
        let some n := t.inner? node | none
        if n.item.length < cfg.maxInner / 2 ∧ ¬ (node = t.parent ∧ n.item.length ≥ 1) then
          if left = Ptr.null ∧ right = Ptr.null then
            let some c0 := n.children[0]? | none
            let t := { t with parent := c0 }
            let some t := t.modInner node (fun m => { m with item := [] }) | none
            let some t := t.free_node_ node | none
            some (t, Result.ok)
          else
            rebalance_inner_ cfg t node left right left_parent right_parent parent parent_where
              self_result
        else some (t, self_result)

/-- The C++ `erase_one_`: the state and whether an element was removed. -/
def erase_one_ (cfg : Config) (t : Tree α) (key : α) : Option (Tree α × Bool) :=
  if t.parent = Ptr.root then some (t, false)
  else do
    let some (t, result) := erase_one_descend_ cfg key (t.mem.length + 1) t t.parent
      Ptr.null Ptr.null Ptr.null Ptr.null Ptr.null 0
      | none
    if result.not_found then some (t, false)
    else some ({ t with size := wsub t.size 1 }, true)

/-- The loop of the public `erase(key)`. -/
def erase_key_loop (cfg : Config) (key : α) : Nat → Tree α → Nat → Option (Tree α × Nat)
  | 0, _, _ => none
  | fuel + 1, t, count => do
    let some (t, removed) := erase_one_ cfg t key | none
    if removed then
      if cfg.unique then some (t, count + 1)
      else erase_key_loop cfg key fuel t (count + 1)
    else some (t, count)

/-- The public `erase(key)`: the state and the number of removed elements. -/
def erase_key (cfg : Config) (t : Tree α) (key : α) : Option (Tree α × Nat) :=
  erase_key_loop cfg key (t.size + 1) t 0

end Erase

section ErasePos
variable {α : Type} [LinearOrder α]

/-- The C++ `get_left_`: the node taken for the left neighbour on the same
level. -/
def get_left_ (t : Tree α) : Nat → Ptr → Option Ptr
  | 0, _ => none
  | fuel + 1, node => do
    let some (parent, «where») := get_parent_ t node | none
    if parent = Ptr.null then some Ptr.null
    else if «where» = 0 then
      let some left_parent := get_left_ t fuel parent | none
      if left_parent = Ptr.null then some Ptr.null
      else
        let some lp := t.inner? left_parent | none
        lp.children[wsub lp.item.length 1]?
    else
      let some p := t.inner? parent | none
      p.children[«where» - 1]?

/-- The C++ `get_right_`: the right neighbour on the same level. -/
def get_right_ (t : Tree α) : Nat → Ptr → Option Ptr
  | 0, _ => none
  | fuel + 1, node => do
    let some (parent, «where») := get_parent_ t node | none
    if parent = Ptr.null then some Ptr.null
    else
      let some p := t.inner? parent | none
      if «where» = p.item.length then
        let some right_parent := get_right_ t fuel parent | none
        if right_parent = Ptr.null then some Ptr.null
        else
          let some rp := t.inner? right_parent | none
          rp.children[0]?
      else p.children[«where» + 1]?

/-- The C++ `get_left_right_parent_`: left, left_parent, right, right_parent. -/
def get_left_right_parent_ (t : Tree α) (parent : Ptr) («where» : Nat) :
    Option (Ptr × Ptr × Ptr × Ptr) :=
  if parent = Ptr.null then some (Ptr.null, Ptr.null, Ptr.null, Ptr.null)
  else do
    let some p := t.inner? parent | none
    let some (left, left_parent) := (
      if «where» = 0 then do
        let left_parent ← get_left_ t (t.mem.length + 1) parent
        if left_parent = Ptr.null then some (Ptr.null, left_parent)
        else
          let lp ← t.inner? left_parent
          let c ← lp.children[wsub lp.item.length 1]?
          some (c, left_parent)
      else do
        let c ← p.children[«where» - 1]?
        some (c, parent))
      | none
    let some (right, right_parent) := (
      if «where» = p.item.length then do
        let right_parent ← get_right_ t (t.mem.length + 1) parent
        if right_parent = Ptr.null then some (Ptr.null, right_parent)
        else
          let rp ← t.inner? right_parent
          let c ← rp.children[0]?
          some (c, right_parent)
      else do
        let c ← p.children[«where» + 1]?
        some (c, parent))
      | none
    some (left, left_parent, right, right_parent)

/-- The loop `do { parent = parent->parent; --parent->size; } while(parent != &root_)`. -/
def size_down_ : Nat → Tree α → Ptr → Option (Tree α)
  | 0, _, _ => none
  | fuel + 1, t, parent => do
    let some p := t.parent? parent | none
    let some s := t.size? p | none
    let some t := t.setSize p (wsub s 1) | none
    if p ≠ Ptr.root then size_down_ fuel t p else some t

/-- The C++ `erase_pos_descend_`. -/
def erase_pos_descend_ (cfg : Config) : Nat → Tree α → Ptr → Nat → Result α → Option (Tree α)
  | 0, _, _, _, _ => none
  | fuel + 1, t, inner_node, «where», result => do
    let some t := t.modInner inner_node (fun m => { m with size := wsub m.size 1 }) | none
    let some (parent, parent_where) := get_parent_ t inner_node | none
    let some (t, self_result) := (
      match result.last_key with
      | some k => inner_last_key_ cfg t parent parent_where k
      | none => some (t, Result.ok))
      | none
    let some t := if result.fixmerge then fixmerge_ cfg t inner_node «where» else some t | none
    let some n := t.inner? inner_node | none
    let some step := (
      if n.item.length < cfg.maxInner / 2 ∧ ¬ (inner_node = t.parent ∧ n.item.length ≥ 1) then do
        let (inner_left, left_parent, inner_right, right_parent) ←
          get_left_right_parent_ t parent parent_where
        if inner_left = Ptr.null ∧ inner_right = Ptr.null then
          let c0 ← n.children[0]?
          let t := { t with parent := c0 }
          let t ← t.setParent t.parent Ptr.root
          let t ← t.modInner inner_node (fun m => { m with item := [] })
          let t ← t.free_node_ inner_node
          some (Sum.inl { t with size := wsub t.size 1 })
        else do
          let r ← rebalance_inner_ cfg t inner_node inner_left inner_right left_parent
            right_parent parent parent_where self_result
          some (Sum.inr r)
      else some (Sum.inr (t, self_result)))
      | none
    match step with
    | Sum.inl t => some t
    | Sum.inr (t, self_result) =>
      if self_result.last_key.isSome ∨ self_result.fixmerge then
        if parent = Ptr.null then some { t with size := wsub t.size 1 }
        else erase_pos_descend_ cfg fuel t parent parent_where self_result
      else size_down_ (t.mem.length + 1) t inner_node

/-- The C++ `erase_pos_`. -/
def erase_pos_ (cfg : Config) (t : Tree α) (leaf_node : Ptr) («where» : Nat) :
    Option (Tree α) := do
  let some l := t.leaf? leaf_node | none
  let some items := eraseAt? l.item «where» | none
  let some t := t.modLeaf leaf_node (fun m => { m with item := items }) | none
  let some (t, result, parent0, parent_where0) := (
    if «where» = items.length then do
      let (parent, parent_where) ← get_parent_ t leaf_node
      let (t, result) ← leaf_last_key_ cfg t leaf_node parent parent_where
      some (t, result, parent, parent_where)
    else some (t, Result.ok, Ptr.null, 0))
    | none
  let some step := (
    if items.length < cfg.maxLeaf / 2 ∧ ¬ (leaf_node = t.parent ∧ items.length ≥ 1) then do
      let (parent, parent_where) ←
        if parent0 = Ptr.null then get_parent_ t leaf_node else some (parent0, parent_where0)
      let (leaf_left, left_parent, leaf_right, right_parent) ←
        get_left_right_parent_ t parent parent_where
      if leaf_left = Ptr.null ∧ leaf_right = Ptr.null then
        let t ← t.free_node_ t.parent
        some (Sum.inl
          { t with parent := Ptr.root, left := Ptr.root, right := Ptr.root,
                   size := wsub t.size 1 })
      else do
        let (t, result) ← rebalance_leaf_ cfg t leaf_node leaf_left leaf_right left_parent
          right_parent parent parent_where result
        some (Sum.inr (t, result, parent, parent_where))
    else some (Sum.inr (t, result, parent0, parent_where0)))
    | none
  match step with
  | Sum.inl t => some t
  | Sum.inr (t, result, parent, parent_where) =>
    if result.last_key.isSome ∨ result.fixmerge then
      if parent = Ptr.null then some { t with size := wsub t.size 1 }
      else erase_pos_descend_ cfg (t.mem.length + 1) t parent parent_where result
    else size_down_ (t.mem.length + 1) t leaf_node

/-- The public `erase(const_iterator)`. -/
def erase (cfg : Config) (t : Tree α) (it : Pos) : Option (Tree α) :=
  if t.parent = Ptr.root then some t
  else erase_pos_ cfg t it.1 it.2

end ErasePos

section Iterators
variable {α : Type}

/-- The value a 64-bit pattern has as a `difference_type` (two's complement). -/
def sint (x : Int) : Int := (x + 2 ^ 63) % 2 ^ 64 - 2 ^ 63

/-- The value a `difference_type` has after `size_type(...)`. -/
def usize (x : Int) : Nat := (x % 2 ^ 64).toNat

/-- Signed addition of two `difference_type` values; overflow is undefined. -/
def sadd (a b : Int) : Option Int :=
  if -(2 ^ 63) ≤ a + b ∧ a + b < 2 ^ 63 then some (a + b) else none

/-- The static `advance_next_(node, where)` of the iterators. -/
def advance_next_ (t : Tree α) (node : Ptr) («where» : Nat) : Option Pos := do
  let some level := t.level? node | none
  if level ≠ 0 then
    if node = Ptr.root then some (t.left, «where») else none
  else
    let some leaf_node := t.leaf? node | none
    if «where» + 1 ≥ leaf_node.item.length then some (leaf_node.next, 0)
    else some (node, «where» + 1)

/-- The static `advance_prev_(node, where)` of the iterators. -/
def advance_prev_ (t : Tree α) (node : Ptr) («where» : Nat) : Option Pos :=
  if «where» = 0 then do
    let some level := t.level? node | none
    let some node := (
      if level = 0 then (t.leaf? node).map (fun l => l.prev)
      else if node = Ptr.root then some t.right else none)
      | none
    let some level := t.level? node | none
    if level ≠ 0 then some (node, 0)
    else
      let some leaf_node := t.leaf? node | none
      some (node, wsub leaf_node.item.length 1)
  else some (node, «where» - 1)

/-- The static `advance_step_(node, where, step)`: move an iterator by a
signed number of elements. -/
def advance_step_ (t : Tree α) (node : Ptr) («where» : Nat) (step : Int) : Option Pos := do
  let some level := t.level? node | none
  let some first := (
    if level ≠ 0 then
      if step = 0 then some (Sum.inl (node, «where»))
      else do
        let some moved := (
          if step > 0 then (advance_next_ t node «where»).map (fun p => (p, step - 1))
          else (advance_prev_ t node «where»).map (fun p => (p, step + 1)))
          | none
        let some level := t.level? moved.1.1 | none
        if level ≠ 0 then some (Sum.inl moved.1) else some (Sum.inr moved)
    else some (Sum.inr ((node, «where»), step)))
    | none
  match first with
  | Sum.inl pos => some pos
  | Sum.inr (pos, step) =>
    let some top := advance_root_ t (t.mem.length + 1) pos.1 pos.2 | none
    let step := sint (step + top.2)
    let some size := t.size? top.1 | none
    if step < 0 ∨ usize step ≥ size then
      let some parent := t.parent? top.1 | none
      some (parent, 0)
    else access_index_ t top.1 (usize step)

/-- The iterator `it + diff`. -/
def iterator_add (t : Tree α) (it : Pos) (diff : Int) : Option Pos :=
  advance_step_ t it.1 it.2 diff

/-- The difference `it - other` of two iterators: the difference of their
ranks as `difference_type` values. -/
def iterator_sub (t : Tree α) (it other : Pos) : Option Int := do
  let some a := calculate_rank_ t it.1 it.2 | none
  let some b := calculate_rank_ t other.1 other.2 | none
  sadd (sint a) (- sint b)

/-- The static `rank(const_iterator)`. -/
def rank_it (t : Tree α) (it : Pos) : Option Nat := calculate_rank_ t it.1 it.2

/-- The public `slice(slice_begin, slice_end)`. -/
def slice (t : Tree α) (slice_begin slice_end : Int) : Option (Pos × Pos) := do
  let s_size := sint t.size
  let some slice_begin := (
    if slice_begin < 0 then (sadd s_size slice_begin).map (fun x => max x 0)
    else some slice_begin)
    | none
  let some slice_end := (if slice_end ≤ 0 then sadd s_size slice_end else some slice_end) | none
  if slice_begin > slice_end ∨ slice_begin ≥ s_size then some ((Ptr.root, 0), (Ptr.root, 0))
  else
    let some a := «at» t (usize slice_begin) | none
    let some b := «at» t (usize slice_end) | none
    some (a, b)

/-- The recursive `free_node_<true>`: give back a node and all nodes below it. -/
def free_node_rec : Nat → Tree α → Ptr → Option (Tree α)
  | 0, _, _ => none
  | fuel + 1, t, node =>
    match t.node? node with
    | some (Node.leaf _) => t.free_node_ node
    | some (Node.inner n) => do
      let some t := (List.range (n.item.length + 1)).foldlM (fun t i =>
        match n.children[i]? with
        | some c => free_node_rec fuel t c
        | none => none) t | none
      t.free_node_ node
    | none => none

/-- The public `clear`. -/
def clear (t : Tree α) : Option (Tree α) :=
  if t.parent ≠ Ptr.root then do
    let some t := free_node_rec (t.mem.length + 1) t t.parent | none
    some { t with parent := Ptr.root, left := Ptr.root, right := Ptr.root, size := 0 }
  else some t

end Iterators

section Ranges
variable {α : Type} [LinearOrder α]

/-- The public `range(min, max)`. -/
def range (t : Tree α) (min max : α) : Option (Pos × Pos) :=
  if max < min then some ((Ptr.root, 0), (Ptr.root, 0))
  else do
    let some a := lower_bound_ t min | none
    let some b := upper_bound_ t max | none
    some (iterator a, iterator b)

/-- The loop of `erase(erase_begin, erase_end)`: erase the positions
`pos_end - 1` down to `pos_begin`, then return `at(pos_begin)`. -/
def erase_range_loop (cfg : Config) : Nat → Tree α → Nat → Nat → Option (Tree α × Pos)
  | 0, _, _, _ => none
  | fuel + 1, t, pos_begin, pos_end =>
    if pos_begin ≠ pos_end then do
      let some it := «at» t (wsub pos_end 1) | none
      let some t := erase cfg t it | none
      erase_range_loop cfg fuel t pos_begin (wsub pos_end 1)
    else («at» t pos_begin).map (fun it => (t, it))

/-- The public `erase(erase_begin, erase_end)`; the loop takes at most
`size()` rounds when `erase_begin` does not come after `erase_end`. -/
def erase_range (cfg : Config) (t : Tree α) (erase_begin erase_end : Pos) :
    Option (Tree α × Pos) :=
  if erase_begin = (t.left, 0) ∧ erase_end = (Ptr.root, 0) then do
    let some t := clear t | none
    some (t, (t.left, 0))
  else do
    let some pos_begin := calculate_rank_ t erase_begin.1 erase_begin.2 | none
    let some pos_end := calculate_rank_ t erase_end.1 erase_end.2 | none
    erase_range_loop cfg (t.size + 1) t pos_begin pos_end

end Ranges

section Observers
variable {α : Type}

/-- The leaves of a container in order, each with its items. -/
abbrev Leaves (α : Type) := List (Ptr × List α)

/-- The items of a run of leaves. -/
def items (ls : Leaves α) : List α := (ls.map Prod.snd).flatten

/-- The leaves below a node, left to right. -/
def leaves (t : Tree α) : Nat → Ptr → Option (Leaves α)
  | 0, _ => none
  | fuel + 1, node =>
    match t.node? node with
    | some (Node.leaf l) => some [(node, l.item)]
    | some (Node.inner n) =>
      n.children.foldr (fun c acc =>
        match leaves t fuel c, acc with
        | some xs, some ys => some (xs ++ ys)
        | _, _ => none) (some [])
    | none => none

/-- The leaves of the container: those below the real root, none when
`root_.parent` is the anchor. -/
def leafList (t : Tree α) : Option (Leaves α) :=
  if t.parent = Ptr.root then some [] else leaves t (t.mem.length + 1) t.parent

/-- The in-order sequence of the container. -/
def toList (t : Tree α) : Option (List α) := (leafList t).map items

/-- The in-order index of a position among a run of leaves. -/
def indexIn : Leaves α → Pos → Option Nat
  | [], _ => none
  | (p, l) :: rest, pos =>
    if p = pos.1 then (if pos.2 < l.length then some pos.2 else none)
    else (indexIn rest pos).map (· + l.length)

/-- The in-order index an iterator designates: the number of elements before
it; `end()` designates the number of elements. -/
def indexOf (t : Tree α) (pos : Pos) : Option Nat :=
  if pos = (Ptr.root, 0) then (toList t).map List.length
  else (leafList t).bind (fun ls => indexIn ls pos)

/-- The elements of the iterator range `[first, last)`: those of the in-order
sequence from the index `first` designates up to the index `last`
designates. -/
def elements (t : Tree α) (first last : Pos) : Option (List α) := do
  let some i := indexOf t first | none
  let some j := indexOf t last | none
  let some xs := toList t | none
  some ((xs.take j).drop i)

/-- The items met by walking the leaf chain forward from a leaf to the
anchor. -/
def chain (t : Tree α) : Nat → Ptr → Option (List α)
  | 0, _ => none
  | fuel + 1, p =>
    if p = Ptr.root then some []
    else
      match t.leaf? p with
      | some l =>
        match chain t fuel l.next with
        | some rest => some (l.item ++ rest)
        | none => none
      | none => none

/-- The sequence `begin() .. end()` read along the leaf chain. -/
def iterate (t : Tree α) : Option (List α) := chain t (t.mem.length + 1) t.left

/-- The default-constructed container. -/
def empty : Tree α := ⟨Ptr.root, 0, Ptr.root, Ptr.root, []⟩

/-- I4 below a node, checked by a walk from the node: every inner node's
`size` is the sum of the `size` fields of its children (the `size` of a leaf
is its fill). -/
def sizes_ok (t : Tree α) : Nat → Ptr → Bool
  | 0, _ => false
  | fuel + 1, p =>
    match t.node? p with
    | some (Node.leaf _) => true
    | some (Node.inner n) =>
      n.children.all (fun c => sizes_ok t fuel c) &&
        decide (n.size = (n.children.map (fun c => (t.size? c).getD 0)).sum)
    | none => false

end Observers

section Invariants
variable {α : Type} [LinearOrder α]

/-- What a parent knows of one child: the pointer, the leaves below it and the
addresses of the nodes of its subtree. -/
structure Part (α : Type) where
  ptr : Ptr
  leaves : Leaves α
  fp : List Nat

/-- The greatest key below a child. -/
def Part.last (q : Part α) : Option α := (items q.leaves).getLast?

/-- The node `p` is the root of a subtree of height `h` that satisfies I2–I5:
`par` is its parent field, `ls` its leaves in order and `fp` the addresses of
its nodes; `isRoot` selects the fill bound of the real root. -/
def Sub (cfg : Config) (t : Tree α) : Nat → Bool → Ptr → Ptr → Leaves α → List Nat → Prop
  | 0, isRoot, p, par, ls, fp =>
    ∃ a l, p = Ptr.node a ∧ t.node? p = some (Node.leaf l) ∧ l.parent = par ∧
      ls = [(p, l.item)] ∧ fp = [a] ∧
      (if isRoot then 1 else cfg.maxLeaf / 2) ≤ l.item.length ∧ l.item.length ≤ cfg.maxLeaf
  | h + 1, isRoot, p, par, ls, fp =>
    ∃ a n, ∃ ps : List (Part α), p = Ptr.node a ∧ t.node? p = some (Node.inner n) ∧
      n.parent = par ∧ n.level = h + 1 ∧ n.size = (items ls).length ∧
      n.children = ps.map Part.ptr ∧ n.item.map some = ps.dropLast.map Part.last ∧ ps ≠ [] ∧
      (∀ q ∈ ps, Sub cfg t h false q.ptr p q.leaves q.fp) ∧
      ls = (ps.map Part.leaves).flatten ∧ fp = a :: (ps.map Part.fp).flatten ∧
      (if isRoot then 1 else cfg.maxInner / 2) ≤ n.item.length ∧ n.item.length ≤ cfg.maxInner

/-- I6 for a run of leaves that follows the leaf `prev` (or the anchor): each
leaf's `prev` is its predecessor, its `next` its successor, and the last
`next` is the anchor. -/
def ChainOk (t : Tree α) : Ptr → Leaves α → Prop
  | _, [] => True
  | prev, (p, _) :: rest =>
    ∃ l, t.leaf? p = some l ∧ l.prev = prev ∧
      l.next = (match rest with
        | [] => Ptr.root
        | (q, _) :: _ => q) ∧
      ChainOk t p rest

/-- I1: the order of the in-order sequence. -/
def Ordered (cfg : Config) (xs : List α) : Prop :=
  xs.Pairwise (· ≤ ·) ∧ (cfg.unique = true → xs.Pairwise (· < ·))

/-- The invariants I1–I7 of a container, for capacities that admit a split
and a height below the anchor's level. -/
def WF (cfg : Config) (t : Tree α) : Prop :=
  2 ≤ cfg.maxLeaf ∧ 2 ≤ cfg.maxInner ∧
  ((t.parent = Ptr.root ∧ t.left = Ptr.root ∧ t.right = Ptr.root ∧ t.size = 0) ∨
   (∃ h ls fp, Sub cfg t h true t.parent Ptr.root ls fp ∧ fp.Nodup ∧ h + 1 < SIZE_MAX ∧
      t.size = (items ls).length ∧ Ordered cfg (items ls) ∧ ChainOk t Ptr.root ls ∧
      (ls.head?).map Prod.fst = some t.left ∧ (ls.getLast?).map Prod.fst = some t.right))

end Invariants

end BPP

/-! ## Facts on the per-node bounds -/

namespace BPP

section NodeBounds
variable {α : Type} [LinearOrder α]

theorem lower_bound_node_le (l : List α) (k : α) : lower_bound_node l k ≤ l.length := by
  induction l with
  | nil => simp [lower_bound_node]
  | cons x xs ih =>
    simp only [lower_bound_node, List.length_cons]
    split <;> omega

theorem upper_bound_node_le (l : List α) (k : α) : upper_bound_node l k ≤ l.length := by
  induction l with
  | nil => simp [upper_bound_node]
  | cons x xs ih =>
    simp only [upper_bound_node, List.length_cons]
    split <;> omega

/-- Past a prefix of items below the key the scan goes on in the rest. -/
theorem lower_bound_node_append_of_lt (a b : List α) (k : α) (h : ∀ x ∈ a, x < k) :
    lower_bound_node (a ++ b) k = a.length + lower_bound_node b k := by
  induction a with
  | nil => simp
  | cons x xs ih =>
    have hx : x < k := h x (List.mem_cons_self _ _)
    have := ih (fun y hy => h y (List.mem_cons_of_mem _ hy))
    rw [List.cons_append, lower_bound_node, if_pos hx, this, List.length_cons]
    omega

/-- The scan stops inside a prefix that holds an item not below the key. -/
theorem lower_bound_node_append_of_not_lt (a b : List α) (k : α) (h : ∃ x ∈ a, ¬ x < k) :
    lower_bound_node (a ++ b) k = lower_bound_node a k := by
  induction a with
  | nil => simp at h
  | cons x xs ih =>
    rw [List.cons_append, lower_bound_node, lower_bound_node]
    by_cases hx : x < k
    · rw [if_pos hx, if_pos hx]
      obtain ⟨y, hy, hyk⟩ := h
      rcases List.mem_cons.1 hy with rfl | hy'
      · exact absurd hx hyk
      · rw [ih ⟨y, hy', hyk⟩]
    · rw [if_neg hx, if_neg hx]

theorem upper_bound_node_append_of_le (a b : List α) (k : α) (h : ∀ x ∈ a, ¬ k < x) :
    upper_bound_node (a ++ b) k = a.length + upper_bound_node b k := by
  induction a with
  | nil => simp
  | cons x xs ih =>
    have hx : ¬ k < x := h x (List.mem_cons_self _ _)
    have := ih (fun y hy => h y (List.mem_cons_of_mem _ hy))
    rw [List.cons_append, upper_bound_node, if_pos hx, this, List.length_cons]
    omega

theorem upper_bound_node_append_of_gt (a b : List α) (k : α) (h : ∃ x ∈ a, k < x) :
    upper_bound_node (a ++ b) k = upper_bound_node a k := by
  induction a with
  | nil => simp at h
  | cons x xs ih =>
    rw [List.cons_append, upper_bound_node, upper_bound_node]
    by_cases hx : k < x
    · rw [if_neg (not_not.2 hx), if_neg (not_not.2 hx)]
    · rw [if_pos hx, if_pos hx]
      obtain ⟨y, hy, hyk⟩ := h
      rcases List.mem_cons.1 hy with rfl | hy'
      · exact absurd hyk hx
      · rw [ih ⟨y, hy', hyk⟩]

/-- In a sorted list the items before the lower bound are below the key. -/
theorem lt_of_lt_lower_bound_node (l : List α) (k : α) (j : Nat)
    (hj : j < lower_bound_node l k) (hl : j < l.length) : l[j] < k := by
  induction l generalizing j with
  | nil => simp at hl
  | cons x xs ih =>
    simp only [lower_bound_node] at hj
    by_cases hx : x < k
    · simp only [hx, if_true] at hj
      cases j with
      | zero => simpa using hx
      | succ j =>
        simp only [List.getElem_cons_succ]
        exact ih j (by omega) (by simpa using hl)
    · simp [hx] at hj

/-- The item at the lower bound is not below the key. -/
theorem not_lt_at_lower_bound_node (l : List α) (k : α)
    (hl : lower_bound_node l k < l.length) : ¬ l[lower_bound_node l k] < k := by
  induction l with
  | nil => simp at hl
  | cons x xs ih =>
    by_cases hx : x < k
    · have e : lower_bound_node (x :: xs) k = lower_bound_node xs k + 1 := by
        simp [lower_bound_node, hx]
      have hl' : lower_bound_node xs k < xs.length := by
        rw [e] at hl; simpa using hl
      simp only [e, List.getElem_cons_succ]
      exact ih hl'
    · have e : lower_bound_node (x :: xs) k = 0 := by simp [lower_bound_node, hx]
      simp only [e, List.getElem_cons_zero]
      exact hx

theorem not_gt_of_lt_upper_bound_node (l : List α) (k : α) (j : Nat)
    (hj : j < upper_bound_node l k) (hl : j < l.length) : ¬ k < l[j] := by
  induction l generalizing j with
  | nil => simp at hl
  | cons x xs ih =>
    simp only [upper_bound_node] at hj
    by_cases hx : k < x
    · simp [hx] at hj
    · simp only [hx, not_false_eq_true, if_true] at hj
      cases j with
      | zero => simpa using hx
      | succ j =>
        simp only [List.getElem_cons_succ]
        exact ih j (by omega) (by simpa using hl)

theorem gt_at_upper_bound_node (l : List α) (k : α)
    (hl : upper_bound_node l k < l.length) : k < l[upper_bound_node l k] := by
  induction l with
  | nil => simp at hl
  | cons x xs ih =>
    by_cases hx : k < x
    · have e : upper_bound_node (x :: xs) k = 0 := by simp [upper_bound_node, hx]
      simp only [e, List.getElem_cons_zero]
      exact hx
    · have e : upper_bound_node (x :: xs) k = upper_bound_node xs k + 1 := by
        simp [upper_bound_node, hx]
      have hl' : upper_bound_node xs k < xs.length := by
        rw [e] at hl; simpa using hl
      simp only [e, List.getElem_cons_succ]
      exact ih hl'

end NodeBounds

end BPP

/-! ## Facts on runs of leaves and on the children of an inner node -/

namespace BPP

section Runs
variable {α : Type}

@[simp] theorem items_nil : items ([] : Leaves α) = [] := rfl

@[simp] theorem items_cons (p : Ptr) (l : List α) (ls : Leaves α) :
    items ((p, l) :: ls) = l ++ items ls := by
  simp [items]

@[simp] theorem items_append (a b : Leaves α) : items (a ++ b) = items a ++ items b := by
  simp [items]

/-- The leaves below a run of children. -/
def leavesOf (ps : List (Part α)) : Leaves α := (ps.map Part.leaves).flatten

/-- The node addresses below a run of children. -/
def fpOf (ps : List (Part α)) : List Nat := (ps.map Part.fp).flatten

@[simp] theorem leavesOf_nil : leavesOf ([] : List (Part α)) = [] := rfl

@[simp] theorem leavesOf_cons (q : Part α) (ps : List (Part α)) :
    leavesOf (q :: ps) = q.leaves ++ leavesOf ps := by
  simp [leavesOf]

@[simp] theorem leavesOf_append (a b : List (Part α)) :
    leavesOf (a ++ b) = leavesOf a ++ leavesOf b := by
  simp [leavesOf]

@[simp] theorem fpOf_nil : fpOf ([] : List (Part α)) = [] := rfl

@[simp] theorem fpOf_cons (q : Part α) (ps : List (Part α)) :
    fpOf (q :: ps) = q.fp ++ fpOf ps := by
  simp [fpOf]

@[simp] theorem fpOf_append (a b : List (Part α)) : fpOf (a ++ b) = fpOf a ++ fpOf b := by
  simp [fpOf]

theorem indexIn_append_of_not_mem (pre ls : Leaves α) (pos : Pos)
    (h : pos.1 ∉ pre.map Prod.fst) :
    indexIn (pre ++ ls) pos = (indexIn ls pos).map (· + (items pre).length) := by
  induction pre with
  | nil => simp
  | cons x xs ih =>
    obtain ⟨p, l⟩ := x
    have hp : p ≠ pos.1 := by
      intro e; apply h; simp [e]
    have hx : pos.1 ∉ xs.map Prod.fst := by
      intro e; apply h; simp only [List.map_cons, List.mem_cons]; exact Or.inr e
    rw [List.cons_append, indexIn, if_neg hp, ih hx, items_cons, List.length_append]
    cases indexIn ls pos with
    | none => rfl
    | some n => simp only [Option.map_some']; congr 1; omega

theorem indexIn_head (p : Ptr) (l : List α) (ls : Leaves α) (w : Nat) (hw : w < l.length) :
    indexIn ((p, l) :: ls) (p, w) = some w := by
  simp [indexIn, hw]

theorem indexIn_append_left (a b : Leaves α) (pos : Pos) (i : Nat)
    (h : indexIn a pos = some i) : indexIn (a ++ b) pos = some i := by
  induction a generalizing i with
  | nil => simp [indexIn] at h
  | cons x xs ih =>
    obtain ⟨p, l⟩ := x
    rw [List.cons_append, indexIn]
    rw [indexIn] at h
    by_cases hp : p = pos.1
    · rw [if_pos hp] at h ⊢; exact h
    · rw [if_neg hp] at h ⊢
      cases hx : indexIn xs pos with
      | none => rw [hx] at h; simp at h
      | some j => rw [hx] at h; rw [ih j hx]; exact h

theorem mem_of_getLast? (l : List α) (m : α) (hm : l.getLast? = some m) : m ∈ l := by
  obtain ⟨ys, rfl⟩ := List.getLast?_eq_some_iff.1 hm
  simp

end Runs

section Keys
variable {α : Type} [LinearOrder α]

theorem le_getLast_of_pairwise (l : List α) (m : α) (hs : l.Pairwise (· ≤ ·))
    (hm : l.getLast? = some m) : ∀ x ∈ l, x ≤ m := by
  obtain ⟨ys, rfl⟩ := List.getLast?_eq_some_iff.1 hm
  intro x hx
  rcases List.mem_append.1 hx with h | h
  · exact (List.pairwise_append.1 hs).2.2 x h m (by simp)
  · simp at h; rw [h]

/-- Where the lower bound among the separators points: the children before it
hold only items below the key, and unless it is the last child, the child
there holds an item not below the key. -/
theorem key_lower_split (ps : List (Part α)) (keys : List α) (k : α)
    (hk : keys.map some = ps.dropLast.map Part.last) (hne : ps ≠ [])
    (hs : (items (leavesOf ps)).Pairwise (· ≤ ·)) :
    ∃ pre q post, ps = pre ++ q :: post ∧ pre.length = lower_bound_node keys k ∧
      (∀ x ∈ items (leavesOf pre), x < k) ∧
      (post ≠ [] → ∃ x ∈ items q.leaves, ¬ x < k) := by
  induction ps generalizing keys with
  | nil => exact absurd rfl hne
  | cons q rest ih =>
    cases rest with
    | nil =>
      have : keys = [] := by simpa using hk
      subst this
      exact ⟨[], q, [], rfl, rfl, by simp, by simp⟩
    | cons q' rest =>
      cases keys with
      | nil => simp at hk
      | cons key keys' =>
        simp only [List.dropLast_cons₂, List.map_cons, List.cons.injEq] at hk
        obtain ⟨hkey, hk'⟩ := hk
        simp only [leavesOf_cons, items_append] at hs
        by_cases hlt : key < k
        · obtain ⟨pre, q'', post, e, hlen, hpre, hpost⟩ :=
            ih keys' hk' (by simp) (by simpa using (List.pairwise_append.1 hs).2.1)
          refine ⟨q :: pre, q'', post, by rw [e]; rfl, ?_, ?_, hpost⟩
          · simp [lower_bound_node, hlt, hlen]
          · intro x hx
            simp only [leavesOf_cons, items_append, List.mem_append] at hx
            rcases hx with hx | hx
            · exact lt_of_le_of_lt
                (le_getLast_of_pairwise _ key (List.pairwise_append.1 hs).1 hkey.symm x hx) hlt
            · exact hpre x hx
        · refine ⟨[], q, q' :: rest, rfl, by simp [lower_bound_node, hlt], by simp, ?_⟩
          intro _
          exact ⟨key, mem_of_getLast? _ _ hkey.symm, hlt⟩

/-- Where the upper bound among the separators points. -/
theorem key_upper_split (ps : List (Part α)) (keys : List α) (k : α)
    (hk : keys.map some = ps.dropLast.map Part.last) (hne : ps ≠ [])
    (hs : (items (leavesOf ps)).Pairwise (· ≤ ·)) :
    ∃ pre q post, ps = pre ++ q :: post ∧ pre.length = upper_bound_node keys k ∧
      (∀ x ∈ items (leavesOf pre), ¬ k < x) ∧
      (post ≠ [] → ∃ x ∈ items q.leaves, k < x) := by
  induction ps generalizing keys with
  | nil => exact absurd rfl hne
  | cons q rest ih =>
    cases rest with
    | nil =>
      have : keys = [] := by simpa using hk
      subst this
      exact ⟨[], q, [], rfl, rfl, by simp, by simp⟩
    | cons q' rest =>
      cases keys with
      | nil => simp at hk
      | cons key keys' =>
        simp only [List.dropLast_cons₂, List.map_cons, List.cons.injEq] at hk
        obtain ⟨hkey, hk'⟩ := hk
        simp only [leavesOf_cons, items_append] at hs
        by_cases hlt : k < key
        · refine ⟨[], q, q' :: rest, rfl, by simp [upper_bound_node, hlt], by simp, ?_⟩
          intro _
          exact ⟨key, mem_of_getLast? _ _ hkey.symm, hlt⟩
        · obtain ⟨pre, q'', post, e, hlen, hpre, hpost⟩ :=
            ih keys' hk' (by simp) (by simpa using (List.pairwise_append.1 hs).2.1)
          refine ⟨q :: pre, q'', post, by rw [e]; rfl, ?_, ?_, hpost⟩
          · simp [upper_bound_node, hlt, hlen]
          · intro x hx
            simp only [leavesOf_cons, items_append, List.mem_append] at hx
            rcases hx with hx | hx
            · exact not_lt.2 (le_trans
                (le_getLast_of_pairwise _ key (List.pairwise_append.1 hs).1 hkey.symm x hx)
                (not_lt.1 hlt))
            · exact hpre x hx

end Keys

end BPP

/-! ## Reading a well-formed subtree -/

namespace BPP

section Reads
variable {α : Type}

theorem leaf?_of_node? {t : Tree α} {p : Ptr} {l : LeafNode α}
    (h : t.node? p = some (Node.leaf l)) : t.leaf? p = some l := by
  simp [Tree.leaf?, h]

theorem inner?_of_node? {t : Tree α} {p : Ptr} {n : InnerNode α}
    (h : t.node? p = some (Node.inner n)) : t.inner? p = some n := by
  simp [Tree.inner?, h]

theorem node?_of_leaf? {t : Tree α} {p : Ptr} {l : LeafNode α}
    (h : t.leaf? p = some l) : t.node? p = some (Node.leaf l) := by
  unfold Tree.leaf? at h
  split at h
  · rename_i l' h'; simp at h; rw [h', h]
  · simp at h

theorem node?_of_inner? {t : Tree α} {p : Ptr} {n : InnerNode α}
    (h : t.inner? p = some n) : t.node? p = some (Node.inner n) := by
  unfold Tree.inner? at h
  split at h
  · rename_i n' h'; simp at h; rw [h', h]
  · simp at h

theorem level?_leaf {t : Tree α} {a : Nat} {l : LeafNode α}
    (h : t.node? (Ptr.node a) = some (Node.leaf l)) : t.level? (Ptr.node a) = some 0 := by
  simp [Tree.level?, h]

theorem level?_inner {t : Tree α} {a : Nat} {n : InnerNode α}
    (h : t.node? (Ptr.node a) = some (Node.inner n)) : t.level? (Ptr.node a) = some n.level := by
  simp [Tree.level?, h]

theorem parent?_leaf {t : Tree α} {a : Nat} {l : LeafNode α}
    (h : t.node? (Ptr.node a) = some (Node.leaf l)) : t.parent? (Ptr.node a) = some l.parent := by
  simp [Tree.parent?, h]

theorem parent?_inner {t : Tree α} {a : Nat} {n : InnerNode α}
    (h : t.node? (Ptr.node a) = some (Node.inner n)) :
    t.parent? (Ptr.node a) = some n.parent := by
  simp [Tree.parent?, h]

theorem size?_leaf {t : Tree α} {a : Nat} {l : LeafNode α}
    (h : t.node? (Ptr.node a) = some (Node.leaf l)) :
    t.size? (Ptr.node a) = some l.item.length := by
  simp [Tree.size?, h]

theorem size?_inner {t : Tree α} {a : Nat} {n : InnerNode α}
    (h : t.node? (Ptr.node a) = some (Node.inner n)) : t.size? (Ptr.node a) = some n.size := by
  simp [Tree.size?, h]

theorem lt_mem_of_node? {t : Tree α} {a : Nat} {x : Node α}
    (h : t.node? (Ptr.node a) = some x) : a < t.mem.length := by
  simp only [Tree.node?] at h
  by_contra hlt
  rw [List.getElem?_eq_none (by omega)] at h
  simp at h

theorem getElem?_map_ptr_length (pre : List (Part α)) (q : Part α) (post : List (Part α)) :
    ((pre ++ q :: post).map Part.ptr)[pre.length]? = some q.ptr := by
  rw [List.map_append, List.getElem?_append_right (by simp)]
  simp

end Reads

section SubFacts
variable {α : Type}

theorem Sub.zero_iff {cfg : Config} {t : Tree α} {isRoot : Bool} {p par : Ptr} {ls : Leaves α}
    {fp : List Nat} :
    Sub cfg t 0 isRoot p par ls fp ↔
      ∃ a l, p = Ptr.node a ∧ t.node? p = some (Node.leaf l) ∧ l.parent = par ∧
        ls = [(p, l.item)] ∧ fp = [a] ∧
        (if isRoot then 1 else cfg.maxLeaf / 2) ≤ l.item.length ∧ l.item.length ≤ cfg.maxLeaf :=
  Iff.rfl

theorem Sub.succ_iff {cfg : Config} {t : Tree α} {h : Nat} {isRoot : Bool} {p par : Ptr}
    {ls : Leaves α} {fp : List Nat} :
    Sub cfg t (h + 1) isRoot p par ls fp ↔
      ∃ a n, ∃ ps : List (Part α), p = Ptr.node a ∧ t.node? p = some (Node.inner n) ∧
        n.parent = par ∧ n.level = h + 1 ∧ n.size = (items ls).length ∧
        n.children = ps.map Part.ptr ∧ n.item.map some = ps.dropLast.map Part.last ∧ ps ≠ [] ∧
        (∀ q ∈ ps, Sub cfg t h false q.ptr p q.leaves q.fp) ∧
        ls = leavesOf ps ∧ fp = a :: fpOf ps ∧
        (if isRoot then 1 else cfg.maxInner / 2) ≤ n.item.length ∧
        n.item.length ≤ cfg.maxInner :=
  Iff.rfl

/-- The root of a subtree is a heap node of its footprint. -/
theorem Sub.ptr {cfg : Config} {t : Tree α} {h : Nat} {isRoot : Bool} {p par : Ptr}
    {ls : Leaves α} {fp : List Nat} (hs : Sub cfg t h isRoot p par ls fp) :
    ∃ a tl, p = Ptr.node a ∧ fp = a :: tl := by
  cases h with
  | zero =>
    obtain ⟨a, l, hp, -, -, -, hfp, -⟩ := Sub.zero_iff.1 hs
    exact ⟨a, [], hp, hfp⟩
  | succ h =>
    obtain ⟨a, n, ps, hp, -, -, -, -, -, -, -, -, -, hfp, -⟩ := Sub.succ_iff.1 hs
    exact ⟨a, _, hp, hfp⟩

/-- Every leaf of a subtree is a heap node of its footprint. -/
theorem Sub.leaf_mem {cfg : Config} {t : Tree α} :
    ∀ {h : Nat} {isRoot : Bool} {p par : Ptr} {ls : Leaves α} {fp : List Nat},
      Sub cfg t h isRoot p par ls fp → ∀ e ∈ ls, ∃ a, e.1 = Ptr.node a ∧ a ∈ fp := by
  intro h
  induction h with
  | zero =>
    intro isRoot p par ls fp hs e he
    obtain ⟨a, l, hp, -, -, hls, hfp, -⟩ := Sub.zero_iff.1 hs
    subst hls hfp
    simp only [List.mem_singleton] at he
    subst he
    exact ⟨a, hp, by simp⟩
  | succ h ih =>
    intro isRoot p par ls fp hs e he
    obtain ⟨a, n, ps, hp, -, -, -, -, -, -, -, hch, hls, hfp, -⟩ := Sub.succ_iff.1 hs
    subst hls hfp
    simp only [leavesOf, List.mem_flatten, List.mem_map] at he
    obtain ⟨l, ⟨q, hq, rfl⟩, hel⟩ := he
    obtain ⟨b, hb, hbq⟩ := ih (hch q hq) e hel
    refine ⟨b, hb, List.mem_cons_of_mem _ ?_⟩
    simp only [fpOf, List.mem_flatten, List.mem_map]
    exact ⟨q.fp, ⟨q, hq, rfl⟩, hbq⟩

/-- The leaves of a run of children are heap nodes of the run's footprint. -/
theorem leavesOf_mem {cfg : Config} {t : Tree α} {h : Nat} {par : Ptr} (ps : List (Part α))
    (hch : ∀ q ∈ ps, Sub cfg t h false q.ptr par q.leaves q.fp) :
    ∀ e ∈ leavesOf ps, ∃ a, e.1 = Ptr.node a ∧ a ∈ fpOf ps := by
  intro e he
  simp only [leavesOf, List.mem_flatten, List.mem_map] at he
  obtain ⟨l, ⟨q, hq, rfl⟩, hel⟩ := he
  obtain ⟨b, hb, hbq⟩ := Sub.leaf_mem (hch q hq) e hel
  refine ⟨b, hb, ?_⟩
  simp only [fpOf, List.mem_flatten, List.mem_map]
  exact ⟨q.fp, ⟨q, hq, rfl⟩, hbq⟩

/-- A position found below one child is found at the same place, shifted by
the items of the children before it, below the parent. -/
theorem indexIn_part {cfg : Config} {t : Tree α} {h : Nat} {par : Ptr}
    (pre : List (Part α)) (q : Part α) (post : List (Part α))
    (hch : ∀ q' ∈ pre, Sub cfg t h false q'.ptr par q'.leaves q'.fp)
    (hnd : (fpOf (pre ++ q :: post)).Nodup) (b w i : Nat) (hb : b ∈ q.fp)
    (hi : indexIn q.leaves (Ptr.node b, w) = some i) :
    indexIn (leavesOf (pre ++ q :: post)) (Ptr.node b, w)
      = some (i + (items (leavesOf pre)).length) := by
  rw [leavesOf_append, leavesOf_cons, indexIn_append_of_not_mem, indexIn_append_left _ _ _ _ hi]
  · rfl
  · intro hmem
    simp only [List.mem_map] at hmem
    obtain ⟨e, he, heq⟩ := hmem
    obtain ⟨a, ha, hap⟩ := leavesOf_mem pre hch e he
    rw [ha] at heq
    simp only [Ptr.node.injEq] at heq
    subst heq
    rw [fpOf_append, fpOf_cons] at hnd
    exact (List.nodup_append.1 hnd).2.2 hap (List.mem_append_left _ hb)

/-- Reading the leaves of a well-formed subtree gives its leaves. -/
theorem Sub.leaves_eq {cfg : Config} {t : Tree α} :
    ∀ {h : Nat} {isRoot : Bool} {p par : Ptr} {ls : Leaves α} {fp : List Nat} (fuel : Nat),
      Sub cfg t h isRoot p par ls fp → h + 1 ≤ fuel → leaves t fuel p = some ls := by
  intro h
  induction h with
  | zero =>
    intro isRoot p par ls fp fuel hs hf
    obtain ⟨a, l, hp, hn, -, hls, -⟩ := Sub.zero_iff.1 hs
    obtain ⟨f, rfl⟩ : ∃ f, fuel = f + 1 := ⟨fuel - 1, by omega⟩
    simp [leaves, hn, hls]
  | succ h ih =>
    intro isRoot p par ls fp fuel hs hf
    obtain ⟨a, n, ps, hp, hn, -, -, -, hc, -, -, hch, hls, -⟩ := Sub.succ_iff.1 hs
    obtain ⟨f, rfl⟩ : ∃ f, fuel = f + 1 := ⟨fuel - 1, by omega⟩
    simp only [leaves, hn, hc, hls]
    clear hc hn hls hs
    induction ps with
    | nil => rfl
    | cons q qs ihq =>
      have h1 := ih f (hch q (List.mem_cons_self _ _)) (by omega)
      have h2 := ihq (fun q' hq' => hch q' (List.mem_cons_of_mem _ hq'))
      simp only [List.map_cons, List.foldr_cons, h1, h2, leavesOf_cons]

end SubFacts

end BPP

/-! ## The descent of `lower_bound_` and `upper_bound_` -/

namespace BPP

section Descent
variable {α : Type} [LinearOrder α]

theorem lower_bound_node_lt_of_exists (l : List α) (k : α) (h : ∃ x ∈ l, ¬ x < k) :
    lower_bound_node l k < l.length := by
  induction l with
  | nil => simp at h
  | cons x xs ih =>
    rw [lower_bound_node]
    by_cases hx : x < k
    · rw [if_pos hx]
      obtain ⟨y, hy, hyk⟩ := h
      rcases List.mem_cons.1 hy with rfl | hy'
      · exact absurd hx hyk
      · simpa using ih ⟨y, hy', hyk⟩
    · rw [if_neg hx]; simp

theorem upper_bound_node_lt_of_exists (l : List α) (k : α) (h : ∃ x ∈ l, k < x) :
    upper_bound_node l k < l.length := by
  induction l with
  | nil => simp at h
  | cons x xs ih =>
    rw [upper_bound_node]
    by_cases hx : k < x
    · rw [if_neg (not_not.2 hx)]; simp
    · rw [if_pos hx]
      obtain ⟨y, hy, hyk⟩ := h
      rcases List.mem_cons.1 hy with rfl | hy'
      · exact absurd hyk hx
      · simpa using ih ⟨y, hy', hyk⟩

theorem lower_bound_loop_spec (cfg : Config) (t : Tree α) (k : α) :
    ∀ (h : Nat) (isRoot : Bool) (p par : Ptr) (ls : Leaves α) (fp : List Nat) (fuel : Nat),
      Sub cfg t h isRoot p par ls fp → fp.Nodup → (items ls).Pairwise (· ≤ ·) → h + 1 ≤ fuel →
      (lower_bound_node (items ls) k < (items ls).length →
        ∃ b w, lower_bound_loop t k fuel p = some (Ptr.node b, w) ∧ b ∈ fp ∧
          indexIn ls (Ptr.node b, w) = some (lower_bound_node (items ls) k)) ∧
      (lower_bound_node (items ls) k = (items ls).length →
        lower_bound_loop t k fuel p = some (Ptr.null, 0)) := by
  intro h
  induction h with
  | zero =>
    intro isRoot p par ls fp fuel hs _ _ hf
    obtain ⟨a, l, hp, hn, -, hls, hfp, -⟩ := Sub.zero_iff.1 hs
    obtain ⟨f, rfl⟩ : ∃ f, fuel = f + 1 := ⟨fuel - 1, by omega⟩
    subst hp hls hfp
    have e : items [(Ptr.node a, l.item)] = l.item := by simp
    rw [e]
    constructor
    · intro hlt
      refine ⟨a, lower_bound_node l.item k, ?_, by simp, indexIn_head _ _ _ _ hlt⟩
      simp [lower_bound_loop, level?_leaf hn, leaf?_of_node? hn, hlt]
    · intro heq
      simp [lower_bound_loop, level?_leaf hn, leaf?_of_node? hn, heq]
  | succ h ih =>
    intro isRoot p par ls fp fuel hs hnd hsorted hf
    obtain ⟨a, n, ps, hp, hn, -, hlev, -, hc, hkeys, hne, hch, hls, hfp, -⟩ := Sub.succ_iff.1 hs
    obtain ⟨f, rfl⟩ : ∃ f, fuel = f + 1 := ⟨fuel - 1, by omega⟩
    subst hp hls hfp
    obtain ⟨pre, q, post, hps, hlen, hpre, hpost⟩ := key_lower_split ps n.item k hkeys hne hsorted
    subst hps
    have hchild : n.children[lower_bound_node n.item k]? = some q.ptr := by
      rw [hc, ← hlen]; exact getElem?_map_ptr_length pre q post
    have hstep : lower_bound_loop t k (f + 1) (Ptr.node a) = lower_bound_loop t k f q.ptr := by
      simp [lower_bound_loop, level?_inner hn, inner?_of_node? hn, hlev, hchild]
    have hndq : q.fp.Nodup := by
      have := (List.nodup_cons.1 hnd).2
      rw [fpOf_append, fpOf_cons] at this
      exact (List.nodup_append.1 (List.nodup_append.1 this).2.1).1
    have hitems : items (leavesOf (pre ++ q :: post))
        = items (leavesOf pre) ++ (items q.leaves ++ items (leavesOf post)) := by
      simp
    have hsq : (items q.leaves).Pairwise (· ≤ ·) := by
      rw [hitems] at hsorted
      exact (List.pairwise_append.1 (List.pairwise_append.1 hsorted).2.1).1
    obtain ⟨ih1, ih2⟩ := ih false q.ptr (Ptr.node a) q.leaves q.fp f
      (hch q (by simp)) hndq hsq (by omega)
    have hlb : lower_bound_node (items (leavesOf (pre ++ q :: post))) k
        = (items (leavesOf pre)).length + lower_bound_node (items q.leaves) k ∧
          (post ≠ [] → lower_bound_node (items q.leaves) k < (items q.leaves).length) := by
      rw [hitems, lower_bound_node_append_of_lt _ _ _ hpre]
      by_cases hp0 : post = []
      · subst hp0; simp
      · have hex := hpost hp0
        rw [lower_bound_node_append_of_not_lt _ _ _ hex]
        exact ⟨rfl, fun _ => lower_bound_node_lt_of_exists _ _ hex⟩
    rw [hstep, hlb.1]
    constructor
    · intro hlt
      have hq : lower_bound_node (items q.leaves) k < (items q.leaves).length := by
        by_cases hp0 : post = []
        · subst hp0
          simp only [hitems, leavesOf_nil, items_nil, List.append_nil, List.length_append] at hlt
          omega
        · exact hlb.2 hp0
      obtain ⟨b, w, hres, hb, hidx⟩ := ih1 hq
      refine ⟨b, w, hres, ?_, ?_⟩
      · refine List.mem_cons_of_mem _ ?_
        rw [fpOf_append, fpOf_cons]
        exact List.mem_append_right _ (List.mem_append_left _ hb)
      · rw [indexIn_part pre q post (fun q' hq' => hch q' (by simp [hq']))
          (List.nodup_cons.1 hnd).2 b w _ hb hidx]
        congr 1; omega
    · intro heq
      have hp0 : post = [] := by
        by_contra hp0
        have := hlb.2 hp0
        simp only [hitems, List.length_append] at heq
        omega
      subst hp0
      apply ih2
      simp only [hitems, leavesOf_nil, items_nil, List.append_nil, List.length_append] at heq
      omega

end Descent

end BPP

/-! ## Fuel and the top level of the search operations -/

namespace BPP

section Fuel
variable {α : Type}

theorem Sub.height_lt {cfg : Config} {t : Tree α} :
    ∀ {h : Nat} {isRoot : Bool} {p par : Ptr} {ls : Leaves α} {fp : List Nat},
      Sub cfg t h isRoot p par ls fp → h + 1 ≤ fp.length := by
  intro h
  induction h with
  | zero =>
    intro isRoot p par ls fp hs
    obtain ⟨a, l, -, -, -, -, hfp, -⟩ := Sub.zero_iff.1 hs
    simp [hfp]
  | succ h ih =>
    intro isRoot p par ls fp hs
    obtain ⟨a, n, ps, -, -, -, -, -, -, -, hne, hch, -, hfp, -⟩ := Sub.succ_iff.1 hs
    cases ps with
    | nil => exact absurd rfl hne
    | cons q qs =>
      have := ih (hch q (List.mem_cons_self _ _))
      simp only [hfp, fpOf_cons, List.length_cons, List.length_append]
      omega

theorem Sub.fp_lt {cfg : Config} {t : Tree α} :
    ∀ {h : Nat} {isRoot : Bool} {p par : Ptr} {ls : Leaves α} {fp : List Nat},
      Sub cfg t h isRoot p par ls fp → ∀ a ∈ fp, a < t.mem.length := by
  intro h
  induction h with
  | zero =>
    intro isRoot p par ls fp hs b hb
    obtain ⟨a, l, hp, hn, -, -, hfp, -⟩ := Sub.zero_iff.1 hs
    subst hp hfp
    simp only [List.mem_singleton] at hb
    subst hb
    exact lt_mem_of_node? hn
  | succ h ih =>
    intro isRoot p par ls fp hs b hb
    obtain ⟨a, n, ps, hp, hn, -, -, -, -, -, -, hch, -, hfp, -⟩ := Sub.succ_iff.1 hs
    subst hp hfp
    rcases List.mem_cons.1 hb with rfl | hb
    · exact lt_mem_of_node? hn
    · simp only [fpOf, List.mem_flatten, List.mem_map] at hb
      obtain ⟨l, ⟨q, hq, rfl⟩, hbl⟩ := hb
      exact ih (hch q hq) b hbl

theorem length_le_of_nodup_of_lt (l : List Nat) (n : Nat) (hnd : l.Nodup)
    (hlt : ∀ a ∈ l, a < n) : l.length ≤ n := by
  have h1 : l.toFinset ⊆ Finset.range n := by
    intro a ha
    simp only [List.mem_toFinset] at ha
    simpa using hlt a ha
  have h2 := Finset.card_le_card h1
  rwa [List.toFinset_card_of_nodup hnd, Finset.card_range] at h2

/-- The fuel the operations take is enough for a descent from the real root. -/
theorem Sub.fuel {cfg : Config} {t : Tree α} {h : Nat} {isRoot : Bool} {p par : Ptr}
    {ls : Leaves α} {fp : List Nat} (hs : Sub cfg t h isRoot p par ls fp) (hnd : fp.Nodup) :
    h + 1 ≤ t.mem.length + 1 := by
  have h1 := Sub.height_lt hs
  have h2 := length_le_of_nodup_of_lt fp _ hnd (Sub.fp_lt hs)
  omega

end Fuel

end BPP

/-! ## The search operations on a well-formed container -/

namespace BPP

section Samples
variable {α : Type} [LinearOrder α]

/-- The container that holds one element: a single leaf is the real root. -/
def single (x : α) : Tree α :=
  ⟨Ptr.node 0, 1, Ptr.node 0, Ptr.node 0,
    [some (Node.leaf ⟨Ptr.root, Ptr.root, Ptr.root, [x]⟩)]⟩

theorem single_wf (cfg : Config) (x : α) (h1 : 2 ≤ cfg.maxLeaf) (h2 : 2 ≤ cfg.maxInner) :
    WF cfg (single x) := by
  refine ⟨h1, h2, Or.inr ⟨0, [(Ptr.node 0, [x])], [0], ?_, by simp, by simp [SIZE_MAX], ?_, ?_, ?_,
    ?_, ?_⟩⟩
  · exact Sub.zero_iff.2 ⟨0, ⟨Ptr.root, Ptr.root, Ptr.root, [x]⟩, rfl, rfl, rfl, rfl, rfl,
      by simp, by simp; omega⟩
  · simp [single]
  · simp [Ordered]
  · exact ⟨⟨Ptr.root, Ptr.root, Ptr.root, [x]⟩, rfl, rfl, rfl, trivial⟩
  · simp [single]
  · simp [single]

end Samples

section SearchTop
variable {α : Type} [LinearOrder α]

/-- The leaves and the sequence a non-empty well-formed container reads. -/
theorem leafList_of_sub {cfg : Config} {t : Tree α} {h : Nat} {ls : Leaves α} {fp : List Nat}
    (hs : Sub cfg t h true t.parent Ptr.root ls fp) (hnd : fp.Nodup) :
    leafList t = some ls := by
  obtain ⟨a, tl, hp, -⟩ := Sub.ptr hs
  have hne : t.parent ≠ Ptr.root := by rw [hp]; simp
  rw [leafList, if_neg hne]
  exact Sub.leaves_eq _ hs (Sub.fuel hs hnd)

/-- C9: on a non-empty container that satisfies I1–I7, `lower_bound(k)` is the
iterator to the first element of the in-order sequence that is not less than
`k`: it designates an index `i` such that every element before `i` is less
than `k` and the element at `i`, if there is one, is not; when every element
is less than `k` the index is the size and the iterator is `end()`. -/
theorem lower_bound_first_not_less (cfg : Config) (t : Tree α) (k : α) (hwf : WF cfg t)
    (hne : t.parent ≠ Ptr.root) :
    ∃ pos xs i, lower_bound t k = some pos ∧ toList t = some xs ∧ indexOf t pos = some i ∧
      i ≤ xs.length ∧ (∀ j (_ : j < i) (hl : j < xs.length), xs[j] < k) ∧
      (∀ hi : i < xs.length, ¬ xs[i] < k) ∧ (i = xs.length → pos = «end») ∧
      (i < xs.length → pos ≠ «end») := by
  obtain ⟨-, -, hem | ⟨h, ls, fp, hs, hnd, -, -, hord, -⟩⟩ := hwf
  · exact absurd hem.1 hne
  obtain ⟨a, tl, hp, -⟩ := Sub.ptr hs
  have hll := leafList_of_sub hs hnd
  have hnn : t.parent ≠ Ptr.null := by rw [hp]; simp
  obtain ⟨s1, s2⟩ := lower_bound_loop_spec cfg t k h true t.parent Ptr.root ls fp
    (t.mem.length + 1) hs hnd hord.1 (Sub.fuel hs hnd)
  have htl : toList t = some (items ls) := by simp [toList, hll]
  by_cases hlt : lower_bound_node (items ls) k < (items ls).length
  · obtain ⟨b, w, hres, -, hidx⟩ := s1 hlt
    refine ⟨(Ptr.node b, w), items ls, lower_bound_node (items ls) k, ?_, htl, ?_,
      lower_bound_node_le _ _, ?_, ?_, ?_, ?_⟩
    · simp [lower_bound, lower_bound_, hnn, hres, iterator]
    · simp [indexOf, hll, hidx]
    · intro j hj hl; exact lt_of_lt_lower_bound_node _ _ j hj hl
    · intro hi; exact not_lt_at_lower_bound_node _ _ hi
    · intro e; omega
    · intro _; simp [«end»]
  · have heq : lower_bound_node (items ls) k = (items ls).length := by
      have := lower_bound_node_le (items ls) k; omega
    refine ⟨«end», items ls, (items ls).length, ?_, htl, ?_, le_refl _, ?_, ?_, ?_, ?_⟩
    · simp [lower_bound, lower_bound_, hnn, s2 heq, iterator, «end»]
    · simp [indexOf, «end», htl]
    · intro j hj hl; exact lt_of_lt_lower_bound_node _ _ j (by omega) hl
    · intro hi; omega
    · intro _; rfl
    · intro hi; omega

/-- The statement of `lower_bound_first_not_less` at the one-element
container `{5}` and the key 3. -/
theorem lower_bound_first_not_less_witness :
    WF ⟨true, 4, 4⟩ (single 5) ∧ (single 5).parent ≠ Ptr.root ∧
    ∃ pos xs i, lower_bound (single 5) 3 = some pos ∧ toList (single 5) = some xs ∧
      indexOf (single 5) pos = some i ∧
      i ≤ xs.length ∧ (∀ j (_ : j < i) (hl : j < xs.length), xs[j] < 3) ∧
      (∀ hi : i < xs.length, ¬ xs[i] < 3) ∧ (i = xs.length → pos = «end») ∧
      (i < xs.length → pos ≠ «end») :=
  ⟨single_wf _ 5 (by decide) (by decide), by decide,
    lower_bound_first_not_less ⟨true, 4, 4⟩ (single 5) 3 (single_wf _ 5 (by decide) (by decide))
      (by decide)⟩

end SearchTop

end BPP

/-! ## The descent of `upper_bound_` and the climb of `advance_root_` -/

namespace BPP

section UpperDescent
variable {α : Type} [LinearOrder α]

theorem upper_bound_loop_spec (cfg : Config) (t : Tree α) (k : α) :
    ∀ (h : Nat) (isRoot : Bool) (p par : Ptr) (ls : Leaves α) (fp : List Nat) (fuel : Nat),
      Sub cfg t h isRoot p par ls fp → fp.Nodup → (items ls).Pairwise (· ≤ ·) → h + 1 ≤ fuel →
      (upper_bound_node (items ls) k < (items ls).length →
        ∃ b w, upper_bound_loop t k fuel p = some (Ptr.node b, w) ∧ b ∈ fp ∧
          indexIn ls (Ptr.node b, w) = some (upper_bound_node (items ls) k)) ∧
      (upper_bound_node (items ls) k = (items ls).length →
        upper_bound_loop t k fuel p = some (Ptr.null, 0)) := by
  intro h
  induction h with
  | zero =>
    intro isRoot p par ls fp fuel hs _ _ hf
    obtain ⟨a, l, hp, hn, -, hls, hfp, -⟩ := Sub.zero_iff.1 hs
    obtain ⟨f, rfl⟩ : ∃ f, fuel = f + 1 := ⟨fuel - 1, by omega⟩
    subst hp hls hfp
    have e : items [(Ptr.node a, l.item)] = l.item := by simp
    rw [e]
    constructor
    · intro hlt
      refine ⟨a, upper_bound_node l.item k, ?_, by simp, indexIn_head _ _ _ _ hlt⟩
      simp [upper_bound_loop, level?_leaf hn, leaf?_of_node? hn, hlt]
    · intro heq
      simp [upper_bound_loop, level?_leaf hn, leaf?_of_node? hn, heq]
  | succ h ih =>
    intro isRoot p par ls fp fuel hs hnd hsorted hf
    obtain ⟨a, n, ps, hp, hn, -, hlev, -, hc, hkeys, hne, hch, hls, hfp, -⟩ := Sub.succ_iff.1 hs
    obtain ⟨f, rfl⟩ : ∃ f, fuel = f + 1 := ⟨fuel - 1, by omega⟩
    subst hp hls hfp
    obtain ⟨pre, q, post, hps, hlen, hpre, hpost⟩ := key_upper_split ps n.item k hkeys hne hsorted
    subst hps
    have hchild : n.children[upper_bound_node n.item k]? = some q.ptr := by
      rw [hc, ← hlen]; exact getElem?_map_ptr_length pre q post
    have hstep : upper_bound_loop t k (f + 1) (Ptr.node a) = upper_bound_loop t k f q.ptr := by
      simp [upper_bound_loop, level?_inner hn, inner?_of_node? hn, hlev, hchild]
    have hndq : q.fp.Nodup := by
      have := (List.nodup_cons.1 hnd).2
      rw [fpOf_append, fpOf_cons] at this
      exact (List.nodup_append.1 (List.nodup_append.1 this).2.1).1
    have hitems : items (leavesOf (pre ++ q :: post))
        = items (leavesOf pre) ++ (items q.leaves ++ items (leavesOf post)) := by
      simp
    have hsq : (items q.leaves).Pairwise (· ≤ ·) := by
      rw [hitems] at hsorted
      exact (List.pairwise_append.1 (List.pairwise_append.1 hsorted).2.1).1
    obtain ⟨ih1, ih2⟩ := ih false q.ptr (Ptr.node a) q.leaves q.fp f
      (hch q (by simp)) hndq hsq (by omega)
    have hlb : upper_bound_node (items (leavesOf (pre ++ q :: post))) k
        = (items (leavesOf pre)).length + upper_bound_node (items q.leaves) k ∧
          (post ≠ [] → upper_bound_node (items q.leaves) k < (items q.leaves).length) := by
      rw [hitems, upper_bound_node_append_of_le _ _ _ hpre]
      by_cases hp0 : post = []
      · subst hp0; simp
      · have hex := hpost hp0
        rw [upper_bound_node_append_of_gt _ _ _ hex]
        exact ⟨rfl, fun _ => upper_bound_node_lt_of_exists _ _ hex⟩
    rw [hstep, hlb.1]
    constructor
    · intro hlt
      have hq : upper_bound_node (items q.leaves) k < (items q.leaves).length := by
        by_cases hp0 : post = []
        · subst hp0
          simp only [hitems, leavesOf_nil, items_nil, List.append_nil, List.length_append] at hlt
          omega
        · exact hlb.2 hp0
      obtain ⟨b, w, hres, hb, hidx⟩ := ih1 hq
      refine ⟨b, w, hres, ?_, ?_⟩
      · refine List.mem_cons_of_mem _ ?_
        rw [fpOf_append, fpOf_cons]
        exact List.mem_append_right _ (List.mem_append_left _ hb)
      · rw [indexIn_part pre q post (fun q' hq' => hch q' (by simp [hq']))
          (List.nodup_cons.1 hnd).2 b w _ hb hidx]
        congr 1; omega
    · intro heq
      have hp0 : post = [] := by
        by_contra hp0
        have := hlb.2 hp0
        simp only [hitems, List.length_append] at heq
        omega
      subst hp0
      apply ih2
      simp only [hitems, leavesOf_nil, items_nil, List.append_nil, List.length_append] at heq
      omega

/-- In a sorted list the upper bound counts the items not greater than the
key. -/
theorem countP_le_eq_upper_bound_node (l : List α) (k : α) (hs : l.Pairwise (· ≤ ·)) :
    l.countP (fun x => decide (x ≤ k)) = upper_bound_node l k := by
  induction l with
  | nil => rfl
  | cons x xs ih =>
    rw [upper_bound_node]
    by_cases hx : k < x
    · rw [if_neg (not_not.2 hx)]
      rw [List.countP_eq_zero]
      intro y hy
      simp only [decide_eq_true_eq, not_le]
      rcases List.mem_cons.1 hy with rfl | hy'
      · exact hx
      · exact lt_of_lt_of_le hx ((List.pairwise_cons.1 hs).1 y hy')
    · rw [if_pos hx, List.countP_cons_of_pos _ _ (by simpa using hx),
        ih (List.pairwise_cons.1 hs).2]

end UpperDescent

section Climb
variable {α : Type}

theorem Sub.parent? {cfg : Config} {t : Tree α} {h : Nat} {isRoot : Bool} {p par : Ptr}
    {ls : Leaves α} {fp : List Nat} (hs : Sub cfg t h isRoot p par ls fp) :
    t.parent? p = some par := by
  cases h with
  | zero =>
    obtain ⟨a, l, hp, hn, hpar, -⟩ := Sub.zero_iff.1 hs
    subst hp; rw [parent?_leaf hn, hpar]
  | succ h =>
    obtain ⟨a, n, ps, hp, hn, hpar, -⟩ := Sub.succ_iff.1 hs
    subst hp; rw [parent?_inner hn, hpar]

theorem Sub.size? {cfg : Config} {t : Tree α} {h : Nat} {isRoot : Bool} {p par : Ptr}
    {ls : Leaves α} {fp : List Nat} (hs : Sub cfg t h isRoot p par ls fp) :
    t.size? p = some (items ls).length := by
  cases h with
  | zero =>
    obtain ⟨a, l, hp, hn, -, hls, -⟩ := Sub.zero_iff.1 hs
    subst hp; rw [size?_leaf hn, hls]; simp
  | succ h =>
    obtain ⟨a, n, ps, hp, hn, -, -, hsz, -⟩ := Sub.succ_iff.1 hs
    subst hp; rw [size?_inner hn, hsz]

/-- Every leaf listed for a subtree is a leaf node holding the listed items. -/
theorem Sub.leaf_node {cfg : Config} {t : Tree α} :
    ∀ {h : Nat} {isRoot : Bool} {p par : Ptr} {ls : Leaves α} {fp : List Nat},
      Sub cfg t h isRoot p par ls fp →
      ∀ e ∈ ls, ∃ l, t.node? e.1 = some (Node.leaf l) ∧ l.item = e.2 := by
  intro h
  induction h with
  | zero =>
    intro isRoot p par ls fp hs e he
    obtain ⟨a, l, hp, hn, -, hls, -⟩ := Sub.zero_iff.1 hs
    subst hls
    simp only [List.mem_singleton] at he
    subst he
    exact ⟨l, hn, rfl⟩
  | succ h ih =>
    intro isRoot p par ls fp hs e he
    obtain ⟨a, n, ps, hp, -, -, -, -, -, -, -, hch, hls, -⟩ := Sub.succ_iff.1 hs
    subst hls
    simp only [leavesOf, List.mem_flatten, List.mem_map] at he
    obtain ⟨l, ⟨q, hq, rfl⟩, hel⟩ := he
    exact ih (hch q hq) e hel

theorem indexIn_mem (ls : Leaves α) (pos : Pos) (i : Nat) (h : indexIn ls pos = some i) :
    ∃ l, (pos.1, l) ∈ ls := by
  induction ls generalizing i with
  | nil => simp [indexIn] at h
  | cons x xs ih =>
    obtain ⟨p, l⟩ := x
    rw [indexIn] at h
    by_cases hp : p = pos.1
    · exact ⟨l, by rw [hp]; simp⟩
    · rw [if_neg hp] at h
      cases hx : indexIn xs pos with
      | none => rw [hx] at h; simp at h
      | some j =>
        obtain ⟨l', hl'⟩ := ih j hx
        exact ⟨l', List.mem_cons_of_mem _ hl'⟩

theorem indexIn_append_some (a b : Leaves α) (pos : Pos) (i : Nat)
    (h : indexIn (a ++ b) pos = some i) :
    indexIn a pos = some i ∨
      (pos.1 ∉ a.map Prod.fst ∧ ∃ j, indexIn b pos = some j ∧ i = j + (items a).length) := by
  induction a generalizing i with
  | nil => right; exact ⟨by simp, i, by simpa using h, by simp⟩
  | cons x xs ih =>
    obtain ⟨p, l⟩ := x
    rw [List.cons_append, indexIn] at h
    by_cases hp : p = pos.1
    · rw [if_pos hp] at h
      left; rw [indexIn, if_pos hp]; exact h
    · rw [if_neg hp] at h
      cases hx : indexIn (xs ++ b) pos with
      | none => rw [hx] at h; simp at h
      | some j =>
        rw [hx] at h
        simp only [Option.map_some', Option.some.injEq] at h
        rcases ih j hx with h1 | ⟨h1, j', h2, h3⟩
        · left; rw [indexIn, if_neg hp, h1]; simp [h]
        · right
          refine ⟨?_, j', h2, ?_⟩
          · simp only [List.map_cons, List.mem_cons, not_or]
            exact ⟨fun e => hp e.symm, h1⟩
          · simp only [items_cons, List.length_append]; omega

/-- A position found below an inner node lies below one of its children. -/
theorem indexIn_leavesOf (ps : List (Part α)) (pos : Pos) (i : Nat)
    (h : indexIn (leavesOf ps) pos = some i) :
    ∃ pre q post j, ps = pre ++ q :: post ∧ indexIn q.leaves pos = some j ∧
      i = j + (items (leavesOf pre)).length := by
  induction ps generalizing i with
  | nil => simp [indexIn] at h
  | cons q qs ih =>
    rw [leavesOf_cons] at h
    rcases indexIn_append_some _ _ _ _ h with h1 | ⟨-, j, h2, h3⟩
    · exact ⟨[], q, qs, i, rfl, h1, by simp⟩
    · obtain ⟨pre, q', post, j', e, h4, h5⟩ := ih j h2
      refine ⟨q :: pre, q', post, j', by rw [e]; rfl, h4, ?_⟩
      simp only [leavesOf_cons, items_append, List.length_append]; omega

/-- The scan of `advance_root_` over the children of a well-formed inner
node stops at the child we came from and has added the items of the children
before it. -/
theorem advance_root_scan_spec {cfg : Config} {t : Tree α} {h : Nat} {par : Ptr}
    (pre : List (Part α)) (q : Part α) (post : List (Part α))
    (hch : ∀ q' ∈ pre ++ q :: post, Sub cfg t h false q'.ptr par q'.leaves q'.fp)
    (hnd : (fpOf (pre ++ q :: post)).Nodup) (w : Nat) :
    advance_root_scan t q.ptr ((pre ++ q :: post).map Part.ptr) w
      = some (w + (items (leavesOf pre)).length) := by
  induction pre generalizing w with
  | nil => simp [advance_root_scan]
  | cons x xs ih =>
    have hx := hch x (by simp)
    have hq := hch q (by simp)
    obtain ⟨ax, tlx, hpx, hfx⟩ := Sub.ptr hx
    obtain ⟨aq, tlq, hpq, hfq⟩ := Sub.ptr hq
    have hne : x.ptr ≠ q.ptr := by
      rw [hpx, hpq]
      intro e
      simp only [Ptr.node.injEq] at e
      subst e
      simp only [List.cons_append, fpOf_cons, fpOf_append] at hnd
      have h1 : ax ∈ x.fp := by rw [hfx]; simp
      have h2 : ax ∈ fpOf xs ++ (q.fp ++ fpOf post) :=
        List.mem_append_right _ (List.mem_append_left _ (by rw [hfq]; simp))
      exact (List.nodup_append.1 hnd).2.2 h1 h2
    have hnd' : (fpOf (xs ++ q :: post)).Nodup := by
      simp only [List.cons_append, fpOf_cons] at hnd
      exact (List.nodup_append.1 hnd).2.1
    rw [List.cons_append, List.map_cons, advance_root_scan, if_neg hne, Sub.size? hx]
    simp only [Option.bind_eq_bind, Option.some_bind]
    rw [ih (fun q' hq' => hch q' (by simp only [List.cons_append, List.mem_cons]; exact Or.inr hq'))
      hnd']
    simp only [leavesOf_cons, items_append, List.length_append]
    congr 1; omega

/-- Climbing from a leaf position for as many steps as the subtree is high
arrives at the root of the subtree with the index of the position in it. -/
theorem advance_root_climb (cfg : Config) (t : Tree α) :
    ∀ (h : Nat) (isRoot : Bool) (p par : Ptr) (ls : Leaves α) (fp : List Nat),
      Sub cfg t h isRoot p par ls fp → fp.Nodup → h < SIZE_MAX →
      ∀ (b w i f : Nat), indexIn ls (Ptr.node b, w) = some i →
        advance_root_ t (h + f) (Ptr.node b) w = advance_root_ t f p i := by
  intro h
  induction h with
  | zero =>
    intro isRoot p par ls fp hs _ _ b w i f hidx
    obtain ⟨a, l, hp, hn, -, hls, -⟩ := Sub.zero_iff.1 hs
    subst hls
    rw [indexIn] at hidx
    by_cases hpb : p = Ptr.node b
    · simp only [hpb, if_true] at hidx
      split at hidx
      · simp only [Option.some.injEq] at hidx
        rw [Nat.zero_add, hpb, hidx]
      · simp at hidx
    · simp [hpb, indexIn] at hidx
  | succ h ih =>
    intro isRoot p par ls fp hs hnd hlt b w i f hidx
    obtain ⟨a, n, ps, hp, hn, -, hlev, -, hc, -, -, hch, hls, hfp, -⟩ := Sub.succ_iff.1 hs
    subst hp hls hfp
    obtain ⟨pre, q, post, j, hps, hj, hi⟩ := indexIn_leavesOf ps _ i hidx
    subst hps
    have hndps : (fpOf (pre ++ q :: post)).Nodup := (List.nodup_cons.1 hnd).2
    have hndq : q.fp.Nodup := by
      have := hndps
      rw [fpOf_append, fpOf_cons] at this
      exact (List.nodup_append.1 (List.nodup_append.1 this).2.1).1
    have hq := hch q (by simp)
    have e1 : h + 1 + f = h + (f + 1) := by omega
    rw [e1, ih false q.ptr (Ptr.node a) q.leaves q.fp hq hndq (by omega) b w j (f + 1) hj]
    have hlev' : ¬ n.level = SIZE_MAX := by rw [hlev]; omega
    simp only [ advance_root_, Sub.parent? hq, level?_inner hn, inner?_of_node? hn, hc,
      advance_root_scan_spec pre q post hch hndps j, Option.bind_eq_bind, Option.some_bind, ne_eq,
      hlev', not_false_eq_true, if_true]
    rw [hi]

end Climb

end BPP

/-! ## The rank of a key -/

namespace BPP

section RankTop
variable {α : Type} [LinearOrder α]

/-- The container after inserting 10, 20, 30, 40, 50 with `MAX_LEAF = 4` and
`MAX_INNER = 4`: an inner root over two leaves. -/
def sample5 : Tree Nat :=
  ⟨Ptr.node 2, 5, Ptr.node 0, Ptr.node 1,
    [some (Node.leaf ⟨Ptr.node 2, Ptr.root, Ptr.node 1, [10, 20]⟩),
     some (Node.leaf ⟨Ptr.node 2, Ptr.node 0, Ptr.root, [30, 40, 50]⟩),
     some (Node.inner ⟨Ptr.root, 5, 1, [Ptr.node 0, Ptr.node 1], [20]⟩)]⟩

theorem sample5_eq_inserts :
    ([10, 20, 30, 40, 50].foldlM (fun t x => (insert ⟨false, 4, 4⟩ t x).map (·.1))
      (empty : Tree Nat)) = some sample5 := by
  decide

theorem sample5_wf (u : Bool) : WF ⟨u, 4, 4⟩ sample5 := by
  refine ⟨by simp, by simp, Or.inr ⟨1,
    [(Ptr.node 0, [10, 20]), (Ptr.node 1, [30, 40, 50])], [2, 0, 1], ?_, by decide,
    by simp [SIZE_MAX], by decide, ?_, ?_, by decide, by decide⟩⟩
  · refine Sub.succ_iff.2 ⟨2, ⟨Ptr.root, 5, 1, [Ptr.node 0, Ptr.node 1], [20]⟩,
      [⟨Ptr.node 0, [(Ptr.node 0, [10, 20])], [0]⟩,
       ⟨Ptr.node 1, [(Ptr.node 1, [30, 40, 50])], [1]⟩],
      rfl, rfl, rfl, rfl, by decide, rfl, by decide, by simp, ?_, rfl, rfl, by simp, by simp⟩
    intro q hq
    simp only [List.mem_cons, List.mem_singleton, List.not_mem_nil, or_false] at hq
    rcases hq with rfl | rfl
    · exact Sub.zero_iff.2 ⟨0, ⟨Ptr.node 2, Ptr.root, Ptr.node 1, [10, 20]⟩, rfl, rfl, rfl, rfl,
        rfl, by simp, by simp⟩
    · exact Sub.zero_iff.2 ⟨1, ⟨Ptr.node 2, Ptr.node 0, Ptr.root, [30, 40, 50]⟩, rfl, rfl, rfl,
        rfl, rfl, by simp, by simp⟩
  · refine ⟨by decide, fun _ => by decide⟩
  · exact ⟨⟨Ptr.node 2, Ptr.root, Ptr.node 1, [10, 20]⟩, rfl, rfl, rfl,
      ⟨Ptr.node 2, Ptr.node 0, Ptr.root, [30, 40, 50]⟩, rfl, rfl, rfl, trivial⟩

/-- C10: on a container that satisfies I1–I7, `rank(k)` is the rank of the
iterator `upper_bound(k)`, and it is the number of stored elements not greater
than `k` (so the size when no stored element is greater than `k`). -/
theorem rank_eq_rank_upper_bound (cfg : Config) (t : Tree α) (k : α) (hwf : WF cfg t) :
    ∃ n pos xs, rank t k = some n ∧ upper_bound t k = some pos ∧
      calculate_rank_ t pos.1 pos.2 = some n ∧ toList t = some xs ∧
      n = xs.countP (fun x => decide (x ≤ k)) ∧ ((∀ x ∈ xs, x ≤ k) → n = t.size) := by
  obtain ⟨-, -, hem | ⟨h, ls, fp, hs, hnd, hh, hsz, hord, -⟩⟩ := hwf
  · obtain ⟨hp, -, -, hsz⟩ := hem
    refine ⟨0, «end», [], ?_, ?_, ?_, ?_, rfl, fun _ => hsz.symm⟩
    · simp [rank, upper_bound_, hp, hsz]
    · simp [upper_bound, upper_bound_, hp, iterator, «end»]
    · simp [calculate_rank_, «end», Tree.level?, Tree.size?, hsz, SIZE_MAX]
    · simp [toList, leafList, hp]
  obtain ⟨a, tl, hp, -⟩ := Sub.ptr hs
  have hll := leafList_of_sub hs hnd
  have hnr : t.parent ≠ Ptr.root := by rw [hp]; simp
  obtain ⟨s1, s2⟩ := upper_bound_loop_spec cfg t k h true t.parent Ptr.root ls fp
    (t.mem.length + 1) hs hnd hord.1 (Sub.fuel hs hnd)
  have htl : toList t = some (items ls) := by simp [toList, hll]
  have hcount := countP_le_eq_upper_bound_node (items ls) k hord.1
  have hall : (∀ x ∈ items ls, x ≤ k) → upper_bound_node (items ls) k = t.size := by
    intro hx
    rw [← hcount, hsz, List.countP_eq_length]
    intro y hy
    simpa using hx y hy
  by_cases hlt : upper_bound_node (items ls) k < (items ls).length
  · obtain ⟨b, w, hres, -, hidx⟩ := s1 hlt
    have hfuel : t.mem.length + 1 = h + (t.mem.length + 1 - h) := by
      have := Sub.fuel hs hnd; omega
    have hclimb : advance_root_ t (t.mem.length + 1) (Ptr.node b) w
        = some (t.parent, upper_bound_node (items ls) k) := by
      rw [hfuel, advance_root_climb cfg t h true t.parent Ptr.root ls fp hs hnd (by omega) b w _ _
        hidx]
      obtain ⟨f, hf⟩ : ∃ f, t.mem.length + 1 - h = f + 1 :=
        ⟨t.mem.length - h, by have := Sub.fuel hs hnd; omega⟩
      rw [hf]
      simp [ advance_root_, Sub.parent? hs, Tree.level?]
    obtain ⟨l, hl⟩ := indexIn_mem _ _ _ hidx
    obtain ⟨l', hl', -⟩ := Sub.leaf_node hs _ hl
    refine ⟨upper_bound_node (items ls) k, (Ptr.node b, w), items ls, ?_, ?_, ?_, htl,
      hcount.symm, hall⟩
    · simp [rank, upper_bound_, hnr, hres, hclimb]
    · simp [upper_bound, upper_bound_, hnr, hres, iterator]
    · simp [calculate_rank_, level?_leaf hl', hclimb]
  · have heq : upper_bound_node (items ls) k = (items ls).length := by
      have := upper_bound_node_le (items ls) k; omega
    refine ⟨upper_bound_node (items ls) k, «end», items ls, ?_, ?_, ?_, htl, hcount.symm, hall⟩
    · simp [rank, upper_bound_, hnr, s2 heq, heq, hsz]
    · simp [upper_bound, upper_bound_, hnr, s2 heq, iterator, «end»]
    · simp [calculate_rank_, «end», Tree.level?, Tree.size?, heq, hsz, SIZE_MAX]

/-- The statement of `rank_eq_rank_upper_bound` on the container
`{10, 20, 30, 40, 50}` for the key 25. -/
theorem rank_eq_rank_upper_bound_witness :
    WF ⟨true, 4, 4⟩ sample5 ∧
    ∃ n pos xs, rank sample5 25 = some n ∧ upper_bound sample5 25 = some pos ∧
      calculate_rank_ sample5 pos.1 pos.2 = some n ∧ toList sample5 = some xs ∧
      n = xs.countP (fun x => decide (x ≤ 25)) ∧ ((∀ x ∈ xs, x ≤ 25) → n = sample5.size) :=
  ⟨sample5_wf true, rank_eq_rank_upper_bound ⟨true, 4, 4⟩ sample5 25 (sample5_wf true)⟩

end RankTop

end BPP

/-! ## Inserting a key that is already stored, unique mode -/

namespace BPP

section Distinct
variable {α : Type}

theorem leavesOf_ptrs_nodup {cfg : Config} {t : Tree α} {h : Nat} {par : Ptr}
    (ps : List (Part α))
    (hch : ∀ q ∈ ps, Sub cfg t h false q.ptr par q.leaves q.fp)
    (hq : ∀ q ∈ ps, q.fp.Nodup → (q.leaves.map Prod.fst).Nodup)
    (hnd : (fpOf ps).Nodup) : ((leavesOf ps).map Prod.fst).Nodup := by
  induction ps with
  | nil => simp
  | cons q qs ih =>
    rw [fpOf_cons] at hnd
    obtain ⟨h1, h2, h3⟩ := List.nodup_append.1 hnd
    rw [leavesOf_cons, List.map_append]
    refine List.nodup_append.2 ⟨hq q (by simp) h1,
      ih (fun q' hq' => hch q' (by simp [hq'])) (fun q' hq' => hq q' (by simp [hq'])) h2, ?_⟩
    intro x hx1 hx2
    simp only [List.mem_map] at hx1 hx2
    obtain ⟨e1, he1, rfl⟩ := hx1
    obtain ⟨e2, he2, heq⟩ := hx2
    obtain ⟨a1, ha1, hm1⟩ := Sub.leaf_mem (hch q (by simp)) e1 he1
    obtain ⟨a2, ha2, hm2⟩ := leavesOf_mem qs (fun q' hq' => hch q' (by simp [hq'])) e2 he2
    rw [ha1, ha2] at heq
    simp only [Ptr.node.injEq] at heq
    subst heq
    exact h3 hm1 hm2

/-- The leaves of a well-formed subtree are distinct nodes. -/
theorem Sub.leaf_ptrs_nodup {cfg : Config} {t : Tree α} :
    ∀ {h : Nat} {isRoot : Bool} {p par : Ptr} {ls : Leaves α} {fp : List Nat},
      Sub cfg t h isRoot p par ls fp → fp.Nodup → (ls.map Prod.fst).Nodup := by
  intro h
  induction h with
  | zero =>
    intro isRoot p par ls fp hs _
    obtain ⟨a, l, -, -, -, hls, -⟩ := Sub.zero_iff.1 hs
    subst hls; simp
  | succ h ih =>
    intro isRoot p par ls fp hs hnd
    obtain ⟨a, n, ps, hp, -, -, -, -, -, -, -, hch, hls, hfp, -⟩ := Sub.succ_iff.1 hs
    subst hls hfp
    exact leavesOf_ptrs_nodup ps hch (fun q hq hqnd => ih (hch q hq) hqnd)
      (List.nodup_cons.1 hnd).2

/-- The leaves of a well-formed subtree are not empty. -/
theorem Sub.leaf_nonempty {cfg : Config} {t : Tree α} (hcap : 2 ≤ cfg.maxLeaf) :
    ∀ {h : Nat} {isRoot : Bool} {p par : Ptr} {ls : Leaves α} {fp : List Nat},
      Sub cfg t h isRoot p par ls fp → ∀ e ∈ ls, e.2 ≠ [] := by
  intro h
  induction h with
  | zero =>
    intro isRoot p par ls fp hs e he
    obtain ⟨a, l, -, -, -, hls, -, hlo, -⟩ := Sub.zero_iff.1 hs
    subst hls
    simp only [List.mem_singleton] at he
    subst he
    intro hnil
    simp only at hnil
    rw [hnil] at hlo
    have : 1 ≤ cfg.maxLeaf / 2 := by omega
    cases isRoot
    · simp at hlo; omega
    · simp at hlo
  | succ h ih =>
    intro isRoot p par ls fp hs e he
    obtain ⟨a, n, ps, hp, -, -, -, -, -, -, -, hch, hls, -⟩ := Sub.succ_iff.1 hs
    subst hls
    simp only [leavesOf, List.mem_flatten, List.mem_map] at he
    obtain ⟨l, ⟨q, hq, rfl⟩, hel⟩ := he
    exact ih (hch q hq) e hel

theorem indexIn_mid (pre : Leaves α) (lf : Ptr) (l : List α) (post : Leaves α) (w : Nat)
    (hnd : ((pre ++ (lf, l) :: post).map Prod.fst).Nodup) (hw : w < l.length) :
    indexIn (pre ++ (lf, l) :: post) (lf, w) = some ((items pre).length + w) := by
  rw [indexIn_append_of_not_mem, indexIn_head _ _ _ _ hw]
  · simp; omega
  · rw [List.map_append] at hnd
    intro hmem
    exact (List.nodup_append.1 hnd).2.2 hmem (by simp)

/-- The `prev` link of a leaf inside a well-linked run. -/
theorem ChainOk.prev_mid {t : Tree α} (pre : Leaves α) (lf : Ptr) (l : List α) (post : Leaves α)
    (prev0 : Ptr) (hc : ChainOk t prev0 (pre ++ (lf, l) :: post)) :
    ∃ n, t.leaf? lf = some n ∧ (pre = [] → n.prev = prev0) ∧
      (∀ e, pre.getLast? = some e → n.prev = e.1) := by
  induction pre generalizing prev0 with
  | nil =>
    obtain ⟨n, hn, hp, -⟩ := hc
    exact ⟨n, hn, fun _ => hp, by simp⟩
  | cons x xs ih =>
    obtain ⟨p, lx⟩ := x
    obtain ⟨n, hn, hp, -, hrest⟩ := hc
    obtain ⟨n', hn', hp1, hp2⟩ := ih p hrest
    refine ⟨n', hn', by simp, ?_⟩
    intro e he
    cases xs with
    | nil =>
      simp only [List.getLast?_singleton, Option.some.injEq] at he
      rw [hp1 rfl, ← he]
    | cons y ys =>
      rw [List.getLast?_cons_cons] at he
      exact hp2 e he

end Distinct

end BPP

namespace BPP

section Existing
variable {α : Type} [LinearOrder α]

/-- In a sorted list that holds the key, the item just before the upper bound
is the key. -/
theorem getElem?_upper_bound_pred (l : List α) (v : α) (hs : l.Pairwise (· ≤ ·)) (hv : v ∈ l) :
    0 < upper_bound_node l v ∧ l[upper_bound_node l v - 1]? = some v := by
  induction l with
  | nil => simp at hv
  | cons x xs ih =>
    have hx : ¬ v < x := by
      intro hlt
      rcases List.mem_cons.1 hv with rfl | hv'
      · exact lt_irrefl _ hlt
      · exact absurd (lt_of_lt_of_le hlt ((List.pairwise_cons.1 hs).1 v hv')) (lt_irrefl _)
    rw [upper_bound_node, if_pos hx]
    refine ⟨by omega, ?_⟩
    by_cases hv' : v ∈ xs
    · obtain ⟨h1, h2⟩ := ih (List.pairwise_cons.1 hs).2 hv'
      have e : upper_bound_node xs v + 1 - 1 = (upper_bound_node xs v - 1) + 1 := by omega
      rw [e, List.getElem?_cons_succ]
      exact h2
    · have hxv : v = x := by
        rcases List.mem_cons.1 hv with h | h
        · exact h
        · exact absurd h hv'
      have h0 : upper_bound_node xs v = 0 := by
        cases xs with
        | nil => rfl
        | cons y ys =>
          have hy : v < y := by
            have h1 : x ≤ y := (List.pairwise_cons.1 hs).1 y (by simp)
            rcases lt_or_eq_of_le h1 with h | h
            · rw [hxv]; exact h
            · exfalso; apply hv'; rw [hxv, h]; simp
          simp [upper_bound_node, hy]
      rw [h0, hxv]
      simp

/-- At a leaf the fuel of `insert_one_descend_` does not matter. -/
theorem insert_one_descend_leaf_fuel (cfg : Config) (is_leftish : Bool) (v : α) (t : Tree α)
    (a : Nat) (l : LeafNode α) (hn : t.node? (Ptr.node a) = some (Node.leaf l)) (f : Nat) :
    insert_one_descend_ cfg is_leftish v (f + 1) t (Ptr.node a)
      = insert_one_descend_ cfg is_leftish v 1 t (Ptr.node a) := by
  simp only [insert_one_descend_, level?_leaf hn, gt_iff_lt, lt_self_iff_false, if_false]

/-- The descent of the hintless insert passes an early return of the leaf it
reaches up to the root unchanged; the leaf is the one the upper bound of the
key falls into. -/
theorem insert_descend_early (cfg : Config) (t : Tree α) (v : α) :
    ∀ (h : Nat) (isRoot : Bool) (p par : Ptr) (ls : Leaves α) (fp : List Nat) (fuel : Nat),
      Sub cfg t h isRoot p par ls fp → (items ls).Pairwise (· ≤ ·) → h + 1 ≤ fuel →
      ∃ pre lf l post, ls = pre ++ (lf, l) :: post ∧
        (items pre).length + upper_bound_node l v = upper_bound_node (items ls) v ∧
        ∀ pos, insert_one_descend_ cfg false v 1 t lf = some (t, (pos, false), none) →
          insert_one_descend_ cfg false v fuel t p = some (t, (pos, false), none) := by
  intro h
  induction h with
  | zero =>
    intro isRoot p par ls fp fuel hs _ hf
    obtain ⟨a, l, hp, hn, -, hls, -⟩ := Sub.zero_iff.1 hs
    obtain ⟨f, rfl⟩ : ∃ f, fuel = f + 1 := ⟨fuel - 1, by omega⟩
    subst hp hls
    refine ⟨[], Ptr.node a, l.item, [], rfl, by simp, ?_⟩
    intro pos hpos
    rw [insert_one_descend_leaf_fuel cfg false v t a l hn f]
    exact hpos
  | succ h ih =>
    intro isRoot p par ls fp fuel hs hsorted hf
    obtain ⟨a, n, ps, hp, hn, -, hlev, -, hc, hkeys, hne, hch, hls, -⟩ := Sub.succ_iff.1 hs
    obtain ⟨f, rfl⟩ : ∃ f, fuel = f + 1 := ⟨fuel - 1, by omega⟩
    subst hp hls
    obtain ⟨pre, q, post, hps, hlen, hpre, hpost⟩ := key_upper_split ps n.item v hkeys hne hsorted
    subst hps
    have hchild : n.children[upper_bound_node n.item v]? = some q.ptr := by
      rw [hc, ← hlen]; exact getElem?_map_ptr_length pre q post
    have hitems : items (leavesOf (pre ++ q :: post))
        = items (leavesOf pre) ++ (items q.leaves ++ items (leavesOf post)) := by
      simp
    have hsq : (items q.leaves).Pairwise (· ≤ ·) := by
      rw [hitems] at hsorted
      exact (List.pairwise_append.1 (List.pairwise_append.1 hsorted).2.1).1
    obtain ⟨pre', lf, l, post', hq, hub, hret⟩ :=
      ih false q.ptr (Ptr.node a) q.leaves q.fp f (hch q (by simp)) hsq (by omega)
    have hlb : upper_bound_node (items (leavesOf (pre ++ q :: post))) v
        = (items (leavesOf pre)).length + upper_bound_node (items q.leaves) v := by
      rw [hitems, upper_bound_node_append_of_le _ _ _ hpre]
      by_cases hp0 : post = []
      · subst hp0; simp
      · rw [upper_bound_node_append_of_gt _ _ _ (hpost hp0)]
    refine ⟨leavesOf pre ++ pre', lf, l, post' ++ leavesOf post, ?_, ?_, ?_⟩
    · rw [leavesOf_append, leavesOf_cons, hq]; simp
    · rw [hlb, ← hub, items_append, List.length_append]; omega
    · intro pos hpos
      have hrec := hret pos hpos
      have hlev' : n.level > 0 := by rw [hlev]; omega
      simp [insert_one_descend_, level?_inner hn, inner?_of_node? hn, hlev', hchild, hrec]

/-- The leaf branch of the unique-mode insert when the item before the upper
bound is the key. -/
theorem insert_leaf_existing_here (cfg : Config) (t : Tree α) (v : α) (hu : cfg.unique = true)
    (a : Nat) (l : LeafNode α) (hn : t.node? (Ptr.node a) = some (Node.leaf l))
    (hw : 0 < upper_bound_node l.item v)
    (hv : l.item[upper_bound_node l.item v - 1]? = some v) :
    insert_one_descend_ cfg false v 1 t (Ptr.node a)
      = some (t, ((Ptr.node a, upper_bound_node l.item v - 1), false), none) := by
  have hw' : ¬ upper_bound_node l.item v = 0 := by omega
  simp [insert_one_descend_, level?_leaf hn, leaf?_of_node? hn, hu, hw, hw', hv]

/-- The leaf branch of the unique-mode insert when the upper bound is the
start of the leaf and the last item of the previous leaf is the key. -/
theorem insert_leaf_existing_prev (cfg : Config) (t : Tree α) (v : α) (hu : cfg.unique = true)
    (a : Nat) (l : LeafNode α) (hn : t.node? (Ptr.node a) = some (Node.leaf l))
    (hw : upper_bound_node l.item v = 0) (pl : LeafNode α)
    (hpl : t.leaf? l.prev = some pl) (hne : l.prev ≠ Ptr.null) (hlen : 0 < pl.item.length)
    (hv : pl.item[pl.item.length - 1]? = some v) :
    insert_one_descend_ cfg false v 1 t (Ptr.node a)
      = some (t, ((l.prev, pl.item.length - 1), false), none) := by
  have e : wsub pl.item.length 1 = pl.item.length - 1 := by
    unfold wsub; rw [if_pos (by omega)]
  simp [insert_one_descend_, level?_leaf hn, leaf?_of_node? hn, hu, hw, hne, hpl, e, hv]

end Existing

end BPP

namespace BPP

section ExistingTop
variable {α : Type} [LinearOrder α]

/-- C3: in unique mode, on a container that satisfies I1–I7 and already stores
the key of `v`, `insert(v)` returns the flag `false` and an iterator that
designates the stored equal element, and the container (its size, its in-order
sequence and every node) is unchanged. -/
theorem insert_unique_existing (cfg : Config) (t : Tree α) (v : α) (xs : List α)
    (hwf : WF cfg t) (hu : cfg.unique = true) (hxs : toList t = some xs) (hv : v ∈ xs) :
    ∃ pos i, insert cfg t v = some (t, (pos, false)) ∧ indexOf t pos = some i ∧
      xs[i]? = some v ∧ t.key? pos = some v := by
  obtain ⟨hcap, -, hem | ⟨h, ls, fp, hs, hnd, -, -, hord, hchain, -⟩⟩ := hwf
  · simp [toList, leafList, hem.1] at hxs
    subst hxs; simp at hv
  have hll := leafList_of_sub hs hnd
  have hxs' : xs = items ls := by
    simp [toList, hll] at hxs; exact hxs.symm
  subst hxs'
  obtain ⟨a0, tl0, hp0, -⟩ := Sub.ptr hs
  have hnr : t.parent ≠ Ptr.root := by rw [hp0]; simp
  obtain ⟨pre, lf, l, post, hls, hub, hret⟩ :=
    insert_descend_early cfg t v h true t.parent Ptr.root ls fp (t.mem.length + 1) hs hord.1
      (Sub.fuel hs hnd)
  obtain ⟨hpos, hat⟩ := getElem?_upper_bound_pred (items ls) v hord.1 hv
  generalize upper_bound_node (items ls) v = ub at hub hpos hat
  generalize hwdef : upper_bound_node l v = w at hub
  have hwle : w ≤ l.length := by rw [← hwdef]; exact upper_bound_node_le l v
  have hmem : (lf, l) ∈ ls := by rw [hls]; simp
  obtain ⟨nl, hnl, hnli⟩ := Sub.leaf_node hs _ hmem
  obtain ⟨a, ha, -⟩ := Sub.leaf_mem hs _ hmem
  simp only at hnl hnli ha
  subst ha
  have hndl := Sub.leaf_ptrs_nodup hs hnd
  have hitems : items ls = items pre ++ (l ++ items post) := by rw [hls]; simp
  have hfin : ∀ pos i, insert_one_descend_ cfg false v 1 t (Ptr.node a)
      = some (t, (pos, false), none) → indexIn ls pos = some i → pos.1 ≠ Ptr.root →
      (items ls)[i]? = some v → t.key? pos = some v →
      ∃ pos i, insert cfg t v = some (t, (pos, false)) ∧ indexOf t pos = some i ∧
        (items ls)[i]? = some v ∧ t.key? pos = some v := by
    intro pos i h1 h2 h3 h4 h5
    refine ⟨pos, i, ?_, ?_, h4, h5⟩
    · simp [insert, insert_nohint_, hnr, hret pos h1]
    · have : pos ≠ (Ptr.root, 0) := by
        intro e; apply h3; rw [e]
      simp [indexOf, this, hll, h2]
  by_cases hw : 0 < w
  · have hvl : l[w - 1]? = some v := by
      rw [← hat, hitems, List.getElem?_append_right (by omega),
        List.getElem?_append_left (by omega)]
      congr 1; omega
    refine hfin (Ptr.node a, w - 1) (ub - 1) ?_ ?_ (by simp) hat ?_
    · have := insert_leaf_existing_here cfg t v hu a nl hnl (by rw [hnli, hwdef]; exact hw)
        (by rw [hnli, hwdef]; exact hvl)
      rw [hnli, hwdef] at this; exact this
    · rw [hls] at hndl ⊢
      rw [indexIn_mid pre _ l post _ hndl (by omega)]
      congr 1; omega
    · simp [Tree.key?, leaf?_of_node? hnl, hnli, hvl]
  · have hw0 : w = 0 := by omega
    have hpre : pre ≠ [] := by
      intro e; subst e; simp at hub; omega
    obtain ⟨pre', e, hpe⟩ : ∃ pre' e, pre = pre' ++ [e] :=
      ⟨pre.dropLast, pre.getLast hpre, (List.dropLast_append_getLast hpre).symm⟩
    subst hpe
    obtain ⟨pp, pitems⟩ := e
    have hmemp : (pp, pitems) ∈ ls := by rw [hls]; simp
    obtain ⟨pl, hpl, hpli⟩ := Sub.leaf_node hs _ hmemp
    obtain ⟨b, hb, -⟩ := Sub.leaf_mem hs _ hmemp
    have hpne := Sub.leaf_nonempty hcap hs _ hmemp
    simp only at hpl hpli hb hpne
    subst hb
    obtain ⟨nl', hnl', -, hprev⟩ := ChainOk.prev_mid _ _ _ _ _ (hls ▸ hchain)
    have hnleq : nl' = nl := by
      have := leaf?_of_node? hnl
      rw [this] at hnl'; exact (Option.some.inj hnl').symm
    subst hnleq
    have hprev' : nl'.prev = Ptr.node b := hprev (Ptr.node b, pitems) (by simp)
    have hplen : 0 < pitems.length := List.length_pos.2 hpne
    have hip : items (pre' ++ [(Ptr.node b, pitems)]) = items pre' ++ pitems := by simp
    rw [hip] at hitems hub
    rw [List.length_append] at hub
    have hvl : pitems[pitems.length - 1]? = some v := by
      rw [← hat, hitems, List.append_assoc, List.getElem?_append_right (by omega),
        List.getElem?_append_left (by omega)]
      congr 1; omega
    refine hfin (Ptr.node b, pitems.length - 1) (ub - 1) ?_ ?_ (by simp) hat ?_
    · have := insert_leaf_existing_prev cfg t v hu a nl' hnl (by rw [hnli, hwdef]; exact hw0) pl
        (by rw [hprev']; exact leaf?_of_node? hpl) (by rw [hprev']; simp)
        (by rw [hpli]; exact hplen) (by rw [hpli]; exact hvl)
      rw [hprev', hpli] at this; exact this
    · have hls' : ls = pre' ++ (Ptr.node b, pitems) :: ((Ptr.node a, l) :: post) := by
        rw [hls]; simp
      rw [hls'] at hndl ⊢
      rw [indexIn_mid pre' _ pitems _ _ hndl (by omega)]
      congr 1; omega
    · simp [Tree.key?, leaf?_of_node? hpl, hpli, hvl]

/-- The statement of `insert_unique_existing` for inserting 5 into the
container that holds 5: the second insert returns the first 5 and `false`, and
the size stays 1. -/
theorem insert_unique_existing_witness :
    WF ⟨true, 4, 4⟩ (single 5) ∧ toList (single 5) = some [5] ∧ (single 5).size = 1 ∧
    ∃ pos i, insert ⟨true, 4, 4⟩ (single 5) 5 = some (single 5, (pos, false)) ∧
      indexOf (single 5) pos = some i ∧ [5][i]? = some 5 ∧ (single 5).key? pos = some 5 :=
  ⟨single_wf _ 5 (by decide) (by decide), by decide, rfl,
    insert_unique_existing ⟨true, 4, 4⟩ (single 5) 5 [5] (single_wf _ 5 (by decide) (by decide))
      rfl (by decide) (by decide)⟩

end ExistingTop

end BPP

/-! ## Operations that read the anchor as a node -/

namespace BPP

section AnchorReads

theorem empty_wf (cfg : Config) (h1 : 2 ≤ cfg.maxLeaf) (h2 : 2 ≤ cfg.maxInner) :
    WF cfg (empty : Tree Nat) :=
  ⟨h1, h2, Or.inl ⟨rfl, rfl, rfl, rfl⟩⟩

/-- C2: in unique mode, inserting 3 into the container `{5}` (a value whose key
is stored nowhere and is smaller than every stored key) does not return
`(it, true)`: the duplicate check reads the anchor as the previous leaf. -/
theorem insert_unique_below_min_single :
    WF ⟨true, 4, 4⟩ (single 5) ∧ toList (single 5) = some [5] ∧
      insert ⟨true, 4, 4⟩ (single 5) 3 = none :=
  ⟨single_wf _ 5 (by decide) (by decide), by decide, by decide⟩

/-- C7, the claim fails on a non-empty container: on `{5}` the call
`erase(end())` is no silent no-op, it shifts the items of the anchor read as a
leaf. -/
theorem erase_end_nonempty :
    WF ⟨true, 4, 4⟩ (single 5) ∧ erase ⟨true, 4, 4⟩ (single 5) «end» = none ∧
      erase ⟨true, 4, 4⟩ (single 5) «end» ≠ some (single 5) :=
  ⟨single_wf _ 5 (by decide) (by decide), by decide, by decide⟩

/-- C7 as amended: on an empty container (`root_.parent == &root_`),
`erase(end())` is a silent no-op: the container with its size and every node
is returned unchanged, so the in-order sequence is unchanged too. -/
theorem erase_end_empty {α : Type} [LinearOrder α] (cfg : Config) (t : Tree α)
    (hempty : t.parent = Ptr.root) :
    erase cfg t «end» = some t ∧ (erase cfg t «end»).bind toList = toList t := by
  simp [erase, hempty]

/-- The statement of `erase_end_empty` on the default-constructed container. -/
theorem erase_end_empty_witness :
    (empty : Tree Nat).parent = Ptr.root ∧
      erase ⟨true, 4, 4⟩ (empty : Tree Nat) «end» = some empty ∧
      (erase ⟨true, 4, 4⟩ (empty : Tree Nat) «end»).bind toList = toList empty :=
  ⟨rfl, erase_end_empty ⟨true, 4, 4⟩ (empty : Tree Nat) rfl⟩

/-- C8: on the default-constructed (empty) container, which satisfies I1–I7,
`find(k)` does not return `end()`: `lower_bound_` compares `root_.parent` with
null instead of the anchor and descends into the anchor as an inner node. -/
theorem find_empty (k : Nat) :
    WF ⟨true, 4, 4⟩ (empty : Tree Nat) ∧ toList (empty : Tree Nat) = some [] ∧
      find (empty : Tree Nat) k = none ∧ upper_bound (empty : Tree Nat) k = some «end» := by
  refine ⟨empty_wf _ (by decide) (by decide), by decide, ?_, ?_⟩
  · simp [find, lower_bound_, lower_bound_loop, empty, Tree.level?, Tree.inner?, Tree.node?,
      SIZE_MAX]
  · simp [upper_bound, upper_bound_, empty, iterator, «end»]

end AnchorReads

end BPP

/-! ## Stores into the node memory -/

namespace BPP

section Heap
variable {α : Type}

/-- The memory after a store into the cell `a`. -/
def Tree.put (t : Tree α) (a : Nat) (n : Node α) : Tree α :=
  { t with mem := t.mem.set a (some n) }

/-- The memory after the allocator handed out the next cell, holding `n`. -/
def Tree.push (t : Tree α) (n : Node α) : Tree α :=
  { t with mem := t.mem ++ [some n] }

@[simp] theorem put_parent (t : Tree α) (a : Nat) (n : Node α) : (t.put a n).parent = t.parent :=
  rfl

@[simp] theorem put_size (t : Tree α) (a : Nat) (n : Node α) : (t.put a n).size = t.size := rfl

@[simp] theorem put_left (t : Tree α) (a : Nat) (n : Node α) : (t.put a n).left = t.left := rfl

@[simp] theorem put_right (t : Tree α) (a : Nat) (n : Node α) : (t.put a n).right = t.right := rfl

@[simp] theorem put_mem_length (t : Tree α) (a : Nat) (n : Node α) :
    (t.put a n).mem.length = t.mem.length := by
  simp [Tree.put]

@[simp] theorem push_parent (t : Tree α) (n : Node α) : (t.push n).parent = t.parent := rfl

@[simp] theorem push_size (t : Tree α) (n : Node α) : (t.push n).size = t.size := rfl

@[simp] theorem push_left (t : Tree α) (n : Node α) : (t.push n).left = t.left := rfl

@[simp] theorem push_right (t : Tree α) (n : Node α) : (t.push n).right = t.right := rfl

@[simp] theorem push_mem_length (t : Tree α) (n : Node α) :
    (t.push n).mem.length = t.mem.length + 1 := by
  simp [Tree.push]

theorem node?_put (t : Tree α) (a b : Nat) (n : Node α) :
    (t.put a n).node? (Ptr.node b)
      = if b = a then (if a < t.mem.length then some n else none) else t.node? (Ptr.node b) := by
  simp only [Tree.node?, Tree.put, List.getElem?_set]
  by_cases h : b = a
  · subst h
    simp only [if_true]
    by_cases hl : b < t.mem.length
    · simp [hl]
    · simp [hl]
  · have : ¬ a = b := fun e => h e.symm
    simp [h, this]

theorem node?_put_same (t : Tree α) (a : Nat) (n : Node α) (h : a < t.mem.length) :
    (t.put a n).node? (Ptr.node a) = some n := by
  simp [node?_put, h]

theorem node?_put_ne (t : Tree α) (a b : Nat) (n : Node α) (h : b ≠ a) :
    (t.put a n).node? (Ptr.node b) = t.node? (Ptr.node b) := by
  simp [node?_put, h]

theorem node?_push (t : Tree α) (b : Nat) (n : Node α) :
    (t.push n).node? (Ptr.node b)
      = if b = t.mem.length then some n else t.node? (Ptr.node b) := by
  simp only [Tree.node?, Tree.push]
  by_cases h : b = t.mem.length
  · subst h; simp
  · simp only [h, if_false]
    by_cases hl : b < t.mem.length
    · rw [List.getElem?_append_left hl]
    · rw [List.getElem?_eq_none (by simp; omega), List.getElem?_eq_none (by omega)]

theorem node?_push_old (t : Tree α) (b : Nat) (n : Node α) (h : b < t.mem.length) :
    (t.push n).node? (Ptr.node b) = t.node? (Ptr.node b) := by
  simp [node?_push, Nat.ne_of_lt h]

theorem node?_push_new (t : Tree α) (n : Node α) :
    (t.push n).node? (Ptr.node t.mem.length) = some n := by
  simp [node?_push]

@[simp] theorem node?_with_anchor (t : Tree α) (p : Ptr) (x1 : Ptr) (x2 : Nat) (x3 x4 : Ptr) :
    (Tree.mk x1 x2 x3 x4 t.mem).node? p = t.node? p := rfl

theorem alloc_leaf_eq (t : Tree α) (par : Ptr) :
    t.alloc_leaf_node_ par
      = (t.push (Node.leaf ⟨par, Ptr.null, Ptr.null, []⟩), Ptr.node t.mem.length) := rfl

theorem alloc_inner_eq (t : Tree α) (par : Ptr) :
    t.alloc_inner_node_ par
      = (t.push (Node.inner ⟨par, 0, 1, [], []⟩), Ptr.node t.mem.length) := rfl

theorem write_eq (t : Tree α) (a : Nat) (x n : Node α) (h : t.node? (Ptr.node a) = some x) :
    t.write (Ptr.node a) n = some (t.put a n) := by
  simp [Tree.write, h, Tree.put]

theorem modLeaf_eq (t : Tree α) (a : Nat) (l : LeafNode α) (f : LeafNode α → LeafNode α)
    (h : t.node? (Ptr.node a) = some (Node.leaf l)) :
    t.modLeaf (Ptr.node a) f = some (t.put a (Node.leaf (f l))) := by
  simp [Tree.modLeaf, leaf?_of_node? h, write_eq t a _ _ h]

theorem modInner_eq (t : Tree α) (a : Nat) (n : InnerNode α) (f : InnerNode α → InnerNode α)
    (h : t.node? (Ptr.node a) = some (Node.inner n)) :
    t.modInner (Ptr.node a) f = some (t.put a (Node.inner (f n))) := by
  simp [Tree.modInner, inner?_of_node? h, write_eq t a _ _ h]

theorem setParent_leaf_eq (t : Tree α) (a : Nat) (l : LeafNode α) (q : Ptr)
    (h : t.node? (Ptr.node a) = some (Node.leaf l)) :
    t.setParent (Ptr.node a) q = some (t.put a (Node.leaf { l with parent := q })) := by
  simp [Tree.setParent, h, write_eq t a _ _ h]

theorem setParent_inner_eq (t : Tree α) (a : Nat) (n : InnerNode α) (q : Ptr)
    (h : t.node? (Ptr.node a) = some (Node.inner n)) :
    t.setParent (Ptr.node a) q = some (t.put a (Node.inner { n with parent := q })) := by
  simp [Tree.setParent, h, write_eq t a _ _ h]

/-- A node without its leaf-chain links: what the subtree invariant reads. -/
def Node.core : Node α → Node α
  | Node.leaf l => Node.leaf { l with prev := Ptr.null, next := Ptr.null }
  | Node.inner n => Node.inner n

/-- Two memories agree on a cell up to the leaf-chain links. -/
def SameCore (t t' : Tree α) (a : Nat) : Prop :=
  (t'.node? (Ptr.node a)).map Node.core = (t.node? (Ptr.node a)).map Node.core

theorem SameCore.refl (t : Tree α) (a : Nat) : SameCore t t a := rfl

theorem SameCore.trans {t t' t'' : Tree α} {a : Nat} (h1 : SameCore t t' a)
    (h2 : SameCore t' t'' a) : SameCore t t'' a := by
  unfold SameCore at *; rw [h2, h1]

theorem SameCore.leaf {t t' : Tree α} {a : Nat} {l : LeafNode α} (h : SameCore t t' a)
    (hn : t.node? (Ptr.node a) = some (Node.leaf l)) :
    ∃ l', t'.node? (Ptr.node a) = some (Node.leaf l') ∧ l'.parent = l.parent ∧
      l'.item = l.item := by
  unfold SameCore at h
  rw [hn] at h
  cases h' : t'.node? (Ptr.node a) with
  | none => rw [h'] at h; simp at h
  | some x =>
    rw [h'] at h
    cases x with
    | inner n => simp [Node.core] at h
    | leaf l' =>
      simp only [Option.map_some', Node.core, Option.some.injEq, Node.leaf.injEq,
        LeafNode.mk.injEq, true_and] at h
      exact ⟨l', rfl, h.1, h.2⟩

theorem SameCore.inner {t t' : Tree α} {a : Nat} {n : InnerNode α} (h : SameCore t t' a)
    (hn : t.node? (Ptr.node a) = some (Node.inner n)) :
    t'.node? (Ptr.node a) = some (Node.inner n) := by
  unfold SameCore at h
  rw [hn] at h
  cases h' : t'.node? (Ptr.node a) with
  | none => rw [h'] at h; simp at h
  | some x =>
    rw [h'] at h
    cases x with
    | leaf l' => simp [Node.core] at h
    | inner n' =>
      simp only [Option.map_some', Node.core, Option.some.injEq, Node.inner.injEq] at h
      rw [h]

theorem wsub_of_le {a b : Nat} (h : b ≤ a) : wsub a b = a - b := by
  unfold wsub; rw [if_pos h]

theorem slice?_eq {β : Type} (l : List β) (i j : Nat) (h1 : i ≤ j) (h2 : j ≤ l.length) :
    slice? l i j = some ((l.take j).drop i) := by
  simp [slice?, h1, h2]

theorem insertAt?_eq {β : Type} (l : List β) (i : Nat) (v : β) (h : i ≤ l.length) :
    insertAt? l i v = some (l.take i ++ v :: l.drop i) := by
  simp [insertAt?, h]

end Heap

end BPP

/-! ## Transporting the subtree invariant between memories -/

namespace BPP

section Transport
variable {α : Type}

/-- The subtree invariant only reads the cells of the footprint, and of those
not the leaf-chain links. -/
theorem Sub.frame {cfg : Config} {t t' : Tree α} :
    ∀ {h : Nat} {isRoot : Bool} {p par : Ptr} {ls : Leaves α} {fp : List Nat},
      Sub cfg t h isRoot p par ls fp → (∀ a ∈ fp, SameCore t t' a) →
      Sub cfg t' h isRoot p par ls fp := by
  intro h
  induction h with
  | zero =>
    intro isRoot p par ls fp hs hfr
    obtain ⟨a, l, hp, hn, hpar, hls, hfp, hlo, hhi⟩ := Sub.zero_iff.1 hs
    subst hp
    obtain ⟨l', hn', hp', hi'⟩ := (hfr a (by rw [hfp]; simp)).leaf hn
    exact Sub.zero_iff.2 ⟨a, l', rfl, hn', by rw [hp', hpar], by rw [hi', hls], hfp,
      by rw [hi']; exact hlo, by rw [hi']; exact hhi⟩
  | succ h ih =>
    intro isRoot p par ls fp hs hfr
    obtain ⟨a, n, ps, hp, hn, hpar, hlev, hsz, hc, hk, hne, hch, hls, hfp, hlo, hhi⟩ :=
      Sub.succ_iff.1 hs
    subst hp
    have hn' := (hfr a (by rw [hfp]; simp)).inner hn
    refine Sub.succ_iff.2 ⟨a, n, ps, rfl, hn', hpar, hlev, hsz, hc, hk, hne, ?_, hls, hfp, hlo, hhi⟩
    intro q hq
    refine ih (hch q hq) (fun b hb => hfr b ?_)
    rw [hfp]
    refine List.mem_cons_of_mem _ ?_
    simp only [fpOf, List.mem_flatten, List.mem_map]
    exact ⟨q.fp, ⟨q, hq, rfl⟩, hb⟩

/-- The same subtree under another parent: only the parent field of its root
differs. -/
theorem Sub.reparent {cfg : Config} {t t' : Tree α} {h : Nat} {isRoot : Bool} {a : Nat}
    {par par' : Ptr} {ls : Leaves α} {fp : List Nat}
    (hs : Sub cfg t h isRoot (Ptr.node a) par ls fp) (hnd : fp.Nodup)
    (hfr : ∀ b ∈ fp, b ≠ a → SameCore t t' b)
    (hl : ∀ l, t.node? (Ptr.node a) = some (Node.leaf l) →
      ∃ l', t'.node? (Ptr.node a) = some (Node.leaf l') ∧ l'.item = l.item ∧ l'.parent = par')
    (hi : ∀ n, t.node? (Ptr.node a) = some (Node.inner n) →
      t'.node? (Ptr.node a) = some (Node.inner { n with parent := par' })) :
    Sub cfg t' h isRoot (Ptr.node a) par' ls fp := by
  cases h with
  | zero =>
    obtain ⟨a', l, hp, hn, hpar, hls, hfp, hlo, hhi⟩ := Sub.zero_iff.1 hs
    obtain ⟨l', hn', hi', hp'⟩ := hl l hn
    exact Sub.zero_iff.2 ⟨a', l', hp, hn', hp', by rw [hi', hls], hfp,
      by rw [hi']; exact hlo, by rw [hi']; exact hhi⟩
  | succ h =>
    obtain ⟨a', n, ps, hp, hn, hpar, hlev, hsz, hc, hk, hne, hch, hls, hfp, hlo, hhi⟩ :=
      Sub.succ_iff.1 hs
    have ha : a' = a := by simpa using hp.symm
    subst ha
    refine Sub.succ_iff.2 ⟨a', { n with parent := par' }, ps, rfl, hi n hn, rfl, hlev, hsz, hc, hk,
      hne, ?_, hls, hfp, hlo, hhi⟩
    intro q hq
    have hqfp : ∀ b ∈ q.fp, b ∈ fpOf ps := by
      intro b hb
      simp only [fpOf, List.mem_flatten, List.mem_map]
      exact ⟨q.fp, ⟨q, hq, rfl⟩, hb⟩
    refine Sub.frame (hch q hq) (fun b hb => hfr b ?_ ?_)
    · rw [hfp]; exact List.mem_cons_of_mem _ (hqfp b hb)
    · intro e
      subst e
      rw [hfp] at hnd
      exact (List.nodup_cons.1 hnd).1 (hqfp b hb)

/-- A subtree that satisfies the fill bound of a non-root node satisfies the
one of the real root. -/
theorem Sub.to_root {cfg : Config} {t : Tree α} (h1 : 2 ≤ cfg.maxLeaf) (h2 : 2 ≤ cfg.maxInner)
    {h : Nat} {p par : Ptr} {ls : Leaves α} {fp : List Nat}
    (hs : Sub cfg t h false p par ls fp) : Sub cfg t h true p par ls fp := by
  cases h with
  | zero =>
    obtain ⟨a, l, hp, hn, hpar, hls, hfp, hlo, hhi⟩ := Sub.zero_iff.1 hs
    refine Sub.zero_iff.2 ⟨a, l, hp, hn, hpar, hls, hfp, ?_, hhi⟩
    simp only [if_true]
    simp only [Bool.false_eq_true, if_false] at hlo
    omega
  | succ h =>
    obtain ⟨a, n, ps, hp, hn, hpar, hlev, hsz, hc, hk, hne, hch, hls, hfp, hlo, hhi⟩ :=
      Sub.succ_iff.1 hs
    refine Sub.succ_iff.2 ⟨a, n, ps, hp, hn, hpar, hlev, hsz, hc, hk, hne, hch, hls, hfp, ?_, hhi⟩
    simp only [if_true]
    simp only [Bool.false_eq_true, if_false] at hlo
    omega

end Transport

end BPP

/-! ## Positional access: the descent of `access_index_` -/

namespace BPP

section Access
variable {α : Type}

/-- Two positions with the same index among a run of leaves are the same
position. -/
theorem indexIn_inj (ls : Leaves α) (p q : Pos) (i : Nat) (hp : indexIn ls p = some i)
    (hq : indexIn ls q = some i) : p = q := by
  induction ls generalizing i with
  | nil => simp [indexIn] at hp
  | cons x xs ih =>
    obtain ⟨a, l⟩ := x
    rw [indexIn] at hp hq
    by_cases h1 : a = p.1
    · rw [if_pos h1] at hp
      by_cases h2 : a = q.1
      · rw [if_pos h2] at hq
        split at hp
        · split at hq
          · simp only [Option.some.injEq] at hp hq
            exact Prod.ext (h1.symm.trans h2) (hp.trans hq.symm)
          · simp at hq
        · simp at hp
      · rw [if_neg h2] at hq
        split at hp
        · simp only [Option.some.injEq] at hp
          cases hx : indexIn xs q with
          | none => rw [hx] at hq; simp at hq
          | some j =>
            rw [hx] at hq
            simp only [Option.map_some', Option.some.injEq] at hq
            omega
        · simp at hp
    · rw [if_neg h1] at hp
      cases hx : indexIn xs p with
      | none => rw [hx] at hp; simp at hp
      | some j =>
        rw [hx] at hp
        simp only [Option.map_some', Option.some.injEq] at hp
        by_cases h2 : a = q.1
        · rw [if_pos h2] at hq
          split at hq
          · simp only [Option.some.injEq] at hq
            omega
          · simp at hq
        · rw [if_neg h2] at hq
          cases hy : indexIn xs q with
          | none => rw [hy] at hq; simp at hq
          | some j' =>
            rw [hy] at hq
            simp only [Option.map_some', Option.some.injEq] at hq
            exact ih j hx (by rw [hy]; congr 1; omega)

/-- A position with an index among a run of leaves lies in a listed leaf, and
the item there is the item of the run at that index. -/
theorem indexIn_get (ls : Leaves α) (p : Pos) (i : Nat) (hp : indexIn ls p = some i) :
    ∃ l, (p.1, l) ∈ ls ∧ p.2 < l.length ∧ i < (items ls).length ∧ (items ls)[i]? = l[p.2]? := by
  induction ls generalizing i with
  | nil => simp [indexIn] at hp
  | cons x xs ih =>
    obtain ⟨a, l⟩ := x
    rw [indexIn] at hp
    by_cases h1 : a = p.1
    · rw [if_pos h1] at hp
      split at hp
      · rename_i hlt
        simp only [Option.some.injEq] at hp
        subst hp
        refine ⟨l, by rw [h1]; simp, hlt, by simp; omega, ?_⟩
        rw [items_cons, List.getElem?_append_left hlt]
      · simp at hp
    · rw [if_neg h1] at hp
      cases hx : indexIn xs p with
      | none => rw [hx] at hp; simp at hp
      | some j =>
        rw [hx] at hp
        simp only [Option.map_some', Option.some.injEq] at hp
        obtain ⟨l', hm, hlt, hj, hget⟩ := ih j hx
        refine ⟨l', List.mem_cons_of_mem _ hm, hlt, by simp; omega, ?_⟩
        rw [items_cons, List.getElem?_append_right (by omega), ← hget]
        congr 1; omega

/-- The scan of `access_index_` over the children of a well-formed inner node
stops at the child that holds the index and leaves the index in that child. -/
theorem access_index_scan_spec {cfg : Config} {t : Tree α} {h : Nat} {par : Ptr}
    (ps : List (Part α)) (hch : ∀ q ∈ ps, Sub cfg t h false q.ptr par q.leaves q.fp) (j : Nat)
    (hj : j < (items (leavesOf ps)).length) :
    ∃ pre q post i, ps = pre ++ q :: post ∧
      access_index_scan t (ps.map Part.ptr) j = some (q.ptr, i) ∧
      i < (items q.leaves).length ∧ j = i + (items (leavesOf pre)).length := by
  induction ps generalizing j with
  | nil => simp at hj
  | cons x xs ih =>
    have hx := hch x (List.mem_cons_self _ _)
    rw [List.map_cons, access_index_scan, Sub.size? hx]
    by_cases hge : j ≥ (items x.leaves).length
    · have hj' : j - (items x.leaves).length < (items (leavesOf xs)).length := by
        simp only [leavesOf_cons, items_append, List.length_append] at hj
        omega
      obtain ⟨pre, q, post, i, hps, hscan, hi, hji⟩ :=
        ih (fun q hq => hch q (List.mem_cons_of_mem _ hq)) _ hj'
      refine ⟨x :: pre, q, post, i, by rw [hps]; rfl, ?_, hi, ?_⟩
      · simp only [Option.bind_eq_bind, Option.some_bind, hge, if_true]
        exact hscan
      · simp only [leavesOf_cons, items_append, List.length_append]; omega
    · refine ⟨[], x, xs, j, rfl, ?_, by omega, by simp⟩
      simp only [Option.bind_eq_bind, Option.some_bind, hge, if_false]

/-- The descent of `access_index_` from the root of a well-formed subtree
arrives at the position that has the given index. -/
theorem access_index_loop_spec (cfg : Config) (t : Tree α) :
    ∀ (h : Nat) (isRoot : Bool) (p par : Ptr) (ls : Leaves α) (fp : List Nat) (fuel i : Nat),
      Sub cfg t h isRoot p par ls fp → fp.Nodup → h + 1 ≤ fuel → i < (items ls).length →
      ∃ b w, access_index_loop t fuel p i = some (Ptr.node b, w) ∧ b ∈ fp ∧
        indexIn ls (Ptr.node b, w) = some i := by
  intro h
  induction h with
  | zero =>
    intro isRoot p par ls fp fuel i hs _ hf hi
    obtain ⟨a, l, hp, hn, -, hls, hfp, -⟩ := Sub.zero_iff.1 hs
    obtain ⟨f, rfl⟩ : ∃ f, fuel = f + 1 := ⟨fuel - 1, by omega⟩
    subst hp hls hfp
    have e : items [(Ptr.node a, l.item)] = l.item := by simp
    rw [e] at hi
    refine ⟨a, i, ?_, by simp, indexIn_head _ _ _ _ hi⟩
    simp [access_index_loop, level?_leaf hn]
  | succ h ih =>
    intro isRoot p par ls fp fuel i hs hnd hf hi
    obtain ⟨a, n, ps, hp, hn, -, hlev, -, hc, -, -, hch, hls, hfp, -⟩ := Sub.succ_iff.1 hs
    obtain ⟨f, rfl⟩ : ∃ f, fuel = f + 1 := ⟨fuel - 1, by omega⟩
    subst hp hls hfp
    obtain ⟨pre, q, post, j, hps, hscan, hj, hij⟩ := access_index_scan_spec ps hch i hi
    subst hps
    have hndq : q.fp.Nodup := by
      have := (List.nodup_cons.1 hnd).2
      rw [fpOf_append, fpOf_cons] at this
      exact (List.nodup_append.1 (List.nodup_append.1 this).2.1).1
    obtain ⟨b, w, hres, hb, hidx⟩ := ih false q.ptr (Ptr.node a) q.leaves q.fp f j
      (hch q (by simp)) hndq (by omega) hj
    refine ⟨b, w, ?_, ?_, ?_⟩
    · simp [-List.map_append, access_index_loop, level?_inner hn, inner?_of_node? hn, hlev, hc,
        hscan, hres]
    · refine List.mem_cons_of_mem _ ?_
      rw [fpOf_append, fpOf_cons]
      exact List.mem_append_right _ (List.mem_append_left _ hb)
    · rw [indexIn_part pre q post (fun q' hq' => hch q' (by simp [hq']))
        (List.nodup_cons.1 hnd).2 b w _ hb hidx, hij]

end Access

end BPP

/-! ## Positional access on a well-formed container -/

namespace BPP

section AccessTop
variable {α : Type}

/-- The climb of `advance_root_` from a position of the container ends at
the real root with the index of the position. -/
theorem advance_root_top {cfg : Config} {t : Tree α} {h : Nat} {ls : Leaves α} {fp : List Nat}
    (hs : Sub cfg t h true t.parent Ptr.root ls fp) (hnd : fp.Nodup) (hh : h + 1 < SIZE_MAX)
    (b w i : Nat) (hidx : indexIn ls (Ptr.node b, w) = some i) :
    advance_root_ t (t.mem.length + 1) (Ptr.node b) w = some (t.parent, i) := by
  have hfuel : t.mem.length + 1 = h + (t.mem.length + 1 - h) := by
    have := Sub.fuel hs hnd; omega
  rw [hfuel, advance_root_climb cfg t h true t.parent Ptr.root ls fp hs hnd (by omega) b w _ _
    hidx]
  obtain ⟨f, hf⟩ : ∃ f, t.mem.length + 1 - h = f + 1 :=
    ⟨t.mem.length - h, by have := Sub.fuel hs hnd; omega⟩
  rw [hf]
  simp [ advance_root_, Sub.parent? hs, Tree.level?]

/-- A position with an index in the container is a position in a leaf. -/
theorem indexIn_leaf {cfg : Config} {t : Tree α} {h : Nat} {isRoot : Bool} {p par : Ptr}
    {ls : Leaves α} {fp : List Nat} (hs : Sub cfg t h isRoot p par ls fp) (pos : Pos) (i : Nat)
    (hidx : indexIn ls pos = some i) :
    ∃ b l, pos.1 = Ptr.node b ∧ b ∈ fp ∧ t.node? pos.1 = some (Node.leaf l) ∧
      pos.2 < l.item.length ∧ i < (items ls).length ∧ (items ls)[i]? = l.item[pos.2]? := by
  obtain ⟨l, hm, hlt, hi, hget⟩ := indexIn_get ls pos i hidx
  obtain ⟨b, hb, hbf⟩ := Sub.leaf_mem hs _ hm
  obtain ⟨l', hl', hitem⟩ := Sub.leaf_node hs _ hm
  simp only at hb hl' hitem
  exact ⟨b, l', hb, hbf, hl', by rw [hitem]; exact hlt, hi, by rw [hitem]; exact hget⟩

/-- The rank `calculate_rank_` gives a position of the container is its
index. -/
theorem calculate_rank_of_index {cfg : Config} {t : Tree α} {h : Nat} {ls : Leaves α}
    {fp : List Nat} (hs : Sub cfg t h true t.parent Ptr.root ls fp) (hnd : fp.Nodup)
    (hh : h + 1 < SIZE_MAX) (pos : Pos) (i : Nat) (hidx : indexIn ls pos = some i) :
    calculate_rank_ t pos.1 pos.2 = some i := by
  obtain ⟨b, l, hb, -, hl, -⟩ := indexIn_leaf hs pos i hidx
  have hpos : pos = (Ptr.node b, pos.2) := Prod.ext hb rfl
  rw [hpos] at hidx
  have hclimb := advance_root_top hs hnd hh b pos.2 i hidx
  rw [hb] at hl
  rw [hb]
  simp [calculate_rank_, level?_leaf hl, hclimb]

/-- The position `at(i)` for an index below the size. -/
theorem at_of_lt {cfg : Config} {t : Tree α} {h : Nat} {ls : Leaves α} {fp : List Nat}
    (hs : Sub cfg t h true t.parent Ptr.root ls fp) (hnd : fp.Nodup) (i : Nat)
    (hi : i < (items ls).length) :
    ∃ b w, «at» t i = some (Ptr.node b, w) ∧ indexIn ls (Ptr.node b, w) = some i := by
  obtain ⟨b, w, hres, -, hidx⟩ := access_index_loop_spec cfg t h true t.parent Ptr.root ls fp
    (t.mem.length + 1) i hs hnd (Sub.fuel hs hnd) hi
  refine ⟨b, w, ?_, hidx⟩
  have hlt : ¬ (items ls).length ≤ i := by omega
  simp [«at», access_index_, Sub.size? hs, hlt, hres, iterator]

/-- The position `at(i)` for an index that is not below the size. -/
theorem at_of_ge {cfg : Config} {t : Tree α} {h : Nat} {ls : Leaves α} {fp : List Nat}
    (hs : Sub cfg t h true t.parent Ptr.root ls fp) (i : Nat) (hi : (items ls).length ≤ i) :
    «at» t i = some (Ptr.root, 0) := by
  simp [«at», access_index_, Sub.size? hs, hi, iterator]

theorem at_empty (t : Tree α) (i : Nat) (hp : t.parent = Ptr.root) (hsz : t.size = 0) :
    «at» t i = some (Ptr.root, 0) := by
  simp [«at», access_index_, hp, Tree.size?, hsz, iterator]

end AccessTop

section AccessClaims
variable {α : Type} [LinearOrder α]

/-- The rank of an iterator of the container is the index it designates, and
`at` of that index is the iterator. -/
theorem rank_at_of_indexOf (cfg : Config) (t : Tree α) (it : Pos) (r : Nat) (hwf : WF cfg t)
    (hit : indexOf t it = some r) : rank_it t it = some r ∧ «at» t r = some it := by
  obtain ⟨-, -, hem | ⟨h, ls, fp, hs, hnd, hh, hsz, -⟩⟩ := hwf
  · obtain ⟨hp, -, -, hsz⟩ := hem
    have hend : it = (Ptr.root, 0) := by
      by_contra hne
      simp [indexOf, hne, leafList, hp, indexIn] at hit
    subst hend
    have hr : r = 0 := by
      simp [indexOf, toList, leafList, hp] at hit
      exact hit.symm
    subst hr
    exact ⟨by simp [rank_it, calculate_rank_, Tree.level?, Tree.size?, hsz, SIZE_MAX],
      at_empty t 0 hp hsz⟩
  have hll := leafList_of_sub hs hnd
  by_cases hend : it = (Ptr.root, 0)
  · subst hend
    have hr : r = (items ls).length := by
      simp [indexOf, toList, hll] at hit
      exact hit.symm
    subst hr
    exact ⟨by simp [rank_it, calculate_rank_, Tree.level?, Tree.size?, hsz, SIZE_MAX],
      at_of_ge hs _ (le_refl _)⟩
  · have hidx : indexIn ls it = some r := by
      simpa [indexOf, hend, hll] using hit
    obtain ⟨-, -, -, -, -, -, hr, -⟩ := indexIn_leaf hs it r hidx
    obtain ⟨b, w, hat, hidx'⟩ := at_of_lt hs hnd r hr
    refine ⟨calculate_rank_of_index hs hnd hh it r hidx, ?_⟩
    rw [hat, indexIn_inj ls _ _ r hidx' hidx]

/-- The iterator `at(i)` designates the index `i`, or the size when `i` is not
below it. -/
theorem at_indexOf (cfg : Config) (t : Tree α) (i : Nat) (hwf : WF cfg t) :
    ∃ pos, «at» t i = some pos ∧ indexOf t pos = some (min i t.size) ∧
      (t.size ≤ i → pos = (Ptr.root, 0)) ∧ (i < t.size → pos ≠ (Ptr.root, 0)) := by
  obtain ⟨-, -, hem | ⟨h, ls, fp, hs, hnd, hh, hsz, -⟩⟩ := hwf
  · obtain ⟨hp, -, -, hsz⟩ := hem
    refine ⟨(Ptr.root, 0), at_empty t i hp hsz, ?_, fun _ => rfl, fun hi => by omega⟩
    simp [indexOf, toList, leafList, hp, hsz]
  have hll := leafList_of_sub hs hnd
  by_cases hi : i < (items ls).length
  · obtain ⟨b, w, hat, hidx⟩ := at_of_lt hs hnd i hi
    refine ⟨(Ptr.node b, w), hat, ?_, fun hge => by omega, fun _ => by simp⟩
    rw [Nat.min_eq_left (by omega)]
    simp [indexOf, hll, hidx]
  · refine ⟨(Ptr.root, 0), at_of_ge hs i (by omega), ?_, fun _ => rfl, fun hi' => by omega⟩
    rw [Nat.min_eq_right (by omega)]
    simp [indexOf, toList, hll, hsz]

/-- The in-order sequence of a well-formed container has `size()` elements. -/
theorem toList_length (cfg : Config) (t : Tree α) (hwf : WF cfg t) :
    ∃ xs, toList t = some xs ∧ xs.length = t.size := by
  obtain ⟨-, -, hem | ⟨h, ls, fp, hs, hnd, hh, hsz, -⟩⟩ := hwf
  · exact ⟨[], by simp [toList, leafList, hem.1], by simp [hem.2.2.2]⟩
  · exact ⟨items ls, by simp [toList, leafList_of_sub hs hnd], hsz.symm⟩

/-- An index an iterator designates is at most the size. -/
theorem indexOf_le_size (cfg : Config) (t : Tree α) (it : Pos) (r : Nat) (hwf : WF cfg t)
    (hit : indexOf t it = some r) : r ≤ t.size ∧ (it = (Ptr.root, 0) ↔ r = t.size) := by
  obtain ⟨pos, hat, hidx, hge, hlt⟩ := at_indexOf cfg t r hwf
  have h2 := (rank_at_of_indexOf cfg t it r hwf hit).2
  rw [hat] at h2
  simp only [Option.some.injEq] at h2
  subst h2
  rw [hit] at hidx
  simp only [Option.some.injEq] at hidx
  refine ⟨by omega, fun e => ?_, fun e => hge (by omega)⟩
  by_contra hne
  exact hlt (by omega) e

/-- C11: on a container that satisfies I1–I7, `at(i)` for `i < size()` is the
iterator to the element number `i` (from 0) of the in-order sequence: it
designates the index `i`, it is not `end()`, and the key it points at is the
element number `i`; for `i ≥ size()`, on the empty container too, `at(i)` is
`end()`. -/
theorem at_index (cfg : Config) (t : Tree α) (i : Nat) (hwf : WF cfg t) :
    ∃ pos xs, «at» t i = some pos ∧ toList t = some xs ∧ xs.length = t.size ∧
      (∀ hi : i < xs.length,
        indexOf t pos = some i ∧ t.key? pos = some xs[i] ∧ pos ≠ «end») ∧
      (t.size ≤ i → pos = «end») := by
  obtain ⟨-, -, hem | ⟨h, ls, fp, hs, hnd, hh, hsz, -⟩⟩ := hwf
  · obtain ⟨hp, -, -, hsz⟩ := hem
    refine ⟨«end», [], at_empty t i hp hsz, by simp [toList, leafList, hp], by simp [hsz], ?_,
      fun _ => rfl⟩
    intro hi; simp at hi
  have hll := leafList_of_sub hs hnd
  have htl : toList t = some (items ls) := by simp [toList, hll]
  by_cases hi : i < (items ls).length
  · obtain ⟨b, w, hat, hidx⟩ := at_of_lt hs hnd i hi
    obtain ⟨b', l, -, -, hl, hw, -, hget⟩ := indexIn_leaf hs _ i hidx
    refine ⟨(Ptr.node b, w), items ls, hat, htl, hsz.symm, ?_, fun hge => by omega⟩
    intro _
    refine ⟨by simp [indexOf, hll, hidx], ?_, by simp [«end»]⟩
    simp only at hl hw hget
    rw [Tree.key?, leaf?_of_node? hl]
    simp only [Option.bind_eq_bind, Option.some_bind]
    rw [← hget, List.getElem?_eq_getElem hi]
  · refine ⟨«end», items ls, at_of_ge hs i (by omega), htl, hsz.symm, fun hi' => absurd hi' hi,
      fun _ => rfl⟩

/-- The statement of `at_index` on the container `{10, 20, 30, 40, 50}` for
the index 2. -/
theorem at_index_witness :
    WF ⟨true, 4, 4⟩ sample5 ∧
    ∃ pos xs, «at» sample5 2 = some pos ∧ toList sample5 = some xs ∧ xs.length = sample5.size ∧
      (∀ hi : 2 < xs.length,
        indexOf sample5 pos = some 2 ∧ sample5.key? pos = some xs[2] ∧ pos ≠ «end») ∧
      (sample5.size ≤ 2 → pos = «end») :=
  ⟨sample5_wf true, at_index ⟨true, 4, 4⟩ sample5 2 (sample5_wf true)⟩

/-- C12: on a container that satisfies I1–I7, for every iterator `it` of the
container, the position of a stored element or `end()`, with `r` the index it
designates, `rank(it)` is `r` and `at(rank(it))` is `it`. -/
theorem at_rank_iterator (cfg : Config) (t : Tree α) (it : Pos) (r : Nat) (hwf : WF cfg t)
    (hit : indexOf t it = some r) :
    rank_it t it = some r ∧ (rank_it t it).bind («at» t) = some it := by
  have key := rank_at_of_indexOf cfg t it r hwf hit
  exact ⟨key.1, by rw [key.1]; exact key.2⟩

/-- The statement of `at_rank_iterator` on the container
`{10, 20, 30, 40, 50}` for the iterator to 40. -/
theorem at_rank_iterator_witness :
    WF ⟨true, 4, 4⟩ sample5 ∧ indexOf sample5 (Ptr.node 1, 1) = some 3 ∧
    rank_it sample5 (Ptr.node 1, 1) = some 3 ∧
    (rank_it sample5 (Ptr.node 1, 1)).bind («at» sample5) = some (Ptr.node 1, 1) :=
  ⟨sample5_wf true, by decide,
    at_rank_iterator ⟨true, 4, 4⟩ sample5 (Ptr.node 1, 1) 3 (sample5_wf true) (by decide)⟩

/-- C13: on a container that satisfies I1–I7, for every `i` with
`0 ≤ i < size()`, `rank(at(i))` is `i`. -/
theorem rank_at_index (cfg : Config) (t : Tree α) (i : Nat) (hwf : WF cfg t) (hi : i < t.size) :
    ((«at» t i).bind (rank_it t)) = some i := by
  obtain ⟨-, -, hem | ⟨h, ls, fp, hs, hnd, hh, hsz, -⟩⟩ := hwf
  · rw [hem.2.2.2] at hi; omega
  obtain ⟨b, w, hat, hidx⟩ := at_of_lt hs hnd i (by omega)
  rw [hat]
  exact calculate_rank_of_index hs hnd hh _ i hidx

/-- The statement of `rank_at_index` on the container `{10, 20, 30, 40, 50}`
for the index 4. -/
theorem rank_at_index_witness :
    WF ⟨true, 4, 4⟩ sample5 ∧ 4 < sample5.size ∧
    ((«at» sample5 4).bind (rank_it sample5)) = some 4 :=
  ⟨sample5_wf true, by decide, rank_at_index ⟨true, 4, 4⟩ sample5 4 (sample5_wf true) (by decide)⟩

end AccessClaims

end BPP

/-! ## Iterator arithmetic -/

namespace BPP

section Arithmetic
variable {α : Type}

theorem sint_of_lt (x : Int) (h0 : 0 ≤ x) (h : x < 2 ^ 63) : sint x = x := by
  unfold sint; omega

theorem usize_of_nonneg (x : Int) (h0 : 0 ≤ x) (h : x < 2 ^ 64) : usize x = x.toNat := by
  unfold usize
  rw [Int.emod_eq_of_lt h0 h]

/-- The last position of the container is in the leaf `root_.right`. -/
theorem indexIn_last {cfg : Config} {t : Tree α} {h : Nat} {ls : Leaves α} {fp : List Nat}
    (hcap : 2 ≤ cfg.maxLeaf) (hs : Sub cfg t h true t.parent Ptr.root ls fp) (hnd : fp.Nodup)
    (hright : (ls.getLast?).map Prod.fst = some t.right) :
    ∃ l, t.node? t.right = some (Node.leaf l) ∧ 1 ≤ l.item.length ∧
      indexIn ls (t.right, l.item.length - 1) = some ((items ls).length - 1) := by
  cases hlast : ls.getLast? with
  | none => rw [hlast] at hright; simp at hright
  | some e =>
    rw [hlast] at hright
    simp only [Option.map_some', Option.some.injEq] at hright
    obtain ⟨init, hinit⟩ := List.getLast?_eq_some_iff.1 hlast
    have hmem : e ∈ ls := by rw [hinit]; simp
    obtain ⟨l, hl, hitem⟩ := Sub.leaf_node hs e hmem
    have hne := Sub.leaf_nonempty hcap hs e hmem
    have hlen : 1 ≤ e.2.length := by
      cases he : e.2 with
      | nil => exact absurd he hne
      | cons _ _ => simp
    have hptrs := Sub.leaf_ptrs_nodup hs hnd
    have he : e = (t.right, e.2) := Prod.ext hright rfl
    rw [hright] at hl
    refine ⟨l, hl, by rw [hitem]; exact hlen, ?_⟩
    have hls : ls = init ++ (t.right, e.2) :: [] := by rw [hinit, ← he]
    rw [hls] at hptrs ⊢
    rw [hitem, indexIn_mid init t.right e.2 [] _ hptrs (by omega)]
    simp only [items_append, items_cons, items_nil, List.append_nil, List.length_append]
    congr 1; omega

/-- Moving from a position in a leaf: `advance_step_` lands on the position
whose index is the sum, or on `end()` when the sum is the size. -/
theorem advance_step_leaf {cfg : Config} {t : Tree α} {h : Nat} {ls : Leaves α} {fp : List Nat}
    (hs : Sub cfg t h true t.parent Ptr.root ls fp) (hnd : fp.Nodup) (hh : h + 1 < SIZE_MAX)
    (hsz : (items ls).length < 2 ^ 63) (pos : Pos) (j : Nat) (s : Int)
    (hidx : indexIn ls pos = some j) (h0 : 0 ≤ (j : Int) + s)
    (h1 : (j : Int) + s ≤ (items ls).length) :
    ∃ it, advance_step_ t pos.1 pos.2 s = some it ∧
      (((j : Int) + s).toNat < (items ls).length → indexIn ls it = some ((j : Int) + s).toNat) ∧
      (((j : Int) + s).toNat = (items ls).length → it = (Ptr.root, 0)) := by
  obtain ⟨b, l, hb, -, hl, -⟩ := indexIn_leaf hs pos j hidx
  have hpos : pos = (Ptr.node b, pos.2) := Prod.ext hb rfl
  rw [hpos] at hidx
  have hclimb := advance_root_top hs hnd hh b pos.2 j hidx
  rw [hb] at hl
  have hsint : sint (s + (j : Int)) = (j : Int) + s := by
    rw [sint_of_lt _ (by omega) (by omega)]; omega
  have hus : usize ((j : Int) + s) = ((j : Int) + s).toNat :=
    usize_of_nonneg _ h0 (by omega)
  have hstep : advance_step_ t pos.1 pos.2 s
      = (if (j : Int) + s < 0 ∨ ((j : Int) + s).toNat ≥ (items ls).length then
          some (Ptr.root, 0)
        else access_index_ t t.parent ((j : Int) + s).toNat) := by
    rw [hb]
    simp only [advance_step_, level?_leaf hl, hclimb, hsint, hus, Sub.size? hs, Sub.parent? hs,
      Option.bind_eq_bind, Option.some_bind, ne_eq, not_true_eq_false, if_false]
  rw [hstep]
  by_cases hlt : ((j : Int) + s).toNat < (items ls).length
  · obtain ⟨b', w', hres, -, hidx'⟩ := access_index_loop_spec cfg t h true t.parent Ptr.root ls
      fp (t.mem.length + 1) _ hs hnd (Sub.fuel hs hnd) hlt
    refine ⟨(Ptr.node b', w'), ?_, fun _ => hidx', fun e => by omega⟩
    have hc : ¬ ((j : Int) + s < 0 ∨ ((j : Int) + s).toNat ≥ (items ls).length) := by omega
    rw [if_neg hc]
    have hlt' : ¬ (items ls).length ≤ ((j : Int) + s).toNat := by omega
    simp [access_index_, Sub.size? hs, hlt', hres]
  · refine ⟨(Ptr.root, 0), ?_, fun hlt' => absurd hlt' hlt, fun _ => rfl⟩
    rw [if_pos (Or.inr (by omega))]

/-- Moving back from `end()` is moving from the last position with one step
less. -/
theorem advance_step_end {t : Tree α} (l : LeafNode α)
    (hl : t.node? t.right = some (Node.leaf l)) (hlen : 1 ≤ l.item.length) (s : Int)
    (hneg : s < 0) :
    advance_step_ t Ptr.root 0 s = advance_step_ t t.right (l.item.length - 1) (s + 1) := by
  have hnode : ∃ a, t.right = Ptr.node a := by
    cases hr : t.right with
    | null => rw [hr] at hl; simp [Tree.node?] at hl
    | root => rw [hr] at hl; simp [Tree.node?] at hl
    | node a => exact ⟨a, rfl⟩
  obtain ⟨a, ha⟩ := hnode
  rw [ha] at hl ⊢
  have hprev : advance_prev_ t Ptr.root 0 = some (Ptr.node a, l.item.length - 1) := by
    simp [advance_prev_, Tree.level?, SIZE_MAX, ha, hl, leaf?_of_node? hl, wsub_of_le hlen]
  have h1 : ¬ s = 0 := by omega
  have h2 : ¬ s > 0 := by omega
  have hlr : t.level? Ptr.root = some SIZE_MAX := rfl
  have hsm : ¬ SIZE_MAX = 0 := by simp [SIZE_MAX]
  simp only [advance_step_, hlr, hsm, h1, h2, hprev, level?_leaf hl, Option.bind_eq_bind,
    Option.some_bind, Option.map_some', ne_eq, not_true_eq_false, not_false_eq_true, if_true,
    if_false]

end Arithmetic

end BPP

namespace BPP

section ArithmeticClaims
variable {α : Type} [LinearOrder α]

/-- C14: on a container that satisfies I1–I7 and whose size is a
`difference_type` value, for every iterator `it` of the container with rank
`r` (the position of a stored element or `end()`) and every signed offset `n`
with `0 ≤ r + n ≤ size()`, `it + n` is the iterator that designates the index
`r + n`, so `end()` when `r + n` is the size, and `(it + n) - it` is `n`. -/
theorem iterator_add_sub (cfg : Config) (t : Tree α) (it : Pos) (r : Nat) (n : Int)
    (hwf : WF cfg t) (hsz : t.size < 2 ^ 63) (hit : indexOf t it = some r)
    (h0 : 0 ≤ (r : Int) + n) (h1 : (r : Int) + n ≤ t.size) :
    ∃ it', iterator_add t it n = some it' ∧ iterator_sub t it' it = some n ∧
      indexOf t it' = some ((r : Int) + n).toNat ∧ ((r : Int) + n = t.size → it' = «end») := by
  have hrank := (rank_at_of_indexOf cfg t it r hwf hit).1
  have hrle := (indexOf_le_size cfg t it r hwf hit).1
  have hend := (indexOf_le_size cfg t it r hwf hit).2
  -- it suffices to find the iterator and the index it designates
  suffices hmain : ∃ it', iterator_add t it n = some it' ∧
      indexOf t it' = some ((r : Int) + n).toNat ∧ ((r : Int) + n = t.size → it' = «end») by
    obtain ⟨it', hadd, hidx, he⟩ := hmain
    refine ⟨it', hadd, ?_, hidx, he⟩
    have hrank' := (rank_at_of_indexOf cfg t it' _ hwf hidx).1
    rw [rank_it] at hrank hrank'
    simp only [iterator_sub, hrank, hrank', Option.bind_eq_bind, Option.some_bind]
    have e1 : sint ((((r : Int) + n).toNat : Nat) : Int) = (r : Int) + n := by
      rw [Int.toNat_of_nonneg h0]; exact sint_of_lt _ h0 (by omega)
    have e2 : sint (r : Int) = (r : Int) := sint_of_lt _ (by omega) (by omega)
    rw [e1, e2, sadd, if_pos (by omega)]
    exact congrArg some (by omega)
  obtain ⟨hcap, -, hem | ⟨h, ls, fp, hs, hnd, hh, hsize, -, -, -, hright⟩⟩ := hwf
  · obtain ⟨hp, -, -, hz⟩ := hem
    have hr0 : r = 0 := by omega
    have hn0 : n = 0 := by omega
    have hit0 : it = (Ptr.root, 0) := hend.2 (by omega)
    subst hr0 hn0 hit0
    refine ⟨(Ptr.root, 0), ?_, ?_, fun _ => rfl⟩
    · simp [iterator_add, advance_step_, Tree.level?, SIZE_MAX]
    · simpa using hit
  have hll := leafList_of_sub hs hnd
  rw [hsize] at hsz h1 hrle hend
  have hfin : ∀ (pos : Pos) (j : Nat) (s : Int), indexIn ls pos = some j →
      (j : Int) + s = (r : Int) + n →
      ∃ it', advance_step_ t pos.1 pos.2 s = some it' ∧
        indexOf t it' = some ((r : Int) + n).toNat ∧
        ((r : Int) + n = t.size → it' = «end») := by
    intro pos j s hj hsum
    obtain ⟨it', hstep, hlt, heq⟩ := advance_step_leaf hs hnd hh hsz pos j s hj (by omega)
      (by omega)
    rw [hsum] at hlt heq
    refine ⟨it', hstep, ?_, fun e => heq (by rw [hsize] at e; omega)⟩
    by_cases hc : ((r : Int) + n).toNat < (items ls).length
    · have hidx := hlt hc
      obtain ⟨b, -, hb, -⟩ := indexIn_leaf hs it' _ hidx
      have hne : it' ≠ (Ptr.root, 0) := by
        intro e; rw [e] at hb; simp at hb
      simp [indexOf, hne, hll, hidx]
    · have he : ((r : Int) + n).toNat = (items ls).length := by omega
      rw [heq he, he]
      simp [indexOf, toList, hll]
  by_cases hit0 : it = (Ptr.root, 0)
  · have hr : r = (items ls).length := hend.1 hit0
    subst hit0
    by_cases hn0 : n = 0
    · subst hn0
      refine ⟨(Ptr.root, 0), ?_, ?_, fun _ => rfl⟩
      · simp [iterator_add, advance_step_, Tree.level?, SIZE_MAX]
      · simpa using hit
    · have hneg : n < 0 := by omega
      obtain ⟨l, hl, hlen, hidx⟩ := indexIn_last hcap hs hnd hright
      obtain ⟨-, -, -, -, -, -, hpos, -⟩ := indexIn_leaf hs _ _ hidx
      rw [iterator_add, advance_step_end l hl hlen n hneg]
      exact hfin (t.right, l.item.length - 1) _ (n + 1) hidx (by omega)
  · have hidx : indexIn ls it = some r := by
      simpa [indexOf, hit0, hll] using hit
    exact hfin it r n hidx rfl

/-- The statement of `iterator_add_sub` on the container
`{10, 20, 30, 40, 50}`: three steps back from `end()`. -/
theorem iterator_add_sub_witness :
    WF ⟨true, 4, 4⟩ sample5 ∧ sample5.size < 2 ^ 63 ∧ indexOf sample5 «end» = some 5 ∧
    ∃ it', iterator_add sample5 «end» (-3) = some it' ∧
      iterator_sub sample5 it' «end» = some (-3) ∧
      indexOf sample5 it' = some (((5 : Nat) : Int) + (-3)).toNat ∧
      ((((5 : Nat) : Int) + (-3) = sample5.size) → it' = «end») :=
  ⟨sample5_wf true, by decide, by decide,
    iterator_add_sub ⟨true, 4, 4⟩ sample5 «end» 5 (-3) (sample5_wf true) (by decide) (by decide)
      (by decide) (by decide)⟩

end ArithmeticClaims

end BPP

/-! ## Key bounds as positions: `rank(key)`, `range` -/

namespace BPP

section BoundFacts
variable {α : Type} [LinearOrder α]

/-- For a key that is not in the list the two bounds agree. -/
theorem lower_eq_upper_of_not_mem (l : List α) (k : α) (h : k ∉ l) :
    lower_bound_node l k = upper_bound_node l k := by
  induction l with
  | nil => rfl
  | cons x xs ih =>
    have hx : x ≠ k := fun e => h (by simp [e])
    have hxs : k ∉ xs := fun e => h (List.mem_cons_of_mem _ e)
    rw [lower_bound_node, upper_bound_node, ih hxs]
    by_cases hlt : x < k
    · rw [if_pos hlt, if_pos (not_lt.2 (le_of_lt hlt))]
    · rw [if_neg hlt, if_neg (not_not.2 (lt_of_le_of_ne (not_lt.1 hlt) (Ne.symm hx)))]

/-- In a sorted list the items before the upper bound are those not greater
than the key. -/
theorem take_upper_bound_node (l : List α) (k : α) (hs : l.Pairwise (· ≤ ·)) :
    l.take (upper_bound_node l k) = l.filter (fun x => decide (x ≤ k)) := by
  induction l with
  | nil => rfl
  | cons x xs ih =>
    rw [upper_bound_node]
    by_cases hx : k < x
    · rw [if_neg (not_not.2 hx), List.take_zero]
      symm
      rw [List.filter_eq_nil_iff]
      intro y hy
      have hxy : x ≤ y := by
        rcases List.mem_cons.1 hy with rfl | hy'
        · exact le_refl _
        · exact (List.pairwise_cons.1 hs).1 y hy'
      simpa using lt_of_lt_of_le hx hxy
    · rw [if_pos hx, List.take_succ_cons, ih (List.pairwise_cons.1 hs).2,
        List.filter_cons_of_pos (by simpa using hx)]

/-- In a sorted list the items from the lower bound of `lo` up to the upper
bound of `hi` are those between `lo` and `hi`. -/
theorem take_drop_bounds (l : List α) (lo hi : α) (hs : l.Pairwise (· ≤ ·)) (hle : lo ≤ hi) :
    (l.take (upper_bound_node l hi)).drop (lower_bound_node l lo)
      = l.filter (fun x => decide (lo ≤ x ∧ x ≤ hi)) := by
  induction l with
  | nil => rfl
  | cons x xs ih =>
    by_cases hx : x < lo
    · have hxhi : ¬ hi < x := not_lt.2 (le_trans (le_of_lt hx) hle)
      rw [lower_bound_node, if_pos hx, upper_bound_node, if_pos hxhi, List.take_succ_cons,
        List.drop_succ_cons, ih (List.pairwise_cons.1 hs).2,
        List.filter_cons_of_neg (by simp [hx])]
    · rw [lower_bound_node, if_neg hx, List.drop_zero, take_upper_bound_node _ _ hs]
      apply List.filter_congr
      intro y hy
      have hxy : x ≤ y := by
        rcases List.mem_cons.1 hy with rfl | hy'
        · exact le_refl _
        · exact (List.pairwise_cons.1 hs).1 y hy'
      have hlo : lo ≤ y := le_trans (not_lt.1 hx) hxy
      simp [hlo]

theorem lower_bound_le_upper_bound (l : List α) (lo hi : α) (hle : lo ≤ hi) :
    lower_bound_node l lo ≤ upper_bound_node l hi := by
  induction l with
  | nil => simp [lower_bound_node, upper_bound_node]
  | cons x xs ih =>
    rw [lower_bound_node, upper_bound_node]
    by_cases hx : x < lo
    · rw [if_pos hx, if_pos (not_lt.2 (le_trans (le_of_lt hx) hle))]; omega
    · rw [if_neg hx]; omega

/-- The iterator `lower_bound(k)` of a non-empty container and the index it
designates. -/
theorem lower_bound_indexOf {cfg : Config} {t : Tree α} {h : Nat} {ls : Leaves α}
    {fp : List Nat} (hs : Sub cfg t h true t.parent Ptr.root ls fp) (hnd : fp.Nodup)
    (hsorted : (items ls).Pairwise (· ≤ ·)) (k : α) :
    ∃ pos, lower_bound t k = some pos ∧
      indexOf t pos = some (lower_bound_node (items ls) k) := by
  obtain ⟨a, tl, hp, -⟩ := Sub.ptr hs
  have hll := leafList_of_sub hs hnd
  have hnn : t.parent ≠ Ptr.null := by rw [hp]; simp
  obtain ⟨s1, s2⟩ := lower_bound_loop_spec cfg t k h true t.parent Ptr.root ls fp
    (t.mem.length + 1) hs hnd hsorted (Sub.fuel hs hnd)
  by_cases hlt : lower_bound_node (items ls) k < (items ls).length
  · obtain ⟨b, w, hres, -, hidx⟩ := s1 hlt
    exact ⟨(Ptr.node b, w), by simp [lower_bound, lower_bound_, hnn, hres, iterator],
      by simp [indexOf, hll, hidx]⟩
  · have heq : lower_bound_node (items ls) k = (items ls).length := by
      have := lower_bound_node_le (items ls) k; omega
    exact ⟨(Ptr.root, 0), by simp [lower_bound, lower_bound_, hnn, s2 heq, iterator],
      by simp [indexOf, toList, hll, heq]⟩

/-- The iterator `upper_bound(k)` of a non-empty container, the index it
designates, and `rank(k)`. -/
theorem upper_bound_indexOf {cfg : Config} {t : Tree α} {h : Nat} {ls : Leaves α}
    {fp : List Nat} (hs : Sub cfg t h true t.parent Ptr.root ls fp) (hnd : fp.Nodup)
    (hh : h + 1 < SIZE_MAX) (hsz : t.size = (items ls).length)
    (hsorted : (items ls).Pairwise (· ≤ ·)) (k : α) :
    ∃ pos, upper_bound t k = some pos ∧
      indexOf t pos = some (upper_bound_node (items ls) k) ∧
      rank t k = some (upper_bound_node (items ls) k) := by
  obtain ⟨a, tl, hp, -⟩ := Sub.ptr hs
  have hll := leafList_of_sub hs hnd
  have hnr : t.parent ≠ Ptr.root := by rw [hp]; simp
  obtain ⟨s1, s2⟩ := upper_bound_loop_spec cfg t k h true t.parent Ptr.root ls fp
    (t.mem.length + 1) hs hnd hsorted (Sub.fuel hs hnd)
  by_cases hlt : upper_bound_node (items ls) k < (items ls).length
  · obtain ⟨b, w, hres, -, hidx⟩ := s1 hlt
    have hclimb := advance_root_top hs hnd hh b w _ hidx
    exact ⟨(Ptr.node b, w), by simp [upper_bound, upper_bound_, hnr, hres, iterator],
      by simp [indexOf, hll, hidx], by simp [rank, upper_bound_, hnr, hres, hclimb]⟩
  · have heq : upper_bound_node (items ls) k = (items ls).length := by
      have := upper_bound_node_le (items ls) k; omega
    exact ⟨(Ptr.root, 0), by simp [upper_bound, upper_bound_, hnr, s2 heq, iterator],
      by simp [indexOf, toList, hll, heq], by simp [rank, upper_bound_, hnr, s2 heq, heq, hsz]⟩

end BoundFacts

end BPP

namespace BPP

section BoundClaims
variable {α : Type} [LinearOrder α]

/-- C15, the claim as stated fails: on the container `{10, 20, 30, 40, 50}`,
which is not empty and satisfies I1–I7, `lower_bound(20)` is the iterator to
20 while `at(rank(20))` is the iterator to 30. -/
theorem lower_bound_ne_at_rank_stored :
    WF ⟨false, 4, 4⟩ sample5 ∧ sample5.parent ≠ Ptr.root ∧
    lower_bound sample5 20 = some (Ptr.node 0, 1) ∧
    (rank sample5 20).bind («at» sample5) = some (Ptr.node 1, 0) ∧
    lower_bound sample5 20 ≠ (rank sample5 20).bind («at» sample5) :=
  ⟨sample5_wf false, by decide, by decide, by decide, by decide⟩

/-- C15 as amended: on a container that satisfies I1–I7, `at(rank(k))` is
`upper_bound(k)` for every key `k`; on a non-empty container it is also
`lower_bound(k)` when no stored element equals `k`. -/
theorem at_rank_key (cfg : Config) (t : Tree α) (k : α) (hwf : WF cfg t) :
    ∃ pos xs, upper_bound t k = some pos ∧ (rank t k).bind («at» t) = some pos ∧
      toList t = some xs ∧ (t.parent ≠ Ptr.root → k ∉ xs → lower_bound t k = some pos) := by
  have hwf' := hwf
  obtain ⟨-, -, hem | ⟨h, ls, fp, hs, hnd, hh, hsz, hord, -⟩⟩ := hwf
  · obtain ⟨hp, -, -, hsz⟩ := hem
    refine ⟨(Ptr.root, 0), [], by simp [upper_bound, upper_bound_, hp, iterator], ?_,
      by simp [toList, leafList, hp], fun hne => absurd hp hne⟩
    simp [rank, upper_bound_, hp, at_empty t _ hp hsz]
  obtain ⟨pos, hub, hidx, hrank⟩ := upper_bound_indexOf hs hnd hh hsz hord.1 k
  have hll := leafList_of_sub hs hnd
  have hat := (rank_at_of_indexOf cfg t pos _ hwf' hidx).2
  refine ⟨pos, items ls, hub, by rw [hrank]; exact hat, by simp [toList, hll], ?_⟩
  intro _ hk
  obtain ⟨pos', hlb, hidx'⟩ := lower_bound_indexOf hs hnd hord.1 k
  rw [lower_eq_upper_of_not_mem _ _ hk] at hidx'
  have hat' := (rank_at_of_indexOf cfg t pos' _ hwf' hidx').2
  rw [hat] at hat'
  rw [hlb]; exact hat'.symm

/-- The statement of `at_rank_key` on the container `{10, 20, 30, 40, 50}`
for the key 25. -/
theorem at_rank_key_witness :
    WF ⟨false, 4, 4⟩ sample5 ∧
    ∃ pos xs, upper_bound sample5 25 = some pos ∧
      (rank sample5 25).bind («at» sample5) = some pos ∧ toList sample5 = some xs ∧
      (sample5.parent ≠ Ptr.root → 25 ∉ xs → lower_bound sample5 25 = some pos) :=
  ⟨sample5_wf false, at_rank_key ⟨false, 4, 4⟩ sample5 25 (sample5_wf false)⟩

/-- C17: on a non-empty container that satisfies I1–I7, `range(lo, hi)` is
`(end(), end())` when `hi < lo`; otherwise it is
`(lower_bound(lo), upper_bound(hi))`, and the elements between the two
iterators are the stored elements `x` with `lo ≤ x ≤ hi`, in order. -/
theorem range_bounds (cfg : Config) (t : Tree α) (lo hi : α) (hwf : WF cfg t)
    (hne : t.parent ≠ Ptr.root) :
    (hi < lo → range t lo hi = some («end», «end»)) ∧
    (¬ hi < lo → ∃ a b xs, range t lo hi = some (a, b) ∧ lower_bound t lo = some a ∧
      upper_bound t hi = some b ∧ toList t = some xs ∧
      elements t a b = some (xs.filter (fun x => decide (lo ≤ x ∧ x ≤ hi)))) := by
  constructor
  · intro hlt
    simp [range, hlt, «end»]
  · intro hge
    obtain ⟨-, -, hem | ⟨h, ls, fp, hs, hnd, hh, hsz, hord, -⟩⟩ := hwf
    · exact absurd hem.1 hne
    obtain ⟨a, hlb, hia⟩ := lower_bound_indexOf hs hnd hord.1 lo
    obtain ⟨b, hub, hib, -⟩ := upper_bound_indexOf hs hnd hh hsz hord.1 hi
    have hll := leafList_of_sub hs hnd
    have htl : toList t = some (items ls) := by simp [toList, hll]
    refine ⟨a, b, items ls, ?_, hlb, hub, htl, ?_⟩
    · simp only [lower_bound, upper_bound, Option.map_eq_some'] at hlb hub
      obtain ⟨a0, ha0, ha1⟩ := hlb
      obtain ⟨b0, hb0, hb1⟩ := hub
      simp [range, hge, ha0, hb0, ha1, hb1]
    · simp only [elements, hia, hib, htl, Option.bind_eq_bind, Option.some_bind]
      rw [take_drop_bounds _ _ _ hord.1 (not_lt.1 hge)]

/-- The statement of `range_bounds` on the container `{10, 20, 30, 40, 50}`
for the keys 15 and 40. -/
theorem range_bounds_witness :
    WF ⟨false, 4, 4⟩ sample5 ∧ sample5.parent ≠ Ptr.root ∧
    ((40 < 15 → range sample5 15 40 = some («end», «end»)) ∧
    (¬ 40 < 15 → ∃ a b xs, range sample5 15 40 = some (a, b) ∧
      lower_bound sample5 15 = some a ∧ upper_bound sample5 40 = some b ∧
      toList sample5 = some xs ∧
      elements sample5 a b = some (xs.filter (fun x => decide (15 ≤ x ∧ x ≤ 40))))) :=
  ⟨sample5_wf false, by decide,
    range_bounds ⟨false, 4, 4⟩ sample5 15 40 (sample5_wf false) (by decide)⟩

end BoundClaims

end BPP

/-! ## Slices by signed positions -/

namespace BPP

section Slices
variable {α : Type} [LinearOrder α]

/-- The first position of a slice as the claim words it: a negative
`slice_begin` counts from the end and is clamped at 0. -/
def slice_first_spec (n a : Int) : Int := if a < 0 then max (n + a) 0 else a

/-- The last position of a slice as the claim words it: a `slice_end` that
is not positive counts from the end, 0 being one past the last element. -/
def slice_last_spec (n b : Int) : Int := if b ≤ 0 then n + b else b

/-- C18: on a container that satisfies I1–I7 with `n = size()` a
`difference_type` value, and signed positions `a`, `b`: with `a'` the first
and `b'` the last position counted as above, `slice(a, b)` is
`(end(), end())` when `a' > b'` or `a' ≥ n`, and otherwise the pair of the
iterators that designate `a'` and `min(b', n)`, whose elements are those at
the in-order positions `[a', min(b', n))`. -/
theorem slice_positions (cfg : Config) (t : Tree α) (a b : Int) (hwf : WF cfg t)
    (hsz : t.size < 2 ^ 63) (ha : -(2 ^ 63) ≤ a ∧ a < 2 ^ 63) (hb : -(2 ^ 63) ≤ b ∧ b < 2 ^ 63) :
    ∃ p q xs, slice t a b = some (p, q) ∧ toList t = some xs ∧
      ((slice_first_spec t.size a > slice_last_spec t.size b ∨
          slice_first_spec t.size a ≥ t.size) → p = «end» ∧ q = «end») ∧
      (¬ (slice_first_spec t.size a > slice_last_spec t.size b ∨
          slice_first_spec t.size a ≥ t.size) →
        indexOf t p = some (slice_first_spec t.size a).toNat ∧
        indexOf t q = some (min (slice_last_spec t.size b) t.size).toNat ∧
        elements t p q = some ((xs.take (min (slice_last_spec t.size b) t.size).toNat).drop
          (slice_first_spec t.size a).toNat)) := by
  obtain ⟨xs, htl, -⟩ := toList_length cfg t hwf
  have hs0 : sint (t.size : Int) = (t.size : Int) := sint_of_lt _ (by omega) (by omega)
  have hfirst : (if a < 0 then (sadd (t.size : Int) a).map (fun x => max x 0) else some a)
      = some (slice_first_spec t.size a) := by
    unfold slice_first_spec
    by_cases h : a < 0
    · rw [if_pos h, if_pos h, sadd, if_pos (by omega)]; rfl
    · rw [if_neg h, if_neg h]
  have hlast : (if b ≤ 0 then sadd (t.size : Int) b else some b)
      = some (slice_last_spec t.size b) := by
    unfold slice_last_spec
    by_cases h : b ≤ 0
    · rw [if_pos h, if_pos h, sadd, if_pos (by omega)]
    · rw [if_neg h, if_neg h]
  generalize hA : slice_first_spec t.size a = A at hfirst ⊢
  generalize hB : slice_last_spec t.size b = B at hlast ⊢
  have hA0 : 0 ≤ A := by
    rw [← hA]; unfold slice_first_spec
    by_cases h : a < 0
    · rw [if_pos h]; exact le_max_right _ _
    · rw [if_neg h]; omega
  have hB1 : B < 2 ^ 63 := by
    rw [← hB]; unfold slice_last_spec
    by_cases h : b ≤ 0
    · rw [if_pos h]; omega
    · rw [if_neg h]; omega
  by_cases hdeg : A > B ∨ A ≥ (t.size : Int)
  · refine ⟨«end», «end», xs, ?_, htl, fun _ => ⟨rfl, rfl⟩, fun h => absurd hdeg h⟩
    simp only [slice, hs0, hfirst, hlast, Option.bind_eq_bind, Option.some_bind]
    rw [if_pos hdeg]; rfl
  · have hAB : A ≤ B := by omega
    have hAn : A < t.size := by omega
    obtain ⟨p, hp, hip, -, -⟩ := at_indexOf cfg t A.toNat hwf
    obtain ⟨q, hq, hiq, -, -⟩ := at_indexOf cfg t B.toNat hwf
    have e1 : min A.toNat t.size = A.toNat := by omega
    have e2 : min B.toNat t.size = (min B (t.size : Int)).toNat := by omega
    rw [e1] at hip
    rw [e2] at hiq
    refine ⟨p, q, xs, ?_, htl, fun h => absurd h hdeg, fun _ => ⟨hip, hiq, ?_⟩⟩
    · simp only [slice, hs0, hfirst, hlast, Option.bind_eq_bind, Option.some_bind]
      rw [if_neg hdeg, usize_of_nonneg A hA0 (by omega), usize_of_nonneg B (by omega) (by omega),
        hp, hq]
    · simp only [elements, hip, hiq, htl, Option.bind_eq_bind, Option.some_bind]

/-- The statement of `slice_positions` on the container
`{10, 20, 30, 40, 50}` for `slice(1, -1)`, with the elements `[20, 30, 40]` of
that slice and the elements `[30, 40, 50]` of `slice(-3, 0)`. -/
theorem slice_positions_witness :
    WF ⟨false, 4, 4⟩ sample5 ∧ sample5.size < 2 ^ 63 ∧
    (∃ p q xs, slice sample5 1 (-1) = some (p, q) ∧ toList sample5 = some xs ∧
      ((slice_first_spec sample5.size 1 > slice_last_spec sample5.size (-1) ∨
          slice_first_spec sample5.size 1 ≥ sample5.size) → p = «end» ∧ q = «end») ∧
      (¬ (slice_first_spec sample5.size 1 > slice_last_spec sample5.size (-1) ∨
          slice_first_spec sample5.size 1 ≥ sample5.size) →
        indexOf sample5 p = some (slice_first_spec sample5.size 1).toNat ∧
        indexOf sample5 q = some (min (slice_last_spec sample5.size (-1)) sample5.size).toNat ∧
        elements sample5 p q
          = some ((xs.take (min (slice_last_spec sample5.size (-1)) sample5.size).toNat).drop
              (slice_first_spec sample5.size 1).toNat))) ∧
    (slice sample5 1 (-1)).bind (fun r => elements sample5 r.1 r.2) = some [20, 30, 40] ∧
    (slice sample5 (-3) 0).bind (fun r => elements sample5 r.1 r.2) = some [30, 40, 50] :=
  ⟨sample5_wf false, by decide,
    slice_positions ⟨false, 4, 4⟩ sample5 1 (-1) (sample5_wf false) (by decide)
      ⟨by decide, by decide⟩ ⟨by decide, by decide⟩,
    by decide, by decide⟩

end Slices

end BPP

/-! ## Inserting into a leaf -/

namespace BPP

section LeafInsert
variable {α : Type}

/-- Inserting into a leaf that is not full. -/
theorem insert_leaf_room (cfg : Config) (t : Tree α) (a : Nat) (l : LeafNode α) (w : Nat) (v : α)
    (hn : t.node? (Ptr.node a) = some (Node.leaf l)) (hw : w ≤ l.item.length)
    (hroom : l.item.length ≠ cfg.maxLeaf) :
    insert_leaf_ cfg t (Ptr.node a) w v
      = some (t.put a (Node.leaf { l with item := l.item.take w ++ v :: l.item.drop w }),
          (Ptr.node a, w), none) := by
  simp [insert_leaf_, leaf?_of_node? hn, hroom, insertAt?_eq _ _ _ hw, modLeaf_eq t a l _ hn]

end LeafInsert

section LeafSplit
variable {α : Type}

/-- The memory `t'` is the memory `t` after stores into the cells `S` and
allocations: every older cell outside `S` is as it was. -/
def Mod (t t' : Tree α) (S : List Nat) : Prop :=
  t.mem.length ≤ t'.mem.length ∧
    ∀ b, b < t.mem.length → b ∉ S → t'.node? (Ptr.node b) = t.node? (Ptr.node b)

theorem Mod.mod_refl (t : Tree α) (S : List Nat) : Mod t t S := ⟨le_refl _, fun _ _ _ => rfl⟩

theorem Mod.mod_trans {t t' t'' : Tree α} {S1 S2 : List Nat} (h1 : Mod t t' S1) (h2 : Mod t' t'' S2) :
    Mod t t'' (S1 ++ S2) := by
  refine ⟨le_trans h1.1 h2.1, fun b hb hS => ?_⟩
  rw [h2.2 b (lt_of_lt_of_le hb h1.1) (fun e => hS (List.mem_append_right _ e)),
    h1.2 b hb (fun e => hS (List.mem_append_left _ e))]

theorem Mod.mod_mono {t t' : Tree α} {S S' : List Nat} (h : Mod t t' S)
    (hsub : ∀ b ∈ S, b < t.mem.length → b ∈ S') : Mod t t' S' :=
  ⟨h.1, fun b hb hS => h.2 b hb (fun e => hS (hsub b e hb))⟩

theorem Mod.put (t : Tree α) (a : Nat) (n : Node α) : Mod t (t.put a n) [a] :=
  ⟨by simp, fun b _ hS => node?_put_ne _ _ _ _ (by simpa using hS)⟩

theorem Mod.push (t : Tree α) (n : Node α) : Mod t (t.push n) [] :=
  ⟨by simp, fun b hb _ => node?_push_old _ _ _ hb⟩

/-- The anchor fields of two states agree. -/
def Anchor (t t' : Tree α) : Prop :=
  t'.parent = t.parent ∧ t'.size = t.size ∧ t'.left = t.left ∧ t'.right = t.right

theorem Anchor.anchor_refl (t : Tree α) : Anchor t t := ⟨rfl, rfl, rfl, rfl⟩

theorem Anchor.anchor_trans {t t' t'' : Tree α} (h1 : Anchor t t') (h2 : Anchor t' t'') :
    Anchor t t'' :=
  ⟨h2.1.trans h1.1, h2.2.1.trans h1.2.1, h2.2.2.1.trans h1.2.2.1, h2.2.2.2.trans h1.2.2.2⟩

/-- A store into a live leaf. -/
theorem modLeaf_step (t : Tree α) (a : Nat) (l : LeafNode α) (f : LeafNode α → LeafNode α)
    (hn : t.node? (Ptr.node a) = some (Node.leaf l)) :
    ∃ t', t.modLeaf (Ptr.node a) f = some t' ∧
      t'.node? (Ptr.node a) = some (Node.leaf (f l)) ∧ Mod t t' [a] ∧ Anchor t t' ∧
      t'.mem.length = t.mem.length :=
  ⟨_, modLeaf_eq t a l f hn, node?_put_same _ _ _ (lt_mem_of_node? hn), Mod.put _ _ _,
    Anchor.anchor_refl _, by simp⟩

/-- A store into a live inner node. -/
theorem modInner_step (t : Tree α) (a : Nat) (n : InnerNode α) (f : InnerNode α → InnerNode α)
    (hn : t.node? (Ptr.node a) = some (Node.inner n)) :
    ∃ t', t.modInner (Ptr.node a) f = some t' ∧
      t'.node? (Ptr.node a) = some (Node.inner (f n)) ∧ Mod t t' [a] ∧ Anchor t t' ∧
      t'.mem.length = t.mem.length :=
  ⟨_, modInner_eq t a n f hn, node?_put_same _ _ _ (lt_mem_of_node? hn), Mod.put _ _ _,
    Anchor.anchor_refl _, by simp⟩

/-- What `split_leaf_node_` leaves behind: the left half in the old leaf, the
right half in a fresh leaf linked after it, the `prev` link of the old
successor (or `root_.right`) pointing at the fresh leaf. -/
theorem split_leaf_spec (t : Tree α) (a : Nat) (l : LeafNode α)
    (hn : t.node? (Ptr.node a) = some (Node.leaf l)) (hlen : 2 ≤ l.item.length)
    (hnext : l.next = Ptr.root ∨
      ∃ b m, l.next = Ptr.node b ∧ b ≠ a ∧ t.node? (Ptr.node b) = some (Node.leaf m)) :
    ∃ t' k, split_leaf_node_ t (Ptr.node a) = some (t', k, Ptr.node t.mem.length) ∧
      t'.node? (Ptr.node a) = some (Node.leaf
        { l with item := l.item.take (l.item.length / 2), next := Ptr.node t.mem.length }) ∧
      t'.node? (Ptr.node t.mem.length) = some (Node.leaf
        ⟨Ptr.null, Ptr.node a, l.next, l.item.drop (l.item.length / 2)⟩) ∧
      (l.item.take (l.item.length / 2)).getLast? = some k ∧
      t'.mem.length = t.mem.length + 1 ∧ t'.parent = t.parent ∧ t'.size = t.size ∧
      t'.left = t.left ∧ t'.right = (if l.next = Ptr.root then Ptr.node t.mem.length else t.right) ∧
      (∀ b, b < t.mem.length → b ≠ a → l.next ≠ Ptr.node b →
        t'.node? (Ptr.node b) = t.node? (Ptr.node b)) ∧
      (∀ b m, l.next = Ptr.node b → t.node? (Ptr.node b) = some (Node.leaf m) →
        t'.node? (Ptr.node b) = some (Node.leaf { m with prev := Ptr.node t.mem.length })) := by
  have ha : a < t.mem.length := lt_mem_of_node? hn
  have haN : a ≠ t.mem.length := Nat.ne_of_lt ha
  have hmid1 : 1 ≤ l.item.length / 2 := by omega
  have hmid2 : l.item.length / 2 ≤ l.item.length := Nat.div_le_self _ _
  have hklen : l.item.length / 2 - 1 < (l.item.take (l.item.length / 2)).length := by
    rw [List.length_take]; omega
  have hk : (l.item.take (l.item.length / 2))[wsub (l.item.length / 2) 1]?
      = some ((l.item.take (l.item.length / 2))[l.item.length / 2 - 1]) := by
    rw [wsub_of_le hmid1, List.getElem?_eq_getElem hklen]
  have hlast : (l.item.take (l.item.length / 2)).getLast?
      = some ((l.item.take (l.item.length / 2))[l.item.length / 2 - 1]) := by
    rw [List.getLast?_eq_getElem?, List.length_take, Nat.min_eq_left hmid2,
      List.getElem?_eq_getElem hklen]
  have hsl1 : slice? l.item (l.item.length / 2) l.item.length
      = some (l.item.drop (l.item.length / 2)) := by
    rw [slice?_eq _ _ _ hmid2 (le_refl _), List.take_length]
  have hsl2 : slice? l.item 0 (l.item.length / 2) = some (l.item.take (l.item.length / 2)) := by
    rw [slice?_eq _ _ _ (Nat.zero_le _) hmid2, List.drop_zero]
  -- the fresh leaf
  obtain ⟨t1, h1, e1⟩ : ∃ t1, t.alloc_leaf_node_ Ptr.null = (t1, Ptr.node t.mem.length) ∧
      t1 = t.push (Node.leaf ⟨Ptr.null, Ptr.null, Ptr.null, []⟩) := ⟨_, rfl, rfl⟩
  have hN1 : t1.node? (Ptr.node t.mem.length) = some (Node.leaf ⟨Ptr.null, Ptr.null, Ptr.null, []⟩) := by
    rw [e1]; exact node?_push_new _ _
  have hold1 : ∀ b, b < t.mem.length → t1.node? (Ptr.node b) = t.node? (Ptr.node b) := by
    intro b hb; rw [e1]; exact node?_push_old _ _ _ hb
  have hlen1 : t1.mem.length = t.mem.length + 1 := by rw [e1]; simp
  have hanc1 : Anchor t t1 := by rw [e1]; exact ⟨rfl, rfl, rfl, rfl⟩
  obtain ⟨t2, h2, hN2, hm2, hanc2, hlen2⟩ := modLeaf_step t1 _ _
    (fun m => { m with next := l.next }) hN1
  -- the successor, or the anchor
  obtain ⟨t3, h3, hN3, ha3, hlen3, hp3, hs3, hl3, hr3, hfr3, hnx3⟩ : ∃ t3,
      (if l.next = Ptr.root then some { t2 with right := Ptr.node t.mem.length }
        else t2.modLeaf l.next (fun m => { m with prev := Ptr.node t.mem.length })) = some t3 ∧
      t3.node? (Ptr.node t.mem.length)
        = some (Node.leaf ⟨Ptr.null, Ptr.null, l.next, []⟩) ∧
      t3.node? (Ptr.node a) = some (Node.leaf l) ∧ t3.mem.length = t.mem.length + 1 ∧
      t3.parent = t.parent ∧ t3.size = t.size ∧ t3.left = t.left ∧
      t3.right = (if l.next = Ptr.root then Ptr.node t.mem.length else t.right) ∧
      (∀ b, b < t.mem.length → b ≠ a → l.next ≠ Ptr.node b →
        t3.node? (Ptr.node b) = t.node? (Ptr.node b)) ∧
      (∀ b m, l.next = Ptr.node b → t.node? (Ptr.node b) = some (Node.leaf m) →
        t3.node? (Ptr.node b) = some (Node.leaf { m with prev := Ptr.node t.mem.length })) := by
    have hfr2 : ∀ b, b < t.mem.length → t2.node? (Ptr.node b) = t.node? (Ptr.node b) := by
      intro b hb
      rw [hm2.2 b (by omega) (by simp; omega), hold1 b hb]
    rcases hnext with hroot | ⟨b, m, hb, hba, hm⟩
    · refine ⟨_, by rw [if_pos hroot], ?_, ?_, ?_, ?_, ?_, ?_, ?_, ?_, ?_⟩
      · simpa using hN2
      · simp only [node?_with_anchor]; rw [hfr2 a ha]; exact hn
      · simp [hlen2, hlen1]
      · exact hanc2.1.trans hanc1.1
      · exact hanc2.2.1.trans hanc1.2.1
      · exact hanc2.2.2.1.trans hanc1.2.2.1
      · simp [hroot]
      · intro c hc _ _; simp only [node?_with_anchor]; exact hfr2 c hc
      · intro c m' hc; rw [hroot] at hc; simp at hc
    · have hnr : l.next ≠ Ptr.root := by rw [hb]; simp
      have hbl : b < t.mem.length := lt_mem_of_node? hm
      have hb2 : t2.node? (Ptr.node b) = some (Node.leaf m) := by rw [hfr2 b hbl]; exact hm
      obtain ⟨t3, h3, hb3, hm3, hanc3, hlen3⟩ := modLeaf_step t2 b m
        (fun m => { m with prev := Ptr.node t.mem.length }) hb2
      refine ⟨t3, by rw [if_neg hnr, hb]; exact h3, ?_, ?_, ?_, ?_, ?_, ?_, ?_, ?_, ?_⟩
      · rw [hm3.2 _ (by omega) (by simp; omega)]; exact hN2
      · rw [hm3.2 _ (by omega) (by simp; exact fun e => hba e.symm), hfr2 a ha]; exact hn
      · omega
      · exact hanc3.1.trans (hanc2.1.trans hanc1.1)
      · exact hanc3.2.1.trans (hanc2.2.1.trans hanc1.2.1)
      · exact hanc3.2.2.1.trans (hanc2.2.2.1.trans hanc1.2.2.1)
      · rw [if_neg hnr]; exact hanc3.2.2.2.trans (hanc2.2.2.2.trans hanc1.2.2.2)
      · intro c hc _ hcn
        have hcb : c ≠ b := fun e => hcn (by rw [hb, e])
        rw [hm3.2 c (by omega) (by simpa using hcb)]; exact hfr2 c hc
      · intro c m' hc hm'
        rw [hb] at hc
        simp only [Ptr.node.injEq] at hc
        subst hc
        rw [hm] at hm'
        simp only [Option.some.injEq, Node.leaf.injEq] at hm'
        subst hm'
        exact hb3
  obtain ⟨t4, h4, hN4, hm4, hanc4, hlen4⟩ := modLeaf_step t3 _ _
    (fun m => { m with item := l.item.drop (l.item.length / 2) }) hN3
  have ha4 : t4.node? (Ptr.node a) = some (Node.leaf l) := by
    rw [hm4.2 a (by omega) (by simpa using haN)]; exact ha3
  obtain ⟨t5, h5, ha5, hm5, hanc5, hlen5⟩ := modLeaf_step t4 a l
    (fun m => { m with item := l.item.take (l.item.length / 2),
                       next := Ptr.node t.mem.length }) ha4
  have hN5 : t5.node? (Ptr.node t.mem.length)
      = some (Node.leaf ⟨Ptr.null, Ptr.null, l.next, l.item.drop (l.item.length / 2)⟩) := by
    rw [hm5.2 _ (by omega) (by simpa using Ne.symm haN)]; exact hN4
  obtain ⟨t6, h6, hN6, hm6, hanc6, hlen6⟩ := modLeaf_step t5 _ _
    (fun m => { m with prev := Ptr.node a }) hN5
  have hfr36 : ∀ b, b < t.mem.length → b ≠ a →
      t6.node? (Ptr.node b) = t3.node? (Ptr.node b) := by
    intro b hb hba
    rw [hm6.2 b (by omega) (by simp; omega), hm5.2 b (by omega) (by simpa using hba),
      hm4.2 b (by omega) (by simp; omega)]
  refine ⟨t6, _, ?_, ?_, hN6, hlast, by omega, ?_, ?_, ?_, ?_, ?_, ?_⟩
  · simp only [split_leaf_node_, leaf?_of_node? hn, h1, h2, h3, hsl1, h4, hsl2, h5, h6, hk]
  · rw [hm6.2 a (by omega) (by simpa using haN)]; exact ha5
  · rw [hanc6.1, hanc5.1, hanc4.1, hp3]
  · rw [hanc6.2.1, hanc5.2.1, hanc4.2.1, hs3]
  · rw [hanc6.2.2.1, hanc5.2.2.1, hanc4.2.2.1, hl3]
  · rw [hanc6.2.2.2, hanc5.2.2.2, hanc4.2.2.2, hr3]
  · intro b hb hba hbn
    rw [hfr36 b hb hba]; exact hfr3 b hb hba hbn
  · intro b m hb hm
    have hbl : b < t.mem.length := lt_mem_of_node? hm
    have hba : b ≠ a := by
      rcases hnext with hroot | ⟨b', m', hb', hba', -⟩
      · rw [hroot] at hb; simp at hb
      · rw [hb'] at hb; simp only [Ptr.node.injEq] at hb; omega
    rw [hfr36 b hbl hba]; exact hnx3 b m hb hm

end LeafSplit

section LeafSplit2
variable {α : Type}

theorem insert_split_right {β : Type} (x : List β) (m w : Nat) (v : β) (hm : m ≤ w) :
    x.take m ++ ((x.drop m).take (w - m) ++ v :: (x.drop m).drop (w - m))
      = x.take w ++ v :: x.drop w := by
  obtain ⟨d, rfl⟩ : ∃ d, w = m + d := ⟨w - m, by omega⟩
  have e1 : x.take (m + d) = x.take m ++ (x.drop m).take d := by
    rw [List.take_add]
  have e2 : x.drop (m + d) = (x.drop m).drop d := by
    rw [List.drop_drop, Nat.add_comm]
  rw [e1, e2, Nat.add_sub_cancel_left, List.append_assoc]

theorem insert_split_left {β : Type} (x : List β) (m w : Nat) (v : β) (hw : w ≤ m) :
    ((x.take m).take w ++ v :: (x.take m).drop w) ++ x.drop m
      = x.take w ++ v :: x.drop w := by
  obtain ⟨d, rfl⟩ : ∃ d, m = w + d := ⟨m - w, by omega⟩
  have e1 : (x.take (w + d)).take w = x.take w := by
    rw [List.take_take, Nat.min_eq_left (by omega)]
  have e2 : (x.take (w + d)).drop w ++ x.drop (w + d) = x.drop w := by
    have e3 : x.drop (w + d) = (x.drop w).drop d := by rw [List.drop_drop, Nat.add_comm]
    rw [List.drop_take, Nat.add_sub_cancel_left, e3, List.take_append_drop]
  rw [e1, List.append_assoc, List.cons_append, e2]
theorem getLast?_insert {β : Type} (x : List β) (w : Nat) (v : β) (hw : w < x.length) :
    (x.take w ++ v :: x.drop w).getLast? = x.getLast? := by
  cases hd : x.drop w with
  | nil =>
    have := congrArg List.length hd
    simp at this
    omega
  | cons y ys =>
    have e : x = x.take w ++ y :: ys := by rw [← hd, List.take_append_drop]
    have e1 : x.take w ++ v :: y :: ys = (x.take w ++ [v]) ++ y :: ys := by simp
    rw [e1, List.getLast?_append_of_ne_nil _ (by simp)]
    conv_rhs => rw [e, List.getLast?_append_of_ne_nil _ (by simp)]

/-- Inserting into a full leaf: the leaf is split, the item lands in the half
that holds its position, and the last key of the left half is handed up with
the fresh leaf. -/
theorem insert_leaf_split (cfg : Config) (t : Tree α) (a : Nat) (l : LeafNode α) (w : Nat) (v : α)
    (hn : t.node? (Ptr.node a) = some (Node.leaf l)) (hw : w ≤ l.item.length)
    (hfull : l.item.length = cfg.maxLeaf) (hcap : 2 ≤ cfg.maxLeaf)
    (hnext : l.next = Ptr.root ∨
      ∃ b m, l.next = Ptr.node b ∧ b ≠ a ∧ t.node? (Ptr.node b) = some (Node.leaf m)) :
    ∃ t' xs1 xs2 k,
      insert_leaf_ cfg t (Ptr.node a) w v
        = some (t', (if w < xs1.length then (Ptr.node a, w)
            else (Ptr.node t.mem.length, w - xs1.length)), some (k, Ptr.node t.mem.length)) ∧
      xs1 ++ xs2 = l.item.take w ++ v :: l.item.drop w ∧ xs1.getLast? = some k ∧
      cfg.maxLeaf / 2 ≤ xs1.length ∧ xs1.length ≤ cfg.maxLeaf ∧
      cfg.maxLeaf / 2 ≤ xs2.length ∧ xs2.length ≤ cfg.maxLeaf ∧
      t'.node? (Ptr.node a)
        = some (Node.leaf { l with item := xs1, next := Ptr.node t.mem.length }) ∧
      t'.node? (Ptr.node t.mem.length)
        = some (Node.leaf ⟨Ptr.null, Ptr.node a, l.next, xs2⟩) ∧
      t'.mem.length = t.mem.length + 1 ∧ t'.parent = t.parent ∧ t'.size = t.size ∧
      t'.left = t.left ∧
      t'.right = (if l.next = Ptr.root then Ptr.node t.mem.length else t.right) ∧
      (∀ b, b < t.mem.length → b ≠ a → l.next ≠ Ptr.node b →
        t'.node? (Ptr.node b) = t.node? (Ptr.node b)) ∧
      (∀ b m, l.next = Ptr.node b → t.node? (Ptr.node b) = some (Node.leaf m) →
        t'.node? (Ptr.node b) = some (Node.leaf { m with prev := Ptr.node t.mem.length })) := by
  obtain ⟨t1, k, hsplit, ha1, hN1, hlast, hlen1, hp1, hs1, hl1, hr1, hfr1, hnx1⟩ :=
    split_leaf_spec t a l hn (by omega) hnext
  have ha : a < t.mem.length := lt_mem_of_node? hn
  have haN : a ≠ t.mem.length := Nat.ne_of_lt ha
  have hmid1 : 1 ≤ l.item.length / 2 := by omega
  have hmid2 : l.item.length / 2 ≤ l.item.length := Nat.div_le_self _ _
  have htl : (l.item.take (l.item.length / 2)).length = l.item.length / 2 := by
    rw [List.length_take]; omega
  have hdl : (l.item.drop (l.item.length / 2)).length = l.item.length - l.item.length / 2 := by
    rw [List.length_drop]
  by_cases hside : w ≥ l.item.length / 2
  · -- the item goes to the fresh leaf
    obtain ⟨t2, h2, hN2, hm2, hanc2, hlen2⟩ := modLeaf_step t1 _ _
      (fun m => { m with item := (l.item.drop (l.item.length / 2)).take (w - l.item.length / 2)
        ++ v :: (l.item.drop (l.item.length / 2)).drop (w - l.item.length / 2) }) hN1
    have hins : insertAt? (l.item.drop (l.item.length / 2)) (w - l.item.length / 2) v
        = some ((l.item.drop (l.item.length / 2)).take (w - l.item.length / 2)
          ++ v :: (l.item.drop (l.item.length / 2)).drop (w - l.item.length / 2)) :=
      insertAt?_eq _ _ _ (by rw [hdl]; omega)
    have hnlt : ¬ w < (l.item.take (l.item.length / 2)).length := by rw [htl]; omega
    refine ⟨t2, l.item.take (l.item.length / 2), _, k, ?_, ?_, hlast, ?_, ?_, ?_, ?_, ?_, hN2,
      by omega, ?_, ?_, ?_, ?_, ?_, ?_⟩
    · have hc : ¬ (Ptr.node t.mem.length ≠ Ptr.node t.mem.length ∧
          w - l.item.length / 2 = wsub ((l.item.drop (l.item.length / 2)).take
            (w - l.item.length / 2) ++ v ::
              (l.item.drop (l.item.length / 2)).drop (w - l.item.length / 2)).length 1) := by
        intro h; exact h.1 rfl
      rw [if_neg hnlt]
      simp only [insert_leaf_, leaf?_of_node? hn, if_pos hfull, if_true, hsplit, leaf?_of_node? ha1,
        htl, hside, ge_iff_le, leaf?_of_node? hN1, hins, h2, hc, if_false]
    · exact insert_split_right _ _ _ _ hside
    · rw [htl]; omega
    · rw [htl]; omega
    · simp only [List.length_append, List.length_cons, List.length_take, List.length_drop]
      omega
    · simp only [List.length_append, List.length_cons, List.length_take, List.length_drop]
      omega
    · rw [hm2.2 a (by omega) (by simpa using haN)]; exact ha1
    · rw [hanc2.1, hp1]
    · rw [hanc2.2.1, hs1]
    · rw [hanc2.2.2.1, hl1]
    · rw [hanc2.2.2.2, hr1]
    · intro b hb hba hbn
      rw [hm2.2 b (by omega) (by simp; omega)]; exact hfr1 b hb hba hbn
    · intro b m hb hm
      have hbl : b < t.mem.length := lt_mem_of_node? hm
      rw [hm2.2 b (by omega) (by simp; omega)]; exact hnx1 b m hb hm
  · -- the item goes to the old leaf
    have hw' : w < l.item.length / 2 := by omega
    obtain ⟨t2, h2, ha2, hm2, hanc2, hlen2⟩ := modLeaf_step t1 a _
      (fun m => { m with item := (l.item.take (l.item.length / 2)).take w
        ++ v :: (l.item.take (l.item.length / 2)).drop w }) ha1
    have hins : insertAt? (l.item.take (l.item.length / 2)) w v
        = some ((l.item.take (l.item.length / 2)).take w
          ++ v :: (l.item.take (l.item.length / 2)).drop w) :=
      insertAt?_eq _ _ _ (by rw [htl]; omega)
    have hlen' : ((l.item.take (l.item.length / 2)).take w
          ++ v :: (l.item.take (l.item.length / 2)).drop w).length = l.item.length / 2 + 1 := by
      simp only [List.length_append, List.length_cons, List.length_take, List.length_drop]
      omega
    have hlt : w < ((l.item.take (l.item.length / 2)).take w
          ++ v :: (l.item.take (l.item.length / 2)).drop w).length := by rw [hlen']; omega
    refine ⟨t2, _, l.item.drop (l.item.length / 2), k, ?_, ?_, ?_, ?_, ?_, ?_, ?_, ha2, ?_,
      by omega, ?_, ?_, ?_, ?_, ?_, ?_⟩
    · have hc : ¬ (Ptr.node a ≠ Ptr.node t.mem.length ∧
          w = wsub ((l.item.take (l.item.length / 2)).take w
            ++ v :: (l.item.take (l.item.length / 2)).drop w).length 1) := by
        intro h
        rw [hlen', wsub_of_le (by omega)] at h
        omega
      have hside' : ¬ w ≥ l.item.length / 2 := hside
      rw [if_pos hlt]
      simp only [insert_leaf_, leaf?_of_node? hn, if_pos hfull, if_true, hsplit, leaf?_of_node? ha1,
        htl, hside', ge_iff_le, hins, h2, hc, if_false]
    · exact insert_split_left _ _ _ _ (le_of_lt hw')
    · rw [getLast?_insert _ _ _ (by rw [htl]; exact hw')]; exact hlast
    · rw [hlen']; omega
    · rw [hlen']; omega
    · rw [hdl]; omega
    · rw [hdl]; omega
    · rw [hm2.2 _ (by omega) (by simpa using Ne.symm haN)]; exact hN1
    · rw [hanc2.1, hp1]
    · rw [hanc2.2.1, hs1]
    · rw [hanc2.2.2.1, hl1]
    · rw [hanc2.2.2.2, hr1]
    · intro b hb hba hbn
      rw [hm2.2 b (by omega) (by simpa using hba)]; exact hfr1 b hb hba hbn
    · intro b m hb hm
      have hbl : b < t.mem.length := lt_mem_of_node? hm
      have hba : b ≠ a := by
        rcases hnext with hroot | ⟨b', m', hb', hba', -⟩
        · rw [hroot] at hb; simp at hb
        · rw [hb'] at hb; simp only [Ptr.node.injEq] at hb; omega
      rw [hm2.2 b (by omega) (by simpa using hba)]; exact hnx1 b m hb hm

end LeafSplit2

end BPP

/-! ## Steps at the inner levels -/

namespace BPP

section InnerSteps
variable {α : Type}

/-- The leaf-chain links a pointer shows in two states agree. -/
def SameLinks (t t' : Tree α) (p : Ptr) : Prop :=
  (t'.leaf? p).map (fun l => (l.prev, l.next)) = (t.leaf? p).map (fun l => (l.prev, l.next))

/-- A step that leaves the anchor and every leaf-chain link alone and stores
only into the cells `S` and into fresh cells. -/
def IStep (t t' : Tree α) (S : List Nat) : Prop :=
  Mod t t' S ∧ Anchor t t' ∧ ∀ p, SameLinks t t' p

theorem IStep.istep_refl (t : Tree α) (S : List Nat) : IStep t t S :=
  ⟨Mod.mod_refl t S, Anchor.anchor_refl t, fun _ => rfl⟩

theorem IStep.istep_trans {t t' t'' : Tree α} {S1 S2 : List Nat} (h1 : IStep t t' S1)
    (h2 : IStep t' t'' S2) : IStep t t'' (S1 ++ S2) :=
  ⟨h1.1.mod_trans h2.1, h1.2.1.anchor_trans h2.2.1, fun p => (h2.2.2 p).trans (h1.2.2 p)⟩

theorem IStep.istep_mono {t t' : Tree α} {S S' : List Nat} (h : IStep t t' S)
    (hsub : ∀ b ∈ S, b < t.mem.length → b ∈ S') : IStep t t' S' :=
  ⟨h.1.mod_mono hsub, h.2.1, h.2.2⟩

theorem leaf?_put_inner (t : Tree α) (a : Nat) (n m : InnerNode α)
    (hn : t.node? (Ptr.node a) = some (Node.inner n)) (p : Ptr) :
    (t.put a (Node.inner m)).leaf? p = t.leaf? p := by
  cases p with
  | null => rfl
  | root => rfl
  | node b =>
    by_cases hb : b = a
    · subst hb
      simp [Tree.leaf?, node?_put_same _ _ _ (lt_mem_of_node? hn), hn]
    · simp [Tree.leaf?, node?_put_ne _ _ _ _ hb]

/-- A store into a live inner node is a step on that cell. -/
theorem modInner_istep (t : Tree α) (a : Nat) (n : InnerNode α) (f : InnerNode α → InnerNode α)
    (hn : t.node? (Ptr.node a) = some (Node.inner n)) :
    ∃ t', t.modInner (Ptr.node a) f = some t' ∧
      t'.node? (Ptr.node a) = some (Node.inner (f n)) ∧ IStep t t' [a] ∧
      t'.mem.length = t.mem.length :=
  ⟨_, modInner_eq t a n f hn, node?_put_same _ _ _ (lt_mem_of_node? hn),
    ⟨Mod.put _ _ _, Anchor.anchor_refl _, fun p => by
      unfold SameLinks; rw [leaf?_put_inner t a n _ hn]⟩, by simp⟩

/-- Setting the parent of a live node is a step on that cell; the node keeps
everything else. -/
theorem setParent_istep (t : Tree α) (a : Nat) (x : Node α) (q : Ptr)
    (hn : t.node? (Ptr.node a) = some x) :
    ∃ t', t.setParent (Ptr.node a) q = some t' ∧ IStep t t' [a] ∧
      t'.mem.length = t.mem.length ∧
      (∀ l, x = Node.leaf l → t'.node? (Ptr.node a) = some (Node.leaf { l with parent := q })) ∧
      (∀ n, x = Node.inner n →
        t'.node? (Ptr.node a) = some (Node.inner { n with parent := q })) := by
  have ha := lt_mem_of_node? hn
  cases x with
  | leaf l =>
    refine ⟨_, setParent_leaf_eq t a l q hn, ⟨Mod.put _ _ _, Anchor.anchor_refl _, fun p => ?_⟩,
      by simp, ?_, ?_⟩
    · unfold SameLinks
      cases p with
      | null => rfl
      | root => rfl
      | node b =>
        by_cases hb : b = a
        · subst hb
          simp [Tree.leaf?, node?_put_same _ _ _ ha, hn]
        · simp [Tree.leaf?, node?_put_ne _ _ _ _ hb]
    · intro l' e
      simp only [Node.leaf.injEq] at e
      subst e
      exact node?_put_same _ _ _ ha
    · intro n e; simp at e
  | inner n =>
    refine ⟨_, setParent_inner_eq t a n q hn, ⟨Mod.put _ _ _, Anchor.anchor_refl _, fun p => ?_⟩,
      by simp, ?_, ?_⟩
    · unfold SameLinks; rw [leaf?_put_inner t a n _ hn]
    · intro l e; simp at e
    · intro n' e
      simp only [Node.inner.injEq] at e
      subst e
      exact node?_put_same _ _ _ ha

/-- Allocating an inner node is a step that stores into no old cell. -/
theorem alloc_inner_istep (t : Tree α) (par : Ptr) :
    ∃ t', t.alloc_inner_node_ par = (t', Ptr.node t.mem.length) ∧
      t'.node? (Ptr.node t.mem.length) = some (Node.inner ⟨par, 0, 1, [], []⟩) ∧
      IStep t t' [] ∧ t'.mem.length = t.mem.length + 1 := by
  refine ⟨_, alloc_inner_eq t par, node?_push_new _ _, ⟨Mod.push _ _, ⟨rfl, rfl, rfl, rfl⟩,
    fun p => ?_⟩, by simp⟩
  unfold SameLinks
  cases p with
  | null => rfl
  | root => rfl
  | node b =>
    by_cases hb : b = t.mem.length
    · subst hb
      have h0 : t.node? (Ptr.node t.mem.length) = none := by
        simp [Tree.node?]
      simp [Tree.leaf?, node?_push_new, h0]
    · simp [Tree.leaf?, node?_push, hb]

/-- A step that stores outside a subtree keeps the subtree. -/
theorem Sub.step {cfg : Config} {t t' : Tree α} {S : List Nat} {h : Nat} {isRoot : Bool}
    {p par : Ptr} {ls : Leaves α} {fp : List Nat} (hs : Sub cfg t h isRoot p par ls fp)
    (hm : Mod t t' S) (hdis : ∀ b ∈ fp, b ∉ S) : Sub cfg t' h isRoot p par ls fp := by
  refine Sub.frame hs (fun b hb => ?_)
  unfold SameCore
  rw [hm.2 b (Sub.fp_lt hs b hb) (hdis b hb)]

/-- A step that keeps the links keeps a well-linked run. -/
theorem ChainOk.chain_step {t t' : Tree α} (hl : ∀ p, SameLinks t t' p) :
    ∀ (ls : Leaves α) (prev : Ptr), ChainOk t prev ls → ChainOk t' prev ls := by
  intro ls
  induction ls with
  | nil => intro _ _; trivial
  | cons x xs ih =>
    intro prev hc
    obtain ⟨p, lx⟩ := x
    obtain ⟨l, hl1, hp, hnx, hrest⟩ := hc
    have := hl p
    unfold SameLinks at this
    rw [hl1] at this
    cases h' : t'.leaf? p with
    | none => rw [h'] at this; simp at this
    | some l' =>
      rw [h'] at this
      simp only [Option.map_some', Option.some.injEq, Prod.mk.injEq] at this
      exact ⟨l', h', by rw [this.1, hp], by rw [this.2, hnx], ih p hrest⟩

end InnerSteps

section UpdateParent
variable {α : Type}

theorem Mod.sameCore {t t' : Tree α} {S : List Nat} (hm : Mod t t' S) (b : Nat)
    (hb : b < t.mem.length) (hS : b ∉ S) : SameCore t t' b := by
  unfold SameCore; rw [hm.2 b hb hS]

theorem mem_fpOf {q : Part α} {ps : List (Part α)} (hq : q ∈ ps) {b : Nat} (hb : b ∈ q.fp) :
    b ∈ fpOf ps := by
  simp only [fpOf, List.mem_flatten, List.mem_map]
  exact ⟨q.fp, ⟨q, hq, rfl⟩, hb⟩

/-- The root of a subtree is a live node. -/
theorem Sub.node {cfg : Config} {t : Tree α} {h : Nat} {isRoot : Bool} {p par : Ptr}
    {ls : Leaves α} {fp : List Nat} (hs : Sub cfg t h isRoot p par ls fp) :
    ∃ a tl x, p = Ptr.node a ∧ fp = a :: tl ∧ t.node? (Ptr.node a) = some x := by
  cases h with
  | zero =>
    obtain ⟨a, l, hp, hn, -, -, hfp, -⟩ := Sub.zero_iff.1 hs
    exact ⟨a, [], _, hp, hfp, by rw [← hp]; exact hn⟩
  | succ h =>
    obtain ⟨a, n, ps, hp, hn, -, -, -, -, -, -, -, -, hfp, -⟩ := Sub.succ_iff.1 hs
    exact ⟨a, _, _, hp, hfp, by rw [← hp]; exact hn⟩

/-- What `update_parent_` does to a run of well-formed children: each gets
the new parent, and the count is the number of items below them. -/
theorem update_parent_spec {cfg : Config} {h : Nat} (P : Ptr) :
    ∀ (cs : List (Part α)) (t : Tree α) (par : Ptr),
      (∀ q ∈ cs, Sub cfg t h false q.ptr par q.leaves q.fp) → (fpOf cs).Nodup →
      ∃ t', update_parent_ t (cs.map Part.ptr) P = some (t', (items (leavesOf cs)).length) ∧
        (∀ q ∈ cs, Sub cfg t' h false q.ptr P q.leaves q.fp) ∧ IStep t t' (fpOf cs) ∧
        t'.mem.length = t.mem.length := by
  intro cs
  induction cs with
  | nil =>
    intro t par _ _
    exact ⟨t, rfl, by simp, IStep.istep_refl _ _, rfl⟩
  | cons q rest ih =>
    intro t par hch hnd
    have hq := hch q (List.mem_cons_self _ _)
    obtain ⟨a, tl, x, hp, hfp, hx⟩ := Sub.node hq
    rw [fpOf_cons] at hnd
    obtain ⟨hndq, hndr, hdis⟩ := List.nodup_append.1 hnd
    obtain ⟨t1, hset, hst1, hlen1, hleaf1, hinner1⟩ := setParent_istep t a x P hx
    have hrest1 : ∀ q' ∈ rest, Sub cfg t1 h false q'.ptr par q'.leaves q'.fp := by
      intro q' hq'
      refine Sub.step (hch q' (List.mem_cons_of_mem _ hq')) hst1.1 (fun b hb => ?_)
      simp only [List.mem_singleton]
      intro e
      subst e
      exact hdis (by rw [hfp]; simp) (mem_fpOf hq' hb)
    have hq1 : Sub cfg t1 h false q.ptr P q.leaves q.fp := by
      rw [hp] at hq ⊢
      refine Sub.reparent hq hndq (fun b hb hba => ?_) ?_ ?_
      · exact hst1.1.sameCore b (Sub.fp_lt hq b hb) (by simpa using hba)
      · intro l hl
        rw [hx] at hl
        simp only [Option.some.injEq] at hl
        exact ⟨_, hleaf1 l hl, rfl, rfl⟩
      · intro n hn
        rw [hx] at hn
        simp only [Option.some.injEq] at hn
        exact hinner1 n hn
    obtain ⟨t', hup, hsub', hst', hlen'⟩ := ih t1 par hrest1 hndr
    refine ⟨t', ?_, ?_, ?_, by omega⟩
    · rw [List.map_cons, update_parent_, Sub.size? hq, hp]
      simp only [hset, hup, leavesOf_cons, items_append, List.length_append]
    · intro q' hq'
      rcases List.mem_cons.1 hq' with rfl | hq''
      · exact Sub.step hq1 hst'.1 (fun b hb e => hdis hb e)
      · exact hsub' q' hq''
    · have := hst1.istep_trans hst'
      refine this.istep_mono (fun b hb _ => ?_)
      rw [fpOf_cons]
      rcases List.mem_append.1 hb with h1 | h2
      · simp only [List.mem_singleton] at h1
        subst h1
        exact List.mem_append_left _ (by rw [hfp]; simp)
      · exact List.mem_append_right _ h2

end UpdateParent

section SplitInner
variable {α : Type}

/-- The split point `split_inner_node_` chooses for a node of `bound` keys
when the new separator goes to slot `w`. -/
def split_mid (bound w : Nat) : Nat :=
  if w ≤ bound / 2 ∧ bound / 2 > wsub bound (bound / 2 + 1) then wsub (bound / 2) 1 else bound / 2

theorem split_mid_lt (bound w : Nat) (hb : 2 ≤ bound) : split_mid bound w < bound := by
  unfold split_mid
  split
  · rw [wsub_of_le (by omega)]; omega
  · omega

theorem fpOf_take_drop_disjoint (ps : List (Part α)) (m : Nat) (hnd : (fpOf ps).Nodup) :
    ∀ b, b ∈ fpOf (ps.take m) → b ∈ fpOf (ps.drop m) → False := by
  intro b h1 h2
  rw [← List.take_append_drop m ps, fpOf_append] at hnd
  exact (List.nodup_append.1 hnd).2.2 h1 h2

theorem fpOf_sub_of_take (ps : List (Part α)) (m : Nat) : ∀ b ∈ fpOf (ps.take m), b ∈ fpOf ps := by
  intro b hb
  rw [← List.take_append_drop m ps, fpOf_append]
  exact List.mem_append_left _ hb

theorem fpOf_sub_of_drop (ps : List (Part α)) (m : Nat) : ∀ b ∈ fpOf (ps.drop m), b ∈ fpOf ps := by
  intro b hb
  rw [← List.take_append_drop m ps, fpOf_append]
  exact List.mem_append_right _ hb

/-- What `split_inner_node_` leaves behind: the keys and children after the
split point in a fresh node that is their parent and counts their items, the
others in the old node; the key at the split point is handed out. -/
theorem split_inner_spec {cfg : Config} {h : Nat} (t : Tree α) (a : Nat) (n : InnerNode α)
    (w : Nat) (ps : List (Part α)) (hn : t.node? (Ptr.node a) = some (Node.inner n))
    (hc : n.children = ps.map Part.ptr) (hlen : ps.length = n.item.length + 1)
    (hB : 2 ≤ n.item.length)
    (hch : ∀ q ∈ ps, Sub cfg t h false q.ptr (Ptr.node a) q.leaves q.fp)
    (hnd : (a :: fpOf ps).Nodup) :
    ∃ t' key, split_inner_node_ t (Ptr.node a) w = some (t', key, Ptr.node t.mem.length) ∧
      n.item[split_mid n.item.length w]? = some key ∧
      t'.node? (Ptr.node a) = some (Node.inner
        { n with item := n.item.take (split_mid n.item.length w),
                 children := (ps.take (split_mid n.item.length w + 1)).map Part.ptr,
                 size := wsub n.size
                   (items (leavesOf (ps.drop (split_mid n.item.length w + 1)))).length }) ∧
      t'.node? (Ptr.node t.mem.length) = some (Node.inner
        ⟨Ptr.null, (items (leavesOf (ps.drop (split_mid n.item.length w + 1)))).length, n.level,
          (ps.drop (split_mid n.item.length w + 1)).map Part.ptr,
          n.item.drop (split_mid n.item.length w + 1)⟩) ∧
      (∀ q ∈ ps.take (split_mid n.item.length w + 1),
        Sub cfg t' h false q.ptr (Ptr.node a) q.leaves q.fp) ∧
      (∀ q ∈ ps.drop (split_mid n.item.length w + 1),
        Sub cfg t' h false q.ptr (Ptr.node t.mem.length) q.leaves q.fp) ∧
      IStep t t' (a :: fpOf ps) ∧ t'.mem.length = t.mem.length + 1 := by
  have hmidlt := split_mid_lt n.item.length w hB
  have hmid : (if w ≤ n.item.length / 2 ∧ n.item.length / 2 > wsub n.item.length
      (n.item.length / 2 + 1) then wsub (n.item.length / 2) 1 else n.item.length / 2)
      = split_mid n.item.length w := rfl
  generalize split_mid n.item.length w = mid at hmidlt hmid ⊢
  have ha : a < t.mem.length := lt_mem_of_node? hn
  have hclen : n.children.length = n.item.length + 1 := by rw [hc, List.length_map, hlen]
  obtain ⟨key, hkey⟩ : ∃ key, n.item[mid]? = some key :=
    ⟨n.item[mid], List.getElem?_eq_getElem hmidlt⟩
  have hs1 : slice? n.item (mid + 1) n.item.length = some (n.item.drop (mid + 1)) := by
    rw [slice?_eq _ _ _ (by omega) (le_refl _), List.take_length]
  have hs2 : slice? n.children (mid + 1) (n.item.length + 1)
      = some ((ps.drop (mid + 1)).map Part.ptr) := by
    rw [slice?_eq _ _ _ (by omega) (by omega), ← hclen, List.take_length, hc, List.map_drop]
  have hs3 : slice? n.item 0 mid = some (n.item.take mid) := by
    rw [slice?_eq _ _ _ (Nat.zero_le _) (by omega), List.drop_zero]
  have hs4 : slice? n.children 0 (mid + 1) = some ((ps.take (mid + 1)).map Part.ptr) := by
    rw [slice?_eq _ _ _ (Nat.zero_le _) (by omega), List.drop_zero, hc, List.map_take]
  -- the fresh node
  obtain ⟨t1, h1, hN1, hst1, hlen1⟩ := alloc_inner_istep t Ptr.null
  obtain ⟨t2, h2, hN2, hst2, hlen2⟩ := modInner_istep t1 _ _
    (fun m => { m with level := n.level, item := n.item.drop (mid + 1),
                       children := (ps.drop (mid + 1)).map Part.ptr }) hN1
  have ha2 : t2.node? (Ptr.node a) = some (Node.inner n) := by
    rw [hst2.1.2 a (by omega) (by simp; omega), hst1.1.2 a ha (by simp)]; exact hn
  obtain ⟨t3, h3, ha3, hst3, hlen3⟩ := modInner_istep t2 a n
    (fun m => { m with item := n.item.take mid,
                       children := (ps.take (mid + 1)).map Part.ptr }) ha2
  have hst03 : IStep t t3 [t.mem.length, a] :=
    ((hst1.istep_trans hst2).istep_trans hst3).istep_mono (fun b hb _ => by simpa using hb)
  have hfpa : ∀ q ∈ ps, ∀ b ∈ q.fp, b ≠ a := by
    intro q hq b hb e
    subst e
    exact (List.nodup_cons.1 hnd).1 (mem_fpOf hq hb)
  have hch3 : ∀ q ∈ ps, Sub cfg t3 h false q.ptr (Ptr.node a) q.leaves q.fp := by
    intro q hq
    refine Sub.step (hch q hq) hst03.1 (fun b hb => ?_)
    have := Sub.fp_lt (hch q hq) b hb
    have := hfpa q hq b hb
    simp only [List.mem_cons, List.mem_singleton, List.not_mem_nil, or_false, not_or]
    omega
  have hndd : (fpOf (ps.drop (mid + 1))).Nodup := by
    have := (List.nodup_cons.1 hnd).2
    rw [← List.take_append_drop (mid + 1) ps, fpOf_append] at this
    exact (List.nodup_append.1 this).2.1
  obtain ⟨t4, h4, hsub4, hst4, hlen4⟩ := update_parent_spec (Ptr.node t.mem.length)
    (ps.drop (mid + 1)) t3 (Ptr.node a)
    (fun q hq => hch3 q (List.mem_of_mem_drop hq)) hndd
  have hdl : ∀ q ∈ ps.drop (mid + 1), ∀ b ∈ q.fp, b < t.mem.length ∧ b ≠ a := by
    intro q hq b hb
    exact ⟨Sub.fp_lt (hch q (List.mem_of_mem_drop hq)) b hb, hfpa q (List.mem_of_mem_drop hq) b hb⟩
  have hN4 : t4.node? (Ptr.node t.mem.length) = some (Node.inner
      ⟨Ptr.null, 0, n.level, (ps.drop (mid + 1)).map Part.ptr, n.item.drop (mid + 1)⟩) := by
    rw [hst4.1.2 _ (by omega) ?_, hst3.1.2 _ (by omega) (by simp; omega)]
    · exact hN2
    · intro hmem
      simp only [fpOf, List.mem_flatten, List.mem_map] at hmem
      obtain ⟨l, ⟨q, hq, rfl⟩, hb⟩ := hmem
      have := (hdl q hq _ hb).1
      omega
  have ha4 : t4.node? (Ptr.node a) = some (Node.inner
      { n with item := n.item.take mid, children := (ps.take (mid + 1)).map Part.ptr }) := by
    rw [hst4.1.2 _ (by omega) ?_]
    · exact ha3
    · intro hmem
      simp only [fpOf, List.mem_flatten, List.mem_map] at hmem
      obtain ⟨l, ⟨q, hq, rfl⟩, hb⟩ := hmem
      exact (hdl q hq _ hb).2 rfl
  obtain ⟨t5, h5, hN5, hst5, hlen5⟩ := modInner_istep t4 _ _
    (fun m => { m with size := (items (leavesOf (ps.drop (mid + 1)))).length }) hN4
  have ha5 : t5.node? (Ptr.node a) = some (Node.inner
      { n with item := n.item.take mid, children := (ps.take (mid + 1)).map Part.ptr }) := by
    rw [hst5.1.2 _ (by omega) (by simp; omega)]; exact ha4
  obtain ⟨t6, h6, ha6, hst6, hlen6⟩ := modInner_istep t5 a _
    (fun m => { m with size := wsub m.size (items (leavesOf (ps.drop (mid + 1)))).length }) ha5
  have hst46 : IStep t4 t6 [t.mem.length, a] :=
    (hst5.istep_trans hst6).istep_mono (fun b hb _ => by simpa using hb)
  refine ⟨t6, key, ?_, hkey, ha6, ?_, ?_, ?_, ?_, by omega⟩
  · simp only [split_inner_node_, inner?_of_node? hn, hmid, h1, hs1, hs2, h2, hs3, hs4, hkey, h3,
      h4, h5, h6]
  · rw [hst6.1.2 _ (by omega) (by simp; omega)]; exact hN5
  · intro q hq
    have hq' := List.mem_of_mem_take hq
    refine Sub.step (Sub.step (hch3 q hq') hst4.1 ?_) hst46.1 ?_
    · intro b hb e
      exact fpOf_take_drop_disjoint ps (mid + 1) (List.nodup_cons.1 hnd).2 b (mem_fpOf hq hb) e
    · intro b hb
      have := Sub.fp_lt (hch q hq') b hb
      have := hfpa q hq' b hb
      simp only [List.mem_cons, List.mem_singleton, List.not_mem_nil, or_false, not_or]
      omega
  · intro q hq
    refine Sub.step (hsub4 q hq) hst46.1 ?_
    intro b hb
    have := hdl q hq b hb
    simp only [List.mem_cons, List.mem_singleton, List.not_mem_nil, or_false, not_or]
    omega
  · refine ((hst03.istep_trans hst4).istep_trans hst46).istep_mono (fun b hb hlt => ?_)
    simp only [List.mem_append, List.mem_cons, List.mem_singleton, List.not_mem_nil,
      or_false] at hb
    rcases hb with (((h | h) | h) | (h | h))
    · omega
    · rw [h]; simp
    · exact List.mem_cons_of_mem _ (fpOf_sub_of_drop ps _ b h)
    · omega
    · rw [h]; simp

end SplitInner

section InsertChild
variable {α : Type}

/-- Giving the root of a well-formed subtree another parent. -/
theorem setParent_sub {cfg : Config} {h : Nat} {t : Tree α} {p par : Ptr} {ls : Leaves α}
    {fp : List Nat} (P : Ptr) (hs : Sub cfg t h false p par ls fp) (hnd : fp.Nodup) :
    ∃ t', t.setParent p P = some t' ∧ Sub cfg t' h false p P ls fp ∧ IStep t t' fp ∧
      t'.mem.length = t.mem.length := by
  obtain ⟨a, tl, x, hp, hfp, hx⟩ := Sub.node hs
  obtain ⟨t1, hset, hst1, hlen1, hleaf1, hinner1⟩ := setParent_istep t a x P hx
  refine ⟨t1, by rw [hp]; exact hset, ?_, hst1.istep_mono (fun b hb _ => ?_), hlen1⟩
  · rw [hp] at hs ⊢
    refine Sub.reparent hs hnd (fun b hb hba => ?_) ?_ ?_
    · exact hst1.1.sameCore b (Sub.fp_lt hs b hb) (by simpa using hba)
    · intro l hl
      rw [hx] at hl
      simp only [Option.some.injEq] at hl
      exact ⟨_, hleaf1 l hl, rfl, rfl⟩
    · intro n hn
      rw [hx] at hn
      simp only [Option.some.injEq] at hn
      exact hinner1 n hn
  · simp only [List.mem_singleton] at hb
    rw [hb, hfp]; simp

/-- What `insert_child_` does: the separator goes to slot `i`, the new child
right after the child at `i`, and the new child gets the node as parent. -/
theorem insert_child_spec {cfg : Config} {h : Nat} (t : Tree α) (P : Nat) (m : InnerNode α)
    (i : Nat) (k : α) (cs : List (Part α)) (q2 : Part α) (par2 : Ptr)
    (hn : t.node? (Ptr.node P) = some (Node.inner m)) (hc : m.children = cs.map Part.ptr)
    (hlen : cs.length = m.item.length + 1) (hi : i < cs.length)
    (hq2 : Sub cfg t h false q2.ptr par2 q2.leaves q2.fp) (hnd2 : q2.fp.Nodup)
    (hP : P ∉ q2.fp) :
    ∃ t', insert_child_ t (Ptr.node P) i k q2.ptr = some t' ∧
      t'.node? (Ptr.node P) = some (Node.inner
        { m with item := m.item.take i ++ k :: m.item.drop i,
                 children := (cs.take (i + 1) ++ q2 :: cs.drop (i + 1)).map Part.ptr }) ∧
      Sub cfg t' h false q2.ptr (Ptr.node P) q2.leaves q2.fp ∧ IStep t t' (P :: q2.fp) ∧
      t'.mem.length = t.mem.length := by
  have hclen : m.children.length = m.item.length + 1 := by rw [hc, List.length_map, hlen]
  have hs1 : slice? m.children 0 (i + 1) = some ((cs.take (i + 1)).map Part.ptr) := by
    rw [slice?_eq _ _ _ (Nat.zero_le _) (by omega), List.drop_zero, hc, List.map_take]
  have hs2 : slice? m.children (i + 1) (m.item.length + 1)
      = some ((cs.drop (i + 1)).map Part.ptr) := by
    rw [slice?_eq _ _ _ (by omega) (by omega), ← hclen, List.take_length, hc, List.map_drop]
  have hins : insertAt? m.item i k = some (m.item.take i ++ k :: m.item.drop i) :=
    insertAt?_eq _ _ _ (by omega)
  obtain ⟨t1, h1, hP1, hst1, hlen1⟩ := modInner_istep t P m
    (fun x => { x with item := m.item.take i ++ k :: m.item.drop i,
                       children := (cs.take (i + 1)).map Part.ptr ++
                         q2.ptr :: (cs.drop (i + 1)).map Part.ptr }) hn
  have hq21 : Sub cfg t1 h false q2.ptr par2 q2.leaves q2.fp :=
    Sub.step hq2 hst1.1 (fun b hb e => by
      simp only [List.mem_singleton] at e
      subst e
      exact hP hb)
  obtain ⟨t2, h2, hsub2, hst2, hlen2⟩ := setParent_sub (Ptr.node P) hq21 hnd2
  refine ⟨t2, ?_, ?_, hsub2, ?_, by omega⟩
  · simp only [insert_child_, inner?_of_node? hn, hins, hs1, hs2, h1, h2]
  · rw [hst2.1.2 P (by rw [hlen1]; exact lt_mem_of_node? hn) hP, hP1]
    simp
  · exact (hst1.istep_trans hst2).istep_mono (fun b hb _ => by simpa using hb)

end InsertChild

section Rejoin
variable {α : Type}

/-- What the rejoin case does: the first child of the right node becomes the
last child of the left node under the evicted key, and the new child takes
its place in the right node. -/
theorem rejoin_spec {cfg : Config} {h : Nat} (t : Tree α) (a N : Nat) (na nN : InnerNode α)
    (key : α) (csL csR : List (Part α)) (c0 q2 : Part α) (par2 : Ptr)
    (hna : t.node? (Ptr.node a) = some (Node.inner na)) (hcL : na.children = csL.map Part.ptr)
    (hlenL : csL.length = na.item.length + 1)
    (hnN : t.node? (Ptr.node N) = some (Node.inner nN))
    (hcR : nN.children = (c0 :: csR).map Part.ptr) (haN : a ≠ N)
    (hc0 : Sub cfg t h false c0.ptr (Ptr.node N) c0.leaves c0.fp) (hnd0 : c0.fp.Nodup)
    (hq2 : Sub cfg t h false q2.ptr par2 q2.leaves q2.fp) (hnd2 : q2.fp.Nodup)
    (ha0 : a ∉ c0.fp) (ha2 : a ∉ q2.fp) (hN0 : N ∉ c0.fp) (hN2 : N ∉ q2.fp)
    (hdis : ∀ b, b ∈ c0.fp → b ∉ q2.fp) :
    ∃ t', rejoin_ t (Ptr.node a) (Ptr.node N) key q2.ptr = some t' ∧
      t'.node? (Ptr.node a) = some (Node.inner
        { na with item := na.item ++ [key], children := (csL ++ [c0]).map Part.ptr,
                  size := wsub (na.size + (items c0.leaves).length) (items q2.leaves).length }) ∧
      t'.node? (Ptr.node N) = some (Node.inner
        { nN with size := wsub nN.size (items c0.leaves).length + (items q2.leaves).length,
                  children := (q2 :: csR).map Part.ptr }) ∧
      Sub cfg t' h false c0.ptr (Ptr.node a) c0.leaves c0.fp ∧
      Sub cfg t' h false q2.ptr (Ptr.node N) q2.leaves q2.fp ∧
      IStep t t' (a :: N :: (c0.fp ++ q2.fp)) ∧ t'.mem.length = t.mem.length := by
  have hal : a < t.mem.length := lt_mem_of_node? hna
  have hNl : N < t.mem.length := lt_mem_of_node? hnN
  have hclen : na.children.length = na.item.length + 1 := by rw [hcL, List.length_map, hlenL]
  have hs1 : slice? na.children 0 (na.item.length + 1) = some (csL.map Part.ptr) := by
    rw [slice?_eq _ _ _ (Nat.zero_le _) (by omega), List.drop_zero, ← hclen, List.take_length, hcL]
  have hc00 : nN.children[0]? = some c0.ptr := by rw [hcR]; simp
  obtain ⟨t1, h1, ha1, hst1, hlen1⟩ := modInner_istep t a na
    (fun m => { m with item := m.item ++ [key], children := csL.map Part.ptr ++ [c0.ptr],
                       size := wsub (m.size + (items c0.leaves).length)
                         (items q2.leaves).length }) hna
  have hN1 : t1.node? (Ptr.node N) = some (Node.inner nN) := by
    rw [hst1.1.2 N hNl (by simpa using Ne.symm haN)]; exact hnN
  obtain ⟨t2, h2, hN2', hst2, hlen2⟩ := modInner_istep t1 N nN
    (fun m => { m with size := wsub m.size (items c0.leaves).length
      + (items q2.leaves).length }) hN1
  have hst02 : IStep t t2 [a, N] := (hst1.istep_trans hst2).istep_mono (fun b hb _ => by simpa using hb)
  have hc02 : Sub cfg t2 h false c0.ptr (Ptr.node N) c0.leaves c0.fp :=
    Sub.step hc0 hst02.1 (fun b hb e => by
      simp only [List.mem_cons, List.mem_singleton, List.not_mem_nil, or_false] at e
      rcases e with e | e
      · subst e; exact ha0 hb
      · subst e; exact hN0 hb)
  have hq22 : Sub cfg t2 h false q2.ptr par2 q2.leaves q2.fp :=
    Sub.step hq2 hst02.1 (fun b hb e => by
      simp only [List.mem_cons, List.mem_singleton, List.not_mem_nil, or_false] at e
      rcases e with e | e
      · subst e; exact ha2 hb
      · subst e; exact hN2 hb)
  obtain ⟨t3, h3, hsub3, hst3, hlen3⟩ := setParent_sub (Ptr.node a) hc02 hnd0
  have hq23 : Sub cfg t3 h false q2.ptr par2 q2.leaves q2.fp :=
    Sub.step hq22 hst3.1 (fun b hb e => hdis b e hb)
  obtain ⟨t4, h4, hsub4, hst4, hlen4⟩ := setParent_sub (Ptr.node N) hq23 hnd2
  have hst24 : IStep t2 t4 (c0.fp ++ q2.fp) := hst3.istep_trans hst4
  have hN4 : t4.node? (Ptr.node N) = some (Node.inner
      { nN with size := wsub nN.size (items c0.leaves).length + (items q2.leaves).length }) := by
    rw [hst24.1.2 N (by omega) (by
      simp only [List.mem_append, not_or]; exact ⟨hN0, hN2⟩)]
    exact hN2'
  obtain ⟨t5, h5, hN5, hst5, hlen5⟩ := modInner_istep t4 N _
    (fun m => { m with children := m.children.set 0 q2.ptr }) hN4
  refine ⟨t5, ?_, ?_, ?_, ?_, ?_, ?_, by omega⟩
  · simp only [rejoin_, inner?_of_node? hna, inner?_of_node? hnN, hc00, hs1, Sub.size? hc0,
      Sub.size? hq2, h1, h2, h3, h4, h5]
  · rw [hst5.1.2 a (by omega) (by simpa using haN), hst24.1.2 a (by omega) (by
      simp only [List.mem_append, not_or]; exact ⟨ha0, ha2⟩), hst2.1.2 a (by omega)
      (by simpa using haN), ha1]
    simp
  · rw [hN5, hcR]
    simp
  · exact Sub.step (Sub.step hsub3 hst4.1 (fun b hb e => hdis b hb e)) hst5.1
      (fun b hb e => by
        simp only [List.mem_singleton] at e
        subst e; exact hN0 hb)
  · exact Sub.step hsub4 hst5.1 (fun b hb e => by
      simp only [List.mem_singleton] at e
      subst e; exact hN2 hb)
  · refine ((hst02.istep_trans hst24).istep_trans hst5).istep_mono (fun b hb _ => ?_)
    simp only [List.mem_append, List.mem_cons, List.mem_singleton, List.not_mem_nil,
      or_false] at hb ⊢
    tauto

end Rejoin

end BPP

/-! ## Splitting an inner node around a new child -/

namespace BPP

section InsLists
variable {β : Type}

theorem ins_length (x : List β) (j : Nat) (c : β) (hj : j ≤ x.length) :
    (x.take j ++ c :: x.drop j).length = x.length + 1 := by
  simp only [List.length_append, List.length_cons, List.length_take, List.length_drop]
  omega

theorem ins_take_le (x : List β) (j m : Nat) (c : β) (hj : j ≤ x.length) (hm : m ≤ j) :
    (x.take j ++ c :: x.drop j).take m = x.take m := by
  rw [List.take_append_of_le_length (by rw [List.length_take]; omega), List.take_take,
    Nat.min_eq_left hm]

theorem ins_take_succ (x : List β) (j m : Nat) (c : β) (hj : j ≤ m) (hm : m ≤ x.length) :
    (x.take j ++ c :: x.drop j).take (m + 1)
      = (x.take m).take j ++ c :: (x.take m).drop j := by
  have hl : (x.take j).length = j := by rw [List.length_take]; omega
  have e : m + 1 = (x.take j).length + (m - j + 1) := by omega
  rw [e, List.take_append, List.take_succ_cons, List.take_take, Nat.min_eq_left hj, List.drop_take]

theorem ins_drop_le (x : List β) (j m : Nat) (c : β) (hj : j ≤ x.length) (hm : m ≤ j) :
    (x.take j ++ c :: x.drop j).drop m
      = (x.drop m).take (j - m) ++ c :: (x.drop m).drop (j - m) := by
  rw [List.drop_append_of_le_length (by rw [List.length_take]; omega), List.drop_take,
    List.drop_drop]
  have e : m + (j - m) = j := by omega
  rw [e]

theorem ins_drop_succ (x : List β) (j m : Nat) (c : β) (hj : j ≤ m) (hm : m ≤ x.length) :
    (x.take j ++ c :: x.drop j).drop (m + 1) = x.drop m := by
  have hl : (x.take j).length = j := by rw [List.length_take]; omega
  have e : m + 1 = (x.take j).length + (m - j + 1) := by omega
  rw [e, List.drop_append, List.drop_succ_cons, List.drop_drop]
  have e2 : j + (m - j) = m := by omega
  rw [e2]

theorem ins_getElem? (x : List β) (j : Nat) (c : β) (hj : j ≤ x.length) :
    (x.take j ++ c :: x.drop j)[j]? = some c := by
  have hl : (x.take j).length = j := by rw [List.length_take]; omega
  rw [List.getElem?_append_right (by omega), hl]
  simp

theorem ins_getElem?_lt (x : List β) (j m : Nat) (c : β) (hj : j ≤ x.length) (hm : m < j) :
    (x.take j ++ c :: x.drop j)[m]? = x[m]? := by
  rw [List.getElem?_append_left (by rw [List.length_take]; omega), List.getElem?_take_of_lt hm]

theorem ins_getElem?_succ (x : List β) (j m : Nat) (c : β) (hj : j ≤ m) (hm : m ≤ x.length) :
    (x.take j ++ c :: x.drop j)[m + 1]? = x[m]? := by
  have hl : (x.take j).length = j := by rw [List.length_take]; omega
  rw [List.getElem?_append_right (by omega), hl]
  have e : m + 1 - j = (m - j) + 1 := by omega
  rw [e, List.getElem?_cons_succ, List.getElem?_drop]
  congr 1; omega

end InsLists

section Assemble
variable {α : Type}

/-- A well-formed subtree holds at least one item. -/
theorem Sub.items_ne_nil {cfg : Config} {t : Tree α} (hcap : 2 ≤ cfg.maxLeaf) :
    ∀ {h : Nat} {isRoot : Bool} {p par : Ptr} {ls : Leaves α} {fp : List Nat},
      Sub cfg t h isRoot p par ls fp → items ls ≠ [] := by
  intro h
  induction h with
  | zero =>
    intro isRoot p par ls fp hs
    have hne := Sub.leaf_nonempty hcap hs
    obtain ⟨a, l, -, -, -, hls, -⟩ := Sub.zero_iff.1 hs
    subst hls
    simpa using hne (p, l.item) (by simp)
  | succ h ih =>
    intro isRoot p par ls fp hs
    obtain ⟨a, n, ps, -, -, -, -, -, -, -, hne, hch, hls, -⟩ := Sub.succ_iff.1 hs
    subst hls
    cases ps with
    | nil => exact absurd rfl hne
    | cons q qs =>
      have := ih (hch q (List.mem_cons_self _ _))
      simp only [leavesOf_cons, items_append, ne_eq, List.append_eq_nil, not_and]
      intro e; exact absurd e this

/-- Build the invariant of an inner node from its fields and its children. -/
theorem Sub.mk_inner {cfg : Config} {t : Tree α} {h : Nat} (isRoot : Bool) (a : Nat)
    (n : InnerNode α) (ps : List (Part α)) (hn : t.node? (Ptr.node a) = some (Node.inner n))
    (hlev : n.level = h + 1) (hsz : n.size = (items (leavesOf ps)).length)
    (hc : n.children = ps.map Part.ptr) (hsep : n.item.map some = ps.dropLast.map Part.last)
    (hne : ps ≠ []) (hch : ∀ q ∈ ps, Sub cfg t h false q.ptr (Ptr.node a) q.leaves q.fp)
    (hlo : (if isRoot then 1 else cfg.maxInner / 2) ≤ n.item.length)
    (hhi : n.item.length ≤ cfg.maxInner) :
    Sub cfg t (h + 1) isRoot (Ptr.node a) n.parent (leavesOf ps) (a :: fpOf ps) :=
  Sub.succ_iff.2 ⟨a, n, ps, rfl, hn, rfl, hlev, hsz, hc, hsep, hne, hch, rfl, rfl, hlo, hhi⟩

theorem sep_take (its : List α) (ps : List (Part α)) (m : Nat)
    (hsep : its.map some = ps.dropLast.map Part.last) (hlen : ps.length = its.length + 1)
    (hm : m ≤ its.length) :
    (its.take m).map some = (ps.take (m + 1)).dropLast.map Part.last := by
  have e1 : (ps.take (m + 1)).dropLast = ps.dropLast.take m := by
    rw [List.dropLast_eq_take, List.dropLast_eq_take, List.take_take, List.take_take,
      List.length_take]
    congr 1; omega
  rw [e1, List.map_take, List.map_take, hsep]

theorem sep_drop (its : List α) (ps : List (Part α)) (m : Nat)
    (hsep : its.map some = ps.dropLast.map Part.last) :
    (its.drop m).map some = (ps.drop m).dropLast.map Part.last := by
  have e1 : (ps.drop m).dropLast = ps.dropLast.drop m := by
    rw [List.dropLast_eq_take, List.dropLast_eq_take, List.length_drop, List.drop_take]
    congr 1
    omega
  rw [e1, List.map_drop, List.map_drop, hsep]

/-- The key at slot `m` of a well-formed inner node is the last item below
its first `m + 1` children. -/
theorem sep_key {cfg : Config} {t : Tree α} {h : Nat} {par : Ptr} (hcap : 2 ≤ cfg.maxLeaf)
    (its : List α) (ps : List (Part α)) (m : Nat)
    (hsep : its.map some = ps.dropLast.map Part.last) (hlen : ps.length = its.length + 1)
    (hm : m < its.length)
    (hch : ∀ q ∈ ps.take (m + 1), Sub cfg t h false q.ptr par q.leaves q.fp) (k : α)
    (hk : its[m]? = some k) :
    (items (leavesOf (ps.take (m + 1)))).getLast? = some k := by
  have hmp : m < ps.length := by omega
  have e1 : ps.take (m + 1) = ps.take m ++ [ps[m]] := by
    rw [List.take_succ, List.getElem?_eq_getElem hmp]; rfl
  have hq : Sub cfg t h false ps[m].ptr par ps[m].leaves ps[m].fp :=
    hch _ (by rw [e1]; exact List.mem_append_right _ (List.mem_singleton.2 rfl))
  have hne := Sub.items_ne_nil hcap hq
  rw [e1, leavesOf_append, items_append, List.getLast?_append_of_ne_nil _ (by simpa using hne)]
  have h1 : (its.map some)[m]? = some (some k) := by
    rw [List.getElem?_map, hk]; rfl
  rw [hsep, List.getElem?_map, List.dropLast_eq_take, List.getElem?_take_of_lt (by omega),
    List.getElem?_eq_getElem hmp] at h1
  simp only [Option.map_some', Option.some.injEq] at h1
  simpa [Part.last] using h1

end Assemble

section PlaceChild
variable {α : Type}

theorem items_leavesOf_take_drop (ps : List (Part α)) (m : Nat) :
    (items (leavesOf (ps.take m))).length + (items (leavesOf (ps.drop m))).length
      = (items (leavesOf ps)).length := by
  conv_rhs => rw [← List.take_append_drop m ps]
  rw [leavesOf_append, items_append, List.length_append]

theorem items_leavesOf_ins (ps : List (Part α)) (j : Nat) (c : Part α) :
    (items (leavesOf (ps.take j ++ c :: ps.drop j))).length
      = (items (leavesOf ps)).length + (items c.leaves).length := by
  rw [leavesOf_append, leavesOf_cons, items_append, items_append, List.length_append,
    List.length_append, ← items_leavesOf_take_drop ps j]
  omega

theorem fpOf_ins_mem (ps : List (Part α)) (j : Nat) (c : Part α) (b : Nat) :
    b ∈ fpOf (ps.take j ++ c :: ps.drop j) ↔ b ∈ c.fp ∨ b ∈ fpOf ps := by
  conv_rhs => rw [← List.take_append_drop j ps]
  simp only [fpOf_append, fpOf_cons, List.mem_append]
  tauto

theorem fpOf_ins_nodup (ps : List (Part α)) (j : Nat) (c : Part α)
    (hnd : (fpOf (ps.take j ++ c :: ps.drop j)).Nodup) :
    (fpOf ps).Nodup ∧ c.fp.Nodup ∧ ∀ b, b ∈ c.fp → b ∉ fpOf ps := by
  rw [fpOf_append, fpOf_cons] at hnd
  obtain ⟨h1, h2, h3⟩ := List.nodup_append.1 hnd
  obtain ⟨h4, h5, h6⟩ := List.nodup_append.1 h2
  refine ⟨?_, h4, ?_⟩
  · rw [← List.take_append_drop j ps, fpOf_append]
    exact List.nodup_append.2 ⟨h1, h5, fun b hb1 hb2 => h3 hb1 (List.mem_append_right _ hb2)⟩
  · intro b hb hps
    rw [← List.take_append_drop j ps, fpOf_append] at hps
    rcases List.mem_append.1 hps with h | h
    · exact h3 h (List.mem_append_left _ hb)
    · exact h6 hb h

/-- Placing a new child into an inner node that has room. -/
theorem place_child_room {cfg : Config} {h : Nat} (isRoot : Bool) (t : Tree α) (a : Nat)
    (n : InnerNode α) (i : Nat) (k : α) (ps : List (Part α)) (q2 : Part α)
    (hn : t.node? (Ptr.node a) = some (Node.inner n)) (hlev : n.level = h + 1)
    (hc : n.children = ps.map Part.ptr) (hlen : ps.length = n.item.length + 1)
    (hi : i < ps.length)
    (hsep : (n.item.take i ++ k :: n.item.drop i).map some
      = (ps.take (i + 1) ++ q2 :: ps.drop (i + 1)).dropLast.map Part.last)
    (hsz : n.size = (items (leavesOf (ps.take (i + 1) ++ q2 :: ps.drop (i + 1)))).length)
    (hch : ∀ q ∈ ps, Sub cfg t h false q.ptr (Ptr.node a) q.leaves q.fp)
    (hq2 : Sub cfg t h false q2.ptr Ptr.null q2.leaves q2.fp)
    (hnd : (a :: fpOf (ps.take (i + 1) ++ q2 :: ps.drop (i + 1))).Nodup)
    (hlo : (if isRoot then 1 else cfg.maxInner / 2) ≤ n.item.length)
    (hhi : n.item.length ≤ cfg.maxInner) (hroom : n.item.length ≠ cfg.maxInner) :
    ∃ t', place_child_ cfg t (Ptr.node a) i k q2.ptr = some (t', none) ∧
      IStep t t' (a :: fpOf (ps.take (i + 1) ++ q2 :: ps.drop (i + 1))) ∧
      t'.mem.length = t.mem.length ∧
      Sub cfg t' (h + 1) isRoot (Ptr.node a) n.parent
        (leavesOf (ps.take (i + 1) ++ q2 :: ps.drop (i + 1)))
        (a :: fpOf (ps.take (i + 1) ++ q2 :: ps.drop (i + 1))) := by
  obtain ⟨hndps, hnd2, hdis⟩ := fpOf_ins_nodup ps (i + 1) q2 (List.nodup_cons.1 hnd).2
  have ha2 : a ∉ q2.fp := fun e =>
    (List.nodup_cons.1 hnd).1 ((fpOf_ins_mem ps (i + 1) q2 a).2 (Or.inl e))
  have haps : a ∉ fpOf ps := fun e =>
    (List.nodup_cons.1 hnd).1 ((fpOf_ins_mem ps (i + 1) q2 a).2 (Or.inr e))
  obtain ⟨t1, h1, ha1, hsub1, hst1, hlen1⟩ := insert_child_spec t a n i k ps q2 Ptr.null hn hc
    hlen hi hq2 hnd2 ha2
  refine ⟨t1, ?_, hst1.istep_mono (fun b hb _ => ?_), hlen1, ?_⟩
  · simp only [place_child_, inner?_of_node? hn, if_neg hroom, h1]
  · rcases List.mem_cons.1 hb with rfl | hb
    · simp
    · exact List.mem_cons_of_mem _ ((fpOf_ins_mem ps (i + 1) q2 b).2 (Or.inl hb))
  · refine Sub.mk_inner isRoot a
      { n with item := n.item.take i ++ k :: n.item.drop i,
               children := (ps.take (i + 1) ++ q2 :: ps.drop (i + 1)).map Part.ptr }
      _ ha1 hlev hsz rfl hsep (by simp) ?_ ?_ ?_
    · intro q hq
      rcases List.mem_append.1 hq with hq | hq
      · have hq' := List.mem_of_mem_take hq
        refine Sub.step (hch q hq') hst1.1 (fun b hb e => ?_)
        rcases List.mem_cons.1 e with rfl | e
        · exact haps (mem_fpOf hq' hb)
        · exact hdis b e (mem_fpOf hq' hb)
      · rcases List.mem_cons.1 hq with rfl | hq
        · exact hsub1
        · have hq' := List.mem_of_mem_drop hq
          refine Sub.step (hch q hq') hst1.1 (fun b hb e => ?_)
          rcases List.mem_cons.1 e with rfl | e
          · exact haps (mem_fpOf hq' hb)
          · exact hdis b e (mem_fpOf hq' hb)
    · refine le_trans hlo ?_
      show n.item.length ≤ (n.item.take i ++ k :: n.item.drop i).length
      rw [ins_length _ _ _ (by omega)]; omega
    · show (n.item.take i ++ k :: n.item.drop i).length ≤ cfg.maxInner
      rw [ins_length _ _ _ (by omega)]; omega

end PlaceChild

section Halves
variable {α : Type}

/-- The two nodes a split leaves behind satisfy the invariant when they hold
the keys and children before and after slot `m` of the sequence of keys and
children the full node would have had. -/
theorem Sub.halves {cfg : Config} {t : Tree α} {h : Nat} (hcap : 2 ≤ cfg.maxLeaf) (a N : Nat)
    (nA nN : InnerNode α) (its : List α) (ps : List (Part α)) (m : Nat)
    (hA : t.node? (Ptr.node a) = some (Node.inner nA))
    (hN : t.node? (Ptr.node N) = some (Node.inner nN))
    (hAl : nA.level = h + 1) (hNl : nN.level = h + 1)
    (hAc : nA.children = (ps.take (m + 1)).map Part.ptr)
    (hNc : nN.children = (ps.drop (m + 1)).map Part.ptr)
    (hAi : nA.item = its.take m) (hNi : nN.item = its.drop (m + 1))
    (hAs : nA.size = (items (leavesOf (ps.take (m + 1)))).length)
    (hNs : nN.size = (items (leavesOf (ps.drop (m + 1)))).length)
    (hsep : its.map some = ps.dropLast.map Part.last) (hlen : ps.length = its.length + 1)
    (hm : m < its.length)
    (hchA : ∀ q ∈ ps.take (m + 1), Sub cfg t h false q.ptr (Ptr.node a) q.leaves q.fp)
    (hchN : ∀ q ∈ ps.drop (m + 1), Sub cfg t h false q.ptr (Ptr.node N) q.leaves q.fp)
    (hb1 : cfg.maxInner / 2 ≤ m) (hb2 : m ≤ cfg.maxInner)
    (hb3 : cfg.maxInner / 2 ≤ its.length - (m + 1)) (hb4 : its.length - (m + 1) ≤ cfg.maxInner) :
    Sub cfg t (h + 1) false (Ptr.node a) nA.parent (leavesOf (ps.take (m + 1)))
        (a :: fpOf (ps.take (m + 1))) ∧
      Sub cfg t (h + 1) false (Ptr.node N) nN.parent (leavesOf (ps.drop (m + 1)))
        (N :: fpOf (ps.drop (m + 1))) ∧
      ∃ k, its[m]? = some k ∧ (items (leavesOf (ps.take (m + 1)))).getLast? = some k := by
  refine ⟨?_, ?_, its[m], List.getElem?_eq_getElem hm, ?_⟩
  · refine Sub.mk_inner false a nA _ hA hAl hAs hAc ?_ ?_ hchA ?_ ?_
    · rw [hAi]; exact sep_take its ps m hsep hlen (by omega)
    · intro e
      have := congrArg List.length e
      simp only [List.length_take, List.length_nil] at this
      omega
    · rw [hAi, List.length_take]
      simp only [Bool.false_eq_true, if_false]
      omega
    · rw [hAi, List.length_take]; omega
  · refine Sub.mk_inner false N nN _ hN hNl hNs hNc ?_ ?_ hchN ?_ ?_
    · rw [hNi]; exact sep_drop its ps (m + 1) hsep
    · intro e
      have := congrArg List.length e
      simp only [List.length_drop, List.length_nil] at this
      omega
    · rw [hNi, List.length_drop]
      simp only [Bool.false_eq_true, if_false]
      omega
    · rw [hNi, List.length_drop]; omega
  · exact sep_key hcap its ps m hsep hlen hm hchA _ (List.getElem?_eq_getElem hm)

end Halves

end BPP

/-! ## Placing a new child into a full inner node -/

namespace BPP

section PlaceSplit
variable {α : Type}

theorem split_mid_cases (bound w : Nat) (hb : 2 ≤ bound) :
    (w ≤ bound / 2 ∧ bound / 2 > bound - (bound / 2 + 1) ∧ split_mid bound w = bound / 2 - 1) ∨
    (¬ (w ≤ bound / 2 ∧ bound / 2 > bound - (bound / 2 + 1)) ∧ split_mid bound w = bound / 2) := by
  unfold split_mid
  rw [wsub_of_le (by omega : bound / 2 + 1 ≤ bound)]
  by_cases hc : w ≤ bound / 2 ∧ bound / 2 > bound - (bound / 2 + 1)
  · left
    rw [if_pos hc, wsub_of_le (by omega)]
    exact ⟨hc.1, hc.2, rfl⟩
  · right
    rw [if_neg hc]
    exact ⟨hc, rfl⟩

/-- Placing a new child into a full inner node: the node is split, and the
two nodes hold the keys and children before and after some slot `m` of the
sequence the node would have had with the new child in place. -/
theorem place_child_split {cfg : Config} {h : Nat} (t : Tree α) (a : Nat)
    (n : InnerNode α) (i : Nat) (k : α) (ps : List (Part α)) (q2 : Part α)
    (hcapL : 2 ≤ cfg.maxLeaf) (hcapI : 2 ≤ cfg.maxInner)
    (hn : t.node? (Ptr.node a) = some (Node.inner n)) (hlev : n.level = h + 1)
    (hc : n.children = ps.map Part.ptr) (hlen : ps.length = n.item.length + 1)
    (hi : i < ps.length)
    (hsep : (n.item.take i ++ k :: n.item.drop i).map some
      = (ps.take (i + 1) ++ q2 :: ps.drop (i + 1)).dropLast.map Part.last)
    (hsz : n.size = (items (leavesOf (ps.take (i + 1) ++ q2 :: ps.drop (i + 1)))).length)
    (hch : ∀ q ∈ ps, Sub cfg t h false q.ptr (Ptr.node a) q.leaves q.fp)
    (hq2 : Sub cfg t h false q2.ptr Ptr.null q2.leaves q2.fp)
    (hnd : (a :: fpOf (ps.take (i + 1) ++ q2 :: ps.drop (i + 1))).Nodup)
    (hfull : n.item.length = cfg.maxInner) :
    ∃ t' k' m, place_child_ cfg t (Ptr.node a) i k q2.ptr
        = some (t', some (k', Ptr.node t.mem.length)) ∧
      IStep t t' (a :: fpOf (ps.take (i + 1) ++ q2 :: ps.drop (i + 1))) ∧
      t'.mem.length = t.mem.length + 1 ∧
      Sub cfg t' (h + 1) false (Ptr.node a) n.parent
        (leavesOf ((ps.take (i + 1) ++ q2 :: ps.drop (i + 1)).take (m + 1)))
        (a :: fpOf ((ps.take (i + 1) ++ q2 :: ps.drop (i + 1)).take (m + 1))) ∧
      Sub cfg t' (h + 1) false (Ptr.node t.mem.length) Ptr.null
        (leavesOf ((ps.take (i + 1) ++ q2 :: ps.drop (i + 1)).drop (m + 1)))
        (t.mem.length :: fpOf ((ps.take (i + 1) ++ q2 :: ps.drop (i + 1)).drop (m + 1))) ∧
      (items (leavesOf ((ps.take (i + 1) ++ q2 :: ps.drop (i + 1)).take (m + 1)))).getLast?
        = some k' ∧
      ∃ nA nN, t'.node? (Ptr.node a) = some (Node.inner nA) ∧
        t'.node? (Ptr.node t.mem.length) = some (Node.inner nN) ∧
        nA.item = (n.item.take i ++ k :: n.item.drop i).take m ∧
        nN.item = (n.item.take i ++ k :: n.item.drop i).drop (m + 1) ∧
        (n.item.take i ++ k :: n.item.drop i)[m]? = some k' ∧
        nA.children = ((ps.take (i + 1) ++ q2 :: ps.drop (i + 1)).take (m + 1)).map Part.ptr ∧
        nN.children = ((ps.take (i + 1) ++ q2 :: ps.drop (i + 1)).drop (m + 1)).map Part.ptr ∧
        cfg.maxInner / 2 ≤ m ∧ cfg.maxInner / 2 ≤ n.item.length - m := by
  obtain ⟨hndps, hnd2, hdis⟩ := fpOf_ins_nodup ps (i + 1) q2 (List.nodup_cons.1 hnd).2
  have ha2 : a ∉ q2.fp := fun e =>
    (List.nodup_cons.1 hnd).1 ((fpOf_ins_mem ps (i + 1) q2 a).2 (Or.inl e))
  have haps : a ∉ fpOf ps := fun e =>
    (List.nodup_cons.1 hnd).1 ((fpOf_ins_mem ps (i + 1) q2 a).2 (Or.inr e))
  have hal : a < t.mem.length := lt_mem_of_node? hn
  have hlt2 : ∀ b ∈ q2.fp, b < t.mem.length := Sub.fp_lt hq2
  have hltps : ∀ q ∈ ps, ∀ b ∈ q.fp, b < t.mem.length := fun q hq => Sub.fp_lt (hch q hq)
  obtain ⟨t1, key, hsplit, hkey, ha1, hN1, hchL1, hchR1, hst1, hlen1⟩ :=
    split_inner_spec t a n i ps hn hc hlen (by omega) hch
      (List.nodup_cons.2 ⟨haps, hndps⟩)
  have hmidlt := split_mid_lt n.item.length i (by omega)
  have hmidc := split_mid_cases n.item.length i (by omega)
  generalize split_mid n.item.length i = mid at hkey ha1 hN1 hchL1 hchR1 hmidlt hmidc
  have hq21 : Sub cfg t1 h false q2.ptr Ptr.null q2.leaves q2.fp :=
    Sub.step hq2 hst1.1 (fun b hb e => by
      rcases List.mem_cons.1 e with rfl | e
      · exact ha2 hb
      · exact hdis b hb e)
  have hl1 : (n.item.take mid).length = mid := by rw [List.length_take]; omega
  have hl2 : (n.item.drop (mid + 1)).length = n.item.length - (mid + 1) := List.length_drop _ _
  have hT : n.size = (items (leavesOf ps)).length + (items q2.leaves).length := by
    rw [hsz, items_leavesOf_ins]
  have hAB := items_leavesOf_take_drop ps (mid + 1)
  have hsepl : (ps.take (i + 1) ++ q2 :: ps.drop (i + 1)).length
      = (n.item.take i ++ k :: n.item.drop i).length + 1 := by
    rw [ins_length _ _ _ (by omega), ins_length _ _ _ (by omega)]; omega
  have hil : (n.item.take i ++ k :: n.item.drop i).length = n.item.length + 1 :=
    ins_length _ _ _ (by omega)
  have haN : a ≠ t.mem.length := Nat.ne_of_lt hal
  have hmp : mid + 1 < ps.length := by omega
  have hw1 : wsub n.size (items (leavesOf (ps.drop (mid + 1)))).length
      = (items (leavesOf (ps.take (mid + 1)))).length + (items q2.leaves).length := by
    rw [wsub_of_le (by omega)]; omega
  by_cases hrj : i = mid + 1 ∧ mid < n.item.length - (mid + 1)
  · -- the rejoin case
    obtain ⟨hi1, hrj2⟩ := hrj
    have edrop : ps.drop (mid + 1) = ps[mid + 1] :: ps.drop (mid + 2) :=
      List.drop_eq_getElem_cons hmp
    have hc0 : Sub cfg t1 h false ps[mid + 1].ptr (Ptr.node t.mem.length) ps[mid + 1].leaves
        ps[mid + 1].fp := hchR1 _ (by rw [edrop]; exact List.mem_cons_self _ _)
    have hc0mem : ps[mid + 1] ∈ ps := List.getElem_mem _
    obtain ⟨t2, hrejoin, ha2', hN2, hsub0, hsub2, hst2, hlen2⟩ :=
      rejoin_spec t1 a t.mem.length _ _ key (ps.take (mid + 1)) (ps.drop (mid + 2)) ps[mid + 1]
        q2 Ptr.null ha1 rfl (by rw [List.length_take, hl1]; omega) hN1
        (by rw [edrop]) haN hc0
        (by
          have := hndps
          rw [← List.take_append_drop (mid + 1) ps, edrop, fpOf_append, fpOf_cons] at this
          exact (List.nodup_append.1 (List.nodup_append.1 this).2.1).1)
        hq21 hnd2
        (fun e => haps (mem_fpOf hc0mem e)) ha2
        (fun e => by have := hltps _ hc0mem _ e; omega)
        (fun e => by have := hlt2 _ e; omega)
        (fun b hb e => hdis b e (mem_fpOf hc0mem hb))
    -- the canonical forms, with `m = i`
    have e1 : (ps.take (i + 1) ++ q2 :: ps.drop (i + 1)).take (i + 1)
        = ps.take (mid + 1) ++ [ps[mid + 1]] := by
      rw [ins_take_le _ _ _ _ (by omega) (le_refl _), hi1, List.take_succ,
        List.getElem?_eq_getElem hmp]
      rfl
    have e2 : (ps.take (i + 1) ++ q2 :: ps.drop (i + 1)).drop (i + 1)
        = q2 :: ps.drop (mid + 2) := by
      rw [ins_drop_le _ _ _ _ (by omega) (le_refl _), hi1]
      simp
    have e3 : (n.item.take i ++ k :: n.item.drop i).take i = n.item.take mid ++ [key] := by
      rw [ins_take_le _ _ _ _ (by omega) (le_refl _), hi1, List.take_succ, hkey]
      rfl
    have e4 : (n.item.take i ++ k :: n.item.drop i).drop (i + 1) = n.item.drop (mid + 1) := by
      rw [ins_drop_succ _ _ _ _ (le_refl _) (by omega), hi1]
    have hq1len : (items (leavesOf (ps.drop (mid + 1)))).length
        = (items ps[mid + 1].leaves).length + (items (leavesOf (ps.drop (mid + 2)))).length := by
      rw [edrop, leavesOf_cons, items_append, List.length_append]
    obtain ⟨hS1, hS2, k0, hk0, hlast⟩ := Sub.halves hcapL a t.mem.length _ _
      (n.item.take i ++ k :: n.item.drop i) (ps.take (i + 1) ++ q2 :: ps.drop (i + 1)) i
      ha2' hN2 hlev hlev (by rw [e1]) (by rw [e2]) (by rw [e3]) (by rw [e4])
      (by
        rw [e1, leavesOf_append, items_append, List.length_append]
        simp only [leavesOf_cons, leavesOf_nil, List.append_nil]
        rw [hw1, wsub_of_le (by omega)]
        omega)
      (by
        rw [e2, leavesOf_cons, items_append, List.length_append]
        simp only []
        rw [wsub_of_le (by omega)]
        omega)
      hsep hsepl (by omega)
      (by
        rw [e1]
        intro q hq
        rcases List.mem_append.1 hq with hq | hq
        · refine Sub.step (hchL1 q hq) hst2.1 (fun b hb e => ?_)
          have hqm := List.mem_of_mem_take hq
          have hblt := hltps q hqm b hb
          simp only [List.mem_cons, List.mem_append] at e
          rcases e with e | e | e | e
          · subst e; exact haps (mem_fpOf hqm hb)
          · omega
          · have hd := hndps
            rw [← List.take_append_drop (mid + 1) ps, fpOf_append] at hd
            exact (List.nodup_append.1 hd).2.2 (mem_fpOf hq hb)
              (by rw [edrop, fpOf_cons]; exact List.mem_append_left _ e)
          · exact hdis b e (mem_fpOf hqm hb)
        · simp only [List.mem_singleton] at hq
          subst hq
          exact hsub0)
      (by
        rw [e2]
        intro q hq
        rcases List.mem_cons.1 hq with rfl | hq
        · exact hsub2
        · have hqd : q ∈ ps.drop (mid + 1) := by
            rw [edrop]; exact List.mem_cons_of_mem _ hq
          have hqm := List.mem_of_mem_drop hqd
          refine Sub.step (hchR1 q hqd) hst2.1 (fun b hb e => ?_)
          have hblt := hltps q hqm b hb
          simp only [List.mem_cons, List.mem_append] at e
          rcases e with e | e | e | e
          · subst e; exact haps (mem_fpOf hqm hb)
          · omega
          · have hd := hndps
            rw [← List.take_append_drop (mid + 1) ps, edrop, fpOf_append, fpOf_cons] at hd
            exact (List.nodup_append.1 (List.nodup_append.1 hd).2.1).2.2 e (mem_fpOf hq hb)
          · exact hdis b e (mem_fpOf hqm hb))
      (by rcases hmidc with ⟨-, -, e⟩ | ⟨-, e⟩ <;> omega)
      (by omega)
      (by rw [hil]; rcases hmidc with ⟨-, -, e⟩ | ⟨-, e⟩ <;> omega)
      (by rw [hil]; omega)
    have hkm := hk0
    rw [ins_getElem? _ _ _ (by omega)] at hk0
    simp only [Option.some.injEq] at hk0
    subst hk0
    refine ⟨t2, k, i, ?_, ?_, by omega, hS1, hS2, hlast, _, _, ha2', hN2, by rw [e3], by rw [e4],
      hkm, by rw [e1], by rw [e2], by rcases hmidc with ⟨-, -, e⟩ | ⟨-, e⟩ <;> omega,
      by rcases hmidc with ⟨-, -, e⟩ | ⟨-, e⟩ <;> omega⟩
    · simp only [place_child_, inner?_of_node? hn, if_pos hfull, hsplit, inner?_of_node? ha1,
        inner?_of_node? hN1, hl1, hl2]
      rw [if_pos ⟨hi1, hrj2⟩]
      simp only [hrejoin]
    · refine (hst1.istep_trans hst2).istep_mono (fun b hb hblt => ?_)
      simp only [List.mem_cons, List.mem_append] at hb
      rcases hb with (e | e) | e | e | e | e
      · subst e; simp
      · exact List.mem_cons_of_mem _ ((fpOf_ins_mem ps (i + 1) q2 b).2 (Or.inr e))
      · subst e; simp
      · omega
      · exact List.mem_cons_of_mem _ ((fpOf_ins_mem ps (i + 1) q2 b).2
          (Or.inr (mem_fpOf hc0mem e)))
      · exact List.mem_cons_of_mem _ ((fpOf_ins_mem ps (i + 1) q2 b).2 (Or.inl e))
  · by_cases hright : i ≥ mid + 1
    · -- the new child goes to the fresh node
      obtain ⟨t2, h2, ha2', hst2, hlen2⟩ := modInner_istep t1 a _
        (fun m => { m with size := wsub m.size (items q2.leaves).length }) ha1
      have hN2 : t2.node? (Ptr.node t.mem.length) = _ :=
        (hst2.1.2 _ (by omega) (by simpa using Ne.symm haN)).trans hN1
      obtain ⟨t3, h3, hN3, hst3, hlen3⟩ := modInner_istep t2 t.mem.length _
        (fun m => { m with size := m.size + (items q2.leaves).length }) hN2
      have hst13 : IStep t1 t3 [a, t.mem.length] :=
        (hst2.istep_trans hst3).istep_mono (fun b hb _ => by simpa using hb)
      have hq23 : Sub cfg t3 h false q2.ptr Ptr.null q2.leaves q2.fp :=
        Sub.step hq21 hst13.1 (fun b hb e => by
          have := hlt2 b hb
          simp only [List.mem_cons, List.mem_singleton, List.not_mem_nil, or_false] at e
          rcases e with e | e
          · subst e; exact ha2 hb
          · omega)
      have hN2fp : t.mem.length ∉ q2.fp := fun e => by have := hlt2 _ e; omega
      obtain ⟨t4, h4, hN4, hsub4, hst4, hlen4⟩ := insert_child_spec t3 t.mem.length _
        (i - (mid + 1)) k (ps.drop (mid + 1)) q2 Ptr.null hN3 rfl
        (by rw [List.length_drop]; simp only []; rw [hl2]; omega)
        (by rw [List.length_drop]; omega) hq23 hnd2 hN2fp
      have ha4 : t4.node? (Ptr.node a) = _ :=
        ((hst4.1.2 a (by omega) (by
          simp only [List.mem_cons, not_or]; exact ⟨haN, ha2⟩)).trans
          (hst3.1.2 a (by omega) (by simpa using haN))).trans ha2'
      have earith : i - (mid + 1) + 1 = i + 1 - (mid + 1) := by omega
      have e1 : (ps.take (i + 1) ++ q2 :: ps.drop (i + 1)).take (mid + 1) = ps.take (mid + 1) :=
        ins_take_le _ _ _ _ (by omega) (by omega)
      have e2 : (ps.take (i + 1) ++ q2 :: ps.drop (i + 1)).drop (mid + 1)
          = (ps.drop (mid + 1)).take (i - (mid + 1) + 1)
            ++ q2 :: (ps.drop (mid + 1)).drop (i - (mid + 1) + 1) := by
        rw [ins_drop_le _ _ _ _ (by omega) (by omega), earith]
      have e3 : (n.item.take i ++ k :: n.item.drop i).take mid = n.item.take mid :=
        ins_take_le _ _ _ _ (by omega) (by omega)
      have e4 : (n.item.take i ++ k :: n.item.drop i).drop (mid + 1)
          = (n.item.drop (mid + 1)).take (i - (mid + 1))
            ++ k :: (n.item.drop (mid + 1)).drop (i - (mid + 1)) :=
        ins_drop_le _ _ _ _ (by omega) (by omega)
      obtain ⟨hS1, hS2, k0, hk0, hlast⟩ := Sub.halves hcapL a t.mem.length _ _
        (n.item.take i ++ k :: n.item.drop i) (ps.take (i + 1) ++ q2 :: ps.drop (i + 1)) mid
        ha4 hN4 hlev hlev (by rw [e1]) (by rw [e2]) (by rw [e3]) (by rw [e4])
        (by
          rw [e1]
          simp only []
          rw [hw1, wsub_of_le (by omega)]
          omega)
        (by
          rw [e2, items_leavesOf_ins])
        hsep hsepl (by omega)
        (by
          rw [e1]
          intro q hq
          have hqm := List.mem_of_mem_take hq
          refine Sub.step (Sub.step (hchL1 q hq) hst13.1 (fun b hb e => ?_)) hst4.1
            (fun b hb e => ?_)
          · have hblt := hltps q hqm b hb
            simp only [List.mem_cons, List.mem_singleton, List.not_mem_nil, or_false] at e
            rcases e with e | e
            · subst e; exact haps (mem_fpOf hqm hb)
            · omega
          · have hblt := hltps q hqm b hb
            rcases List.mem_cons.1 e with e | e
            · omega
            · exact hdis b e (mem_fpOf hqm hb))
        (by
          rw [e2]
          intro q hq
          have hold : ∀ q ∈ ps.drop (mid + 1),
              Sub cfg t4 h false q.ptr (Ptr.node t.mem.length) q.leaves q.fp := by
            intro q hq
            have hqm := List.mem_of_mem_drop hq
            refine Sub.step (Sub.step (hchR1 q hq) hst13.1 (fun b hb e => ?_)) hst4.1
              (fun b hb e => ?_)
            · have hblt := hltps q hqm b hb
              simp only [List.mem_cons, List.mem_singleton, List.not_mem_nil, or_false] at e
              rcases e with e | e
              · subst e; exact haps (mem_fpOf hqm hb)
              · omega
            · have hblt := hltps q hqm b hb
              rcases List.mem_cons.1 e with e | e
              · omega
              · exact hdis b e (mem_fpOf hqm hb)
          rcases List.mem_append.1 hq with hq | hq
          · exact hold q (List.mem_of_mem_take hq)
          · rcases List.mem_cons.1 hq with rfl | hq
            · exact hsub4
            · exact hold q (List.mem_of_mem_drop hq))
        (by rcases hmidc with ⟨h1, h2, e⟩ | ⟨-, e⟩ <;> omega)
        (by omega)
        (by rw [hil]; rcases hmidc with ⟨-, -, e⟩ | ⟨-, e⟩ <;> omega)
        (by rw [hil]; omega)
      have hkm := hk0
      rw [ins_getElem?_lt _ _ _ _ (by omega) (by omega), hkey] at hk0
      simp only [Option.some.injEq] at hk0
      subst hk0
      refine ⟨t4, key, mid, ?_, ?_, by omega, hS1, hS2, hlast, _, _, ha4, hN4, by rw [e3],
        by rw [e4], hkm, by rw [e1], by rw [e2],
        by rcases hmidc with ⟨h1, h2, e⟩ | ⟨-, e⟩ <;> omega,
        by rcases hmidc with ⟨-, -, e⟩ | ⟨-, e⟩ <;> omega⟩
      · simp only [place_child_, inner?_of_node? hn, if_pos hfull, hsplit, inner?_of_node? ha1,
          inner?_of_node? hN1, hl1, hl2]
        rw [if_neg hrj, if_pos hright]
        simp only [Sub.size? hq21, h2, h3, h4]
      · refine ((hst1.istep_trans hst13).istep_trans hst4).istep_mono (fun b hb hblt => ?_)
        simp only [List.mem_cons, List.mem_append, List.mem_singleton, List.not_mem_nil,
          or_false] at hb
        rcases hb with ((e | e) | e | e) | e | e
        · subst e; simp
        · exact List.mem_cons_of_mem _ ((fpOf_ins_mem ps (i + 1) q2 b).2 (Or.inr e))
        · subst e; simp
        · omega
        · omega
        · exact List.mem_cons_of_mem _ ((fpOf_ins_mem ps (i + 1) q2 b).2 (Or.inl e))
    · -- the new child stays in the old node
      obtain ⟨t2, h2, ha2', hsub2, hst2, hlen2⟩ := insert_child_spec t1 a _ i k
        (ps.take (mid + 1)) q2 Ptr.null ha1 rfl
        (by rw [List.length_take]; simp only []; rw [hl1]; omega)
        (by rw [List.length_take]; omega) hq21 hnd2 ha2
      have hN2 : t2.node? (Ptr.node t.mem.length) = _ :=
        (hst2.1.2 _ (by omega) (by
          simp only [List.mem_cons, not_or]
          exact ⟨Ne.symm haN, fun e => by have := hlt2 _ e; omega⟩)).trans hN1
      have e1 : (ps.take (i + 1) ++ q2 :: ps.drop (i + 1)).take (mid + 1 + 1)
          = (ps.take (mid + 1)).take (i + 1) ++ q2 :: (ps.take (mid + 1)).drop (i + 1) :=
        ins_take_succ _ _ _ _ (by omega) (by omega)
      have e2 : (ps.take (i + 1) ++ q2 :: ps.drop (i + 1)).drop (mid + 1 + 1)
          = ps.drop (mid + 1) :=
        ins_drop_succ _ _ _ _ (by omega) (by omega)
      have e3 : (n.item.take i ++ k :: n.item.drop i).take (mid + 1)
          = (n.item.take mid).take i ++ k :: (n.item.take mid).drop i :=
        ins_take_succ _ _ _ _ (by omega) (by omega)
      have e4 : (n.item.take i ++ k :: n.item.drop i).drop (mid + 1 + 1)
          = n.item.drop (mid + 1) :=
        ins_drop_succ _ _ _ _ (by omega) (by omega)
      obtain ⟨hS1, hS2, k0, hk0, hlast⟩ := Sub.halves hcapL a t.mem.length _ _
        (n.item.take i ++ k :: n.item.drop i) (ps.take (i + 1) ++ q2 :: ps.drop (i + 1))
        (mid + 1) ha2' hN2 hlev hlev (by rw [e1]) (by rw [e2]) (by rw [e3]) (by rw [e4])
        (by
          rw [e1, items_leavesOf_ins]
          simp only []
          rw [hw1])
        (by rw [e2])
        hsep hsepl (by omega)
        (by
          rw [e1]
          intro q hq
          have hold : ∀ q ∈ ps.take (mid + 1),
              Sub cfg t2 h false q.ptr (Ptr.node a) q.leaves q.fp := by
            intro q hq
            have hqm := List.mem_of_mem_take hq
            refine Sub.step (hchL1 q hq) hst2.1 (fun b hb e => ?_)
            rcases List.mem_cons.1 e with e | e
            · subst e; exact haps (mem_fpOf hqm hb)
            · exact hdis b e (mem_fpOf hqm hb)
          rcases List.mem_append.1 hq with hq | hq
          · exact hold q (List.mem_of_mem_take hq)
          · rcases List.mem_cons.1 hq with rfl | hq
            · exact hsub2
            · exact hold q (List.mem_of_mem_drop hq))
        (by
          rw [e2]
          intro q hq
          have hqm := List.mem_of_mem_drop hq
          refine Sub.step (hchR1 q hq) hst2.1 (fun b hb e => ?_)
          rcases List.mem_cons.1 e with e | e
          · subst e; exact haps (mem_fpOf hqm hb)
          · exact hdis b e (mem_fpOf hqm hb))
        (by omega)
        (by omega)
        (by rw [hil]; rcases hmidc with ⟨-, -, e⟩ | ⟨h1, e⟩ <;> omega)
        (by rw [hil]; omega)
      have hkm := hk0
      rw [ins_getElem?_succ _ _ _ _ (by omega) (by omega), hkey] at hk0
      simp only [Option.some.injEq] at hk0
      subst hk0
      refine ⟨t2, key, mid + 1, ?_, ?_, by omega, hS1, hS2, hlast, _, _, ha2', hN2, by rw [e3],
        by rw [e4], hkm, by rw [e1], by rw [e2], by omega,
        by rcases hmidc with ⟨-, -, e⟩ | ⟨h1, e⟩ <;> omega⟩
      · simp only [place_child_, inner?_of_node? hn, if_pos hfull, hsplit, inner?_of_node? ha1,
          inner?_of_node? hN1, hl1, hl2]
        rw [if_neg hrj, if_neg hright]
        simp only [h2]
      · refine (hst1.istep_trans hst2).istep_mono (fun b hb hblt => ?_)
        simp only [List.mem_cons, List.mem_append] at hb
        rcases hb with (e | e) | e | e
        · subst e; simp
        · exact List.mem_cons_of_mem _ ((fpOf_ins_mem ps (i + 1) q2 b).2 (Or.inr e))
        · subst e; simp
        · exact List.mem_cons_of_mem _ ((fpOf_ins_mem ps (i + 1) q2 b).2 (Or.inl e))

end PlaceSplit

end BPP

/-! ## Segments of the leaf chain -/

namespace BPP

section Segments
variable {α : Type}

/-- The pointer of the first leaf of a run, or a default. -/
def headPtr (ls : Leaves α) (d : Ptr) : Ptr :=
  match ls with
  | [] => d
  | (q, _) :: _ => q

/-- The pointer of the last leaf of a run, or a default. -/
def lastPtr (ls : Leaves α) (d : Ptr) : Ptr :=
  match ls.getLast? with
  | some e => e.1
  | none => d

/-- A run of leaves linked in both directions between the node `prev` and the
node `nxt`. -/
def ChainSeg (t : Tree α) : Ptr → Leaves α → Ptr → Prop
  | _, [], _ => True
  | prev, (p, _) :: rest, nxt =>
    ∃ l, t.leaf? p = some l ∧ l.prev = prev ∧ l.next = headPtr rest nxt ∧ ChainSeg t p rest nxt

theorem chainOk_iff_seg (t : Tree α) (ls : Leaves α) (prev : Ptr) :
    ChainOk t prev ls ↔ ChainSeg t prev ls Ptr.root := by
  induction ls generalizing prev with
  | nil => exact Iff.rfl
  | cons x xs ih =>
    obtain ⟨p, y⟩ := x
    constructor
    · rintro ⟨l, h1, h2, h3, h4⟩
      refine ⟨l, h1, h2, ?_, (ih p).1 h4⟩
      cases xs with
      | nil => exact h3
      | cons z zs => exact h3
    · rintro ⟨l, h1, h2, h3, h4⟩
      refine ⟨l, h1, h2, ?_, (ih p).2 h4⟩
      cases xs with
      | nil => exact h3
      | cons z zs => exact h3

@[simp] theorem lastPtr_nil (d : Ptr) : lastPtr ([] : Leaves α) d = d := rfl

@[simp] theorem lastPtr_cons (x : Ptr × List α) (xs : Leaves α) (d : Ptr) :
    lastPtr (x :: xs) d = lastPtr xs x.1 := by
  cases xs with
  | nil => simp [lastPtr]
  | cons y ys =>
    simp only [lastPtr, List.getLast?_cons_cons]
    cases h : (y :: ys).getLast? with
    | none => simp at h
    | some e => rfl

theorem headPtr_append (A B : Leaves α) (d : Ptr) :
    headPtr (A ++ B) d = headPtr A (headPtr B d) := by
  cases A with
  | nil => rfl
  | cons x xs => rfl

theorem ChainSeg.append (t : Tree α) (A B : Leaves α) (prev nxt : Ptr) :
    ChainSeg t prev (A ++ B) nxt ↔
      ChainSeg t prev A (headPtr B nxt) ∧ ChainSeg t (lastPtr A prev) B nxt := by
  induction A generalizing prev with
  | nil => simp [ChainSeg]
  | cons x xs ih =>
    obtain ⟨p, y⟩ := x
    rw [List.cons_append, lastPtr_cons]
    constructor
    · rintro ⟨l, h1, h2, h3, h4⟩
      exact ⟨⟨l, h1, h2, by rw [h3, headPtr_append], ((ih p).1 h4).1⟩, ((ih p).1 h4).2⟩
    · rintro ⟨⟨l, h1, h2, h3, h4⟩, h5⟩
      exact ⟨l, h1, h2, by rw [h3, headPtr_append], (ih p).2 ⟨h4, h5⟩⟩

/-- A run keeps its links when its leaves read the same. -/
theorem ChainSeg.seg_frame {t t' : Tree α} :
    ∀ (ls : Leaves α) (prev nxt : Ptr), (∀ e ∈ ls, t'.leaf? e.1 = t.leaf? e.1) →
      ChainSeg t prev ls nxt → ChainSeg t' prev ls nxt := by
  intro ls
  induction ls with
  | nil => intro _ _ _ _; trivial
  | cons x xs ih =>
    intro prev nxt hfr hc
    obtain ⟨p, y⟩ := x
    obtain ⟨l, h1, h2, h3, h4⟩ := hc
    exact ⟨l, by rw [hfr (p, y) (List.mem_cons_self _ _)]; exact h1, h2, h3,
      ih p nxt (fun e he => hfr e (List.mem_cons_of_mem _ he)) h4⟩

/-- The links of a run do not depend on the items listed with the leaves. -/
theorem ChainSeg.congr_ptrs {t : Tree α} :
    ∀ (ls ls' : Leaves α) (prev nxt : Ptr), ls.map Prod.fst = ls'.map Prod.fst →
      ChainSeg t prev ls nxt → ChainSeg t prev ls' nxt := by
  intro ls
  induction ls with
  | nil =>
    intro ls' prev nxt he _
    cases ls' with
    | nil => trivial
    | cons _ _ => simp at he
  | cons x xs ih =>
    intro ls' prev nxt he hc
    cases ls' with
    | nil => simp at he
    | cons x' xs' =>
      obtain ⟨p, y⟩ := x
      obtain ⟨p', y'⟩ := x'
      simp only [List.map_cons, List.cons.injEq] at he
      obtain ⟨hp, hrest⟩ := he
      subst hp
      obtain ⟨l, h1, h2, h3, h4⟩ := hc
      refine ⟨l, h1, h2, ?_, ih xs' p nxt hrest h4⟩
      rw [h3]
      cases xs with
      | nil =>
        cases xs' with
        | nil => rfl
        | cons _ _ => simp at hrest
      | cons z zs =>
        cases xs' with
        | nil => simp at hrest
        | cons z' zs' =>
          simp only [List.map_cons, List.cons.injEq] at hrest
          obtain ⟨pz, yz⟩ := z
          obtain ⟨pz', yz'⟩ := z'
          exact hrest.1

/-- Every leaf of a run is a live leaf. -/
theorem ChainSeg.live {t : Tree α} :
    ∀ (ls : Leaves α) (prev nxt : Ptr), ChainSeg t prev ls nxt →
      ∀ e ∈ ls, ∃ b l, e.1 = Ptr.node b ∧ t.node? (Ptr.node b) = some (Node.leaf l) := by
  intro ls
  induction ls with
  | nil => intro _ _ _ e he; simp at he
  | cons x xs ih =>
    intro prev nxt hc e he
    obtain ⟨p, y⟩ := x
    obtain ⟨l, h1, h2, h3, h4⟩ := hc
    rcases List.mem_cons.1 he with rfl | he
    · have hn := node?_of_leaf? h1
      cases p with
      | null => simp [Tree.node?] at hn
      | root => simp [Tree.node?] at hn
      | node b => exact ⟨b, l, rfl, hn⟩
    · exact ih p nxt h4 e he

end Segments

section ChainSplit
variable {α : Type}

theorem leaf?_eq_of_node? {t t' : Tree α} {p : Ptr} (h : t'.node? p = t.node? p) :
    t'.leaf? p = t.leaf? p := by
  unfold Tree.leaf?; rw [h]

/-- The chain after a leaf split: the fresh leaf stands between the split
leaf and its old successor. -/
theorem ChainSeg.split_leaf {t t' : Tree α} (L R : Leaves α) (a N : Nat) (x xs1 xs2 : List α)
    (prev0 : Ptr) (l : LeafNode α)
    (hch : ChainSeg t prev0 (L ++ (Ptr.node a, x) :: R) Ptr.root)
    (hnd : ((L ++ (Ptr.node a, x) :: R).map Prod.fst).Nodup)
    (hl : t.node? (Ptr.node a) = some (Node.leaf l))
    (ha' : t'.node? (Ptr.node a)
      = some (Node.leaf { l with item := xs1, next := Ptr.node N }))
    (hN' : t'.node? (Ptr.node N) = some (Node.leaf ⟨Ptr.null, Ptr.node a, l.next, xs2⟩))
    (hfr : ∀ b, b < t.mem.length → b ≠ a → l.next ≠ Ptr.node b →
      t'.node? (Ptr.node b) = t.node? (Ptr.node b))
    (hnx : ∀ b m, l.next = Ptr.node b → t.node? (Ptr.node b) = some (Node.leaf m) →
      t'.node? (Ptr.node b) = some (Node.leaf { m with prev := Ptr.node N })) :
    ChainSeg t' prev0 (L ++ (Ptr.node a, xs1) :: (Ptr.node N, xs2) :: R) Ptr.root := by
  obtain ⟨hL, hrest⟩ := (ChainSeg.append t L _ prev0 Ptr.root).1 hch
  obtain ⟨l0, hl0, hprev, hnext, hR⟩ := hrest
  have e0 : l0 = l := by
    have := node?_of_leaf? hl0
    rw [hl] at this
    simpa using this.symm
  subst e0
  rw [List.map_append, List.map_cons] at hnd
  obtain ⟨hndL, hndR, hdisj⟩ := List.nodup_append.1 hnd
  have haR : Ptr.node a ∉ R.map Prod.fst := (List.nodup_cons.1 hndR).1
  have hframe : ∀ (ls : Leaves α) (prev nxt : Ptr), ChainSeg t prev ls nxt →
      (∀ e ∈ ls, e.1 ≠ Ptr.node a ∧ e.1 ≠ l0.next) → ChainSeg t' prev ls nxt := by
    intro ls prev nxt hc hne
    refine ChainSeg.seg_frame ls prev nxt (fun e he => ?_) hc
    obtain ⟨b, m, hb, hm⟩ := ChainSeg.live ls prev nxt hc e he
    rw [hb]
    refine leaf?_eq_of_node? (hfr b (lt_mem_of_node? hm) ?_ ?_)
    · intro e'; exact (hne e he).1 (by rw [hb, e'])
    · intro e'; exact (hne e he).2 (by rw [hb, e'])
  refine (ChainSeg.append t' L _ prev0 Ptr.root).2 ⟨?_, ?_⟩
  · refine hframe L prev0 _ hL (fun e he => ⟨?_, ?_⟩)
    · intro e'
      exact hdisj (List.mem_map_of_mem _ he) (by rw [e']; exact List.mem_cons_self _ _)
    · intro e'
      rw [hnext] at e'
      cases R with
      | nil =>
        simp only [headPtr] at e'
        obtain ⟨b, m, hb, -⟩ := ChainSeg.live L prev0 _ hL e he
        rw [hb] at e'; simp at e'
      | cons r rs =>
        obtain ⟨pr, yr⟩ := r
        simp only [headPtr] at e'
        exact hdisj (List.mem_map_of_mem _ he) (by rw [e']; simp)
  · refine ⟨_, leaf?_of_node? ha', hprev, rfl, _, leaf?_of_node? hN', rfl, hnext, ?_⟩
    cases R with
    | nil => trivial
    | cons r rs =>
      obtain ⟨pr, yr⟩ := r
      obtain ⟨m, hm, hmp, hmn, hrs⟩ := hR
      simp only [headPtr] at hnext
      obtain ⟨b, m', hb, hm'⟩ := ChainSeg.live _ _ _
        (show ChainSeg t (Ptr.node a) ((pr, yr) :: rs) Ptr.root from ⟨m, hm, hmp, hmn, hrs⟩)
        (pr, yr) (List.mem_cons_self _ _)
      simp only at hb
      subst hb
      have em : m' = m := by
        have := node?_of_leaf? hm
        rw [hm'] at this
        simpa using this
      subst em
      refine ⟨_, leaf?_of_node? (hnx b m' hnext hm'), rfl, hmn, ?_⟩
      simp only [List.map_cons] at hndR
      refine hframe rs _ _ hrs (fun e he => ⟨?_, ?_⟩)
      · intro e'
        exact haR (by rw [← e']; exact List.mem_cons_of_mem _ (List.mem_map_of_mem _ he))
      · intro e'
        rw [hnext] at e'
        have := (List.nodup_cons.1 (List.nodup_cons.1 hndR).2).1
        exact this (by rw [← e']; exact List.mem_map_of_mem _ he)

end ChainSplit

end BPP

/-! ## The descent of `insert_one_descend_` -/

namespace BPP

section InsertPost
variable {α : Type}

/-- What a successful insertion of `v` at index `j` below the node `p`
leaves behind, for a subtree whose leaves `ls` stand in the chain between the
runs `L` and `R`: the anchor fields other than `right` and the cells outside
the subtree are as they were (up to links), the leaves `ls'` below `p` (and
below the new sibling `q` handed up, if there is one) hold the old items
with `v` at `j`, `pos` is the position of `v`, and the chain is linked. -/
def InsPost (cfg : Config) (t : Tree α) (h : Nat) (isRoot : Bool) (p par : Ptr) (ls : Leaves α)
    (fp : List Nat) (v : α) (j : Nat) (L R : Leaves α) (prev0 : Ptr) (t' : Tree α) (pos : Pos)
    (up : Option (α × Ptr)) : Prop :=
  t.mem.length ≤ t'.mem.length ∧ t'.parent = t.parent ∧ t'.size = t.size ∧ t'.left = t.left ∧
  (∀ b, b < t.mem.length → b ∉ fp → SameCore t t' b) ∧
  ∃ ls' fp',
    items ls' = (items ls).take j ++ v :: (items ls).drop j ∧
    indexIn ls' pos = some j ∧ fp'.Nodup ∧ (∀ b ∈ fp', b ∈ fp ∨ t.mem.length ≤ b) ∧
    ChainOk t' prev0 (L ++ ls' ++ R) ∧
    ((L ++ ls' ++ R).head?).map Prod.fst = ((L ++ ls ++ R).head?).map Prod.fst ∧
    ((L ++ ls' ++ R).getLast?).map Prod.fst = some t'.right ∧
    (match up with
      | none => Sub cfg t' h isRoot p par ls' fp'
      | some (k, q) => ∃ ls1 fp1 ls2 fp2, ls' = ls1 ++ ls2 ∧ fp' = fp1 ++ fp2 ∧
          Sub cfg t' h false p par ls1 fp1 ∧ Sub cfg t' h false q Ptr.null ls2 fp2 ∧
          (items ls1).getLast? = some k)

theorem head?_map_fst_congr {β γ : Type} (A B : List (β × γ))
    (h : A.map Prod.fst = B.map Prod.fst) : (A.head?).map Prod.fst = (B.head?).map Prod.fst := by
  rw [← List.head?_map, ← List.head?_map, h]

theorem getLast?_map_fst_congr {β γ : Type} (A B : List (β × γ))
    (h : A.map Prod.fst = B.map Prod.fst) :
    (A.getLast?).map Prod.fst = (B.getLast?).map Prod.fst := by
  rw [← List.getLast?_map, ← List.getLast?_map, h]

/-- Inserting into the leaf that is a whole subtree. -/
theorem insert_leaf_post (cfg : Config) (t : Tree α) (isRoot : Bool) (p par : Ptr)
    (ls : Leaves α) (fp : List Nat) (v : α) (w : Nat) (L R : Leaves α) (prev0 : Ptr)
    (hcap : 2 ≤ cfg.maxLeaf) (hs : Sub cfg t 0 isRoot p par ls fp)
    (hw : w ≤ (items ls).length)
    (hchain : ChainOk t prev0 (L ++ ls ++ R))
    (hnd : ((L ++ ls ++ R).map Prod.fst).Nodup)
    (hright : ((L ++ ls ++ R).getLast?).map Prod.fst = some t.right) :
    ∃ t' pos up, insert_leaf_ cfg t p w v = some (t', pos, up) ∧
      InsPost cfg t 0 isRoot p par ls fp v w L R prev0 t' pos up := by
  obtain ⟨a, l, hp, hn, hpar, hls, hfp, hlo, hhi⟩ := Sub.zero_iff.1 hs
  subst hp hls hfp
  have hit : items [(Ptr.node a, l.item)] = l.item := by simp
  rw [hit] at hw
  have hal : a < t.mem.length := lt_mem_of_node? hn
  have hseg := (chainOk_iff_seg t _ prev0).1 hchain
  rw [List.append_assoc, List.singleton_append] at hseg hnd hright
  by_cases hfull : l.item.length = cfg.maxLeaf
  · -- the leaf is split
    obtain ⟨hL, l0, hl0, hprev, hnext, hR⟩ := (ChainSeg.append t L _ prev0 Ptr.root).1 hseg
    have e0 : l0 = l := by
      have := node?_of_leaf? hl0
      rw [hn] at this
      simpa using this.symm
    subst e0
    have hnextc : l0.next = Ptr.root ∨
        ∃ b m, l0.next = Ptr.node b ∧ b ≠ a ∧ t.node? (Ptr.node b) = some (Node.leaf m) := by
      cases R with
      | nil => left; exact hnext
      | cons r rs =>
        right
        obtain ⟨pr, yr⟩ := r
        obtain ⟨b, m, hb, hm⟩ := ChainSeg.live _ _ _ hR (pr, yr) (List.mem_cons_self _ _)
        simp only at hb
        subst hb
        refine ⟨b, m, hnext, ?_, hm⟩
        intro e
        subst e
        rw [List.map_append, List.map_cons, List.map_cons] at hnd
        exact (List.nodup_cons.1 (List.nodup_append.1 hnd).2.1).1 (List.mem_cons_self _ _)
    obtain ⟨t', xs1, xs2, k, hins, hx, hk, hb1, hb2, hb3, hb4, ha', hN', hlen', hp', hs', hl', hr',
      hfr, hnx⟩ := insert_leaf_split cfg t a l0 w v hn hw hfull hcap hnextc
    have hxl : xs1.length + xs2.length = l0.item.length + 1 := by
      have := congrArg List.length hx
      rw [List.length_append, ins_length _ _ _ hw] at this
      exact this
    refine ⟨t', _, _, hins, by omega, hp', hs', hl', ?_,
      [(Ptr.node a, xs1), (Ptr.node t.mem.length, xs2)], [a, t.mem.length], ?_, ?_, ?_, ?_, ?_,
      ?_, ?_, ?_⟩
    · intro b hb hba
      simp only [List.mem_singleton] at hba
      unfold SameCore
      by_cases hbn : l0.next = Ptr.node b
      · rcases hnextc with hroot | ⟨b', m, hb', -, hm⟩
        · rw [hroot] at hbn; simp at hbn
        · rw [hb'] at hbn
          simp only [Ptr.node.injEq] at hbn
          subst hbn
          rw [hnx b' m hb' hm, hm]
          simp [Node.core]
      · rw [hfr b hb hba hbn]
    · simp only [items_cons, items_nil, List.append_nil, hit]; exact hx
    · by_cases hlt : w < xs1.length
      · rw [if_pos hlt]; exact indexIn_head _ _ _ _ hlt
      · rw [if_neg hlt, indexIn, if_neg (by simp; omega), indexIn_head _ _ _ _ (by omega)]
        simp only [Option.map_some', Option.some.injEq]
        omega
    · simp; omega
    · intro b hb
      simp only [List.mem_cons, List.mem_singleton, List.not_mem_nil, or_false] at hb
      rcases hb with rfl | rfl
      · left; simp
      · right; exact le_refl _
    · rw [chainOk_iff_seg, List.append_assoc]
      exact ChainSeg.split_leaf L R a t.mem.length l0.item xs1 xs2 prev0 l0 hseg hnd hn ha' hN' hfr
        hnx
    · cases L with
      | nil => rfl
      | cons x xs => rfl
    · rw [hr']
      cases R with
      | nil =>
        simp only [headPtr] at hnext
        rw [if_pos hnext]
        simp
      | cons r rs =>
        obtain ⟨pr, yr⟩ := r
        obtain ⟨b, m, hb, hm⟩ := ChainSeg.live _ _ _ hR (pr, yr) (List.mem_cons_self _ _)
        simp only at hb
        subst hb
        simp only [headPtr] at hnext
        rw [if_neg (by rw [hnext]; simp), ← hright]
        simp [List.getLast?_append, List.getLast?_cons_cons]
    · refine ⟨[(Ptr.node a, xs1)], [a], [(Ptr.node t.mem.length, xs2)], [t.mem.length], rfl, rfl,
        ?_, ?_, by simpa using hk⟩
      · exact Sub.zero_iff.2 ⟨a, _, rfl, ha', hpar, rfl, rfl, by simpa using hb1, hb2⟩
      · exact Sub.zero_iff.2 ⟨t.mem.length, _, rfl, hN', rfl, rfl, rfl, by simpa using hb3, hb4⟩
  · -- the leaf has room
    have hroom := insert_leaf_room cfg t a l w v hn hw hfull
    have hlinks : ∀ q, SameLinks t (t.put a (Node.leaf
        { l with item := l.item.take w ++ v :: l.item.drop w })) q := by
      intro q
      unfold SameLinks
      cases q with
      | null => rfl
      | root => rfl
      | node b =>
        by_cases hb : b = a
        · subst hb
          simp [Tree.leaf?, node?_put_same _ _ _ hal, hn]
        · simp [Tree.leaf?, node?_put_ne _ _ _ _ hb]
    have hptrs : (L ++ (Ptr.node a, l.item) :: R).map Prod.fst
        = (L ++ (Ptr.node a, l.item.take w ++ v :: l.item.drop w) :: R).map Prod.fst := by
      simp
    refine ⟨_, _, _, hroom, by simp, rfl, rfl, rfl, ?_,
      [(Ptr.node a, l.item.take w ++ v :: l.item.drop w)], [a], ?_, ?_, by simp, ?_, ?_, ?_, ?_,
      ?_⟩
    · intro b hb hba
      simp only [List.mem_singleton] at hba
      unfold SameCore
      rw [node?_put_ne _ _ _ _ hba]
    · simp only [items_cons, items_nil, List.append_nil, hit]
    · exact indexIn_head _ _ _ _ (by rw [ins_length _ _ _ hw]; omega)
    · intro b hb; left; exact hb
    · rw [chainOk_iff_seg, List.append_assoc, List.singleton_append]
      exact ChainSeg.congr_ptrs _ _ _ _ hptrs
        ((chainOk_iff_seg _ _ _).1 (ChainOk.chain_step hlinks _ _ ((chainOk_iff_seg _ _ _).2 hseg)))
    · rw [List.append_assoc, List.singleton_append, List.append_assoc, List.singleton_append]
      exact head?_map_fst_congr _ _ hptrs.symm
    · rw [List.append_assoc, List.singleton_append, put_right, ← hright]
      exact getLast?_map_fst_congr _ _ hptrs.symm
    · refine Sub.zero_iff.2 ⟨a, _, rfl, node?_put_same _ _ _ hal, hpar, rfl, rfl, ?_, ?_⟩
      · refine le_trans hlo ?_
        show l.item.length ≤ (l.item.take w ++ v :: l.item.drop w).length
        rw [ins_length _ _ _ hw]; omega
      · show (l.item.take w ++ v :: l.item.drop w).length ≤ cfg.maxLeaf
        rw [ins_length _ _ _ hw]; omega

end InsertPost

section DescendUnfold
variable {α : Type} [LinearOrder α]

/-- The slot the descent of the insert takes in a node: the lower bound of
the key when leftish, the upper bound otherwise. -/
def bound_node (is_leftish : Bool) (l : List α) (v : α) : Nat :=
  if is_leftish then lower_bound_node l v else upper_bound_node l v

/-- What an inner node does once the descent below its child has returned:
count the new item and place the new child, if one was handed up. -/
def insert_ascend_ (cfg : Config) (node : Ptr) («where» : Nat)
    (r : Tree α × (Pos × Bool) × Option (α × Ptr)) :
    Option (Tree α × (Pos × Bool) × Option (α × Ptr)) :=
  match (if r.2.1.2 then r.1.modInner node (fun m => { m with size := m.size + 1 })
      else some r.1) with
  | none => none
  | some t =>
    match r.2.2 with
    | none => some (t, r.2.1, none)
    | some (key_out, new_child) =>
      match place_child_ cfg t node «where» key_out new_child with
      | none => none
      | some (t, up) => some (t, r.2.1, up)

/-- The inner branch of `insert_one_descend_`. -/
theorem insert_descend_inner (cfg : Config) (lt : Bool) (v : α) (fuel : Nat) (t : Tree α)
    (a : Nat) (n : InnerNode α) (c : Ptr) (hn : t.node? (Ptr.node a) = some (Node.inner n))
    (hlev : n.level > 0) (hc : n.children[bound_node lt n.item v]? = some c) :
    insert_one_descend_ cfg lt v (fuel + 1) t (Ptr.node a)
      = (insert_one_descend_ cfg lt v fuel t c).bind
          (insert_ascend_ cfg (Ptr.node a) (bound_node lt n.item v)) := by
  unfold bound_node at hc ⊢
  rw [insert_one_descend_]
  simp only [level?_inner hn, hlev, if_true, inner?_of_node? hn, hc]
  cases hr : insert_one_descend_ cfg lt v fuel t c with
  | none => rfl
  | some r =>
    obtain ⟨t1, result, new⟩ := r
    simp only [Option.some_bind, insert_ascend_]
    cases hm : (if result.2 = true then
        t1.modInner (Ptr.node a) (fun m => { m with size := m.size + 1 }) else some t1) with
    | none => rfl
    | some t2 =>
      cases new with
      | none => rfl
      | some kq =>
        obtain ⟨key_out, new_child⟩ := kq
        simp only []
        cases place_child_ cfg t2 (Ptr.node a) (if lt = true then lower_bound_node n.item v
          else upper_bound_node n.item v) key_out new_child with
        | none => rfl
        | some tu => rfl

/-- A result of the leaf branch is acceptable: a success is the insertion
into the leaf, a failure leaves the state alone. -/
def LeafGood (t : Tree α) (il : Option (Tree α × Pos × Option (α × Ptr)))
    (o : Option (Tree α × (Pos × Bool) × Option (α × Ptr))) : Prop :=
  (∀ t' pos up, o = some (t', (pos, true), up) → il = some (t', pos, up)) ∧
  (∀ t' pos up, o = some (t', (pos, false), up) → t' = t ∧ up = none)

theorem LeafGood.none (t : Tree α) (il : Option (Tree α × Pos × Option (α × Ptr))) :
    LeafGood t il Option.none :=
  ⟨fun _ _ _ h => by simp at h, fun _ _ _ h => by simp at h⟩

theorem LeafGood.fail (t : Tree α) (il : Option (Tree α × Pos × Option (α × Ptr))) (pos : Pos) :
    LeafGood t il (some (t, (pos, false), Option.none)) := by
  refine ⟨fun _ _ _ h => by simp at h, fun t' pos' up h => ?_⟩
  simp only [Option.some.injEq, Prod.mk.injEq, and_true] at h
  exact ⟨h.1.symm, h.2.2.symm⟩

theorem LeafGood.done (t : Tree α) (il : Option (Tree α × Pos × Option (α × Ptr)))
    (t1 : Tree α) (pos1 : Pos) (up1 : Option (α × Ptr)) (h : il = some (t1, pos1, up1)) :
    LeafGood t il (some (t1, (pos1, true), up1)) := by
  refine ⟨fun t' pos up h' => ?_, fun _ _ _ h' => by simp at h'⟩
  simp only [Option.some.injEq, Prod.mk.injEq, and_true] at h'
  obtain ⟨h1, h2, h3⟩ := h'
  rw [h, h1, h2, h3]

/-- The leaf branch of `insert_one_descend_`: in multi mode it is the
insertion at the slot of the key; in any mode a successful result is that
insertion, and an unsuccessful one leaves the state alone. -/
theorem insert_descend_leaf (cfg : Config) (lt : Bool) (v : α) (fuel : Nat) (t : Tree α)
    (a : Nat) (l : LeafNode α) (hn : t.node? (Ptr.node a) = some (Node.leaf l)) :
    (cfg.unique = false →
      insert_one_descend_ cfg lt v (fuel + 1) t (Ptr.node a)
        = (insert_leaf_ cfg t (Ptr.node a) (bound_node lt l.item v) v).map
            (fun r => (r.1, (r.2.1, true), r.2.2))) ∧
    LeafGood t (insert_leaf_ cfg t (Ptr.node a) (bound_node lt l.item v) v)
      (insert_one_descend_ cfg lt v (fuel + 1) t (Ptr.node a)) := by
  unfold bound_node
  rw [insert_one_descend_]
  simp only [level?_leaf hn, gt_iff_lt, lt_self_iff_false, if_false, leaf?_of_node? hn]
  cases lt <;> cases hu : cfg.unique <;>
    simp only [Bool.false_eq_true, if_false, if_true, false_and, true_and]
  all_goals refine ⟨?_, ?_⟩
  all_goals first
    | (intro h1; exact absurd h1 (by decide))
    | (intro _
       cases hi : insert_leaf_ cfg t (Ptr.node a) (upper_bound_node l.item v) v <;> rfl)
    | (intro _
       cases hi : insert_leaf_ cfg t (Ptr.node a) (lower_bound_node l.item v) v <;> rfl)
    | ((repeat' split) <;>
        first
          | exact LeafGood.none _ _
          | exact LeafGood.fail _ _ _
          | (exact LeafGood.done _ _ _ _ _ (by assumption)))

end DescendUnfold

section AscendLists
variable {α : Type}

theorem ins_middle {β : Type} (A B C : List β) (j : Nat) (v : β) (hj : j ≤ B.length) :
    (A ++ (B ++ C)).take (A.length + j) ++ v :: (A ++ (B ++ C)).drop (A.length + j)
      = A ++ ((B.take j ++ v :: B.drop j) ++ C) := by
  rw [List.take_append, List.drop_append, List.take_append_of_le_length hj,
    List.drop_append_of_le_length hj]
  simp

/-- The separators of an inner node when one child gets other leaves but
keeps its last key (or is the last child). -/
theorem sep_replace (pre post : List (Part α)) (q q' : Part α)
    (hlast : post ≠ [] → q'.last = q.last) :
    (pre ++ q' :: post).dropLast.map Part.last = (pre ++ q :: post).dropLast.map Part.last := by
  cases post with
  | nil => simp
  | cons r rs =>
    have e : ∀ x : Part α, (pre ++ x :: r :: rs).dropLast = pre ++ x :: (r :: rs).dropLast := by
      intro x
      rw [List.dropLast_append_of_ne_nil _ (by simp),
        List.dropLast_cons_of_ne_nil (List.cons_ne_nil r rs)]
    rw [e, e, List.map_append, List.map_append, List.map_cons, List.map_cons, hlast (by simp)]

/-- The separators of an inner node when one child is replaced by two: the
last key of the first is the new separator. -/
theorem sep_ins (pre post : List (Part α)) (q q1 q2 : Part α) (its : List α) (k : α)
    (hsep : its.map some = (pre ++ q :: post).dropLast.map Part.last)
    (hk : q1.last = some k) (hlast : post ≠ [] → q2.last = q.last) :
    (its.take pre.length ++ k :: its.drop pre.length).map some
      = (pre ++ q1 :: q2 :: post).dropLast.map Part.last := by
  have e2 : (pre ++ q1 :: q2 :: post).dropLast = pre ++ q1 :: (q2 :: post).dropLast := by
    rw [List.dropLast_append_of_ne_nil _ (by simp),
      List.dropLast_cons_of_ne_nil (List.cons_ne_nil q2 post)]
  have e1 : (pre ++ q :: post).dropLast = pre ++ (q :: post).dropLast :=
    List.dropLast_append_of_ne_nil _ (by simp)
  rw [e1, List.map_append] at hsep
  have hl : pre.length ≤ its.length := by
    have := congrArg List.length hsep
    simp only [List.length_map, List.length_append] at this
    omega
  have ht : (its.take pre.length).map some = pre.map Part.last := by
    have := congrArg (List.take pre.length) hsep
    rw [← List.map_take, List.take_left' (by simp)] at this
    exact this
  have hd : (its.drop pre.length).map some = (q :: post).dropLast.map Part.last := by
    have := congrArg (List.drop pre.length) hsep
    rw [← List.map_drop, List.drop_left' (by simp)] at this
    exact this
  rw [e2, List.map_append, List.map_cons, List.map_append, List.map_cons, ht, hd, hk]
  congr 2
  cases post with
  | nil => rfl
  | cons r rs =>
    rw [List.dropLast_cons_of_ne_nil (List.cons_ne_nil r rs),
      List.dropLast_cons_of_ne_nil (List.cons_ne_nil r rs), List.map_cons, List.map_cons,
      hlast (by simp)]

/-- The footprints stay apart when one child's footprint is replaced by one
made of its own cells and fresh cells. -/
theorem fpOf_replace_nodup (pre post : List (Part α)) (q : Part α) (fp' : List Nat) (N : Nat)
    (hnd : (fpOf (pre ++ q :: post)).Nodup) (hnd' : fp'.Nodup)
    (hfresh : ∀ b ∈ fp', b ∈ q.fp ∨ N ≤ b)
    (hold : ∀ b, b ∈ fpOf pre ∨ b ∈ fpOf post → b < N) :
    (fpOf pre ++ (fp' ++ fpOf post)).Nodup := by
  rw [fpOf_append, fpOf_cons] at hnd
  obtain ⟨h1, h2, h3⟩ := List.nodup_append.1 hnd
  obtain ⟨h4, h5, h6⟩ := List.nodup_append.1 h2
  refine List.nodup_append.2 ⟨h1, List.nodup_append.2 ⟨hnd', h5, ?_⟩, ?_⟩
  · intro b hb1 hb2
    rcases hfresh b hb1 with h | h
    · exact h6 h hb2
    · have := hold b (Or.inr hb2); omega
  · intro b hb1 hb2
    rcases List.mem_append.1 hb2 with hb2 | hb2
    · rcases hfresh b hb2 with h | h
      · exact h3 hb1 (List.mem_append_left _ h)
      · have := hold b (Or.inl hb1); omega
    · exact h3 hb1 (List.mem_append_right _ hb2)

end AscendLists

section KeyBound
variable {α : Type} [LinearOrder α]

theorem bound_node_le (lt : Bool) (l : List α) (v : α) : bound_node lt l v ≤ l.length := by
  unfold bound_node
  cases lt
  · simpa using upper_bound_node_le l v
  · simpa using lower_bound_node_le l v

/-- Where the slot of the key among the separators points, for either bias
of the descent. -/
theorem key_bound_split (lt : Bool) (ps : List (Part α)) (keys : List α) (k : α)
    (hk : keys.map some = ps.dropLast.map Part.last) (hne : ps ≠ [])
    (hs : (items (leavesOf ps)).Pairwise (· ≤ ·)) :
    ∃ pre q post, ps = pre ++ q :: post ∧ pre.length = bound_node lt keys k ∧
      bound_node lt (items (leavesOf ps)) k
        = (items (leavesOf pre)).length + bound_node lt (items q.leaves) k ∧
      (post ≠ [] → bound_node lt (items q.leaves) k < (items q.leaves).length) := by
  cases lt
  · obtain ⟨pre, q, post, hps, hlen, hpre, hpost⟩ := key_upper_split ps keys k hk hne hs
    refine ⟨pre, q, post, hps, by simpa [bound_node] using hlen, ?_, ?_⟩
    · subst hps
      have hitems : items (leavesOf (pre ++ q :: post))
          = items (leavesOf pre) ++ (items q.leaves ++ items (leavesOf post)) := by simp
      simp only [bound_node, Bool.false_eq_true, if_false]
      rw [hitems, upper_bound_node_append_of_le _ _ _ hpre]
      by_cases hp0 : post = []
      · subst hp0; simp
      · rw [upper_bound_node_append_of_gt _ _ _ (hpost hp0)]
    · intro hp0
      simpa [bound_node] using upper_bound_node_lt_of_exists _ _ (hpost hp0)
  · obtain ⟨pre, q, post, hps, hlen, hpre, hpost⟩ := key_lower_split ps keys k hk hne hs
    refine ⟨pre, q, post, hps, by simpa [bound_node] using hlen, ?_, ?_⟩
    · subst hps
      have hitems : items (leavesOf (pre ++ q :: post))
          = items (leavesOf pre) ++ (items q.leaves ++ items (leavesOf post)) := by simp
      simp only [bound_node, if_true]
      rw [hitems, lower_bound_node_append_of_lt _ _ _ hpre]
      by_cases hp0 : post = []
      · subst hp0; simp
      · rw [lower_bound_node_append_of_not_lt _ _ _ (hpost hp0)]
    · intro hp0
      simpa [bound_node] using lower_bound_node_lt_of_exists _ _ (hpost hp0)

end KeyBound

section Ascend
variable {α : Type} [LinearOrder α]

theorem take_succ_length_append {β : Type} (pre post : List β) (x : β) :
    (pre ++ x :: post).take (pre.length + 1) = pre ++ [x] := by
  rw [List.take_append]; rfl

theorem drop_succ_length_append {β : Type} (pre post : List β) (x : β) :
    (pre ++ x :: post).drop (pre.length + 1) = post := by
  rw [List.drop_append]; rfl

/-- The step of the insert at an inner node, once the descent below the
child at the slot of the key has succeeded. -/
theorem insert_ascend_spec (cfg : Config) (t t1 : Tree α) (h : Nat) (isRoot : Bool) (a : Nat)
    (par : Ptr) (n : InnerNode α) (pre post : List (Part α)) (q : Part α) (v : α) (jq : Nat)
    (L R : Leaves α) (prev0 : Ptr) (pos : Pos) (upq : Option (α × Ptr))
    (hcapL : 2 ≤ cfg.maxLeaf) (hcapI : 2 ≤ cfg.maxInner)
    (hn : t.node? (Ptr.node a) = some (Node.inner n))
    (hpar : n.parent = par) (hlev : n.level = h + 1)
    (hsz : n.size = (items (leavesOf (pre ++ q :: post))).length)
    (hkeys : n.item.map some = ((pre ++ q :: post).dropLast).map Part.last)
    (hlo : (if isRoot then 1 else cfg.maxInner / 2) ≤ n.item.length)
    (hhi : n.item.length ≤ cfg.maxInner)
    (hc : n.children = (pre ++ q :: post).map Part.ptr)
    (hch : ∀ q' ∈ pre ++ q :: post, Sub cfg t h false q'.ptr (Ptr.node a) q'.leaves q'.fp)
    (hnd : (a :: fpOf (pre ++ q :: post)).Nodup)
    (hjq : jq ≤ (items q.leaves).length)
    (hjlast : post ≠ [] → jq < (items q.leaves).length)
    (hpost : InsPost cfg t h false q.ptr (Ptr.node a) q.leaves q.fp v jq (L ++ leavesOf pre)
      (leavesOf post ++ R) prev0 t1 pos upq) :
    ∃ t' up, insert_ascend_ cfg (Ptr.node a) pre.length (t1, (pos, true), upq)
        = some (t', (pos, true), up) ∧
      InsPost cfg t (h + 1) isRoot (Ptr.node a) par (leavesOf (pre ++ q :: post))
        (a :: fpOf (pre ++ q :: post)) v ((items (leavesOf pre)).length + jq) L R prev0 t' pos
        up := by
  obtain ⟨hlen1, hpar1, hsize1, hleft1, hfr1, ls', fp', hitems, hidx, hnd', hfresh, hchain1, hhead1,
    hright1, hmatch⟩ := hpost
  have hal : a < t.mem.length := lt_mem_of_node? hn
  have haq : a ∉ q.fp := fun e => (List.nodup_cons.1 hnd).1 (by
    rw [fpOf_append, fpOf_cons]
    exact List.mem_append_right _ (List.mem_append_left _ e))
  have hndps := (List.nodup_cons.1 hnd).2
  have hafp' : a ∉ fp' := fun e => by
    rcases hfresh a e with h1 | h1
    · exact haq h1
    · omega
  have hn1 : t1.node? (Ptr.node a) = some (Node.inner n) := (hfr1 a hal haq).inner hn
  obtain ⟨t2, h2, ha2, hst2, hlen2⟩ := modInner_istep t1 a n
    (fun m => { m with size := m.size + 1 }) hn1
  -- the siblings of the child
  have hsib : ∀ q' ∈ pre ++ post, (∀ b ∈ q'.fp, b ∉ q.fp ∧ b ≠ a ∧ b < t.mem.length) ∧
      Sub cfg t1 h false q'.ptr (Ptr.node a) q'.leaves q'.fp := by
    intro q' hq'
    have hq'm : q' ∈ pre ++ q :: post := by
      rcases List.mem_append.1 hq' with h1 | h1
      · exact List.mem_append_left _ h1
      · exact List.mem_append_right _ (List.mem_cons_of_mem _ h1)
    have hdis : ∀ b ∈ q'.fp, b ∉ q.fp ∧ b ≠ a ∧ b < t.mem.length := by
      intro b hb
      refine ⟨fun e => ?_, fun e => ?_, Sub.fp_lt (hch q' hq'm) b hb⟩
      · rw [fpOf_append, fpOf_cons] at hndps
        obtain ⟨-, h2', h3'⟩ := List.nodup_append.1 hndps
        rcases List.mem_append.1 hq' with h1 | h1
        · exact h3' (mem_fpOf h1 hb) (List.mem_append_left _ e)
        · exact (List.nodup_append.1 h2').2.2 e (mem_fpOf h1 hb)
      · subst e
        exact (List.nodup_cons.1 hnd).1 (mem_fpOf hq'm hb)
    exact ⟨hdis, Sub.frame (hch q' hq'm) (fun b hb =>
      hfr1 b (hdis b hb).2.2 (hdis b hb).1)⟩
  have holdlt : ∀ b, b ∈ fpOf pre ∨ b ∈ fpOf post → b < t.mem.length := by
    intro b hb
    have : b ∈ fpOf (pre ++ post) := by rw [fpOf_append]; exact List.mem_append.2 hb
    simp only [fpOf, List.mem_flatten, List.mem_map] at this
    obtain ⟨l, ⟨q', hq', rfl⟩, hb'⟩ := this
    exact ((hsib q' hq').1 b hb').2.2
  have hndall : (fpOf pre ++ (fp' ++ fpOf post)).Nodup :=
    fpOf_replace_nodup pre post q fp' t.mem.length hndps hnd' hfresh holdlt
  have hanew : ∀ b, b ∈ fpOf pre ++ (fp' ++ fpOf post) → b ≠ a := by
    intro b hb e
    subst e
    rcases List.mem_append.1 hb with h1 | h1
    · have := (List.nodup_cons.1 hnd).1
      rw [fpOf_append] at this
      exact this (List.mem_append_left _ h1)
    · rcases List.mem_append.1 h1 with h1 | h1
      · exact hafp' h1
      · have := (List.nodup_cons.1 hnd).1
        rw [fpOf_append, fpOf_cons] at this
        exact this (List.mem_append_right _ (List.mem_append_right _ h1))
  have hfreshall : ∀ b, b ∈ fpOf pre ++ (fp' ++ fpOf post) →
      b ∈ a :: fpOf (pre ++ q :: post) ∨ t.mem.length ≤ b := by
    intro b hb
    rw [fpOf_append, fpOf_cons]
    rcases List.mem_append.1 hb with h1 | h1
    · left; exact List.mem_cons_of_mem _ (List.mem_append_left _ h1)
    · rcases List.mem_append.1 h1 with h1 | h1
      · rcases hfresh b h1 with h3 | h3
        · left
          exact List.mem_cons_of_mem _ (List.mem_append_right _ (List.mem_append_left _ h3))
        · right; exact h3
      · left
        exact List.mem_cons_of_mem _ (List.mem_append_right _ (List.mem_append_right _ h1))
  -- the facts that do not depend on what is handed up
  have hitems' : items (leavesOf pre ++ (ls' ++ leavesOf post))
      = (items (leavesOf (pre ++ q :: post))).take ((items (leavesOf pre)).length + jq)
        ++ v :: (items (leavesOf (pre ++ q :: post))).drop ((items (leavesOf pre)).length + jq) := by
    have e : items (leavesOf (pre ++ q :: post))
        = items (leavesOf pre) ++ (items q.leaves ++ items (leavesOf post)) := by simp
    rw [e, ins_middle _ _ _ _ _ hjq, items_append, items_append, hitems]
  have hposptr : ∃ b, pos.1 = Ptr.node b ∧ b ∈ fp' := by
    obtain ⟨l, hm, -⟩ := indexIn_get ls' pos jq hidx
    cases upq with
    | none => exact Sub.leaf_mem hmatch _ hm
    | some kq =>
      obtain ⟨k, q2p⟩ := kq
      obtain ⟨ls1, fp1, ls2, fp2, els, efp, hs1, hs2, -⟩ := hmatch
      rw [els] at hm
      rw [efp]
      rcases List.mem_append.1 hm with h1 | h1
      · obtain ⟨b, hb1, hb2⟩ := Sub.leaf_mem hs1 _ h1
        exact ⟨b, hb1, List.mem_append_left _ hb2⟩
      · obtain ⟨b, hb1, hb2⟩ := Sub.leaf_mem hs2 _ h1
        exact ⟨b, hb1, List.mem_append_right _ hb2⟩
  have hidx' : indexIn (leavesOf pre ++ (ls' ++ leavesOf post)) pos
      = some ((items (leavesOf pre)).length + jq) := by
    rw [indexIn_append_of_not_mem, indexIn_append_left _ _ _ _ hidx]
    · simp only [Option.map_some', Option.some.injEq]; omega
    · intro hmem
      obtain ⟨b, hb1, hb2⟩ := hposptr
      simp only [List.mem_map] at hmem
      obtain ⟨e, he, heq⟩ := hmem
      obtain ⟨a0, ha0, hap⟩ := leavesOf_mem pre
        (fun q' hq' => hch q' (List.mem_append_left _ hq')) e he
      rw [ha0, hb1] at heq
      simp only [Ptr.node.injEq] at heq
      subst heq
      exact (List.nodup_append.1 hndall).2.2 hap (List.mem_append_left _ hb2)
  have eassoc : ∀ X : Leaves α, L ++ leavesOf pre ++ X ++ (leavesOf post ++ R)
      = L ++ (leavesOf pre ++ (X ++ leavesOf post)) ++ R := by
    intro X; simp only [List.append_assoc]
  have eold : L ++ leavesOf pre ++ q.leaves ++ (leavesOf post ++ R)
      = L ++ leavesOf (pre ++ q :: post) ++ R := by
    rw [eassoc, leavesOf_append, leavesOf_cons]
  rw [eassoc] at hchain1 hhead1 hright1
  rw [eold] at hhead1
  have hgen : ∀ (t3 : Tree α) (S : List Nat), IStep t2 t3 S →
      (∀ b ∈ S, b < t.mem.length → b ∈ a :: fpOf (pre ++ q :: post)) →
      t.mem.length ≤ t3.mem.length ∧ t3.parent = t.parent ∧ t3.size = t.size ∧
      t3.left = t.left ∧
      (∀ b, b < t.mem.length → b ∉ a :: fpOf (pre ++ q :: post) → SameCore t t3 b) ∧
      ChainOk t3 prev0 (L ++ (leavesOf pre ++ (ls' ++ leavesOf post)) ++ R) ∧
      ((L ++ (leavesOf pre ++ (ls' ++ leavesOf post)) ++ R).getLast?).map Prod.fst
        = some t3.right := by
    intro t3 S hst hS
    have hst' := hst2.istep_trans hst
    refine ⟨le_trans hlen1 hst'.1.1, hst'.2.1.1.trans hpar1, hst'.2.1.2.1.trans hsize1,
      hst'.2.1.2.2.1.trans hleft1, ?_, ChainOk.chain_step hst'.2.2 _ _ hchain1, ?_⟩
    · intro b hb hbn
      have hbq : b ∉ q.fp := fun e => hbn (by
        rw [fpOf_append, fpOf_cons]
        exact List.mem_cons_of_mem _ (List.mem_append_right _ (List.mem_append_left _ e)))
      refine (hfr1 b hb hbq).trans ?_
      refine hst'.1.sameCore b (by omega) (fun e => ?_)
      rcases List.mem_append.1 e with e | e
      · simp only [List.mem_singleton] at e
        exact hbn (by rw [e]; simp)
      · exact hbn (hS b e hb)
    · rw [hright1, hst'.2.1.2.2.2]
  cases upq with
  | none =>
    -- nothing was handed up
    obtain ⟨g1, g2, g3, g4, g5, g6, g7⟩ := hgen t2 [] (IStep.istep_refl _ _)
      (fun b hb _ => by simp at hb)
    have hlastq : post ≠ [] → (items ls').getLast? = (items q.leaves).getLast? := by
      intro hp0
      rw [hitems, getLast?_insert _ _ _ (hjlast hp0)]
    refine ⟨t2, none, ?_, g1, g2, g3, g4, g5, leavesOf pre ++ (ls' ++ leavesOf post),
      a :: (fpOf pre ++ (fp' ++ fpOf post)), hitems', hidx', ?_, ?_, g6, hhead1, g7, ?_⟩
    · simp only [insert_ascend_, if_true, h2]
    · exact List.nodup_cons.2 ⟨fun e => hanew a e rfl, hndall⟩
    · intro b hb
      rcases List.mem_cons.1 hb with rfl | hb
      · left; simp
      · exact hfreshall b hb
    · have e1 : leavesOf pre ++ (ls' ++ leavesOf post)
          = leavesOf (pre ++ (⟨q.ptr, ls', fp'⟩ : Part α) :: post) := by
        rw [leavesOf_append, leavesOf_cons]
      have e2 : fpOf pre ++ (fp' ++ fpOf post)
          = fpOf (pre ++ (⟨q.ptr, ls', fp'⟩ : Part α) :: post) := by
        rw [fpOf_append, fpOf_cons]
      simp only []
      rw [e1, e2, ← hpar]
      refine Sub.mk_inner isRoot a { n with size := n.size + 1 } _ ha2 hlev ?_ ?_ ?_ (by simp) ?_
        hlo hhi
      · show n.size + 1 = _
        rw [← e1, hitems', hsz, ins_length _ _ _ (by
          simp only [leavesOf_append, leavesOf_cons, items_append, List.length_append]; omega)]
      · show n.children = _
        rw [hc]; simp
      · show n.item.map some = _
        rw [hkeys]
        exact (sep_replace pre post q ⟨q.ptr, ls', fp'⟩ (fun hp0 => by
          simp only [Part.last]; exact hlastq hp0)).symm
      · intro q' hq'
        rcases List.mem_append.1 hq' with h1 | h1
        · exact Sub.step (hsib q' (List.mem_append_left _ h1)).2 hst2.1 (fun b hb e => by
            simp only [List.mem_singleton] at e
            exact ((hsib q' (List.mem_append_left _ h1)).1 b hb).2.1 e)
        · rcases List.mem_cons.1 h1 with rfl | h1
          · exact Sub.step hmatch hst2.1 (fun b hb e => by
              simp only [List.mem_singleton] at e
              subst e
              exact hafp' hb)
          · exact Sub.step (hsib q' (List.mem_append_right _ h1)).2 hst2.1 (fun b hb e => by
              simp only [List.mem_singleton] at e
              exact ((hsib q' (List.mem_append_right _ h1)).1 b hb).2.1 e)
  | some kq =>
    obtain ⟨k, q2p⟩ := kq
    obtain ⟨ls1, fp1, ls2, fp2, els, efp, hs1, hs2, hk⟩ := hmatch
    subst els efp
    have hcount : n.item.length = pre.length + post.length := by
      have := congrArg List.length hkeys
      simp only [List.length_map, List.length_dropLast, List.length_append,
        List.length_cons] at this
      omega
    have etk : (pre ++ (⟨q.ptr, ls1, fp1⟩ : Part α) :: post).take (pre.length + 1)
        ++ (⟨q2p, ls2, fp2⟩ : Part α)
          :: (pre ++ (⟨q.ptr, ls1, fp1⟩ : Part α) :: post).drop (pre.length + 1)
        = pre ++ (⟨q.ptr, ls1, fp1⟩ : Part α) :: (⟨q2p, ls2, fp2⟩ : Part α) :: post := by
      rw [take_succ_length_append, drop_succ_length_append]; simp
    have els : leavesOf (pre ++ (⟨q.ptr, ls1, fp1⟩ : Part α) :: (⟨q2p, ls2, fp2⟩ : Part α) :: post)
        = leavesOf pre ++ (ls1 ++ ls2 ++ leavesOf post) := by
      rw [leavesOf_append, leavesOf_cons, leavesOf_cons]; simp
    have efp : fpOf (pre ++ (⟨q.ptr, ls1, fp1⟩ : Part α) :: (⟨q2p, ls2, fp2⟩ : Part α) :: post)
        = fpOf pre ++ (fp1 ++ fp2 ++ fpOf post) := by
      rw [fpOf_append, fpOf_cons, fpOf_cons]; simp
    have hlast2 : post ≠ [] → (items ls2).getLast? = (items q.leaves).getLast? := by
      intro hp0
      rw [← getLast?_insert _ _ v (hjlast hp0), ← hitems, items_append,
        List.getLast?_append_of_ne_nil _ (Sub.items_ne_nil hcapL hs2)]
    have hsep := sep_ins pre post q ⟨q.ptr, ls1, fp1⟩ ⟨q2p, ls2, fp2⟩ n.item k hkeys hk hlast2
    have hsz2 : n.size + 1 = (items (leavesOf
        (pre ++ (⟨q.ptr, ls1, fp1⟩ : Part α) :: (⟨q2p, ls2, fp2⟩ : Part α) :: post))).length := by
      rw [els, hitems', hsz, ins_length _ _ _ (by
        simp only [leavesOf_append, leavesOf_cons, items_append, List.length_append]; omega)]
    have hch2 : ∀ q' ∈ pre ++ (⟨q.ptr, ls1, fp1⟩ : Part α) :: post,
        Sub cfg t2 h false q'.ptr (Ptr.node a) q'.leaves q'.fp := by
      intro q' hq'
      rcases List.mem_append.1 hq' with h1 | h1
      · exact Sub.step (hsib q' (List.mem_append_left _ h1)).2 hst2.1 (fun b hb e => by
          simp only [List.mem_singleton] at e
          exact ((hsib q' (List.mem_append_left _ h1)).1 b hb).2.1 e)
      · rcases List.mem_cons.1 h1 with rfl | h1
        · exact Sub.step hs1 hst2.1 (fun b hb e => by
            simp only [List.mem_singleton] at e
            subst e
            exact hafp' (List.mem_append_left _ hb))
        · exact Sub.step (hsib q' (List.mem_append_right _ h1)).2 hst2.1 (fun b hb e => by
            simp only [List.mem_singleton] at e
            exact ((hsib q' (List.mem_append_right _ h1)).1 b hb).2.1 e)
    have hq22 : Sub cfg t2 h false q2p Ptr.null ls2 fp2 :=
      Sub.step hs2 hst2.1 (fun b hb e => by
        simp only [List.mem_singleton] at e
        subst e
        exact hafp' (List.mem_append_right _ hb))
    have hnd2 : (a :: fpOf
        (pre ++ (⟨q.ptr, ls1, fp1⟩ : Part α) :: (⟨q2p, ls2, fp2⟩ : Part α) :: post)).Nodup := by
      rw [efp]
      exact List.nodup_cons.2 ⟨fun e => hanew a e rfl, hndall⟩
    have hS : ∀ b ∈ a :: fpOf
        (pre ++ (⟨q.ptr, ls1, fp1⟩ : Part α) :: (⟨q2p, ls2, fp2⟩ : Part α) :: post),
        b < t.mem.length → b ∈ a :: fpOf (pre ++ q :: post) := by
      intro b hb hbl
      rcases List.mem_cons.1 hb with rfl | hb
      · simp
      · rw [efp] at hb
        rcases hfreshall b hb with h1 | h1
        · exact h1
        · omega
    by_cases hfull : n.item.length = cfg.maxInner
    · obtain ⟨t3, k', m, h3, hst3, hlen3, hsL, hsR, hk', -⟩ := place_child_split t2 a
        { n with size := n.size + 1 } pre.length k (pre ++ (⟨q.ptr, ls1, fp1⟩ : Part α) :: post)
        ⟨q2p, ls2, fp2⟩ hcapL hcapI ha2 hlev (by rw [hc]; simp) (by simp; omega) (by simp)
        (by rw [etk]; exact hsep) (by rw [etk]; exact hsz2) hch2 hq22 (by rw [etk]; exact hnd2)
        hfull
      rw [etk] at hst3 hsL hsR hk'
      obtain ⟨g1, g2, g3, g4, g5, g6, g7⟩ := hgen t3 _ hst3 hS
      have hsplit := List.take_append_drop (m + 1)
        (pre ++ (⟨q.ptr, ls1, fp1⟩ : Part α) :: (⟨q2p, ls2, fp2⟩ : Part α) :: post)
      have hlt2 : ∀ b ∈ fpOf pre ++ (fp1 ++ fp2 ++ fpOf post), b < t2.mem.length := by
        intro b hb
        rw [hlen2]
        rcases List.mem_append.1 hb with h1 | h1
        · have := holdlt b (Or.inl h1); omega
        · rcases List.mem_append.1 h1 with h1 | h1
          · rcases List.mem_append.1 h1 with h1 | h1
            · exact Sub.fp_lt hs1 b h1
            · exact Sub.fp_lt hs2 b h1
          · have := holdlt b (Or.inr h1); omega
      have hfps : fpOf ((pre ++ (⟨q.ptr, ls1, fp1⟩ : Part α) :: (⟨q2p, ls2, fp2⟩ : Part α)
            :: post).take (m + 1))
          ++ fpOf ((pre ++ (⟨q.ptr, ls1, fp1⟩ : Part α) :: (⟨q2p, ls2, fp2⟩ : Part α)
            :: post).drop (m + 1)) = fpOf pre ++ (fp1 ++ fp2 ++ fpOf post) := by
        rw [← fpOf_append, hsplit, efp]
      have hal2 : a < t2.mem.length := by rw [hlen2]; omega
      refine ⟨t3, some (k', Ptr.node t2.mem.length), ?_, g1, g2, g3, g4, g5,
        leavesOf pre ++ (ls1 ++ ls2 ++ leavesOf post),
        (a :: fpOf ((pre ++ (⟨q.ptr, ls1, fp1⟩ : Part α) :: (⟨q2p, ls2, fp2⟩ : Part α)
            :: post).take (m + 1)))
          ++ (t2.mem.length :: fpOf ((pre ++ (⟨q.ptr, ls1, fp1⟩ : Part α)
            :: (⟨q2p, ls2, fp2⟩ : Part α) :: post).drop (m + 1))),
        hitems', hidx', ?_, ?_, g6, hhead1, g7, ?_⟩
      · simp only [insert_ascend_, if_true, h2, h3]
      · rw [List.cons_append, List.nodup_cons]
        refine ⟨fun e => ?_, List.nodup_middle.2 (List.nodup_cons.2 ⟨fun e => ?_, ?_⟩)⟩
        · rcases List.mem_append.1 e with e | e
          · exact hanew a (hfps ▸ List.mem_append_left _ e) rfl
          · rcases List.mem_cons.1 e with e | e
            · omega
            · exact hanew a (hfps ▸ List.mem_append_right _ e) rfl
        · rw [hfps] at e
          exact absurd (hlt2 _ e) (lt_irrefl _)
        · rw [hfps]; exact hndall
      · intro b hb
        rw [List.cons_append] at hb
        rcases List.mem_cons.1 hb with rfl | hb
        · left; simp
        · rcases List.mem_append.1 hb with e | e
          · exact hfreshall b (hfps ▸ List.mem_append_left _ e)
          · rcases List.mem_cons.1 e with e | e
            · right; rw [e, hlen2]; exact hlen1
            · exact hfreshall b (hfps ▸ List.mem_append_right _ e)
      · refine ⟨_, _, _, _, ?_, rfl, hpar ▸ hsL, hsR, hk'⟩
        rw [← leavesOf_append, hsplit, els]
    · obtain ⟨t3, h3, hst3, hlen3, hsub3⟩ := place_child_room isRoot t2 a
        { n with size := n.size + 1 } pre.length k (pre ++ (⟨q.ptr, ls1, fp1⟩ : Part α) :: post)
        ⟨q2p, ls2, fp2⟩ ha2 hlev (by rw [hc]; simp) (by simp; omega) (by simp)
        (by rw [etk]; exact hsep) (by rw [etk]; exact hsz2) hch2 hq22 (by rw [etk]; exact hnd2)
        hlo hhi hfull
      rw [etk] at hst3 hsub3
      obtain ⟨g1, g2, g3, g4, g5, g6, g7⟩ := hgen t3 _ hst3 hS
      refine ⟨t3, none, ?_, g1, g2, g3, g4, g5, leavesOf pre ++ (ls1 ++ ls2 ++ leavesOf post),
        a :: (fpOf pre ++ (fp1 ++ fp2 ++ fpOf post)), hitems', hidx', ?_, ?_, g6, hhead1, g7, ?_⟩
      · simp only [insert_ascend_, if_true, h2, h3]
      · exact List.nodup_cons.2 ⟨fun e => hanew a e rfl, hndall⟩
      · intro b hb
        rcases List.mem_cons.1 hb with rfl | hb
        · left; simp
        · exact hfreshall b hb
      · simp only []
        rw [← els, ← efp, ← hpar]
        exact hsub3

end Ascend

section Descend
variable {α : Type} [LinearOrder α]

/-- What the descent of the insert owes for a subtree: in multi mode it
succeeds; a success is the insertion at the slot of the key; a refusal leaves
the state alone. -/
def DescOK (cfg : Config) (t : Tree α) (h : Nat) (isRoot : Bool) (p par : Ptr) (ls : Leaves α)
    (fp : List Nat) (v : α) (j : Nat) (L R : Leaves α) (prev0 : Ptr)
    (o : Option (Tree α × (Pos × Bool) × Option (α × Ptr))) : Prop :=
  (cfg.unique = false → ∃ t' pos up, o = some (t', (pos, true), up)) ∧
  (∀ t' pos up, o = some (t', (pos, true), up) →
    InsPost cfg t h isRoot p par ls fp v j L R prev0 t' pos up) ∧
  (∀ t' pos up, o = some (t', (pos, false), up) → t' = t ∧ up = none)

/-- The descent of the insert through a subtree of any height. -/
theorem insert_descend_spec (cfg : Config) (lt : Bool) (v : α) (hcapL : 2 ≤ cfg.maxLeaf)
    (hcapI : 2 ≤ cfg.maxInner) :
    ∀ (h fuel : Nat) (t : Tree α) (isRoot : Bool) (p par : Ptr) (ls : Leaves α) (fp : List Nat)
      (L R : Leaves α) (prev0 : Ptr), h < fuel → Sub cfg t h isRoot p par ls fp → fp.Nodup →
      (items ls).Pairwise (· ≤ ·) → ChainOk t prev0 (L ++ ls ++ R) →
      ((L ++ ls ++ R).map Prod.fst).Nodup →
      ((L ++ ls ++ R).getLast?).map Prod.fst = some t.right →
      DescOK cfg t h isRoot p par ls fp v (bound_node lt (items ls) v) L R prev0
        (insert_one_descend_ cfg lt v fuel t p) := by
  intro h
  induction h with
  | zero =>
    intro fuel t isRoot p par ls fp L R prev0 hfuel hs hnd hsort hchain hndl hright
    obtain ⟨fuel, rfl⟩ : ∃ f, fuel = f + 1 := ⟨fuel - 1, by omega⟩
    obtain ⟨a, l, hp, hn, hpar, hls, hfp, hlo, hhi⟩ := Sub.zero_iff.1 hs
    have hit : items ls = l.item := by rw [hls]; simp
    rw [hit]
    obtain ⟨t1, pos1, up1, h1, hpost1⟩ := insert_leaf_post cfg t isRoot p par ls fp v
      (bound_node lt l.item v) L R prev0 hcapL hs (by rw [hit]; exact bound_node_le lt _ v)
      hchain hndl hright
    subst hp
    obtain ⟨hmulti, hgood⟩ := insert_descend_leaf cfg lt v fuel t a l hn
    refine ⟨fun hu => ⟨t1, pos1, up1, ?_⟩, fun t' pos up ho => ?_, fun t' pos up ho => ?_⟩
    · rw [hmulti hu, h1]; rfl
    · have := hgood.1 t' pos up ho
      rw [h1] at this
      simp only [Option.some.injEq, Prod.mk.injEq] at this
      obtain ⟨e1, e2, e3⟩ := this
      subst e1 e2 e3
      exact hpost1
    · exact hgood.2 t' pos up ho
  | succ h ih =>
    intro fuel t isRoot p par ls fp L R prev0 hfuel hs hnd hsort hchain hndl hright
    obtain ⟨fuel, rfl⟩ : ∃ f, fuel = f + 1 := ⟨fuel - 1, by omega⟩
    obtain ⟨a, n, ps, hp, hn, hpar, hlev, hsz, hc, hkeys, hne, hch, hls, hfp, hlo, hhi⟩ :=
      Sub.succ_iff.1 hs
    subst hp hls hfp
    obtain ⟨pre, q, post, hps, hplen, hbound, hlast⟩ :=
      key_bound_split lt ps n.item v hkeys hne hsort
    subst hps
    have hcq : n.children[bound_node lt n.item v]? = some q.ptr := by
      rw [hc, ← hplen, List.map_append, List.map_cons,
        List.getElem?_append_right (by simp)]
      simp
    rw [insert_descend_inner cfg lt v fuel t a n q.ptr hn (by omega) hcq, hbound, ← hplen]
    have hqm : q ∈ pre ++ q :: post := by simp
    have eassoc : L ++ leavesOf pre ++ q.leaves ++ (leavesOf post ++ R)
        = L ++ leavesOf (pre ++ q :: post) ++ R := by
      rw [leavesOf_append, leavesOf_cons]; simp only [List.append_assoc]
    have hndq : q.fp.Nodup := by
      have := (List.nodup_cons.1 hnd).2
      rw [fpOf_append, fpOf_cons] at this
      exact (List.nodup_append.1 (List.nodup_append.1 this).2.1).1
    have hsortq : (items q.leaves).Pairwise (· ≤ ·) := by
      have e : items (leavesOf (pre ++ q :: post))
          = items (leavesOf pre) ++ (items q.leaves ++ items (leavesOf post)) := by simp
      rw [e] at hsort
      exact (List.pairwise_append.1 (List.pairwise_append.1 hsort).2.1).1
    have hchild := ih fuel t false q.ptr (Ptr.node a) q.leaves q.fp (L ++ leavesOf pre)
      (leavesOf post ++ R) prev0 (by omega) (hch q hqm) hndq hsortq (by rw [eassoc]; exact hchain)
      (by rw [eassoc]; exact hndl) (by rw [eassoc]; exact hright)
    have hasc : ∀ t1 pos upq, insert_one_descend_ cfg lt v fuel t q.ptr
          = some (t1, (pos, true), upq) →
        ∃ t' up, insert_ascend_ cfg (Ptr.node a) pre.length (t1, (pos, true), upq)
            = some (t', (pos, true), up) ∧
          InsPost cfg t (h + 1) isRoot (Ptr.node a) par (leavesOf (pre ++ q :: post))
            (a :: fpOf (pre ++ q :: post)) v
            ((items (leavesOf pre)).length + bound_node lt (items q.leaves) v) L R prev0 t' pos
            up := fun t1 pos upq ho =>
      insert_ascend_spec cfg t t1 h isRoot a par n pre post q v _ L R prev0 pos upq hcapL hcapI
        hn hpar hlev hsz hkeys hlo hhi hc hch hnd (bound_node_le lt _ v) hlast
        (hchild.2.1 t1 pos upq ho)
    refine ⟨fun hu => ?_, fun t' pos up ho => ?_, fun t' pos up ho => ?_⟩
    · obtain ⟨t1, pos, upq, ho⟩ := hchild.1 hu
      obtain ⟨t', up, h1, -⟩ := hasc t1 pos upq ho
      exact ⟨t', pos, up, by rw [ho]; exact h1⟩
    · cases hr : insert_one_descend_ cfg lt v fuel t q.ptr with
      | none => rw [hr] at ho; simp at ho
      | some r =>
        obtain ⟨t1, ⟨pos1, fl⟩, upq⟩ := r
        rw [hr] at ho
        cases fl with
        | false =>
          obtain ⟨e1, e2⟩ := hchild.2.2 t1 pos1 upq hr
          subst e1 e2
          simp [insert_ascend_] at ho
        | true =>
          obtain ⟨t'', up'', h1, hpost⟩ := hasc t1 pos1 upq hr
          simp only [Option.some_bind] at ho
          rw [h1] at ho
          simp only [Option.some.injEq, Prod.mk.injEq, and_true] at ho
          obtain ⟨e1, e2, e3⟩ := ho
          subst e1 e2 e3
          exact hpost
    · cases hr : insert_one_descend_ cfg lt v fuel t q.ptr with
      | none => rw [hr] at ho; simp at ho
      | some r =>
        obtain ⟨t1, ⟨pos1, fl⟩, upq⟩ := r
        rw [hr] at ho
        cases fl with
        | false =>
          obtain ⟨e1, e2⟩ := hchild.2.2 t1 pos1 upq hr
          subst e1 e2
          simp only [Option.some_bind, insert_ascend_, Bool.false_eq_true, if_false,
            Option.some.injEq, Prod.mk.injEq] at ho
          exact ⟨ho.1.symm, ho.2.2.symm⟩
        | true =>
          obtain ⟨t'', up'', h1, -⟩ := hasc t1 pos1 upq hr
          simp only [Option.some_bind] at ho
          rw [h1] at ho
          simp at ho

end Descend

end BPP

/-! ## The hintless insert on a well-formed container -/

namespace BPP

section InsertTop
variable {α : Type} [LinearOrder α]

theorem Sub.level? {cfg : Config} {t : Tree α} {h : Nat} {isRoot : Bool} {p par : Ptr}
    {ls : Leaves α} {fp : List Nat} (hs : Sub cfg t h isRoot p par ls fp) :
    t.level? p = some h := by
  cases h with
  | zero =>
    obtain ⟨a, l, hp, hn, -⟩ := Sub.zero_iff.1 hs
    subst hp; exact level?_leaf hn
  | succ h =>
    obtain ⟨a, n, ps, hp, hn, -, hlev, -⟩ := Sub.succ_iff.1 hs
    subst hp; rw [level?_inner hn, hlev]

/-- A subtree of height `h` holds more than `h` elements. -/
theorem Sub.height_lt_items {cfg : Config} {t : Tree α} (hcapL : 2 ≤ cfg.maxLeaf)
    (hcapI : 2 ≤ cfg.maxInner) :
    ∀ {h : Nat} {isRoot : Bool} {p par : Ptr} {ls : Leaves α} {fp : List Nat},
      Sub cfg t h isRoot p par ls fp → h + 1 ≤ (items ls).length := by
  intro h
  induction h with
  | zero =>
    intro isRoot p par ls fp hs
    have := Sub.items_ne_nil hcapL hs
    have := List.length_pos.2 this
    omega
  | succ h ih =>
    intro isRoot p par ls fp hs
    obtain ⟨a, n, ps, hp, hn, hpar, hlev, hsz, hc, hkeys, hne, hch, hls, hfp, hlo, hhi⟩ :=
      Sub.succ_iff.1 hs
    have hcount : ps.length = n.item.length + 1 := by
      have := congrArg List.length hkeys
      simp only [List.length_map, List.length_dropLast] at this
      have := List.length_pos.2 hne
      omega
    have h1 : 1 ≤ n.item.length := by
      cases isRoot
      · simp only [Bool.false_eq_true, if_false] at hlo
        have : 1 ≤ cfg.maxInner / 2 := by omega
        omega
      · simpa using hlo
    subst hls
    match ps, hcount, hch with
    | [], hcount, _ => simp at hcount
    | [_], hcount, _ => rw [List.length_singleton] at hcount; omega
    | q1 :: q2 :: rest, _, hch =>
      have e1 := ih (hch q1 (by simp))
      have e2 := List.length_pos.2 (Sub.items_ne_nil hcapL (hch q2 (by simp)))
      simp only [leavesOf_cons, items_append, List.length_append]
      omega

/-- Root grow over the two halves of the old real root. -/
theorem grow_root_spec {cfg : Config} {h : Nat} (t : Tree α) (p q par : Ptr)
    (ls1 ls2 : Leaves α) (fp1 fp2 : List Nat) (k : α) (hcapI : 2 ≤ cfg.maxInner)
    (hp : t.parent = p) (hs1 : Sub cfg t h false p par ls1 fp1)
    (hs2 : Sub cfg t h false q Ptr.null ls2 fp2) (hnd : (fp1 ++ fp2).Nodup)
    (hk : (items ls1).getLast? = some k) :
    ∃ t', grow_root_ t k q = some t' ∧ t'.parent = Ptr.node t.mem.length ∧ t'.size = t.size ∧
      t'.left = t.left ∧ t'.right = t.right ∧ (∀ x, SameLinks t t' x) ∧
      t'.mem.length = t.mem.length + 1 ∧
      Sub cfg t' (h + 1) true (Ptr.node t.mem.length) Ptr.root (ls1 ++ ls2)
        (t.mem.length :: (fp1 ++ fp2)) := by
  obtain ⟨hnd1, hnd2, hdis⟩ := List.nodup_append.1 hnd
  obtain ⟨t1, h1, hN1, hst1, hlen1⟩ := alloc_inner_istep t Ptr.root
  have hs11 : Sub cfg t1 h false p par ls1 fp1 := Sub.step hs1 hst1.1 (by simp)
  have hs21 : Sub cfg t1 h false q Ptr.null ls2 fp2 := Sub.step hs2 hst1.1 (by simp)
  have hlev1 := Sub.level? hs11
  obtain ⟨t2, h2, hN2, hst2, hlen2⟩ := modInner_istep t1 t.mem.length _
    (fun m => { m with level := h + 1, item := [k], children := [p, q] }) hN1
  have hN1lt : ∀ b ∈ fp1, b ≠ t.mem.length := fun b hb e => by
    have := Sub.fp_lt hs1 b hb; omega
  have hN2lt : ∀ b ∈ fp2, b ≠ t.mem.length := fun b hb e => by
    have := Sub.fp_lt hs2 b hb; omega
  have hs12 : Sub cfg t2 h false p par ls1 fp1 := Sub.step hs11 hst2.1 (fun b hb e => by
    simp only [List.mem_singleton] at e; exact hN1lt b hb e)
  have hs22 : Sub cfg t2 h false q Ptr.null ls2 fp2 := Sub.step hs21 hst2.1 (fun b hb e => by
    simp only [List.mem_singleton] at e; exact hN2lt b hb e)
  obtain ⟨t3, h3, hs13, hst3, hlen3⟩ := setParent_sub (Ptr.node t.mem.length) hs12 hnd1
  have hs23 : Sub cfg t3 h false q Ptr.null ls2 fp2 := Sub.step hs22 hst3.1 (fun b hb e =>
    hdis e hb)
  obtain ⟨t4, h4, hs24, hst4, hlen4⟩ := setParent_sub (Ptr.node t.mem.length) hs23 hnd2
  have hs14 : Sub cfg t4 h false p (Ptr.node t.mem.length) ls1 fp1 :=
    Sub.step hs13 hst4.1 (fun b hb e => hdis hb e)
  have hN4 : t4.node? (Ptr.node t.mem.length) = some (Node.inner
      { parent := Ptr.root, size := 0, level := h + 1, children := [p, q], item := [k] }) := by
    rw [hst4.1.2 _ (by omega) (fun e => hN2lt _ e rfl),
      hst3.1.2 _ (by omega) (fun e => hN1lt _ e rfl), hN2]
  obtain ⟨t5, h5, hN5, hst5, hlen5⟩ := modInner_istep t4 t.mem.length _
    (fun m => { m with size := (items ls1).length + ((items ls2).length + 0) }) hN4
  have hst : IStep t t5 _ :=
    (((hst1.istep_trans hst2).istep_trans hst3).istep_trans hst4).istep_trans hst5
  refine ⟨{ t5 with parent := Ptr.node t.mem.length }, ?_, rfl, hst.2.1.2.1, hst.2.1.2.2.1,
    hst.2.1.2.2.2, hst.2.2, by simp only []; omega, ?_⟩
  · have hpar1 : t1.parent = p := by rw [hst1.2.1.1, hp]
    have hpar2 : t2.parent = p := by rw [hst2.2.1.1, hpar1]
    simp only [ grow_root_, h1, hpar1, hlev1, h2, hpar2, update_parent_, Sub.size? hs12, h3,
      Sub.size? hs23, h4, h5, Option.pure_def, Option.bind_eq_bind, Option.some_bind]
  · have hsub := Sub.mk_inner true t.mem.length _ [⟨p, ls1, fp1⟩, ⟨q, ls2, fp2⟩] hN5 rfl
      (by simp) (by simp) (by simp [Part.last, hk]) (by simp) (fun q' hq' => by
        simp only [List.mem_cons, List.mem_singleton, List.not_mem_nil, or_false] at hq'
        rcases hq' with rfl | rfl
        · exact Sub.step hs14 hst5.1 (fun b hb e => by
            simp only [List.mem_singleton] at e; exact hN1lt b hb e)
        · exact Sub.step hs24 hst5.1 (fun b hb e => by
            simp only [List.mem_singleton] at e; exact hN2lt b hb e))
      (by simp) (by simp; omega)
    have e1 : leavesOf [(⟨p, ls1, fp1⟩ : Part α), ⟨q, ls2, fp2⟩] = ls1 ++ ls2 := by simp
    have e2 : fpOf [(⟨p, ls1, fp1⟩ : Part α), ⟨q, ls2, fp2⟩] = fp1 ++ fp2 := by simp
    rw [e1, e2] at hsub
    exact Sub.frame hsub (fun b _ => rfl)

/-- The structural invariants I2–I7 of a non-empty container whose in-order
sequence is `xs`. -/
def Shaped (cfg : Config) (t : Tree α) (xs : List α) : Prop :=
  ∃ h ls fp, Sub cfg t h true t.parent Ptr.root ls fp ∧ fp.Nodup ∧ items ls = xs ∧
    t.size = xs.length ∧ ChainOk t Ptr.root ls ∧ (ls.head?).map Prod.fst = some t.left ∧
    (ls.getLast?).map Prod.fst = some t.right

theorem WF.shaped {cfg : Config} {t : Tree α} (hwf : WF cfg t) (hne : t.parent ≠ Ptr.root) :
    ∃ xs, Shaped cfg t xs ∧ Ordered cfg xs := by
  obtain ⟨hcapL, hcapI, hem | ⟨h, ls, fp, hs, hnd, hh, hsz, hord, hchain, hhead, hlast⟩⟩ := hwf
  · exact absurd hem.1 hne
  · exact ⟨items ls, ⟨h, ls, fp, hs, hnd, rfl, hsz, hchain, hhead, hlast⟩, hord⟩

theorem Shaped.wf {cfg : Config} {t : Tree α} {xs : List α} (hcapL : 2 ≤ cfg.maxLeaf)
    (hcapI : 2 ≤ cfg.maxInner) (hsh : Shaped cfg t xs) (hord : Ordered cfg xs)
    (hlen : xs.length < SIZE_MAX) : WF cfg t := by
  obtain ⟨h, ls, fp, hs, hnd, hit, hsz, hchain, hhead, hlast⟩ := hsh
  subst hit
  have := Sub.height_lt_items hcapL hcapI hs
  exact ⟨hcapL, hcapI, Or.inr ⟨h, ls, fp, hs, hnd, by omega, hsz, hord, hchain, hhead, hlast⟩⟩

theorem Shaped.toList_eq {cfg : Config} {t : Tree α} {xs : List α} (hsh : Shaped cfg t xs) :
    toList t = some xs := by
  obtain ⟨h, ls, fp, hs, hnd, hit, -⟩ := hsh
  simp [toList, leafList_of_sub hs hnd, hit]

theorem Shaped.ne_root {cfg : Config} {t : Tree α} {xs : List α} (hsh : Shaped cfg t xs) :
    t.parent ≠ Ptr.root := by
  obtain ⟨h, ls, fp, hs, -⟩ := hsh
  obtain ⟨a, tl, hp, -⟩ := Sub.ptr hs
  rw [hp]; simp

theorem Shaped.indexOf {cfg : Config} {t : Tree α} {h : Nat} {ls : Leaves α}
    {fp : List Nat} (hs : Sub cfg t h true t.parent Ptr.root ls fp) (hnd : fp.Nodup) (pos : Pos)
    (j : Nat) (hidx : indexIn ls pos = some j) : BPP.indexOf t pos = some j := by
  obtain ⟨l, hm, -⟩ := indexIn_get ls pos j hidx
  obtain ⟨b, hb, -⟩ := Sub.leaf_mem hs _ hm
  have hne : pos ≠ (Ptr.root, 0) := fun e => by rw [e] at hb; simp at hb
  simp [BPP.indexOf, hne, leafList_of_sub hs hnd, hidx]

/-- The first element gets a fresh leaf as the real root. -/
theorem insert_first_spec (cfg : Config) (t : Tree α) (v : α) (hcapL : 2 ≤ cfg.maxLeaf) :
    ∃ t', insert_first_ t v = some (t', ((Ptr.node t.mem.length, 0), true)) ∧
      Shaped cfg t' [v] ∧ BPP.indexOf t' (Ptr.node t.mem.length, 0) = some 0 := by
  obtain ⟨t2, h2, hn2, -, -, hlen2⟩ := modLeaf_step (t.push (Node.leaf ⟨Ptr.root, Ptr.null,
    Ptr.null, []⟩)) t.mem.length _ (fun l => { l with item := [v] }) (node?_push_new _ _)
  have hn3 : (Tree.mk (Ptr.node t.mem.length) t2.size (Ptr.node t.mem.length)
      (Ptr.node t.mem.length) t2.mem).node? (Ptr.node t.mem.length)
      = some (Node.leaf ⟨Ptr.root, Ptr.null, Ptr.null, [v]⟩) := hn2
  obtain ⟨t4, h4, hn4, -, han4, hlen4⟩ := modLeaf_step _ t.mem.length _
    (fun l => { l with next := Ptr.root, prev := Ptr.root }) hn3
  obtain ⟨p4, s4, l4, r4, m4⟩ := t4
  obtain ⟨e1, -, e3, e4⟩ := han4
  simp only at e1 e3 e4
  subst e1 e3 e4
  have hn5 : (Tree.mk (Ptr.node t.mem.length) 1 (Ptr.node t.mem.length) (Ptr.node t.mem.length)
      m4).node? (Ptr.node t.mem.length)
      = some (Node.leaf ⟨Ptr.root, Ptr.root, Ptr.root, [v]⟩) := hn4
  have hs : Sub cfg (Tree.mk (Ptr.node t.mem.length) 1 (Ptr.node t.mem.length)
      (Ptr.node t.mem.length) m4) 0 true
      (Ptr.node t.mem.length) Ptr.root [(Ptr.node t.mem.length, [v])] [t.mem.length] :=
    Sub.zero_iff.2 ⟨_, _, rfl, hn5, rfl, rfl, rfl, by simp, by simp; omega⟩
  have hch : ChainOk (Tree.mk (Ptr.node t.mem.length) 1 (Ptr.node t.mem.length)
      (Ptr.node t.mem.length) m4) Ptr.root [(Ptr.node t.mem.length, [v])] :=
    ⟨_, leaf?_of_node? hn5, rfl, rfl, trivial⟩
  refine ⟨_, ?_, ⟨0, _, _, hs, by simp, by simp [items], rfl, hch, rfl, rfl⟩, ?_⟩
  · simp only [insert_first_, alloc_leaf_eq, h2, h4, Option.pure_def, Option.bind_eq_bind,
      Option.some_bind]
  · exact Shaped.indexOf hs (by simp) _ 0 (by simp [indexIn])

theorem sorted_ins_upper (xs : List α) (v : α) (hs : xs.Pairwise (· ≤ ·)) :
    (xs.take (upper_bound_node xs v) ++ v :: xs.drop (upper_bound_node xs v)).Pairwise (· ≤ ·)
      ∧ (∀ x ∈ xs.take (upper_bound_node xs v), ¬ v < x)
      ∧ (∀ x ∈ xs.drop (upper_bound_node xs v), v < x) := by
  induction xs with
  | nil => simp [upper_bound_node]
  | cons x xs ih =>
    obtain ⟨hx, hs'⟩ := List.pairwise_cons.1 hs
    obtain ⟨i1, i2, i3⟩ := ih hs'
    by_cases hv : v < x
    · rw [upper_bound_node, if_neg (not_not.2 hv)]
      simp only [List.take_zero, List.nil_append, List.drop_zero, List.not_mem_nil,
        false_implies, implies_true, true_and]
      refine ⟨List.pairwise_cons.2 ⟨fun y hy => ?_, hs⟩, fun y hy => ?_⟩
      · rcases List.mem_cons.1 hy with rfl | hy
        · exact le_of_lt hv
        · exact le_trans (le_of_lt hv) (hx y hy)
      · rcases List.mem_cons.1 hy with rfl | hy
        · exact hv
        · exact lt_of_lt_of_le hv (hx y hy)
    · rw [upper_bound_node, if_pos hv]
      simp only [List.take_succ_cons, List.cons_append, List.drop_succ_cons]
      refine ⟨List.pairwise_cons.2 ⟨fun y hy => ?_, i1⟩, fun y hy => ?_, i3⟩
      · rcases List.mem_append.1 hy with hy | hy
        · exact hx y (List.mem_of_mem_take hy)
        · rcases List.mem_cons.1 hy with rfl | hy
          · exact not_lt.1 hv
          · exact hx y (List.mem_of_mem_drop hy)
      · rcases List.mem_cons.1 hy with rfl | hy
        · exact hv
        · exact i2 y hy

/-- The end of `insert_nohint_` after a successful descent: count the
element and grow the root when the real root was split. -/
theorem insert_finish_spec (cfg : Config) (t t1 : Tree α) (v : α) (xs : List α) (j : Nat)
    (h : Nat) (ls : Leaves α) (fp : List Nat) (pos : Pos) (up : Option (α × Ptr))
    (hcapI : 2 ≤ cfg.maxInner) (hit : items ls = xs) (hsz : t.size = xs.length)
    (hj : j ≤ xs.length) (hhead : (ls.head?).map Prod.fst = some t.left)
    (hpost : InsPost cfg t h true t.parent Ptr.root ls fp v j [] [] Ptr.root t1 pos up) :
    ∃ t', (match up with
        | none => some ((Tree.mk t1.parent (t1.size + 1) t1.left t1.right t1.mem), (pos, true))
        | some (key_out, new_child) =>
          match grow_root_ (Tree.mk t1.parent (t1.size + 1) t1.left t1.right t1.mem) key_out
            new_child with
          | none => none
          | some t2 => some (t2, (pos, true))) = some (t', (pos, true)) ∧
      Shaped cfg t' (xs.take j ++ v :: xs.drop j) ∧ BPP.indexOf t' pos = some j := by
  obtain ⟨hlen1, hpar1, hsize1, hleft1, hfr1, ls', fp', hitems, hidx, hnd', hfresh, hchain1, hhead1,
    hright1, hmatch⟩ := hpost
  simp only [List.nil_append, List.append_nil] at hchain1 hhead1 hright1
  subst hit
  have hsz' : t1.size + 1 = ((items ls).take j ++ v :: (items ls).drop j).length := by
    rw [ins_length _ _ _ hj]; omega
  have hlinks : ∀ x, SameLinks t1
      (Tree.mk t1.parent (t1.size + 1) t1.left t1.right t1.mem) x := fun _ => rfl
  cases up with
  | none =>
    simp only [] at hmatch
    have hs2 : Sub cfg (Tree.mk t1.parent (t1.size + 1) t1.left t1.right t1.mem) h true
        t1.parent Ptr.root ls' fp' := by
      rw [hpar1]; exact Sub.frame hmatch (fun _ _ => rfl)
    exact ⟨_, rfl, ⟨h, ls', fp', hs2, hnd', hitems, hsz', ChainOk.chain_step hlinks _ _ hchain1,
      by rw [hhead1, hhead, hleft1], hright1⟩, Shaped.indexOf hs2 hnd' pos j hidx⟩
  | some kq =>
    obtain ⟨k, q⟩ := kq
    obtain ⟨ls1, fp1, ls2, fp2, els, efp, hs1, hs2, hk⟩ := hmatch
    subst els efp
    obtain ⟨t3, h3, hpar3, hsize3, hleft3, hright3, hlinks3, hlen3, hs3⟩ :=
      grow_root_spec (Tree.mk t1.parent (t1.size + 1) t1.left t1.right t1.mem) t.parent q
        Ptr.root ls1 ls2 fp1 fp2 k hcapI hpar1 (Sub.frame hs1 (fun _ _ => rfl))
        (Sub.frame hs2 (fun _ _ => rfl)) hnd' hk
    have hN : ∀ b ∈ fp1 ++ fp2, b ≠ t1.mem.length := by
      intro b hb e
      rcases List.mem_append.1 hb with hb | hb
      · have := Sub.fp_lt hs1 b hb; omega
      · have := Sub.fp_lt hs2 b hb; omega
    have hs3' : Sub cfg t3 (h + 1) true t3.parent Ptr.root (ls1 ++ ls2)
        (t1.mem.length :: (fp1 ++ fp2)) := by rw [hpar3]; exact hs3
    have hnd3 : (t1.mem.length :: (fp1 ++ fp2)).Nodup :=
      List.nodup_cons.2 ⟨fun e => hN _ e rfl, hnd'⟩
    refine ⟨t3, by simp only [h3], ⟨h + 1, ls1 ++ ls2, _, hs3', hnd3, hitems, ?_, ?_, ?_, ?_⟩,
      Shaped.indexOf hs3' hnd3 pos j hidx⟩
    · rw [hsize3]; exact hsz'
    · exact ChainOk.chain_step hlinks3 _ _ (ChainOk.chain_step hlinks _ _ hchain1)
    · rw [hhead1, hhead, hleft3, hleft1]
    · rw [hright1, hright3]

/-- The hintless insert on a non-empty container: in multi mode it succeeds; a
success places the value at the bound of its key and keeps I2–I7; a refusal
leaves the container alone. -/
theorem insert_nohint_shaped (cfg : Config) (lt : Bool) (t : Tree α) (v : α) (xs : List α)
    (hcapL : 2 ≤ cfg.maxLeaf) (hcapI : 2 ≤ cfg.maxInner) (hsh : Shaped cfg t xs)
    (hsort : xs.Pairwise (· ≤ ·)) :
    (cfg.unique = false → ∃ t' pos, insert_nohint_ cfg lt t v = some (t', (pos, true))) ∧
    (∀ t' pos, insert_nohint_ cfg lt t v = some (t', (pos, true)) →
      Shaped cfg t' (xs.take (bound_node lt xs v) ++ v :: xs.drop (bound_node lt xs v)) ∧
      BPP.indexOf t' pos = some (bound_node lt xs v)) ∧
    (∀ t' pos, insert_nohint_ cfg lt t v = some (t', (pos, false)) → t' = t) := by
  have hne := hsh.ne_root
  obtain ⟨h, ls, fp, hs, hnd, hit, hsz, hchain, hhead, hlast⟩ := hsh
  have hdesc := insert_descend_spec cfg lt v hcapL hcapI h (t.mem.length + 1) t true t.parent
    Ptr.root ls fp [] [] Ptr.root (by have := Sub.fuel hs hnd; omega) hs hnd
    (by rw [hit]; exact hsort) (by simpa using hchain)
    (by simpa using Sub.leaf_ptrs_nodup hs hnd) (by simpa using hlast)
  rw [hit] at hdesc
  have hfin : ∀ t1 pos up, insert_one_descend_ cfg lt v (t.mem.length + 1) t t.parent
        = some (t1, (pos, true), up) →
      ∃ t', insert_nohint_ cfg lt t v = some (t', (pos, true)) ∧
        Shaped cfg t' (xs.take (bound_node lt xs v) ++ v :: xs.drop (bound_node lt xs v)) ∧
        BPP.indexOf t' pos = some (bound_node lt xs v) := by
    intro t1 pos up ho
    obtain ⟨t', h1, h2, h3⟩ := insert_finish_spec cfg t t1 v xs _ h ls fp pos up hcapI hit hsz
      (bound_node_le lt xs v) hhead (hdesc.2.1 t1 pos up ho)
    refine ⟨t', ?_, h2, h3⟩
    rw [← h1]
    simp only [insert_nohint_, if_neg hne, ho, if_true, Option.pure_def, Option.bind_eq_bind,
      Option.some_bind]
    cases up with
    | none => rfl
    | some kq =>
      obtain ⟨k, q⟩ := kq
      simp only []
      cases grow_root_ (Tree.mk t1.parent (t1.size + 1) t1.left t1.right t1.mem) k q <;> rfl
  refine ⟨fun hu => ?_, fun t' pos ho => ?_, fun t' pos ho => ?_⟩
  · obtain ⟨t1, pos, up, ho⟩ := hdesc.1 hu
    obtain ⟨t', h1, -⟩ := hfin t1 pos up ho
    exact ⟨t', pos, h1⟩
  · cases hr : insert_one_descend_ cfg lt v (t.mem.length + 1) t t.parent with
    | none => simp [insert_nohint_, if_neg hne, hr] at ho
    | some r =>
      obtain ⟨t1, ⟨pos1, fl⟩, up⟩ := r
      cases fl with
      | false =>
        obtain ⟨e1, e2⟩ := hdesc.2.2 t1 pos1 up hr
        subst e1 e2
        simp [insert_nohint_, if_neg hne, hr] at ho
      | true =>
        obtain ⟨t'', h1, h2, h3⟩ := hfin t1 pos1 up hr
        rw [h1] at ho
        simp only [Option.some.injEq, Prod.mk.injEq, and_true] at ho
        obtain ⟨e1, e2⟩ := ho
        subst e1 e2
        exact ⟨h2, h3⟩
  · cases hr : insert_one_descend_ cfg lt v (t.mem.length + 1) t t.parent with
    | none => simp [insert_nohint_, if_neg hne, hr] at ho
    | some r =>
      obtain ⟨t1, ⟨pos1, fl⟩, up⟩ := r
      cases fl with
      | false =>
        obtain ⟨e1, e2⟩ := hdesc.2.2 t1 pos1 up hr
        subst e1 e2
        simp [insert_nohint_, if_neg hne, hr] at ho
        exact ho.1.symm
      | true =>
        obtain ⟨t'', h1, -⟩ := hfin t1 pos1 up hr
        rw [h1] at ho
        simp at ho

end InsertTop

end BPP

/-! ## The insert in multi mode -/

namespace BPP

section InsertClaims
variable {α : Type} [LinearOrder α]

/-- The key at a stored position is the element of the in-order sequence at
the index of the position. -/
theorem Shaped.key? {cfg : Config} {t : Tree α} {xs : List α} (hsh : Shaped cfg t xs)
    (pos : Pos) (j : Nat) (hidx : BPP.indexOf t pos = some j) (hj : j < xs.length) :
    t.key? pos = xs[j]? := by
  have hxs := hsh.toList_eq
  obtain ⟨h, ls, fp, hs, hnd, hit, -⟩ := hsh
  have hll := leafList_of_sub hs hnd
  by_cases hend : pos = (Ptr.root, 0)
  · simp [BPP.indexOf, hend, hxs] at hidx
    omega
  · simp only [BPP.indexOf, if_neg hend, hll, Option.some_bind] at hidx
    obtain ⟨b, l, hb, -, hn, hlt, -, hget⟩ := indexIn_leaf hs pos j hidx
    rw [← hit, hget]
    simp [Tree.key?, leaf?_of_node? hn]

/-- Multi mode: the insert into a non-empty container. -/
theorem insert_multi_shaped (cfg : Config) (t : Tree α) (v : α) (xs : List α)
    (hu : cfg.unique = false) (hcapL : 2 ≤ cfg.maxLeaf) (hcapI : 2 ≤ cfg.maxInner)
    (hsh : Shaped cfg t xs) (hsort : xs.Pairwise (· ≤ ·)) :
    ∃ t' pos, insert cfg t v = some (t', (pos, true)) ∧
      Shaped cfg t' (xs.take (upper_bound_node xs v) ++ v :: xs.drop (upper_bound_node xs v)) ∧
      BPP.indexOf t' pos = some (upper_bound_node xs v) := by
  obtain ⟨h1, h2, -⟩ := insert_nohint_shaped cfg false t v xs hcapL hcapI hsh hsort
  obtain ⟨t', pos, ho⟩ := h1 hu
  exact ⟨t', pos, ho, h2 t' pos ho⟩

/-- The insert into any well-formed container in multi mode. -/
theorem insert_multi_wf (cfg : Config) (t : Tree α) (v : α) (hu : cfg.unique = false)
    (hwf : WF cfg t) :
    ∃ t' pos xs, insert cfg t v = some (t', (pos, true)) ∧ toList t = some xs ∧
      xs.length = t.size ∧ xs.Pairwise (· ≤ ·) ∧
      Shaped cfg t' (xs.take (upper_bound_node xs v) ++ v :: xs.drop (upper_bound_node xs v)) ∧
      BPP.indexOf t' pos = some (upper_bound_node xs v) := by
  have hcapL := hwf.1
  have hcapI := hwf.2.1
  by_cases hne : t.parent = Ptr.root
  · obtain ⟨t', h1, h2, h3⟩ := insert_first_spec cfg t v hcapL
    have hsz : t.size = 0 := by
      obtain ⟨-, -, hem | ⟨h, ls, fp, hs, -⟩⟩ := hwf
      · exact hem.2.2.2
      · obtain ⟨a, tl, hp, -⟩ := Sub.ptr hs
        rw [hp] at hne; simp at hne
    exact ⟨t', (Ptr.node t.mem.length, 0), [], by simp [insert, insert_nohint_, hne, h1],
      by simp [toList, leafList, hne], by simp [hsz], by simp,
      by simpa [upper_bound_node] using h2, by simpa [upper_bound_node] using h3⟩
  · obtain ⟨xs, hsh, hord⟩ := hwf.shaped hne
    obtain ⟨t', pos, h1, h2, h3⟩ := insert_multi_shaped cfg t v xs hu hcapL hcapI hsh hord.1
    obtain ⟨h, ls, fp, hs, hnd, hit, hsz, -⟩ := id hsh
    exact ⟨t', pos, xs, h1, hsh.toList_eq, hsz.symm, hord.1, h2, h3⟩

/-- C4: in multi mode, on every container that satisfies I1–I7, `insert(v)`
inserts: it returns the flag `true`, `size()` grows by 1, the returned iterator
designates an element equal to `v`, and the in-order sequence afterwards is the
old one with `v` placed after all elements that are not greater than `v` and
before all greater ones; so inserting 3, 1, 2, 3, 3, 2 one by one into the
default-constructed container yields the in-order sequence 1, 2, 2, 3, 3, 3. -/
theorem insert_multi (cfg : Config) (t : Tree α) (v : α) (hwf : WF cfg t)
    (hu : cfg.unique = false) :
    (∃ t' pos xs pre post, insert cfg t v = some (t', (pos, true)) ∧ toList t = some xs ∧
      t'.size = t.size + 1 ∧ xs = pre ++ post ∧ (∀ x ∈ pre, ¬ v < x) ∧ (∀ x ∈ post, v < x) ∧
      toList t' = some (pre ++ v :: post) ∧ BPP.indexOf t' pos = some pre.length ∧
      t'.key? pos = some v) ∧
    (([3, 1, 2, 3, 3, 2] : List Nat).foldlM (fun t x => (insert cfg t x).map (·.1))
      (empty : Tree Nat)).bind toList = some [1, 2, 2, 3, 3, 3] := by
  have hcapL := hwf.1
  have hcapI := hwf.2.1
  refine ⟨?_, ?_⟩
  · obtain ⟨t', pos, xs, h1, h2, h3, h4, h5, h6⟩ := insert_multi_wf cfg t v hu hwf
    obtain ⟨-, s2, s3⟩ := sorted_ins_upper xs v h4
    have hle := upper_bound_node_le xs v
    have hlen : (xs.take (upper_bound_node xs v)).length = upper_bound_node xs v := by
      rw [List.length_take]; omega
    refine ⟨t', pos, xs, xs.take (upper_bound_node xs v), xs.drop (upper_bound_node xs v), h1,
      h2, ?_, (List.take_append_drop _ _).symm, s2, s3, h5.toList_eq, by rw [hlen]; exact h6, ?_⟩
    · obtain ⟨h, ls, fp, hs, hnd, hit, hsz, -⟩ := id h5
      rw [hsz, ins_length _ _ _ hle, h3]
    · rw [h5.key? pos _ h6 (by rw [ins_length _ _ _ hle]; omega),
        List.getElem?_append_right (by rw [hlen]), hlen]
      simp
  · have hwf0 : WF cfg (empty : Tree Nat) := ⟨hcapL, hcapI, Or.inl ⟨rfl, rfl, rfl, rfl⟩⟩
    have step : ∀ (t : Tree Nat) (xs : List Nat) (v : Nat), Shaped cfg t xs →
        xs.Pairwise (· ≤ ·) → ∃ t', (insert cfg t v).map (·.1) = some t' ∧
          Shaped cfg t' (xs.take (upper_bound_node xs v) ++ v :: xs.drop
            (upper_bound_node xs v)) := by
      intro t xs v hsh hs
      obtain ⟨t', pos, h1, h2, -⟩ := insert_multi_shaped cfg t v xs hu hcapL hcapI hsh hs
      exact ⟨t', by rw [h1]; rfl, h2⟩
    obtain ⟨t1, pos1, xs0, e1, e0, -, -, s1, -⟩ := insert_multi_wf cfg (empty : Tree Nat) 3 hu hwf0
    have e0' : xs0 = [] := by simpa [toList, leafList, empty] using e0.symm
    subst e0'
    obtain ⟨t2, e2, s2⟩ := step t1 _ 1 s1 (by decide)
    obtain ⟨t3, e3, s3⟩ := step t2 _ 2 s2 (by decide)
    obtain ⟨t4, e4, s4⟩ := step t3 _ 3 s3 (by decide)
    obtain ⟨t5, e5, s5⟩ := step t4 _ 3 s4 (by decide)
    obtain ⟨t6, e6, s6⟩ := step t5 _ 2 s5 (by decide)
    have e1' : (insert cfg (empty : Tree Nat) 3).map (·.1) = some t1 := by rw [e1]; rfl
    have hfold : ([3, 1, 2, 3, 3, 2] : List Nat).foldlM
        (fun t x => (insert cfg t x).map (·.1)) (empty : Tree Nat) = some t6 := by
      simp only [List.foldlM, Option.bind_eq_bind, e1', e2, e3, e4, e5, e6, Option.some_bind,
        Option.pure_def]
    rw [hfold, Option.some_bind, s6.toList_eq]
    decide

/-- The insert theorem on the container 10, 20, 30, 40, 50 with the value 25,
`MAX_LEAF = MAX_INNER = 4`, multi mode. -/
theorem insert_multi_witness :
    WF ⟨false, 4, 4⟩ sample5 ∧
    (∃ t' pos xs pre post, insert ⟨false, 4, 4⟩ sample5 25 = some (t', (pos, true)) ∧
      toList sample5 = some xs ∧
      t'.size = sample5.size + 1 ∧ xs = pre ++ post ∧ (∀ x ∈ pre, ¬ 25 < x) ∧
      (∀ x ∈ post, 25 < x) ∧
      toList t' = some (pre ++ 25 :: post) ∧ BPP.indexOf t' pos = some pre.length ∧
      t'.key? pos = some 25) ∧
    (([3, 1, 2, 3, 3, 2] : List Nat).foldlM (fun t x => (insert ⟨false, 4, 4⟩ t x).map (·.1))
      (empty : Tree Nat)).bind toList = some [1, 2, 2, 3, 3, 3] :=
  ⟨sample5_wf false, insert_multi ⟨false, 4, 4⟩ sample5 25 (sample5_wf false) rfl⟩

end InsertClaims

end BPP

/-! ## The positional insert -/

namespace BPP

section PosInsert
variable {α : Type} [LinearOrder α]

/-- What `insert_pos_` still does above a node once everything below is
done: count the element on the way up, or place the node handed up into the
parent found before the split. -/
def insert_above_ (cfg : Config) (f1 f2 : Nat) (node : Ptr) (gp : Ptr × Nat) (t : Tree α)
    (up : Option (α × Ptr)) : Option (Tree α) :=
  match up with
  | none => size_up_ f1 t node
  | some (key_out, split_node) => insert_pos_descend_ cfg f2 t gp.1 gp.2 key_out split_node

theorem size_up_mono : ∀ (f : Nat) (t : Tree α) (p : Ptr) (T : Tree α),
    size_up_ f t p = some T → ∀ f', f ≤ f' → size_up_ f' t p = some T := by
  intro f
  induction f with
  | zero => intro t p T h; simp [size_up_] at h
  | succ f ih =>
    intro t p T h f' hf
    obtain ⟨f', rfl⟩ : ∃ g, f' = g + 1 := ⟨f' - 1, by omega⟩
    rw [size_up_] at h ⊢
    cases h1 : t.parent? p with
    | none => simp [h1] at h
    | some pp =>
      cases h2 : t.size? pp with
      | none => simp [h1, h2] at h
      | some s =>
        cases h3 : t.setSize pp (s + 1) with
        | none => simp [h1, h2, h3] at h
        | some t1 =>
          simp only [h1, h2, h3, Option.pure_def, Option.bind_eq_bind, Option.some_bind] at h ⊢
          by_cases hp : pp ≠ Ptr.root
          · rw [if_pos hp] at h ⊢
            exact ih t1 pp T h f' (by omega)
          · rw [if_neg hp] at h ⊢
            exact h

theorem insert_pos_descend_mono (cfg : Config) : ∀ (f : Nat) (t : Tree α) (p : Ptr) (w : Nat)
    (k : α) (q : Ptr) (T : Tree α),
    insert_pos_descend_ cfg f t p w k q = some T →
      ∀ f', f ≤ f' → insert_pos_descend_ cfg f' t p w k q = some T := by
  intro f
  induction f with
  | zero => intro t p w k q T h; simp [insert_pos_descend_] at h
  | succ f ih =>
    intro t p w k q T h f' hf
    obtain ⟨f', rfl⟩ : ∃ g, f' = g + 1 := ⟨f' - 1, by omega⟩
    rw [insert_pos_descend_] at h ⊢
    by_cases hp : p = Ptr.null
    · rw [if_pos hp] at h ⊢; exact h
    · rw [if_neg hp] at h ⊢
      cases h1 : t.modInner p (fun m => { m with size := m.size + 1 }) with
      | none => simp [h1] at h
      | some t1 =>
        cases h2 : t1.inner? p with
        | none => simp [h1, h2] at h
        | some n =>
          cases h3 : (if n.item.length = cfg.maxInner then get_parent_ t1 p
              else some (Ptr.null, 0)) with
          | none => simp [h1, h2, h3] at h
          | some gp =>
            cases h4 : place_child_ cfg t1 p w k q with
            | none => simp [h1, h2, h3, h4] at h
            | some r =>
              obtain ⟨t2, up⟩ := r
              simp only [h1, h2, h3, h4, Option.pure_def, Option.bind_eq_bind,
                Option.some_bind] at h ⊢
              cases up with
              | none => exact h
              | some kq => exact ih _ _ _ _ _ _ h f' (by omega)

theorem insert_leaf_up_full (cfg : Config) (t t1 : Tree α) (p : Ptr) (w : Nat) (v : α)
    (pos : Pos) (kq : α × Ptr) (h : insert_leaf_ cfg t p w v = some (t1, pos, some kq)) :
    ∃ l, t.leaf? p = some l ∧ l.item.length = cfg.maxLeaf := by
  unfold insert_leaf_ at h
  cases hl : t.leaf? p with
  | none => simp [hl] at h
  | some l =>
    refine ⟨l, rfl, ?_⟩
    by_contra hfull
    simp only [hl, if_neg hfull, Option.pure_def, Option.bind_eq_bind, Option.some_bind] at h
    cases h1 : insertAt? l.item w v with
    | none => simp [h1] at h
    | some its =>
      simp only [h1] at h
      cases h2 : t.modLeaf p (fun m => { m with item := its }) with
      | none => simp [h2] at h
      | some t2 => simp [h2] at h

theorem place_child_up_full (cfg : Config) (t t1 : Tree α) (p : Ptr) (w : Nat) (k : α) (q : Ptr)
    (kq : α × Ptr) (h : place_child_ cfg t p w k q = some (t1, some kq)) :
    ∃ n, t.inner? p = some n ∧ n.item.length = cfg.maxInner := by
  unfold place_child_ at h
  cases hn : t.inner? p with
  | none => simp [hn] at h
  | some n =>
    refine ⟨n, rfl, ?_⟩
    by_contra hfull
    simp only [hn, if_neg hfull, Option.pure_def, Option.bind_eq_bind, Option.some_bind] at h
    cases h1 : insert_child_ t p w k q with
    | none => simp [h1] at h
    | some t2 => simp [h1] at h

theorem get_parent_congr (t t' : Tree α) (p : Ptr) (hp : t'.parent? p = t.parent? p)
    (hi : ∀ P, t.parent? p = some P → t'.inner? P = t.inner? P) :
    get_parent_ t' p = get_parent_ t p := by
  unfold get_parent_
  rw [hp]
  cases h : t.parent? p with
  | none => rfl
  | some P => simp only [hi P h]

theorem get_parent_top (t : Tree α) (p : Ptr) (hp : t.parent? p = some Ptr.root) :
    get_parent_ t p = some (Ptr.null, 0) := by
  simp [get_parent_, hp]

theorem child_ptr_not_mem {cfg : Config} {t : Tree α} {h : Nat} {par : Ptr}
    (pre post : List (Part α)) (q : Part α)
    (hch : ∀ q' ∈ pre ++ q :: post, Sub cfg t h false q'.ptr par q'.leaves q'.fp)
    (hnd : (fpOf (pre ++ q :: post)).Nodup) : q.ptr ∉ pre.map Part.ptr := by
  intro hm
  simp only [List.mem_map] at hm
  obtain ⟨q', hq', he⟩ := hm
  obtain ⟨a, tl, hp, hfp⟩ := Sub.ptr (hch q (by simp))
  obtain ⟨a', tl', hp', hfp'⟩ := Sub.ptr (hch q' (List.mem_append_left _ hq'))
  rw [hp, hp'] at he
  simp only [Ptr.node.injEq] at he
  subst he
  rw [fpOf_append, fpOf_cons] at hnd
  have h1 : a' ∈ fpOf pre := mem_fpOf hq' (by rw [hfp']; exact List.mem_cons_self _ _)
  have h2 : a' ∈ q.fp ++ fpOf post :=
    List.mem_append_left _ (by rw [hfp]; exact List.mem_cons_self _ _)
  exact (List.nodup_append.1 hnd).2.2 h1 h2

theorem get_parent_child (t : Tree α) (a : Nat) (n : InnerNode α) (pre post : List (Part α))
    (q : Part α) (hn : t.node? (Ptr.node a) = some (Node.inner n))
    (hc : n.children = (pre ++ q :: post).map Part.ptr)
    (hlen : (pre ++ q :: post).length = n.item.length + 1)
    (hpar : t.parent? q.ptr = some (Ptr.node a)) (hnm : q.ptr ∉ pre.map Part.ptr) :
    get_parent_ t q.ptr = some (Ptr.node a, pre.length) := by
  have hs : slice? n.children 0 (n.item.length + 1) = some n.children := by
    rw [slice?_eq _ _ _ (by omega) (by rw [hc, List.length_map]; omega)]
    rw [List.drop_zero, List.take_of_length_le (by rw [hc, List.length_map]; omega)]
  simp only [get_parent_, hpar, inner?_of_node? hn, hs, Option.pure_def, Option.bind_eq_bind,
    Option.some_bind]
  rw [if_neg (by simp), hc, List.map_append, List.map_cons,
    List.indexOf_append_of_not_mem hnm, List.indexOf_cons_self]
  simp

theorem leavesOf_split (x : Ptr × List α) : ∀ (ps : List (Part α)) (A B : Leaves α),
    leavesOf ps = A ++ x :: B →
    ∃ pre q post A' B', ps = pre ++ q :: post ∧ q.leaves = A' ++ x :: B' ∧
      A = leavesOf pre ++ A' ∧ B = B' ++ leavesOf post := by
  intro ps
  induction ps with
  | nil => intro A B h; simp at h
  | cons q0 rest ih =>
    intro A B h
    rw [leavesOf_cons] at h
    rcases List.append_eq_append_iff.1 h with ⟨c, hA, hrest⟩ | ⟨c, hq0, hB⟩
    · obtain ⟨pre, q, post, A', B', e1, e2, e3, e4⟩ := ih c B hrest
      exact ⟨q0 :: pre, q, post, A', B', by rw [e1]; rfl, e2, by rw [hA, e3]; simp, e4⟩
    · cases c with
      | nil =>
        simp only [List.nil_append] at hB
        obtain ⟨pre, q, post, A', B', e1, e2, e3, e4⟩ := ih [] B hB.symm
        refine ⟨q0 :: pre, q, post, A', B', by rw [e1]; rfl, e2, ?_, e4⟩
        rw [leavesOf_cons, List.append_assoc, ← e3]; simpa using hq0.symm
      | cons y c' =>
        simp only [List.cons_append, List.cons.injEq] at hB
        obtain ⟨rfl, hB⟩ := hB
        exact ⟨[], q0, rest, A, c', rfl, hq0, by simp, hB⟩

theorem setSize_inner_eq (t : Tree α) (a : Nat) (n : InnerNode α) (s : Nat)
    (h : t.node? (Ptr.node a) = some (Node.inner n)) :
    t.setSize (Ptr.node a) s = some (t.put a (Node.inner { n with size := s })) := by
  simp [Tree.setSize, h, write_eq t a _ _ h]

/-- One level of the climb of `insert_pos_`: what happens above the child is
the step of the parent and then what happens above the parent. -/
theorem insert_above_step (cfg : Config) (t0 t1 t' : Tree α) (a : Nat) (n : InnerNode α)
    (c : Ptr) (w : Nat) (gp : Ptr × Nat) (pos : Pos) (upq up : Option (α × Ptr))
    (f1 f2 : Nat) (T : Tree α)
    (hn1 : t1.node? (Ptr.node a) = some (Node.inner n))
    (hpar : t1.parent? c = some (Ptr.node a))
    (hgp0 : get_parent_ t0 (Ptr.node a) = some gp)
    (hgp : ∀ t2, t1.modInner (Ptr.node a) (fun m => { m with size := m.size + 1 }) = some t2 →
      get_parent_ t2 (Ptr.node a) = get_parent_ t0 (Ptr.node a))
    (hasc : insert_ascend_ cfg (Ptr.node a) w (t1, (pos, true), upq) = some (t', (pos, true), up))
    (hf1 : f1 ≤ t'.mem.length + 1)
    (hT : insert_above_ cfg f1 f2 (Ptr.node a) gp t' up = some T) :
    insert_above_ cfg (f1 + 1) (f2 + 1) c (Ptr.node a, w) t1 upq = some T := by
  have hmod := modInner_eq t1 a n (fun m => { m with size := m.size + 1 }) hn1
  simp only [insert_ascend_, if_true, hmod] at hasc
  cases upq with
  | none =>
    simp only [Option.some.injEq, Prod.mk.injEq, true_and] at hasc
    obtain ⟨e1, e2⟩ := hasc
    subst e1 e2
    simp only [insert_above_] at hT ⊢
    rw [size_up_]
    simp only [hpar, size?_inner hn1, setSize_inner_eq t1 a n _ hn1, Option.pure_def,
      Option.bind_eq_bind, Option.some_bind]
    rw [if_pos (by simp)]
    exact hT
  | some kq =>
    obtain ⟨k, q2⟩ := kq
    simp only [] at hasc
    cases hpl : place_child_ cfg (t1.put a (Node.inner { n with size := n.size + 1 }))
        (Ptr.node a) w k q2 with
    | none => simp [hpl] at hasc
    | some r =>
      obtain ⟨t3, up3⟩ := r
      simp only [hpl, Option.some.injEq, Prod.mk.injEq, true_and] at hasc
      obtain ⟨e1, e2⟩ := hasc
      subst e1 e2
      have hn2 : (t1.put a (Node.inner { n with size := n.size + 1 })).inner? (Ptr.node a)
          = some { n with size := n.size + 1 } :=
        inner?_of_node? (node?_put_same _ _ _ (lt_mem_of_node? hn1))
      simp only [insert_above_]
      rw [insert_pos_descend_, if_neg (by simp)]
      simp only [hmod, hn2, hgp _ hmod, hgp0, ite_self, hpl, Option.pure_def,
        Option.bind_eq_bind, Option.some_bind]
      cases up3 with
      | none =>
        simp only [insert_above_] at hT
        by_cases hfull : n.item.length = cfg.maxInner
        · simp only [if_pos hfull]
          exact size_up_mono f1 _ _ T hT _ hf1
        · simp only [if_neg hfull]
          exact size_up_mono f1 _ _ T hT _ hf1
      | some kq' =>
        obtain ⟨k', q'⟩ := kq'
        simp only [insert_above_] at hT
        obtain ⟨n', hn', hfull⟩ := place_child_up_full cfg _ _ _ _ _ _ _ hpl
        rw [hn2] at hn'
        simp only [Option.some.injEq] at hn'
        subst hn'
        simp only [] at hfull
        simp only [if_pos hfull]
        exact hT

theorem get_parent_frame (t t' : Tree α) (p : Ptr) (gp : Ptr × Nat)
    (hgp : get_parent_ t p = some gp) (hp : t'.parent? p = t.parent? p)
    (hi : ∀ A n, t.parent? p = some (Ptr.node A) → t.node? (Ptr.node A) = some (Node.inner n) →
      t'.node? (Ptr.node A) = some (Node.inner n)) :
    get_parent_ t' p = some gp := by
  rw [← hgp]
  unfold get_parent_ at hgp ⊢
  rw [hp]
  cases h : t.parent? p with
  | none => rfl
  | some P =>
    simp only [h, Option.pure_def, Option.bind_eq_bind, Option.some_bind] at hgp ⊢
    by_cases hr : P = Ptr.root
    · simp only [if_pos hr]
    · simp only [if_neg hr] at hgp ⊢
      cases hn : t.inner? P with
      | none => simp [hn] at hgp
      | some nP =>
        cases P with
        | null => simp [Tree.inner?, Tree.node?] at hn
        | root => exact absurd rfl hr
        | node A =>
          have hn' := node?_of_inner? hn
          rw [inner?_of_node? (hi A nP h hn')]

theorem indexIn_single {p : Ptr} {x : List α} {pos : Pos} {j : Nat}
    (h : indexIn [(p, x)] pos = some j) : pos.1 = p := by
  simp only [indexIn] at h
  by_contra hne
  rw [if_neg (fun e => hne e.symm)] at h
  simp at h

/-- The climb of `insert_pos_` through a subtree that holds the leaf. -/
theorem insert_pos_sub (cfg : Config) (v : α) (lf : Ptr) (w : Nat) (hcapL : 2 ≤ cfg.maxLeaf)
    (hcapI : 2 ≤ cfg.maxInner) :
    ∀ (h : Nat) (t : Tree α) (isRoot : Bool) (p par : Ptr) (ls : Leaves α) (fp : List Nat)
      (L R : Leaves α) (prev0 : Ptr) (A B : Leaves α) (l : List α) (gp : Ptr × Nat),
      Sub cfg t h isRoot p par ls fp → fp.Nodup → ls = A ++ (lf, l) :: B →
      (w < l.length ∨ (w = l.length ∧ B = [])) →
      ChainOk t prev0 (L ++ ls ++ R) → ((L ++ ls ++ R).map Prod.fst).Nodup →
      ((L ++ ls ++ R).getLast?).map Prod.fst = some t.right →
      get_parent_ t p = some gp → (∀ a, par = Ptr.node a → a ∉ fp) →
      ∃ t1 pos up,
        InsPost cfg t h isRoot p par ls fp v ((items A).length + w) L R prev0 t1 pos up ∧
        ∀ f1 f2 T, f1 + h ≤ t.mem.length + 1 → f2 + h ≤ t.mem.length + 1 →
          insert_above_ cfg f1 f2 p gp t1 up = some T →
          insert_pos_ cfg t lf w v = some (T, (pos, true)) := by
  intro h
  induction h with
  | zero =>
    intro t isRoot p par ls fp L R prev0 A B l gp hs hnd hls hw hchain hndl hright hgp hparfp
    obtain ⟨a, l0, hp, hn, hpar, hls0, hfp, hlo, hhi⟩ := Sub.zero_iff.1 hs
    have hAB : A = [] ∧ (lf, l) = (p, l0.item) ∧ B = [] := by
      rw [hls0] at hls
      cases A with
      | nil => simpa using hls.symm
      | cons x xs =>
        have := congrArg List.length hls
        simp at this
    obtain ⟨hA, hlf, hB⟩ := hAB
    simp only [Prod.mk.injEq] at hlf
    obtain ⟨hlf, hl⟩ := hlf
    subst hA hB hlf hl
    have hwle : w ≤ (items ls).length := by
      rw [hls0]; simp; omega
    obtain ⟨t1, pos1, up1, h1, hpost1⟩ := insert_leaf_post cfg t isRoot lf par ls fp v w L R
      prev0 hcapL hs hwle hchain hndl hright
    refine ⟨t1, pos1, up1, by simpa using hpost1, fun f1 f2 T hf1 hf2 hT => ?_⟩
    have hlen1 : t.mem.length ≤ t1.mem.length := hpost1.1
    have hleaf : t.leaf? lf = some l0 := leaf?_of_node? hn
    unfold insert_pos_
    simp only [hleaf, h1, hgp, ite_self, Option.pure_def, Option.bind_eq_bind, Option.some_bind]
    cases up1 with
    | none =>
      simp only [insert_above_] at hT
      obtain ⟨-, -, -, -, -, ls', fp', -, hidx, -, -, -, -, -, hmatch⟩ := hpost1
      simp only [] at hmatch
      obtain ⟨a', l', -, -, -, hls', -⟩ := Sub.zero_iff.1 hmatch
      rw [hls'] at hidx
      have hpos : pos1.1 = lf := indexIn_single hidx
      by_cases hfull : l0.item.length = cfg.maxLeaf
      · simp only [if_pos hfull, hpos,
          size_up_mono f1 _ _ T hT (t1.mem.length + 1) (by omega)]
      · simp only [if_neg hfull, hpos,
          size_up_mono f1 _ _ T hT (t1.mem.length + 1) (by omega)]
    | some kq =>
      obtain ⟨k, q⟩ := kq
      simp only [insert_above_] at hT
      obtain ⟨l', hl', hfull⟩ := insert_leaf_up_full cfg _ _ _ _ _ _ _ h1
      rw [hleaf] at hl'
      simp only [Option.some.injEq] at hl'
      subst hl'
      simp only [if_pos hfull,
        insert_pos_descend_mono cfg f2 _ _ _ _ _ T hT (t1.mem.length + 1) (by omega)]
  | succ h ih =>
    intro t isRoot p par ls fp L R prev0 A B l gp hs hnd hls hw hchain hndl hright hgp hparfp
    obtain ⟨a, n, ps, hp, hn, hpar, hlev, hsz, hc, hkeys, hne, hch, hlsps, hfp, hlo, hhi⟩ :=
      Sub.succ_iff.1 hs
    subst hp hfp
    rw [hlsps] at hls
    obtain ⟨pre, q, post, A', B', hps, hql, hAe, hBe⟩ := leavesOf_split (lf, l) ps A B hls
    subst hps hlsps hAe hBe
    have hqm : q ∈ pre ++ q :: post := by simp
    have eassoc : L ++ leavesOf pre ++ q.leaves ++ (leavesOf post ++ R)
        = L ++ leavesOf (pre ++ q :: post) ++ R := by
      rw [leavesOf_append, leavesOf_cons]; simp only [List.append_assoc]
    have hndps := (List.nodup_cons.1 hnd).2
    have hndq : q.fp.Nodup := by
      have := hndps
      rw [fpOf_append, fpOf_cons] at this
      exact (List.nodup_append.1 (List.nodup_append.1 this).2.1).1
    have haq : a ∉ q.fp := fun e => (List.nodup_cons.1 hnd).1 (mem_fpOf hqm e)
    have hcount : (pre ++ q :: post).length = n.item.length + 1 := by
      have := congrArg List.length hkeys
      simp only [List.length_map, List.length_dropLast, List.length_append,
        List.length_cons] at this
      simp only [List.length_append, List.length_cons]
      omega
    have hgpq : get_parent_ t q.ptr = some (Ptr.node a, pre.length) :=
      get_parent_child t a n pre post q hn hc hcount (Sub.parent? (hch q hqm))
        (child_ptr_not_mem pre post q hch hndps)
    have hwq : w < l.length ∨ (w = l.length ∧ B' = []) := by
      rcases hw with h1 | ⟨h1, h2⟩
      · exact Or.inl h1
      · exact Or.inr ⟨h1, (List.append_eq_nil.1 h2).1⟩
    obtain ⟨t1, pos, upq, hpostq, hcont⟩ := ih t false q.ptr (Ptr.node a) q.leaves q.fp
      (L ++ leavesOf pre) (leavesOf post ++ R) prev0 A' B' l (Ptr.node a, pre.length)
      (hch q hqm) hndq hql hwq (by rw [eassoc]; exact hchain) (by rw [eassoc]; exact hndl)
      (by rw [eassoc]; exact hright) hgpq (fun a' ha' => by
        simp only [Ptr.node.injEq] at ha'; subst ha'; exact haq)
    have hitq : (items q.leaves).length = (items A').length + l.length + (items B').length := by
      rw [hql]; simp [items_append]; omega
    have hjq : (items A').length + w ≤ (items q.leaves).length := by
      rcases hw with h1 | ⟨h1, -⟩ <;> omega
    have hjlast : post ≠ [] → (items A').length + w < (items q.leaves).length := by
      intro hp0
      rcases hw with h1 | ⟨h1, h2⟩
      · omega
      · exfalso
        have h3 := (List.append_eq_nil.1 h2).2
        cases post with
        | nil => exact hp0 rfl
        | cons r rs =>
          have hr := Sub.items_ne_nil hcapL (hch r (by simp))
          rw [leavesOf_cons] at h3
          rw [(List.append_eq_nil.1 h3).1] at hr
          exact hr rfl
    obtain ⟨t', up, hasc, hpost⟩ := insert_ascend_spec cfg t t1 h isRoot a par n pre post q v _
      L R prev0 pos upq hcapL hcapI hn hpar hlev hsz hkeys hlo hhi hc hch hnd hjq hjlast hpostq
    have hidxe : (items (leavesOf pre ++ A')).length + w
        = (items (leavesOf pre)).length + ((items A').length + w) := by
      rw [items_append, List.length_append]; omega
    rw [hidxe]
    refine ⟨t', pos, up, hpost, fun f1 f2 T hf1 hf2 hT => ?_⟩
    have hal : a < t.mem.length := lt_mem_of_node? hn
    have hn1 : t1.node? (Ptr.node a) = some (Node.inner n) := (hpostq.2.2.2.2.1 a hal haq).inner hn
    have hpar1 : t1.parent? q.ptr = some (Ptr.node a) := by
      obtain ⟨-, -, -, -, -, ls', fp', -, -, -, -, -, -, -, hmatch⟩ := hpostq
      cases upq with
      | none => exact Sub.parent? hmatch
      | some kq =>
        obtain ⟨ls1, fp1, ls2, fp2, -, -, hs1, -⟩ := hmatch
        exact Sub.parent? hs1
    refine hcont (f1 + 1) (f2 + 1) T (by omega) (by omega) ?_
    refine insert_above_step cfg t t1 t' a n q.ptr pre.length gp pos upq up f1 f2 T hn1 hpar1 hgp
      (fun t2 h2 => ?_) hasc (by have := hpost.1; omega) hT
    rw [hgp]
    rw [modInner_eq t1 a n _ hn1] at h2
    simp only [Option.some.injEq] at h2
    subst h2
    refine get_parent_frame t _ (Ptr.node a) gp hgp ?_ (fun A0 n0 hA0 hn0 => ?_)
    · rw [parent?_inner hn, parent?_inner (node?_put_same _ _ _ (lt_mem_of_node? hn1))]
    · rw [parent?_inner hn, hpar] at hA0
      simp only [Option.some.injEq] at hA0
      have hA0fp := hparfp A0 hA0
      have hne0 : A0 ≠ a := fun e => hA0fp (by rw [e]; simp)
      rw [node?_put_ne _ _ _ _ hne0]
      refine (hpostq.2.2.2.2.1 A0 (lt_mem_of_node? hn0) (fun e => hA0fp ?_)).inner hn0
      exact List.mem_cons_of_mem _ (mem_fpOf hqm e)

/-- The positional insert on a non-empty container, at a stored position or
at the end of the last leaf: it succeeds, places the value at the index of the
position and keeps I2–I7. -/
theorem insert_pos_shaped (cfg : Config) (t : Tree α) (v : α) (xs : List α) (lf : Ptr) (w : Nat)
    (A B : Leaves α) (l : List α) (hcapL : 2 ≤ cfg.maxLeaf) (hcapI : 2 ≤ cfg.maxInner)
    (hsh : Shaped cfg t xs) (hll : leafList t = some (A ++ (lf, l) :: B))
    (hw : w < l.length ∨ (w = l.length ∧ B = [])) :
    ∃ T pos, insert_pos_ cfg t lf w v = some (T, (pos, true)) ∧
      Shaped cfg T (xs.take ((items A).length + w) ++ v :: xs.drop ((items A).length + w)) ∧
      BPP.indexOf T pos = some ((items A).length + w) := by
  obtain ⟨h, ls, fp, hs, hnd, hit, hsz, hchain, hhead, hlast⟩ := hsh
  have hls : ls = A ++ (lf, l) :: B := by
    have := leafList_of_sub hs hnd
    rw [hll] at this
    simpa using this.symm
  obtain ⟨t1, pos, up, hpost, hcont⟩ := insert_pos_sub cfg v lf w hcapL hcapI h t true t.parent
    Ptr.root ls fp [] [] Ptr.root A B l (Ptr.null, 0) hs hnd hls hw (by simpa using hchain)
    (by simpa using Sub.leaf_ptrs_nodup hs hnd) (by simpa using hlast)
    (get_parent_top t _ (Sub.parent? hs)) (fun a ha => by simp at ha)
  have hj : (items A).length + w ≤ xs.length := by
    rw [← hit, hls]
    simp only [items_append, items_cons, List.length_append]
    rcases hw with h1 | ⟨h1, -⟩ <;> omega
  obtain ⟨t', h1, h2, h3⟩ := insert_finish_spec cfg t t1 v xs _ h ls fp pos up hcapI hit hsz hj
    hhead hpost
  refine ⟨t', pos, hcont 1 1 t' (by have := Sub.fuel hs hnd; omega)
    (by have := Sub.fuel hs hnd; omega) ?_, h2, h3⟩
  have hpar1 : t1.parent? t.parent = some Ptr.root := by
    obtain ⟨-, -, -, -, -, ls', fp', -, -, -, -, -, -, -, hmatch⟩ := hpost
    cases up with
    | none => exact Sub.parent? hmatch
    | some kq =>
      obtain ⟨ls1, fp1, ls2, fp2, -, -, hs1, -⟩ := hmatch
      exact Sub.parent? hs1
  cases up with
  | none =>
    simp only [Option.some.injEq, Prod.mk.injEq, and_true] at h1
    subst h1
    simp only [insert_above_, size_up_, hpar1, Tree.size?, Tree.setSize, Option.pure_def,
      Option.bind_eq_bind, Option.some_bind, ne_eq, not_true_eq_false, if_false]
  | some kq =>
    obtain ⟨k, q⟩ := kq
    simp only [] at h1
    cases hg : grow_root_ (Tree.mk t1.parent (t1.size + 1) t1.left t1.right t1.mem) k q with
    | none => simp [hg] at h1
    | some t2 =>
      simp only [hg, Option.some.injEq, Prod.mk.injEq, and_true] at h1
      subst h1
      simp only [insert_above_, insert_pos_descend_, if_true]
      exact hg

end PosInsert

end BPP

/-! ## The hinted insert -/

namespace BPP

section HintInsert
variable {α : Type} [LinearOrder α]

/-- A position at which `insert_pos_` may insert: a slot of a leaf of the
container, or the end of its last leaf. -/
def ValidAt (ls : Leaves α) (lf : Ptr) (w : Nat) : Prop :=
  ∃ A B l, ls = A ++ (lf, l) :: B ∧ (w < l.length ∨ (w = l.length ∧ B = []))

/-- A result of the hinted insert is acceptable: a success has placed the
value at some index and kept I2–I7. -/
def HintGood (cfg : Config) (xs : List α) (v : α) (o : Option (Tree α × (Pos × Bool))) : Prop :=
  ∀ T pos, o = some (T, (pos, true)) →
    ∃ j, j ≤ xs.length ∧ Shaped cfg T (xs.take j ++ v :: xs.drop j) ∧
      BPP.indexOf T pos = some j

theorem HintGood.hint_none (cfg : Config) (xs : List α) (v : α) :
    HintGood cfg xs v Option.none := fun _ _ h => by simp at h

theorem HintGood.hint_nohint (cfg : Config) (lt : Bool) (t : Tree α) (xs : List α) (v : α)
    (hcapL : 2 ≤ cfg.maxLeaf) (hcapI : 2 ≤ cfg.maxInner) (hsh : Shaped cfg t xs)
    (hsort : xs.Pairwise (· ≤ ·)) : HintGood cfg xs v (insert_nohint_ cfg lt t v) :=
  fun T pos h =>
    ⟨_, bound_node_le lt xs v, (insert_nohint_shaped cfg lt t v xs hcapL hcapI hsh hsort).2.1 T
      pos h⟩

theorem HintGood.hint_pos (cfg : Config) (t : Tree α) (xs : List α) (v : α) (ls : Leaves α)
    (lf : Ptr) (w : Nat) (hcapL : 2 ≤ cfg.maxLeaf) (hcapI : 2 ≤ cfg.maxInner)
    (hsh : Shaped cfg t xs) (hll : leafList t = some ls) (hv : ValidAt ls lf w) :
    HintGood cfg xs v (insert_pos_ cfg t lf w v) := by
  obtain ⟨A, B, l, hls, hw⟩ := hv
  subst hls
  obtain ⟨T, pos, h1, h2, h3⟩ := insert_pos_shaped cfg t v xs lf w A B l hcapL hcapI hsh hll hw
  intro T' pos' h
  rw [h1] at h
  simp only [Option.some.injEq, Prod.mk.injEq, and_true] at h
  obtain ⟨e1, e2⟩ := h
  subst e1 e2
  refine ⟨_, ?_, h2, h3⟩
  have hx := hsh.toList_eq
  simp only [toList, hll, Option.map_some', Option.some.injEq] at hx
  rw [← hx]
  simp only [items_append, items_cons, List.length_append]
  rcases hw with h1 | ⟨h1, -⟩ <;> omega

theorem ValidAt.of_index (ls : Leaves α) (lf : Ptr) (w i : Nat)
    (h : indexIn ls (lf, w) = some i) : ValidAt ls lf w := by
  obtain ⟨l, hm, hlt, -⟩ := indexIn_get ls (lf, w) i h
  obtain ⟨A, B, hls⟩ := List.append_of_mem hm
  exact ⟨A, B, l, hls, Or.inl hlt⟩

/-- The `next` link of a leaf inside a well-linked run. -/
theorem ChainOk.next_mid {t : Tree α} (pre : Leaves α) (lf : Ptr) (l : List α) (post : Leaves α)
    (prev0 : Ptr) (hc : ChainOk t prev0 (pre ++ (lf, l) :: post)) :
    ∃ n, t.leaf? lf = some n ∧ (post = [] → n.next = Ptr.root) ∧
      (∀ e, post.head? = some e → n.next = e.1) := by
  induction pre generalizing prev0 with
  | nil =>
    obtain ⟨n, hn, -, hnx, -⟩ := hc
    refine ⟨n, hn, fun e => by subst e; exact hnx, fun e he => ?_⟩
    cases post with
    | nil => simp at he
    | cons y ys =>
      simp only [List.head?_cons, Option.some.injEq] at he
      subst he
      exact hnx
  | cons x xs ih =>
    obtain ⟨p, lx⟩ := x
    obtain ⟨n, hn, hp, -, hrest⟩ := hc
    exact ih p hrest

theorem ValidAt.first {cfg : Config} {t : Tree α} {h : Nat} {ls : Leaves α} {fp : List Nat}
    (hcapL : 2 ≤ cfg.maxLeaf) (hs : Sub cfg t h true t.parent Ptr.root ls fp)
    (hhead : (ls.head?).map Prod.fst = some t.left) : ValidAt ls t.left 0 := by
  cases ls with
  | nil => simp at hhead
  | cons e rest =>
    obtain ⟨p, l⟩ := e
    simp only [List.head?_cons, Option.map_some', Option.some.injEq] at hhead
    subst hhead
    have hne := Sub.leaf_nonempty hcapL hs (t.left, l) (by simp)
    exact ⟨[], rest, l, rfl, Or.inl (List.length_pos.2 hne)⟩

theorem ValidAt.tail {cfg : Config} {t : Tree α} {h : Nat} {ls : Leaves α} {fp : List Nat}
    (hs : Sub cfg t h true t.parent Ptr.root ls fp)
    (hlast : (ls.getLast?).map Prod.fst = some t.right) (tail : LeafNode α)
    (ht : t.leaf? t.right = some tail) : ValidAt ls t.right tail.item.length := by
  cases hl : ls.getLast? with
  | none => rw [hl] at hlast; simp at hlast
  | some e =>
    rw [hl] at hlast
    simp only [Option.map_some', Option.some.injEq] at hlast
    obtain ⟨init, hinit⟩ := List.getLast?_eq_some_iff.1 hl
    obtain ⟨l', hl', hitem⟩ := Sub.leaf_node hs e (by rw [hinit]; simp)
    rw [hlast, node?_of_leaf? ht] at hl'
    simp only [Option.some.injEq, Node.leaf.injEq] at hl'
    subst hl'
    refine ⟨init, [], e.2, ?_, Or.inr ⟨by rw [hitem], rfl⟩⟩
    rw [hinit, ← hlast]

theorem ValidAt.next {cfg : Config} {t : Tree α} {h : Nat} {ls : Leaves α} {fp : List Nat}
    (hcapL : 2 ≤ cfg.maxLeaf) (hs : Sub cfg t h true t.parent Ptr.root ls fp)
    (hchain : ChainOk t Ptr.root ls) (lf : Ptr) (w i : Nat)
    (hidx : indexIn ls (lf, w) = some i) (other : Pos)
    (hnext : advance_next_pos t (lf, w) = some other) (hne : other.1 ≠ Ptr.null) :
    ValidAt ls other.1 other.2 := by
  obtain ⟨l, hm, hlt, -⟩ := indexIn_get ls (lf, w) i hidx
  obtain ⟨A, B, hls⟩ := List.append_of_mem hm
  subst hls
  obtain ⟨n, hn, hnx0, hnx1⟩ := ChainOk.next_mid A lf l B Ptr.root hchain
  obtain ⟨n', hn', hitem⟩ := Sub.leaf_node hs (lf, l) hm
  rw [node?_of_leaf? hn] at hn'
  simp only [Option.some.injEq, Node.leaf.injEq] at hn'
  subst hn'
  simp only [] at hitem hlt
  obtain ⟨b, hb, -⟩ := Sub.leaf_mem hs _ hm
  simp only [] at hb
  have hlfn : lf ≠ Ptr.null := by rw [hb]; simp
  simp only [advance_next_pos, if_neg hlfn, hn, Option.pure_def, Option.bind_eq_bind,
    Option.some_bind] at hnext
  by_cases hend : w + 1 ≥ n.item.length
  · rw [if_pos hend] at hnext
    simp only [Option.some.injEq] at hnext
    subst hnext
    simp only [] at hne ⊢
    by_cases hr : n.next = Ptr.root
    · rw [if_pos hr] at hne; exact absurd rfl hne
    · rw [if_neg hr]
      cases B with
      | nil => exact absurd (hnx0 rfl) hr
      | cons e B' =>
        have he := hnx1 e rfl
        obtain ⟨p', l'⟩ := e
        simp only [] at he
        have hne' := Sub.leaf_nonempty hcapL hs (p', l') (by simp)
        refine ⟨A ++ [(lf, l)], B', l', by rw [he]; simp, Or.inl (List.length_pos.2 hne')⟩
  · rw [if_neg hend] at hnext
    simp only [Option.some.injEq] at hnext
    subst hnext
    exact ⟨A, B, l, rfl, Or.inl (by simp only []; rw [← hitem]; omega)⟩

/-- Every path of `insert_hint_` on a non-empty container, for the hint
`end()` or a stored position. -/
theorem insert_hint_good (cfg : Config) (t : Tree α) (xs : List α) (v : α) (lf : Ptr) (w : Nat)
    (hcapL : 2 ≤ cfg.maxLeaf) (hcapI : 2 ≤ cfg.maxInner) (hsh : Shaped cfg t xs)
    (hsort : xs.Pairwise (· ≤ ·))
    (hvalid : lf ≠ Ptr.null → ∃ ls i, leafList t = some ls ∧ indexIn ls (lf, w) = some i) :
    HintGood cfg xs v (insert_hint_ cfg t lf w v) := by
  have hne := hsh.ne_root
  obtain ⟨h, ls, fp, hs, hnd, hit, hsz, hchain, hhead, hlast⟩ := id hsh
  have hll := leafList_of_sub hs hnd
  have hfirst : ∀ lf' w', lf' = t.left ∧ w' = 0 →
      HintGood cfg xs v (insert_pos_ cfg t lf' 0 v) := by
    rintro lf' w' ⟨rfl, -⟩
    exact HintGood.hint_pos cfg t xs v ls _ 0 hcapL hcapI hsh hll (ValidAt.first hcapL hs hhead)
  have htail : ∀ tail, t.leaf? t.right = some tail →
      HintGood cfg xs v (insert_pos_ cfg t t.right tail.item.length v) := fun tail ht =>
    HintGood.hint_pos cfg t xs v ls _ _ hcapL hcapI hsh hll (ValidAt.tail hs hlast tail ht)
  have hhere : lf ≠ Ptr.null → HintGood cfg xs v (insert_pos_ cfg t lf w v) := by
    intro hn
    obtain ⟨ls', i, hll', hidx⟩ := hvalid hn
    rw [hll] at hll'
    simp only [Option.some.injEq] at hll'
    subst hll'
    exact HintGood.hint_pos cfg t xs v ls _ _ hcapL hcapI hsh hll (ValidAt.of_index ls lf w i hidx)
  have hnext : ∀ other, lf ≠ Ptr.null → advance_next_pos t (lf, w) = some other →
      other.1 ≠ Ptr.null → HintGood cfg xs v (insert_pos_ cfg t other.1 other.2 v) := by
    intro other hn ho hon
    obtain ⟨ls', i, hll', hidx⟩ := hvalid hn
    rw [hll] at hll'
    simp only [Option.some.injEq] at hll'
    subst hll'
    exact HintGood.hint_pos cfg t xs v ls _ _ hcapL hcapI hsh hll
      (ValidAt.next hcapL hs hchain lf w i hidx other ho hon)
  have hno : ∀ lt, HintGood cfg xs v (insert_nohint_ cfg lt t v) := fun lt =>
    HintGood.hint_nohint cfg lt t xs v hcapL hcapI hsh hsort
  unfold insert_hint_ insert_tail_
  rw [if_neg hne]
  simp only [Option.pure_def, Option.bind_eq_bind]
  (repeat' split) <;>
    first
    | exact HintGood.hint_none cfg xs v
    | exact hno _
    | exact hfirst _ _ ‹_›
    | exact htail _ ‹_›
    | exact hhere ‹_›
    | exact hnext _ ‹_› ‹_› ‹_›

end HintInsert

end BPP

/-! ## Sizes after an insert -/

namespace BPP

section SizeClaims
variable {α : Type} [LinearOrder α]

theorem items_leavesOf_length (ps : List (Part α)) :
    (items (leavesOf ps)).length = (ps.map (fun q => (items q.leaves).length)).sum := by
  induction ps with
  | nil => simp
  | cons q rest ih => simp [items_append, ih]

/-- I4 holds below the root of a well-formed subtree. -/
theorem Sub.sizes_ok {cfg : Config} {t : Tree α} :
    ∀ {h : Nat} {isRoot : Bool} {p par : Ptr} {ls : Leaves α} {fp : List Nat} (fuel : Nat),
      Sub cfg t h isRoot p par ls fp → h + 1 ≤ fuel → BPP.sizes_ok t fuel p = true := by
  intro h
  induction h with
  | zero =>
    intro isRoot p par ls fp fuel hs hf
    obtain ⟨a, l, hp, hn, -⟩ := Sub.zero_iff.1 hs
    obtain ⟨f, rfl⟩ : ∃ f, fuel = f + 1 := ⟨fuel - 1, by omega⟩
    simp [BPP.sizes_ok, hn]
  | succ h ih =>
    intro isRoot p par ls fp fuel hs hf
    obtain ⟨a, n, ps, hp, hn, hpar, hlev, hsz, hc, hkeys, hne, hch, hls, hfp, hlo, hhi⟩ :=
      Sub.succ_iff.1 hs
    obtain ⟨f, rfl⟩ : ∃ f, fuel = f + 1 := ⟨fuel - 1, by omega⟩
    simp only [BPP.sizes_ok, hn, Bool.and_eq_true, List.all_eq_true, decide_eq_true_eq]
    refine ⟨fun c hcm => ?_, ?_⟩
    · rw [hc] at hcm
      simp only [List.mem_map] at hcm
      obtain ⟨q, hq, rfl⟩ := hcm
      exact ih f (hch q hq) (by omega)
    · rw [hsz, hls, items_leavesOf_length, hc, List.map_map]
      congr 1
      apply List.map_congr_left
      intro q hq
      simp [Sub.size? (hch q hq)]

/-- I4 after an insert into `t`: the walk from the real root finds every inner
node's size equal to the sum of its children's sizes, every leaf's size is its
fill, and the anchor's size is one more than before and is the number of
stored elements. -/
def SizesAfter (t T : Tree α) : Prop :=
  BPP.sizes_ok T (T.mem.length + 1) T.parent = true ∧
  (∀ ls, leafList T = some ls → ∀ e ∈ ls, T.size? e.1 = some e.2.length) ∧
  T.size = t.size + 1 ∧ (toList T).map List.length = some T.size

theorem Shaped.sizes {cfg : Config} {t T : Tree α} {ys : List α} (hsh : Shaped cfg T ys)
    (hlen : ys.length = t.size + 1) : SizesAfter t T := by
  have hx := hsh.toList_eq
  obtain ⟨h, ls, fp, hs, hnd, hit, hsz, -⟩ := hsh
  refine ⟨Sub.sizes_ok _ hs (Sub.fuel hs hnd), fun ls' hll e he => ?_, by rw [hsz, hlen], ?_⟩
  · rw [leafList_of_sub hs hnd] at hll
    simp only [Option.some.injEq] at hll
    subst hll
    obtain ⟨l, hl, hitem⟩ := Sub.leaf_node hs e he
    obtain ⟨b, hb, -⟩ := Sub.leaf_mem hs e he
    rw [hb] at hl ⊢
    rw [size?_leaf hl, hitem]
  · rw [hx, hsz]; rfl

/-- The container 10, 20, 25, 30, 40, 50: the container 10, 20, 30, 40, 50
after `insert(25)`, with or without a hint. -/
def sample5_25 : Tree Nat :=
  ⟨Ptr.node 2, 6, Ptr.node 0, Ptr.node 1,
    [some (Node.leaf ⟨Ptr.node 2, Ptr.root, Ptr.node 1, [10, 20]⟩),
     some (Node.leaf ⟨Ptr.node 2, Ptr.node 0, Ptr.root, [25, 30, 40, 50]⟩),
     some (Node.inner ⟨Ptr.root, 6, 1, [Ptr.node 0, Ptr.node 1], [20]⟩)]⟩

end SizeClaims

end BPP

/-! ## Relaxed fill and the merge of two leaves -/

namespace BPP

section Loose
variable {α : Type} [LinearOrder α]

/-- The capacity of a node of height `h`. -/
def capOf (cfg : Config) (h : Nat) : Nat := if h = 0 then cfg.maxLeaf else cfg.maxInner

/-- A well-formed subtree but for the fill of its root node, which is `len`:
the state of a node between the removal of an item and the repair of an
underflow. -/
def Loose (cfg : Config) (t : Tree α) : Nat → Ptr → Ptr → Leaves α → List Nat → Nat → Prop
  | 0, p, par, ls, fp, len =>
    ∃ a l, p = Ptr.node a ∧ t.node? p = some (Node.leaf l) ∧ l.parent = par ∧
      ls = [(p, l.item)] ∧ fp = [a] ∧ l.item.length = len
  | h + 1, p, par, ls, fp, len =>
    ∃ a n, ∃ ps : List (Part α), p = Ptr.node a ∧ t.node? p = some (Node.inner n) ∧
      n.parent = par ∧ n.level = h + 1 ∧ n.size = (items ls).length ∧
      n.children = ps.map Part.ptr ∧ n.item.map some = ps.dropLast.map Part.last ∧ ps ≠ [] ∧
      (∀ q ∈ ps, Sub cfg t h false q.ptr p q.leaves q.fp) ∧
      ls = leavesOf ps ∧ fp = a :: fpOf ps ∧ n.item.length = len

theorem Sub.loose {cfg : Config} {t : Tree α} {h : Nat} {isRoot : Bool} {p par : Ptr}
    {ls : Leaves α} {fp : List Nat} (hs : Sub cfg t h isRoot p par ls fp) :
    ∃ len, Loose cfg t h p par ls fp len ∧
      (if isRoot then 1 else capOf cfg h / 2) ≤ len ∧ len ≤ capOf cfg h := by
  cases h with
  | zero =>
    obtain ⟨a, l, hp, hn, hpar, hls, hfp, hlo, hhi⟩ := Sub.zero_iff.1 hs
    exact ⟨_, ⟨a, l, hp, hn, hpar, hls, hfp, rfl⟩, by simpa [capOf] using hlo,
      by simpa [capOf] using hhi⟩
  | succ h =>
    obtain ⟨a, n, ps, hp, hn, hpar, hlev, hsz, hc, hk, hne, hch, hls, hfp, hlo, hhi⟩ :=
      Sub.succ_iff.1 hs
    exact ⟨_, ⟨a, n, ps, hp, hn, hpar, hlev, hsz, hc, hk, hne, hch, hls, hfp, rfl⟩,
      by simpa [capOf] using hlo, by simpa [capOf] using hhi⟩

theorem Loose.sub {cfg : Config} {t : Tree α} {h : Nat} (isRoot : Bool) {p par : Ptr}
    {ls : Leaves α} {fp : List Nat} {len : Nat} (hl : Loose cfg t h p par ls fp len)
    (hlo : (if isRoot then 1 else capOf cfg h / 2) ≤ len) (hhi : len ≤ capOf cfg h) :
    Sub cfg t h isRoot p par ls fp := by
  cases h with
  | zero =>
    obtain ⟨a, l, hp, hn, hpar, hls, hfp, hlen⟩ := hl
    exact Sub.zero_iff.2 ⟨a, l, hp, hn, hpar, hls, hfp, by rw [hlen]; simpa [capOf] using hlo,
      by rw [hlen]; simpa [capOf] using hhi⟩
  | succ h =>
    obtain ⟨a, n, ps, hp, hn, hpar, hlev, hsz, hc, hk, hne, hch, hls, hfp, hlen⟩ := hl
    exact Sub.succ_iff.2 ⟨a, n, ps, hp, hn, hpar, hlev, hsz, hc, hk, hne, hch, hls, hfp,
      by rw [hlen]; simpa [capOf] using hlo, by rw [hlen]; simpa [capOf] using hhi⟩

end Loose

section LeafMerge
variable {α : Type} [LinearOrder α]

theorem node?_none_of_ge {t : Tree α} {b : Nat} (h : t.mem.length ≤ b) :
    t.node? (Ptr.node b) = none := by
  simp only [Tree.node?]
  rw [List.getElem?_eq_none h]
  rfl

/-- Stores into the cells `S` of a memory of fixed length leave every other
cell alone, also the unallocated ones. -/
theorem Mod.node_eq {t t' : Tree α} {S : List Nat} (hm : Mod t t' S)
    (hlen : t'.mem.length = t.mem.length) (b : Nat) (hb : b ∉ S) :
    t'.node? (Ptr.node b) = t.node? (Ptr.node b) := by
  by_cases hbl : b < t.mem.length
  · exact hm.2 b hbl hb
  · rw [node?_none_of_ge (by omega), node?_none_of_ge (by omega)]

/-- What `merge_leaves_` leaves behind: the items of both leaves in the left
one, which is linked to the successor of the right one; the right leaf empty
and detached. -/
theorem merge_leaves_spec (cfg : Config) (t : Tree α) (A B : Nat) (la lb : LeafNode α)
    (hA : t.node? (Ptr.node A) = some (Node.leaf la))
    (hB : t.node? (Ptr.node B) = some (Node.leaf lb)) (hAB : A ≠ B)
    (hcap : la.item.length + lb.item.length ≤ cfg.maxLeaf)
    (hnext : lb.next = Ptr.root ∨
      ∃ c m, lb.next = Ptr.node c ∧ c ≠ A ∧ c ≠ B ∧ t.node? (Ptr.node c) = some (Node.leaf m)) :
    ∃ t', merge_leaves_ cfg t (Ptr.node A) (Ptr.node B) = some (t', Result.fix) ∧
      t'.node? (Ptr.node A)
        = some (Node.leaf { la with item := la.item ++ lb.item, next := lb.next }) ∧
      t'.node? (Ptr.node B) = some (Node.leaf { lb with item := [], parent := Ptr.null }) ∧
      t'.mem.length = t.mem.length ∧ t'.parent = t.parent ∧ t'.size = t.size ∧
      t'.left = t.left ∧ t'.right = (if lb.next = Ptr.root then Ptr.node A else t.right) ∧
      (∀ b, b ≠ A → b ≠ B → lb.next ≠ Ptr.node b →
        t'.node? (Ptr.node b) = t.node? (Ptr.node b)) ∧
      (∀ c m, lb.next = Ptr.node c → t.node? (Ptr.node c) = some (Node.leaf m) →
        t'.node? (Ptr.node c) = some (Node.leaf { m with prev := Ptr.node A })) := by
  have hAl := lt_mem_of_node? hA
  have hBl := lt_mem_of_node? hB
  obtain ⟨t1, h1, hA1, hm1, hanc1, hlen1⟩ := modLeaf_step t A la
    (fun m => { m with item := m.item ++ lb.item }) hA
  obtain ⟨t2, h2, hA2, hm2, hanc2, hlen2⟩ := modLeaf_step t1 A _
    (fun m => { m with next := lb.next }) hA1
  have hfr2 : ∀ b, b ≠ A → t2.node? (Ptr.node b) = t.node? (Ptr.node b) := by
    intro b hb
    rw [hm2.node_eq hlen2 b (by simpa using hb), hm1.node_eq hlen1 b (by simpa using hb)]
  obtain ⟨t3, h3, hA3, hB3, hlen3, hp3, hs3, hl3, hr3, hfr3, hnx3⟩ : ∃ t3,
      (if lb.next ≠ Ptr.root then t2.modLeaf lb.next (fun m => { m with prev := Ptr.node A })
        else some { t2 with right := Ptr.node A }) = some t3 ∧
      t3.node? (Ptr.node A)
        = some (Node.leaf { la with item := la.item ++ lb.item, next := lb.next }) ∧
      t3.node? (Ptr.node B) = some (Node.leaf lb) ∧ t3.mem.length = t.mem.length ∧
      t3.parent = t.parent ∧ t3.size = t.size ∧ t3.left = t.left ∧
      t3.right = (if lb.next = Ptr.root then Ptr.node A else t.right) ∧
      (∀ b, b ≠ A → b ≠ B → lb.next ≠ Ptr.node b →
        t3.node? (Ptr.node b) = t.node? (Ptr.node b)) ∧
      (∀ c m, lb.next = Ptr.node c → t.node? (Ptr.node c) = some (Node.leaf m) →
        t3.node? (Ptr.node c) = some (Node.leaf { m with prev := Ptr.node A })) := by
    rcases hnext with hroot | ⟨c, m, hc, hcA, hcB, hm⟩
    · refine ⟨_, by rw [if_neg (not_not.2 hroot)], ?_, ?_, ?_, ?_, ?_, ?_, ?_, ?_, ?_⟩
      · simpa using hA2
      · simp only [node?_with_anchor]; rw [hfr2 B (Ne.symm hAB)]; exact hB
      · simp [hlen2, hlen1]
      · exact hanc2.1.trans hanc1.1
      · exact hanc2.2.1.trans hanc1.2.1
      · exact hanc2.2.2.1.trans hanc1.2.2.1
      · simp [hroot]
      · intro b hb _ _; simp only [node?_with_anchor]; exact hfr2 b hb
      · intro c m' hc; rw [hroot] at hc; simp at hc
    · have hnr : lb.next ≠ Ptr.root := by rw [hc]; simp
      have hc2 : t2.node? (Ptr.node c) = some (Node.leaf m) := by rw [hfr2 c hcA]; exact hm
      obtain ⟨t3, h3, hc3, hm3, hanc3, hlen3⟩ := modLeaf_step t2 c m
        (fun m => { m with prev := Ptr.node A }) hc2
      have hfr3 : ∀ b, b ≠ c → t3.node? (Ptr.node b) = t2.node? (Ptr.node b) := by
        intro b hb
        exact hm3.node_eq hlen3 b (by simpa using hb)
      refine ⟨t3, by rw [if_pos hnr, hc]; exact h3, ?_, ?_, ?_, ?_, ?_, ?_, ?_, ?_, ?_⟩
      · rw [hfr3 A (Ne.symm hcA)]; exact hA2
      · rw [hfr3 B (Ne.symm hcB), hfr2 B (Ne.symm hAB)]; exact hB
      · omega
      · exact hanc3.1.trans (hanc2.1.trans hanc1.1)
      · exact hanc3.2.1.trans (hanc2.2.1.trans hanc1.2.1)
      · exact hanc3.2.2.1.trans (hanc2.2.2.1.trans hanc1.2.2.1)
      · rw [if_neg hnr]; exact hanc3.2.2.2.trans (hanc2.2.2.2.trans hanc1.2.2.2)
      · intro b hbA hbB hbn
        have hbc : b ≠ c := fun e => hbn (by rw [hc, e])
        rw [hfr3 b hbc]; exact hfr2 b hbA
      · intro c' m' hc' hm'
        rw [hc] at hc'
        simp only [Ptr.node.injEq] at hc'
        subst hc'
        rw [hm] at hm'
        simp only [Option.some.injEq, Node.leaf.injEq] at hm'
        subst hm'
        exact hc3
  obtain ⟨t4, h4, hB4, hm4, hanc4, hlen4⟩ := modLeaf_step t3 B lb
    (fun m => { m with item := [] }) hB3
  obtain ⟨t5, h5, hB5, hm5, hanc5, hlen5⟩ := modLeaf_step t4 B _
    (fun m => { m with parent := Ptr.null }) hB4
  have hfr5 : ∀ b, b ≠ B → t5.node? (Ptr.node b) = t3.node? (Ptr.node b) := by
    intro b hb
    rw [hm5.node_eq hlen5 b (by simpa using hb), hm4.node_eq hlen4 b (by simpa using hb)]
  refine ⟨t5, ?_, ?_, hB5, by omega, ?_, ?_, ?_, ?_, ?_, ?_⟩
  · simp only [merge_leaves_, leaf?_of_node? hA, leaf?_of_node? hB, if_neg (not_lt.2 hcap), h1,
      h2, h3, h4, h5, Option.pure_def, Option.bind_eq_bind, Option.some_bind]
  · rw [hfr5 A hAB]; exact hA3
  · rw [hanc5.1, hanc4.1, hp3]
  · rw [hanc5.2.1, hanc4.2.1, hs3]
  · rw [hanc5.2.2.1, hanc4.2.2.1, hl3]
  · rw [hanc5.2.2.2, hanc4.2.2.2, hr3]
  · intro b hbA hbB hbn
    rw [hfr5 b hbB]; exact hfr3 b hbA hbB hbn
  · intro c m hc hm
    have hcB : c ≠ B := by
      rcases hnext with hroot | ⟨c', m', hc', -, hcB', -⟩
      · rw [hroot] at hc; simp at hc
      · rw [hc] at hc'; simp only [Ptr.node.injEq] at hc'; rw [hc']; exact hcB'
    rw [hfr5 c hcB]; exact hnx3 c m hc hm

/-- The chain after a leaf merge: the right leaf is gone and the left one is
linked to its successor. -/
theorem ChainSeg.merge_leaf {t t' : Tree α} (L R : Leaves α) (A B : Nat) (xa xb y : List α)
    (prev0 : Ptr) (la lb : LeafNode α)
    (hch : ChainSeg t prev0 (L ++ (Ptr.node A, xa) :: (Ptr.node B, xb) :: R) Ptr.root)
    (hnd : ((L ++ (Ptr.node A, xa) :: (Ptr.node B, xb) :: R).map Prod.fst).Nodup)
    (hA : t.node? (Ptr.node A) = some (Node.leaf la))
    (hB : t.node? (Ptr.node B) = some (Node.leaf lb))
    (hA' : t'.node? (Ptr.node A) = some (Node.leaf { la with item := y, next := lb.next }))
    (hfr : ∀ b, b ≠ A → b ≠ B → lb.next ≠ Ptr.node b →
      t'.node? (Ptr.node b) = t.node? (Ptr.node b))
    (hnx : ∀ c m, lb.next = Ptr.node c → t.node? (Ptr.node c) = some (Node.leaf m) →
      t'.node? (Ptr.node c) = some (Node.leaf { m with prev := Ptr.node A })) :
    ChainSeg t' prev0 (L ++ (Ptr.node A, y) :: R) Ptr.root := by
  obtain ⟨hL, hrest⟩ := (ChainSeg.append t L _ prev0 Ptr.root).1 hch
  obtain ⟨la0, hla0, hprevA, hnextA, lb0, hlb0, hprevB, hnextB, hR⟩ := hrest
  have ea : la0 = la := by
    have := node?_of_leaf? hla0
    rw [hA] at this
    simpa using this.symm
  have eb : lb0 = lb := by
    have := node?_of_leaf? hlb0
    rw [hB] at this
    simpa using this.symm
  subst ea eb
  rw [List.map_append, List.map_cons, List.map_cons] at hnd
  obtain ⟨hndL, hndR, hdisj⟩ := List.nodup_append.1 hnd
  have hAR : Ptr.node A ∉ R.map Prod.fst := fun e =>
    (List.nodup_cons.1 hndR).1 (List.mem_cons_of_mem _ e)
  have hBR : Ptr.node B ∉ R.map Prod.fst := (List.nodup_cons.1 (List.nodup_cons.1 hndR).2).1
  have hframe : ∀ (ls : Leaves α) (prev nxt : Ptr), ChainSeg t prev ls nxt →
      (∀ e ∈ ls, e.1 ≠ Ptr.node A ∧ e.1 ≠ Ptr.node B ∧ e.1 ≠ lb0.next) →
      ChainSeg t' prev ls nxt := by
    intro ls prev nxt hc hne
    refine ChainSeg.seg_frame ls prev nxt (fun e he => ?_) hc
    obtain ⟨b, m, hb, hm⟩ := ChainSeg.live ls prev nxt hc e he
    rw [hb]
    refine leaf?_eq_of_node? (hfr b ?_ ?_ ?_)
    · intro e'; exact (hne e he).1 (by rw [hb, e'])
    · intro e'; exact (hne e he).2.1 (by rw [hb, e'])
    · intro e'; exact (hne e he).2.2 (by rw [hb, e'])
  refine (ChainSeg.append t' L _ prev0 Ptr.root).2 ⟨?_, ?_⟩
  · refine hframe L prev0 _ hL (fun e he => ⟨?_, ?_, ?_⟩)
    · intro e'
      exact hdisj (List.mem_map_of_mem _ he) (by rw [e']; exact List.mem_cons_self _ _)
    · intro e'
      exact hdisj (List.mem_map_of_mem _ he)
        (by rw [e']; exact List.mem_cons_of_mem _ (List.mem_cons_self _ _))
    · intro e'
      rw [hnextB] at e'
      cases R with
      | nil =>
        simp only [headPtr] at e'
        obtain ⟨b, m, hb, -⟩ := ChainSeg.live L prev0 _ hL e he
        rw [hb] at e'; simp at e'
      | cons r rs =>
        obtain ⟨pr, yr⟩ := r
        simp only [headPtr] at e'
        exact hdisj (List.mem_map_of_mem _ he) (by rw [e']; simp)
  · refine ⟨_, leaf?_of_node? hA', hprevA, hnextB, ?_⟩
    cases R with
    | nil => trivial
    | cons r rs =>
      obtain ⟨pr, yr⟩ := r
      obtain ⟨m, hm, hmp, hmn, hrs⟩ := hR
      simp only [headPtr] at hnextB
      obtain ⟨b, m', hb, hm'⟩ := ChainSeg.live _ _ _
        (show ChainSeg t (Ptr.node B) ((pr, yr) :: rs) Ptr.root from ⟨m, hm, hmp, hmn, hrs⟩)
        (pr, yr) (List.mem_cons_self _ _)
      simp only at hb
      subst hb
      have em : m' = m := by
        have := node?_of_leaf? hm
        rw [hm'] at this
        simpa using this
      subst em
      refine ⟨_, leaf?_of_node? (hnx b m' hnextB hm'), rfl, hmn, ?_⟩
      simp only [List.map_cons] at hndR hAR hBR
      have hndrs := (List.nodup_cons.1 (List.nodup_cons.1 (List.nodup_cons.1 hndR).2).2)
      refine hframe rs _ _ hrs (fun e he => ⟨?_, ?_, ?_⟩)
      · intro e'
        exact hAR (by rw [← e']; exact List.mem_cons_of_mem _ (List.mem_map_of_mem _ he))
      · intro e'
        exact hBR (by rw [← e']; exact List.mem_cons_of_mem _ (List.mem_map_of_mem _ he))
      · intro e'
        rw [hnextB] at e'
        exact hndrs.1 (by rw [← e']; exact List.mem_map_of_mem _ he)

end LeafMerge

end BPP

/-! ## Pending states of an erase and the merge below a level-1 node -/

namespace BPP

section Seps
variable {α : Type} [LinearOrder α]

/-- Separators after two adjacent children became one that ends with the key
the second one ended with. -/
theorem sep_merge (pre post : List (Part α)) (A B M : Part α) (its : List α)
    (hsep : its.map some = (pre ++ A :: B :: post).dropLast.map Part.last)
    (hlast : post ≠ [] → M.last = B.last) :
    (its.eraseIdx pre.length).map some = (pre ++ M :: post).dropLast.map Part.last := by
  have e1 : (pre ++ A :: B :: post).dropLast = pre ++ A :: (B :: post).dropLast := by
    rw [List.dropLast_append_of_ne_nil _ (by simp),
      List.dropLast_cons_of_ne_nil (List.cons_ne_nil B post)]
  have e2 : (pre ++ M :: post).dropLast = pre ++ (M :: post).dropLast :=
    List.dropLast_append_of_ne_nil _ (by simp)
  rw [e1, List.map_append, List.map_cons] at hsep
  rw [e2, List.map_append]
  have hmap : (its.eraseIdx pre.length).map some = (its.map some).eraseIdx pre.length := by
    rw [List.eraseIdx_eq_take_drop_succ, List.eraseIdx_eq_take_drop_succ, List.map_append,
      List.map_take, List.map_drop]
  rw [hmap, hsep]
  have hl : pre.length = (pre.map Part.last).length := by simp
  rw [List.eraseIdx_append_of_length_le (by rw [← hl]), ← hl, Nat.sub_self, List.eraseIdx_cons_zero]
  congr 1
  cases post with
  | nil => simp
  | cons r rs =>
    rw [List.dropLast_cons_of_ne_nil (List.cons_ne_nil r rs),
      List.dropLast_cons_of_ne_nil (List.cons_ne_nil r rs), List.map_cons, List.map_cons,
      hlast (by simp)]

/-- Separators after two adjacent children exchanged items and the separator
between them was set to the key the first one now ends with. -/
theorem sep_shift (pre post : List (Part α)) (A B A' B' : Part α) (its : List α) (k : α)
    (hsep : its.map some = (pre ++ A :: B :: post).dropLast.map Part.last)
    (hk : A'.last = some k) (hlast : post ≠ [] → B'.last = B.last) :
    (its.set pre.length k).map some = (pre ++ A' :: B' :: post).dropLast.map Part.last := by
  have e1 : ∀ X Y : Part α, (pre ++ X :: Y :: post).dropLast = pre ++ X :: (Y :: post).dropLast := by
    intro X Y
    rw [List.dropLast_append_of_ne_nil _ (by simp),
      List.dropLast_cons_of_ne_nil (List.cons_ne_nil Y post)]
  rw [e1, List.map_append, List.map_cons] at hsep
  rw [e1, List.map_append, List.map_cons, List.map_set, hsep]
  have hl : pre.length = (pre.map Part.last).length := by simp
  rw [List.set_append_right _ _ (by rw [← hl]), ← hl, Nat.sub_self, List.set_cons_zero, hk]
  congr 2
  cases post with
  | nil => simp
  | cons r rs =>
    rw [List.dropLast_cons_of_ne_nil (List.cons_ne_nil r rs),
      List.dropLast_cons_of_ne_nil (List.cons_ne_nil r rs), List.map_cons, List.map_cons,
      hlast (by simp)]

/-- Separators after a child that is not the last one got another last key
and its separator was set to it. -/
theorem sep_store (pre post : List (Part α)) (A A' : Part α) (its : List α) (k : α)
    (hsep : its.map some = (pre ++ A :: post).dropLast.map Part.last)
    (hk : A'.last = some k) (hpost : post ≠ []) :
    (its.set pre.length k).map some = (pre ++ A' :: post).dropLast.map Part.last := by
  cases post with
  | nil => exact absurd rfl hpost
  | cons B rs => exact sep_shift pre rs A B A' B its k hsep hk (fun _ => rfl)

end Seps

section Pending
variable {α : Type} [LinearOrder α]

/-- The inner node `a` and its children `ps` after the level below it is done
with an erase.  Without `fix` the node lists the children and their
separators.  With `fix` a child was merged into a neighbour: the node still
lists the dead child `D` at slot `d` and one separator too many, and removing
the separator before slot `d` leaves the right ones; the dead child is one of
the nodes `F`. -/
def Pend (cfg : Config) (t : Tree α) (h : Nat) (a : Nat) (n : InnerNode α) (w : Nat)
    (ps : List (Part α)) (F : List Nat) (fix : Bool) : Prop :=
  ∃ n1, t.node? (Ptr.node a) = some (Node.inner n1) ∧ n1.parent = n.parent ∧
    n1.level = n.level ∧ n1.size = n.size ∧ n1.item.length = n.item.length ∧ ps ≠ [] ∧
    (∀ q ∈ ps, Sub cfg t h false q.ptr (Ptr.node a) q.leaves q.fp) ∧
    (if fix then
      ∃ d D, 1 ≤ d ∧ (d = w ∨ d = w + 1) ∧ d ≤ ps.length ∧
        n1.children = (ps.map Part.ptr).take d ++ Ptr.node D :: (ps.map Part.ptr).drop d ∧
        n1.item.length = ps.length ∧
        (n1.item.eraseIdx (d - 1)).map some = ps.dropLast.map Part.last ∧
        D ≠ a ∧ D ∉ fpOf ps ∧ (∃ x, t.node? (Ptr.node D) = some x) ∧
        (d = w → t.parent? (Ptr.node D) = some Ptr.null) ∧ D ∈ F
    else
      n1.children = ps.map Part.ptr ∧ n1.item.map some = ps.dropLast.map Part.last)

/-- The outcome of one level of an erase below the inner node `a`, whose
children were `ps`: the new children hold the items `xs`; nothing outside the
subtree of `a` changed but leaf-chain links; the chain, its ends and the
anchor are in order. -/
def RebOut (cfg : Config) (t t' : Tree α) (h : Nat) (a : Nat) (n : InnerNode α) (w : Nat)
    (ps : List (Part α)) (xs : List α) (X : Ptr) (L R : Leaves α) (prev0 : Ptr) (fix : Bool) :
    Prop :=
  t'.mem.length = t.mem.length ∧ t'.parent = t.parent ∧ t'.size = t.size ∧ t'.left = t.left ∧
  (∀ b, b ∉ a :: fpOf ps → SameCore t t' b) ∧
  ∃ ps', items (leavesOf ps') = xs ∧ (∀ b ∈ fpOf ps', b ∈ fpOf ps) ∧ (fpOf ps').Nodup ∧
    ChainOk t' prev0 (L ++ leavesOf ps' ++ R) ∧
    ((L ++ leavesOf ps' ++ R).map Prod.fst).Nodup ∧
    ((L ++ leavesOf ps' ++ R).head?).map Prod.fst
      = ((L ++ leavesOf ps ++ R).head?).map Prod.fst ∧
    ((L ++ leavesOf ps' ++ R).getLast?).map Prod.fst = some t'.right ∧
    (fix = false → (ps'.map Part.ptr)[w]? = some X) ∧
    Pend cfg t' h a n w ps' (fpOf ps) fix

/-- What the chain tells about the successor of a leaf. -/
theorem ChainOk.next_cases {t : Tree α} (Lc Rc : Leaves α) (B : Nat) (xb : List α) (prev0 : Ptr)
    (lb : LeafNode α) (hc : ChainOk t prev0 (Lc ++ (Ptr.node B, xb) :: Rc))
    (hB : t.node? (Ptr.node B) = some (Node.leaf lb)) :
    (Rc = [] ∧ lb.next = Ptr.root) ∨
      ∃ c m y rs, Rc = (Ptr.node c, y) :: rs ∧ lb.next = Ptr.node c ∧
        t.node? (Ptr.node c) = some (Node.leaf m) := by
  obtain ⟨n, hn, h0, h1⟩ := ChainOk.next_mid Lc (Ptr.node B) xb Rc prev0 hc
  have e : n = lb := by
    have := node?_of_leaf? hn
    rw [hB] at this
    simpa using this.symm
  subst e
  cases Rc with
  | nil => exact Or.inl ⟨rfl, h0 rfl⟩
  | cons r rs =>
    right
    obtain ⟨pr, y⟩ := r
    have hseg := (chainOk_iff_seg t _ prev0).1 hc
    obtain ⟨b, m, hb, hm⟩ := ChainSeg.live _ _ _ hseg (pr, y) (by simp)
    simp only [] at hb
    subst hb
    exact ⟨b, m, y, rs, rfl, h1 _ rfl, hm⟩

/-- A leaf as a child of a level-1 node. -/
def Part.ofLeaf (b : Nat) (xs : List α) : Part α := ⟨Ptr.node b, [(Ptr.node b, xs)], [b]⟩

theorem Sub.ofLeaf {cfg : Config} {t : Tree α} {isRoot : Bool} {par : Ptr} {q : Part α}
    (hs : Sub cfg t 0 isRoot q.ptr par q.leaves q.fp) :
    ∃ b l, q = Part.ofLeaf b l.item ∧ t.node? (Ptr.node b) = some (Node.leaf l) ∧
      l.parent = par ∧ (if isRoot then 1 else cfg.maxLeaf / 2) ≤ l.item.length ∧
      l.item.length ≤ cfg.maxLeaf := by
  obtain ⟨b, l, hp, hn, hpar, hls, hfp, hlo, hhi⟩ := Sub.zero_iff.1 hs
  refine ⟨b, l, ?_, by rw [← hp]; exact hn, hpar, hlo, hhi⟩
  obtain ⟨p, ls, fp⟩ := q
  simp only [] at hp hls hfp
  subst hp hls hfp
  rfl

theorem Sub.mk_leaf (cfg : Config) {t : Tree α} (isRoot : Bool) (b : Nat) (l : LeafNode α)
    (hn : t.node? (Ptr.node b) = some (Node.leaf l))
    (hlo : (if isRoot then 1 else cfg.maxLeaf / 2) ≤ l.item.length)
    (hhi : l.item.length ≤ cfg.maxLeaf) :
    Sub cfg t 0 isRoot (Part.ofLeaf b l.item).ptr l.parent (Part.ofLeaf b l.item).leaves
      (Part.ofLeaf b l.item).fp :=
  Sub.zero_iff.2 ⟨b, l, rfl, hn, rfl, rfl, rfl, hlo, hhi⟩

@[simp] theorem Part.ofLeaf_ptr (b : Nat) (xs : List α) :
    (Part.ofLeaf b xs).ptr = Ptr.node b := rfl

@[simp] theorem Part.ofLeaf_leaves (b : Nat) (xs : List α) :
    (Part.ofLeaf b xs).leaves = [(Ptr.node b, xs)] := rfl

@[simp] theorem Part.ofLeaf_fp (b : Nat) (xs : List α) : (Part.ofLeaf b xs).fp = [b] := rfl

@[simp] theorem Part.ofLeaf_last (b : Nat) (xs : List α) :
    (Part.ofLeaf b xs).last = xs.getLast? := by
  simp [Part.last, Part.ofLeaf, items]

/-- A cell that changed at most in its chain links. -/
theorem SameCore.of_prev {t t' : Tree α} {b : Nat} {m : LeafNode α} (p : Ptr)
    (h : t.node? (Ptr.node b) = some (Node.leaf m))
    (h' : t'.node? (Ptr.node b) = some (Node.leaf { m with prev := p })) : SameCore t t' b := by
  unfold SameCore
  rw [h, h']
  rfl

theorem SameCore.of_eq {t t' : Tree α} {b : Nat}
    (h : t'.node? (Ptr.node b) = t.node? (Ptr.node b)) : SameCore t t' b := by
  unfold SameCore
  rw [h]

end Pending

section LeafOps
variable {α : Type} [LinearOrder α]

/-- A store into a live leaf that keeps its links is a step on that cell. -/
theorem modLeaf_istep (t : Tree α) (a : Nat) (l : LeafNode α) (f : LeafNode α → LeafNode α)
    (hn : t.node? (Ptr.node a) = some (Node.leaf l)) (hp : (f l).prev = l.prev)
    (hx : (f l).next = l.next) :
    ∃ t', t.modLeaf (Ptr.node a) f = some t' ∧
      t'.node? (Ptr.node a) = some (Node.leaf (f l)) ∧ IStep t t' [a] ∧
      t'.mem.length = t.mem.length := by
  obtain ⟨t', h1, h2, h3, h4, h5⟩ := modLeaf_step t a l f hn
  refine ⟨t', h1, h2, ⟨h3, h4, fun p => ?_⟩, h5⟩
  unfold SameLinks
  cases p with
  | null => rfl
  | root => rfl
  | node b =>
    by_cases hb : b = a
    · subst hb
      rw [leaf?_of_node? h2, leaf?_of_node? hn]
      simp [hp, hx]
    · rw [leaf?_eq_of_node? (h3.node_eq h5 b (by simpa using hb))]

/-- The assignment of a separator inside the used part of the array. -/
theorem store_key_spec (cfg : Config) (t : Tree α) (a : Nat) (n : InnerNode α) (i : Nat) (k : α)
    (hn : t.node? (Ptr.node a) = some (Node.inner n)) (hi : i < n.item.length) :
    ∃ t', store_key_ cfg t (Ptr.node a) i k = some t' ∧
      t'.node? (Ptr.node a) = some (Node.inner { n with item := n.item.set i k }) ∧
      IStep t t' [a] ∧ t'.mem.length = t.mem.length := by
  obtain ⟨t', h1, h2, h3, h4⟩ := modInner_istep t a n
    (fun m => { m with item := n.item.set i k }) hn
  refine ⟨t', ?_, h2, h3, h4⟩
  simp only [store_key_, inner?_of_node? hn, store?, if_pos hi, h1, Option.pure_def,
    Option.bind_eq_bind, Option.some_bind]

/-- The chain, the frame and the anchor after a step that keeps the chain
links and the leaf pointers below the inner node `a`. -/
theorem RebOut.of_istep (cfg : Config) (t t' : Tree α) (h a : Nat) (n : InnerNode α) (w : Nat)
    (ps ps' : List (Part α)) (xs : List α) (X : Ptr) (L R : Leaves α) (prev0 : Ptr) (fix : Bool)
    (S : List Nat) (hst : IStep t t' S) (hlen : t'.mem.length = t.mem.length)
    (hS : ∀ b ∈ S, b ∈ a :: fpOf ps)
    (hptrs : (leavesOf ps').map Prod.fst = (leavesOf ps).map Prod.fst)
    (hitems : items (leavesOf ps') = xs) (hfp : ∀ b ∈ fpOf ps', b ∈ fpOf ps)
    (hnd' : (fpOf ps').Nodup) (hchain : ChainOk t prev0 (L ++ leavesOf ps ++ R))
    (hndl : ((L ++ leavesOf ps ++ R).map Prod.fst).Nodup)
    (hright : ((L ++ leavesOf ps ++ R).getLast?).map Prod.fst = some t.right)
    (hX : fix = false → (ps'.map Part.ptr)[w]? = some X)
    (hpend : Pend cfg t' h a n w ps' (fpOf ps) fix) :
    RebOut cfg t t' h a n w ps xs X L R prev0 fix := by
  have hmap : (L ++ leavesOf ps' ++ R).map Prod.fst = (L ++ leavesOf ps ++ R).map Prod.fst := by
    simp only [List.map_append, hptrs]
  unfold RebOut
  refine ⟨hlen, hst.2.1.1, hst.2.1.2.1, hst.2.1.2.2.1, fun b hb => ?_, ps', hitems, hfp, hnd',
    ?_, by rw [hmap]; exact hndl, ?_, ?_, hX, hpend⟩
  · exact SameCore.of_eq (hst.1.node_eq hlen b (fun e => hb (hS b e)))
  · refine (chainOk_iff_seg _ _ _).2 (ChainSeg.congr_ptrs _ _ _ _ hmap.symm ?_)
    exact (chainOk_iff_seg _ _ _).1 (ChainOk.chain_step hst.2.2 _ _ hchain)
  · rw [← List.head?_map, ← List.head?_map, hmap]
  · rw [← List.getLast?_map, hmap, List.getLast?_map, hright, hst.2.1.2.2.2]

set_option maxHeartbeats 800000 in
/-- Merging two adjacent leaves under the inner node `a`: the right one is
left dead in the node's child list. -/
theorem leaf_merge_pair (cfg : Config) (t : Tree α) (a : Nat) (n : InnerNode α) (w : Nat)
    (X : Ptr) (pre post : List (Part α)) (A B : Nat) (la lb : LeafNode α) (L R : Leaves α)
    (prev0 : Ptr) (hn : t.node? (Ptr.node a) = some (Node.inner n))
    (hc : n.children
      = (pre ++ Part.ofLeaf A la.item :: Part.ofLeaf B lb.item :: post).map Part.ptr)
    (hsep : n.item.map some
      = (pre ++ Part.ofLeaf A la.item :: Part.ofLeaf B lb.item :: post).dropLast.map Part.last)
    (hA : t.node? (Ptr.node A) = some (Node.leaf la))
    (hB : t.node? (Ptr.node B) = some (Node.leaf lb)) (hApar : la.parent = Ptr.node a)
    (hcap : la.item.length + lb.item.length ≤ cfg.maxLeaf)
    (hmin : cfg.maxLeaf / 2 ≤ la.item.length + lb.item.length) (hbne : lb.item ≠ [])
    (hw : w = pre.length ∨ w = pre.length + 1)
    (hch : ∀ q ∈ pre ++ post, Sub cfg t 0 false q.ptr (Ptr.node a) q.leaves q.fp)
    (hnd : (a :: fpOf (pre ++ Part.ofLeaf A la.item :: Part.ofLeaf B lb.item :: post)).Nodup)
    (hchain : ChainOk t prev0
      (L ++ leavesOf (pre ++ Part.ofLeaf A la.item :: Part.ofLeaf B lb.item :: post) ++ R))
    (hndl : ((L ++ leavesOf (pre ++ Part.ofLeaf A la.item :: Part.ofLeaf B lb.item :: post)
      ++ R).map Prod.fst).Nodup)
    (hright : ((L ++ leavesOf (pre ++ Part.ofLeaf A la.item :: Part.ofLeaf B lb.item :: post)
      ++ R).getLast?).map Prod.fst = some t.right) :
    ∃ t', merge_leaves_ cfg t (Ptr.node A) (Ptr.node B) = some (t', Result.fix) ∧
      RebOut cfg t t' 0 a n w (pre ++ Part.ofLeaf A la.item :: Part.ofLeaf B lb.item :: post)
        (items (leavesOf (pre ++ Part.ofLeaf A la.item :: Part.ofLeaf B lb.item :: post)))
        X L R prev0 true := by
  have elist : L ++ leavesOf (pre ++ Part.ofLeaf A la.item :: Part.ofLeaf B lb.item :: post) ++ R
      = (L ++ leavesOf pre) ++ (Ptr.node A, la.item) :: (Ptr.node B, lb.item)
        :: (leavesOf post ++ R) := by
    simp [leavesOf_append, leavesOf_cons]
  have elist' : L ++ leavesOf (pre ++ Part.ofLeaf A (la.item ++ lb.item) :: post) ++ R
      = (L ++ leavesOf pre) ++ (Ptr.node A, la.item ++ lb.item) :: (leavesOf post ++ R) := by
    simp [leavesOf_append, leavesOf_cons]
  rw [elist] at hchain hndl hright
  have hfp : fpOf (pre ++ Part.ofLeaf A la.item :: Part.ofLeaf B lb.item :: post)
      = fpOf pre ++ (A :: B :: fpOf post) := by
    simp [fpOf_append, fpOf_cons]
  rw [hfp] at hnd
  obtain ⟨haN, hndps⟩ := List.nodup_cons.1 hnd
  obtain ⟨hndpre, hndAB, hdis⟩ := List.nodup_append.1 hndps
  have hAB : A ≠ B := fun e => (List.nodup_cons.1 hndAB).1 (by rw [e]; simp)
  have haA : a ≠ A := fun e => haN (by rw [e]; simp)
  have haB : a ≠ B := fun e => haN (by rw [e]; simp)
  -- the successor of the right leaf
  have hchainB : ChainOk t prev0 ((L ++ leavesOf pre ++ [(Ptr.node A, la.item)])
      ++ (Ptr.node B, lb.item) :: (leavesOf post ++ R)) := by
    simpa using hchain
  have hnextc := ChainOk.next_cases _ _ B lb.item prev0 lb hchainB hB
  have hndl' := hndl
  rw [List.map_append, List.map_cons, List.map_cons] at hndl'
  obtain ⟨-, hndABR, -⟩ := List.nodup_append.1 hndl'
  have hAR : Ptr.node A ∉ (leavesOf post ++ R).map Prod.fst := fun e =>
    (List.nodup_cons.1 hndABR).1 (List.mem_cons_of_mem _ e)
  have hBR : Ptr.node B ∉ (leavesOf post ++ R).map Prod.fst :=
    (List.nodup_cons.1 (List.nodup_cons.1 hndABR).2).1
  have hnext : lb.next = Ptr.root ∨ ∃ c m, lb.next = Ptr.node c ∧ c ≠ A ∧ c ≠ B ∧
      t.node? (Ptr.node c) = some (Node.leaf m) := by
    rcases hnextc with ⟨-, h⟩ | ⟨c, m, y, rs, hRc, hc', hm⟩
    · exact Or.inl h
    · refine Or.inr ⟨c, m, hc', fun e => hAR ?_, fun e => hBR ?_, hm⟩
      · rw [hRc, ← e]; simp
      · rw [hRc, ← e]; simp
  obtain ⟨t', hmerge, hA', hB', hlen, hpar, hsize, hleft, hright', hfr, hnx⟩ :=
    merge_leaves_spec cfg t A B la lb hA hB hAB hcap hnext
  have hcore : ∀ b, b ≠ A → b ≠ B → SameCore t t' b := by
    intro b hbA hbB
    by_cases hbn : lb.next = Ptr.node b
    · rcases hnext with hr | ⟨c, m, hc', -, -, hm⟩
      · rw [hr] at hbn; simp at hbn
      · rw [hc'] at hbn
        simp only [Ptr.node.injEq] at hbn
        subst hbn
        exact SameCore.of_prev _ hm (hnx c m hc' hm)
    · exact SameCore.of_eq (hfr b hbA hbB hbn)
  have ha' : t'.node? (Ptr.node a) = some (Node.inner n) := (hcore a haA haB).inner hn
  refine ⟨t', hmerge, ?_⟩
  unfold RebOut Pend
  refine ⟨hlen, hpar, hsize, hleft, fun b hb => ?_,
    pre ++ Part.ofLeaf A (la.item ++ lb.item) :: post, ?_, ?_, ?_, ?_, ?_, ?_, ?_,
    fun e => by simp at e, ?_⟩
  · refine hcore b (fun e => hb ?_) (fun e => hb ?_)
    · rw [hfp, e]; simp
    · rw [hfp, e]; simp
  · simp [leavesOf_append, leavesOf_cons, items_append]
  · intro b hb
    rw [hfp]
    simp only [fpOf_append, fpOf_cons, Part.ofLeaf_fp, List.mem_append, List.mem_cons,
      List.mem_singleton, List.not_mem_nil, or_false] at hb ⊢
    tauto
  · simp only [fpOf_append, fpOf_cons, Part.ofLeaf_fp, List.singleton_append]
    refine List.nodup_append.2 ⟨hndpre, ?_, fun x h1 h2 => ?_⟩
    · exact List.nodup_cons.2 ⟨fun e => (List.nodup_cons.1 hndAB).1 (List.mem_cons_of_mem _ e),
        (List.nodup_cons.1 (List.nodup_cons.1 hndAB).2).2⟩
    · refine hdis h1 ?_
      rcases List.mem_cons.1 h2 with rfl | h2
      · simp
      · exact List.mem_cons_of_mem _ (List.mem_cons_of_mem _ h2)
  · rw [elist']
    exact (chainOk_iff_seg _ _ _).2 (ChainSeg.merge_leaf _ _ A B la.item lb.item _ prev0 la lb
      ((chainOk_iff_seg _ _ _).1 hchain) hndl hA hB hA' hfr hnx)
  · rw [elist', List.map_append, List.map_cons]
    rw [List.map_append, List.map_cons, List.map_cons] at hndl
    obtain ⟨h1, h2, h3⟩ := List.nodup_append.1 hndl
    refine List.nodup_append.2 ⟨h1, ?_, fun x hx1 hx2 => ?_⟩
    · exact List.nodup_cons.2 ⟨hAR, (List.nodup_cons.1 (List.nodup_cons.1 h2).2).2⟩
    · refine h3 hx1 ?_
      rcases List.mem_cons.1 hx2 with rfl | hx2
      · simp
      · exact List.mem_cons_of_mem _ (List.mem_cons_of_mem _ hx2)
  · rw [elist', elist]
    cases hL : L ++ leavesOf pre with
    | nil => simp
    | cons x xs => simp
  · rw [elist', hright']
    rcases hnextc with ⟨hRc, hr⟩ | ⟨c, m, y, rs, hRc, hc', hm⟩
    · rw [hRc, if_pos hr]; simp
    · have hnr : lb.next ≠ Ptr.root := by rw [hc']; simp
      rw [if_neg hnr, ← hright, hRc]
      simp [List.getLast?_append, List.getLast?_cons_cons]
  · have hM : t'.node? (Ptr.node A) = some (Node.leaf
        { la with item := la.item ++ lb.item, next := lb.next }) := hA'
    refine ⟨n, ha', rfl, rfl, rfl, rfl, by simp, fun q hq => ?_, ?_⟩
    · rcases List.mem_append.1 hq with h1 | h1
      · refine Sub.frame (hch q (List.mem_append_left _ h1)) (fun b hb => hcore b ?_ ?_)
        · intro e; subst e; exact hdis (mem_fpOf h1 hb) (by simp)
        · intro e; subst e; exact hdis (mem_fpOf h1 hb) (by simp)
      · rcases List.mem_cons.1 h1 with h2 | h2
        · subst h2
          have := Sub.mk_leaf cfg false A _ hM (by simpa using hmin)
            (by simpa using hcap)
          simp only [] at this
          rw [hApar] at this
          exact this
        · refine Sub.frame (hch q (List.mem_append_right _ h2)) (fun b hb => hcore b ?_ ?_)
          · intro e; subst e
            exact (List.nodup_cons.1 hndAB).1 (List.mem_cons_of_mem _ (mem_fpOf h2 hb))
          · intro e; subst e
            exact (List.nodup_cons.1 (List.nodup_cons.1 hndAB).2).1 (mem_fpOf h2 hb)
    · rw [if_pos rfl]
      refine ⟨pre.length + 1, B, by omega, by omega, by simp, ?_, ?_, ?_, Ne.symm haB, ?_,
        ⟨_, hB'⟩, fun _ => ?_, ?_⟩
      · rw [hc]
        simp only [List.map_append, List.map_cons, Part.ofLeaf_ptr]
        have e : pre.length = (pre.map Part.ptr).length := by simp
        rw [e, take_succ_length_append, drop_succ_length_append]
        simp
      · have := congrArg List.length hsep
        simp only [List.length_map, List.length_dropLast, List.length_append,
          List.length_cons] at this
        simp only [List.length_append, List.length_cons]
        omega
      · simp only [Nat.add_sub_cancel]
        refine sep_merge pre post _ _ _ n.item hsep (fun _ => ?_)
        simp only [Part.ofLeaf_last]
        exact List.getLast?_append_of_ne_nil _ hbne
      · simp only [fpOf_append, fpOf_cons, Part.ofLeaf_fp, List.mem_append, List.mem_cons,
          List.mem_singleton, List.not_mem_nil, or_false, not_or]
        refine ⟨fun e => hdis e (by simp), Ne.symm hAB, ?_⟩
        exact (List.nodup_cons.1 (List.nodup_cons.1 hndAB).2).1
      · rw [parent?_leaf hB']
      · rw [hfp]; simp

end LeafOps

end BPP

/-! ## Shifts between two leaves -/

namespace BPP

section LeafShift
variable {α : Type} [LinearOrder α]

theorem getLast?_eq_getElem?_wsub {β : Type} (l : List β) (hne : l ≠ []) :
    l[wsub l.length 1]? = l.getLast? := by
  have := List.length_pos.2 hne
  rw [wsub_of_le (by omega), List.getLast?_eq_getElem?]

/-- What `shift_left_leaf_` leaves behind when the left leaf is not the last
child: items moved from the front of the right leaf to the end of the left
one, and the separator of the left leaf set to its new last key. -/
theorem shift_left_leaf_spec (cfg : Config) (t : Tree α) (A B a : Nat) (la lb : LeafNode α)
    (n : InnerNode α) (pw : Nat) (hA : t.node? (Ptr.node A) = some (Node.leaf la))
    (hB : t.node? (Ptr.node B) = some (Node.leaf lb))
    (hn : t.node? (Ptr.node a) = some (Node.inner n)) (hAB : A ≠ B)
    (hle : la.item.length ≤ lb.item.length)
    (hcap : la.item.length + (lb.item.length - la.item.length) / 2 ≤ cfg.maxLeaf)
    (hpos : 1 ≤ la.item.length + (lb.item.length - la.item.length) / 2)
    (hpw : pw < n.item.length) :
    ∃ t' k, shift_left_leaf_ cfg t (Ptr.node A) (Ptr.node B) (Ptr.node a) pw
        = some (t', Result.ok) ∧
      (la.item ++ lb.item.take ((lb.item.length - la.item.length) / 2)).getLast? = some k ∧
      t'.node? (Ptr.node A) = some (Node.leaf
        { la with item := la.item ++ lb.item.take ((lb.item.length - la.item.length) / 2) }) ∧
      t'.node? (Ptr.node B) = some (Node.leaf
        { lb with item := lb.item.drop ((lb.item.length - la.item.length) / 2) }) ∧
      t'.node? (Ptr.node a) = some (Node.inner { n with item := n.item.set pw k }) ∧
      IStep t t' [A, B, a] ∧ t'.mem.length = t.mem.length := by
  have hs : wsub lb.item.length la.item.length / 2 = (lb.item.length - la.item.length) / 2 := by
    rw [wsub_of_le hle]
  generalize hsdef : (lb.item.length - la.item.length) / 2 = s at hcap hpos hs ⊢
  have hsle : s ≤ lb.item.length := by omega
  have hsl1 : slice? lb.item 0 s = some (lb.item.take s) := by
    rw [slice?_eq _ _ _ (Nat.zero_le _) hsle, List.drop_zero]
  have hsl2 : slice? lb.item s lb.item.length = some (lb.item.drop s) := by
    rw [slice?_eq _ _ _ hsle (le_refl _), List.take_length]
  obtain ⟨t1, h1, hA1, hst1, hlen1⟩ := modLeaf_istep t A la
    (fun m => { m with item := m.item ++ lb.item.take s }) hA rfl rfl
  have hB1 : t1.node? (Ptr.node B) = some (Node.leaf lb) := by
    rw [hst1.1.node_eq hlen1 B (by simpa using Ne.symm hAB)]; exact hB
  obtain ⟨t2, h2, hB2, hst2, hlen2⟩ := modLeaf_istep t1 B lb
    (fun m => { m with item := lb.item.drop s }) hB1 rfl rfl
  have hA2 : t2.node? (Ptr.node A) = some (Node.leaf { la with item := la.item ++ lb.item.take s }) := by
    rw [hst2.1.node_eq hlen2 A (by simpa using hAB)]; exact hA1
  have haA : a ≠ A := fun e => by rw [e, hA] at hn; simp at hn
  have haB : a ≠ B := fun e => by rw [e, hB] at hn; simp at hn
  have hn2 : t2.node? (Ptr.node a) = some (Node.inner n) := by
    rw [hst2.1.node_eq hlen2 a (by simpa using haB), hst1.1.node_eq hlen1 a (by simpa using haA)]
    exact hn
  have hne : la.item ++ lb.item.take s ≠ [] := by
    intro e
    have := congrArg List.length e
    simp only [List.length_append, List.length_take, List.length_nil] at this
    omega
  obtain ⟨k, hk⟩ : ∃ k, (la.item ++ lb.item.take s).getLast? = some k := by
    cases hl : (la.item ++ lb.item.take s).getLast? with
    | none => exact absurd (List.getLast?_eq_none_iff.1 hl) hne
    | some k => exact ⟨k, rfl⟩
  obtain ⟨t3, h3, hn3, hst3, hlen3⟩ := store_key_spec cfg t2 a n pw k hn2 hpw
  refine ⟨t3, k, ?_, hk, ?_, ?_, hn3, ?_, by omega⟩
  · simp only [shift_left_leaf_, leaf?_of_node? hA, leaf?_of_node? hB, hs,
      if_neg (not_lt.2 hcap), hsl1, hsl2, h1, h2, leaf?_of_node? hA2,
      getLast?_eq_getElem?_wsub _ hne, hk, inner?_of_node? hn2, if_pos hpw, h3, Option.pure_def,
      Option.bind_eq_bind, Option.some_bind]
  · rw [hst3.1.node_eq hlen3 A (by simpa using Ne.symm haA)]; exact hA2
  · rw [hst3.1.node_eq hlen3 B (by simpa using Ne.symm haB)]; exact hB2
  · exact ((hst1.istep_trans hst2).istep_trans hst3).istep_mono (fun b hb _ => by simpa using hb)

/-- What `shift_right_leaf_` leaves behind: items moved from the end of the
left leaf to the front of the right one, and the separator of the left leaf
set to its new last key. -/
theorem shift_right_leaf_spec (cfg : Config) (t : Tree α) (A B a : Nat) (la lb : LeafNode α)
    (n : InnerNode α) (pw : Nat) (hA : t.node? (Ptr.node A) = some (Node.leaf la))
    (hB : t.node? (Ptr.node B) = some (Node.leaf lb))
    (hn : t.node? (Ptr.node a) = some (Node.inner n)) (hAB : A ≠ B)
    (hle : lb.item.length ≤ la.item.length)
    (hcap : lb.item.length + (la.item.length - lb.item.length) / 2 ≤ cfg.maxLeaf)
    (hpos : (la.item.length - lb.item.length) / 2 < la.item.length)
    (hpw : pw < n.item.length) :
    ∃ t' k, shift_right_leaf_ cfg t (Ptr.node A) (Ptr.node B) (Ptr.node a) pw = some t' ∧
      (la.item.take (la.item.length - (la.item.length - lb.item.length) / 2)).getLast?
        = some k ∧
      t'.node? (Ptr.node A) = some (Node.leaf
        { la with item
          := la.item.take (la.item.length - (la.item.length - lb.item.length) / 2) }) ∧
      t'.node? (Ptr.node B) = some (Node.leaf
        { lb with item
          := la.item.drop (la.item.length - (la.item.length - lb.item.length) / 2)
            ++ lb.item }) ∧
      t'.node? (Ptr.node a) = some (Node.inner { n with item := n.item.set pw k }) ∧
      IStep t t' [A, B, a] ∧ t'.mem.length = t.mem.length := by
  have hs : wsub la.item.length lb.item.length / 2 = (la.item.length - lb.item.length) / 2 := by
    rw [wsub_of_le hle]
  generalize hsdef : (la.item.length - lb.item.length) / 2 = s at hcap hpos hs ⊢
  have hsle : s ≤ la.item.length := by omega
  have hw : wsub la.item.length s = la.item.length - s := wsub_of_le hsle
  have hsl1 : slice? la.item (la.item.length - s) la.item.length
      = some (la.item.drop (la.item.length - s)) := by
    rw [slice?_eq _ _ _ (by omega) (le_refl _), List.take_length]
  have hsl2 : slice? la.item 0 (la.item.length - s) = some (la.item.take (la.item.length - s)) := by
    rw [slice?_eq _ _ _ (Nat.zero_le _) (by omega), List.drop_zero]
  obtain ⟨t1, h1, hB1, hst1, hlen1⟩ := modLeaf_istep t B lb
    (fun m => { m with item := la.item.drop (la.item.length - s) ++ m.item }) hB rfl rfl
  have hA1 : t1.node? (Ptr.node A) = some (Node.leaf la) := by
    rw [hst1.1.node_eq hlen1 A (by simpa using hAB)]; exact hA
  obtain ⟨t2, h2, hA2, hst2, hlen2⟩ := modLeaf_istep t1 A la
    (fun m => { m with item := la.item.take (la.item.length - s) }) hA1 rfl rfl
  have hB2 : t2.node? (Ptr.node B) = some (Node.leaf
      { lb with item := la.item.drop (la.item.length - s) ++ lb.item }) := by
    rw [hst2.1.node_eq hlen2 B (by simpa using Ne.symm hAB)]; exact hB1
  have haA : a ≠ A := fun e => by rw [e, hA] at hn; simp at hn
  have haB : a ≠ B := fun e => by rw [e, hB] at hn; simp at hn
  have hn2 : t2.node? (Ptr.node a) = some (Node.inner n) := by
    rw [hst2.1.node_eq hlen2 a (by simpa using haA), hst1.1.node_eq hlen1 a (by simpa using haB)]
    exact hn
  have hne : la.item.take (la.item.length - s) ≠ [] := by
    intro e
    have := congrArg List.length e
    simp only [List.length_take, List.length_nil] at this
    omega
  obtain ⟨k, hk⟩ : ∃ k, (la.item.take (la.item.length - s)).getLast? = some k := by
    cases hl : (la.item.take (la.item.length - s)).getLast? with
    | none => exact absurd (List.getLast?_eq_none_iff.1 hl) hne
    | some k => exact ⟨k, rfl⟩
  obtain ⟨t3, h3, hn3, hst3, hlen3⟩ := store_key_spec cfg t2 a n pw k hn2 hpw
  refine ⟨t3, k, ?_, hk, ?_, ?_, hn3, ?_, by omega⟩
  · simp only [shift_right_leaf_, leaf?_of_node? hA, leaf?_of_node? hB, hs,
      if_neg (not_lt.2 hcap), hw, hsl1, hsl2, h1, h2, getLast?_eq_getElem?_wsub _ hne, hk, h3,
      Option.pure_def, Option.bind_eq_bind, Option.some_bind]
  · rw [hst3.1.node_eq hlen3 A (by simpa using Ne.symm haA)]; exact hA2
  · rw [hst3.1.node_eq hlen3 B (by simpa using Ne.symm haB)]; exact hB2
  · exact ((hst1.istep_trans hst2).istep_trans hst3).istep_mono (fun b hb _ => by
      simp only [List.mem_append, List.mem_singleton, List.mem_cons, List.not_mem_nil,
        or_false] at hb ⊢
      tauto)

/-- Two adjacent leaves under the inner node `a` after they exchanged items
and the separator between them was set. -/
theorem leaf_shift_pair (cfg : Config) (t t' : Tree α) (a : Nat) (n : InnerNode α) (w : Nat)
    (X : Ptr) (pre post : List (Part α)) (A B : Nat) (la lb : LeafNode α) (xa xb : List α)
    (k : α) (L R : Leaves α) (prev0 : Ptr)
    (hc : n.children
      = (pre ++ Part.ofLeaf A la.item :: Part.ofLeaf B lb.item :: post).map Part.ptr)
    (hsep : n.item.map some
      = (pre ++ Part.ofLeaf A la.item :: Part.ofLeaf B lb.item :: post).dropLast.map Part.last)
    (hApar : la.parent = Ptr.node a) (hBpar : lb.parent = Ptr.node a)
    (hch : ∀ q ∈ pre ++ post, Sub cfg t 0 false q.ptr (Ptr.node a) q.leaves q.fp)
    (hnd : (a :: fpOf (pre ++ Part.ofLeaf A la.item :: Part.ofLeaf B lb.item :: post)).Nodup)
    (hchain : ChainOk t prev0
      (L ++ leavesOf (pre ++ Part.ofLeaf A la.item :: Part.ofLeaf B lb.item :: post) ++ R))
    (hndl : ((L ++ leavesOf (pre ++ Part.ofLeaf A la.item :: Part.ofLeaf B lb.item :: post)
      ++ R).map Prod.fst).Nodup)
    (hright : ((L ++ leavesOf (pre ++ Part.ofLeaf A la.item :: Part.ofLeaf B lb.item :: post)
      ++ R).getLast?).map Prod.fst = some t.right)
    (hA' : t'.node? (Ptr.node A) = some (Node.leaf { la with item := xa }))
    (hB' : t'.node? (Ptr.node B) = some (Node.leaf { lb with item := xb }))
    (hn' : t'.node? (Ptr.node a) = some (Node.inner { n with item := n.item.set pre.length k }))
    (hst : IStep t t' [A, B, a]) (hlen : t'.mem.length = t.mem.length)
    (hcat : xa ++ xb = la.item ++ lb.item) (hk : xa.getLast? = some k)
    (hblast : xb.getLast? = lb.item.getLast?)
    (hAlo : cfg.maxLeaf / 2 ≤ xa.length) (hAhi : xa.length ≤ cfg.maxLeaf)
    (hBlo : cfg.maxLeaf / 2 ≤ xb.length) (hBhi : xb.length ≤ cfg.maxLeaf)
    (hX : (X = Ptr.node A ∧ w = pre.length) ∨ (X = Ptr.node B ∧ w = pre.length + 1)) :
    RebOut cfg t t' 0 a n w (pre ++ Part.ofLeaf A la.item :: Part.ofLeaf B lb.item :: post)
      (items (leavesOf (pre ++ Part.ofLeaf A la.item :: Part.ofLeaf B lb.item :: post)))
      X L R prev0 false := by
  have hfp : fpOf (pre ++ Part.ofLeaf A la.item :: Part.ofLeaf B lb.item :: post)
      = fpOf pre ++ (A :: B :: fpOf post) := by
    simp [fpOf_append, fpOf_cons]
  have hfp' : fpOf (pre ++ Part.ofLeaf A xa :: Part.ofLeaf B xb :: post)
      = fpOf pre ++ (A :: B :: fpOf post) := by
    simp [fpOf_append, fpOf_cons]
  have hndps := (List.nodup_cons.1 hnd).2
  rw [hfp] at hndps
  obtain ⟨hndpre, hndAB, hdis⟩ := List.nodup_append.1 hndps
  refine RebOut.of_istep cfg t t' 0 a n w _
    (pre ++ Part.ofLeaf A xa :: Part.ofLeaf B xb :: post) _ X L R prev0 false [A, B, a] hst hlen
    (fun b hb => ?_) ?_ ?_ (fun b hb => ?_) ?_ hchain hndl hright (fun _ => ?_) ?_
  · rw [hfp]
    simp only [List.mem_cons, List.mem_singleton, List.not_mem_nil, or_false,
      List.mem_append] at hb ⊢
    tauto
  · simp [leavesOf_append, leavesOf_cons]
  · simp only [leavesOf_append, leavesOf_cons, items_append, Part.ofLeaf_leaves, items_cons,
      items_nil, List.append_nil]
    rw [← List.append_assoc xa, hcat]
    simp
  · rw [hfp] ; rw [hfp'] at hb; exact hb
  · rw [hfp']; exact hndps
  · rcases hX with ⟨rfl, rfl⟩ | ⟨rfl, rfl⟩
    · simp only [List.map_append, List.map_cons, Part.ofLeaf_ptr]
      rw [List.getElem?_append_right (by simp)]
      simp
    · simp only [List.map_append, List.map_cons, Part.ofLeaf_ptr]
      rw [List.getElem?_append_right (by simp)]
      simp
  · unfold Pend
    refine ⟨_, hn', rfl, rfl, rfl, by simp, by simp, fun q hq => ?_, ?_⟩
    · rcases List.mem_append.1 hq with h1 | h1
      · refine Sub.step (hch q (List.mem_append_left _ h1)) hst.1 (fun b hb e => ?_)
        simp only [List.mem_cons, List.mem_singleton, List.not_mem_nil, or_false] at e
        rcases e with rfl | rfl | rfl
        · exact hdis (mem_fpOf h1 hb) (by simp)
        · exact hdis (mem_fpOf h1 hb) (by simp)
        · exact (List.nodup_cons.1 hnd).1 (by rw [hfp]; exact List.mem_append_left _ (mem_fpOf h1 hb))
      · rcases List.mem_cons.1 h1 with h2 | h2
        · subst h2
          have := Sub.mk_leaf cfg false A _ hA' (by simpa using hAlo) (by simpa using hAhi)
          simp only [] at this
          rw [hApar] at this
          exact this
        · rcases List.mem_cons.1 h2 with h3 | h3
          · subst h3
            have := Sub.mk_leaf cfg false B _ hB' (by simpa using hBlo) (by simpa using hBhi)
            simp only [] at this
            rw [hBpar] at this
            exact this
          · refine Sub.step (hch q (List.mem_append_right _ h3)) hst.1 (fun b hb e => ?_)
            simp only [List.mem_cons, List.mem_singleton, List.not_mem_nil, or_false] at e
            have hbp : b ∈ fpOf post := mem_fpOf h3 hb
            rcases e with rfl | rfl | rfl
            · exact (List.nodup_cons.1 hndAB).1 (List.mem_cons_of_mem _ hbp)
            · exact (List.nodup_cons.1 (List.nodup_cons.1 hndAB).2).1 hbp
            · exact (List.nodup_cons.1 hnd).1 (by
                rw [hfp]
                exact List.mem_append_right _
                  (List.mem_cons_of_mem _ (List.mem_cons_of_mem _ hbp)))
    · rw [if_neg (by simp)]
      refine ⟨by rw [hc]; simp, ?_⟩
      exact sep_shift pre post _ _ (Part.ofLeaf A xa) (Part.ofLeaf B xb) n.item k hsep
        (by simpa using hk) (fun _ => by simpa using hblast)

end LeafShift

end BPP

/-! ## The rule a rebalance picks -/

namespace BPP

section LeafSel
variable {α : Type} [LinearOrder α]

/-- What a neighbour handed to a rebalance is: a sibling under the same
parent, or nothing or a readable leaf under another parent. -/
def NbLeaf (t : Tree α) (nb nbp parent : Ptr) : Prop :=
  (nbp = parent ∧ nb ≠ Ptr.null ∧ ∃ l, t.leaf? nb = some l) ∨
    (nbp ≠ parent ∧ (nb = Ptr.null ∨ ∃ l, t.leaf? nb = some l))

/-- The rule `rebalance_leaf_` picks acts on a sibling under the same parent:
a merge with a sibling that is few, or a shift from one that is not. -/
theorem rebalance_leaf_sel (cfg : Config) (t : Tree α) (node left right lp rp parent : Ptr)
    (pw : Nat) (result : Result α) (hl : NbLeaf t left lp parent) (hr : NbLeaf t right rp parent)
    (hone : lp = parent ∨ rp = parent) :
    (lp = parent ∧ (∃ l, t.leaf? left = some l ∧ l.item.length ≤ cfg.maxLeaf / 2) ∧
      rebalance_leaf_ cfg t node left right lp rp parent pw result
        = (merge_leaves_ cfg t left node).bind (fun x => some (x.1, result.or x.2))) ∨
    (rp = parent ∧ (∃ l, t.leaf? right = some l ∧ l.item.length ≤ cfg.maxLeaf / 2) ∧
      rebalance_leaf_ cfg t node left right lp rp parent pw result
        = (merge_leaves_ cfg t node right).bind (fun x => some (x.1, result.or x.2))) ∨
    (rp = parent ∧ (∃ l, t.leaf? right = some l ∧ cfg.maxLeaf / 2 < l.item.length) ∧
      rebalance_leaf_ cfg t node left right lp rp parent pw result
        = (shift_left_leaf_ cfg t node right rp pw).bind (fun x => some (x.1, result.or x.2))) ∨
    (lp = parent ∧ (∃ l, t.leaf? left = some l ∧ cfg.maxLeaf / 2 < l.item.length) ∧
      rebalance_leaf_ cfg t node left right lp rp parent pw result
        = (shift_right_leaf_ cfg t left node lp (wsub pw 1)).bind (fun x => some (x, result))) := by
  have hnl : ∀ l, t.leaf? Ptr.null ≠ some l := by
    intro l; simp [Tree.leaf?, Tree.node?]
  have hl' : (left = Ptr.null ∧ lp ≠ parent) ∨ (left ≠ Ptr.null ∧ ∃ l, t.leaf? left = some l) := by
    rcases hl with ⟨_, h2, h3⟩ | ⟨h1, h2 | ⟨l, h3⟩⟩
    · exact Or.inr ⟨h2, h3⟩
    · exact Or.inl ⟨h2, h1⟩
    · exact Or.inr ⟨fun e => hnl l (e ▸ h3), l, h3⟩
  have hr' : (right = Ptr.null ∧ rp ≠ parent) ∨
      (right ≠ Ptr.null ∧ ∃ l, t.leaf? right = some l) := by
    rcases hr with ⟨_, h2, h3⟩ | ⟨h1, h2 | ⟨l, h3⟩⟩
    · exact Or.inr ⟨h2, h3⟩
    · exact Or.inl ⟨h2, h1⟩
    · exact Or.inr ⟨fun e => hnl l (e ▸ h3), l, h3⟩
  clear hl hr
  by_cases hlp : lp = parent <;> by_cases hrp : rp = parent
  · rcases hl' with ⟨hln, h⟩ | ⟨hln, ll, hll⟩
    · exact absurd hlp h
    rcases hr' with ⟨hrn, h⟩ | ⟨hrn, rr, hrr⟩
    · exact absurd hrp h
    by_cases hfl : ll.item.length ≤ cfg.maxLeaf / 2 <;>
    by_cases hfr : rr.item.length ≤ cfg.maxLeaf / 2
    · refine Or.inl ⟨hlp, ⟨ll, hll, hfl⟩, ?_⟩
      simp [rebalance_leaf_, leaf_is_few, hll, hrr, hln, hrn, hfl, hfr, hlp, hrp]
      split
      · next h => simp [h]
      · next h =>
        symm
        rw [Option.bind_eq_none]
        intro b hx
        exact absurd hx (by first | exact h b.1 b.2 | exact h b)
    · refine Or.inr (Or.inr (Or.inl ⟨hrp, ⟨rr, hrr, by omega⟩, ?_⟩))
      simp [rebalance_leaf_, leaf_is_few, hll, hrr, hln, hrn, hfl, hfr, hlp, hrp]
      split
      · next h => simp [h]
      · next h =>
        symm
        rw [Option.bind_eq_none]
        intro b hx
        exact absurd hx (by first | exact h b.1 b.2 | exact h b)
    · refine Or.inr (Or.inr (Or.inr ⟨hlp, ⟨ll, hll, by omega⟩, ?_⟩))
      simp [rebalance_leaf_, leaf_is_few, hll, hrr, hln, hrn, hfl, hfr, hlp, hrp]
      split
      · next h => simp [h]
      · next h =>
        symm
        rw [Option.bind_eq_none]
        intro b hx
        exact absurd hx (by first | exact h b.1 b.2 | exact h b)
    · by_cases hcmp : ll.item.length ≤ rr.item.length
      · refine Or.inr (Or.inr (Or.inl ⟨hrp, ⟨rr, hrr, by omega⟩, ?_⟩))
        simp [rebalance_leaf_, leaf_is_few, hll, hrr, hln, hrn, hfl, hfr, hlp, hrp,
          hcmp]
        split
        · next h => simp [h]
        · next h =>
          symm
          rw [Option.bind_eq_none]
          intro b hx
          exact absurd hx (by first | exact h b.1 b.2 | exact h b)
      · refine Or.inr (Or.inr (Or.inr ⟨hlp, ⟨ll, hll, by omega⟩, ?_⟩))
        simp [rebalance_leaf_, leaf_is_few, hll, hrr, hln, hrn, hfl, hfr, hlp, hrp,
          hcmp]
        split
        · next h => simp [h]
        · next h =>
          symm
          rw [Option.bind_eq_none]
          intro b hx
          exact absurd hx (by first | exact h b.1 b.2 | exact h b)
  · rcases hl' with ⟨hln, h⟩ | ⟨hln, ll, hll⟩
    · exact absurd hlp h
    have hne : parent ≠ rp := fun e => hrp e.symm
    by_cases hfl : ll.item.length ≤ cfg.maxLeaf / 2
    · refine Or.inl ⟨hlp, ⟨ll, hll, hfl⟩, ?_⟩
      rcases hr' with ⟨hrn, h⟩ | ⟨hrn, rr, hrr⟩
      · simp [rebalance_leaf_, leaf_is_few, hll, hln, hrn, hfl, hlp, hrp]
        split
        · next h => simp [h]
        · next h =>
          symm
          rw [Option.bind_eq_none]
          intro b hx
          exact absurd hx (by first | exact h b.1 b.2 | exact h b)
      · by_cases hfr : rr.item.length ≤ cfg.maxLeaf / 2
        · simp [rebalance_leaf_, leaf_is_few, hll, hrr, hln, hrn, hfl, hfr, hlp, hrp]
          split
          · next h => simp [h]
          · next h =>
            symm
            rw [Option.bind_eq_none]
            intro b hx
            exact absurd hx (by first | exact h b.1 b.2 | exact h b)
        · simp [rebalance_leaf_, leaf_is_few, hll, hrr, hln, hrn, hfl, hfr, hlp, hrp]
          split
          · next h => simp [h]
          · next h =>
            symm
            rw [Option.bind_eq_none]
            intro b hx
            exact absurd hx (by first | exact h b.1 b.2 | exact h b)
    · refine Or.inr (Or.inr (Or.inr ⟨hlp, ⟨ll, hll, by omega⟩, ?_⟩))
      rcases hr' with ⟨hrn, h⟩ | ⟨hrn, rr, hrr⟩
      · simp [rebalance_leaf_, leaf_is_few, hll, hln, hrn, hfl, hlp, hrp, hne]
        split
        · next h => simp [h]
        · next h =>
          symm
          rw [Option.bind_eq_none]
          intro b hx
          exact absurd hx (by first | exact h b.1 b.2 | exact h b)
      · by_cases hfr : rr.item.length ≤ cfg.maxLeaf / 2
        · simp [rebalance_leaf_, leaf_is_few, hll, hrr, hln, hrn, hfl, hfr, hlp, hrp,
            hne]
          split
          · next h => simp [h]
          · next h =>
            symm
            rw [Option.bind_eq_none]
            intro b hx
            exact absurd hx (by first | exact h b.1 b.2 | exact h b)
        · simp [rebalance_leaf_, leaf_is_few, hll, hrr, hln, hrn, hfl, hfr, hlp, hrp,
            hne]
          split
          · next h => simp [h]
          · next h =>
            symm
            rw [Option.bind_eq_none]
            intro b hx
            exact absurd hx (by first | exact h b.1 b.2 | exact h b)
  · rcases hr' with ⟨hrn, h⟩ | ⟨hrn, rr, hrr⟩
    · exact absurd hrp h
    have hne : lp ≠ rp := fun e => hlp (e.trans hrp)
    by_cases hfr : rr.item.length ≤ cfg.maxLeaf / 2
    · refine Or.inr (Or.inl ⟨hrp, ⟨rr, hrr, hfr⟩, ?_⟩)
      rcases hl' with ⟨hln, h⟩ | ⟨hln, ll, hll⟩
      · simp [rebalance_leaf_, leaf_is_few, hrr, hln, hrn, hfr, hlp, hrp]
        split
        · next h => simp [h]
        · next h =>
          symm
          rw [Option.bind_eq_none]
          intro b hx
          exact absurd hx (by first | exact h b.1 b.2 | exact h b)
      · by_cases hfl : ll.item.length ≤ cfg.maxLeaf / 2
        · simp [rebalance_leaf_, leaf_is_few, hll, hrr, hln, hrn, hfl, hfr, hlp, hrp]
          split
          · next h => simp [h]
          · next h =>
            symm
            rw [Option.bind_eq_none]
            intro b hx
            exact absurd hx (by first | exact h b.1 b.2 | exact h b)
        · simp [rebalance_leaf_, leaf_is_few, hll, hrr, hln, hrn, hfl, hfr, hlp, hrp]
          split
          · next h => simp [h]
          · next h =>
            symm
            rw [Option.bind_eq_none]
            intro b hx
            exact absurd hx (by first | exact h b.1 b.2 | exact h b)
    · refine Or.inr (Or.inr (Or.inl ⟨hrp, ⟨rr, hrr, by omega⟩, ?_⟩))
      rcases hl' with ⟨hln, h⟩ | ⟨hln, ll, hll⟩
      · simp [rebalance_leaf_, leaf_is_few, hrr, hln, hrn, hfr, hlp, hrp, hne]
        split
        · next h => simp [h]
        · next h =>
          symm
          rw [Option.bind_eq_none]
          intro b hx
          exact absurd hx (by first | exact h b.1 b.2 | exact h b)
      · by_cases hfl : ll.item.length ≤ cfg.maxLeaf / 2
        · simp [rebalance_leaf_, leaf_is_few, hll, hrr, hln, hrn, hfl, hfr, hlp, hrp,
            hne]
          split
          · next h => simp [h]
          · next h =>
            symm
            rw [Option.bind_eq_none]
            intro b hx
            exact absurd hx (by first | exact h b.1 b.2 | exact h b)
        · simp [rebalance_leaf_, leaf_is_few, hll, hrr, hln, hrn, hfl, hfr, hlp, hrp,
            hne]
          split
          · next h => simp [h]
          · next h =>
            symm
            rw [Option.bind_eq_none]
            intro b hx
            exact absurd hx (by first | exact h b.1 b.2 | exact h b)
  · exact absurd hone (by tauto)

/-- What a neighbour handed to a rebalance is: a sibling under the same
parent, or nothing or a readable inner node under another parent. -/
def NbInner (t : Tree α) (nb nbp parent : Ptr) : Prop :=
  (nbp = parent ∧ nb ≠ Ptr.null ∧ ∃ l, t.inner? nb = some l) ∨
    (nbp ≠ parent ∧ (nb = Ptr.null ∨ ∃ l, t.inner? nb = some l))

/-- The rule `rebalance_inner_` picks also acts on a sibling under the same parent:
a merge with a sibling that is few, or a shift from one that is not. -/
theorem rebalance_inner_sel (cfg : Config) (t : Tree α) (node left right lp rp parent : Ptr)
    (pw : Nat) (result : Result α) (hl : NbInner t left lp parent) (hr : NbInner t right rp parent)
    (hone : lp = parent ∨ rp = parent) :
    (lp = parent ∧ (∃ l, t.inner? left = some l ∧ l.item.length ≤ cfg.maxInner / 2) ∧
      rebalance_inner_ cfg t node left right lp rp parent pw result
        = (merge_inners_ cfg t left node lp (wsub pw 1)).bind (fun x => some (x.1, result.or x.2))) ∨
    (rp = parent ∧ (∃ l, t.inner? right = some l ∧ l.item.length ≤ cfg.maxInner / 2) ∧
      rebalance_inner_ cfg t node left right lp rp parent pw result
        = (merge_inners_ cfg t node right rp pw).bind (fun x => some (x.1, result.or x.2))) ∨
    (rp = parent ∧ (∃ l, t.inner? right = some l ∧ cfg.maxInner / 2 < l.item.length) ∧
      rebalance_inner_ cfg t node left right lp rp parent pw result
        = (shift_left_inner_ cfg t node right rp pw).bind (fun x => some (x, result))) ∨
    (lp = parent ∧ (∃ l, t.inner? left = some l ∧ cfg.maxInner / 2 < l.item.length) ∧
      rebalance_inner_ cfg t node left right lp rp parent pw result
        = (shift_right_inner_ cfg t left node lp (wsub pw 1)).bind (fun x => some (x, result))) := by
  have hnl : ∀ l, t.inner? Ptr.null ≠ some l := by
    intro l; simp [Tree.inner?, Tree.node?]
  have hl' : (left = Ptr.null ∧ lp ≠ parent) ∨ (left ≠ Ptr.null ∧ ∃ l, t.inner? left = some l) := by
    rcases hl with ⟨_, h2, h3⟩ | ⟨h1, h2 | ⟨l, h3⟩⟩
    · exact Or.inr ⟨h2, h3⟩
    · exact Or.inl ⟨h2, h1⟩
    · exact Or.inr ⟨fun e => hnl l (e ▸ h3), l, h3⟩
  have hr' : (right = Ptr.null ∧ rp ≠ parent) ∨
      (right ≠ Ptr.null ∧ ∃ l, t.inner? right = some l) := by
    rcases hr with ⟨_, h2, h3⟩ | ⟨h1, h2 | ⟨l, h3⟩⟩
    · exact Or.inr ⟨h2, h3⟩
    · exact Or.inl ⟨h2, h1⟩
    · exact Or.inr ⟨fun e => hnl l (e ▸ h3), l, h3⟩
  clear hl hr
  by_cases hlp : lp = parent <;> by_cases hrp : rp = parent
  · rcases hl' with ⟨hln, h⟩ | ⟨hln, ll, hll⟩
    · exact absurd hlp h
    rcases hr' with ⟨hrn, h⟩ | ⟨hrn, rr, hrr⟩
    · exact absurd hrp h
    by_cases hfl : ll.item.length ≤ cfg.maxInner / 2 <;>
    by_cases hfr : rr.item.length ≤ cfg.maxInner / 2
    · refine Or.inl ⟨hlp, ⟨ll, hll, hfl⟩, ?_⟩
      simp [rebalance_inner_, inner_is_few, hll, hrr, hln, hrn, hfl, hfr, hlp, hrp]
      split
      · next h => simp [h]
      · next h =>
        symm
        rw [Option.bind_eq_none]
        intro b hx
        exact absurd hx (by first | exact h b.1 b.2 | exact h b)
    · refine Or.inr (Or.inr (Or.inl ⟨hrp, ⟨rr, hrr, by omega⟩, ?_⟩))
      simp [rebalance_inner_, inner_is_few, hll, hrr, hln, hrn, hfl, hfr, hlp, hrp]
      split
      · next h => simp [h]
      · next h =>
        symm
        rw [Option.bind_eq_none]
        intro b hx
        exact absurd hx (by first | exact h b.1 b.2 | exact h b)
    · refine Or.inr (Or.inr (Or.inr ⟨hlp, ⟨ll, hll, by omega⟩, ?_⟩))
      simp [rebalance_inner_, inner_is_few, hll, hrr, hln, hrn, hfl, hfr, hlp, hrp]
      split
      · next h => simp [h]
      · next h =>
        symm
        rw [Option.bind_eq_none]
        intro b hx
        exact absurd hx (by first | exact h b.1 b.2 | exact h b)
    · by_cases hcmp : ll.item.length ≤ rr.item.length
      · refine Or.inr (Or.inr (Or.inl ⟨hrp, ⟨rr, hrr, by omega⟩, ?_⟩))
        simp [rebalance_inner_, inner_is_few, hll, hrr, hln, hrn, hfl, hfr, hlp, hrp,
          hcmp]
        split
        · next h => simp [h]
        · next h =>
          symm
          rw [Option.bind_eq_none]
          intro b hx
          exact absurd hx (by first | exact h b.1 b.2 | exact h b)
      · refine Or.inr (Or.inr (Or.inr ⟨hlp, ⟨ll, hll, by omega⟩, ?_⟩))
        simp [rebalance_inner_, inner_is_few, hll, hrr, hln, hrn, hfl, hfr, hlp, hrp,
          hcmp]
        split
        · next h => simp [h]
        · next h =>
          symm
          rw [Option.bind_eq_none]
          intro b hx
          exact absurd hx (by first | exact h b.1 b.2 | exact h b)
  · rcases hl' with ⟨hln, h⟩ | ⟨hln, ll, hll⟩
    · exact absurd hlp h
    have hne : parent ≠ rp := fun e => hrp e.symm
    by_cases hfl : ll.item.length ≤ cfg.maxInner / 2
    · refine Or.inl ⟨hlp, ⟨ll, hll, hfl⟩, ?_⟩
      rcases hr' with ⟨hrn, h⟩ | ⟨hrn, rr, hrr⟩
      · simp [rebalance_inner_, inner_is_few, hll, hln, hrn, hfl, hlp, hrp]
        split
        · next h => simp [h]
        · next h =>
          symm
          rw [Option.bind_eq_none]
          intro b hx
          exact absurd hx (by first | exact h b.1 b.2 | exact h b)
      · by_cases hfr : rr.item.length ≤ cfg.maxInner / 2
        · simp [rebalance_inner_, inner_is_few, hll, hrr, hln, hrn, hfl, hfr, hlp, hrp]
          split
          · next h => simp [h]
          · next h =>
            symm
            rw [Option.bind_eq_none]
            intro b hx
            exact absurd hx (by first | exact h b.1 b.2 | exact h b)
        · simp [rebalance_inner_, inner_is_few, hll, hrr, hln, hrn, hfl, hfr, hlp, hrp]
          split
          · next h => simp [h]
          · next h =>
            symm
            rw [Option.bind_eq_none]
            intro b hx
            exact absurd hx (by first | exact h b.1 b.2 | exact h b)
    · refine Or.inr (Or.inr (Or.inr ⟨hlp, ⟨ll, hll, by omega⟩, ?_⟩))
      rcases hr' with ⟨hrn, h⟩ | ⟨hrn, rr, hrr⟩
      · simp [rebalance_inner_, inner_is_few, hll, hln, hrn, hfl, hlp, hrp, hne]
        split
        · next h => simp [h]
        · next h =>
          symm
          rw [Option.bind_eq_none]
          intro b hx
          exact absurd hx (by first | exact h b.1 b.2 | exact h b)
      · by_cases hfr : rr.item.length ≤ cfg.maxInner / 2
        · simp [rebalance_inner_, inner_is_few, hll, hrr, hln, hrn, hfl, hfr, hlp, hrp,
            hne]
          split
          · next h => simp [h]
          · next h =>
            symm
            rw [Option.bind_eq_none]
            intro b hx
            exact absurd hx (by first | exact h b.1 b.2 | exact h b)
        · simp [rebalance_inner_, inner_is_few, hll, hrr, hln, hrn, hfl, hfr, hlp, hrp,
            hne]
          split
          · next h => simp [h]
          · next h =>
            symm
            rw [Option.bind_eq_none]
            intro b hx
            exact absurd hx (by first | exact h b.1 b.2 | exact h b)
  · rcases hr' with ⟨hrn, h⟩ | ⟨hrn, rr, hrr⟩
    · exact absurd hrp h
    have hne : lp ≠ rp := fun e => hlp (e.trans hrp)
    by_cases hfr : rr.item.length ≤ cfg.maxInner / 2
    · refine Or.inr (Or.inl ⟨hrp, ⟨rr, hrr, hfr⟩, ?_⟩)
      rcases hl' with ⟨hln, h⟩ | ⟨hln, ll, hll⟩
      · simp [rebalance_inner_, inner_is_few, hrr, hln, hrn, hfr, hlp, hrp]
        split
        · next h => simp [h]
        · next h =>
          symm
          rw [Option.bind_eq_none]
          intro b hx
          exact absurd hx (by first | exact h b.1 b.2 | exact h b)
      · by_cases hfl : ll.item.length ≤ cfg.maxInner / 2
        · simp [rebalance_inner_, inner_is_few, hll, hrr, hln, hrn, hfl, hfr, hlp, hrp]
          split
          · next h => simp [h]
          · next h =>
            symm
            rw [Option.bind_eq_none]
            intro b hx
            exact absurd hx (by first | exact h b.1 b.2 | exact h b)
        · simp [rebalance_inner_, inner_is_few, hll, hrr, hln, hrn, hfl, hfr, hlp, hrp]
          split
          · next h => simp [h]
          · next h =>
            symm
            rw [Option.bind_eq_none]
            intro b hx
            exact absurd hx (by first | exact h b.1 b.2 | exact h b)
    · refine Or.inr (Or.inr (Or.inl ⟨hrp, ⟨rr, hrr, by omega⟩, ?_⟩))
      rcases hl' with ⟨hln, h⟩ | ⟨hln, ll, hll⟩
      · simp [rebalance_inner_, inner_is_few, hrr, hln, hrn, hfr, hlp, hrp, hne]
        split
        · next h => simp [h]
        · next h =>
          symm
          rw [Option.bind_eq_none]
          intro b hx
          exact absurd hx (by first | exact h b.1 b.2 | exact h b)
      · by_cases hfl : ll.item.length ≤ cfg.maxInner / 2
        · simp [rebalance_inner_, inner_is_few, hll, hrr, hln, hrn, hfl, hfr, hlp, hrp,
            hne]
          split
          · next h => simp [h]
          · next h =>
            symm
            rw [Option.bind_eq_none]
            intro b hx
            exact absurd hx (by first | exact h b.1 b.2 | exact h b)
        · simp [rebalance_inner_, inner_is_few, hll, hrr, hln, hrn, hfl, hfr, hlp, hrp,
            hne]
          split
          · next h => simp [h]
          · next h =>
            symm
            rw [Option.bind_eq_none]
            intro b hx
            exact absurd hx (by first | exact h b.1 b.2 | exact h b)
  · exact absurd hone (by tauto)

end LeafSel

end BPP

/-! ## Neighbours on a level -/

namespace BPP

section Neighbours
variable {α : Type} [LinearOrder α]

/-- What `get_left_` and `get_right_` return for the node `p` of height `h`:
nothing, or another node that roots a well-formed subtree of that height. -/
def NbGood (cfg : Config) (t : Tree α) (h : Nat) (p nb : Ptr) : Prop :=
  nb ≠ p ∧ (nb = Ptr.null ∨ ∃ par ls fp, Sub cfg t h false nb par ls fp)

/-- The call `get_left_(p)` returns with fuel `D`. -/
def LeftNb (cfg : Config) (t : Tree α) (h : Nat) (p : Ptr) (D : Nat) : Prop :=
  ∃ lp, (∀ f, D ≤ f → get_left_ t f p = some lp) ∧ NbGood cfg t h p lp

/-- The call `get_right_(p)` returns with fuel `D`. -/
def RightNb (cfg : Config) (t : Tree α) (h : Nat) (p : Ptr) (D : Nat) : Prop :=
  ∃ rp, (∀ f, D ≤ f → get_right_ t f p = some rp) ∧ NbGood cfg t h p rp

/-- The neighbours of the node `a` of height `h` can be looked up in every
memory that differs from `t` at most below `a`, in leaf-chain links, and in
fields of `a` other than its parent. -/
def NbOk (cfg : Config) (t : Tree α) (h : Nat) (a : Nat) (fp : List Nat) (D : Nat) : Prop :=
  ∀ t' : Tree α, t'.mem.length = t.mem.length → (∀ b, b ∉ fp → SameCore t t' b) →
    t'.parent? (Ptr.node a) = t.parent? (Ptr.node a) →
    LeftNb cfg t' h (Ptr.node a) D ∧ RightNb cfg t' h (Ptr.node a) D

theorem Sub.children_length {cfg : Config} {t : Tree α} {h : Nat} {isRoot : Bool} {p par : Ptr}
    {ls : Leaves α} {fp : List Nat} (hs : Sub cfg t (h + 1) isRoot p par ls fp) :
    ∃ a n, ∃ ps : List (Part α), p = Ptr.node a ∧ t.node? p = some (Node.inner n) ∧
      n.children = ps.map Part.ptr ∧ ps.length = n.item.length + 1 ∧
      (∀ q ∈ ps, Sub cfg t h false q.ptr p q.leaves q.fp) ∧
      (if isRoot then 1 else cfg.maxInner / 2) ≤ n.item.length := by
  obtain ⟨a, n, ps, hp, hn, hpar, hlev, hsz, hc, hk, hne, hch, hls, hfp, hlo, hhi⟩ :=
    Sub.succ_iff.1 hs
  refine ⟨a, n, ps, hp, hn, hc, ?_, hch, hlo⟩
  have := congrArg List.length hk
  simp only [List.length_map, List.length_dropLast] at this
  have : 0 < ps.length := List.length_pos.2 hne
  omega

/-- The root has no neighbours. -/
theorem NbOk.top (cfg : Config) (t : Tree α) (h a : Nat) (fp : List Nat)
    (hp : t.parent? (Ptr.node a) = some Ptr.root) : NbOk cfg t h a fp 1 := by
  intro t' _ _ hpar
  rw [hp] at hpar
  have hgp := get_parent_top t' (Ptr.node a) hpar
  constructor
  · refine ⟨Ptr.null, fun f hf => ?_, by simp, Or.inl rfl⟩
    obtain ⟨f, rfl⟩ : ∃ g, f = g + 1 := ⟨f - 1, by omega⟩
    simp [get_left_, hgp]
  · refine ⟨Ptr.null, fun f hf => ?_, by simp, Or.inl rfl⟩
    obtain ⟨f, rfl⟩ : ∃ g, f = g + 1 := ⟨f - 1, by omega⟩
    simp [get_right_, hgp]

theorem fp_disjoint_of_nodup (pre post : List (Part α)) (q : Part α)
    (hnd : (fpOf (pre ++ q :: post)).Nodup) :
    ∀ q' ∈ pre ++ post, ∀ b ∈ q'.fp, b ∉ q.fp := by
  intro q' hq' b hb hbq
  rw [fpOf_append, fpOf_cons] at hnd
  obtain ⟨h1, h2, h3⟩ := List.nodup_append.1 hnd
  rcases List.mem_append.1 hq' with h | h
  · exact h3 (mem_fpOf h hb) (List.mem_append_left _ hbq)
  · exact (List.nodup_append.1 h2).2.2 hbq (mem_fpOf h hb)

theorem getElem?_pred_length_append {β : Type} (pre : List β) (x : β) (l : List β) :
    (pre ++ [x] ++ l)[(pre ++ [x]).length - 1]? = some x := by
  rw [List.append_assoc, List.getElem?_append_right (by simp)]
  simp

/-- The neighbours of a child, from those of its parent. -/
theorem NbOk.child (cfg : Config) (t : Tree α) (h a : Nat) (n : InnerNode α)
    (pre post : List (Part α)) (q : Part α) (c D : Nat) (hcapI : 2 ≤ cfg.maxInner)
    (hn : t.node? (Ptr.node a) = some (Node.inner n))
    (hc : n.children = (pre ++ q :: post).map Part.ptr)
    (hlen : (pre ++ q :: post).length = n.item.length + 1)
    (hch : ∀ q' ∈ pre ++ q :: post, Sub cfg t h false q'.ptr (Ptr.node a) q'.leaves q'.fp)
    (hnd : (a :: fpOf (pre ++ q :: post)).Nodup) (hq : q.ptr = Ptr.node c)
    (hok : NbOk cfg t (h + 1) a (a :: fpOf (pre ++ q :: post)) D) :
    NbOk cfg t h c q.fp (D + 1) := by
  intro t' hlen' hfr hpar
  have hqfp : ∀ b ∈ q.fp, b ∈ fpOf (pre ++ q :: post) := fun b hb => mem_fpOf (by simp) hb
  have ha : a ∉ q.fp := fun hm => (List.nodup_cons.1 hnd).1 (hqfp a hm)
  have hn' : t'.node? (Ptr.node a) = some (Node.inner n) := (hfr a ha).inner hn
  have hpc : t.parent? (Ptr.node c) = some (Ptr.node a) := by
    rw [← hq]; exact (hch q (by simp)).parent?
  have hpc' : t'.parent? (Ptr.node c) = some (Ptr.node a) := by rw [hpar, hpc]
  have hgp : get_parent_ t' (Ptr.node c) = some (Ptr.node a, pre.length) := by
    have := get_parent_child t' a n pre post q hn' hc hlen (by rw [hq, hpc'])
      (child_ptr_not_mem pre post q hch (List.nodup_cons.1 hnd).2)
    rwa [hq] at this
  obtain ⟨hL, hR⟩ := hok t' hlen'
    (fun b hb => hfr b (fun hm => hb (List.mem_cons_of_mem _ (hqfp b hm))))
    (by rw [parent?_inner hn', parent?_inner hn])
  have hsib : ∀ q' ∈ pre ++ post,
      Sub cfg t' h false q'.ptr (Ptr.node a) q'.leaves q'.fp ∧ q'.ptr ≠ Ptr.node c := by
    intro q' hq'
    have hdis := fp_disjoint_of_nodup pre post q (List.nodup_cons.1 hnd).2 q' hq'
    have hmem : q' ∈ pre ++ q :: post := by
      rcases List.mem_append.1 hq' with h1 | h1
      · exact List.mem_append_left _ h1
      · exact List.mem_append_right _ (List.mem_cons_of_mem _ h1)
    refine ⟨Sub.frame (hch q' hmem) (fun b hb => hfr b (hdis b hb)), fun e => ?_⟩
    obtain ⟨a1, tl1, hp1, hfp1⟩ := Sub.ptr (hch q' hmem)
    obtain ⟨a2, tl2, hp2, hfp2⟩ := Sub.ptr (hch q (by simp))
    rw [hp1] at e
    rw [hq] at hp2
    simp only [Ptr.node.injEq] at e hp2
    subst e hp2
    exact hdis a1 (by rw [hfp1]; simp) (by rw [hfp2]; simp)
  have hpar' : ∀ {x par ls fp}, Sub cfg t' h false x par ls fp → par ≠ Ptr.node a →
      x ≠ Ptr.node c := by
    intro x par ls fp hs hne e
    have := hs.parent?
    rw [e, hpc'] at this
    exact hne (by simpa using this.symm)
  constructor
  · rcases List.eq_nil_or_concat pre with hpre | ⟨pre', x, hpre⟩
    · obtain ⟨LP, hget, hne, hLP⟩ := hL
      rcases hLP with rfl | ⟨par, ls, fp, hs⟩
      · refine ⟨Ptr.null, fun f hf => ?_, by simp, Or.inl rfl⟩
        obtain ⟨f, rfl⟩ : ∃ g, f = g + 1 := ⟨f - 1, by omega⟩
        simp [get_left_, hgp, hpre, hget f (by omega)]
      · obtain ⟨b, m, qs, hb, hm, hmc, hml, hmch, hmlo⟩ := hs.children_length
        have h1 : 1 ≤ m.item.length := by
          simp only [Bool.false_eq_true, if_false] at hmlo
          omega
        have hlt : m.item.length - 1 < qs.length := by omega
        refine ⟨(qs.get ⟨_, hlt⟩).ptr, fun f hf => ?_,
          hpar' (hmch _ (List.get_mem _ _ _)) hne,
          Or.inr ⟨_, _, _, hmch _ (List.get_mem _ _ _)⟩⟩
        obtain ⟨f, rfl⟩ : ∃ g, f = g + 1 := ⟨f - 1, by omega⟩
        have hnn : LP ≠ Ptr.null := by rw [hb]; simp
        simp [get_left_, hgp, hpre, hget f (by omega), hnn, inner?_of_node? hm,
          wsub_of_le h1, hmc, List.getElem?_eq_getElem hlt]
    · have hx := hsib x (by rw [hpre]; simp)
      refine ⟨x.ptr, fun f hf => ?_, hx.2, Or.inr ⟨_, _, _, hx.1⟩⟩
      obtain ⟨f, rfl⟩ : ∃ g, f = g + 1 := ⟨f - 1, by omega⟩
      have hne0 : pre.length ≠ 0 := by rw [hpre]; simp
      have hget : n.children[pre.length - 1]? = some x.ptr := by
        rw [hc, hpre]
        simp only [List.concat_eq_append, List.map_append, List.map_cons, List.map_nil]
        have := getElem?_pred_length_append (pre'.map Part.ptr) x.ptr
          (q.ptr :: post.map Part.ptr)
        simpa using this
      simp [get_left_, hgp, hne0, inner?_of_node? hn', hget]
  · cases post with
    | nil =>
      have hw : pre.length = n.item.length := by simpa using hlen
      obtain ⟨RP, hget, hne, hRP⟩ := hR
      rcases hRP with rfl | ⟨par, ls, fp, hs⟩
      · refine ⟨Ptr.null, fun f hf => ?_, by simp, Or.inl rfl⟩
        obtain ⟨f, rfl⟩ : ∃ g, f = g + 1 := ⟨f - 1, by omega⟩
        simp [get_right_, hgp, inner?_of_node? hn', hw, hget f (by omega)]
      · obtain ⟨b, m, qs, hb, hm, hmc, hml, hmch, hmlo⟩ := hs.children_length
        have hlt : 0 < qs.length := by omega
        refine ⟨(qs.get ⟨0, hlt⟩).ptr, fun f hf => ?_,
          hpar' (hmch _ (List.get_mem _ _ _)) hne,
          Or.inr ⟨_, _, _, hmch _ (List.get_mem _ _ _)⟩⟩
        obtain ⟨f, rfl⟩ : ∃ g, f = g + 1 := ⟨f - 1, by omega⟩
        have hnn : RP ≠ Ptr.null := by rw [hb]; simp
        simp [get_right_, hgp, inner?_of_node? hn', hw, hget f (by omega), hnn,
          inner?_of_node? hm, hmc, List.getElem?_eq_getElem hlt]
    | cons x post' =>
      have hx := hsib x (by simp)
      refine ⟨x.ptr, fun f hf => ?_, hx.2, Or.inr ⟨_, _, _, hx.1⟩⟩
      obtain ⟨f, rfl⟩ : ∃ g, f = g + 1 := ⟨f - 1, by omega⟩
      have hw : pre.length ≠ n.item.length := by
        simp only [List.length_append, List.length_cons] at hlen
        omega
      have hget : n.children[pre.length + 1]? = some x.ptr := by
        rw [hc]
        simp only [List.map_append, List.map_cons]
        rw [List.getElem?_append_right (by simp)]
        simp
      simp [get_right_, hgp, inner?_of_node? hn', hw, hget]

/-- The left half of `get_left_right_parent_`: the left neighbour and its
parent. -/
def lrp_left_ (t : Tree α) (parent : Ptr) (p : InnerNode α) («where» : Nat) :
    Option (Ptr × Ptr) :=
  if «where» = 0 then do
    let left_parent ← get_left_ t (t.mem.length + 1) parent
    if left_parent = Ptr.null then some (Ptr.null, left_parent)
    else
      let lp ← t.inner? left_parent
      let c ← lp.children[wsub lp.item.length 1]?
      some (c, left_parent)
  else do
    let c ← p.children[«where» - 1]?
    some (c, parent)

/-- The right half of `get_left_right_parent_`. -/
def lrp_right_ (t : Tree α) (parent : Ptr) (p : InnerNode α) («where» : Nat) :
    Option (Ptr × Ptr) :=
  if «where» = p.item.length then do
    let right_parent ← get_right_ t (t.mem.length + 1) parent
    if right_parent = Ptr.null then some (Ptr.null, right_parent)
    else
      let rp ← t.inner? right_parent
      let c ← rp.children[0]?
      some (c, right_parent)
  else do
    let c ← p.children[«where» + 1]?
    some (c, parent)

theorem get_left_right_parent_eq (t : Tree α) (a : Nat) (p : InnerNode α) (w : Nat)
    (l r : Ptr × Ptr) (hp : t.inner? (Ptr.node a) = some p) (hl : lrp_left_ t (Ptr.node a) p w = some l)
    (hr : lrp_right_ t (Ptr.node a) p w = some r) :
    get_left_right_parent_ t (Ptr.node a) w = some (l.1, l.2, r.1, r.2) := by
  unfold lrp_left_ at hl
  unfold lrp_right_ at hr
  unfold get_left_right_parent_
  rw [if_neg (by simp)]
  simp only [Option.pure_def, Option.bind_eq_bind] at hl hr
  simp only [hp, hl, hr, Option.pure_def, Option.bind_eq_bind, Option.some_bind]

/-- The left neighbour handed to a rebalance below the node `a`. -/
theorem lrp_left_spec (cfg : Config) (t : Tree α) (h a : Nat) (n : InnerNode α)
    (pre post : List (Part α)) (x : Ptr) (D : Nat) (hcapI : 2 ≤ cfg.maxInner)
    (hc : n.children = pre.map Part.ptr ++ x :: post.map Part.ptr)
    (hL : LeftNb cfg t (h + 1) (Ptr.node a) D) (hD : D ≤ t.mem.length + 1) :
    ∃ left lp, lrp_left_ t (Ptr.node a) n pre.length = some (left, lp) ∧
      (pre = [] → lp ≠ Ptr.node a ∧
        (left = Ptr.null ∨ ∃ par ls fp, Sub cfg t h false left par ls fp)) ∧
      (∀ pre' q, pre = pre' ++ [q] → lp = Ptr.node a ∧ left = q.ptr) := by
  rcases List.eq_nil_or_concat pre with hpre | ⟨pre', y, hpre⟩
  · obtain ⟨LP, hget, hne, hLP⟩ := hL
    rcases hLP with rfl | ⟨par, ls, fp, hs⟩
    · refine ⟨Ptr.null, Ptr.null, ?_, fun _ => ⟨by simp, Or.inl rfl⟩, fun pre' q e => ?_⟩
      · simp [lrp_left_, hpre, hget _ hD]
      · rw [hpre] at e; simp at e
    · obtain ⟨b, m, qs, hb, hm, hmc, hml, hmch, hmlo⟩ := hs.children_length
      have h1 : 1 ≤ m.item.length := by
        simp only [Bool.false_eq_true, if_false] at hmlo
        omega
      have hlt : m.item.length - 1 < qs.length := by omega
      have hnn : LP ≠ Ptr.null := by rw [hb]; simp
      refine ⟨(qs.get ⟨_, hlt⟩).ptr, LP, ?_, fun _ => ⟨hne, Or.inr ?_⟩, fun pre' q e => ?_⟩
      · simp [lrp_left_, hpre, hget _ hD, hnn, inner?_of_node? hm, wsub_of_le h1, hmc,
          List.getElem?_eq_getElem hlt]
      · have := hmch _ (List.get_mem qs _ hlt)
        exact ⟨_, _, _, Sub.frame this (fun _ _ => SameCore.refl _ _)⟩
      · rw [hpre] at e; simp at e
  · have hne0 : pre.length ≠ 0 := by rw [hpre]; simp
    have hget : n.children[pre.length - 1]? = some y.ptr := by
      rw [hc, hpre]
      simp only [List.concat_eq_append, List.map_append, List.map_cons, List.map_nil]
      have := getElem?_pred_length_append (pre'.map Part.ptr) y.ptr (x :: post.map Part.ptr)
      simpa using this
    refine ⟨y.ptr, Ptr.node a, ?_, fun e => ?_, fun pre'' q e => ?_⟩
    · simp [lrp_left_, hne0, hget]
    · rw [hpre] at e; simp at e
    · rw [hpre] at e
      simp only [List.concat_eq_append] at e
      obtain ⟨-, e2⟩ := List.append_inj' e rfl
      simp only [List.cons.injEq, and_true] at e2
      exact ⟨rfl, by rw [e2]⟩

/-- The right neighbour handed to a rebalance below the node `a`. -/
theorem lrp_right_spec (cfg : Config) (t : Tree α) (h a : Nat) (n : InnerNode α)
    (pre post : List (Part α)) (x : Ptr) (D : Nat)
    (hc : n.children = pre.map Part.ptr ++ x :: post.map Part.ptr)
    (hlen : pre.length + post.length = n.item.length)
    (hR : RightNb cfg t (h + 1) (Ptr.node a) D) (hD : D ≤ t.mem.length + 1) :
    ∃ right rp, lrp_right_ t (Ptr.node a) n pre.length = some (right, rp) ∧
      (post = [] → rp ≠ Ptr.node a ∧
        (right = Ptr.null ∨ ∃ par ls fp, Sub cfg t h false right par ls fp)) ∧
      (∀ q post', post = q :: post' → rp = Ptr.node a ∧ right = q.ptr) := by
  cases post with
  | nil =>
    have hw : pre.length = n.item.length := by simpa using hlen
    obtain ⟨RP, hget, hne, hRP⟩ := hR
    rcases hRP with rfl | ⟨par, ls, fp, hs⟩
    · refine ⟨Ptr.null, Ptr.null, ?_, fun _ => ⟨by simp, Or.inl rfl⟩, fun q post' e => ?_⟩
      · simp [lrp_right_, hw, hget _ hD]
      · simp at e
    · obtain ⟨b, m, qs, hb, hm, hmc, hml, hmch, hmlo⟩ := hs.children_length
      have hlt : 0 < qs.length := by omega
      have hnn : RP ≠ Ptr.null := by rw [hb]; simp
      refine ⟨(qs.get ⟨0, hlt⟩).ptr, RP, ?_, fun _ => ⟨hne, Or.inr ?_⟩, fun q post' e => ?_⟩
      · simp [lrp_right_, hw, hget _ hD, hnn, inner?_of_node? hm, hmc,
          List.getElem?_eq_getElem hlt]
      · exact ⟨_, _, _, hmch _ (List.get_mem qs _ hlt)⟩
      · simp at e
  | cons y post' =>
    have hw : pre.length ≠ n.item.length := by
      simp only [List.length_cons] at hlen
      omega
    have hget : n.children[pre.length + 1]? = some y.ptr := by
      rw [hc]
      simp only [List.map_cons]
      rw [List.getElem?_append_right (by simp)]
      simp
    refine ⟨y.ptr, Ptr.node a, ?_, fun e => ?_, fun q post'' e => ?_⟩
    · simp [lrp_right_, hw, hget]
    · simp at e
    · simp only [List.cons.injEq] at e
      exact ⟨rfl, by rw [e.1]⟩

end Neighbours

end BPP

/-! ## The stages of the positional erase -/

namespace BPP

section ErasePosStages
variable {α : Type} [LinearOrder α]

/-- What `erase_pos_` and `erase_pos_descend_` still do above a node once it
is done: hand the result up to the parent, or only count the element out on
the way up. -/
def erase_up_ (cfg : Config) (f1 f2 : Nat) (t : Tree α) (parent : Ptr) (parent_where : Nat)
    (node : Ptr) (result : Result α) : Option (Tree α) :=
  if result.last_key.isSome ∨ result.fixmerge then
    if parent = Ptr.null then some { t with size := wsub t.size 1 }
    else erase_pos_descend_ cfg f2 t parent parent_where result
  else size_down_ f1 t node

/-- The first part of `erase_pos_`: the item leaves the leaf and, when it was
the last one, the new last key goes to the parent. -/
def erase_pos_leaf_ (cfg : Config) (t : Tree α) (leaf_node : Ptr) («where» : Nat) :
    Option (Tree α × Result α × Ptr × Nat × Nat) := do
  let some l := t.leaf? leaf_node | none
  let some items := eraseAt? l.item «where» | none
  let some t := t.modLeaf leaf_node (fun m => { m with item := items }) | none
  let some (t, result, parent0, parent_where0) := (
    if «where» = items.length then do
      let (parent, parent_where) ← get_parent_ t leaf_node
      let (t, result) ← leaf_last_key_ cfg t leaf_node parent parent_where
      some (t, result, parent, parent_where)
    else some (t, Result.ok, Ptr.null, 0))
    | none
  some (t, result, parent0, parent_where0, items.length)

/-- The second part of `erase_pos_`: the repair of an underflow. -/
def erase_pos_fix_ (cfg : Config) (t : Tree α) (leaf_node : Ptr) (len : Nat) (result : Result α)
    (parent0 : Ptr) (parent_where0 : Nat) :
    Option (Tree α ⊕ (Tree α × Result α × Ptr × Nat)) :=
  if len < cfg.maxLeaf / 2 ∧ ¬ (leaf_node = t.parent ∧ len ≥ 1) then do
    let (parent, parent_where) ←
      if parent0 = Ptr.null then get_parent_ t leaf_node else some (parent0, parent_where0)
    let (leaf_left, left_parent, leaf_right, right_parent) ←
      get_left_right_parent_ t parent parent_where
    if leaf_left = Ptr.null ∧ leaf_right = Ptr.null then
      let t ← t.free_node_ t.parent
      some (Sum.inl
        { t with parent := Ptr.root, left := Ptr.root, right := Ptr.root,
                 size := wsub t.size 1 })
    else do
      let (t, result) ← rebalance_leaf_ cfg t leaf_node leaf_left leaf_right left_parent
        right_parent parent parent_where result
      some (Sum.inr (t, result, parent, parent_where))
  else some (Sum.inr (t, result, parent0, parent_where0))

theorem erase_pos_eq (cfg : Config) (t : Tree α) (leaf_node : Ptr) (w : Nat) :
    erase_pos_ cfg t leaf_node w
      = (erase_pos_leaf_ cfg t leaf_node w).bind (fun s =>
          (erase_pos_fix_ cfg s.1 leaf_node s.2.2.2.2 s.2.1 s.2.2.1 s.2.2.2.1).bind (fun step =>
            match step with
            | Sum.inl t => some t
            | Sum.inr (t, result, parent, parent_where) =>
              erase_up_ cfg (t.mem.length + 1) (t.mem.length + 1) t parent parent_where
                leaf_node result)) := by
  unfold erase_pos_ erase_pos_leaf_
  cases h1 : t.leaf? leaf_node with
  | none => simp [h1]
  | some l =>
    cases h2 : eraseAt? l.item w with
    | none => simp [h1, h2]
    | some its =>
      cases h3 : t.modLeaf leaf_node (fun m => { m with item := its }) with
      | none => simp [h1, h2, h3]
      | some t1 =>
        simp only [h1, h2, h3, Option.pure_def, Option.bind_eq_bind, Option.some_bind]
        generalize (if w = its.length then
            (get_parent_ t1 leaf_node).bind fun x =>
              (leaf_last_key_ cfg t1 leaf_node x.1 x.2).bind fun y =>
                some (y.1, y.2, x)
          else some (t1, Result.ok, Ptr.null, 0)) = o
        rcases o with _ | ⟨s, r0, p0, w0⟩
        · rfl
        · simp only [Option.some_bind]
          unfold erase_pos_fix_ erase_up_
          simp only [Option.pure_def, Option.bind_eq_bind, Option.some_bind]
          split
          · next step heq => rw [heq]; rfl
          · next hh =>
            have hE := Option.eq_none_iff_forall_not_mem.2 (fun x hx => hh x hx)
            rw [hE]; rfl

/-- The first part of `erase_pos_descend_`: the node counts the element out,
hands a new last key to its parent and drops a child merged away below. -/
def erase_desc_node_ (cfg : Config) (t : Tree α) (inner_node : Ptr) («where» : Nat)
    (result : Result α) : Option (Tree α × Ptr × Nat × Result α) := do
  let some t := t.modInner inner_node (fun m => { m with size := wsub m.size 1 }) | none
  let some (parent, parent_where) := get_parent_ t inner_node | none
  let some (t, self_result) := (
    match result.last_key with
    | some k => inner_last_key_ cfg t parent parent_where k
    | none => some (t, Result.ok))
    | none
  let some t := if result.fixmerge then fixmerge_ cfg t inner_node «where» else some t | none
  some (t, parent, parent_where, self_result)

/-- The second part of `erase_pos_descend_`: the repair of an underflow. -/
def erase_desc_fix_ (cfg : Config) (t : Tree α) (inner_node parent : Ptr) (parent_where : Nat)
    (self_result : Result α) : Option (Tree α ⊕ (Tree α × Result α)) := do
  let some n := t.inner? inner_node | none
  if n.item.length < cfg.maxInner / 2 ∧ ¬ (inner_node = t.parent ∧ n.item.length ≥ 1) then do
    let (inner_left, left_parent, inner_right, right_parent) ←
      get_left_right_parent_ t parent parent_where
    if inner_left = Ptr.null ∧ inner_right = Ptr.null then
      let c0 ← n.children[0]?
      let t := { t with parent := c0 }
      let t ← t.setParent t.parent Ptr.root
      let t ← t.modInner inner_node (fun m => { m with item := [] })
      let t ← t.free_node_ inner_node
      some (Sum.inl { t with size := wsub t.size 1 })
    else do
      let r ← rebalance_inner_ cfg t inner_node inner_left inner_right left_parent
        right_parent parent parent_where self_result
      some (Sum.inr r)
  else some (Sum.inr (t, self_result))

theorem erase_pos_descend_eq (cfg : Config) (f : Nat) (t : Tree α) (inner_node : Ptr) (w : Nat)
    (result : Result α) :
    erase_pos_descend_ cfg (f + 1) t inner_node w result
      = (erase_desc_node_ cfg t inner_node w result).bind (fun s =>
          (erase_desc_fix_ cfg s.1 inner_node s.2.1 s.2.2.1 s.2.2.2).bind (fun step =>
            match step with
            | Sum.inl t => some t
            | Sum.inr (t, self_result) =>
              erase_up_ cfg (t.mem.length + 1) f t s.2.1 s.2.2.1 inner_node self_result)) := by
  rw [erase_pos_descend_]
  unfold erase_desc_node_
  cases h1 : t.modInner inner_node (fun m => { m with size := wsub m.size 1 }) with
  | none => simp [h1]
  | some t1 =>
    rcases h2 : get_parent_ t1 inner_node with _ | ⟨parent, pw⟩
    · simp [h1, h2]
    · simp only [h1, h2, Option.pure_def, Option.bind_eq_bind, Option.some_bind]
      have key : ∀ o : Option (Tree α × Result α),
          (match o with
            | some (t, self_result) =>
              match if result.fixmerge = true then fixmerge_ cfg t inner_node w else some t with
              | some t =>
                match t.inner? inner_node with
                | some n =>
                  match
                    if n.item.length < cfg.maxInner / 2 ∧
                        ¬(inner_node = t.parent ∧ n.item.length ≥ 1) then
                      (get_left_right_parent_ t parent pw).bind fun __discr =>
                        if __discr.1 = Ptr.null ∧ __discr.2.2.1 = Ptr.null then
                          n.children[0]?.bind fun c0 =>
                            (Tree.setParent { t with parent := c0 } c0 Ptr.root).bind
                              fun t =>
                              (t.modInner inner_node fun m => { m with item := [] }).bind
                                fun t =>
                                (t.free_node_ inner_node).bind fun t =>
                                  some (Sum.inl { t with size := wsub t.size 1 })
                        else
                          (rebalance_inner_ cfg t inner_node __discr.1 __discr.2.2.1 __discr.2.1
                            __discr.2.2.2 parent pw self_result).bind
                            fun r => some (Sum.inr r)
                    else some (Sum.inr (t, self_result)) with
                  | some step =>
                    match step with
                    | Sum.inl t => some t
                    | Sum.inr (t, self_result) =>
                      if self_result.last_key.isSome = true ∨ self_result.fixmerge = true then
                        if parent = Ptr.null then some { t with size := wsub t.size 1 }
                        else erase_pos_descend_ cfg f t parent pw self_result
                      else size_down_ (t.mem.length + 1) t inner_node
                  | x => none
                | x => none
              | x => none
            | x => none) =
          (match o with
            | some (t, self_result) =>
              match if result.fixmerge = true then fixmerge_ cfg t inner_node w else some t with
              | some t => some (t, parent, pw, self_result)
              | x => none
            | x => none).bind
            fun a =>
            (erase_desc_fix_ cfg a.1 inner_node a.2.1 a.2.2.1 a.2.2.2).bind fun step =>
              match step with
              | Sum.inl t => some t
              | Sum.inr (t, self_result) =>
                erase_up_ cfg (t.mem.length + 1) f t a.2.1 a.2.2.1 inner_node self_result := by
        intro o
        rcases o with _ | ⟨t2, sr⟩
        · rfl
        · simp only []
          generalize (if result.fixmerge = true then fixmerge_ cfg t2 inner_node w else some t2)
            = o
          rcases o with _ | t3
          · rfl
          · simp only [Option.some_bind]
            unfold erase_desc_fix_ erase_up_
            cases h3 : t3.inner? inner_node with
            | none => simp [h3]
            | some n =>
              simp only [h3, Option.pure_def, Option.bind_eq_bind, Option.some_bind]
              split
              · next step heq => rw [heq]; rfl
              · next hh =>
                have hE := Option.eq_none_iff_forall_not_mem.2 (fun x hx => hh x hx)
                rw [hE]; rfl
      cases hlk : result.last_key with
      | none => exact key (some (t1, Result.ok))
      | some k => exact key (inner_last_key_ cfg t1 parent pw k)

end ErasePosStages

end BPP

/-! ## The rebalance rules on a pair of leaves -/

namespace BPP

section LeafPairs
variable {α : Type} [LinearOrder α]

/-- Two adjacent leaves `A` and `B` among the children of the level-1 node
`a`, of which all but these two are known to be well-formed. -/
def LeafPair (cfg : Config) (t : Tree α) (a : Nat) (n : InnerNode α) (pre post : List (Part α))
    (A B : Nat) (la lb : LeafNode α) (L R : Leaves α) (prev0 : Ptr) : Prop :=
  t.node? (Ptr.node a) = some (Node.inner n) ∧
  n.children = (pre ++ Part.ofLeaf A la.item :: Part.ofLeaf B lb.item :: post).map Part.ptr ∧
  n.item.map some
    = (pre ++ Part.ofLeaf A la.item :: Part.ofLeaf B lb.item :: post).dropLast.map Part.last ∧
  t.node? (Ptr.node A) = some (Node.leaf la) ∧ t.node? (Ptr.node B) = some (Node.leaf lb) ∧
  la.parent = Ptr.node a ∧ lb.parent = Ptr.node a ∧
  (∀ q ∈ pre ++ post, Sub cfg t 0 false q.ptr (Ptr.node a) q.leaves q.fp) ∧
  (a :: fpOf (pre ++ Part.ofLeaf A la.item :: Part.ofLeaf B lb.item :: post)).Nodup ∧
  ChainOk t prev0
    (L ++ leavesOf (pre ++ Part.ofLeaf A la.item :: Part.ofLeaf B lb.item :: post) ++ R) ∧
  ((L ++ leavesOf (pre ++ Part.ofLeaf A la.item :: Part.ofLeaf B lb.item :: post)
    ++ R).map Prod.fst).Nodup ∧
  ((L ++ leavesOf (pre ++ Part.ofLeaf A la.item :: Part.ofLeaf B lb.item :: post)
    ++ R).getLast?).map Prod.fst = some t.right

theorem LeafPair.pair_slot {cfg : Config} {t : Tree α} {a : Nat} {n : InnerNode α}
    {pre post : List (Part α)} {A B : Nat} {la lb : LeafNode α} {L R : Leaves α} {prev0 : Ptr}
    (hp : LeafPair cfg t a n pre post A B la lb L R prev0) :
    n.item.length = pre.length + 1 + post.length ∧ A ≠ B := by
  obtain ⟨hn, hc, hsep, hA, hB, hApar, hBpar, hch, hnd, hchain, hndl, hright⟩ := hp
  constructor
  · have := congrArg List.length hsep
    simp only [List.length_map, List.length_dropLast, List.length_append,
      List.length_cons] at this
    omega
  · intro e
    subst e
    have := (List.nodup_cons.1 hnd).2
    simp [fpOf_append, fpOf_cons, List.nodup_append] at this

/-- The rule "shift left" on a leaf that lost an item and its right sibling. -/
theorem leaf_shift_left_full (cfg : Config) (t : Tree α) (a : Nat) (n : InnerNode α)
    (pre post : List (Part α)) (A B : Nat) (la lb : LeafNode α) (L R : Leaves α) (prev0 : Ptr)
    (hp : LeafPair cfg t a n pre post A B la lb L R prev0) (hcapL : 4 ≤ cfg.maxLeaf)
    (hAlo : cfg.maxLeaf / 2 ≤ la.item.length + 1) (hAhi : la.item.length < cfg.maxLeaf / 2)
    (hBlo : cfg.maxLeaf / 2 < lb.item.length) (hBhi : lb.item.length ≤ cfg.maxLeaf) :
    ∃ t', shift_left_leaf_ cfg t (Ptr.node A) (Ptr.node B) (Ptr.node a) pre.length
        = some (t', Result.ok) ∧
      RebOut cfg t t' 0 a n pre.length
        (pre ++ Part.ofLeaf A la.item :: Part.ofLeaf B lb.item :: post)
        (items (leavesOf (pre ++ Part.ofLeaf A la.item :: Part.ofLeaf B lb.item :: post)))
        (Ptr.node A) L R prev0 false := by
  obtain ⟨hlen, hAB⟩ := hp.pair_slot
  obtain ⟨hn, hc, hsep, hA, hB, hApar, hBpar, hch, hnd, hchain, hndl, hright⟩ := hp
  obtain ⟨t', k, h1, hk, hA', hB', hn', hst, hl⟩ := shift_left_leaf_spec cfg t A B a la lb n
    pre.length hA hB hn hAB (by omega) (by omega) (by omega) (by omega)
  refine ⟨t', h1, ?_⟩
  generalize hs : (lb.item.length - la.item.length) / 2 = s at hk hA' hB'
  have hs1 : 1 ≤ s := by omega
  have hs2 : s < lb.item.length := by omega
  refine leaf_shift_pair cfg t t' a n pre.length (Ptr.node A) pre post A B la lb _ _ k L R prev0
    hc hsep hApar hBpar hch hnd hchain hndl hright hA' hB' hn' hst hl ?_ hk ?_ ?_ ?_ ?_ ?_
    (Or.inl ⟨rfl, rfl⟩)
  · rw [List.append_assoc, List.take_append_drop]
  · rw [List.getLast?_drop, if_neg (by omega)]
  · simp only [List.length_append, List.length_take]; omega
  · simp only [List.length_append, List.length_take]; omega
  · simp only [List.length_drop]; omega
  · simp only [List.length_drop]; omega

/-- The rule "shift right" on a leaf that lost an item and its left sibling. -/
theorem leaf_shift_right_full (cfg : Config) (t : Tree α) (a : Nat) (n : InnerNode α)
    (pre post : List (Part α)) (A B : Nat) (la lb : LeafNode α) (L R : Leaves α) (prev0 : Ptr)
    (hp : LeafPair cfg t a n pre post A B la lb L R prev0) (hcapL : 4 ≤ cfg.maxLeaf)
    (hBlo : cfg.maxLeaf / 2 ≤ lb.item.length + 1) (hBhi : lb.item.length < cfg.maxLeaf / 2)
    (hAlo : cfg.maxLeaf / 2 < la.item.length) (hAhi : la.item.length ≤ cfg.maxLeaf) :
    ∃ t', shift_right_leaf_ cfg t (Ptr.node A) (Ptr.node B) (Ptr.node a) pre.length = some t' ∧
      RebOut cfg t t' 0 a n (pre.length + 1)
        (pre ++ Part.ofLeaf A la.item :: Part.ofLeaf B lb.item :: post)
        (items (leavesOf (pre ++ Part.ofLeaf A la.item :: Part.ofLeaf B lb.item :: post)))
        (Ptr.node B) L R prev0 false := by
  obtain ⟨hlen, hAB⟩ := hp.pair_slot
  obtain ⟨hn, hc, hsep, hA, hB, hApar, hBpar, hch, hnd, hchain, hndl, hright⟩ := hp
  obtain ⟨t', k, h1, hk, hA', hB', hn', hst, hl⟩ := shift_right_leaf_spec cfg t A B a la lb n
    pre.length hA hB hn hAB (by omega) (by omega) (by omega) (by omega)
  refine ⟨t', h1, ?_⟩
  generalize hs : (la.item.length - lb.item.length) / 2 = s at hk hA' hB'
  have hs1 : 1 ≤ s := by omega
  have hs2 : s < la.item.length := by omega
  refine leaf_shift_pair cfg t t' a n (pre.length + 1) (Ptr.node B) pre post A B la lb _ _ k L R
    prev0 hc hsep hApar hBpar hch hnd hchain hndl hright hA' hB' hn' hst hl ?_ hk ?_ ?_ ?_ ?_ ?_
    (Or.inr ⟨rfl, rfl⟩)
  · rw [← List.append_assoc, List.take_append_drop]
  · have hne : lb.item ≠ [] := by
      intro e
      rw [e] at hBlo
      simp at hBlo
      omega
    rw [List.getLast?_append_of_ne_nil _ hne]
  · simp only [List.length_take]; omega
  · simp only [List.length_take]; omega
  · simp only [List.length_append, List.length_drop]; omega
  · simp only [List.length_append, List.length_drop]; omega

/-- The rule "merge" on two adjacent leaves of which one lost an item. -/
theorem leaf_merge_full (cfg : Config) (t : Tree α) (a : Nat) (n : InnerNode α) (w : Nat)
    (X : Ptr) (pre post : List (Part α)) (A B : Nat) (la lb : LeafNode α) (L R : Leaves α)
    (prev0 : Ptr) (hp : LeafPair cfg t a n pre post A B la lb L R prev0)
    (hcap : la.item.length + lb.item.length ≤ cfg.maxLeaf)
    (hmin : cfg.maxLeaf / 2 ≤ la.item.length + lb.item.length) (hbne : lb.item ≠ [])
    (hw : w = pre.length ∨ w = pre.length + 1) :
    ∃ t', merge_leaves_ cfg t (Ptr.node A) (Ptr.node B) = some (t', Result.fix) ∧
      RebOut cfg t t' 0 a n w (pre ++ Part.ofLeaf A la.item :: Part.ofLeaf B lb.item :: post)
        (items (leavesOf (pre ++ Part.ofLeaf A la.item :: Part.ofLeaf B lb.item :: post)))
        X L R prev0 true := by
  obtain ⟨hn, hc, hsep, hA, hB, hApar, hBpar, hch, hnd, hchain, hndl, hright⟩ := hp
  exact leaf_merge_pair cfg t a n w X pre post A B la lb L R prev0 hn hc hsep hA hB hApar hcap
    hmin hbne hw hch hnd hchain hndl hright

end LeafPairs

end BPP

/-! ## The repair below a level-1 node -/

namespace BPP

section LeafLevel
variable {α : Type} [LinearOrder α]

/-- The leaf `X0` among the children of the level-1 node `a` right after it
lost an item: all the other children are well-formed. -/
def LeafLvl (cfg : Config) (s : Tree α) (a : Nat) (n : InnerNode α) (pre post : List (Part α))
    (X0 : Nat) (lx : LeafNode α) (L R : Leaves α) (prev0 : Ptr) : Prop :=
  s.node? (Ptr.node a) = some (Node.inner n) ∧
  n.children = (pre ++ Part.ofLeaf X0 lx.item :: post).map Part.ptr ∧
  n.item.map some = (pre ++ Part.ofLeaf X0 lx.item :: post).dropLast.map Part.last ∧
  s.node? (Ptr.node X0) = some (Node.leaf lx) ∧ lx.parent = Ptr.node a ∧
  (∀ q ∈ pre ++ post, Sub cfg s 0 false q.ptr (Ptr.node a) q.leaves q.fp) ∧
  (a :: fpOf (pre ++ Part.ofLeaf X0 lx.item :: post)).Nodup ∧
  ChainOk s prev0 (L ++ leavesOf (pre ++ Part.ofLeaf X0 lx.item :: post) ++ R) ∧
  ((L ++ leavesOf (pre ++ Part.ofLeaf X0 lx.item :: post) ++ R).map Prod.fst).Nodup ∧
  ((L ++ leavesOf (pre ++ Part.ofLeaf X0 lx.item :: post) ++ R).getLast?).map Prod.fst
    = some s.right

theorem LeafLvl.pair_left {cfg : Config} {s : Tree α} {a : Nat} {n : InnerNode α}
    {pre post : List (Part α)} {y : Part α} {X0 : Nat} {lx : LeafNode α} {L R : Leaves α}
    {prev0 : Ptr} (h : LeafLvl cfg s a n (pre ++ [y]) post X0 lx L R prev0) :
    ∃ Y ly, y = Part.ofLeaf Y ly.item ∧ s.node? (Ptr.node Y) = some (Node.leaf ly) ∧
      cfg.maxLeaf / 2 ≤ ly.item.length ∧ ly.item.length ≤ cfg.maxLeaf ∧
      LeafPair cfg s a n pre post Y X0 ly lx L R prev0 := by
  obtain ⟨hn, hc, hsep, hX, hXpar, hch, hnd, hchain, hndl, hright⟩ := h
  obtain ⟨Y, ly, hy, hY, hYpar, hlo, hhi⟩ := Sub.ofLeaf (hch y (by simp))
  subst hy
  have e : ∀ x : Part α, (pre ++ [Part.ofLeaf Y ly.item]) ++ x :: post
      = pre ++ Part.ofLeaf Y ly.item :: x :: post := by
    intro x; simp
  rw [e] at hc hsep hnd hchain hndl hright
  refine ⟨Y, ly, rfl, hY, by simpa using hlo, hhi, hn, hc, hsep, hY, hX, hYpar, hXpar,
    fun q hq => hch q ?_, hnd, hchain, hndl, hright⟩
  simp only [List.mem_append, List.mem_singleton] at hq ⊢
  tauto

theorem LeafLvl.pair_right {cfg : Config} {s : Tree α} {a : Nat} {n : InnerNode α}
    {pre post : List (Part α)} {y : Part α} {X0 : Nat} {lx : LeafNode α} {L R : Leaves α}
    {prev0 : Ptr} (h : LeafLvl cfg s a n pre (y :: post) X0 lx L R prev0) :
    ∃ Y ly, y = Part.ofLeaf Y ly.item ∧ s.node? (Ptr.node Y) = some (Node.leaf ly) ∧
      cfg.maxLeaf / 2 ≤ ly.item.length ∧ ly.item.length ≤ cfg.maxLeaf ∧
      LeafPair cfg s a n pre post X0 Y lx ly L R prev0 := by
  obtain ⟨hn, hc, hsep, hX, hXpar, hch, hnd, hchain, hndl, hright⟩ := h
  obtain ⟨Y, ly, hy, hY, hYpar, hlo, hhi⟩ := Sub.ofLeaf (hch y (by simp))
  subst hy
  refine ⟨Y, ly, rfl, hY, by simpa using hlo, hhi, hn, hc, hsep, hX, hY, hXpar, hYpar,
    fun q hq => hch q ?_, hnd, hchain, hndl, hright⟩
  simp only [List.mem_append, List.mem_cons] at hq ⊢
  tauto

/-- A level on which nothing has to be repaired. -/
theorem LeafLvl.rebOut {cfg : Config} {s : Tree α} {a : Nat} {n : InnerNode α}
    {pre post : List (Part α)} {X0 : Nat} {lx : LeafNode α} {L R : Leaves α}
    {prev0 : Ptr} (h : LeafLvl cfg s a n pre post X0 lx L R prev0)
    (hlo : cfg.maxLeaf / 2 ≤ lx.item.length) (hhi : lx.item.length ≤ cfg.maxLeaf) :
    RebOut cfg s s 0 a n pre.length (pre ++ Part.ofLeaf X0 lx.item :: post)
      (items (leavesOf (pre ++ Part.ofLeaf X0 lx.item :: post))) (Ptr.node X0) L R prev0
      false := by
  obtain ⟨hn, hc, hsep, hX, hXpar, hch, hnd, hchain, hndl, hright⟩ := h
  refine RebOut.of_istep cfg s s 0 a n pre.length _ _ _ _ L R prev0 false []
    (IStep.istep_refl s []) rfl (fun b hb => by simp at hb) rfl rfl (fun b hb => hb)
    (List.nodup_cons.1 hnd).2 hchain hndl hright (fun _ => ?_) ?_
  · simp only [List.map_append, List.map_cons, Part.ofLeaf_ptr]
    rw [List.getElem?_append_right (by simp)]
    simp
  · unfold Pend
    refine ⟨n, hn, rfl, rfl, rfl, rfl, by simp, fun q hq => ?_, ?_⟩
    · rcases List.mem_append.1 hq with h1 | h1
      · exact hch q (List.mem_append_left _ h1)
      · rcases List.mem_cons.1 h1 with h2 | h2
        · subst h2
          have := Sub.mk_leaf cfg false X0 lx hX (by simpa using hlo) hhi
          rw [hXpar] at this
          exact this
        · exact hch q (List.mem_append_right _ h2)
    · rw [if_neg (by simp)]
      exact ⟨hc, hsep⟩

theorem LeafLvl.lvl_slot {cfg : Config} {s : Tree α} {a : Nat} {n : InnerNode α}
    {pre post : List (Part α)} {X0 : Nat} {lx : LeafNode α} {L R : Leaves α}
    {prev0 : Ptr} (h : LeafLvl cfg s a n pre post X0 lx L R prev0) :
    n.children = pre.map Part.ptr ++ Ptr.node X0 :: post.map Part.ptr ∧
      pre.length + post.length = n.item.length := by
  obtain ⟨hn, hc, hsep, hX, hXpar, hch, hnd, hchain, hndl, hright⟩ := h
  constructor
  · rw [hc]; simp
  · have := congrArg List.length hsep
    simp only [List.length_map, List.length_dropLast, List.length_append,
      List.length_cons] at this
    omega

theorem Result.or_fix (r : Result α) :
    (r.or Result.fix).last_key = r.last_key ∧ (r.or Result.fix).not_found = r.not_found ∧
      (r.or Result.fix).fixmerge = true := by
  simp [Result.or, Result.fix]

theorem Result.or_ok (r : Result α) : r.or Result.ok = r := by
  cases r
  simp [Result.or, Result.ok]

/-- The second part of `erase_pos_` below a level-1 node: nothing to repair,
or one rule applied to the leaf and a sibling. -/
theorem leaf_fix_stage (cfg : Config) (s : Tree α) (a : Nat) (n : InnerNode α)
    (pre post : List (Part α)) (X0 : Nat) (lx : LeafNode α) (L R : Leaves α) (prev0 : Ptr)
    (D : Nat) (r0 : Result α) (p0 : Ptr) (w0 : Nat) (hcapL : 4 ≤ cfg.maxLeaf)
    (hcapI : 2 ≤ cfg.maxInner) (hlv : LeafLvl cfg s a n pre post X0 lx L R prev0)
    (hlo : cfg.maxLeaf / 2 ≤ lx.item.length + 1) (hhi : lx.item.length ≤ cfg.maxLeaf)
    (hsib : pre ≠ [] ∨ post ≠ []) (hroot : s.parent ≠ Ptr.node X0)
    (hL : LeftNb cfg s 1 (Ptr.node a) D) (hR : RightNb cfg s 1 (Ptr.node a) D)
    (hD : D ≤ s.mem.length + 1)
    (hp0 : p0 = Ptr.null ∨ (p0 = Ptr.node a ∧ w0 = pre.length))
    (hgp : get_parent_ s (Ptr.node X0) = some (Ptr.node a, pre.length))
    (hr0 : r0.fixmerge = false) (hr0' : r0.last_key ≠ none → p0 = Ptr.node a) :
    ∃ t1 res par pw,
      erase_pos_fix_ cfg s (Ptr.node X0) lx.item.length r0 p0 w0
        = some (Sum.inr (t1, res, par, pw)) ∧
      ((par = Ptr.node a ∧ pw = pre.length) ∨ (res.last_key = none ∧ res.fixmerge = false)) ∧
      res.last_key = r0.last_key ∧ res.not_found = r0.not_found ∧
      RebOut cfg s t1 0 a n pre.length (pre ++ Part.ofLeaf X0 lx.item :: post)
        (items (leavesOf (pre ++ Part.ofLeaf X0 lx.item :: post))) (Ptr.node X0) L R prev0
        res.fixmerge := by
  by_cases hu : lx.item.length < cfg.maxLeaf / 2
  swap
  · refine ⟨s, r0, p0, w0, ?_, ?_, rfl, rfl, ?_⟩
    · unfold erase_pos_fix_
      rw [if_neg (fun h => hu h.1)]
    · rcases hp0 with h | h
      · right
        refine ⟨?_, hr0⟩
        by_contra hk
        rw [hr0' hk] at h
        simp at h
      · exact Or.inl h
    · rw [hr0]; exact hlv.rebOut (by omega) hhi
  have hif : lx.item.length < cfg.maxLeaf / 2 ∧
      ¬ (Ptr.node X0 = s.parent ∧ lx.item.length ≥ 1) := ⟨hu, fun h => hroot h.1.symm⟩
  obtain ⟨hc', hlen⟩ := hlv.lvl_slot
  have hn := hlv.1
  have hX := hlv.2.2.2.1
  have hch := hlv.2.2.2.2.2.1
  obtain ⟨left, lp, hl1, hl2, hl3⟩ := lrp_left_spec cfg s 0 a n pre post (Ptr.node X0) D hcapI
    hc' hL hD
  obtain ⟨right, rp, hr1, hr2, hr3⟩ := lrp_right_spec cfg s 0 a n pre post (Ptr.node X0) D
    hc' hlen hR hD
  have hlrp := get_left_right_parent_eq s a n pre.length (left, lp) (right, rp)
    (inner?_of_node? hn) hl1 hr1
  simp only [] at hlrp
  have hpar : (if p0 = Ptr.null then get_parent_ s (Ptr.node X0) else some (p0, w0))
      = some (Ptr.node a, pre.length) := by
    rcases hp0 with h | ⟨h1, h2⟩
    · rw [if_pos h, hgp]
    · rw [if_neg (by rw [h1]; simp), h1, h2]
  have hrd : ∀ {x par ls fp}, Sub cfg s 0 false x par ls fp →
      x ≠ Ptr.null ∧ ∃ l, s.leaf? x = some l := by
    intro x par ls fp hs
    obtain ⟨b, l, hp, hnl, -⟩ := Sub.zero_iff.1 hs
    exact ⟨by rw [hp]; simp, l, leaf?_of_node? hnl⟩
  have hNl : NbLeaf s left lp (Ptr.node a) := by
    rcases List.eq_nil_or_concat pre with hpre | ⟨pre', y, hpre⟩
    · obtain ⟨h1, h2⟩ := hl2 hpre
      refine Or.inr ⟨h1, ?_⟩
      rcases h2 with h2 | ⟨par, ls, fp, hs⟩
      · exact Or.inl h2
      · exact Or.inr (hrd hs).2
    · obtain ⟨h1, h2⟩ := hl3 pre' y (by simpa using hpre)
      have := hrd (hch y (by rw [hpre]; simp))
      rw [← h2] at this
      exact Or.inl ⟨h1, this⟩
  have hNr : NbLeaf s right rp (Ptr.node a) := by
    cases hpost : post with
    | nil =>
      obtain ⟨h1, h2⟩ := hr2 hpost
      refine Or.inr ⟨h1, ?_⟩
      rcases h2 with h2 | ⟨par, ls, fp, hs⟩
      · exact Or.inl h2
      · exact Or.inr (hrd hs).2
    | cons y post' =>
      obtain ⟨h1, h2⟩ := hr3 y post' hpost
      have := hrd (hch y (by rw [hpost]; simp))
      rw [← h2] at this
      exact Or.inl ⟨h1, this⟩
  have hone : lp = Ptr.node a ∨ rp = Ptr.node a := by
    rcases hsib with h | h
    · rcases List.eq_nil_or_concat pre with hpre | ⟨pre', y, hpre⟩
      · exact absurd hpre h
      · exact Or.inl (hl3 pre' y (by simpa using hpre)).1
    · cases hpost : post with
      | nil => exact absurd hpost h
      | cons y post' => exact Or.inr (hr3 y post' hpost).1
  have hnn : ¬ (left = Ptr.null ∧ right = Ptr.null) := by
    rintro ⟨h1, h2⟩
    rcases hNl with ⟨-, h, -⟩ | ⟨hl, -⟩
    · exact h h1
    rcases hNr with ⟨-, h, -⟩ | ⟨hr, -⟩
    · exact h h2
    rcases hone with h | h
    · exact hl h
    · exact hr h
  have fin : ∀ t1 res,
      rebalance_leaf_ cfg s (Ptr.node X0) left right lp rp (Ptr.node a) pre.length r0
        = some (t1, res) →
      erase_pos_fix_ cfg s (Ptr.node X0) lx.item.length r0 p0 w0
        = some (Sum.inr (t1, res, Ptr.node a, pre.length)) := by
    intro t1 res h
    unfold erase_pos_fix_
    rw [if_pos hif]
    rcases hp0 with h0 | ⟨h1, h2⟩
    · simp only [if_pos h0, hgp, hlrp, if_neg hnn, h, Option.pure_def, Option.bind_eq_bind,
        Option.some_bind]
    · subst h1 h2
      have hne : ¬ (Ptr.node a = Ptr.null) := by simp
      simp only [if_neg hne, hlrp, if_neg hnn, h, Option.pure_def, Option.bind_eq_bind,
        Option.some_bind]
  have hl1x : 1 ≤ lx.item.length := by omega
  rcases rebalance_leaf_sel cfg s (Ptr.node X0) left right lp rp (Ptr.node a) pre.length r0
    hNl hNr hone with ⟨hlp, ⟨l, hl, hfew⟩, heq⟩ | ⟨hrp, ⟨l, hl, hfew⟩, heq⟩ |
      ⟨hrp, ⟨l, hl, hfew⟩, heq⟩ | ⟨hlp, ⟨l, hl, hfew⟩, heq⟩
  · -- merge with the left sibling
    rcases List.eq_nil_or_concat pre with hpre | ⟨pre', y, hpre⟩
    · exact absurd hlp (hl2 hpre).1
    simp only [List.concat_eq_append] at hpre
    subst hpre
    obtain ⟨-, hleft⟩ := hl3 pre' y rfl
    obtain ⟨Y, ly, hy, hY, hylo, hyhi, hpair⟩ := hlv.pair_left
    subst hy
    have e : l = ly := by
      rw [hleft, Part.ofLeaf_ptr, leaf?_of_node? hY] at hl
      exact (Option.some.inj hl).symm
    subst e
    obtain ⟨t', hm, hreb⟩ := leaf_merge_full cfg s a n (pre'.length + 1) (Ptr.node X0) pre' post
      Y X0 l lx L R prev0 hpair (by omega) (by omega)
      (by intro e; rw [e] at hl1x; simp at hl1x) (Or.inr rfl)
    have hm' : merge_leaves_ cfg s left (Ptr.node X0) = some (t', Result.fix) := by
      rw [hleft]; exact hm
    rw [hm'] at heq
    refine ⟨t', r0.or Result.fix, Ptr.node a, _, fin _ _ (by rw [heq]; rfl), Or.inl ⟨rfl, rfl⟩,
      r0.or_fix.1, r0.or_fix.2.1, ?_⟩
    rw [r0.or_fix.2.2]
    have e : (pre' ++ [Part.ofLeaf Y l.item]) ++ Part.ofLeaf X0 lx.item :: post
        = pre' ++ Part.ofLeaf Y l.item :: Part.ofLeaf X0 lx.item :: post := by simp
    rw [e, List.length_append, List.length_singleton]
    exact hreb
  · -- merge with the right sibling
    cases hpost : post with
    | nil => exact absurd hrp (hr2 hpost).1
    | cons y post' =>
      subst hpost
      obtain ⟨-, hright⟩ := hr3 y post' rfl
      obtain ⟨Y, ly, hy, hY, hylo, hyhi, hpair⟩ := hlv.pair_right
      subst hy
      have e : l = ly := by
        rw [hright, Part.ofLeaf_ptr, leaf?_of_node? hY] at hl
        exact (Option.some.inj hl).symm
      subst e
      obtain ⟨t', hm, hreb⟩ := leaf_merge_full cfg s a n pre.length (Ptr.node X0) pre post'
        X0 Y lx l L R prev0 hpair (by omega) (by omega)
        (by intro e; rw [e] at hylo; simp at hylo; omega) (Or.inl rfl)
      have hm' : merge_leaves_ cfg s (Ptr.node X0) right = some (t', Result.fix) := by
        rw [hright]; exact hm
      rw [hm'] at heq
      refine ⟨t', r0.or Result.fix, Ptr.node a, _, fin _ _ (by rw [heq]; rfl),
        Or.inl ⟨rfl, rfl⟩, r0.or_fix.1, r0.or_fix.2.1, ?_⟩
      rw [r0.or_fix.2.2]
      exact hreb
  · -- shift from the right sibling
    cases hpost : post with
    | nil => exact absurd hrp (hr2 hpost).1
    | cons y post' =>
      subst hpost
      obtain ⟨hrpe, hright⟩ := hr3 y post' rfl
      obtain ⟨Y, ly, hy, hY, hylo, hyhi, hpair⟩ := hlv.pair_right
      subst hy
      have e : l = ly := by
        rw [hright, Part.ofLeaf_ptr, leaf?_of_node? hY] at hl
        exact (Option.some.inj hl).symm
      subst e
      obtain ⟨t', hm, hreb⟩ := leaf_shift_left_full cfg s a n pre post' X0 Y lx l L R prev0
        hpair hcapL hlo hu hfew hyhi
      have hm' : shift_left_leaf_ cfg s (Ptr.node X0) right rp pre.length
          = some (t', Result.ok) := by
        rw [hright, hrpe]; exact hm
      rw [hm'] at heq
      refine ⟨t', r0, Ptr.node a, _, fin _ _ (by rw [heq]; simp [Result.or_ok]),
        Or.inl ⟨rfl, rfl⟩, rfl, rfl, ?_⟩
      rw [hr0]
      exact hreb
  · -- shift from the left sibling
    rcases List.eq_nil_or_concat pre with hpre | ⟨pre', y, hpre⟩
    · exact absurd hlp (hl2 hpre).1
    simp only [List.concat_eq_append] at hpre
    subst hpre
    obtain ⟨hlpe, hleft⟩ := hl3 pre' y rfl
    obtain ⟨Y, ly, hy, hY, hylo, hyhi, hpair⟩ := hlv.pair_left
    subst hy
    have e : l = ly := by
      rw [hleft, Part.ofLeaf_ptr, leaf?_of_node? hY] at hl
      exact (Option.some.inj hl).symm
    subst e
    obtain ⟨t', hm, hreb⟩ := leaf_shift_right_full cfg s a n pre' post Y X0 l lx L R prev0
      hpair hcapL hlo hu hfew hyhi
    have hw : wsub (pre' ++ [Part.ofLeaf Y l.item]).length 1 = pre'.length := by
      rw [wsub_of_le (by simp)]; simp
    have hm' : shift_right_leaf_ cfg s left (Ptr.node X0) lp
        (wsub (pre' ++ [Part.ofLeaf Y l.item]).length 1) = some t' := by
      rw [hleft, hlpe, hw]; exact hm
    rw [hm'] at heq
    refine ⟨t', r0, Ptr.node a, _, fin _ _ (by rw [heq]; rfl), Or.inl ⟨rfl, rfl⟩, rfl, rfl, ?_⟩
    rw [hr0]
    have e : (pre' ++ [Part.ofLeaf Y l.item]) ++ Part.ofLeaf X0 lx.item :: post
        = pre' ++ Part.ofLeaf Y l.item :: Part.ofLeaf X0 lx.item :: post := by simp
    rw [e, List.length_append, List.length_singleton]
    exact hreb

end LeafLevel

end BPP

/-! ## The removal of an item from a leaf below a level-1 node -/

namespace BPP

section LeafErase
variable {α : Type} [LinearOrder α]

theorem getLast?_mid_congr {β : Type} (A X X' B : List β) (h : X.getLast? = X'.getLast?) :
    (A ++ X ++ B).getLast? = (A ++ X' ++ B).getLast? := by
  simp only [List.getLast?_append, h]

theorem getLast?_eraseIdx_of_lt {β : Type} (l : List β) (i : Nat) (hi : i + 1 < l.length) :
    (l.eraseIdx i).getLast? = l.getLast? := by
  rw [List.getLast?_eq_getElem?, List.getLast?_eq_getElem?, List.length_eraseIdx,
    if_pos (by omega), List.getElem?_eraseIdx, if_neg (by omega)]
  congr 1
  omega

theorem items_leavesOf_mid (pre post : List (Part α)) (X0 : Nat) (xs : List α) :
    items (leavesOf (pre ++ Part.ofLeaf X0 xs :: post))
      = items (leavesOf pre) ++ xs ++ items (leavesOf post) := by
  simp [leavesOf_append, leavesOf_cons, items_append, items_cons]

/-- The first part of `erase_pos_` below a level-1 node. -/
theorem erase_pos_leaf_spec (cfg : Config) (t : Tree α) (a : Nat) (n : InnerNode α)
    (pre post : List (Part α)) (X0 : Nat) (l : LeafNode α) (i : Nat) (L R : Leaves α)
    (prev0 : Ptr) (hcapL : 4 ≤ cfg.maxLeaf)
    (hlv : LeafLvl cfg t a n pre post X0 l L R prev0)
    (hlo : cfg.maxLeaf / 2 ≤ l.item.length) (hi : i < l.item.length) :
    ∃ s r0 p0 w0 n',
      erase_pos_leaf_ cfg t (Ptr.node X0) i = some (s, r0, p0, w0, (l.item.eraseIdx i).length) ∧
      LeafLvl cfg s a n' pre post X0 { l with item := l.item.eraseIdx i } L R prev0 ∧
      n'.parent = n.parent ∧ n'.level = n.level ∧ n'.size = n.size ∧
      IStep t s [X0, a] ∧ s.mem.length = t.mem.length ∧
      (p0 = Ptr.null ∨ (p0 = Ptr.node a ∧ w0 = pre.length)) ∧
      get_parent_ s (Ptr.node X0) = some (Ptr.node a, pre.length) ∧
      r0.fixmerge = false ∧ r0.not_found = false ∧ (r0.last_key ≠ none → p0 = Ptr.node a) ∧
      (∀ k, r0.last_key = some k →
        (items (leavesOf (pre ++ Part.ofLeaf X0 (l.item.eraseIdx i) :: post))).getLast?
          = some k) ∧
      (r0.last_key = none →
        (items (leavesOf (pre ++ Part.ofLeaf X0 (l.item.eraseIdx i) :: post))).getLast?
          = (items (leavesOf (pre ++ Part.ofLeaf X0 l.item :: post))).getLast?) ∧
      (i = (l.item.eraseIdx i).length → p0 = Ptr.node a ∧ w0 = pre.length) := by
  obtain ⟨hc', hlen⟩ := hlv.lvl_slot
  obtain ⟨hn, hc, hsep, hX, hXpar, hch, hnd, hchain, hndl, hright⟩ := hlv
  have hnew : (l.item.eraseIdx i).length = l.item.length - 1 := by
    rw [List.length_eraseIdx, if_pos hi]
  have hXa : X0 ≠ a := by
    intro e
    have := (List.nodup_cons.1 hnd).1
    rw [e] at this
    exact this (by simp [fpOf_append, fpOf_cons])
  obtain ⟨ta, h1, hXa', hsta, hla⟩ := modLeaf_istep t X0 l
    (fun m => { m with item := l.item.eraseIdx i }) hX rfl rfl
  have hna : ta.node? (Ptr.node a) = some (Node.inner n) := by
    rw [hsta.1.node_eq hla a (by simpa using hXa.symm)]; exact hn
  have hptrs : ∀ xs : List α,
      (leavesOf (pre ++ Part.ofLeaf X0 xs :: post)).map Prod.fst
        = (leavesOf (pre ++ Part.ofLeaf X0 l.item :: post)).map Prod.fst := by
    intro xs; simp [leavesOf_append, leavesOf_cons]
  have hmapL : ∀ xs : List α,
      (L ++ leavesOf (pre ++ Part.ofLeaf X0 xs :: post) ++ R).map Prod.fst
        = (L ++ leavesOf (pre ++ Part.ofLeaf X0 l.item :: post) ++ R).map Prod.fst := by
    intro xs; simp only [List.map_append, hptrs]
  have hfpeq : ∀ xs : List α, fpOf (pre ++ Part.ofLeaf X0 xs :: post)
      = fpOf (pre ++ Part.ofLeaf X0 l.item :: post) := by
    intro xs; simp [fpOf_append, fpOf_cons]
  have hdisj : ∀ q ∈ pre ++ post, ∀ b ∈ q.fp, b ≠ X0 ∧ b ≠ a := by
    intro q hq b hb
    have h1 := fp_disjoint_of_nodup pre post (Part.ofLeaf X0 l.item) (List.nodup_cons.1 hnd).2
      q hq b hb
    refine ⟨fun e => h1 (by simp [e]), fun e => (List.nodup_cons.1 hnd).1 ?_⟩
    rw [← e]
    rcases List.mem_append.1 hq with h | h
    · exact mem_fpOf (List.mem_append_left _ h) hb
    · exact mem_fpOf (List.mem_append_right _ (List.mem_cons_of_mem _ h)) hb
  have gp : ∀ (s : Tree α) (n' : InnerNode α),
      s.node? (Ptr.node X0) = some (Node.leaf { l with item := l.item.eraseIdx i }) →
      s.node? (Ptr.node a) = some (Node.inner n') → n'.children = n.children →
      n'.item.length = n.item.length →
      get_parent_ s (Ptr.node X0) = some (Ptr.node a, pre.length) := by
    intro s n' hXs hns hcs hil
    have := get_parent_child s a n' pre post (Part.ofLeaf X0 (l.item.eraseIdx i)) hns
      (by rw [hcs, hc]; simp) (by simp; omega)
      (by rw [Part.ofLeaf_ptr, parent?_leaf hXs, hXpar])
      (by
        intro hm
        simp only [List.mem_map, Part.ofLeaf_ptr] at hm
        obtain ⟨q, hq, he⟩ := hm
        obtain ⟨b, tl, hp, hfp⟩ := Sub.ptr (hch q (List.mem_append_left _ hq))
        rw [hp] at he
        simp only [Ptr.node.injEq] at he
        exact (hdisj q (List.mem_append_left _ hq) b (by rw [hfp]; simp)).1 he)
    simpa using this
  -- the level in a state that differs from `t` in the cells `X0` and `a`
  have mk : ∀ (s : Tree α) (n' : InnerNode α), IStep t s [X0, a] → s.mem.length = t.mem.length →
      s.node? (Ptr.node X0) = some (Node.leaf { l with item := l.item.eraseIdx i }) →
      s.node? (Ptr.node a) = some (Node.inner n') → n'.children = n.children →
      n'.item.map some = (pre ++ Part.ofLeaf X0 (l.item.eraseIdx i) :: post).dropLast.map
        Part.last →
      LeafLvl cfg s a n' pre post X0 { l with item := l.item.eraseIdx i } L R prev0 ∧
        get_parent_ s (Ptr.node X0) = some (Ptr.node a, pre.length) := by
    intro s n' hst hls hXs hns hcs hseps
    have hch' : ∀ q ∈ pre ++ post, Sub cfg s 0 false q.ptr (Ptr.node a) q.leaves q.fp := by
      intro q hq
      refine Sub.step (hch q hq) hst.1 (fun b hb e => ?_)
      have := hdisj q hq b hb
      simp only [List.mem_cons, List.mem_singleton, List.not_mem_nil, or_false] at e
      tauto
    refine ⟨⟨hns, by rw [hcs, hc]; simp, hseps, hXs, hXpar, hch', ?_, ?_, ?_, ?_⟩, ?_⟩
    · rw [hfpeq]; exact hnd
    · refine (chainOk_iff_seg _ _ _).2 (ChainSeg.congr_ptrs _ _ _ _ (hmapL _).symm ?_)
      exact (chainOk_iff_seg _ _ _).1 (ChainOk.chain_step hst.2.2 _ _ hchain)
    · rw [hmapL]; exact hndl
    · rw [← List.getLast?_map, hmapL, List.getLast?_map, hright, hst.2.1.2.2.2]
    · have hslot : n'.item.length = pre.length + post.length := by
        have := congrArg List.length hseps
        simp only [List.length_map, List.length_dropLast, List.length_append,
          List.length_cons] at this
        omega
      exact gp s n' hXs hns hcs (by omega)
  have hsame : ∀ xs : List α, xs.getLast? = l.item.getLast? →
      (pre ++ Part.ofLeaf X0 xs :: post).dropLast.map Part.last
        = (pre ++ Part.ofLeaf X0 l.item :: post).dropLast.map Part.last := by
    intro xs hx
    rw [List.dropLast_append_of_ne_nil _ (by simp), List.dropLast_append_of_ne_nil _ (by simp)]
    cases post with
    | nil => simp
    | cons y ys =>
      rw [List.dropLast_cons₂, List.dropLast_cons₂]
      simp [hx]
  have hleafa : ta.leaf? (Ptr.node X0) = some { l with item := l.item.eraseIdx i } :=
    leaf?_of_node? hXa'
  by_cases hlast : i = (l.item.eraseIdx i).length
  · -- the last item of the leaf
    have hne : l.item.eraseIdx i ≠ [] := by
      intro e
      rw [e] at hnew
      simp at hnew
      omega
    obtain ⟨k, hk⟩ : ∃ k, (l.item.eraseIdx i).getLast? = some k := by
      cases h : (l.item.eraseIdx i).getLast? with
      | none => exact absurd (List.getLast?_eq_none_iff.1 h) hne
      | some k => exact ⟨k, rfl⟩
    have hkw : (l.item.eraseIdx i)[wsub (l.item.eraseIdx i).length 1]? = some k := by
      rw [getLast?_eq_getElem?_wsub _ hne, hk]
    have hgpa := gp ta n hXa' hna rfl rfl
    cases hpost : post with
    | nil =>
      subst hpost
      obtain ⟨hlv', hgp⟩ := mk ta n (hsta.istep_mono (fun b hb _ => by
        simp only [List.mem_singleton] at hb; simp [hb])) hla hXa' hna rfl
        (by rw [hsep]; simp)
      refine ⟨ta, Result.lastKey k, Ptr.node a, pre.length, n, ?_, hlv', rfl, rfl, rfl,
        hsta.istep_mono (fun b hb _ => by simp only [List.mem_singleton] at hb; simp [hb]),
        hla, Or.inr ⟨rfl, rfl⟩, hgp, rfl, rfl, fun _ => rfl, fun k' hk' => ?_, fun h => ?_,
        fun _ => ⟨rfl, rfl⟩⟩
      · have hnp : ¬ (pre.length < n.item.length) := by
          simp only [List.length_nil] at hlen; omega
        have hge : (l.item.eraseIdx i).length ≥ 1 := by
          have := List.length_pos.2 hne; omega
        simp only [erase_pos_leaf_, leaf?_of_node? hX, eraseAt?, if_pos hi, h1, if_pos hlast,
          hgp, leaf_last_key_, hleafa, inner?_of_node? hna, hnp, hkw, if_pos hge,
          Option.pure_def, Option.bind_eq_bind, Option.some_bind, ne_eq, not_false_eq_true,
          if_true, decide_False, Bool.false_eq_true, if_false, reduceCtorEq]
      · simp only [Result.lastKey, Option.some.injEq] at hk'
        subst hk'
        rw [items_leavesOf_mid]
        simp only [leavesOf_nil, items_nil, List.append_nil]
        rw [List.getLast?_append_of_ne_nil _ hne, hk]
      · simp [Result.lastKey] at h
    | cons y ys =>
      subst hpost
      have hpw : pre.length < n.item.length := by
        simp only [List.length_cons] at hlen; omega
      obtain ⟨tb, h2, hnb, hstb, hlb⟩ := store_key_spec cfg ta a n pre.length k hna hpw
      have hst : IStep t tb [X0, a] := hsta.istep_trans hstb
      have hXb : tb.node? (Ptr.node X0)
          = some (Node.leaf { l with item := l.item.eraseIdx i }) := by
        rw [hstb.1.node_eq hlb X0 (by simpa using hXa)]; exact hXa'
      obtain ⟨hlv', hgp⟩ := mk tb _ hst (hlb.trans hla) hXb hnb rfl
        (sep_store pre (y :: ys) (Part.ofLeaf X0 l.item) _ n.item k hsep
          (by rw [Part.ofLeaf_last]; exact hk) (by simp))
      obtain ⟨Y, ly, hy, hY, hYpar, hylo, hyhi⟩ := Sub.ofLeaf (hch y (by simp))
      have hBne : items (leavesOf (y :: ys)) ≠ [] := by
        rw [hy]
        simp only [leavesOf_cons, Part.ofLeaf_leaves, items_append, items_cons, items_nil,
          List.append_nil]
        intro e
        have := congrArg List.length e
        simp only [List.length_append, List.length_nil, Bool.false_eq_true, if_false] at this hylo
        omega
      refine ⟨tb, Result.ok, Ptr.node a, pre.length, _, ?_, hlv', rfl, rfl, rfl, hst,
        hlb.trans hla, Or.inr ⟨rfl, rfl⟩, hgp, rfl, rfl, fun _ => rfl, fun k' hk' => ?_,
        fun _ => ?_, fun _ => ⟨rfl, rfl⟩⟩
      · simp only [erase_pos_leaf_, leaf?_of_node? hX, eraseAt?, if_pos hi, h1, if_pos hlast,
          hgpa, leaf_last_key_, hleafa, inner?_of_node? hna, hpw, hkw, h2,
          Option.pure_def, Option.bind_eq_bind, Option.some_bind, ne_eq, not_false_eq_true,
          if_true, decide_True, reduceCtorEq]
      · simp [Result.ok] at hk'
      · rw [items_leavesOf_mid, items_leavesOf_mid, List.getLast?_append_of_ne_nil _ hBne,
          List.getLast?_append_of_ne_nil _ hBne]
  · -- an item before the last one
    have hlt : i + 1 < l.item.length := by omega
    have hgl := getLast?_eraseIdx_of_lt l.item i hlt
    obtain ⟨hlv', hgp⟩ := mk ta n (hsta.istep_mono (fun b hb _ => by
      simp only [List.mem_singleton] at hb; simp [hb])) hla hXa' hna rfl
      (by rw [hsep, hsame _ hgl])
    refine ⟨ta, Result.ok, Ptr.null, 0, n, ?_, hlv', rfl, rfl, rfl,
      hsta.istep_mono (fun b hb _ => by simp only [List.mem_singleton] at hb; simp [hb]),
      hla, Or.inl rfl, hgp, rfl, rfl, fun h => absurd rfl h, fun k' hk' => ?_, fun _ => ?_,
      fun h => absurd h hlast⟩
    · simp only [erase_pos_leaf_, leaf?_of_node? hX, eraseAt?, if_pos hi, h1, if_neg hlast,
        Option.pure_def, Option.bind_eq_bind, Option.some_bind]
    · simp [Result.ok] at hk'
    · rw [items_leavesOf_mid, items_leavesOf_mid]
      exact getLast?_mid_congr _ _ _ _ hgl

end LeafErase

end BPP

/-! ## The positional erase below a level-1 node -/

namespace BPP

section LeafLevelTop
variable {α : Type} [LinearOrder α]

theorem eraseIdx_mid {β : Type} (A X B : List β) (i : Nat) (hi : i < X.length) :
    (A ++ X ++ B).eraseIdx (A.length + i) = A ++ X.eraseIdx i ++ B := by
  rw [List.append_assoc, List.eraseIdx_append_of_length_le (by omega), Nat.add_sub_cancel_left,
    List.eraseIdx_append_of_lt_length hi, List.append_assoc]

/-- The outcome of a level, seen from a state before the one the repair
started in. -/
theorem RebOut.comp (cfg : Config) (t s t1 : Tree α) (h a : Nat) (n n' : InnerNode α) (w : Nat)
    (ps ps' : List (Part α)) (xs : List α) (X : Ptr) (L R : Leaves α) (prev0 : Ptr)
    (fix : Bool) (hlen : s.mem.length = t.mem.length) (hp : s.parent = t.parent)
    (hsz : s.size = t.size) (hleft : s.left = t.left)
    (hfr : ∀ b, b ∉ a :: fpOf ps → SameCore t s b) (hfp : ∀ b ∈ fpOf ps', b ∈ fpOf ps)
    (hhead : ((L ++ leavesOf ps' ++ R).head?).map Prod.fst
      = ((L ++ leavesOf ps ++ R).head?).map Prod.fst)
    (hn1 : n'.parent = n.parent) (hn2 : n'.level = n.level) (hn3 : n'.size = n.size)
    (hn4 : n'.item.length = n.item.length)
    (hr : RebOut cfg s t1 h a n' w ps' xs X L R prev0 fix) :
    RebOut cfg t t1 h a n w ps xs X L R prev0 fix := by
  unfold RebOut at hr ⊢
  obtain ⟨h1, h2, h3, h4, h5, ps'', h6, h7, h8, h9, h10, h11, h12, h13, h14⟩ := hr
  refine ⟨h1.trans hlen, h2.trans hp, h3.trans hsz, h4.trans hleft, fun b hb => ?_, ps'', h6,
    fun b hb => hfp b (h7 b hb), h8, h9, h10, h11.trans hhead, h12, h13, ?_⟩
  · refine (hfr b hb).trans (h5 b (fun e => hb ?_))
    rcases List.mem_cons.1 e with e | e
    · rw [e]; exact List.mem_cons_self _ _
    · exact List.mem_cons_of_mem _ (hfp b e)
  · unfold Pend at h14 ⊢
    rw [← hn1, ← hn2, ← hn3, ← hn4]
    obtain ⟨n1, g1, g2, g3, g4, g5, g6, g7, g8⟩ := h14
    refine ⟨n1, g1, g2, g3, g4, g5, g6, g7, ?_⟩
    cases fix with
    | false => exact g8
    | true =>
      simp only [if_true] at g8 ⊢
      obtain ⟨d, D, k1, k2, k3, k4, k5, k6, k7, k8, k9, k10, k11⟩ := g8
      exact ⟨d, D, k1, k2, k3, k4, k5, k6, k7, k8, k9, k10, hfp D k11⟩

/-- The run of `erase_pos_` below a level-1 node: what is left to do starts at
that node. -/
theorem erase_leaf_level (cfg : Config) (t : Tree α) (a : Nat) (n : InnerNode α)
    (pre post : List (Part α)) (X0 : Nat) (l : LeafNode α) (i : Nat) (L R : Leaves α)
    (prev0 : Ptr) (D : Nat) (hcapL : 4 ≤ cfg.maxLeaf) (hcapI : 2 ≤ cfg.maxInner)
    (hlv : LeafLvl cfg t a n pre post X0 l L R prev0)
    (hlo : cfg.maxLeaf / 2 ≤ l.item.length) (hhi : l.item.length ≤ cfg.maxLeaf)
    (hi : i < l.item.length) (hitem : 1 ≤ n.item.length) (hroot : t.parent ≠ Ptr.node X0)
    (hok : NbOk cfg t 1 a (a :: fpOf (pre ++ Part.ofLeaf X0 l.item :: post)) D)
    (hD : D ≤ t.mem.length + 1) :
    ∃ t1 res,
      erase_pos_ cfg t (Ptr.node X0) i
        = erase_up_ cfg (t1.mem.length + 1) (t1.mem.length + 1) t1 (Ptr.node a) pre.length
            (Ptr.node X0) res ∧
      RebOut cfg t t1 0 a n pre.length (pre ++ Part.ofLeaf X0 l.item :: post)
        ((items (leavesOf (pre ++ Part.ofLeaf X0 l.item :: post))).eraseIdx
          ((items (leavesOf pre)).length + i)) (Ptr.node X0) L R prev0 res.fixmerge ∧
      res.not_found = false ∧
      (∀ k, res.last_key = some k →
        ((items (leavesOf (pre ++ Part.ofLeaf X0 l.item :: post))).eraseIdx
          ((items (leavesOf pre)).length + i)).getLast? = some k) ∧
      (res.last_key = none →
        ((items (leavesOf (pre ++ Part.ofLeaf X0 l.item :: post))).eraseIdx
          ((items (leavesOf pre)).length + i)).getLast?
          = (items (leavesOf (pre ++ Part.ofLeaf X0 l.item :: post))).getLast?) := by
  have hxs : (items (leavesOf (pre ++ Part.ofLeaf X0 l.item :: post))).eraseIdx
      ((items (leavesOf pre)).length + i)
      = items (leavesOf (pre ++ Part.ofLeaf X0 (l.item.eraseIdx i) :: post)) := by
    rw [items_leavesOf_mid, items_leavesOf_mid, eraseIdx_mid _ _ _ _ hi]
  rw [hxs]
  obtain ⟨hc', hlen⟩ := hlv.lvl_slot
  obtain ⟨s, r0, p0, w0, n', hs1, hlv', hn1, hn2, hn3, hst, hls, hp0, hgp, hr1, hr2, hr3, hk1,
    hk2, -⟩ := erase_pos_leaf_spec cfg t a n pre post X0 l i L R prev0 hcapL hlv hlo hi
  have hfpeq : fpOf (pre ++ Part.ofLeaf X0 (l.item.eraseIdx i) :: post)
      = fpOf (pre ++ Part.ofLeaf X0 l.item :: post) := by
    simp [fpOf_append, fpOf_cons]
  have hfr : ∀ b, b ∉ a :: fpOf (pre ++ Part.ofLeaf X0 l.item :: post) → SameCore t s b := by
    intro b hb
    refine SameCore.of_eq (hst.1.node_eq hls b (fun e => hb ?_))
    simp only [List.mem_cons, List.mem_singleton, List.not_mem_nil, or_false] at e
    rcases e with e | e
    · rw [e]; exact List.mem_cons_of_mem _ (by simp [fpOf_append, fpOf_cons])
    · rw [e]; exact List.mem_cons_self _ _
  obtain ⟨hL, hR⟩ := hok s hls hfr (by
    rw [parent?_inner hlv'.1, parent?_inner hlv.1, hn1])
  have hnew : (l.item.eraseIdx i).length = l.item.length - 1 := by
    rw [List.length_eraseIdx, if_pos hi]
  have hsib : pre ≠ [] ∨ post ≠ [] := by
    by_contra hc
    push_neg at hc
    rw [hc.1, hc.2] at hlen
    simp at hlen
    omega
  obtain ⟨t1, res, par, pw, hs2, hpar, hq1, hq2, hreb⟩ := leaf_fix_stage cfg s a n' pre post X0
    { l with item := l.item.eraseIdx i } L R prev0 D r0 p0 w0 hcapL hcapI hlv'
    (by simp only [hnew]; omega) (by simp only [hnew]; omega) hsib
    (by rw [hst.2.1.1]; exact hroot) hL hR (by rw [hls]; exact hD) hp0 hgp hr1 hr3
  refine ⟨t1, res, ?_, ?_, by rw [hq2, hr2], fun k hk => hk1 k (by rw [← hq1, hk]),
    fun hk => hk2 (by rw [← hq1, hk])⟩
  · rw [erase_pos_eq, hs1]
    simp only [Option.some_bind]
    simp only [hnew] at hs2 ⊢
    rw [hs2]
    simp only [Option.some_bind]
    rcases hpar with ⟨h1, h2⟩ | ⟨h1, h2⟩
    · rw [h1, h2]
    · simp [erase_up_, h1, h2]
  · refine RebOut.comp cfg t s t1 0 a n n' pre.length _ _ _ _ L R prev0 _ hls hst.2.1.1
      hst.2.1.2.1 hst.2.1.2.2.1 hfr (fun b hb => by rw [← hfpeq]; exact hb) ?_ hn1 hn2 hn3
      (by have := hlv'.lvl_slot.2; omega) hreb
    rw [← List.head?_map, ← List.head?_map]
    congr 1
    simp [leavesOf_append, leavesOf_cons]

end LeafLevelTop

end BPP

/-! ## Runs on small containers -/

namespace BPP

section Runs

/-- The container after `insert(1)`, ..., `insert(21)` with MAX_LEAF = 4 and
MAX_INNER = 4. -/
def sample21 : Tree Nat :=
  ⟨Ptr.node 8, 21, Ptr.node 0, Ptr.node 13,
    [some (Node.leaf ⟨Ptr.node 2, Ptr.root, Ptr.node 1, [1, 2]⟩),
     some (Node.leaf ⟨Ptr.node 2, Ptr.node 0, Ptr.node 3, [3, 4]⟩),
     some (Node.inner ⟨Ptr.node 8, 6, 1, [Ptr.node 0, Ptr.node 1, Ptr.node 3], [2, 4]⟩),
     some (Node.leaf ⟨Ptr.node 2, Ptr.node 1, Ptr.node 4, [5, 6]⟩),
     some (Node.leaf ⟨Ptr.node 7, Ptr.node 3, Ptr.node 5, [7, 8]⟩),
     some (Node.leaf ⟨Ptr.node 7, Ptr.node 4, Ptr.node 6, [9, 10]⟩),
     some (Node.leaf ⟨Ptr.node 7, Ptr.node 5, Ptr.node 9, [11, 12]⟩),
     some (Node.inner ⟨Ptr.node 8, 6, 1, [Ptr.node 4, Ptr.node 5, Ptr.node 6], [8, 10]⟩),
     some (Node.inner ⟨Ptr.root, 21, 2, [Ptr.node 2, Ptr.node 7, Ptr.node 12], [6, 12]⟩),
     some (Node.leaf ⟨Ptr.node 12, Ptr.node 6, Ptr.node 10, [13, 14]⟩),
     some (Node.leaf ⟨Ptr.node 12, Ptr.node 9, Ptr.node 11, [15, 16]⟩),
     some (Node.leaf ⟨Ptr.node 12, Ptr.node 10, Ptr.node 13, [17, 18]⟩),
     some (Node.inner ⟨Ptr.node 8, 9, 1,
       [Ptr.node 9, Ptr.node 10, Ptr.node 11, Ptr.node 13], [14, 16, 18]⟩),
     some (Node.leaf ⟨Ptr.node 12, Ptr.node 11, Ptr.root, [19, 20, 21]⟩)]⟩

/-- The container after `insert(1)`, ..., `insert(10)` with MAX_LEAF = 4 and
MAX_INNER = 4. -/
def sample10 : Tree Nat :=
  ⟨Ptr.node 2, 10, Ptr.node 0, Ptr.node 4,
    [some (Node.leaf ⟨Ptr.node 2, Ptr.root, Ptr.node 1, [1, 2]⟩),
     some (Node.leaf ⟨Ptr.node 2, Ptr.node 0, Ptr.node 3, [3, 4]⟩),
     some (Node.inner ⟨Ptr.root, 10, 1,
       [Ptr.node 0, Ptr.node 1, Ptr.node 3, Ptr.node 4], [2, 4, 6]⟩),
     some (Node.leaf ⟨Ptr.node 2, Ptr.node 1, Ptr.node 4, [5, 6]⟩),
     some (Node.leaf ⟨Ptr.node 2, Ptr.node 3, Ptr.root, [7, 8, 9, 10]⟩)]⟩

/-- The state `sample10` after `erase(5)`. -/
def sample10_a : Tree Nat :=
  ⟨Ptr.node 2, 9, Ptr.node 0, Ptr.node 4,
    [some (Node.leaf ⟨Ptr.node 2, Ptr.root, Ptr.node 1, [1, 2]⟩),
     some (Node.leaf ⟨Ptr.node 2, Ptr.node 0, Ptr.node 3, [3, 4]⟩),
     some (Node.inner ⟨Ptr.root, 9, 1,
       [Ptr.node 0, Ptr.node 1, Ptr.node 3, Ptr.node 4], [2, 4, 7]⟩),
     some (Node.leaf ⟨Ptr.node 2, Ptr.node 1, Ptr.node 4, [6, 7]⟩),
     some (Node.leaf ⟨Ptr.node 2, Ptr.node 3, Ptr.root, [8, 9, 10]⟩)]⟩

/-- The state `sample10` after `erase(5)` and `erase(1)`. -/
def sample10_b : Tree Nat :=
  ⟨Ptr.node 2, 8, Ptr.node 0, Ptr.node 4,
    [some (Node.leaf ⟨Ptr.node 2, Ptr.root, Ptr.node 3, [2, 3, 4]⟩),
     none,
     some (Node.inner ⟨Ptr.root, 8, 1, [Ptr.node 0, Ptr.node 3, Ptr.node 4], [4, 7]⟩),
     some (Node.leaf ⟨Ptr.node 2, Ptr.node 0, Ptr.node 4, [6, 7]⟩),
     some (Node.leaf ⟨Ptr.node 2, Ptr.node 3, Ptr.root, [8, 9, 10]⟩)]⟩

/-- The state `sample10` after `erase(5)`, `erase(1)` and `erase(10)`. -/
def sample10_c : Tree Nat :=
  ⟨Ptr.node 2, 7, Ptr.node 0, Ptr.node 4,
    [some (Node.leaf ⟨Ptr.node 2, Ptr.root, Ptr.node 3, [2, 3, 4]⟩),
     none,
     some (Node.inner ⟨Ptr.root, 7, 1, [Ptr.node 0, Ptr.node 3, Ptr.node 4], [4, 7]⟩),
     some (Node.leaf ⟨Ptr.node 2, Ptr.node 0, Ptr.node 4, [6, 7]⟩),
     some (Node.leaf ⟨Ptr.node 2, Ptr.node 3, Ptr.root, [8, 9]⟩)]⟩

/-- The items of the leaves, leaf by leaf in chain order. -/
def leafItems {α : Type} (t : Tree α) : Option (List (List α)) :=
  (leafList t).map (fun ls => ls.map Prod.snd)

/-- The level of every node below `p` is one less than its parent's, down to
the leaves at level 0: the number of node levels below and including `p`. -/
def depth? {α : Type} (t : Tree α) : Nat → Ptr → Option Nat
  | 0, _ => none
  | fuel + 1, p =>
    match t.node? p with
    | some (Node.leaf _) => some 1
    | some (Node.inner n) =>
      match (n.children.take (n.item.length + 1)).map (depth? t fuel) with
      | [] => none
      | d :: ds => if ds.all (· == d) then d.map (· + 1) else none
    | none => none

/-- The runs of inserts that build `sample10` and `sample21`. -/
theorem sample21_eq_inserts (u : Bool) :
    ((List.range' 1 21).foldlM (fun t x => (insert ⟨u, 4, 4⟩ t x).map (·.1))
      (empty : Tree Nat)) = some sample21 ∧
    ((List.range' 1 10).foldlM (fun t x => (insert ⟨u, 4, 4⟩ t x).map (·.1))
      (empty : Tree Nat)) = some sample10 := by
  cases u <;> exact ⟨by decide, by decide⟩

/-- C26: with MAX_LEAF = MAX_INNER = 4, `insert(1)`, ..., `insert(21)` on the
empty container give size 21, the in-order sequence 1..21 (by the walk from
the root and by the leaf chain), a real root of level 2 and every leaf on the
third node level. -/
theorem insert_1_to_21 (u : Bool) :
    ∃ t, ((List.range' 1 21).foldlM (fun t x => (insert ⟨u, 4, 4⟩ t x).map (·.1))
        (empty : Tree Nat)) = some t ∧
      t.size = 21 ∧ toList t = some (List.range' 1 21) ∧ iterate t = some (List.range' 1 21) ∧
      t.level? t.parent = some 2 ∧ depth? t (t.mem.length + 1) t.parent = some 3 := by
  refine ⟨sample21, (sample21_eq_inserts u).1, ?_⟩
  decide

/-- C22, the claim fails for `erase(key)`: erasing the only element of `{5}`
by key leaves `root_.left` and `root_.right` null, not pointing to the
anchor, so `begin()` differs from `end()`; `erase(iterator)` resets the three
pointers to the anchor. -/
theorem erase_key_last_element (u : Bool) :
    WF ⟨u, 4, 4⟩ (single 5) ∧
      erase_key ⟨u, 4, 4⟩ (single 5) 5 = some (⟨Ptr.root, 0, Ptr.null, Ptr.null, [none]⟩, 1) ∧
      (⟨Ptr.root, 0, Ptr.null, Ptr.null, [none]⟩ : Tree Nat).left ≠ (empty : Tree Nat).left ∧
      «begin» (⟨Ptr.root, 0, Ptr.null, Ptr.null, [none]⟩ : Tree Nat) ≠ «end» ∧
      erase ⟨u, 4, 4⟩ (single 5) (Ptr.node 0, 0) = some ⟨Ptr.root, 0, Ptr.root, Ptr.root, [none]⟩ := by
  refine ⟨single_wf _ 5 (by show 2 ≤ 4; decide) (by show 2 ≤ 4; decide), ?_⟩
  cases u <;> decide

/-- C27, the claim fails for `erase(1)` and `erase(10)`: after `insert(1)`,
..., `insert(10)` and `erase(5)` (multi mode), the call `erase(1)` frees a leaf (the leaf
`[2]` is merged with `[3, 4]`, four leaves become three), and `erase(10)`
then keeps the three leaves (no merge). -/
theorem erase_1_merges_erase_10_keeps :
    ((List.range' 1 10).foldlM (fun t x => (insert ⟨false, 4, 4⟩ t x).map (·.1))
      (empty : Tree Nat)) = some sample10 ∧
    ∃ t9 t8 t7, erase_key ⟨false, 4, 4⟩ sample10 5 = some (t9, 1) ∧
      erase_key ⟨false, 4, 4⟩ t9 1 = some (t8, 1) ∧
      erase_key ⟨false, 4, 4⟩ t8 10 = some (t7, 1) ∧
      (leafItems t9).map List.length = some 4 ∧ (leafItems t8).map List.length = some 3 ∧
      t9.node? (Ptr.node 1) ≠ none ∧ t8.node? (Ptr.node 1) = none ∧
      (leafItems t7).map List.length = some 3 :=
  ⟨(sample21_eq_inserts false).2, sample10_a, sample10_b, sample10_c, by decide⟩

/-- C27 as the code has it: after `insert(1)`, ..., `insert(10)` the leaves
are `[1,2] [3,4] [5,6] [7,8,9,10]`; `erase(5)` makes `[6]` underflow and
moves 7 over from the larger right sibling; `erase(1)` makes `[2]` underflow
and merges it with its sibling `[3,4]`, which is few; `erase(10)` leaves
`[8,9]`, which is no underflow, and repairs nothing. -/
theorem erase_5_1_10 (u : Bool) :
    leafItems sample10 = some [[1, 2], [3, 4], [5, 6], [7, 8, 9, 10]] ∧
    ∃ t9 t8 t7, erase_key ⟨u, 4, 4⟩ sample10 5 = some (t9, 1) ∧
      leafItems t9 = some [[1, 2], [3, 4], [6, 7], [8, 9, 10]] ∧
      erase_key ⟨u, 4, 4⟩ t9 1 = some (t8, 1) ∧
      leafItems t8 = some [[2, 3, 4], [6, 7], [8, 9, 10]] ∧
      erase_key ⟨u, 4, 4⟩ t8 10 = some (t7, 1) ∧
      leafItems t7 = some [[2, 3, 4], [6, 7], [8, 9]] := by
  refine ⟨by decide, ?_⟩
  cases u <;> exact ⟨sample10_a, sample10_b, sample10_c, by decide⟩

end Runs

end BPP

/-! ## Stepping an iterator -/

namespace BPP

section Stepping
variable {α : Type} [LinearOrder α]

/-- The iterator after `k` applications of `operator++`. -/
def next_n (t : Tree α) : Nat → Pos → Option Pos
  | 0, it => some it
  | k + 1, it => (advance_next_ t it.1 it.2).bind (next_n t k)

/-- The iterator after `k` applications of `operator--`. -/
def prev_n (t : Tree α) : Nat → Pos → Option Pos
  | 0, it => some it
  | k + 1, it => (advance_prev_ t it.1 it.2).bind (prev_n t k)

/-- One `operator++` at a stored position. -/
theorem advance_next_index {cfg : Config} {t : Tree α} {h : Nat} {ls : Leaves α} {fp : List Nat}
    (hcap : 2 ≤ cfg.maxLeaf) (hs : Sub cfg t h true t.parent Ptr.root ls fp) (hnd : fp.Nodup)
    (hchain : ChainOk t Ptr.root ls) (pos : Pos) (j : Nat) (hidx : indexIn ls pos = some j) :
    ∃ it, advance_next_ t pos.1 pos.2 = some it ∧
      (j + 1 < (items ls).length → indexIn ls it = some (j + 1)) ∧
      (j + 1 = (items ls).length → it = (Ptr.root, 0)) ∧ j + 1 ≤ (items ls).length := by
  obtain ⟨lf, w⟩ := pos
  obtain ⟨l, hm, hlt, -, -⟩ := indexIn_get ls (lf, w) j hidx
  obtain ⟨A, B, hls⟩ := List.append_of_mem hm
  subst hls
  simp only [] at hlt hm ⊢
  have hndl := Sub.leaf_ptrs_nodup hs hnd
  have hj : j = (items A).length + w := by
    have := indexIn_mid A lf l B w hndl hlt
    rw [hidx] at this
    exact Option.some.inj this
  obtain ⟨n, hn, hnx0, hnx1⟩ := ChainOk.next_mid A lf l B Ptr.root hchain
  obtain ⟨n', hn', hitem⟩ := Sub.leaf_node hs (lf, l) hm
  rw [node?_of_leaf? hn] at hn'
  simp only [Option.some.injEq, Node.leaf.injEq] at hn'
  subst hn'
  simp only [] at hitem
  obtain ⟨b, hb⟩ : ∃ b, lf = Ptr.node b := by
    cases lf with
    | null => simp [Tree.leaf?, Tree.node?] at hn
    | root => simp [Tree.leaf?, Tree.node?] at hn
    | node b => exact ⟨b, rfl⟩
  subst hb
  have hlev : t.level? (Ptr.node b) = some 0 := level?_leaf (node?_of_leaf? hn)
  have hlen : (items (A ++ (Ptr.node b, l) :: B)).length
      = (items A).length + l.length + (items B).length := by
    simp [items_append, items_cons]; omega
  by_cases hw : w + 1 < l.length
  · refine ⟨(Ptr.node b, w + 1), ?_, fun _ => ?_, fun h => ?_, by omega⟩
    · simp [advance_next_, hlev, hn, hitem, hw]
    · rw [indexIn_mid A _ l B (w + 1) hndl hw, hj]; rfl
    · omega
  · have hwl : w + 1 = l.length := by omega
    cases B with
    | nil =>
      refine ⟨(Ptr.root, 0), ?_, fun h => ?_, fun _ => rfl, by
        simp only [items_nil, List.length_nil] at hlen; omega⟩
      · simp [advance_next_, hlev, hn, hitem, hwl, hnx0 rfl]
      · simp only [items_nil, List.length_nil] at hlen; omega
    | cons e B' =>
      obtain ⟨p', l'⟩ := e
      have hne := Sub.leaf_nonempty hcap hs (p', l') (by simp)
      simp only [] at hne
      have hl' : 0 < l'.length := List.length_pos.2 hne
      have hls' : A ++ (Ptr.node b, l) :: (p', l') :: B'
          = (A ++ [(Ptr.node b, l)]) ++ (p', l') :: B' := by simp
      refine ⟨(p', 0), ?_, fun _ => ?_, fun h => ?_, by
        simp only [items_cons, List.length_append] at hlen; omega⟩
      · simp [advance_next_, hlev, hn, hitem, hwl, hnx1 (p', l') rfl]
      · rw [hls'] at hndl ⊢
        rw [indexIn_mid _ p' l' B' 0 hndl hl', hj]
        simp [items_append, items_cons]; omega
      · simp only [items_cons, List.length_append] at hlen; omega

/-- One `operator--` at a stored position other than the first. -/
theorem advance_prev_index {cfg : Config} {t : Tree α} {h : Nat} {ls : Leaves α} {fp : List Nat}
    (hcap : 2 ≤ cfg.maxLeaf) (hs : Sub cfg t h true t.parent Ptr.root ls fp) (hnd : fp.Nodup)
    (hchain : ChainOk t Ptr.root ls) (pos : Pos) (j : Nat) (hidx : indexIn ls pos = some j)
    (hj0 : 0 < j) :
    ∃ it, advance_prev_ t pos.1 pos.2 = some it ∧ indexIn ls it = some (j - 1) := by
  obtain ⟨lf, w⟩ := pos
  obtain ⟨l, hm, hlt, -, -⟩ := indexIn_get ls (lf, w) j hidx
  obtain ⟨A, B, hls⟩ := List.append_of_mem hm
  subst hls
  simp only [] at hlt hm ⊢
  have hndl := Sub.leaf_ptrs_nodup hs hnd
  have hj : j = (items A).length + w := by
    have := indexIn_mid A lf l B w hndl hlt
    rw [hidx] at this
    exact Option.some.inj this
  by_cases hw : w = 0
  swap
  · refine ⟨(lf, w - 1), by simp [advance_prev_, hw], ?_⟩
    rw [indexIn_mid A lf l B (w - 1) hndl (by omega), hj]
    congr 1; omega
  subst hw
  obtain ⟨n, hn, -, hpv⟩ := ChainOk.prev_mid A lf l B Ptr.root hchain
  obtain ⟨b, hb⟩ : ∃ b, lf = Ptr.node b := by
    cases lf with
    | null => simp [Tree.leaf?, Tree.node?] at hn
    | root => simp [Tree.leaf?, Tree.node?] at hn
    | node b => exact ⟨b, rfl⟩
  subst hb
  have hlev : t.level? (Ptr.node b) = some 0 := level?_leaf (node?_of_leaf? hn)
  rcases List.eq_nil_or_concat A with hA | ⟨A', e, hA⟩
  · subst hA; simp at hj; omega
  simp only [List.concat_eq_append] at hA
  subst hA
  obtain ⟨p', l'⟩ := e
  have hpv' := hpv (p', l') (by simp)
  simp only [] at hpv'
  have hmem : (p', l') ∈ A' ++ [(p', l')] ++ (Ptr.node b, l) :: B := by simp
  obtain ⟨n', hn', hitem'⟩ := Sub.leaf_node hs (p', l') hmem
  simp only [] at hn' hitem'
  have hne := Sub.leaf_nonempty hcap hs (p', l') hmem
  simp only [] at hne
  have hl' : 0 < l'.length := List.length_pos.2 hne
  obtain ⟨b', hb'⟩ : ∃ b', p' = Ptr.node b' := by
    cases p' with
    | null => simp [Tree.node?] at hn'
    | root => simp [Tree.node?] at hn'
    | node b' => exact ⟨b', rfl⟩
  subst hb'
  have hlev' : t.level? (Ptr.node b') = some 0 := level?_leaf hn'
  refine ⟨(Ptr.node b', l'.length - 1), ?_, ?_⟩
  · simp [advance_prev_, hlev, hn, hpv', hlev', leaf?_of_node? hn', hitem',
      wsub_of_le (show 1 ≤ l'.length from hl')]
  · have hls' : A' ++ [(Ptr.node b', l')] ++ (Ptr.node b, l) :: B
        = A' ++ (Ptr.node b', l') :: ((Ptr.node b, l) :: B) := by simp
    rw [hls'] at hndl ⊢
    rw [indexIn_mid A' _ l' _ (l'.length - 1) hndl (by omega), hj]
    simp [items_append, items_cons]; omega

/-- One `operator++` and one `operator--` on a well-formed container, by the
index the iterator designates. -/
theorem step_index (cfg : Config) (t : Tree α) (hwf : WF cfg t) (it : Pos) (r : Nat)
    (hit : indexOf t it = some r) :
    (r < t.size → ∃ it', advance_next_ t it.1 it.2 = some it' ∧ indexOf t it' = some (r + 1)) ∧
    (0 < r → ∃ it', advance_prev_ t it.1 it.2 = some it' ∧ indexOf t it' = some (r - 1)) := by
  have hle := indexOf_le_size cfg t it r hwf hit
  obtain ⟨hcap, -, hem | ⟨h, ls, fp, hs, hnd, hh, hsz, -, hchain, hhead, hright⟩⟩ := id hwf
  · refine ⟨fun h => ?_, fun h => ?_⟩ <;> omega
  have hll := leafList_of_sub hs hnd
  have hend : indexOf t (Ptr.root, 0) = some t.size := by
    simp [indexOf, toList, hll, hsz]
  constructor
  · intro hr
    have hne : it ≠ (Ptr.root, 0) := fun e => by
      have := hle.2.1 e; omega
    have hidx : indexIn ls it = some r := by simpa [indexOf, hne, hll] using hit
    obtain ⟨it', h1, h2, h3, -⟩ := advance_next_index hcap hs hnd hchain it r hidx
    refine ⟨it', h1, ?_⟩
    by_cases hlast : r + 1 = (items ls).length
    · rw [h3 hlast, hend, hsz, hlast]
    · exact Shaped.indexOf hs hnd it' _ (h2 (by omega))
  · intro hr
    by_cases he : it = (Ptr.root, 0)
    · subst he
      have hrs : r = t.size := hle.2.1 rfl
      obtain ⟨l, hl, hl1, hidx⟩ := indexIn_last hcap hs hnd hright
      obtain ⟨b, hb⟩ : ∃ b, t.right = Ptr.node b := by
        cases hr' : t.right with
        | null => rw [hr'] at hl; simp [Tree.node?] at hl
        | root => rw [hr'] at hl; simp [Tree.node?] at hl
        | node b => exact ⟨b, rfl⟩
      rw [hb] at hl hidx
      refine ⟨(Ptr.node b, l.item.length - 1), ?_, ?_⟩
      · simp [advance_prev_, Tree.level?, SIZE_MAX, hb, hl, leaf?_of_node? hl, wsub_of_le hl1]
      · rw [Shaped.indexOf hs hnd _ _ hidx, hrs, hsz]
    · have hidx : indexIn ls it = some r := by simpa [indexOf, he, hll] using hit
      obtain ⟨it', h1, h2⟩ := advance_prev_index hcap hs hnd hchain it r hidx hr
      exact ⟨it', h1, Shaped.indexOf hs hnd it' _ h2⟩

theorem next_n_index (cfg : Config) (t : Tree α) (hwf : WF cfg t) :
    ∀ (k : Nat) (it : Pos) (r : Nat), indexOf t it = some r → r + k ≤ t.size →
      ∃ it', next_n t k it = some it' ∧ indexOf t it' = some (r + k) := by
  intro k
  induction k with
  | zero => intro it r hit _; exact ⟨it, rfl, hit⟩
  | succ k ih =>
    intro it r hit hle
    obtain ⟨it1, h1, h2⟩ := (step_index cfg t hwf it r hit).1 (by omega)
    obtain ⟨it', h3, h4⟩ := ih it1 (r + 1) h2 (by omega)
    refine ⟨it', ?_, by rw [h4]; congr 1; omega⟩
    simp only [next_n, h1, Option.some_bind, h3]

theorem prev_n_index (cfg : Config) (t : Tree α) (hwf : WF cfg t) :
    ∀ (k : Nat) (it : Pos) (r : Nat), indexOf t it = some r → k ≤ r →
      ∃ it', prev_n t k it = some it' ∧ indexOf t it' = some (r - k) := by
  intro k
  induction k with
  | zero => intro it r hit _; exact ⟨it, rfl, hit⟩
  | succ k ih =>
    intro it r hit hle
    obtain ⟨it1, h1, h2⟩ := (step_index cfg t hwf it r hit).2 (by omega)
    obtain ⟨it', h3, h4⟩ := ih it1 (r - 1) h2 (by omega)
    refine ⟨it', ?_, by rw [h4]; congr 1; omega⟩
    simp only [prev_n, h1, Option.some_bind, h3]

theorem key?_of_index (cfg : Config) (t : Tree α) (hwf : WF cfg t) (xs : List α)
    (hxs : toList t = some xs) (it : Pos) (r : Nat) (hit : indexOf t it = some r)
    (hr : r < t.size) : t.key? it = xs[r]? := by
  have hne : t.parent ≠ Ptr.root := by
    intro e
    obtain ⟨-, -, hem | ⟨h, ls, fp, hs, -⟩⟩ := hwf
    · omega
    · obtain ⟨a, tl, hp, -⟩ := Sub.ptr hs
      rw [hp] at e; simp at e
  obtain ⟨ys, hsh, -⟩ := hwf.shaped hne
  have e : ys = xs := by
    have := hsh.toList_eq
    rw [hxs] at this
    exact (Option.some.inj this).symm
  subst e
  obtain ⟨zs, hz1, hz2⟩ := toList_length cfg t hwf
  rw [hxs] at hz1
  obtain rfl := Option.some.inj hz1
  exact hsh.key? it r hit (by omega)

/-- C24: on a container that satisfies I1–I7, `begin()` designates index 0 and
`end()` index `size()`; `k ≤ size()` applications of `++` to `begin()` lead to
the iterator of index `k`, which reads the `k`-th element of the in-order
sequence and is `end()` exactly when `k` is `size()`; `k ≤ size()`
applications of `--` to `end()` lead to the iterator of index `size() - k`,
so that the first one reads the last element; each single `++` raises and
each single `--` lowers the index of an iterator by 1. -/
theorem iterator_walk (cfg : Config) (t : Tree α) (hwf : WF cfg t) :
    ∃ xs, toList t = some xs ∧ xs.length = t.size ∧
      indexOf t («begin» t) = some 0 ∧ indexOf t «end» = some t.size ∧
      (∀ k, k ≤ t.size → ∃ it, next_n t k («begin» t) = some it ∧ indexOf t it = some k ∧
        (it = «end» ↔ k = t.size) ∧ (k < t.size → t.key? it = xs[k]?)) ∧
      (∀ k, k ≤ t.size → ∃ it, prev_n t k «end» = some it ∧
        indexOf t it = some (t.size - k) ∧ (0 < k → t.key? it = xs[t.size - k]?)) ∧
      (∀ it r, indexOf t it = some r → r < t.size →
        ∃ it', advance_next_ t it.1 it.2 = some it' ∧ indexOf t it' = some (r + 1)) ∧
      (∀ it r, indexOf t it = some r → 0 < r →
        ∃ it', advance_prev_ t it.1 it.2 = some it' ∧ indexOf t it' = some (r - 1)) := by
  obtain ⟨xs, hxs, hlen⟩ := toList_length cfg t hwf
  have hend : indexOf t «end» = some t.size := by
    simp [indexOf, «end», hxs, hlen]
  have hbegin : indexOf t («begin» t) = some 0 := by
    obtain ⟨hcap, -, hem | ⟨h, ls, fp, hs, hnd, hh, hsz, -, hchain, hhead, hright⟩⟩ := id hwf
    · obtain ⟨-, hl, -, hz⟩ := hem
      rw [«begin», hl]
      rw [hz] at hend
      exact hend
    · cases ls with
      | nil => simp at hhead
      | cons e rest =>
        obtain ⟨p, l⟩ := e
        simp only [List.head?_cons, Option.map_some', Option.some.injEq] at hhead
        have hne := Sub.leaf_nonempty hcap hs (p, l) (by simp)
        refine Shaped.indexOf hs hnd _ _ ?_
        rw [«begin», ← hhead]
        exact indexIn_head p l rest 0 (List.length_pos.2 hne)
  refine ⟨xs, hxs, hlen, hbegin, hend, fun k hk => ?_, fun k hk => ?_,
    fun it r hit hr => (step_index cfg t hwf it r hit).1 hr,
    fun it r hit hr => (step_index cfg t hwf it r hit).2 hr⟩
  · obtain ⟨it, h1, h2⟩ := next_n_index cfg t hwf k _ 0 hbegin (by omega)
    rw [Nat.zero_add] at h2
    exact ⟨it, h1, h2, (indexOf_le_size cfg t it k hwf h2).2,
      fun hlt => key?_of_index cfg t hwf xs hxs it k h2 hlt⟩
  · obtain ⟨it, h1, h2⟩ := prev_n_index cfg t hwf k _ t.size hend hk
    exact ⟨it, h1, h2, fun hk0 => key?_of_index cfg t hwf xs hxs it _ h2 (by omega)⟩

/-- The statement of `iterator_walk` on the container `{10, 20, 30, 40, 50}`,
with the five steps forward and the first step back evaluated. -/
theorem iterator_walk_witness :
    WF ⟨true, 4, 4⟩ sample5 ∧
    (∃ xs, toList sample5 = some xs ∧ xs.length = sample5.size ∧
      indexOf sample5 («begin» sample5) = some 0 ∧ indexOf sample5 «end» = some sample5.size ∧
      (∀ k, k ≤ sample5.size → ∃ it, next_n sample5 k («begin» sample5) = some it ∧
        indexOf sample5 it = some k ∧
        (it = «end» ↔ k = sample5.size) ∧ (k < sample5.size → sample5.key? it = xs[k]?)) ∧
      (∀ k, k ≤ sample5.size → ∃ it, prev_n sample5 k «end» = some it ∧
        indexOf sample5 it = some (sample5.size - k) ∧
        (0 < k → sample5.key? it = xs[sample5.size - k]?)) ∧
      (∀ it r, indexOf sample5 it = some r → r < sample5.size →
        ∃ it', advance_next_ sample5 it.1 it.2 = some it' ∧
          indexOf sample5 it' = some (r + 1)) ∧
      (∀ it r, indexOf sample5 it = some r → 0 < r →
        ∃ it', advance_prev_ sample5 it.1 it.2 = some it' ∧
          indexOf sample5 it' = some (r - 1))) ∧
    next_n sample5 5 («begin» sample5) = some «end» ∧
    (prev_n sample5 1 «end»).bind sample5.key? = some 50 :=
  ⟨sample5_wf true, iterator_walk ⟨true, 4, 4⟩ sample5 (sample5_wf true), by decide, by decide⟩

end Stepping

end BPP

/-! ## Separators of a well-formed subtree -/

namespace BPP

section Separators
variable {α : Type} [LinearOrder α]

/-- The maximum key of a list. -/
def key_max : List α → Option α
  | [] => none
  | x :: xs => some (xs.foldl max x)

/-- The minimum key of a list. -/
def key_min : List α → Option α
  | [] => none
  | x :: xs => some (xs.foldl min x)

/-- I3 below the node `p`, by a walk: every inner node has as many children
as separators and one more, `separator[i]` is the maximum key below
`child[i]` and is below (unique) or not above (multi) the minimum key below
`child[i + 1]`. -/
def seps_ok (cfg : Config) (t : Tree α) : Nat → Ptr → Bool
  | 0, _ => false
  | fuel + 1, p =>
    match t.node? p with
    | some (Node.leaf _) => true
    | some (Node.inner n) =>
      decide (n.children.length = n.item.length + 1) &&
      (List.range n.item.length).all (fun i =>
        match n.children[i]?, n.children[i + 1]?, n.item[i]? with
        | some c, some c', some k =>
          match leaves t fuel c, leaves t fuel c' with
          | some ls, some ls' =>
            decide (key_max (items ls) = some k) &&
              (match key_min (items ls') with
                | some m => if cfg.unique then decide (k < m) else decide (k ≤ m)
                | none => false)
          | _, _ => false
        | _, _, _ => false) &&
      n.children.all (fun c => seps_ok cfg t fuel c)
    | none => false

theorem foldl_max_sorted (xs : List α) (x : α) (h : (x :: xs).Pairwise (· ≤ ·)) :
    some (xs.foldl max x) = (x :: xs).getLast? := by
  induction xs generalizing x with
  | nil => rfl
  | cons y ys ih =>
    obtain ⟨h1, h2⟩ := List.pairwise_cons.1 h
    rw [List.foldl_cons, max_eq_right (h1 y (by simp)), ih y h2]
    simp [List.getLast?_cons_cons]

theorem foldl_min_sorted (xs : List α) (x : α) (h : (x :: xs).Pairwise (· ≤ ·)) :
    xs.foldl min x = x := by
  induction xs generalizing x with
  | nil => rfl
  | cons y ys ih =>
    obtain ⟨h1, h2⟩ := List.pairwise_cons.1 h
    rw [List.foldl_cons, min_eq_left (h1 y (by simp))]
    exact ih x (List.pairwise_cons.2 ⟨fun z hz => h1 z (List.mem_cons_of_mem _ hz),
      (List.pairwise_cons.1 h2).2⟩)

theorem key_max_sorted (xs : List α) (h : xs.Pairwise (· ≤ ·)) : key_max xs = xs.getLast? := by
  cases xs with
  | nil => rfl
  | cons x xs => exact foldl_max_sorted xs x h

theorem key_min_sorted (xs : List α) (h : xs.Pairwise (· ≤ ·)) : key_min xs = xs.head? := by
  cases xs with
  | nil => rfl
  | cons x xs => simp [key_min, foldl_min_sorted xs x h]

theorem split_two {β : Type} (ps : List β) (i : Nat) (h : i + 1 < ps.length) :
    ps = ps.take i ++ ps[i] :: ps[i + 1] :: ps.drop (i + 2) := by
  conv_lhs => rw [← List.take_append_drop i ps]
  congr 1
  rw [List.drop_eq_getElem_cons (by omega)]
  congr 1
  rw [List.drop_eq_getElem_cons (by omega)]

theorem Ordered.sub_infix {cfg : Config} (A X B : List α) (h : Ordered cfg (A ++ X ++ B)) :
    Ordered cfg X := by
  obtain ⟨h1, h2⟩ := h
  refine ⟨?_, fun hu => ?_⟩
  · exact (List.pairwise_append.1 (List.pairwise_append.1 h1).1).2.1
  · exact (List.pairwise_append.1 (List.pairwise_append.1 (h2 hu)).1).2.1

theorem Ordered.sep {cfg : Config} (A X Y B : List α) (k m : α)
    (h : Ordered cfg (A ++ (X ++ (Y ++ B)))) (hk : X.getLast? = some k)
    (hm : Y.head? = some m) : if cfg.unique then k < m else k ≤ m := by
  have hkm : k ∈ X := mem_of_getLast? _ _ hk
  have hmm : m ∈ Y := List.mem_of_mem_head? hm
  obtain ⟨h1, h2⟩ := h
  by_cases hu : cfg.unique = true
  · rw [if_pos hu]
    have := (List.pairwise_append.1 (List.pairwise_append.1 (h2 hu)).2.1).2.2
    exact this k hkm m (List.mem_append_left _ hmm)
  · rw [if_neg hu]
    have := (List.pairwise_append.1 (List.pairwise_append.1 h1).2.1).2.2
    exact this k hkm m (List.mem_append_left _ hmm)

/-- I3 holds below the root of a well-formed subtree whose items are in
order. -/
theorem Sub.seps_ok {cfg : Config} {t : Tree α} (hcap : 2 ≤ cfg.maxLeaf) :
    ∀ {h : Nat} {isRoot : Bool} {p par : Ptr} {ls : Leaves α} {fp : List Nat} (fuel : Nat),
      Sub cfg t h isRoot p par ls fp → Ordered cfg (items ls) → h + 1 ≤ fuel →
      BPP.seps_ok cfg t fuel p = true := by
  intro h
  induction h with
  | zero =>
    intro isRoot p par ls fp fuel hs _ hf
    obtain ⟨a, l, hp, hn, -⟩ := Sub.zero_iff.1 hs
    obtain ⟨f, rfl⟩ : ∃ f, fuel = f + 1 := ⟨fuel - 1, by omega⟩
    simp [BPP.seps_ok, hn]
  | succ h ih =>
    intro isRoot p par ls fp fuel hs hord hf
    obtain ⟨a, n, ps, hp, hn, hpar, hlev, hsz, hc, hkeys, hne, hch, hls, hfp, hlo, hhi⟩ :=
      Sub.succ_iff.1 hs
    obtain ⟨f, rfl⟩ : ∃ f, fuel = f + 1 := ⟨fuel - 1, by omega⟩
    have hlen : ps.length = n.item.length + 1 := by
      have := congrArg List.length hkeys
      simp only [List.length_map, List.length_dropLast] at this
      have : 0 < ps.length := List.length_pos.2 hne
      omega
    subst hls
    simp only [BPP.seps_ok, hn, Bool.and_eq_true, List.all_eq_true, decide_eq_true_eq,
      List.mem_range]
    refine ⟨⟨by rw [hc, List.length_map, hlen], fun i hi => ?_⟩, fun c hcm => ?_⟩
    · have hsplit := split_two ps i (by omega)
      have hq := hch ps[i] (List.getElem_mem _)
      have hq' := hch ps[i + 1] (List.getElem_mem _)
      have e1 : n.children[i]? = some ps[i].ptr := by
        rw [hc, List.getElem?_map, List.getElem?_eq_getElem (by omega)]; rfl
      have e2 : n.children[i + 1]? = some ps[i + 1].ptr := by
        rw [hc, List.getElem?_map, List.getElem?_eq_getElem (by omega)]; rfl
      have e3 : n.item[i]? = some n.item[i] := List.getElem?_eq_getElem hi
      have hk : ps[i].last = some n.item[i] := by
        have h1 : (n.item.map some)[i]? = some (some n.item[i]) := by
          rw [List.getElem?_map, e3]; rfl
        rw [hkeys, List.getElem?_map, List.dropLast_eq_take, List.getElem?_take_of_lt (by omega),
          List.getElem?_eq_getElem (by omega)] at h1
        simpa using h1
      have hitems : items (leavesOf ps) = items (leavesOf (ps.take i)) ++
          (items ps[i].leaves ++ (items ps[i + 1].leaves ++ items (leavesOf (ps.drop (i + 2))))) := by
        have e := congrArg (fun l => items (leavesOf l)) hsplit
        simp only [leavesOf_append, leavesOf_cons, items_append] at e
        exact e
      rw [hitems] at hord
      have ho1 : Ordered cfg (items ps[i].leaves) := by
        have := Ordered.sub_infix (items (leavesOf (ps.take i))) (items ps[i].leaves)
          (items ps[i + 1].leaves ++ items (leavesOf (ps.drop (i + 2)))) (by
            simpa [List.append_assoc] using hord)
        exact this
      have ho2 : Ordered cfg (items ps[i + 1].leaves) := by
        have := Ordered.sub_infix (items (leavesOf (ps.take i)) ++ items ps[i].leaves)
          (items ps[i + 1].leaves) (items (leavesOf (ps.drop (i + 2)))) (by
            simpa [List.append_assoc] using hord)
        exact this
      have hne' := Sub.items_ne_nil hcap hq'
      obtain ⟨m, hm⟩ : ∃ m, (items ps[i + 1].leaves).head? = some m := by
        cases hx : items ps[i + 1].leaves with
        | nil => exact absurd hx hne'
        | cons m _ => exact ⟨m, rfl⟩
      have hsep := Ordered.sep _ _ _ _ _ m hord (by simpa [Part.last] using hk) hm
      simp only [e1, e2, e3, Sub.leaves_eq f hq (by omega), Sub.leaves_eq f hq' (by omega),
        key_max_sorted _ ho1.1, key_min_sorted _ ho2.1, hm, Bool.and_eq_true,
        decide_eq_true_eq]
      refine ⟨by simpa [Part.last] using hk, ?_⟩
      by_cases hu : cfg.unique = true
      · rw [if_pos hu] at hsep ⊢; simpa using hsep
      · rw [if_neg hu] at hsep ⊢; simpa using hsep
    · rw [hc] at hcm
      simp only [List.mem_map] at hcm
      obtain ⟨q, hq, rfl⟩ := hcm
      obtain ⟨A, B, hps⟩ := List.append_of_mem hq
      have hoq : Ordered cfg (items q.leaves) := by
        rw [hps] at hord
        refine Ordered.sub_infix (items (leavesOf A)) _ (items (leavesOf B)) ?_
        simpa [leavesOf_append, leavesOf_cons, items_append, List.append_assoc] using hord
      exact ih f (hch q hq) hoq (by omega)

end Separators

end BPP

/-! ## The order and the separators after an insert -/

namespace BPP

section InsertOrder
variable {α : Type} [LinearOrder α]

/-- The unique-mode check of the hintless insert at a leaf: a success has
compared the key with the item before its slot. -/
theorem insert_descend_leaf_strict (cfg : Config) (v : α) (fuel : Nat) (t : Tree α) (a : Nat)
    (l : LeafNode α) (hn : t.node? (Ptr.node a) = some (Node.leaf l)) (hu : cfg.unique = true)
    (t' : Tree α) (pos : Pos) (up : Option (α × Ptr))
    (ho : insert_one_descend_ cfg false v (fuel + 1) t (Ptr.node a) = some (t', (pos, true), up)) :
    (0 < upper_bound_node l.item v →
      ∃ x, l.item[upper_bound_node l.item v - 1]? = some x ∧ x < v) ∧
    (upper_bound_node l.item v = 0 → l.prev ≠ Ptr.null →
      ∃ pl x, t.leaf? l.prev = some pl ∧ pl.item[wsub pl.item.length 1]? = some x ∧ x < v) := by
  rw [insert_one_descend_] at ho
  simp only [level?_leaf hn, gt_iff_lt, lt_self_iff_false, if_false, leaf?_of_node? hn, hu,
    Bool.false_eq_true, true_and] at ho
  refine ⟨fun h0 => ?_, fun h0 hp => ?_⟩
  · rw [if_pos (Or.inl h0), if_neg (by omega)] at ho
    cases hx : l.item[upper_bound_node l.item v - 1]? with
    | none => simp [hx] at ho
    | some x =>
      refine ⟨x, rfl, ?_⟩
      by_contra hlt
      simp [hx, hlt] at ho
  · rw [if_pos (Or.inr hp), if_pos h0] at ho
    cases hpl : t.leaf? l.prev with
    | none => simp [hpl] at ho
    | some pl =>
      cases hx : pl.item[wsub pl.item.length 1]? with
      | none => simp [hpl, hx] at ho
      | some x =>
        refine ⟨pl, x, rfl, hx, ?_⟩
        by_contra hlt
        simp [hpl, hx, hlt] at ho

theorem mem_leavesOf {ps : List (Part α)} {e : Ptr × List α} (he : e ∈ leavesOf ps) :
    ∃ r, r ∈ ps ∧ e ∈ r.leaves := by
  induction ps with
  | nil => simp at he
  | cons q rest ih =>
    rw [leavesOf_cons] at he
    rcases List.mem_append.1 he with h | h
    · exact ⟨q, by simp, h⟩
    · obtain ⟨r, hr, her⟩ := ih h
      exact ⟨r, by simp [hr], her⟩

theorem getLast?_items_snoc (L : Leaves α) (e : Ptr × List α) (hne : e.2 ≠ []) :
    (items (L ++ [e])).getLast? = e.2.getLast? := by
  obtain ⟨p, l⟩ := e
  simp only [items_append, items_cons, items_nil, List.append_nil]
  exact List.getLast?_append_of_ne_nil _ hne

/-- The unique-mode check of the hintless insert: a success has found the
item before the slot of the key strictly below the key. -/
theorem insert_descend_strict (cfg : Config) (v : α) (hcapL : 2 ≤ cfg.maxLeaf)
    (hu : cfg.unique = true) :
    ∀ (h fuel : Nat) (t : Tree α) (isRoot : Bool) (p par : Ptr) (ls : Leaves α) (fp : List Nat)
      (L R : Leaves α) (prev0 : Ptr), h < fuel → Sub cfg t h isRoot p par ls fp →
      (items ls).Pairwise (· ≤ ·) → ChainOk t prev0 (L ++ ls ++ R) →
      (∀ e ∈ L, (∃ l, t.node? e.1 = some (Node.leaf l) ∧ l.item = e.2) ∧ e.2 ≠ []) →
      ∀ t' pos up, insert_one_descend_ cfg false v fuel t p = some (t', (pos, true), up) →
      ∀ y, (items L ++ (items ls).take (bound_node false (items ls) v)).getLast? = some y →
        y < v := by
  intro h
  induction h with
  | zero =>
    intro fuel t isRoot p par ls fp L R prev0 hfuel hs hsort hchain hL t' pos up ho y hy
    obtain ⟨fuel, rfl⟩ : ∃ f, fuel = f + 1 := ⟨fuel - 1, by omega⟩
    obtain ⟨a, l, hp, hn, hpar, hls, hfp, hlo, hhi⟩ := Sub.zero_iff.1 hs
    subst hp hls
    have hit : items [(Ptr.node a, l.item)] = l.item := by simp
    rw [hit] at hy
    simp only [bound_node, Bool.false_eq_true, if_false] at hy
    obtain ⟨h1, h2⟩ := insert_descend_leaf_strict cfg v fuel t a l hn hu t' pos up ho
    by_cases h0 : 0 < upper_bound_node l.item v
    · obtain ⟨x, hx, hlt⟩ := h1 h0
      have hle := upper_bound_node_le l.item v
      have hne : l.item.take (upper_bound_node l.item v) ≠ [] := by
        intro e
        have := congrArg List.length e
        simp only [List.length_take, List.length_nil] at this
        omega
      rw [List.getLast?_append_of_ne_nil _ hne, List.getLast?_eq_getElem?,
        List.getElem?_take_of_lt (by rw [List.length_take]; omega), List.length_take,
        Nat.min_eq_left hle, hx] at hy
      simp only [Option.some.injEq] at hy
      rw [← hy]; exact hlt
    · have h0' : upper_bound_node l.item v = 0 := by omega
      rw [h0', List.take_zero, List.append_nil] at hy
      rcases List.eq_nil_or_concat L with hnil | ⟨L', e, hLe⟩
      · subst hnil; simp at hy
      · rw [List.concat_eq_append] at hLe
        subst hLe
        obtain ⟨⟨le, hle, hitem⟩, hene⟩ := hL e (by simp)
        obtain ⟨n, hn', -, hprev⟩ := ChainOk.prev_mid (L' ++ [e]) (Ptr.node a) l.item R prev0
          (by simpa [List.append_assoc] using hchain)
        rw [leaf?_of_node? hn] at hn'
        simp only [Option.some.injEq] at hn'
        subst hn'
        have hpe : l.prev = e.1 := hprev e (by simp)
        have hnn : l.prev ≠ Ptr.null := by
          rw [hpe]; intro e0; rw [e0] at hle; simp [Tree.node?] at hle
        obtain ⟨pl, x, hpl, hx, hlt⟩ := h2 h0' hnn
        rw [hpe, leaf?_of_node? hle] at hpl
        simp only [Option.some.injEq] at hpl
        subst hpl
        rw [getLast?_items_snoc _ _ hene, ← hitem,
          ← getLast?_eq_getElem?_wsub _ (by rw [hitem]; exact hene), hx] at hy
        simp only [Option.some.injEq] at hy
        rw [← hy]; exact hlt
  | succ h ih =>
    intro fuel t isRoot p par ls fp L R prev0 hfuel hs hsort hchain hL t' pos up ho y hy
    obtain ⟨fuel, rfl⟩ : ∃ f, fuel = f + 1 := ⟨fuel - 1, by omega⟩
    obtain ⟨a, n, ps, hp, hn, hpar, hlev, hsz, hc, hkeys, hne, hch, hls, hfp, hlo, hhi⟩ :=
      Sub.succ_iff.1 hs
    subst hp hls hfp
    obtain ⟨pre, q, post, hps, hplen, hbound, hlast⟩ :=
      key_bound_split false ps n.item v hkeys hne hsort
    subst hps
    have hcq : n.children[bound_node false n.item v]? = some q.ptr := by
      rw [hc, ← hplen, List.map_append, List.map_cons,
        List.getElem?_append_right (by simp)]
      simp
    rw [insert_descend_inner cfg false v fuel t a n q.ptr hn (by omega) hcq] at ho
    have hqm : q ∈ pre ++ q :: post := by simp
    have eassoc : L ++ leavesOf pre ++ q.leaves ++ (leavesOf post ++ R)
        = L ++ leavesOf (pre ++ q :: post) ++ R := by
      rw [leavesOf_append, leavesOf_cons]; simp only [List.append_assoc]
    have hitems : items (leavesOf (pre ++ q :: post))
        = items (leavesOf pre) ++ (items q.leaves ++ items (leavesOf post)) := by simp
    have hsortq : (items q.leaves).Pairwise (· ≤ ·) := by
      rw [hitems] at hsort
      exact (List.pairwise_append.1 (List.pairwise_append.1 hsort).2.1).1
    have hL' : ∀ e ∈ L ++ leavesOf pre,
        (∃ l, t.node? e.1 = some (Node.leaf l) ∧ l.item = e.2) ∧ e.2 ≠ [] := by
      intro e he
      rcases List.mem_append.1 he with he | he
      · exact hL e he
      · obtain ⟨r, hr, her⟩ := mem_leavesOf he
        exact ⟨Sub.leaf_node (hch r (by simp [hr])) e her,
          Sub.leaf_nonempty hcapL (hch r (by simp [hr])) e her⟩
    cases hr : insert_one_descend_ cfg false v fuel t q.ptr with
    | none => rw [hr] at ho; simp at ho
    | some r =>
      obtain ⟨t1, ⟨pos1, fl⟩, upq⟩ := r
      rw [hr] at ho
      have hfl : fl = true := by
        simp only [Option.some_bind, insert_ascend_] at ho
        revert ho
        (repeat' split) <;> intro ho <;> simp at ho <;> exact ho.2.1.2
      subst hfl
      refine ih fuel t false q.ptr (Ptr.node a) q.leaves q.fp (L ++ leavesOf pre)
        (leavesOf post ++ R) prev0 (by omega) (hch q hqm) hsortq (by rw [eassoc]; exact hchain)
        hL' t1 pos1 upq hr y ?_
      rw [hbound, hitems, List.take_append, List.take_append_of_le_length
        (bound_node_le false _ v)] at hy
      rw [items_append, List.append_assoc]
      exact hy

theorem pairwise_ins {β : Type} (R : β → β → Prop) (htrans : ∀ a b c, R a b → R b c → R a c)
    (xs : List β) (v : β) (j : Nat) (hx : xs.Pairwise R)
    (hp : ∀ y, (xs.take j).getLast? = some y → R y v)
    (hs : ∀ z, (xs.drop j).head? = some z → R v z) :
    (xs.take j ++ v :: xs.drop j).Pairwise R := by
  have hx' := hx
  rw [← List.take_append_drop j xs] at hx'
  obtain ⟨h1, h2, h3⟩ := List.pairwise_append.1 hx'
  have hv : ∀ z ∈ xs.drop j, R v z := by
    intro z hz
    cases hd : xs.drop j with
    | nil => rw [hd] at hz; simp at hz
    | cons z0 rest =>
      have h0 := hs z0 (by rw [hd]; rfl)
      rw [hd] at hz h2
      rcases List.mem_cons.1 hz with e | e
      · rw [e]; exact h0
      · exact htrans _ _ _ h0 ((List.pairwise_cons.1 h2).1 z e)
  have hu : ∀ x ∈ xs.take j, R x v := by
    intro x hxm
    rcases List.eq_nil_or_concat (xs.take j) with hnil | ⟨init, y, hy⟩
    · rw [hnil] at hxm; simp at hxm
    · rw [List.concat_eq_append] at hy
      have h0 := hp y (by rw [hy]; simp)
      rw [hy] at hxm h1
      rcases List.mem_append.1 hxm with e | e
      · exact htrans _ _ _ ((List.pairwise_append.1 h1).2.2 x e y (by simp)) h0
      · simp only [List.mem_singleton] at e
        rw [e]; exact h0
  refine List.pairwise_append.2 ⟨h1, List.pairwise_cons.2 ⟨hv, h2⟩, fun x hxm b hb => ?_⟩
  rcases List.mem_cons.1 hb with e | e
  · rw [e]; exact hu x hxm
  · exact htrans _ _ _ (hu x hxm) (hv b e)

theorem getLast?_take_pred {β : Type} (xs : List β) (j : Nat) (hj : j ≤ xs.length) (y : β)
    (h : (xs.take j).getLast? = some y) : j ≠ 0 ∧ xs[j - 1]? = some y := by
  have hj0 : j ≠ 0 := by
    intro e; subst e; simp at h
  refine ⟨hj0, ?_⟩
  rw [List.getLast?_eq_getElem?, List.length_take, Nat.min_eq_left hj,
    List.getElem?_take_of_lt (by omega)] at h
  exact h

theorem head?_drop_get {β : Type} (xs : List β) (j : Nat) : (xs.drop j).head? = xs[j]? := by
  rw [List.head?_drop]

/-- The order after an insertion between a smaller (not larger, in multi
mode) predecessor and a larger (not smaller) successor. -/
theorem ordered_ins (cfg : Config) (xs : List α) (v : α) (j : Nat) (hord : Ordered cfg xs)
    (hj : j ≤ xs.length)
    (hp : ∀ y, j ≠ 0 → xs[j - 1]? = some y → if cfg.unique = true then y < v else y ≤ v)
    (hs : ∀ z, xs[j]? = some z → if cfg.unique = true then v < z else v ≤ z) :
    Ordered cfg (xs.take j ++ v :: xs.drop j) := by
  refine ⟨?_, fun hu => ?_⟩
  · refine pairwise_ins (· ≤ ·) (fun a b c => le_trans) xs v j hord.1 (fun y hy => ?_)
      (fun z hz => ?_)
    · obtain ⟨h0, h1⟩ := getLast?_take_pred xs j hj y hy
      have := hp y h0 h1
      split at this
      · exact le_of_lt this
      · exact this
    · rw [head?_drop_get] at hz
      have := hs z hz
      split at this
      · exact le_of_lt this
      · exact this
  · refine pairwise_ins (· < ·) (fun a b c => lt_trans) xs v j (hord.2 hu) (fun y hy => ?_)
      (fun z hz => ?_)
    · obtain ⟨h0, h1⟩ := getLast?_take_pred xs j hj y hy
      have := hp y h0 h1
      rwa [if_pos hu] at this
    · rw [head?_drop_get] at hz
      have := hs z hz
      rwa [if_pos hu] at this

theorem lower_bound_node_before (xs : List α) (v : α) :
    ∀ x ∈ xs.take (lower_bound_node xs v), x < v := by
  induction xs with
  | nil => simp [lower_bound_node]
  | cons a rest ih =>
    rw [lower_bound_node]
    by_cases h : a < v
    · rw [if_pos h, List.take_succ_cons]
      intro x hx
      rcases List.mem_cons.1 hx with e | e
      · rw [e]; exact h
      · exact ih x e
    · rw [if_neg h]; simp

theorem lower_bound_node_at (xs : List α) (v : α) (z : α)
    (h : xs[lower_bound_node xs v]? = some z) : ¬ z < v := by
  induction xs with
  | nil => simp at h
  | cons a rest ih =>
    rw [lower_bound_node] at h
    by_cases ha : a < v
    · rw [if_pos ha, List.getElem?_cons_succ] at h
      exact ih h
    · rw [if_neg ha] at h
      simp only [List.getElem?_cons_zero, Option.some.injEq] at h
      rw [← h]; exact ha

/-- A success of the hintless insert comes from a success of its descent. -/
theorem insert_nohint_descend (cfg : Config) (lt : Bool) (t T : Tree α) (v : α) (pos : Pos)
    (hne : t.parent ≠ Ptr.root) (h : insert_nohint_ cfg lt t v = some (T, (pos, true))) :
    ∃ t1 up, insert_one_descend_ cfg lt v (t.mem.length + 1) t t.parent
      = some (t1, (pos, true), up) := by
  cases hr : insert_one_descend_ cfg lt v (t.mem.length + 1) t t.parent with
  | none => simp [insert_nohint_, if_neg hne, hr] at h
  | some r =>
    obtain ⟨t1, ⟨pos1, fl⟩, up⟩ := r
    refine ⟨t1, up, ?_⟩
    simp only [insert_nohint_, if_neg hne, hr, Option.pure_def, Option.bind_eq_bind,
      Option.some_bind] at h
    cases up with
    | none =>
      simp only [Option.some.injEq, Prod.mk.injEq] at h
      rw [h.2.1, h.2.2]
    | some kq =>
      obtain ⟨k, q⟩ := kq
      simp only [] at h
      revert h
      split
      · intro h
        simp only [Option.some.injEq, Prod.mk.injEq] at h
        rw [h.2.1, h.2.2]
      · intro h; simp at h

/-- The order after a successful hintless insert; the leftish variant is
only run in multi mode. -/
theorem insert_nohint_ordered (cfg : Config) (lt : Bool) (t T : Tree α) (v : α) (xs : List α)
    (pos : Pos) (hcapL : 2 ≤ cfg.maxLeaf) (hsh : Shaped cfg t xs) (hord : Ordered cfg xs)
    (hlt : cfg.unique = true → lt = false)
    (h : insert_nohint_ cfg lt t v = some (T, (pos, true))) :
    Ordered cfg (xs.take (bound_node lt xs v) ++ v :: xs.drop (bound_node lt xs v)) := by
  have hne := hsh.ne_root
  obtain ⟨t1, up, hd⟩ := insert_nohint_descend cfg lt t T v pos hne h
  obtain ⟨hh, ls, fp, hs, hnd, hit, hsz, hchain, hhead, hlast⟩ := hsh
  refine ordered_ins cfg xs v _ hord (bound_node_le lt xs v) (fun y hj0 hy => ?_)
    (fun z hz => ?_)
  · by_cases hu : cfg.unique = true
    · rw [if_pos hu]
      have hl := hlt hu
      subst hl
      refine insert_descend_strict cfg v hcapL hu hh (t.mem.length + 1) t true t.parent Ptr.root
        ls fp [] [] Ptr.root (by have := Sub.fuel hs hnd; omega) hs (by rw [hit]; exact hord.1)
        (by simpa using hchain) (by simp) t1 pos up hd y ?_
      rw [hit, items_nil, List.nil_append, List.getLast?_eq_getElem?, List.length_take,
        Nat.min_eq_left (bound_node_le false xs v), List.getElem?_take_of_lt (by omega)]
      exact hy
    · rw [if_neg hu]
      have hm : y ∈ xs.take (bound_node lt xs v) := by
        have : (xs.take (bound_node lt xs v))[bound_node lt xs v - 1]? = some y := by
          rw [List.getElem?_take_of_lt (by omega)]; exact hy
        exact List.getElem?_mem this
      cases lt with
      | false =>
        simp only [bound_node, Bool.false_eq_true, if_false] at hm
        exact not_lt.1 ((sorted_ins_upper xs v hord.1).2.1 y hm)
      | true =>
        simp only [bound_node, if_true] at hm
        exact le_of_lt (lower_bound_node_before xs v y hm)
  · have hzm : z ∈ xs.drop (bound_node lt xs v) := by
      have : (xs.drop (bound_node lt xs v))[0]? = some z := by
        rw [List.getElem?_drop]; exact hz
      exact List.getElem?_mem this
    cases lt with
    | false =>
      simp only [bound_node, Bool.false_eq_true, if_false] at hzm
      have := (sorted_ins_upper xs v hord.1).2.2 z hzm
      split
      · exact this
      · exact le_of_lt this
    | true =>
      have hu : ¬ cfg.unique = true := fun hu => by have := hlt hu; simp at this
      rw [if_neg hu]
      simp only [bound_node, if_true] at hz
      exact not_lt.1 (lower_bound_node_at xs v z hz)

/-- The member `advance_next_` at a stored position: the next stored
position, or the null leaf after the last one. -/
theorem next_pos_index {cfg : Config} {t : Tree α} {h : Nat} {ls : Leaves α} {fp : List Nat}
    (hcap : 2 ≤ cfg.maxLeaf) (hs : Sub cfg t h true t.parent Ptr.root ls fp) (hnd : fp.Nodup)
    (hchain : ChainOk t Ptr.root ls) (pos : Pos) (j : Nat) (hidx : indexIn ls pos = some j) :
    ∃ it, advance_next_pos t pos = some it ∧
      (it.1 = Ptr.null → j + 1 = (items ls).length) ∧
      (it.1 ≠ Ptr.null → indexIn ls it = some (j + 1)) := by
  obtain ⟨lf, w⟩ := pos
  obtain ⟨l, hm, hlt, -, -⟩ := indexIn_get ls (lf, w) j hidx
  obtain ⟨A, B, hls⟩ := List.append_of_mem hm
  subst hls
  simp only [] at hlt hm ⊢
  have hndl := Sub.leaf_ptrs_nodup hs hnd
  have hj : j = (items A).length + w := by
    have := indexIn_mid A lf l B w hndl hlt
    rw [hidx] at this
    exact Option.some.inj this
  obtain ⟨n, hn, hnx0, hnx1⟩ := ChainOk.next_mid A lf l B Ptr.root hchain
  obtain ⟨n', hn', hitem⟩ := Sub.leaf_node hs (lf, l) hm
  rw [node?_of_leaf? hn] at hn'
  simp only [Option.some.injEq, Node.leaf.injEq] at hn'
  subst hn'
  simp only [] at hitem
  obtain ⟨b, hb⟩ : ∃ b, lf = Ptr.node b := by
    cases lf with
    | null => simp [Tree.leaf?, Tree.node?] at hn
    | root => simp [Tree.leaf?, Tree.node?] at hn
    | node b => exact ⟨b, rfl⟩
  subst hb
  have hlen : (items (A ++ (Ptr.node b, l) :: B)).length
      = (items A).length + l.length + (items B).length := by
    simp [items_append, items_cons]; omega
  by_cases hw : w + 1 < l.length
  · refine ⟨(Ptr.node b, w + 1), ?_, fun h => ?_, fun _ => ?_⟩
    · simp [advance_next_pos, hn, hitem, hw]
    · simp at h
    · rw [indexIn_mid A _ l B (w + 1) hndl hw, hj]; rfl
  · have hwl : w + 1 = l.length := by omega
    cases B with
    | nil =>
      refine ⟨(Ptr.null, 0), ?_, fun _ => ?_, fun h => ?_⟩
      · simp [advance_next_pos, hn, hitem, hwl, hnx0 rfl]
      · simp only [items_nil, List.length_nil] at hlen; omega
      · simp at h
    | cons e B' =>
      obtain ⟨p', l'⟩ := e
      have hne := Sub.leaf_nonempty hcap hs (p', l') (by simp)
      simp only [] at hne
      have hl' : 0 < l'.length := List.length_pos.2 hne
      have hls' : A ++ (Ptr.node b, l) :: (p', l') :: B'
          = (A ++ [(Ptr.node b, l)]) ++ (p', l') :: B' := by simp
      obtain ⟨b', hb', -⟩ := Sub.leaf_mem hs (p', l') (by simp)
      simp only [] at hb'
      subst hb'
      refine ⟨(Ptr.node b', 0), ?_, fun h => ?_, fun _ => ?_⟩
      · simp [advance_next_pos, hn, hitem, hwl, hnx1 (Ptr.node b', l') rfl]
      · simp at h
      · rw [hls'] at hndl ⊢
        rw [indexIn_mid _ _ l' B' 0 hndl hl', hj]
        simp [items_append, items_cons]; omega

/-- The member `advance_prev_` at a stored position other than the first. -/
theorem prev_pos_index {cfg : Config} {t : Tree α} {h : Nat} {ls : Leaves α} {fp : List Nat}
    (hcap : 2 ≤ cfg.maxLeaf) (hs : Sub cfg t h true t.parent Ptr.root ls fp) (hnd : fp.Nodup)
    (hchain : ChainOk t Ptr.root ls) (pos : Pos) (j : Nat) (hidx : indexIn ls pos = some j)
    (hj0 : 0 < j) :
    ∃ it, advance_prev_pos t pos = some it ∧ indexIn ls it = some (j - 1) := by
  obtain ⟨lf, w⟩ := pos
  obtain ⟨l, hm, hlt, -, -⟩ := indexIn_get ls (lf, w) j hidx
  obtain ⟨A, B, hls⟩ := List.append_of_mem hm
  subst hls
  simp only [] at hlt hm ⊢
  have hndl := Sub.leaf_ptrs_nodup hs hnd
  have hj : j = (items A).length + w := by
    have := indexIn_mid A lf l B w hndl hlt
    rw [hidx] at this
    exact Option.some.inj this
  by_cases hw : w = 0
  swap
  · refine ⟨(lf, w - 1), by simp [advance_prev_pos, hw], ?_⟩
    rw [indexIn_mid A lf l B (w - 1) hndl (by omega), hj]
    congr 1; omega
  subst hw
  obtain ⟨n, hn, -, hpv⟩ := ChainOk.prev_mid A lf l B Ptr.root hchain
  have hne0 : t.parent ≠ Ptr.root := by
    obtain ⟨a, tl, hp, -⟩ := Sub.ptr hs
    rw [hp]; simp
  rcases List.eq_nil_or_concat A with hA | ⟨A', e, hA⟩
  · subst hA; simp at hj; omega
  simp only [List.concat_eq_append] at hA
  subst hA
  obtain ⟨p', l'⟩ := e
  have hpv' := hpv (p', l') (by simp)
  simp only [] at hpv'
  have hmem : (p', l') ∈ A' ++ [(p', l')] ++ (lf, l) :: B := by simp
  obtain ⟨n', hn', hitem'⟩ := Sub.leaf_node hs (p', l') hmem
  simp only [] at hn' hitem'
  have hne := Sub.leaf_nonempty hcap hs (p', l') hmem
  simp only [] at hne
  have hl' : 0 < l'.length := List.length_pos.2 hne
  obtain ⟨b', hb', -⟩ := Sub.leaf_mem hs (p', l') hmem
  simp only [] at hb'
  subst hb'
  refine ⟨(Ptr.node b', l'.length - 1), ?_, ?_⟩
  · simp [advance_prev_pos, hne0, hn, hpv', size?_leaf hn', hitem',
      wsub_of_le (show 1 ≤ l'.length from hl')]
  · have hls' : A' ++ [(Ptr.node b', l')] ++ (lf, l) :: B
        = A' ++ (Ptr.node b', l') :: ((lf, l) :: B) := by simp
    rw [hls'] at hndl ⊢
    rw [indexIn_mid A' _ l' _ (l'.length - 1) hndl (by omega), hj]
    simp [items_append, items_cons]; omega

/-- The stored position of index 0 is the first slot of the first leaf. -/
theorem index_zero_first {cfg : Config} {t : Tree α} {h : Nat} {ls : Leaves α} {fp : List Nat}
    (hcap : 2 ≤ cfg.maxLeaf) (hs : Sub cfg t h true t.parent Ptr.root ls fp) (hnd : fp.Nodup)
    (hhead : (ls.head?).map Prod.fst = some t.left) (lf : Ptr) (w : Nat)
    (hidx : indexIn ls (lf, w) = some 0) : lf = t.left ∧ w = 0 := by
  obtain ⟨l, hm, hlt, -, -⟩ := indexIn_get ls (lf, w) 0 hidx
  obtain ⟨A, B, hls⟩ := List.append_of_mem hm
  subst hls
  simp only [] at hlt hm
  have hndl := Sub.leaf_ptrs_nodup hs hnd
  have hj : 0 = (items A).length + w := by
    have := indexIn_mid A lf l B w hndl hlt
    rw [hidx] at this
    exact Option.some.inj this
  cases A with
  | nil =>
    simp only [List.nil_append, List.head?_cons, Option.map_some', Option.some.injEq] at hhead
    exact ⟨hhead, by omega⟩
  | cons e A' =>
    have hne := Sub.leaf_nonempty hcap hs e (by simp)
    have := List.length_pos.2 hne
    obtain ⟨p, l0⟩ := e
    simp only [items_cons, List.length_append] at hj
    simp only [] at this
    omega

/-- A result of the hinted insert is acceptable: a success has placed the
value at some index, kept I2–I7 and kept the order; a refusal has left the
container alone. -/
def HintOrd (cfg : Config) (t : Tree α) (xs : List α) (v : α)
    (o : Option (Tree α × (Pos × Bool))) : Prop :=
  (∀ T pos, o = some (T, (pos, true)) →
    ∃ j, j ≤ xs.length ∧ Shaped cfg T (xs.take j ++ v :: xs.drop j) ∧
      Ordered cfg (xs.take j ++ v :: xs.drop j)) ∧
  (∀ T pos, o = some (T, (pos, false)) → T = t)

theorem HintOrd.ord_none (cfg : Config) (t : Tree α) (xs : List α) (v : α) :
    HintOrd cfg t xs v Option.none :=
  ⟨fun _ _ h => by simp at h, fun _ _ h => by simp at h⟩

theorem HintOrd.ord_nohint (cfg : Config) (lt : Bool) (t : Tree α) (xs : List α) (v : α)
    (hcapL : 2 ≤ cfg.maxLeaf) (hcapI : 2 ≤ cfg.maxInner) (hsh : Shaped cfg t xs)
    (hord : Ordered cfg xs) (hlt : cfg.unique = true → lt = false) :
    HintOrd cfg t xs v (insert_nohint_ cfg lt t v) :=
  ⟨fun T pos h =>
    ⟨_, bound_node_le lt xs v,
      ((insert_nohint_shaped cfg lt t v xs hcapL hcapI hsh hord.1).2.1 T pos h).1,
      insert_nohint_ordered cfg lt t T v xs pos hcapL hsh hord hlt h⟩,
   fun T pos h => (insert_nohint_shaped cfg lt t v xs hcapL hcapI hsh hord.1).2.2 T pos h⟩

theorem HintOrd.ord_pos (cfg : Config) (t : Tree α) (xs : List α) (v : α) (lf : Ptr) (w : Nat)
    (A B : Leaves α) (l : List α) (hcapL : 2 ≤ cfg.maxLeaf) (hcapI : 2 ≤ cfg.maxInner)
    (hsh : Shaped cfg t xs) (hord : Ordered cfg xs)
    (hll : leafList t = some (A ++ (lf, l) :: B))
    (hw : w < l.length ∨ (w = l.length ∧ B = []))
    (hp : ∀ y, (items A).length + w ≠ 0 → xs[(items A).length + w - 1]? = some y →
      if cfg.unique = true then y < v else y ≤ v)
    (hs : ∀ z, xs[(items A).length + w]? = some z → if cfg.unique = true then v < z else v ≤ z) :
    HintOrd cfg t xs v (insert_pos_ cfg t lf w v) := by
  obtain ⟨T, pos, h1, h2, h3⟩ := insert_pos_shaped cfg t v xs lf w A B l hcapL hcapI hsh hll hw
  refine ⟨fun T' pos' h => ?_, fun T' pos' h => ?_⟩
  · rw [h1] at h
    simp only [Option.some.injEq, Prod.mk.injEq, and_true] at h
    obtain ⟨e1, e2⟩ := h
    subst e1 e2
    have hj : (items A).length + w ≤ xs.length := by
      have hx := hsh.toList_eq
      simp only [toList, hll, Option.map_some', Option.some.injEq] at hx
      rw [← hx]
      simp only [items_append, items_cons, List.length_append]
      rcases hw with h1 | ⟨h1, -⟩ <;> omega
    exact ⟨_, hj, h2, ordered_ins cfg xs v _ hord hj hp hs⟩
  · rw [h1] at h
    simp at h

/-- The third acceptance test of `insert_hint_`: the key against the hinted
element and the one before it. -/
theorem accept3_spec (C : Prop) [Decidable C] (Q : α → Prop) [DecidablePred Q] (t : Tree α)
    (p : Pos) (b : Bool)
    (h : (if C then (advance_prev_pos t p).bind fun other =>
        (t.key? other).bind fun y => some (decide (Q y)) else some false) = some b)
    (hb : b = true) :
    C ∧ ∃ other y, advance_prev_pos t p = some other ∧ t.key? other = some y ∧ Q y := by
  subst hb
  by_cases hc : C
  · rw [if_pos hc] at h
    refine ⟨hc, ?_⟩
    cases ho : advance_prev_pos t p with
    | none => rw [ho] at h; simp at h
    | some other =>
      cases hy : t.key? other with
      | none => rw [ho] at h; simp [hy] at h
      | some y =>
        rw [ho] at h
        simp only [Option.some_bind, hy, Option.some.injEq, decide_eq_true_eq] at h
        exact ⟨other, y, rfl, hy, h⟩
  · rw [if_neg hc] at h; simp at h

/-- The accepting branches of `insert_hint_`, for the tests `P` against the
element before the slot and `S` against the element at the slot. -/
theorem hint_branches (cfg : Config) (t : Tree α) (xs : List α) (v : α) (P S : α → Prop)
    (hcapL : 2 ≤ cfg.maxLeaf) (hcapI : 2 ≤ cfg.maxInner) (hsh : Shaped cfg t xs)
    (hord : Ordered cfg xs)
    (hP : ∀ y, P y → if cfg.unique = true then y < v else y ≤ v)
    (hS : ∀ z, S z → if cfg.unique = true then v < z else v ≤ z) :
    (∀ lf w x, lf = t.left ∧ w = 0 → t.key? (lf, w) = some x → S x →
      HintOrd cfg t xs v (insert_pos_ cfg t lf 0 v)) ∧
    (∀ tail x, t.leaf? t.right = some tail → tail.item[wsub tail.item.length 1]? = some x →
      P x → HintOrd cfg t xs v (insert_pos_ cfg t t.right tail.item.length v)) ∧
    (∀ lf w x other y, (∃ ls i, leafList t = some ls ∧ indexIn ls (lf, w) = some i) →
      ¬ (lf = t.left ∧ w = 0) → t.key? (lf, w) = some x → S x →
      advance_prev_pos t (lf, w) = some other → t.key? other = some y → P y →
      HintOrd cfg t xs v (insert_pos_ cfg t lf w v)) ∧
    (∀ lf w x other tail, (∃ ls i, leafList t = some ls ∧ indexIn ls (lf, w) = some i) →
      t.key? (lf, w) = some x → P x → advance_next_pos t (lf, w) = some other →
      other.1 = Ptr.null → t.leaf? t.right = some tail →
      HintOrd cfg t xs v (insert_pos_ cfg t t.right tail.item.length v)) ∧
    (∀ lf w x other y, (∃ ls i, leafList t = some ls ∧ indexIn ls (lf, w) = some i) →
      t.key? (lf, w) = some x → P x → advance_next_pos t (lf, w) = some other →
      ¬ other.1 = Ptr.null → t.key? other = some y → S y →
      HintOrd cfg t xs v (insert_pos_ cfg t other.1 other.2 v)) := by
  obtain ⟨h, ls, fp, hs, hnd, hit, hsz, hchain, hhead, hlast⟩ := id hsh
  have hll := leafList_of_sub hs hnd
  have hndl := Sub.leaf_ptrs_nodup hs hnd
  have hval : ∀ lf w, (∃ ls i, leafList t = some ls ∧ indexIn ls (lf, w) = some i) →
      ∃ i, indexIn ls (lf, w) = some i := by
    rintro lf w ⟨ls', i, hll', hidx⟩
    rw [hll] at hll'
    simp only [Option.some.injEq] at hll'
    subst hll'
    exact ⟨i, hidx⟩
  have hkey : ∀ pos i, indexIn ls pos = some i → i < xs.length ∧ t.key? pos = xs[i]? := by
    intro pos i hidx
    obtain ⟨l, -, -, hlt, -⟩ := indexIn_get ls pos i hidx
    rw [hit] at hlt
    exact ⟨hlt, Shaped.key? hsh pos i (Shaped.indexOf hs hnd pos i hidx) hlt⟩
  have hpos : ∀ lf w i, indexIn ls (lf, w) = some i →
      (∀ y, i ≠ 0 → xs[i - 1]? = some y → if cfg.unique = true then y < v else y ≤ v) →
      (∀ z, xs[i]? = some z → if cfg.unique = true then v < z else v ≤ z) →
      HintOrd cfg t xs v (insert_pos_ cfg t lf w v) := by
    intro lf w i hidx hp hs'
    obtain ⟨l, hm, hlt, -, -⟩ := indexIn_get ls (lf, w) i hidx
    obtain ⟨A, B, hls⟩ := List.append_of_mem hm
    subst hls
    simp only [] at hlt
    have hj : i = (items A).length + w := by
      have := indexIn_mid A lf l B w hndl hlt
      rw [hidx] at this
      exact Option.some.inj this
    subst hj
    exact HintOrd.ord_pos cfg t xs v lf w A B l hcapL hcapI hsh hord hll (Or.inl hlt) hp hs'
  have htl : ∀ tail, t.leaf? t.right = some tail →
      ∃ init, ls = init ++ [(t.right, tail.item)] ∧
        xs = items init ++ tail.item := by
    intro tail ht
    cases hl : ls.getLast? with
    | none => rw [hl] at hlast; simp at hlast
    | some e =>
      rw [hl] at hlast
      simp only [Option.map_some', Option.some.injEq] at hlast
      obtain ⟨init, hinit⟩ := List.getLast?_eq_some_iff.1 hl
      obtain ⟨l', hl', hitem⟩ := Sub.leaf_node hs e (by rw [hinit]; simp)
      rw [hlast, node?_of_leaf? ht] at hl'
      simp only [Option.some.injEq, Node.leaf.injEq] at hl'
      subst hl'
      obtain ⟨p, l0⟩ := e
      simp only [] at hlast hitem
      subst hlast hitem
      refine ⟨init, hinit, ?_⟩
      rw [← hit, hinit]; simp
  have htail : ∀ tail, t.leaf? t.right = some tail →
      (∀ y, xs.length ≠ 0 → xs[xs.length - 1]? = some y →
        if cfg.unique = true then y < v else y ≤ v) →
      HintOrd cfg t xs v (insert_pos_ cfg t t.right tail.item.length v) := by
    intro tail ht hp
    obtain ⟨init, hls, hxs⟩ := htl tail ht
    have hlen : (items init).length + tail.item.length = xs.length := by
      rw [hxs, List.length_append]
    refine HintOrd.ord_pos cfg t xs v t.right tail.item.length init [] tail.item hcapL hcapI hsh
      hord (by rw [hll, hls]) (Or.inr ⟨rfl, rfl⟩) (by rw [hlen]; exact hp) (fun z hz => ?_)
    rw [hlen, List.getElem?_eq_none (le_refl _)] at hz
    simp at hz
  refine ⟨?_, ?_, ?_, ?_, ?_⟩
  · rintro lf w x ⟨rfl, rfl⟩ hk hSx
    have hidx : indexIn ls (t.left, 0) = some 0 := by
      cases ls with
      | nil => simp at hhead
      | cons e rest =>
        obtain ⟨p, l⟩ := e
        simp only [List.head?_cons, Option.map_some', Option.some.injEq] at hhead
        subst hhead
        have hne := Sub.leaf_nonempty hcapL hs (t.left, l) (by simp)
        have := indexIn_mid [] t.left l rest 0 (by simpa using hndl) (List.length_pos.2 hne)
        simpa using this
    obtain ⟨-, hk'⟩ := hkey _ _ hidx
    rw [hk] at hk'
    refine hpos _ _ 0 hidx (fun y h0 => absurd rfl h0) (fun z hz => ?_)
    rw [← hk'] at hz
    simp only [Option.some.injEq] at hz
    rw [← hz]; exact hS x hSx
  · intro tail x ht hx hPx
    obtain ⟨init, hls, hxs⟩ := htl tail ht
    refine htail tail ht (fun y h0 hy => ?_)
    have hne : tail.item ≠ [] := by
      intro e; rw [e] at hx; simp at hx
    rw [← List.getLast?_eq_getElem?, hxs, List.getLast?_append_of_ne_nil _ hne,
      ← getLast?_eq_getElem?_wsub _ hne, hx] at hy
    simp only [Option.some.injEq] at hy
    rw [← hy]; exact hP x hPx
  · intro lf w x other y hv hnf hk hSx hprev hky hPy
    obtain ⟨i, hidx⟩ := hval lf w hv
    have hi0 : 0 < i := by
      rcases Nat.eq_zero_or_pos i with e | e
      · subst e
        exact absurd (index_zero_first hcapL hs hnd hhead lf w hidx) hnf
      · exact e
    obtain ⟨it, hit', hidx'⟩ := prev_pos_index hcapL hs hnd hchain (lf, w) i hidx hi0
    rw [hprev] at hit'
    simp only [Option.some.injEq] at hit'
    subst hit'
    obtain ⟨-, hk1⟩ := hkey _ _ hidx
    obtain ⟨-, hk2⟩ := hkey _ _ hidx'
    rw [hk] at hk1
    rw [hky] at hk2
    refine hpos _ _ i hidx (fun y' _ hy' => ?_) (fun z hz => ?_)
    · rw [← hk2] at hy'
      simp only [Option.some.injEq] at hy'
      rw [← hy']; exact hP y hPy
    · rw [← hk1] at hz
      simp only [Option.some.injEq] at hz
      rw [← hz]; exact hS x hSx
  · intro lf w x other tail hv hk hPx hnext hnull ht
    obtain ⟨i, hidx⟩ := hval lf w hv
    obtain ⟨it, hit', hend, -⟩ := next_pos_index hcapL hs hnd hchain (lf, w) i hidx
    rw [hnext] at hit'
    simp only [Option.some.injEq] at hit'
    subst hit'
    have hlen := hend hnull
    rw [hit] at hlen
    obtain ⟨-, hk1⟩ := hkey _ _ hidx
    rw [hk] at hk1
    refine htail tail ht (fun y _ hy => ?_)
    have e : xs.length - 1 = i := by omega
    rw [e, ← hk1] at hy
    simp only [Option.some.injEq] at hy
    rw [← hy]; exact hP x hPx
  · intro lf w x other y hv hk hPx hnext hnn hky hSy
    obtain ⟨i, hidx⟩ := hval lf w hv
    obtain ⟨it, hit', -, hidx'⟩ := next_pos_index hcapL hs hnd hchain (lf, w) i hidx
    rw [hnext] at hit'
    simp only [Option.some.injEq] at hit'
    subst hit'
    have hidx2 := hidx' hnn
    obtain ⟨-, hk1⟩ := hkey _ _ hidx
    obtain ⟨-, hk2⟩ := hkey _ _ hidx2
    rw [hk] at hk1
    rw [hky] at hk2
    refine hpos other.1 other.2 (i + 1) hidx2 (fun y' _ hy' => ?_) (fun z hz => ?_)
    · rw [Nat.add_sub_cancel, ← hk1] at hy'
      simp only [Option.some.injEq] at hy'
      rw [← hy']; exact hP x hPx
    · rw [← hk2] at hz
      simp only [Option.some.injEq] at hz
      rw [← hz]; exact hS y hSy

/-- Every path of `insert_hint_` on a non-empty container, for the hint
`end()` or a stored position, keeps the order. -/
theorem insert_hint_ordered (cfg : Config) (t : Tree α) (xs : List α) (v : α) (lf : Ptr) (w : Nat)
    (hcapL : 2 ≤ cfg.maxLeaf) (hcapI : 2 ≤ cfg.maxInner) (hsh : Shaped cfg t xs)
    (hord : Ordered cfg xs)
    (hvalid : lf ≠ Ptr.null → ∃ ls i, leafList t = some ls ∧ indexIn ls (lf, w) = some i) :
    HintOrd cfg t xs v (insert_hint_ cfg t lf w v) := by
  have hne := hsh.ne_root
  obtain ⟨h, ls, fp, hs, hnd, hit, hsz, hchain, hhead, hlast⟩ := id hsh
  have hll := leafList_of_sub hs hnd
  have hndl := Sub.leaf_ptrs_nodup hs hnd
  have hno : ∀ lt, (cfg.unique = true → lt = false) →
      HintOrd cfg t xs v (insert_nohint_ cfg lt t v) := fun lt hlt =>
    HintOrd.ord_nohint cfg lt t xs v hcapL hcapI hsh hord hlt
  unfold insert_hint_ insert_tail_
  rw [if_neg hne]
  cases hu : cfg.unique with
  | true =>
    obtain ⟨F1, F2, F3, F4, F5⟩ := hint_branches cfg t xs v (fun y => y < v) (fun z => v < z)
      hcapL hcapI hsh hord (fun y hy => by rw [if_pos hu]; exact hy)
      (fun z hz => by rw [if_pos hu]; exact hz)
    simp only [if_true, Option.pure_def, Option.bind_eq_bind]
    (repeat' split) <;>
    first
      | exact HintOrd.ord_none cfg t xs v
      | exact hno _ (fun _ => rfl)
      | exact F1 _ _ _ ‹_› ‹_› ‹_›
      | exact F2 _ _ ‹_› ‹_› ‹_›
      | (obtain ⟨hc, other, y, h1, h2, h3⟩ := accept3_spec _ _ t _ _ ‹_› ‹_›
         exact F3 _ _ _ other y (hvalid ‹_›) ‹_› ‹_› hc h1 h2 h3)
      | exact F4 _ _ _ _ _ (hvalid ‹_›) ‹_› ‹_› ‹_› ‹_› ‹_›
      | exact F5 _ _ _ _ _ (hvalid ‹_›) ‹_› ‹_› ‹_› ‹_› ‹_› ‹_›
  | false =>
    have hu' : ¬ cfg.unique = true := by rw [hu]; simp
    obtain ⟨F1, F2, F3, F4, F5⟩ := hint_branches cfg t xs v (fun y => ¬ v < y)
      (fun z => ¬ z < v) hcapL hcapI hsh hord
      (fun y hy => by rw [if_neg hu']; exact not_lt.1 hy)
      (fun z hz => by rw [if_neg hu']; exact not_lt.1 hz)
    simp only [Bool.false_eq_true, if_false, Option.pure_def, Option.bind_eq_bind]
    (repeat' split) <;>
    first
      | exact HintOrd.ord_none cfg t xs v
      | exact hno _ (fun h => absurd h hu')
      | exact F1 _ _ _ ‹_› ‹_› ‹_›
      | exact F2 _ _ ‹_› ‹_› ‹_›
      | (obtain ⟨hc, other, y, h1, h2, h3⟩ := accept3_spec _ _ t _ _ ‹_› ‹_›
         exact F3 _ _ _ other y (hvalid ‹_›) ‹_› ‹_› hc h1 h2 h3)
      | exact F4 _ _ _ _ _ (hvalid ‹_›) ‹_› ‹_› ‹_› ‹_› ‹_›
      | exact F5 _ _ _ _ _ (hvalid ‹_›) ‹_› ‹_› ‹_› ‹_› ‹_› ‹_›

theorem Shaped.seps {cfg : Config} {T : Tree α} {ys : List α} (hcapL : 2 ≤ cfg.maxLeaf)
    (hsh : Shaped cfg T ys) (hord : Ordered cfg ys) :
    seps_ok cfg T (T.mem.length + 1) T.parent = true := by
  obtain ⟨h, ls, fp, hs, hnd, hit, -⟩ := hsh
  exact Sub.seps_ok hcapL _ hs (by rw [hit]; exact hord) (Sub.fuel hs hnd)

/-- I3 holds in a container that satisfies I1–I7. -/
theorem WF.wf_seps {cfg : Config} {t : Tree α} (hwf : WF cfg t) (hne : t.parent ≠ Ptr.root) :
    seps_ok cfg t (t.mem.length + 1) t.parent = true := by
  obtain ⟨xs, hsh, hord⟩ := hwf.shaped hne
  exact hsh.seps hwf.1 hord

/-- A full leaf of a container that satisfies I1–I7 is split by an insertion,
and the key handed up is the last item of the left half once the new item is
in place. -/
theorem insert_leaf_promotes (cfg : Config) (t : Tree α) (v : α) (hwf : WF cfg t)
    (ls : Leaves α) (hll : leafList t = some ls) (lf : Ptr) (l : List α) (hm : (lf, l) ∈ ls)
    (hfull : l.length = cfg.maxLeaf) (w : Nat) (hw : w ≤ l.length) :
    ∃ t' pos k q l', insert_leaf_ cfg t lf w v = some (t', pos, some (k, q)) ∧
      t'.leaf? lf = some l' ∧ l'.item.getLast? = some k ∧
      ∃ r, t'.leaf? q = some r ∧ l'.item ++ r.item = l.take w ++ v :: l.drop w := by
  have hne : t.parent ≠ Ptr.root := by
    intro e
    simp [leafList, e] at hll
    subst hll
    simp at hm
  obtain ⟨xs, hsh, hord⟩ := hwf.shaped hne
  obtain ⟨h, ls0, fp, hs, hnd, hit, hsz, hchain, hhead, hlast⟩ := hsh
  have hll0 := leafList_of_sub hs hnd
  rw [hll] at hll0
  simp only [Option.some.injEq] at hll0
  subst hll0
  have hndl := Sub.leaf_ptrs_nodup hs hnd
  obtain ⟨n, hn, hitem⟩ := Sub.leaf_node hs (lf, l) hm
  obtain ⟨a, ha, -⟩ := Sub.leaf_mem hs (lf, l) hm
  simp only [] at hn hitem ha
  subst ha
  obtain ⟨A, B, hls⟩ := List.append_of_mem hm
  subst hls
  obtain ⟨n', hn', hnx0, hnx1⟩ := ChainOk.next_mid A (Ptr.node a) l B Ptr.root hchain
  rw [leaf?_of_node? hn] at hn'
  simp only [Option.some.injEq] at hn'
  subst hn'
  have hnext : n.next = Ptr.root ∨
      ∃ b m, n.next = Ptr.node b ∧ b ≠ a ∧ t.node? (Ptr.node b) = some (Node.leaf m) := by
    cases B with
    | nil => exact Or.inl (hnx0 rfl)
    | cons e B' =>
      right
      have he := hnx1 e rfl
      obtain ⟨m, hm', -⟩ := Sub.leaf_node hs e (by simp)
      obtain ⟨b, hb, -⟩ := Sub.leaf_mem hs e (by simp)
      rw [hb] at hm'
      refine ⟨b, m, by rw [he, hb], ?_, hm'⟩
      intro e0
      subst e0
      rw [List.map_append, List.map_cons, List.map_cons] at hndl
      have := (List.nodup_append.1 hndl).2.1
      rw [List.nodup_cons] at this
      exact this.1 (by rw [hb]; simp)
  obtain ⟨t', xs1, xs2, k, hi, hcat, hk, -, -, -, -, ha', hN', -⟩ :=
    insert_leaf_split cfg t a n w v hn (by rw [hitem]; exact hw) (by rw [hitem]; exact hfull)
      hwf.1 hnext
  refine ⟨t', _, k, _, _, hi, leaf?_of_node? ha', hk, _, leaf?_of_node? hN', ?_⟩
  simp only []
  rw [hcat, hitem]

end InsertOrder

end BPP

/-! ## Swapping two containers -/

namespace BPP

section TwoContainers
variable {α : Type}

/-- A `node_t *` in a program with two containers `a` and `b`: null, the
address of the anchor of `a` (`false`) or of `b` (`true`), or a heap node. -/
inductive XPtr where
  | null : XPtr
  | anchor (i : Bool) : XPtr
  | node (k : Nat) : XPtr
  deriving DecidableEq, Repr

/-- The C++ `inner_node_t` in the heap that both containers share. -/
structure XInner (α : Type) where
  parent : XPtr
  size : Nat
  level : Nat
  children : List XPtr
  item : List α
  deriving DecidableEq, Repr

/-- The C++ `leaf_node_t` in the heap that both containers share. -/
structure XLeaf (α : Type) where
  parent : XPtr
  prev : XPtr
  next : XPtr
  item : List α
  deriving DecidableEq, Repr

/-- A cell of the shared heap. -/
inductive XNode (α : Type) where
  | inner (n : XInner α) : XNode α
  | leaf (n : XLeaf α) : XNode α
  deriving DecidableEq, Repr

/-- The fields of an anchor `root_` that `std::swap` exchanges and
`fix_root_` reads (the level stays `size_type(-1)`). -/
structure XAnchor where
  parent : XPtr
  size : Nat
  left : XPtr
  right : XPtr
  deriving DecidableEq, Repr

/-- Two containers: their anchors and the heap their nodes live in. -/
structure Two (α : Type) where
  a : XAnchor
  b : XAnchor
  mem : List (Option (XNode α))
  deriving DecidableEq, Repr

/-- The anchor of container `a` (`false`) or `b` (`true`). -/
def Two.anchor (w : Two α) (i : Bool) : XAnchor := if i then w.b else w.a

def Two.setAnchor (w : Two α) (i : Bool) (r : XAnchor) : Two α :=
  if i then { w with b := r } else { w with a := r }

/-- The store `p->parent = v` through a `node_t *`. -/
def Two.setParent (w : Two α) (p v : XPtr) : Option (Two α) :=
  match p with
  | XPtr.null => none
  | XPtr.anchor j => some (w.setAnchor j { w.anchor j with parent := v })
  | XPtr.node k =>
    match w.mem[k]? with
    | some (some (XNode.inner n)) =>
      some { w with mem := w.mem.set k (some (XNode.inner { n with parent := v })) }
    | some (some (XNode.leaf l)) =>
      some { w with mem := w.mem.set k (some (XNode.leaf { l with parent := v })) }
    | _ => none

/-- The store `static_cast<leaf_node_t *>(p)->prev = v`. -/
def Two.setPrev (w : Two α) (p v : XPtr) : Option (Two α) :=
  match p with
  | XPtr.node k =>
    match w.mem[k]? with
    | some (some (XNode.leaf l)) =>
      some { w with mem := w.mem.set k (some (XNode.leaf { l with prev := v })) }
    | _ => none
  | _ => none

/-- The store `static_cast<leaf_node_t *>(p)->next = v`. -/
def Two.setNext (w : Two α) (p v : XPtr) : Option (Two α) :=
  match p with
  | XPtr.node k =>
    match w.mem[k]? with
    | some (some (XNode.leaf l)) =>
      some { w with mem := w.mem.set k (some (XNode.leaf { l with next := v })) }
    | _ => none
  | _ => none

/-- The C++ `fix_root_` of container `i`. -/
def fix_root_ (i : Bool) (w : Two α) : Option (Two α) :=
  if (w.anchor i).size = 0 then
    some (w.setAnchor i { w.anchor i with
      parent := XPtr.anchor i, left := XPtr.anchor i, right := XPtr.anchor i })
  else
    match w.setParent (w.anchor i).parent (XPtr.anchor i) with
    | none => none
    | some w1 =>
      match w1.setPrev (w1.anchor i).left (XPtr.anchor i) with
      | none => none
      | some w2 => w2.setNext (w2.anchor i).right (XPtr.anchor i)

/-- The C++ `a.swap(b)`: `std::swap(root_, other.root_)`, then `fix_root_()`
and `other.fix_root_()`. -/
def swap (w : Two α) : Option (Two α) :=
  match fix_root_ false { w with a := w.b, b := w.a } with
  | none => none
  | some w1 => fix_root_ true w1

/-- A pointer as container `i` sees it: its own anchor is `&root_`, its nodes
are its nodes, and the other container's anchor is no address of its own. -/
def tr (i : Bool) : XPtr → Ptr
  | XPtr.null => Ptr.null
  | XPtr.anchor j => if j = i then Ptr.root else Ptr.null
  | XPtr.node k => Ptr.node k

def XNode.view (i : Bool) : XNode α → Node α
  | XNode.inner n => Node.inner ⟨tr i n.parent, n.size, n.level, n.children.map (tr i), n.item⟩
  | XNode.leaf l => Node.leaf ⟨tr i l.parent, tr i l.prev, tr i l.next, l.item⟩

/-- The container at anchor `r` as a program with this one container reads it,
with the pointers as container `i` sees them. -/
def viewAt (w : Two α) (r : XAnchor) (i : Bool) : Tree α :=
  ⟨tr i r.parent, r.size, tr i r.left, tr i r.right, w.mem.map (Option.map (XNode.view i))⟩

/-- The container `a` (`false`) or `b` (`true`) of the program. -/
def view (w : Two α) (i : Bool) : Tree α := viewAt w (w.anchor i) i

theorem viewAt_node? (w : Two α) (r : XAnchor) (i : Bool) (c : Nat) :
    (viewAt w r i).node? (Ptr.node c) = ((w.mem[c]?).join).map (XNode.view i) := by
  simp only [Tree.node?, viewAt, List.getElem?_map]
  cases w.mem[c]? with
  | none => rfl
  | some o => cases o <;> rfl

theorem tr_eq_node {i : Bool} {x : XPtr} {k : Nat} (h : tr i x = Ptr.node k) :
    x = XPtr.node k := by
  cases x with
  | null => simp [tr] at h
  | anchor j => simp only [tr] at h; split at h <;> simp at h
  | node k' => simp only [tr, Ptr.node.injEq] at h; rw [h]

theorem tr_eq_root {i : Bool} {x : XPtr} (h : tr i x = Ptr.root) : x = XPtr.anchor i := by
  cases x with
  | null => simp [tr] at h
  | anchor j =>
    simp only [tr] at h
    split at h
    · next e => rw [e]
    · simp at h
  | node k' => simp [tr] at h

theorem tr_anchor_self (i : Bool) : tr i (XPtr.anchor i) = Ptr.root := by simp [tr]

theorem tr_anchor_other {i j : Bool} (h : j ≠ i) : tr i (XPtr.anchor j) = Ptr.null := by
  simp [tr, h]

def XNode.withParent (v : XPtr) : XNode α → XNode α
  | XNode.inner n => XNode.inner { n with parent := v }
  | XNode.leaf l => XNode.leaf { l with parent := v }

def XNode.withPrev (v : XPtr) : XNode α → XNode α
  | XNode.inner n => XNode.inner n
  | XNode.leaf l => XNode.leaf { l with prev := v }

def XNode.withNext (v : XPtr) : XNode α → XNode α
  | XNode.inner n => XNode.inner n
  | XNode.leaf l => XNode.leaf { l with next := v }

def XNode.isLeaf : XNode α → Bool
  | XNode.inner _ => false
  | XNode.leaf _ => true

@[simp] theorem isLeaf_withParent (v : XPtr) (x : XNode α) :
    (x.withParent v).isLeaf = x.isLeaf := by cases x <;> rfl

@[simp] theorem isLeaf_withPrev (v : XPtr) (x : XNode α) :
    (x.withPrev v).isLeaf = x.isLeaf := by cases x <;> rfl

@[simp] theorem isLeaf_withNext (v : XPtr) (x : XNode α) :
    (x.withNext v).isLeaf = x.isLeaf := by cases x <;> rfl

/-- What the stores of `fix_root_` of container `i` leave in the cell `c`, for
the real root `P`, the first leaf `L` and the last leaf `R`. -/
def fixCell (i : Bool) (P L R : XPtr) (c : Nat) (x : XNode α) : XNode α :=
  let x1 := if XPtr.node c = P then x.withParent (XPtr.anchor i) else x
  let x2 := if XPtr.node c = L then x1.withPrev (XPtr.anchor i) else x1
  if XPtr.node c = R then x2.withNext (XPtr.anchor i) else x2

theorem fixCell_inner (i : Bool) (P L R : XPtr) (c : Nat) (n : XInner α) :
    fixCell i P L R c (XNode.inner n)
      = XNode.inner { n with parent := if XPtr.node c = P then XPtr.anchor i else n.parent } := by
  unfold fixCell
  simp only []
  split_ifs <;> rfl

theorem fixCell_leaf (i : Bool) (P L R : XPtr) (c : Nat) (l : XLeaf α) :
    fixCell i P L R c (XNode.leaf l)
      = XNode.leaf { l with
          parent := if XPtr.node c = P then XPtr.anchor i else l.parent,
          prev := if XPtr.node c = L then XPtr.anchor i else l.prev,
          next := if XPtr.node c = R then XPtr.anchor i else l.next } := by
  unfold fixCell
  simp only []
  split_ifs <;> rfl

theorem fixCell_null (i : Bool) (c : Nat) (x : XNode α) :
    fixCell i XPtr.null XPtr.null XPtr.null c x = x := by
  simp [fixCell]

theorem set_cell (m : List (Option (XNode α))) (k : Nat) (nd : XNode α) (f : XNode α → XNode α)
    (h : m[k]? = some (some nd)) (c : Nat) :
    (m.set k (some (f nd)))[c]? = (m[c]?).map (Option.map (fun x => if c = k then f x else x)) := by
  have hk : k < m.length := by
    by_contra hlt
    rw [List.getElem?_eq_none (by omega)] at h
    simp at h
  rw [List.getElem?_set]
  by_cases e : k = c
  · subst e
    simp [hk, h]
  · rw [if_neg e]
    have e' : ¬ c = k := fun x => e x.symm
    cases hc : m[c]? with
    | none => rfl
    | some o => cases o <;> simp [e']

theorem setParent_node (w : Two α) (k : Nat) (v : XPtr) (nd : XNode α)
    (h : w.mem[k]? = some (some nd)) :
    ∃ w1, w.setParent (XPtr.node k) v = some w1 ∧ w1.a = w.a ∧ w1.b = w.b ∧
      ∀ c, w1.mem[c]? = (w.mem[c]?).map
        (Option.map (fun x => if c = k then x.withParent v else x)) := by
  cases nd with
  | inner n =>
    exact ⟨{ w with mem := w.mem.set k (some (XNode.withParent v (XNode.inner n))) },
      by simp [Two.setParent, h, XNode.withParent], rfl, rfl,
      fun c => set_cell w.mem k _ (XNode.withParent v) h c⟩
  | leaf l =>
    exact ⟨{ w with mem := w.mem.set k (some (XNode.withParent v (XNode.leaf l))) },
      by simp [Two.setParent, h, XNode.withParent], rfl, rfl,
      fun c => set_cell w.mem k _ (XNode.withParent v) h c⟩

theorem setPrev_node (w : Two α) (k : Nat) (v : XPtr) (nd : XNode α)
    (h : w.mem[k]? = some (some nd)) (hl : nd.isLeaf = true) :
    ∃ w1, w.setPrev (XPtr.node k) v = some w1 ∧ w1.a = w.a ∧ w1.b = w.b ∧
      ∀ c, w1.mem[c]? = (w.mem[c]?).map
        (Option.map (fun x => if c = k then x.withPrev v else x)) := by
  cases nd with
  | inner n => simp [XNode.isLeaf] at hl
  | leaf l =>
    exact ⟨{ w with mem := w.mem.set k (some (XNode.withPrev v (XNode.leaf l))) },
      by simp [Two.setPrev, h, XNode.withPrev], rfl, rfl,
      fun c => set_cell w.mem k _ (XNode.withPrev v) h c⟩

theorem setNext_node (w : Two α) (k : Nat) (v : XPtr) (nd : XNode α)
    (h : w.mem[k]? = some (some nd)) (hl : nd.isLeaf = true) :
    ∃ w1, w.setNext (XPtr.node k) v = some w1 ∧ w1.a = w.a ∧ w1.b = w.b ∧
      ∀ c, w1.mem[c]? = (w.mem[c]?).map
        (Option.map (fun x => if c = k then x.withNext v else x)) := by
  cases nd with
  | inner n => simp [XNode.isLeaf] at hl
  | leaf l =>
    exact ⟨{ w with mem := w.mem.set k (some (XNode.withNext v (XNode.leaf l))) },
      by simp [Two.setNext, h, XNode.withNext], rfl, rfl,
      fun c => set_cell w.mem k _ (XNode.withNext v) h c⟩

/-- The pointers `fix_root_` of container `i` stores through: none on an
empty container. -/
def fixAt (r : XAnchor) : XPtr × XPtr × XPtr :=
  if r.size = 0 then (XPtr.null, XPtr.null, XPtr.null) else (r.parent, r.left, r.right)

/-- The anchor `fix_root_` of container `i` leaves. -/
def fixAnchor (i : Bool) (r : XAnchor) : XAnchor :=
  if r.size = 0 then
    { r with parent := XPtr.anchor i, left := XPtr.anchor i, right := XPtr.anchor i }
  else r

theorem anchor_setAnchor_same (w : Two α) (i : Bool) (r : XAnchor) :
    (w.setAnchor i r).anchor i = r := by
  cases i <;> rfl

theorem anchor_setAnchor_other (w : Two α) (i j : Bool) (r : XAnchor) (h : j ≠ i) :
    (w.setAnchor i r).anchor j = w.anchor j := by
  cases i <;> cases j <;> first | rfl | exact absurd rfl h

theorem setAnchor_mem (w : Two α) (i : Bool) (r : XAnchor) : (w.setAnchor i r).mem = w.mem := by
  cases i <;> rfl

theorem anchor_congr {w w1 : Two α} (ha : w1.a = w.a) (hb : w1.b = w.b) (i : Bool) :
    w1.anchor i = w.anchor i := by
  cases i
  · simp [Two.anchor, ha]
  · simp [Two.anchor, hb]

/-- The effect of `fix_root_` of container `i`: on an empty container the
anchor gets its self-loop; otherwise the real root, the first leaf and the
last leaf are re-pointed at the anchor. -/
theorem fix_root_spec (i : Bool) (w : Two α)
    (hne : (w.anchor i).size ≠ 0 → ∃ kp kl kr np nl nr,
      (w.anchor i).parent = XPtr.node kp ∧ (w.anchor i).left = XPtr.node kl ∧
      (w.anchor i).right = XPtr.node kr ∧ w.mem[kp]? = some (some np) ∧
      w.mem[kl]? = some (some nl) ∧ nl.isLeaf = true ∧
      w.mem[kr]? = some (some nr) ∧ nr.isLeaf = true) :
    ∃ w1, fix_root_ i w = some w1 ∧ w1.anchor i = fixAnchor i (w.anchor i) ∧
      (∀ j, j ≠ i → w1.anchor j = w.anchor j) ∧
      ∀ c, w1.mem[c]? = (w.mem[c]?).map (Option.map
        (fixCell i (fixAt (w.anchor i)).1 (fixAt (w.anchor i)).2.1 (fixAt (w.anchor i)).2.2 c)) := by
  by_cases h0 : (w.anchor i).size = 0
  · refine ⟨_, by rw [ fix_root_, if_pos h0], ?_, fun j hj => ?_, fun c => ?_⟩
    · rw [anchor_setAnchor_same, fixAnchor, if_pos h0]
    · exact anchor_setAnchor_other w i j _ hj
    · rw [setAnchor_mem, fixAt, if_pos h0]
      cases w.mem[c]? with
      | none => rfl
      | some o =>
        cases o with
        | none => rfl
        | some nd => simp [fixCell_null]
  · obtain ⟨kp, kl, kr, np, nl, nr, hp, hl, hr, hcp, hcl, hll, hcr, hlr⟩ := hne h0
    obtain ⟨w1, h1, ha1, hb1, hc1⟩ := setParent_node w kp (XPtr.anchor i) np hcp
    have hcl1 : w1.mem[kl]? = some (some (if kl = kp then nl.withParent (XPtr.anchor i) else nl)) := by
      rw [hc1, hcl]; rfl
    obtain ⟨w2, h2, ha2, hb2, hc2⟩ := setPrev_node w1 kl (XPtr.anchor i) _ hcl1 (by
      split <;> simp [hll])
    have hcr2 : w2.mem[kr]? = some (some ((fun x => if kr = kl then XNode.withPrev (XPtr.anchor i) x
        else x) (if kr = kp then nr.withParent (XPtr.anchor i) else nr))) := by
      rw [hc2, hc1, hcr]; rfl
    obtain ⟨w3, h3, ha3, hb3, hc3⟩ := setNext_node w2 kr (XPtr.anchor i) _ hcr2 (by
      simp only []
      (repeat' split) <;> simp [hlr])
    have e1 := anchor_congr ha1 hb1 i
    have e2 := anchor_congr ha2 hb2 i
    refine ⟨w3, ?_, ?_, fun j _ => ?_, fun c => ?_⟩
    · rw [ fix_root_, if_neg h0, hp, h1]
      simp only []
      rw [e1, hl, h2]
      simp only []
      rw [e2, e1, hr, h3]
    · rw [anchor_congr ha3 hb3, e2, e1, fixAnchor, if_neg h0]
    · rw [anchor_congr ha3 hb3, anchor_congr ha2 hb2, anchor_congr ha1 hb1]
    · rw [hc3, hc2, hc1, fixAt, if_neg h0, hp, hl, hr]
      cases w.mem[c]? with
      | none => rfl
      | some o =>
        cases o with
        | none => rfl
        | some nd =>
          simp only [Option.map_some', Option.some.injEq, fixCell, XPtr.node.injEq]

end TwoContainers

section SwapProofs
variable {α : Type} [LinearOrder α]

/-- The header field `parent` of a cell. -/
def Node.par : Node α → Ptr
  | Node.inner n => n.parent
  | Node.leaf l => l.parent

/-- The pointers in the cells of a well-formed subtree: the parent field of
its root is `par` and every other one is a node, the children are nodes, and
the leaf cells are the listed leaves. -/
theorem Sub.shape {cfg : Config} {t : Tree α} :
    ∀ {h : Nat} {isRoot : Bool} {p par : Ptr} {ls : Leaves α} {fp : List Nat},
      Sub cfg t h isRoot p par ls fp → ∀ c ∈ fp, ∃ nd, t.node? (Ptr.node c) = some nd ∧
        (Ptr.node c = p → nd.par = par) ∧ (Ptr.node c ≠ p → ∃ k, nd.par = Ptr.node k) ∧
        (∀ n, nd = Node.inner n → ∀ ch ∈ n.children, ∃ k, ch = Ptr.node k) ∧
        (∀ l, nd = Node.leaf l → (Ptr.node c, l.item) ∈ ls) := by
  intro h
  induction h with
  | zero =>
    intro isRoot p par ls fp hs c hc
    obtain ⟨a, l, hp, hn, hpar, hls, hfp, -⟩ := Sub.zero_iff.1 hs
    subst hp hls hfp
    simp only [List.mem_singleton] at hc
    subst hc
    refine ⟨Node.leaf l, hn, fun _ => hpar, fun h => absurd rfl h, fun n hn' => by simp at hn',
      fun l' hl' => ?_⟩
    simp only [Node.leaf.injEq] at hl'
    subst hl'
    simp
  | succ h ih =>
    intro isRoot p par ls fp hs c hc
    obtain ⟨a, n, ps, hp, hn, hpar, hlev, hsz, hch, hk, hne, hsub, hls, hfp, hlo, hhi⟩ :=
      Sub.succ_iff.1 hs
    subst hp hfp
    have hkids : ∀ ch ∈ n.children, ∃ k, ch = Ptr.node k := by
      intro ch hm
      rw [hch] at hm
      simp only [List.mem_map] at hm
      obtain ⟨q, hq, rfl⟩ := hm
      obtain ⟨b, tl, hb, -⟩ := Sub.ptr (hsub q hq)
      exact ⟨b, hb⟩
    by_cases hca : c = a
    · subst hca
      refine ⟨Node.inner n, hn, fun _ => hpar, fun h => absurd rfl h, fun n' hn' => ?_,
        fun l hl => by simp at hl⟩
      simp only [Node.inner.injEq] at hn'
      subst hn'
      exact hkids
    · have hc' : c ∈ fpOf ps := by
        rcases List.mem_cons.1 hc with e | e
        · exact absurd e hca
        · exact e
      simp only [fpOf, List.mem_flatten, List.mem_map] at hc'
      obtain ⟨f, ⟨q, hq, rfl⟩, hcq⟩ := hc'
      obtain ⟨nd, hnd, h1, h2, h3, h4⟩ := ih (hsub q hq) c hcq
      refine ⟨nd, hnd, fun e => ?_, fun _ => ?_, h3, fun l hl => ?_⟩
      · simp only [Ptr.node.injEq] at e
        exact absurd e hca
      · by_cases hq' : Ptr.node c = q.ptr
        · exact ⟨a, h1 hq'⟩
        · exact h2 hq'
      · rw [hls]
        simp only [leavesOf, List.mem_flatten, List.mem_map]
        exact ⟨q.leaves, ⟨q, hq, rfl⟩, h4 l hl⟩

/-- The links in the cells of a well-linked run of distinct leaves. -/
theorem ChainOk.chain_shape {t : Tree α} (ls : Leaves α) (prev0 : Ptr) (hc : ChainOk t prev0 ls)
    (hnodes : ∀ e ∈ ls, ∃ k, e.1 = Ptr.node k) (hnd : (ls.map Prod.fst).Nodup) :
    ∀ e ∈ ls, ∃ l, t.leaf? e.1 = some l ∧
      ((ls.head?).map Prod.fst = some e.1 → l.prev = prev0) ∧
      ((ls.head?).map Prod.fst ≠ some e.1 → ∃ k, l.prev = Ptr.node k) ∧
      ((ls.getLast?).map Prod.fst = some e.1 → l.next = Ptr.root) ∧
      ((ls.getLast?).map Prod.fst ≠ some e.1 → ∃ k, l.next = Ptr.node k) := by
  intro e he
  obtain ⟨A, B, hls⟩ := List.append_of_mem he
  subst hls
  obtain ⟨lf, x⟩ := e
  obtain ⟨n, hn, hp0, hp1⟩ := ChainOk.prev_mid A lf x B prev0 hc
  obtain ⟨n', hn', hx0, hx1⟩ := ChainOk.next_mid A lf x B prev0 hc
  rw [hn] at hn'
  simp only [Option.some.injEq] at hn'
  subst hn'
  rw [List.map_append, List.map_cons] at hnd
  obtain ⟨hndA, hndB, hdis⟩ := List.nodup_append.1 hnd
  refine ⟨n, hn, fun h => ?_, fun h => ?_, fun h => ?_, fun h => ?_⟩
  · cases A with
    | nil => exact hp0 rfl
    | cons y ys =>
      exfalso
      simp only [List.cons_append, List.head?_cons, Option.map_some', Option.some.injEq] at h
      exact hdis (by simp [h] : lf ∈ (y :: ys).map Prod.fst) (by simp)
  · rcases List.eq_nil_or_concat A with hA | ⟨A', y, hA⟩
    · subst hA; exact absurd (by simp) h
    · rw [List.concat_eq_append] at hA
      subst hA
      obtain ⟨k, hk⟩ := hnodes y (by simp)
      exact ⟨k, by rw [hp1 y (by simp), hk]⟩
  · cases B with
    | nil => exact hx0 rfl
    | cons y ys =>
      exfalso
      have hl : ((A ++ (lf, x) :: y :: ys).getLast?).map Prod.fst
          = (((y :: ys).getLast?).map Prod.fst) := by
        rw [show A ++ (lf, x) :: y :: ys = (A ++ [(lf, x)]) ++ (y :: ys) by simp,
          List.getLast?_append_of_ne_nil _ (by simp)]
      rw [hl] at h
      cases hg : (y :: ys).getLast? with
      | none => rw [hg] at h; simp at h
      | some z =>
        rw [hg] at h
        simp only [Option.map_some', Option.some.injEq] at h
        have hz : z ∈ y :: ys := mem_of_getLast? _ _ hg
        have : lf ∈ (y :: ys).map Prod.fst := by
          rw [← h]; exact List.mem_map_of_mem _ hz
        exact (List.nodup_cons.1 hndB).1 this
  · cases B with
    | nil => exact absurd (by simp) h
    | cons y ys =>
      obtain ⟨k, hk⟩ := hnodes y (by simp)
      exact ⟨k, by rw [hx1 y rfl, hk]⟩

/-- No link of the cell is null. -/
def Node.linked : Node α → Prop
  | Node.inner n => n.parent ≠ Ptr.null
  | Node.leaf l => l.parent ≠ Ptr.null ∧ l.prev ≠ Ptr.null ∧ l.next ≠ Ptr.null

theorem ChainOk.congr_leaves {t t' : Tree α} :
    ∀ (ls : Leaves α) (prev : Ptr), (∀ e ∈ ls, t'.leaf? e.1 = t.leaf? e.1) →
      ChainOk t prev ls → ChainOk t' prev ls := by
  intro ls
  induction ls with
  | nil => intro _ _ _; trivial
  | cons x xs ih =>
    intro prev heq hc
    obtain ⟨p, lx⟩ := x
    obtain ⟨l, hl1, hp, hnx, hrest⟩ := hc
    exact ⟨l, by rw [heq (p, lx) (by simp)]; exact hl1, hp, hnx,
      ih p (fun e he => heq e (by simp [he])) hrest⟩

theorem tr_congr_node {i j : Bool} {x : XPtr} {k : Nat} (h : tr j x = Ptr.node k) :
    tr i x = tr j x := by
  rw [tr_eq_node h]; rfl

/-- A field that `fix_root_` re-points where it held the anchor, read by the
container it now belongs to. -/
theorem tr_fix (i j : Bool) (x : XPtr) (fx : Prop) [Decidable fx]
    (h1 : fx → tr j x = Ptr.root) (h2 : ¬ fx → ∃ k, tr j x = Ptr.node k) :
    tr i (if fx then XPtr.anchor i else x) = tr j x := by
  by_cases h : fx
  · rw [if_pos h, h1 h, tr_anchor_self]
  · rw [if_neg h]
    obtain ⟨k, hk⟩ := h2 h
    exact tr_congr_node hk

theorem viewAt_cell {w : Two α} {r : XAnchor} {j : Bool} {c : Nat} {nd : Node α}
    (h : (viewAt w r j).node? (Ptr.node c) = some nd) :
    ∃ x, w.mem[c]? = some (some x) ∧ x.view j = nd := by
  rw [viewAt_node?] at h
  cases hc : w.mem[c]? with
  | none => rw [hc] at h; simp at h
  | some o =>
    cases o with
    | none => rw [hc] at h; simp at h
    | some x =>
      rw [hc] at h
      exact ⟨x, rfl, by simpa using h⟩

theorem viewAt_some {w : Two α} (r : XAnchor) (i : Bool) {c : Nat} {x : XNode α}
    (h : w.mem[c]? = some (some x)) : (viewAt w r i).node? (Ptr.node c) = some (x.view i) := by
  rw [viewAt_node?, h]; rfl

/-- The container that `fix_root_` of container `i` has settled: the
structure that was written for container `j` at the anchor `r` is, once its
real root, first leaf and last leaf are re-pointed, the same container read by
`i`. -/
theorem settle_view (cfg : Config) (w w2 : Two α) (r : XAnchor) (i j : Bool)
    (hwf : WF cfg (viewAt w r j))
    (hcells : ∀ c nd, (viewAt w r j).node? (Ptr.node c) = some nd → nd.linked →
      w2.mem[c]? = (w.mem[c]?).map (Option.map
        (fixCell i (fixAt r).1 (fixAt r).2.1 (fixAt r).2.2 c))) :
    WF cfg (viewAt w2 (fixAnchor i r) i) ∧
      toList (viewAt w2 (fixAnchor i r) i) = toList (viewAt w r j) ∧
      (fixAnchor i r).size = r.size := by
  obtain ⟨hcapL, hcapI, hem | ⟨h, ls, fp, hs, hnd, hh, hsz, hord, hchain, hhead, hlast⟩⟩ := hwf
  · obtain ⟨hp, -, -, hsz⟩ := hem
    have h0 : r.size = 0 := hsz
    refine ⟨⟨hcapL, hcapI, Or.inl ?_⟩, ?_, by simp [fixAnchor, h0]⟩
    · simp [viewAt, fixAnchor, h0, tr]
    · simp [toList, leafList, viewAt, fixAnchor, h0, tr] at hp ⊢
      simp [hp]
  · have hne := Sub.items_ne_nil hcapL hs
    have h0 : r.size ≠ 0 := by
      have e : r.size = (items ls).length := hsz
      rw [e]
      exact Nat.ne_of_gt (List.length_pos.2 hne)
    obtain ⟨a, tl, hpa, -⟩ := Sub.ptr hs
    have hP : r.parent = XPtr.node a := tr_eq_node hpa
    have hnodes : ∀ e ∈ ls, ∃ k, e.1 = Ptr.node k := fun e he => by
      obtain ⟨k, hk, -⟩ := Sub.leaf_mem hs e he
      exact ⟨k, hk⟩
    have hndl := Sub.leaf_ptrs_nodup hs hnd
    obtain ⟨kl, hkl⟩ : ∃ kl, tr j r.left = Ptr.node kl := by
      cases hl : ls.head? with
      | none => rw [hl] at hhead; simp at hhead
      | some e =>
        rw [hl] at hhead
        simp only [Option.map_some', Option.some.injEq] at hhead
        obtain ⟨k, hk⟩ := hnodes e (List.mem_of_mem_head? hl)
        exact ⟨k, by rw [← hk, hhead]; rfl⟩
    obtain ⟨kr, hkr⟩ : ∃ kr, tr j r.right = Ptr.node kr := by
      cases hl : ls.getLast? with
      | none => rw [hl] at hlast; simp at hlast
      | some e =>
        rw [hl] at hlast
        simp only [Option.map_some', Option.some.injEq] at hlast
        obtain ⟨k, hk⟩ := hnodes e (mem_of_getLast? _ _ hl)
        exact ⟨k, by rw [← hk, hlast]; rfl⟩
    have hL : r.left = XPtr.node kl := tr_eq_node hkl
    have hR : r.right = XPtr.node kr := tr_eq_node hkr
    have hfa : fixAnchor i r = r := by simp [fixAnchor, h0]
    have hfx : fixAt r = (XPtr.node a, XPtr.node kl, XPtr.node kr) := by
      simp [fixAt, h0, hP, hL, hR]
    rw [hfa]
    rw [hfx] at hcells
    simp only [] at hcells
    have hhead' : (ls.head?).map Prod.fst = some (Ptr.node kl) := by rw [hhead, ← hkl]; rfl
    have hlast' : (ls.getLast?).map Prod.fst = some (Ptr.node kr) := by rw [hlast, ← hkr]; rfl
    have hcell : ∀ c ∈ fp, (viewAt w2 r i).node? (Ptr.node c)
        = (viewAt w r j).node? (Ptr.node c) := by
      intro c hc
      obtain ⟨nd, hn, h1, h2, h3, h4⟩ := Sub.shape hs c hc
      obtain ⟨x, hx, hv⟩ := viewAt_cell hn
      have hpar1 : XPtr.node c = XPtr.node a → nd.par = Ptr.root := fun e =>
        h1 (by rw [hpa]; simp only [XPtr.node.injEq] at e; rw [e])
      have hpar2 : ¬ XPtr.node c = XPtr.node a → ∃ k, nd.par = Ptr.node k := fun e =>
        h2 (by rw [hpa]; intro e'; simp only [Ptr.node.injEq] at e'; exact e (by rw [e']))
      cases x with
      | inner xn =>
        simp only [XNode.view] at hv
        subst hv
        simp only [Node.par] at hpar1 hpar2
        have hlk : (Node.inner ⟨tr j xn.parent, xn.size, xn.level, xn.children.map (tr j),
            xn.item⟩ : Node α).linked := by
          simp only [Node.linked]
          by_cases e : XPtr.node c = XPtr.node a
          · rw [hpar1 e]; simp
          · obtain ⟨k, hk⟩ := hpar2 e; rw [hk]; simp
        rw [hn, viewAt_some r i (by rw [hcells c _ hn hlk, hx]; rfl)]
        simp only [fixCell_inner, XNode.view, Option.some.injEq,
          Node.inner.injEq, InnerNode.mk.injEq, true_and, and_true]
        refine ⟨tr_fix i j _ _ hpar1 hpar2, ?_⟩
        apply List.map_congr_left
        intro ch hch
        obtain ⟨k, hk⟩ := h3 _ rfl (tr j ch) (List.mem_map_of_mem _ hch)
        exact tr_congr_node hk
      | leaf xl =>
        simp only [XNode.view] at hv
        subst hv
        simp only [Node.par] at hpar1 hpar2
        have hm := h4 _ rfl
        obtain ⟨l, hl, c1, c2, c3, c4⟩ := ChainOk.chain_shape ls Ptr.root hchain hnodes hndl _ hm
        simp only [] at hl c1 c2 c3 c4
        rw [leaf?_of_node? hn] at hl
        simp only [Option.some.injEq] at hl
        subst hl
        simp only [] at c1 c2 c3 c4
        have hprev1 : XPtr.node c = XPtr.node kl → tr j xl.prev = Ptr.root := fun e =>
          c1 (by rw [hhead']; simp only [XPtr.node.injEq] at e; rw [e])
        have hprev2 : ¬ XPtr.node c = XPtr.node kl → ∃ k, tr j xl.prev = Ptr.node k := fun e =>
          c2 (by
            rw [hhead']; intro e'
            simp only [Option.some.injEq, Ptr.node.injEq] at e'
            exact e (by rw [e']))
        have hnext1 : XPtr.node c = XPtr.node kr → tr j xl.next = Ptr.root := fun e =>
          c3 (by rw [hlast']; simp only [XPtr.node.injEq] at e; rw [e])
        have hnext2 : ¬ XPtr.node c = XPtr.node kr → ∃ k, tr j xl.next = Ptr.node k := fun e =>
          c4 (by
            rw [hlast']; intro e'
            simp only [Option.some.injEq, Ptr.node.injEq] at e'
            exact e (by rw [e']))
        have hlk : (Node.leaf ⟨tr j xl.parent, tr j xl.prev, tr j xl.next, xl.item⟩ :
            Node α).linked := by
          simp only [Node.linked]
          refine ⟨?_, ?_, ?_⟩
          · by_cases e : XPtr.node c = XPtr.node a
            · rw [hpar1 e]; simp
            · obtain ⟨k, hk⟩ := hpar2 e; rw [hk]; simp
          · by_cases e : XPtr.node c = XPtr.node kl
            · rw [hprev1 e]; simp
            · obtain ⟨k, hk⟩ := hprev2 e; rw [hk]; simp
          · by_cases e : XPtr.node c = XPtr.node kr
            · rw [hnext1 e]; simp
            · obtain ⟨k, hk⟩ := hnext2 e; rw [hk]; simp
        rw [hn, viewAt_some r i (by rw [hcells c _ hn hlk, hx]; rfl)]
        simp only [fixCell_leaf, XNode.view, Option.some.injEq,
          Node.leaf.injEq, LeafNode.mk.injEq, and_true]
        exact ⟨tr_fix i j _ _ hpar1 hpar2, tr_fix i j _ _ hprev1 hprev2,
          tr_fix i j _ _ hnext1 hnext2⟩
    have epar : (viewAt w2 r i).parent = (viewAt w r j).parent := tr_congr_node hpa
    have eleft : (viewAt w2 r i).left = (viewAt w r j).left := tr_congr_node hkl
    have eright : (viewAt w2 r i).right = (viewAt w r j).right := tr_congr_node hkr
    have hs' : Sub cfg (viewAt w2 r i) h true (viewAt w2 r i).parent Ptr.root ls fp := by
      rw [epar]
      exact Sub.frame hs (fun c hc => SameCore.of_eq (hcell c hc))
    have hchain' : ChainOk (viewAt w2 r i) Ptr.root ls := by
      refine ChainOk.congr_leaves ls Ptr.root (fun e he => ?_) hchain
      obtain ⟨k, hk, hkf⟩ := Sub.leaf_mem hs e he
      simp only [Tree.leaf?, hk, hcell k hkf]
    refine ⟨⟨hcapL, hcapI, Or.inr ⟨h, ls, fp, hs', hnd, hh, hsz, hord, hchain', ?_, ?_⟩⟩, ?_, rfl⟩
    · rw [eleft]; exact hhead
    · rw [eright]; exact hlast
    · simp [toList, leafList_of_sub hs' hnd, leafList_of_sub hs hnd]

/-- The header field `parent` of a cell of the shared heap. -/
def XNode.par : XNode α → XPtr
  | XNode.inner n => n.parent
  | XNode.leaf l => l.parent

/-- I5 and I6 at the anchor of container `i`, in the shared heap: an empty
container's anchor self-loops; otherwise the real root's parent, the first
leaf's `prev` and the last leaf's `next` are the address of the anchor. -/
def OwnLinks (w : Two α) (i : Bool) : Prop :=
  ((w.anchor i).size = 0 → (w.anchor i).parent = XPtr.anchor i ∧
    (w.anchor i).left = XPtr.anchor i ∧ (w.anchor i).right = XPtr.anchor i) ∧
  ((w.anchor i).size ≠ 0 → ∃ kp kl kr np xl xr,
    (w.anchor i).parent = XPtr.node kp ∧ (w.anchor i).left = XPtr.node kl ∧
    (w.anchor i).right = XPtr.node kr ∧
    w.mem[kp]? = some (some np) ∧ np.par = XPtr.anchor i ∧
    w.mem[kl]? = some (some (XNode.leaf xl)) ∧ xl.prev = XPtr.anchor i ∧
    w.mem[kr]? = some (some (XNode.leaf xr)) ∧ xr.next = XPtr.anchor i)

theorem view_par (i : Bool) (x : XNode α) : (x.view i).par = tr i x.par := by
  cases x <;> rfl

/-- A container that satisfies I1–I7 has the links of I5 and I6 at its
anchor. -/
theorem wf_links (cfg : Config) (w : Two α) (r : XAnchor) (i : Bool)
    (hwf : WF cfg (viewAt w r i)) :
    (r.size = 0 → r.parent = XPtr.anchor i ∧ r.left = XPtr.anchor i ∧
      r.right = XPtr.anchor i) ∧
    (r.size ≠ 0 → ∃ kp kl kr np xl xr,
      r.parent = XPtr.node kp ∧ r.left = XPtr.node kl ∧ r.right = XPtr.node kr ∧
      w.mem[kp]? = some (some np) ∧ np.par = XPtr.anchor i ∧
      w.mem[kl]? = some (some (XNode.leaf xl)) ∧ xl.prev = XPtr.anchor i ∧
      w.mem[kr]? = some (some (XNode.leaf xr)) ∧ xr.next = XPtr.anchor i) := by
  obtain ⟨hcapL, hcapI, hem | ⟨h, ls, fp, hs, hnd, hh, hsz, hord, hchain, hhead, hlast⟩⟩ := hwf
  · obtain ⟨hp, hl, hr, hsz⟩ := hem
    exact ⟨fun _ => ⟨tr_eq_root hp, tr_eq_root hl, tr_eq_root hr⟩,
      fun h0 => absurd hsz h0⟩
  · have hne := Sub.items_ne_nil hcapL hs
    have h0 : r.size ≠ 0 := by
      have e : r.size = (items ls).length := hsz
      rw [e]
      exact Nat.ne_of_gt (List.length_pos.2 hne)
    refine ⟨fun e => absurd e h0, fun _ => ?_⟩
    obtain ⟨a, tl, hpa, hfp⟩ := Sub.ptr hs
    have hnodes : ∀ e ∈ ls, ∃ k, e.1 = Ptr.node k := fun e he => by
      obtain ⟨k, hk, -⟩ := Sub.leaf_mem hs e he
      exact ⟨k, hk⟩
    have hndl := Sub.leaf_ptrs_nodup hs hnd
    obtain ⟨nd, hn, h1, -⟩ := Sub.shape hs a (by rw [hfp]; simp)
    obtain ⟨np, hnp, hv⟩ := viewAt_cell hn
    have hpar : np.par = XPtr.anchor i := by
      have := h1 hpa.symm
      rw [← hv, view_par] at this
      exact tr_eq_root this
    cases hl : ls.head? with
    | none => rw [hl] at hhead; simp at hhead
    | some e1 =>
      cases hg : ls.getLast? with
      | none => rw [hg] at hlast; simp at hlast
      | some e2 =>
        rw [hl] at hhead
        rw [hg] at hlast
        simp only [Option.map_some', Option.some.injEq] at hhead hlast
        have hm1 := List.mem_of_mem_head? hl
        have hm2 := mem_of_getLast? _ _ hg
        obtain ⟨kl, hkl⟩ := hnodes e1 hm1
        obtain ⟨kr, hkr⟩ := hnodes e2 hm2
        obtain ⟨l1, hl1, c1, -⟩ := ChainOk.chain_shape ls Ptr.root hchain hnodes hndl e1 hm1
        obtain ⟨l2, hl2, -, -, c3, -⟩ := ChainOk.chain_shape ls Ptr.root hchain hnodes hndl e2 hm2
        rw [hkl] at hl1
        rw [hkr] at hl2
        obtain ⟨x1, hx1, hv1⟩ := viewAt_cell (node?_of_leaf? hl1)
        obtain ⟨x2, hx2, hv2⟩ := viewAt_cell (node?_of_leaf? hl2)
        have hp1 := c1 (by rw [hl]; rfl)
        have hp2 := c3 (by rw [hg]; rfl)
        cases x1 with
        | inner n => simp [XNode.view] at hv1
        | leaf xl =>
          cases x2 with
          | inner n => simp [XNode.view] at hv2
          | leaf xr =>
            simp only [XNode.view, Node.leaf.injEq] at hv1 hv2
            subst hv1 hv2
            simp only [] at hp1 hp2
            exact ⟨a, kl, kr, np, xl, xr, tr_eq_node hpa,
              tr_eq_node (show tr i r.left = Ptr.node kl from hhead.symm.trans hkl),
              tr_eq_node (show tr i r.right = Ptr.node kr from hlast.symm.trans hkr),
              hnp, hpar, hx1, tr_eq_root hp1, hx2, tr_eq_root hp2⟩

theorem fixCell_other (i : Bool) (P L R : XPtr) (c : Nat) (x : XNode α)
    (h1 : XPtr.node c ≠ P) (h2 : XPtr.node c ≠ L) (h3 : XPtr.node c ≠ R) :
    fixCell i P L R c x = x := by
  simp [fixCell, h1, h2, h3]

@[simp] theorem isLeaf_fixCell (i : Bool) (P L R : XPtr) (c : Nat) (x : XNode α) :
    (fixCell i P L R c x).isLeaf = x.isLeaf := by
  cases x with
  | inner n => rw [fixCell_inner]; rfl
  | leaf l => rw [fixCell_leaf]; rfl

/-- The stores of `fix_root_` of a container leave the cells of another
container alone: in that one's reading, the cells they go to hold a null
link. -/
theorem fixCell_foreign (cfg : Config) (w : Two α) (r r' : XAnchor) (i j k : Bool) (hij : i ≠ j)
    (hwf : WF cfg (viewAt w r i)) (c : Nat) (nd : Node α)
    (hn : (viewAt w r' j).node? (Ptr.node c) = some nd) (hl : nd.linked) (y : XNode α) :
    fixCell k (fixAt r).1 (fixAt r).2.1 (fixAt r).2.2 c y = y := by
  obtain ⟨-, hne⟩ := wf_links cfg w r i hwf
  by_cases h0 : r.size = 0
  · simp only [fixAt, if_pos h0]
    exact fixCell_null k c y
  · obtain ⟨kp, kl, kr, np, xl, xr, hp, hle, hr, hnp, hpar, hxl, hprev, hxr, hnext⟩ := hne h0
    obtain ⟨x, hx, hv⟩ := viewAt_cell hn
    have hnull : tr j (XPtr.anchor i) = Ptr.null := tr_anchor_other hij
    simp only [fixAt, if_neg h0, hp, hle, hr]
    refine fixCell_other k _ _ _ c y (fun e => ?_) (fun e => ?_) (fun e => ?_)
    · simp only [XPtr.node.injEq] at e
      subst e
      rw [hnp] at hx
      simp only [Option.some.injEq] at hx
      subst hx
      subst hv
      have : (np.view j).par = Ptr.null := by rw [view_par, hpar, hnull]
      cases np <;> simp only [XNode.view, Node.linked, Node.par] at hl this
      · exact hl this
      · exact hl.1 this
    · simp only [XPtr.node.injEq] at e
      subst e
      rw [hxl] at hx
      simp only [Option.some.injEq] at hx
      subst hx
      subst hv
      simp only [XNode.view, Node.linked, hprev, hnull] at hl
      exact hl.2.1 rfl
    · simp only [XPtr.node.injEq] at e
      subst e
      rw [hxr] at hx
      simp only [Option.some.injEq] at hx
      subst hx
      subst hv
      simp only [XNode.view, Node.linked, hnext, hnull] at hl
      exact hl.2.2 rfl

/-- The program with container `a` holding 5 in one leaf and container `b`
empty. -/
def two_5_empty : Two Nat :=
  ⟨⟨XPtr.node 0, 1, XPtr.node 0, XPtr.node 0⟩,
   ⟨XPtr.anchor true, 0, XPtr.anchor true, XPtr.anchor true⟩,
   [some (XNode.leaf ⟨XPtr.anchor false, XPtr.anchor false, XPtr.anchor false, [5]⟩)]⟩

/-- C25: for two containers `a` and `b` of one program that satisfy I1–I7
(either may be empty), `a.swap(b)` returns, afterwards `a` holds the in-order
sequence and the size `b` had and `b` those `a` had, both satisfy I1–I7 again,
and in each the real root's parent, the first leaf's `prev` and the last
leaf's `next` are the address of that container's own anchor (the anchor of an
empty one self-loops). -/
theorem swap_exchanges (cfg : Config) (w : Two α) (ha : WF cfg (view w false))
    (hb : WF cfg (view w true)) :
    ∃ w', swap w = some w' ∧ WF cfg (view w' false) ∧ WF cfg (view w' true) ∧
      toList (view w' false) = toList (view w true) ∧
      toList (view w' true) = toList (view w false) ∧
      (view w' false).size = (view w true).size ∧
      (view w' true).size = (view w false).size ∧
      OwnLinks w' false ∧ OwnLinks w' true := by
  have ha' : WF cfg (viewAt w w.a false) := ha
  have hb' : WF cfg (viewAt w w.b true) := hb
  have hpre : ∀ (w' : Two α) (r : XAnchor) (i : Bool) (g : Nat → XNode α → XNode α),
      WF cfg (viewAt w r i) → (∀ c x, (g c x).isLeaf = x.isLeaf) →
      (∀ c, w'.mem[c]? = (w.mem[c]?).map (Option.map (g c))) →
      r.size ≠ 0 → ∃ kp kl kr np nl nr,
        r.parent = XPtr.node kp ∧ r.left = XPtr.node kl ∧ r.right = XPtr.node kr ∧
        w'.mem[kp]? = some (some np) ∧ w'.mem[kl]? = some (some nl) ∧ nl.isLeaf = true ∧
        w'.mem[kr]? = some (some nr) ∧ nr.isLeaf = true := by
    intro w' r i g hwf hg hc h0
    obtain ⟨kp, kl, kr, np, xl, xr, h1, h2, h3, h4, -, h5, -, h6, -⟩ :=
      (wf_links cfg w r i hwf).2 h0
    exact ⟨kp, kl, kr, g kp np, g kl (XNode.leaf xl), g kr (XNode.leaf xr), h1, h2, h3,
      by rw [hc, h4]; rfl, by rw [hc, h5]; rfl, by rw [hg]; rfl, by rw [hc, h6]; rfl,
      by rw [hg]; rfl⟩
  obtain ⟨w1, hf1, han1, hoth1, hc1⟩ := fix_root_spec false
    ({ w with a := w.b, b := w.a } : Two α)
    (hpre _ w.b true (fun _ x => x) hb' (fun _ _ => rfl) (fun c => by
      cases w.mem[c]? with
      | none => rfl
      | some o => cases o <;> rfl))
  have e1t : w1.anchor true = w.a := hoth1 true (by decide)
  have e1f : w1.anchor false = fixAnchor false w.b := han1
  have hc1' : ∀ c, w1.mem[c]? = (w.mem[c]?).map (Option.map
      (fixCell false (fixAt w.b).1 (fixAt w.b).2.1 (fixAt w.b).2.2 c)) := hc1
  obtain ⟨w2, hf2, han2, hoth2, hc2⟩ := fix_root_spec true w1 (by
    rw [e1t]
    exact hpre w1 w.a false _ ha' (fun c x => isLeaf_fixCell _ _ _ _ c x) hc1')
  rw [e1t] at han2 hc2
  have e2f : w2.anchor false = fixAnchor false w.b := by
    rw [hoth2 false (by decide), e1f]
  have hcellsA : ∀ c nd, (viewAt w w.b true).node? (Ptr.node c) = some nd → nd.linked →
      w2.mem[c]? = (w.mem[c]?).map (Option.map
        (fixCell false (fixAt w.b).1 (fixAt w.b).2.1 (fixAt w.b).2.2 c)) := by
    intro c nd hn hl
    rw [hc2, hc1']
    cases w.mem[c]? with
    | none => rfl
    | some o =>
      cases o with
      | none => rfl
      | some x =>
        simp only [Option.map_some', Option.some.injEq]
        exact fixCell_foreign cfg w w.a w.b false true true (by decide) ha' c nd hn hl _
  have hcellsB : ∀ c nd, (viewAt w w.a false).node? (Ptr.node c) = some nd → nd.linked →
      w2.mem[c]? = (w.mem[c]?).map (Option.map
        (fixCell true (fixAt w.a).1 (fixAt w.a).2.1 (fixAt w.a).2.2 c)) := by
    intro c nd hn hl
    rw [hc2, hc1']
    cases w.mem[c]? with
    | none => rfl
    | some o =>
      cases o with
      | none => rfl
      | some x =>
        simp only [Option.map_some', Option.some.injEq]
        rw [fixCell_foreign cfg w w.b w.a true false false (by decide) hb' c nd hn hl x]
  obtain ⟨wfA, tlA, szA⟩ := settle_view cfg w w2 w.b false true hb' hcellsA
  obtain ⟨wfB, tlB, szB⟩ := settle_view cfg w w2 w.a true false ha' hcellsB
  have vA : view w2 false = viewAt w2 (fixAnchor false w.b) false := by rw [view, e2f]
  have vB : view w2 true = viewAt w2 (fixAnchor true w.a) true := by rw [view, han2]
  have wfA' : WF cfg (view w2 false) := by rw [vA]; exact wfA
  have wfB' : WF cfg (view w2 true) := by rw [vB]; exact wfB
  refine ⟨w2, ?_, wfA', wfB', ?_, ?_, ?_, ?_, wf_links cfg w2 _ false wfA',
    wf_links cfg w2 _ true wfB'⟩
  · simp only [swap, hf1, hf2]
  · rw [vA, tlA]; rfl
  · rw [vB, tlB]; rfl
  · rw [vA]; exact szA
  · rw [vB]; exact szB

/-- The swap of the container `{5}` with an empty container. -/
theorem swap_exchanges_witness :
    WF ⟨false, 4, 4⟩ (view two_5_empty false) ∧ WF ⟨false, 4, 4⟩ (view two_5_empty true) ∧
    ∃ w', swap two_5_empty = some w' ∧ WF ⟨false, 4, 4⟩ (view w' false) ∧
      WF ⟨false, 4, 4⟩ (view w' true) ∧
      toList (view w' false) = toList (view two_5_empty true) ∧
      toList (view w' true) = toList (view two_5_empty false) ∧
      (view w' false).size = (view two_5_empty true).size ∧
      (view w' true).size = (view two_5_empty false).size ∧
      OwnLinks w' false ∧ OwnLinks w' true :=
  ⟨single_wf ⟨false, 4, 4⟩ 5 (by decide) (by decide),
    ⟨by decide, by decide, Or.inl ⟨rfl, rfl, rfl, rfl⟩⟩,
    swap_exchanges ⟨false, 4, 4⟩ two_5_empty
      (single_wf ⟨false, 4, 4⟩ 5 (by decide) (by decide))
      ⟨by decide, by decide, Or.inl ⟨rfl, rfl, rfl, rfl⟩⟩⟩

end SwapProofs

end BPP

/-! ## The rebalance rules on a pair of inner nodes -/

namespace BPP

section InnerOps
variable {α : Type} [LinearOrder α]

theorem not_mem_fpOf_of {ps : List (Part α)} {b : Nat} (h : b ∉ fpOf ps) {q : Part α}
    (hq : q ∈ ps) : b ∉ q.fp := fun hb => h (mem_fpOf hq hb)

/-- What `merge_inners_` leaves behind: the keys of both nodes around the
separator and the children of both in the left node, which is the parent of
all of them and counts their items; the right node empty and without parent. -/
theorem merge_inners_spec {cfg : Config} {h : Nat} (t : Tree α) (A B b : Nat)
    (la lb nb : InnerNode α) (pw : Nat) (k : α) (psA psB : List (Part α))
    (hA : t.node? (Ptr.node A) = some (Node.inner la))
    (hB : t.node? (Ptr.node B) = some (Node.inner lb))
    (hb : t.node? (Ptr.node b) = some (Node.inner nb)) (hk : nb.item[pw]? = some k)
    (hcap : la.item.length + 1 + lb.item.length ≤ cfg.maxInner)
    (hcA : la.children = psA.map Part.ptr) (hlA : psA.length = la.item.length + 1)
    (hcB : lb.children = psB.map Part.ptr) (hlB : psB.length = lb.item.length + 1)
    (hchB : ∀ q ∈ psB, Sub cfg t h false q.ptr (Ptr.node B) q.leaves q.fp)
    (hndB : (fpOf psB).Nodup) (hAB : A ≠ B) (hAf : A ∉ fpOf psB) (hBf : B ∉ fpOf psB) :
    ∃ t', merge_inners_ cfg t (Ptr.node A) (Ptr.node B) (Ptr.node b) pw = some (t', Result.fix) ∧
      t'.node? (Ptr.node A) = some (Node.inner
        { la with item := la.item ++ k :: lb.item, children := (psA ++ psB).map Part.ptr,
                  size := la.size + (items (leavesOf psB)).length }) ∧
      t'.node? (Ptr.node B) = some (Node.inner
        { lb with item := [], children := [], size := 0, parent := Ptr.null }) ∧
      (∀ q ∈ psB, Sub cfg t' h false q.ptr (Ptr.node A) q.leaves q.fp) ∧
      IStep t t' (A :: B :: fpOf psB) ∧ t'.mem.length = t.mem.length := by
  have hs1 : slice? la.children 0 (la.item.length + 1) = some (psA.map Part.ptr) := by
    rw [slice?_eq _ _ _ (Nat.zero_le _) (by rw [hcA, List.length_map, hlA]), List.drop_zero,
      hcA, ← hlA, ← List.length_map psA Part.ptr, List.take_length]
  have hs2 : slice? lb.children 0 (lb.item.length + 1) = some (psB.map Part.ptr) := by
    rw [slice?_eq _ _ _ (Nat.zero_le _) (by rw [hcB, List.length_map, hlB]), List.drop_zero,
      hcB, ← hlB, ← List.length_map psB Part.ptr, List.take_length]
  obtain ⟨t1, h1, hA1, hst1, hlen1⟩ := modInner_istep t A la
    (fun m => { m with item := m.item ++ k :: lb.item,
                       children := psA.map Part.ptr ++ psB.map Part.ptr }) hA
  have hch1 : ∀ q ∈ psB, Sub cfg t1 h false q.ptr (Ptr.node B) q.leaves q.fp := fun q hq =>
    Sub.step (hchB q hq) hst1.1 (fun c hc e => by
      simp only [List.mem_singleton] at e
      subst e
      exact hAf (mem_fpOf hq hc))
  obtain ⟨t2, h2, hsub2, hst2, hlen2⟩ := update_parent_spec (Ptr.node A) psB t1 (Ptr.node B)
    hch1 hndB
  have hA2 : t2.node? (Ptr.node A) = some (Node.inner
      { la with item := la.item ++ k :: lb.item,
                children := psA.map Part.ptr ++ psB.map Part.ptr }) := by
    rw [hst2.1.node_eq hlen2 A hAf]; exact hA1
  obtain ⟨t3, h3, hA3, hst3, hlen3⟩ := modInner_istep t2 A _
    (fun m => { m with size := m.size + (items (leavesOf psB)).length }) hA2
  have hB3 : t3.node? (Ptr.node B) = some (Node.inner lb) := by
    rw [hst3.1.node_eq hlen3 B (by simpa using hAB.symm), hst2.1.node_eq hlen2 B hBf,
      hst1.1.node_eq hlen1 B (by simpa using hAB.symm)]
    exact hB
  obtain ⟨t4, h4, hB4, hst4, hlen4⟩ := modInner_istep t3 B lb
    (fun m => { m with item := [], children := [], size := 0, parent := Ptr.null }) hB3
  refine ⟨t4, ?_, ?_, hB4, fun q hq => ?_, ?_, by omega⟩
  · simp only [merge_inners_, inner?_of_node? hA, inner?_of_node? hB, inner?_of_node? hb, hk,
      hs1, hs2, h1, h2, h3, h4, if_neg (show ¬ la.item.length + 1 + lb.item.length > cfg.maxInner
        by omega), Option.pure_def, Option.bind_eq_bind, Option.some_bind]
  · rw [hst4.1.node_eq hlen4 A (by simpa using hAB), hA3, List.map_append]
  · refine Sub.step (hsub2 q hq) (hst3.1.mod_trans hst4.1) (fun c hc e => ?_)
    simp only [List.mem_append, List.mem_singleton] at e
    rcases e with e | e
    · subst e; exact hAf (mem_fpOf hq hc)
    · subst e; exact hBf (mem_fpOf hq hc)
  · refine (((hst1.istep_trans hst2).istep_trans hst3).istep_trans hst4).istep_mono
      (fun c hc _ => ?_)
    simp only [List.mem_append, List.mem_cons, List.mem_singleton, List.not_mem_nil,
      or_false] at hc ⊢
    tauto

/-- What `shift_left_inner_` leaves behind: the separator and the first keys
and children of the right node at the end of the left node, the next key of
the right node in the parent's separator, and the sizes of both nodes moved by
the number of items below the moved children. -/
theorem shift_left_inner_spec {cfg : Config} {h : Nat} (t : Tree α) (A B b : Nat)
    (la lb nb : InnerNode α) (pw : Nat) (k : α) (psA psB : List (Part α))
    (hA : t.node? (Ptr.node A) = some (Node.inner la))
    (hB : t.node? (Ptr.node B) = some (Node.inner lb))
    (hb : t.node? (Ptr.node b) = some (Node.inner nb)) (hk : nb.item[pw]? = some k)
    (hle : la.item.length ≤ lb.item.length)
    (hs1 : 1 ≤ (lb.item.length - la.item.length) / 2)
    (hcap : la.item.length + (lb.item.length - la.item.length) / 2 ≤ cfg.maxInner)
    (hcA : la.children = psA.map Part.ptr) (hlA : psA.length = la.item.length + 1)
    (hcB : lb.children = psB.map Part.ptr) (hlB : psB.length = lb.item.length + 1)
    (hchB : ∀ q ∈ psB, Sub cfg t h false q.ptr (Ptr.node B) q.leaves q.fp)
    (hndB : (fpOf psB).Nodup) (hAB : A ≠ B) (hAb : A ≠ b) (hBb : B ≠ b)
    (hAf : A ∉ fpOf psB) (hBf : B ∉ fpOf psB) (hbf : b ∉ fpOf psB) :
    ∃ t' sep, shift_left_inner_ cfg t (Ptr.node A) (Ptr.node B) (Ptr.node b) pw = some t' ∧
      lb.item[(lb.item.length - la.item.length) / 2 - 1]? = some sep ∧
      t'.node? (Ptr.node A) = some (Node.inner
        { la with item := la.item ++ k
                    :: lb.item.take ((lb.item.length - la.item.length) / 2 - 1),
                  children := (psA ++ psB.take ((lb.item.length - la.item.length) / 2)).map
                    Part.ptr,
                  size := la.size + (items (leavesOf
                    (psB.take ((lb.item.length - la.item.length) / 2)))).length }) ∧
      t'.node? (Ptr.node B) = some (Node.inner
        { lb with item := lb.item.drop ((lb.item.length - la.item.length) / 2),
                  children := (psB.drop ((lb.item.length - la.item.length) / 2)).map Part.ptr,
                  size := wsub lb.size (items (leavesOf
                    (psB.take ((lb.item.length - la.item.length) / 2)))).length }) ∧
      t'.node? (Ptr.node b) = some (Node.inner { nb with item := nb.item.set pw sep }) ∧
      (∀ q ∈ psB.take ((lb.item.length - la.item.length) / 2),
        Sub cfg t' h false q.ptr (Ptr.node A) q.leaves q.fp) ∧
      (∀ q ∈ psB.drop ((lb.item.length - la.item.length) / 2),
        Sub cfg t' h false q.ptr (Ptr.node B) q.leaves q.fp) ∧
      IStep t t' (A :: B :: b :: fpOf psB) ∧ t'.mem.length = t.mem.length := by
  have hw : wsub lb.item.length la.item.length = lb.item.length - la.item.length :=
    wsub_of_le hle
  generalize hs : (lb.item.length - la.item.length) / 2 = s at hs1 hcap ⊢
  have hsle : s ≤ lb.item.length := by
    have := Nat.div_le_self (lb.item.length - la.item.length) 2
    omega
  have hw1 : wsub s 1 = s - 1 := wsub_of_le hs1
  have hpw : pw < nb.item.length := by
    by_contra hlt
    rw [List.getElem?_eq_none (by omega)] at hk
    simp at hk
  obtain ⟨sep, hsep⟩ : ∃ sep, lb.item[s - 1]? = some sep :=
    ⟨lb.item[s - 1], List.getElem?_eq_getElem (by omega)⟩
  have e1 : slice? lb.item 0 (s - 1) = some (lb.item.take (s - 1)) := by
    rw [slice?_eq _ _ _ (Nat.zero_le _) (by omega), List.drop_zero]
  have e2 : slice? la.children 0 (la.item.length + 1) = some (psA.map Part.ptr) := by
    rw [slice?_eq _ _ _ (Nat.zero_le _) (by rw [hcA, List.length_map, hlA]), List.drop_zero,
      hcA, ← hlA, ← List.length_map psA Part.ptr, List.take_length]
  have e3 : slice? lb.children 0 s = some ((psB.take s).map Part.ptr) := by
    rw [slice?_eq _ _ _ (Nat.zero_le _) (by rw [hcB, List.length_map, hlB]; omega),
      List.drop_zero, hcB, List.map_take]
  have e4 : slice? lb.item s lb.item.length = some (lb.item.drop s) := by
    rw [slice?_eq _ _ _ hsle (le_refl _), List.take_length]
  have e5 : slice? lb.children s (lb.item.length + 1) = some ((psB.drop s).map Part.ptr) := by
    rw [slice?_eq _ _ _ (by omega) (by rw [hcB, List.length_map, hlB]), hcB, ← hlB,
      ← List.length_map psB Part.ptr, List.take_length, List.map_drop]
  have hndT : (fpOf (psB.take s)).Nodup := by
    rw [← List.take_append_drop s psB, fpOf_append] at hndB
    exact (List.nodup_append.1 hndB).1
  have hfT : ∀ c, c ∈ fpOf (psB.take s) → c ∈ fpOf psB := fpOf_sub_of_take psB s
  have hfD : ∀ c, c ∈ fpOf (psB.drop s) → c ∈ fpOf psB := fpOf_sub_of_drop psB s
  obtain ⟨t1, h1, hA1, hst1, hlen1⟩ := modInner_istep t A la
    (fun m => { m with item := m.item ++ k :: lb.item.take (s - 1),
                       children := psA.map Part.ptr ++ (psB.take s).map Part.ptr }) hA
  have hch1 : ∀ q ∈ psB, Sub cfg t1 h false q.ptr (Ptr.node B) q.leaves q.fp := fun q hq =>
    Sub.step (hchB q hq) hst1.1 (fun c hc e => by
      simp only [List.mem_singleton] at e
      subst e
      exact hAf (mem_fpOf hq hc))
  obtain ⟨t2, h2, hsub2, hst2, hlen2⟩ := update_parent_spec (Ptr.node A) (psB.take s) t1
    (Ptr.node B) (fun q hq => hch1 q (List.mem_of_mem_take hq)) hndT
  have hA2 : t2.node? (Ptr.node A) = some (Node.inner
      { la with item := la.item ++ k :: lb.item.take (s - 1),
                children := psA.map Part.ptr ++ (psB.take s).map Part.ptr }) := by
    rw [hst2.1.node_eq hlen2 A (fun e => hAf (hfT _ e))]; exact hA1
  obtain ⟨t3, h3, hA3, hst3, hlen3⟩ := modInner_istep t2 A _
    (fun m => { m with size := m.size + (items (leavesOf (psB.take s))).length }) hA2
  have hb3 : t3.node? (Ptr.node b) = some (Node.inner nb) := by
    rw [hst3.1.node_eq hlen3 b (by simpa using hAb.symm),
      hst2.1.node_eq hlen2 b (fun e => hbf (hfT _ e)),
      hst1.1.node_eq hlen1 b (by simpa using hAb.symm)]
    exact hb
  obtain ⟨t4, h4, hb4, hst4, hlen4⟩ := store_key_spec cfg t3 b nb pw sep hb3 hpw
  have hB4 : t4.node? (Ptr.node B) = some (Node.inner lb) := by
    rw [hst4.1.node_eq hlen4 B (by simpa using hBb),
      hst3.1.node_eq hlen3 B (by simpa using hAB.symm),
      hst2.1.node_eq hlen2 B (fun e => hBf (hfT _ e)),
      hst1.1.node_eq hlen1 B (by simpa using hAB.symm)]
    exact hB
  obtain ⟨t5, h5, hB5, hst5, hlen5⟩ := modInner_istep t4 B lb
    (fun m => { m with item := lb.item.drop s, children := (psB.drop s).map Part.ptr,
                       size := wsub m.size (items (leavesOf (psB.take s))).length }) hB4
  have hst35 : Mod t2 t5 ([A] ++ [b] ++ [B]) := (hst3.1.mod_trans hst4.1).mod_trans hst5.1
  have hnot : ∀ c, c ∈ fpOf psB → c ∉ [A] ++ [b] ++ [B] := by
    intro c hc e
    simp only [List.mem_append, List.mem_singleton] at e
    rcases e with (e | e) | e
    · subst e; exact hAf hc
    · subst e; exact hbf hc
    · subst e; exact hBf hc
  refine ⟨t5, sep, ?_, hsep, ?_, hB5, ?_, fun q hq => ?_, fun q hq => ?_, ?_, by omega⟩
  · simp only [shift_left_inner_, inner?_of_node? hA, inner?_of_node? hB, inner?_of_node? hb,
      hk, hw, hs, hw1, e1, e2, e3, e4, e5, h1, h2, h3, hsep, h4, h5,
      if_neg (show ¬ la.item.length + s > cfg.maxInner by omega), Option.pure_def,
      Option.bind_eq_bind, Option.some_bind]
  · rw [hst5.1.node_eq hlen5 A (by simpa using hAB), hst4.1.node_eq hlen4 A (by simpa using hAb),
      hA3, List.map_append]
  · rw [hst5.1.node_eq hlen5 b (by simpa using hBb.symm)]; exact hb4
  · exact Sub.step (hsub2 q hq) hst35 (fun c hc => hnot c (hfT c (mem_fpOf hq hc)))
  · refine Sub.step (Sub.step (hch1 q (List.mem_of_mem_drop hq)) hst2.1 (fun c hc e => ?_))
      hst35 (fun c hc => hnot c (hfD c (mem_fpOf hq hc)))
    exact fpOf_take_drop_disjoint psB s hndB c e (mem_fpOf hq hc)
  · refine ((((hst1.istep_trans hst2).istep_trans hst3).istep_trans hst4).istep_trans
      hst5).istep_mono (fun c hc _ => ?_)
    simp only [List.mem_append, List.mem_cons, List.mem_singleton, List.not_mem_nil,
      or_false] at hc ⊢
    rcases hc with (((hc | hc) | hc) | hc) | hc
    · exact Or.inl hc
    · exact Or.inr (Or.inr (Or.inr (hfT c hc)))
    · exact Or.inl hc
    · exact Or.inr (Or.inr (Or.inl hc))
    · exact Or.inr (Or.inl hc)

/-- What `shift_right_inner_` leaves behind: the last keys and children of
the left node and the separator at the front of the right node, the key before
them in the parent's separator, and the sizes of both nodes moved by the
number of items below the moved children. -/
theorem shift_right_inner_spec {cfg : Config} {h : Nat} (t : Tree α) (A B b : Nat)
    (la lb nb : InnerNode α) (pw : Nat) (k : α) (psA psB : List (Part α))
    (hA : t.node? (Ptr.node A) = some (Node.inner la))
    (hB : t.node? (Ptr.node B) = some (Node.inner lb))
    (hb : t.node? (Ptr.node b) = some (Node.inner nb)) (hk : nb.item[pw]? = some k)
    (hle : lb.item.length ≤ la.item.length)
    (hs1 : 1 ≤ (la.item.length - lb.item.length) / 2)
    (hcap : lb.item.length + (la.item.length - lb.item.length) / 2 ≤ cfg.maxInner)
    (hcA : la.children = psA.map Part.ptr) (hlA : psA.length = la.item.length + 1)
    (hcB : lb.children = psB.map Part.ptr) (hlB : psB.length = lb.item.length + 1)
    (hchA : ∀ q ∈ psA, Sub cfg t h false q.ptr (Ptr.node A) q.leaves q.fp)
    (hndA : (fpOf psA).Nodup) (hAB : A ≠ B) (hAb : A ≠ b) (hBb : B ≠ b)
    (hAf : A ∉ fpOf psA) (hBf : B ∉ fpOf psA) (hbf : b ∉ fpOf psA) :
    ∃ t' sep, shift_right_inner_ cfg t (Ptr.node A) (Ptr.node B) (Ptr.node b) pw = some t' ∧
      la.item[la.item.length - (la.item.length - lb.item.length) / 2]? = some sep ∧
      t'.node? (Ptr.node A) = some (Node.inner
        { la with item := la.item.take (la.item.length - (la.item.length - lb.item.length) / 2),
                  children := (psA.take
                    (la.item.length - (la.item.length - lb.item.length) / 2 + 1)).map Part.ptr,
                  size := wsub la.size (items (leavesOf (psA.drop
                    (la.item.length - (la.item.length - lb.item.length) / 2 + 1)))).length }) ∧
      t'.node? (Ptr.node B) = some (Node.inner
        { lb with item := la.item.drop
                    (la.item.length - (la.item.length - lb.item.length) / 2 + 1) ++ k :: lb.item,
                  children := (psA.drop
                    (la.item.length - (la.item.length - lb.item.length) / 2 + 1) ++ psB).map
                    Part.ptr,
                  size := lb.size + (items (leavesOf (psA.drop
                    (la.item.length - (la.item.length - lb.item.length) / 2 + 1)))).length }) ∧
      t'.node? (Ptr.node b) = some (Node.inner { nb with item := nb.item.set pw sep }) ∧
      (∀ q ∈ psA.take (la.item.length - (la.item.length - lb.item.length) / 2 + 1),
        Sub cfg t' h false q.ptr (Ptr.node A) q.leaves q.fp) ∧
      (∀ q ∈ psA.drop (la.item.length - (la.item.length - lb.item.length) / 2 + 1),
        Sub cfg t' h false q.ptr (Ptr.node B) q.leaves q.fp) ∧
      IStep t t' (A :: B :: b :: fpOf psA) ∧ t'.mem.length = t.mem.length := by
  have hw : wsub la.item.length lb.item.length = la.item.length - lb.item.length :=
    wsub_of_le hle
  generalize hs : (la.item.length - lb.item.length) / 2 = s at hs1 hcap ⊢
  have hsle : s ≤ la.item.length := by
    have := Nat.div_le_self (la.item.length - lb.item.length) 2
    omega
  have hwf : wsub la.item.length s = la.item.length - s := wsub_of_le hsle
  generalize hfr : la.item.length - s = fr
  have hfrlt : fr < la.item.length := by omega
  have hpw : pw < nb.item.length := by
    by_contra hlt
    rw [List.getElem?_eq_none (by omega)] at hk
    simp at hk
  obtain ⟨sep, hsep⟩ : ∃ sep, la.item[fr]? = some sep :=
    ⟨la.item[fr], List.getElem?_eq_getElem hfrlt⟩
  have e1 : slice? la.item (fr + 1) la.item.length = some (la.item.drop (fr + 1)) := by
    rw [slice?_eq _ _ _ (by omega) (le_refl _), List.take_length]
  have e2 : slice? la.children (fr + 1) (la.item.length + 1)
      = some ((psA.drop (fr + 1)).map Part.ptr) := by
    rw [slice?_eq _ _ _ (by omega) (by rw [hcA, List.length_map, hlA]), hcA, ← hlA,
      ← List.length_map psA Part.ptr, List.take_length, List.map_drop]
  have e3 : slice? lb.children 0 (lb.item.length + 1) = some (psB.map Part.ptr) := by
    rw [slice?_eq _ _ _ (Nat.zero_le _) (by rw [hcB, List.length_map, hlB]), List.drop_zero,
      hcB, ← hlB, ← List.length_map psB Part.ptr, List.take_length]
  have e4 : slice? la.item 0 fr = some (la.item.take fr) := by
    rw [slice?_eq _ _ _ (Nat.zero_le _) (by omega), List.drop_zero]
  have e5 : slice? la.children 0 (fr + 1) = some ((psA.take (fr + 1)).map Part.ptr) := by
    rw [slice?_eq _ _ _ (Nat.zero_le _) (by rw [hcA, List.length_map, hlA]; omega),
      List.drop_zero, hcA, List.map_take]
  have hndD : (fpOf (psA.drop (fr + 1))).Nodup := by
    rw [← List.take_append_drop (fr + 1) psA, fpOf_append] at hndA
    exact (List.nodup_append.1 hndA).2.1
  have hfT : ∀ c, c ∈ fpOf (psA.take (fr + 1)) → c ∈ fpOf psA := fpOf_sub_of_take psA _
  have hfD : ∀ c, c ∈ fpOf (psA.drop (fr + 1)) → c ∈ fpOf psA := fpOf_sub_of_drop psA _
  obtain ⟨t1, h1, hB1, hst1, hlen1⟩ := modInner_istep t B lb
    (fun m => { m with item := la.item.drop (fr + 1) ++ k :: m.item,
                       children := (psA.drop (fr + 1)).map Part.ptr ++ psB.map Part.ptr }) hB
  have hch1 : ∀ q ∈ psA, Sub cfg t1 h false q.ptr (Ptr.node A) q.leaves q.fp := fun q hq =>
    Sub.step (hchA q hq) hst1.1 (fun c hc e => by
      simp only [List.mem_singleton] at e
      subst e
      exact hBf (mem_fpOf hq hc))
  obtain ⟨t2, h2, hsub2, hst2, hlen2⟩ := update_parent_spec (Ptr.node B) (psA.drop (fr + 1)) t1
    (Ptr.node A) (fun q hq => hch1 q (List.mem_of_mem_drop hq)) hndD
  have hb2 : t2.node? (Ptr.node b) = some (Node.inner nb) := by
    rw [hst2.1.node_eq hlen2 b (fun e => hbf (hfD _ e)),
      hst1.1.node_eq hlen1 b (by simpa using hBb.symm)]
    exact hb
  obtain ⟨t3, h3, hb3, hst3, hlen3⟩ := store_key_spec cfg t2 b nb pw sep hb2 hpw
  have hA3 : t3.node? (Ptr.node A) = some (Node.inner la) := by
    rw [hst3.1.node_eq hlen3 A (by simpa using hAb),
      hst2.1.node_eq hlen2 A (fun e => hAf (hfD _ e)),
      hst1.1.node_eq hlen1 A (by simpa using hAB)]
    exact hA
  obtain ⟨t4, h4, hA4, hst4, hlen4⟩ := modInner_istep t3 A la
    (fun m => { m with item := la.item.take fr, children := (psA.take (fr + 1)).map Part.ptr,
                       size := wsub m.size (items (leavesOf (psA.drop (fr + 1)))).length }) hA3
  have hB4 : t4.node? (Ptr.node B) = some (Node.inner
      { lb with item := la.item.drop (fr + 1) ++ k :: lb.item,
                children := (psA.drop (fr + 1)).map Part.ptr ++ psB.map Part.ptr }) := by
    rw [hst4.1.node_eq hlen4 B (by simpa using hAB.symm),
      hst3.1.node_eq hlen3 B (by simpa using hBb),
      hst2.1.node_eq hlen2 B (fun e => hBf (hfD _ e))]
    exact hB1
  obtain ⟨t5, h5, hB5, hst5, hlen5⟩ := modInner_istep t4 B _
    (fun m => { m with size := m.size + (items (leavesOf (psA.drop (fr + 1)))).length }) hB4
  have hst25 : Mod t2 t5 ([b] ++ [A] ++ [B]) := (hst3.1.mod_trans hst4.1).mod_trans hst5.1
  have hnot : ∀ c, c ∈ fpOf psA → c ∉ [b] ++ [A] ++ [B] := by
    intro c hc e
    simp only [List.mem_append, List.mem_singleton] at e
    rcases e with (e | e) | e
    · subst e; exact hbf hc
    · subst e; exact hAf hc
    · subst e; exact hBf hc
  refine ⟨t5, sep, ?_, hsep, ?_, ?_, ?_, fun q hq => ?_, fun q hq => ?_, ?_, by omega⟩
  · simp only [shift_right_inner_, inner?_of_node? hA, inner?_of_node? hB, inner?_of_node? hb,
      hk, hw, hs, hwf, hfr, e1, e2, e3, e4, e5, h1, h2, h3, hsep, h4, h5,
      if_neg (show ¬ lb.item.length + s > cfg.maxInner by omega), Option.pure_def,
      Option.bind_eq_bind, Option.some_bind]
  · rw [hst5.1.node_eq hlen5 A (by simpa using hAB)]; exact hA4
  · rw [hB5, List.map_append]
  · rw [hst5.1.node_eq hlen5 b (by simpa using hBb.symm),
      hst4.1.node_eq hlen4 b (by simpa using hAb.symm)]
    exact hb3
  · refine Sub.step (Sub.step (hch1 q (List.mem_of_mem_take hq)) hst2.1 (fun c hc e => ?_))
      hst25 (fun c hc => hnot c (hfT c (mem_fpOf hq hc)))
    exact fpOf_take_drop_disjoint psA (fr + 1) hndA c (mem_fpOf hq hc) e
  · exact Sub.step (hsub2 q hq) hst25 (fun c hc => hnot c (hfD c (mem_fpOf hq hc)))
  · refine ((((hst1.istep_trans hst2).istep_trans hst3).istep_trans hst4).istep_trans
      hst5).istep_mono (fun c hc _ => ?_)
    simp only [List.mem_append, List.mem_cons, List.mem_singleton, List.not_mem_nil,
      or_false] at hc ⊢
    rcases hc with (((hc | hc) | hc) | hc) | hc
    · exact Or.inr (Or.inl hc)
    · exact Or.inr (Or.inr (Or.inr (hfD c hc)))
    · exact Or.inr (Or.inr (Or.inl hc))
    · exact Or.inl hc
    · exact Or.inr (Or.inl hc)

end InnerOps

end BPP

/-! ## Pairs of inner nodes -/

namespace BPP

section InnerPairs
variable {α : Type} [LinearOrder α]

/-- An inner node as a child: its pointer, the leaves below its children and
the addresses of its subtree. -/
def Part.ofInner (a : Nat) (ps : List (Part α)) : Part α :=
  ⟨Ptr.node a, leavesOf ps, a :: fpOf ps⟩

@[simp] theorem Part.ofInner_ptr (a : Nat) (ps : List (Part α)) :
    (Part.ofInner a ps).ptr = Ptr.node a := rfl

@[simp] theorem Part.ofInner_leaves (a : Nat) (ps : List (Part α)) :
    (Part.ofInner a ps).leaves = leavesOf ps := rfl

@[simp] theorem Part.ofInner_fp (a : Nat) (ps : List (Part α)) :
    (Part.ofInner a ps).fp = a :: fpOf ps := rfl

theorem Part.ofInner_last (a : Nat) (ps : List (Part α)) :
    (Part.ofInner a ps).last = (items (leavesOf ps)).getLast? := rfl

/-- The fields and the children of an inner node of height `h + 1`, all of
the invariant but the bounds of its fill. -/
structure InnerAt (cfg : Config) (t : Tree α) (h : Nat) (A : Nat) (la : InnerNode α)
    (psA : List (Part α)) (par : Ptr) : Prop where
  cell : t.node? (Ptr.node A) = some (Node.inner la)
  par_eq : la.parent = par
  level_eq : la.level = h + 1
  size_eq : la.size = (items (leavesOf psA)).length
  kids : la.children = psA.map Part.ptr
  keys : la.item.map some = psA.dropLast.map Part.last
  kids_ne : psA ≠ []
  subs : ∀ q ∈ psA, Sub cfg t h false q.ptr (Ptr.node A) q.leaves q.fp

theorem InnerAt.kids_length {cfg : Config} {t : Tree α} {h A : Nat} {la : InnerNode α}
    {psA : List (Part α)} {par : Ptr} (hA : InnerAt cfg t h A la psA par) :
    psA.length = la.item.length + 1 := by
  have := congrArg List.length hA.keys
  simp only [List.length_map, List.length_dropLast] at this
  have := List.length_pos.2 hA.kids_ne
  omega

theorem InnerAt.to_sub {cfg : Config} {t : Tree α} {h A : Nat} {la : InnerNode α}
    {psA : List (Part α)} {par : Ptr} (hA : InnerAt cfg t h A la psA par) (isRoot : Bool)
    (hlo : (if isRoot then 1 else cfg.maxInner / 2) ≤ la.item.length)
    (hhi : la.item.length ≤ cfg.maxInner) :
    Sub cfg t (h + 1) isRoot (Part.ofInner A psA).ptr par (Part.ofInner A psA).leaves
      (Part.ofInner A psA).fp := by
  have := Sub.mk_inner isRoot A la psA hA.cell hA.level_eq hA.size_eq hA.kids hA.keys hA.kids_ne
    hA.subs hlo hhi
  rw [hA.par_eq] at this
  exact this

theorem InnerAt.of_sub {cfg : Config} {t : Tree α} {h : Nat} {isRoot : Bool} {p par : Ptr}
    {ls : Leaves α} {fp : List Nat} (hs : Sub cfg t (h + 1) isRoot p par ls fp) :
    ∃ A la psA, p = Ptr.node A ∧ ls = leavesOf psA ∧ fp = A :: fpOf psA ∧
      InnerAt cfg t h A la psA par ∧
      (if isRoot then 1 else cfg.maxInner / 2) ≤ la.item.length ∧
      la.item.length ≤ cfg.maxInner := by
  obtain ⟨a, n, ps, hp, hn, hpar, hlev, hsz, hc, hk, hne, hch, hls, hfp, hlo, hhi⟩ :=
    Sub.succ_iff.1 hs
  subst hp
  refine ⟨a, n, ps, rfl, hls, hfp, ⟨hn, hpar, hlev, ?_, hc, hk, hne, hch⟩, hlo, hhi⟩
  rw [hsz, hls, leavesOf]

/-- The greatest key below a run of children is the greatest key below the
last of them. -/
theorem last_leavesOf_append (xs ys : List (Part α)) (h : items (leavesOf ys) ≠ []) :
    (items (leavesOf (xs ++ ys))).getLast? = (items (leavesOf ys)).getLast? := by
  rw [leavesOf_append, items_append, List.getLast?_append_of_ne_nil _ h]

theorem items_leavesOf_ne_nil {cfg : Config} {t : Tree α} {h : Nat} {par : Ptr}
    (hcap : 2 ≤ cfg.maxLeaf) (ps : List (Part α)) (hne : ps ≠ [])
    (hch : ∀ q ∈ ps, Sub cfg t h false q.ptr par q.leaves q.fp) : items (leavesOf ps) ≠ [] := by
  cases ps with
  | nil => exact absurd rfl hne
  | cons q qs =>
    have := Sub.items_ne_nil hcap (hch q (List.mem_cons_self _ _))
    simp only [leavesOf_cons, items_append, ne_eq, List.append_eq_nil, not_and]
    intro e; exact absurd e this

/-- The separators of two adjacent inner nodes and the separator between them
in their parent are the separators of the joined run of their children. -/
theorem sep_join {cfg : Config} {t : Tree α} {h : Nat} {par : Ptr} (hcap : 2 ≤ cfg.maxLeaf)
    (itsA itsB : List α) (k : α) (psA psB : List (Part α))
    (hA : itsA.map some = psA.dropLast.map Part.last)
    (hB : itsB.map some = psB.dropLast.map Part.last) (hneA : psA ≠ []) (hneB : psB ≠ [])
    (hch : ∀ q ∈ psA, Sub cfg t h false q.ptr par q.leaves q.fp)
    (hk : (items (leavesOf psA)).getLast? = some k) :
    (itsA ++ k :: itsB).map some = (psA ++ psB).dropLast.map Part.last := by
  rcases List.eq_nil_or_concat psA with e | ⟨psA0, qL, e⟩
  · exact absurd e hneA
  simp only [List.concat_eq_append] at e
  subst e
  have hq := Sub.items_ne_nil hcap (hch qL (by simp))
  have hkq : qL.last = some k := by
    have := last_leavesOf_append psA0 [qL] (by simpa using hq)
    rw [this] at hk
    simpa [Part.last] using hk
  have e1 : (psA0 ++ [qL] ++ psB).dropLast = psA0 ++ qL :: psB.dropLast := by
    rw [List.append_assoc, List.dropLast_append_of_ne_nil _ (by simp)]
    congr 1
    exact List.dropLast_append_of_ne_nil _ hneB
  rw [e1]
  simp only [List.dropLast_concat] at hA
  simp only [List.map_append, List.map_cons, hA, hB, hkq]

/-- Two adjacent inner nodes `A` and `B` among the children of the node `b`,
each with all of the invariant but the bounds of its fill. -/
structure InnerPair (cfg : Config) (t : Tree α) (h : Nat) (b : Nat) (nb : InnerNode α)
    (pre post : List (Part α)) (A B : Nat) (la lb : InnerNode α) (psA psB : List (Part α))
    (L R : Leaves α) (prev0 : Ptr) : Prop where
  cell : t.node? (Ptr.node b) = some (Node.inner nb)
  kids : nb.children = (pre ++ Part.ofInner A psA :: Part.ofInner B psB :: post).map Part.ptr
  keys : nb.item.map some
    = (pre ++ Part.ofInner A psA :: Part.ofInner B psB :: post).dropLast.map Part.last
  nodeA : InnerAt cfg t h A la psA (Ptr.node b)
  nodeB : InnerAt cfg t h B lb psB (Ptr.node b)
  sibs : ∀ q ∈ pre ++ post, Sub cfg t (h + 1) false q.ptr (Ptr.node b) q.leaves q.fp
  fp_nodup : (b :: fpOf (pre ++ Part.ofInner A psA :: Part.ofInner B psB :: post)).Nodup
  chain : ChainOk t prev0
    (L ++ leavesOf (pre ++ Part.ofInner A psA :: Part.ofInner B psB :: post) ++ R)
  ptrs_nodup : ((L ++ leavesOf (pre ++ Part.ofInner A psA :: Part.ofInner B psB :: post)
    ++ R).map Prod.fst).Nodup
  ends : ((L ++ leavesOf (pre ++ Part.ofInner A psA :: Part.ofInner B psB :: post)
    ++ R).getLast?).map Prod.fst = some t.right

theorem InnerPair.slot_len {cfg : Config} {t : Tree α} {h b : Nat} {nb : InnerNode α}
    {pre post : List (Part α)} {A B : Nat} {la lb : InnerNode α} {psA psB : List (Part α)}
    {L R : Leaves α} {prev0 : Ptr}
    (hp : InnerPair cfg t h b nb pre post A B la lb psA psB L R prev0) :
    nb.item.length = pre.length + 1 + post.length := by
  have := congrArg List.length hp.keys
  simp only [List.length_map, List.length_dropLast, List.length_append, List.length_cons] at this
  omega

/-- The separator between the two nodes of a pair, and the separators of the
joined run of their children. -/
theorem InnerPair.key {cfg : Config} {t : Tree α} {h b : Nat} {nb : InnerNode α}
    {pre post : List (Part α)} {A B : Nat} {la lb : InnerNode α} {psA psB : List (Part α)}
    {L R : Leaves α} {prev0 : Ptr} (hcap : 2 ≤ cfg.maxLeaf)
    (hp : InnerPair cfg t h b nb pre post A B la lb psA psB L R prev0) :
    ∃ k, nb.item[pre.length]? = some k ∧ (items (leavesOf psA)).getLast? = some k ∧
      (la.item ++ k :: lb.item).map some = (psA ++ psB).dropLast.map Part.last ∧
      (psA ++ psB).length = (la.item ++ k :: lb.item).length + 1 := by
  have hlen := hp.slot_len
  have hlt : pre.length < nb.item.length := by omega
  have hk : (nb.item.map some)[pre.length]? = some (some nb.item[pre.length]) := by
    rw [List.getElem?_map, List.getElem?_eq_getElem hlt]; rfl
  have e1 : (pre ++ Part.ofInner A psA :: Part.ofInner B psB :: post).dropLast
      = pre ++ Part.ofInner A psA :: (Part.ofInner B psB :: post).dropLast := by
    rw [List.dropLast_append_of_ne_nil _ (by simp)]
    rfl
  rw [hp.keys, e1, List.map_append, List.map_cons,
    List.getElem?_append_right (by simp)] at hk
  simp only [List.length_map, Nat.sub_self, List.getElem?_cons_zero, Option.some.injEq] at hk
  rw [Part.ofInner_last] at hk
  refine ⟨nb.item[pre.length], List.getElem?_eq_getElem hlt, hk, ?_, ?_⟩
  · exact sep_join hcap la.item lb.item _ psA psB hp.nodeA.keys hp.nodeB.keys hp.nodeA.kids_ne
      hp.nodeB.kids_ne hp.nodeA.subs hk
  · have h1 := hp.nodeA.kids_length
    have h2 := hp.nodeB.kids_length
    simp only [List.length_append, List.length_cons]
    omega

theorem fpOf_pair_perm (pre post : List (Part α)) (A B : Nat) (psA psB ps1 ps2 : List (Part α))
    (h : ps1 ++ ps2 = psA ++ psB) :
    (fpOf (pre ++ Part.ofInner A ps1 :: Part.ofInner B ps2 :: post)).Perm
      (fpOf (pre ++ Part.ofInner A psA :: Part.ofInner B psB :: post)) := by
  have hF : fpOf ps1 ++ fpOf ps2 = fpOf psA ++ fpOf psB := by
    rw [← fpOf_append, ← fpOf_append, h]
  simp only [fpOf_append, fpOf_cons, Part.ofInner_fp, List.cons_append]
  refine List.Perm.append_left _ (List.Perm.cons _ ?_)
  have e1 : ∀ (F1 F2 G : List Nat),
      (F1 ++ B :: (F2 ++ G)).Perm (B :: (F1 ++ F2 ++ G)) := by
    intro F1 F2 G
    rw [List.append_assoc]
    exact List.perm_middle
  refine (e1 _ _ _).trans ?_
  rw [hF]
  exact (e1 _ _ _).symm

/-- What the footprint of a pair tells apart. -/
theorem InnerPair.fp_split {cfg : Config} {t : Tree α} {h b : Nat} {nb : InnerNode α}
    {pre post : List (Part α)} {A B : Nat} {la lb : InnerNode α} {psA psB : List (Part α)}
    {L R : Leaves α} {prev0 : Ptr}
    (hp : InnerPair cfg t h b nb pre post A B la lb psA psB L R prev0) :
    b ∉ fpOf pre ∧ b ∉ fpOf post ∧ b ≠ A ∧ b ≠ B ∧ b ∉ fpOf psA ∧ b ∉ fpOf psB ∧
      A ≠ B ∧ A ∉ fpOf psA ∧ A ∉ fpOf psB ∧ B ∉ fpOf psA ∧ B ∉ fpOf psB ∧
      (fpOf psA).Nodup ∧ (fpOf psB).Nodup ∧ (∀ c ∈ fpOf psA, c ∉ fpOf psB) ∧
      (∀ c, c ∈ fpOf pre ∨ c ∈ fpOf post →
        c ≠ A ∧ c ≠ B ∧ c ∉ fpOf psA ∧ c ∉ fpOf psB) := by
  have hnd := hp.fp_nodup
  simp only [fpOf_append, fpOf_cons, Part.ofInner_fp, List.cons_append] at hnd
  obtain ⟨hb, hnd⟩ := List.nodup_cons.1 hnd
  obtain ⟨-, h2, h3⟩ := List.nodup_append.1 hnd
  obtain ⟨hA, h2⟩ := List.nodup_cons.1 h2
  obtain ⟨hndA, h4, h5⟩ := List.nodup_append.1 h2
  obtain ⟨hB, h4⟩ := List.nodup_cons.1 h4
  obtain ⟨hndB, -, h6⟩ := List.nodup_append.1 h4
  simp only [List.mem_append, List.mem_cons, not_or] at hb hA hB
  refine ⟨hb.1, hb.2.2.2.2.2, hb.2.1, hb.2.2.2.1, hb.2.2.1, hb.2.2.2.2.1, hA.2.1, hA.1, hA.2.2.1,
    ?_, hB.1, hndA, hndB, ?_, ?_⟩
  · intro e
    exact h5 e (by simp)
  · intro c hc e
    exact h5 hc (by simp [e])
  · rintro c (hc | hc)
    · have h3' : ∀ x, x ∈ (A :: (fpOf psA ++ B :: (fpOf psB ++ fpOf post))) → c ≠ x :=
        fun x hx e => h3 hc (e ▸ hx)
      refine ⟨h3' A (by simp), h3' B (by simp), fun e => h3' c (by simp [e]) rfl,
        fun e => h3' c (by simp [e]) rfl⟩
    · refine ⟨?_, ?_, ?_, ?_⟩
      · intro e; subst e; exact hA.2.2.2 hc
      · intro e; subst e; exact hB.2 hc
      · intro e; exact h5 e (by simp [hc])
      · intro e; exact h6 e hc

/-- Two adjacent inner nodes under the node `b` after children moved from
one to the other and the separator between them was set: the nodes hold the
keys and children before and after slot `m` of the joined run. -/
theorem inner_cut_pair (cfg : Config) (t t' : Tree α) (h b : Nat) (nb : InnerNode α) (w : Nat)
    (X : Ptr) (pre post : List (Part α)) (A B : Nat) (la lb : InnerNode α)
    (psA psB : List (Part α)) (L R : Leaves α) (prev0 : Ptr) (S : List Nat)
    (nA nB : InnerNode α) (m : Nat) (k sep : α) (hcapL : 2 ≤ cfg.maxLeaf)
    (hp : InnerPair cfg t h b nb pre post A B la lb psA psB L R prev0)
    (hk : nb.item[pre.length]? = some k) (hst : IStep t t' S)
    (hlen : t'.mem.length = t.mem.length)
    (hS : ∀ c ∈ S, c = b ∨ c = A ∨ c = B ∨ c ∈ fpOf psA ∨ c ∈ fpOf psB)
    (hA' : t'.node? (Ptr.node A) = some (Node.inner nA))
    (hB' : t'.node? (Ptr.node B) = some (Node.inner nB))
    (hb' : t'.node? (Ptr.node b)
      = some (Node.inner { nb with item := nb.item.set pre.length sep }))
    (hm : m < (la.item ++ k :: lb.item).length)
    (hsep : (la.item ++ k :: lb.item)[m]? = some sep)
    (hAp : nA.parent = Ptr.node b) (hAl : nA.level = h + 1)
    (hAi : nA.item = (la.item ++ k :: lb.item).take m)
    (hAc : nA.children = ((psA ++ psB).take (m + 1)).map Part.ptr)
    (hAs : nA.size = (items (leavesOf ((psA ++ psB).take (m + 1)))).length)
    (hBp : nB.parent = Ptr.node b) (hBl : nB.level = h + 1)
    (hBi : nB.item = (la.item ++ k :: lb.item).drop (m + 1))
    (hBc : nB.children = ((psA ++ psB).drop (m + 1)).map Part.ptr)
    (hBs : nB.size = (items (leavesOf ((psA ++ psB).drop (m + 1)))).length)
    (hchA : ∀ q ∈ (psA ++ psB).take (m + 1), Sub cfg t' h false q.ptr (Ptr.node A) q.leaves q.fp)
    (hchB : ∀ q ∈ (psA ++ psB).drop (m + 1), Sub cfg t' h false q.ptr (Ptr.node B) q.leaves q.fp)
    (hb1 : cfg.maxInner / 2 ≤ m) (hb2 : m ≤ cfg.maxInner)
    (hb3 : cfg.maxInner / 2 ≤ (la.item ++ k :: lb.item).length - (m + 1))
    (hb4 : (la.item ++ k :: lb.item).length - (m + 1) ≤ cfg.maxInner)
    (hX : (X = Ptr.node A ∧ w = pre.length) ∨ (X = Ptr.node B ∧ w = pre.length + 1)) :
    RebOut cfg t t' (h + 1) b nb w (pre ++ Part.ofInner A psA :: Part.ofInner B psB :: post)
      (items (leavesOf (pre ++ Part.ofInner A psA :: Part.ofInner B psB :: post)))
      X L R prev0 false := by
  obtain ⟨k', hk', hklast, hseps, hlenps⟩ := hp.key hcapL
  rw [hk] at hk'
  obtain rfl : k = k' := Option.some.inj hk'
  obtain ⟨hsA, hsB, k2, hk2, hk2last⟩ := Sub.halves hcapL A B nA nB (la.item ++ k :: lb.item)
    (psA ++ psB) m hA' hB' hAl hBl hAc hBc hAi hBi hAs hBs hseps hlenps hm hchA hchB hb1 hb2
    hb3 hb4
  rw [hsep] at hk2
  obtain rfl : sep = k2 := Option.some.inj hk2
  rw [hAp] at hsA
  rw [hBp] at hsB
  obtain ⟨f1, f2, f3, f4, f5, f6, f7, f8, f9, f10, f11, f12, f13, f14, f15⟩ := hp.fp_split
  have htd : (psA ++ psB).take (m + 1) ++ (psA ++ psB).drop (m + 1) = psA ++ psB :=
    List.take_append_drop _ _
  have hleaves : leavesOf (pre ++ Part.ofInner A ((psA ++ psB).take (m + 1))
        :: Part.ofInner B ((psA ++ psB).drop (m + 1)) :: post)
      = leavesOf (pre ++ Part.ofInner A psA :: Part.ofInner B psB :: post) := by
    simp only [leavesOf_append, leavesOf_cons, Part.ofInner_leaves]
    rw [← List.append_assoc (leavesOf _) (leavesOf _) (leavesOf post), ← leavesOf_append, htd,
      leavesOf_append, List.append_assoc]
  have hperm := fpOf_pair_perm pre post A B psA psB _ _ htd
  have hdropne : (psA ++ psB).drop (m + 1) ≠ [] := by
    intro e
    have := congrArg List.length e
    simp only [List.length_drop, List.length_nil] at this
    omega
  refine RebOut.of_istep cfg t t' (h + 1) b nb w _
    (pre ++ Part.ofInner A ((psA ++ psB).take (m + 1))
      :: Part.ofInner B ((psA ++ psB).drop (m + 1)) :: post) _ X L R prev0 false S hst hlen
    (fun c hc => ?_) (by rw [hleaves]) (by rw [hleaves]) (fun c hc => hperm.subset hc)
    (hperm.nodup_iff.2 (List.nodup_cons.1 hp.fp_nodup).2) hp.chain hp.ptrs_nodup hp.ends
    (fun _ => ?_) ?_
  · simp only [fpOf_append, fpOf_cons, Part.ofInner_fp, List.mem_cons, List.mem_append]
    rcases hS c hc with e | e | e | e | e <;> simp [e]
  · rcases hX with ⟨rfl, rfl⟩ | ⟨rfl, rfl⟩
    · simp only [List.map_append, List.map_cons, Part.ofInner_ptr]
      rw [List.getElem?_append_right (by simp)]
      simp
    · simp only [List.map_append, List.map_cons, Part.ofInner_ptr]
      rw [List.getElem?_append_right (by simp)]
      simp
  · unfold Pend
    refine ⟨_, hb', rfl, rfl, rfl, by simp, by simp, fun q hq => ?_, ?_⟩
    · have hsib : ∀ q ∈ pre ++ post, Sub cfg t' (h + 1) false q.ptr (Ptr.node b) q.leaves q.fp := by
        intro q hq
        refine Sub.step (hp.sibs q hq) hst.1 (fun c hc e => ?_)
        have hcm : c ∈ fpOf pre ∨ c ∈ fpOf post := by
          rcases List.mem_append.1 hq with h1 | h1
          · exact Or.inl (mem_fpOf h1 hc)
          · exact Or.inr (mem_fpOf h1 hc)
        obtain ⟨g1, g2, g3, g4⟩ := f15 c hcm
        rcases hS c e with e | e | e | e | e
        · subst e; rcases hcm with h1 | h1
          · exact f1 h1
          · exact f2 h1
        · exact g1 e
        · exact g2 e
        · exact g3 e
        · exact g4 e
      rcases List.mem_append.1 hq with h1 | h1
      · exact hsib q (List.mem_append_left _ h1)
      · rcases List.mem_cons.1 h1 with h2 | h2
        · subst h2; exact hsA
        · rcases List.mem_cons.1 h2 with h3 | h3
          · subst h3; exact hsB
          · exact hsib q (List.mem_append_right _ h3)
    · rw [if_neg (by simp)]
      refine ⟨by rw [hp.kids]; simp, ?_⟩
      refine sep_shift pre post _ _ (Part.ofInner A _) (Part.ofInner B _) nb.item sep hp.keys
        (by rw [Part.ofInner_last]; exact hk2last) (fun _ => ?_)
      rw [Part.ofInner_last, Part.ofInner_last,
        ← last_leavesOf_append ((psA ++ psB).take (m + 1)) _
          (items_leavesOf_ne_nil hcapL _ hdropne hchB), htd,
        last_leavesOf_append psA psB]
      have hsubB : ∀ q ∈ psB, Sub cfg t h false q.ptr (Ptr.node B) q.leaves q.fp := hp.nodeB.subs
      exact items_leavesOf_ne_nil hcapL _ hp.nodeB.kids_ne hsubB

/-- Two adjacent inner nodes under the node `b` after the right one was merged
into the left one: the right one is left dead in the child list of `b`. -/
theorem inner_merge_pair (cfg : Config) (t t' : Tree α) (h b : Nat) (nb : InnerNode α) (w : Nat)
    (X : Ptr) (pre post : List (Part α)) (A B : Nat) (la lb : InnerNode α)
    (psA psB : List (Part α)) (L R : Leaves α) (prev0 : Ptr) (S : List Nat)
    (nA : InnerNode α) (k : α) (hcapL : 2 ≤ cfg.maxLeaf)
    (hp : InnerPair cfg t h b nb pre post A B la lb psA psB L R prev0)
    (hk : nb.item[pre.length]? = some k) (hst : IStep t t' S)
    (hlen : t'.mem.length = t.mem.length)
    (hS : ∀ c ∈ S, c = A ∨ c = B ∨ c ∈ fpOf psA ∨ c ∈ fpOf psB)
    (hA' : t'.node? (Ptr.node A) = some (Node.inner nA))
    (hB' : ∃ x, t'.node? (Ptr.node B) = some x)
    (hBpar : t'.parent? (Ptr.node B) = some Ptr.null)
    (hAp : nA.parent = Ptr.node b) (hAl : nA.level = h + 1)
    (hAi : nA.item = la.item ++ k :: lb.item)
    (hAc : nA.children = (psA ++ psB).map Part.ptr)
    (hAs : nA.size = (items (leavesOf (psA ++ psB))).length)
    (hch : ∀ q ∈ psA ++ psB, Sub cfg t' h false q.ptr (Ptr.node A) q.leaves q.fp)
    (hlo : cfg.maxInner / 2 ≤ (la.item ++ k :: lb.item).length)
    (hhi : (la.item ++ k :: lb.item).length ≤ cfg.maxInner)
    (hw : w = pre.length ∨ w = pre.length + 1) :
    RebOut cfg t t' (h + 1) b nb w (pre ++ Part.ofInner A psA :: Part.ofInner B psB :: post)
      (items (leavesOf (pre ++ Part.ofInner A psA :: Part.ofInner B psB :: post)))
      X L R prev0 true := by
  obtain ⟨k', hk', hklast, hseps, hlenps⟩ := hp.key hcapL
  rw [hk] at hk'
  obtain rfl : k = k' := Option.some.inj hk'
  obtain ⟨f1, f2, f3, f4, f5, f6, f7, f8, f9, f10, f11, f12, f13, f14, f15⟩ := hp.fp_split
  have hsA : Sub cfg t' (h + 1) false (Part.ofInner A (psA ++ psB)).ptr (Ptr.node b)
      (Part.ofInner A (psA ++ psB)).leaves (Part.ofInner A (psA ++ psB)).fp := by
    have := Sub.mk_inner false A nA (psA ++ psB) hA' hAl hAs hAc (by rw [hAi]; exact hseps)
      (by simp [hp.nodeA.kids_ne]) hch (by rw [hAi]; simpa using hlo) (by rw [hAi]; exact hhi)
    rw [hAp] at this
    exact this
  have hleaves : leavesOf (pre ++ Part.ofInner A (psA ++ psB) :: post)
      = leavesOf (pre ++ Part.ofInner A psA :: Part.ofInner B psB :: post) := by
    simp only [leavesOf_append, leavesOf_cons, Part.ofInner_leaves, List.append_assoc]
  have hb' : t'.node? (Ptr.node b) = some (Node.inner nb) := by
    rw [hst.1.node_eq hlen b (fun e => ?_)]
    · exact hp.cell
    · rcases hS b e with e | e | e | e
      · exact f3 e
      · exact f4 e
      · exact f5 e
      · exact f6 e
  have hsub : ∀ c, c ∈ fpOf (pre ++ Part.ofInner A (psA ++ psB) :: post) →
      c ∈ fpOf (pre ++ Part.ofInner A psA :: Part.ofInner B psB :: post) := by
    intro c hc
    simp only [fpOf_append, fpOf_cons, Part.ofInner_fp, List.mem_cons, List.mem_append] at hc ⊢
    tauto
  have hnd' : (fpOf (pre ++ Part.ofInner A (psA ++ psB) :: post)).Nodup := by
    refine List.Nodup.sublist ?_ (List.nodup_cons.1 hp.fp_nodup).2
    simp only [fpOf_append, fpOf_cons, Part.ofInner_fp, List.cons_append, List.append_assoc]
    refine (List.Sublist.refl _).append (List.Sublist.cons₂ _ ?_)
    exact (List.Sublist.refl _).append (List.Sublist.cons _ (List.Sublist.refl _))
  have hlenb := hp.slot_len
  refine RebOut.of_istep cfg t t' (h + 1) b nb w _ (pre ++ Part.ofInner A (psA ++ psB) :: post)
    _ X L R prev0 true S hst hlen (fun c hc => ?_) (by rw [hleaves]) (by rw [hleaves]) hsub
    hnd' hp.chain hp.ptrs_nodup hp.ends (fun e => by simp at e) ?_
  · simp only [fpOf_append, fpOf_cons, Part.ofInner_fp, List.mem_cons, List.mem_append]
    rcases hS c hc with e | e | e | e <;> simp [e]
  · unfold Pend
    refine ⟨nb, hb', rfl, rfl, rfl, rfl, by simp, fun q hq => ?_, ?_⟩
    · have hsib : ∀ q ∈ pre ++ post, Sub cfg t' (h + 1) false q.ptr (Ptr.node b) q.leaves q.fp := by
        intro q hq
        refine Sub.step (hp.sibs q hq) hst.1 (fun c hc e => ?_)
        have hcm : c ∈ fpOf pre ∨ c ∈ fpOf post := by
          rcases List.mem_append.1 hq with h1 | h1
          · exact Or.inl (mem_fpOf h1 hc)
          · exact Or.inr (mem_fpOf h1 hc)
        obtain ⟨g1, g2, g3, g4⟩ := f15 c hcm
        rcases hS c e with e | e | e | e
        · exact g1 e
        · exact g2 e
        · exact g3 e
        · exact g4 e
      rcases List.mem_append.1 hq with h1 | h1
      · exact hsib q (List.mem_append_left _ h1)
      · rcases List.mem_cons.1 h1 with h2 | h2
        · subst h2; exact hsA
        · exact hsib q (List.mem_append_right _ h2)
    · rw [if_pos rfl]
      refine ⟨pre.length + 1, B, by omega, by omega, by simp, ?_, ?_, ?_, Ne.symm f4, ?_,
        hB', fun _ => hBpar, ?_⟩
      · rw [hp.kids]
        simp only [List.map_append, List.map_cons, Part.ofInner_ptr]
        have e : pre.length = (pre.map Part.ptr).length := by simp
        rw [e, take_succ_length_append, drop_succ_length_append]
        simp
      · simp only [List.length_append, List.length_cons]
        omega
      · simp only [Nat.add_sub_cancel]
        refine sep_merge pre post _ _ _ nb.item hp.keys (fun _ => ?_)
        rw [Part.ofInner_last, Part.ofInner_last]
        refine last_leavesOf_append psA psB ?_
        have hsubB : ∀ q ∈ psB, Sub cfg t h false q.ptr (Ptr.node B) q.leaves q.fp :=
          hp.nodeB.subs
        exact items_leavesOf_ne_nil hcapL _ hp.nodeB.kids_ne hsubB
      · simp only [fpOf_append, fpOf_cons, Part.ofInner_fp, List.mem_append, List.mem_cons,
          not_or]
        have g := f15 B
        refine ⟨fun e => (g (Or.inl e)).2.1 rfl, ⟨Ne.symm f7, f10, f11⟩,
          fun e => (g (Or.inr e)).2.1 rfl⟩
      · simp [fpOf_append, fpOf_cons, Part.ofInner_fp]

/-- The rule "merge" on two adjacent inner nodes of which one lost a child. -/
theorem inner_merge_full (cfg : Config) (t : Tree α) (h b : Nat) (nb : InnerNode α) (w : Nat)
    (X : Ptr) (pre post : List (Part α)) (A B : Nat) (la lb : InnerNode α)
    (psA psB : List (Part α)) (L R : Leaves α) (prev0 : Ptr) (hcapL : 2 ≤ cfg.maxLeaf)
    (hp : InnerPair cfg t h b nb pre post A B la lb psA psB L R prev0)
    (hcap : la.item.length + 1 + lb.item.length ≤ cfg.maxInner)
    (hmin : cfg.maxInner / 2 ≤ la.item.length + 1 + lb.item.length)
    (hw : w = pre.length ∨ w = pre.length + 1) :
    ∃ t', merge_inners_ cfg t (Ptr.node A) (Ptr.node B) (Ptr.node b) pre.length
        = some (t', Result.fix) ∧
      RebOut cfg t t' (h + 1) b nb w (pre ++ Part.ofInner A psA :: Part.ofInner B psB :: post)
        (items (leavesOf (pre ++ Part.ofInner A psA :: Part.ofInner B psB :: post)))
        X L R prev0 true := by
  obtain ⟨k, hk, -, -, -⟩ := hp.key hcapL
  obtain ⟨f1, f2, f3, f4, f5, f6, f7, f8, f9, f10, f11, f12, f13, f14, f15⟩ := hp.fp_split
  obtain ⟨t', hm, hA', hB', hchB, hst, hlen⟩ := merge_inners_spec t A B b la lb nb pre.length k
    psA psB hp.nodeA.cell hp.nodeB.cell hp.cell hk hcap hp.nodeA.kids hp.nodeA.kids_length
    hp.nodeB.kids hp.nodeB.kids_length hp.nodeB.subs f13 f7 f9 f11
  refine ⟨t', hm, ?_⟩
  refine inner_merge_pair cfg t t' h b nb w X pre post A B la lb psA psB L R prev0 _ _ k hcapL
    hp hk hst hlen (fun c hc => ?_) hA' ⟨_, hB'⟩ (by rw [parent?_inner hB']) hp.nodeA.par_eq
    hp.nodeA.level_eq rfl (by simp) ?_ (fun q hq => ?_) (by simp; omega) (by simp; omega) hw
  · simp only [List.mem_cons] at hc
    rcases hc with e | e | e
    · exact Or.inl e
    · exact Or.inr (Or.inl e)
    · exact Or.inr (Or.inr (Or.inr e))
  · simp only [leavesOf_append, items_append, List.length_append, hp.nodeA.size_eq]
  · rcases List.mem_append.1 hq with h1 | h1
    · refine Sub.step (hp.nodeA.subs q h1) hst.1 (fun c hc e => ?_)
      have hcA := mem_fpOf h1 hc
      simp only [List.mem_cons] at e
      rcases e with e | e | e
      · subst e; exact f8 hcA
      · subst e; exact f10 hcA
      · exact f14 c hcA e
    · exact hchB q h1

/-- The rule "shift left" on an inner node that lost a child and its right
sibling. -/
theorem inner_shift_left_full (cfg : Config) (t : Tree α) (h b : Nat) (nb : InnerNode α)
    (pre post : List (Part α)) (A B : Nat) (la lb : InnerNode α) (psA psB : List (Part α))
    (L R : Leaves α) (prev0 : Ptr) (hcapL : 2 ≤ cfg.maxLeaf)
    (hp : InnerPair cfg t h b nb pre post A B la lb psA psB L R prev0)
    (hAlo : cfg.maxInner / 2 ≤ la.item.length + 1) (hAhi : la.item.length < cfg.maxInner / 2)
    (hBlo : cfg.maxInner / 2 < lb.item.length) (hBhi : lb.item.length ≤ cfg.maxInner) :
    ∃ t', shift_left_inner_ cfg t (Ptr.node A) (Ptr.node B) (Ptr.node b) pre.length = some t' ∧
      RebOut cfg t t' (h + 1) b nb pre.length
        (pre ++ Part.ofInner A psA :: Part.ofInner B psB :: post)
        (items (leavesOf (pre ++ Part.ofInner A psA :: Part.ofInner B psB :: post)))
        (Ptr.node A) L R prev0 false := by
  obtain ⟨k, hk, -, -, -⟩ := hp.key hcapL
  obtain ⟨f1, f2, f3, f4, f5, f6, f7, f8, f9, f10, f11, f12, f13, f14, f15⟩ := hp.fp_split
  have hlA := hp.nodeA.kids_length
  have hlB := hp.nodeB.kids_length
  obtain ⟨t', sep, hop, hsep, hA', hB', hb', hch1, hch2, hst, hlen⟩ :=
    shift_left_inner_spec t A B b la lb nb pre.length k psA psB hp.nodeA.cell hp.nodeB.cell
      hp.cell hk (by omega) (by omega) (by omega) hp.nodeA.kids hlA hp.nodeB.kids hlB
      hp.nodeB.subs f13 f7 (Ne.symm f3) (Ne.symm f4) f9 f11 f6
  obtain ⟨s, hs⟩ : ∃ s, (lb.item.length - la.item.length) / 2 = s + 1 :=
    ⟨(lb.item.length - la.item.length) / 2 - 1, by omega⟩
  rw [hs] at hsep hA' hB' hch1 hch2
  simp only [Nat.add_sub_cancel] at hsep hA'
  have hcnt := items_leavesOf_take_drop psB (s + 1)
  have e1 : (la.item ++ k :: lb.item).take (la.item.length + (s + 1))
      = la.item ++ k :: lb.item.take s := by
    rw [List.take_append]; rfl
  have e2 : (psA ++ psB).take (la.item.length + (s + 1) + 1) = psA ++ psB.take (s + 1) := by
    rw [show la.item.length + (s + 1) + 1 = psA.length + (s + 1) by omega, List.take_append]
  have e3 : (la.item ++ k :: lb.item).drop (la.item.length + (s + 1) + 1)
      = lb.item.drop (s + 1) := by
    rw [show la.item.length + (s + 1) + 1 = la.item.length + (s + 2) by omega, List.drop_append]
    rfl
  have e4 : (psA ++ psB).drop (la.item.length + (s + 1) + 1) = psB.drop (s + 1) := by
    rw [show la.item.length + (s + 1) + 1 = psA.length + (s + 1) by omega, List.drop_append]
  have e5 : (la.item ++ k :: lb.item)[la.item.length + (s + 1)]? = some sep := by
    rw [List.getElem?_append_right (by omega)]
    simpa using hsep
  refine ⟨t', hop, ?_⟩
  refine inner_cut_pair cfg t t' h b nb pre.length (Ptr.node A) pre post A B la lb psA psB L R
    prev0 _ _ _ (la.item.length + (s + 1)) k sep hcapL hp hk hst hlen (fun c hc => ?_) hA' hB'
    hb' (by simp; omega) e5 hp.nodeA.par_eq hp.nodeA.level_eq e1.symm (by rw [e2])
    (by rw [e2, leavesOf_append, items_append, List.length_append, hp.nodeA.size_eq])
    hp.nodeB.par_eq hp.nodeB.level_eq e3.symm (by rw [e4]) ?_ (fun q hq => ?_)
    (fun q hq => ?_) (by omega) (by omega) (by simp; omega) (by simp; omega)
    (Or.inl ⟨rfl, rfl⟩)
  · simp only [List.mem_cons] at hc
    rcases hc with e | e | e | e
    · exact Or.inr (Or.inl e)
    · exact Or.inr (Or.inr (Or.inl e))
    · exact Or.inl e
    · exact Or.inr (Or.inr (Or.inr (Or.inr e)))
  · rw [e4]
    show wsub lb.size _ = _
    rw [hp.nodeB.size_eq, wsub_of_le (by omega)]
    omega
  · rw [e2] at hq
    rcases List.mem_append.1 hq with h1 | h1
    · refine Sub.step (hp.nodeA.subs q h1) hst.1 (fun c hc e => ?_)
      have hcA := mem_fpOf h1 hc
      simp only [List.mem_cons] at e
      rcases e with e | e | e | e
      · subst e; exact f8 hcA
      · subst e; exact f10 hcA
      · subst e; exact f5 hcA
      · exact f14 c hcA e
    · exact hch1 q h1
  · rw [e4] at hq
    exact hch2 q hq

/-- The rule "shift right" on an inner node that lost a child and its left
sibling. -/
theorem inner_shift_right_full (cfg : Config) (t : Tree α) (h b : Nat) (nb : InnerNode α)
    (pre post : List (Part α)) (A B : Nat) (la lb : InnerNode α) (psA psB : List (Part α))
    (L R : Leaves α) (prev0 : Ptr) (hcapL : 2 ≤ cfg.maxLeaf)
    (hp : InnerPair cfg t h b nb pre post A B la lb psA psB L R prev0)
    (hBlo : cfg.maxInner / 2 ≤ lb.item.length + 1) (hBhi : lb.item.length < cfg.maxInner / 2)
    (hAlo : cfg.maxInner / 2 < la.item.length) (hAhi : la.item.length ≤ cfg.maxInner) :
    ∃ t', shift_right_inner_ cfg t (Ptr.node A) (Ptr.node B) (Ptr.node b) pre.length = some t' ∧
      RebOut cfg t t' (h + 1) b nb (pre.length + 1)
        (pre ++ Part.ofInner A psA :: Part.ofInner B psB :: post)
        (items (leavesOf (pre ++ Part.ofInner A psA :: Part.ofInner B psB :: post)))
        (Ptr.node B) L R prev0 false := by
  obtain ⟨k, hk, -, -, -⟩ := hp.key hcapL
  obtain ⟨f1, f2, f3, f4, f5, f6, f7, f8, f9, f10, f11, f12, f13, f14, f15⟩ := hp.fp_split
  have hlA := hp.nodeA.kids_length
  have hlB := hp.nodeB.kids_length
  obtain ⟨t', sep, hop, hsep, hA', hB', hb', hch1, hch2, hst, hlen⟩ :=
    shift_right_inner_spec t A B b la lb nb pre.length k psA psB hp.nodeA.cell hp.nodeB.cell
      hp.cell hk (by omega) (by omega) (by omega) hp.nodeA.kids hlA hp.nodeB.kids hlB
      hp.nodeA.subs f12 f7 (Ne.symm f3) (Ne.symm f4) f8 f10 f5
  obtain ⟨m, hm⟩ : ∃ m, la.item.length - (la.item.length - lb.item.length) / 2 = m := ⟨_, rfl⟩
  rw [hm] at hsep hA' hB' hch1 hch2
  have hmlt : m < la.item.length := by omega
  have hcnt := items_leavesOf_take_drop psA (m + 1)
  have e1 : (la.item ++ k :: lb.item).take m = la.item.take m := by
    rw [List.take_append_of_le_length (by omega)]
  have e2 : (psA ++ psB).take (m + 1) = psA.take (m + 1) := by
    rw [List.take_append_of_le_length (by omega)]
  have e3 : (la.item ++ k :: lb.item).drop (m + 1) = la.item.drop (m + 1) ++ k :: lb.item := by
    rw [List.drop_append_of_le_length (by omega)]
  have e4 : (psA ++ psB).drop (m + 1) = psA.drop (m + 1) ++ psB := by
    rw [List.drop_append_of_le_length (by omega)]
  have e5 : (la.item ++ k :: lb.item)[m]? = some sep := by
    rw [List.getElem?_append_left hmlt]
    exact hsep
  refine ⟨t', hop, ?_⟩
  refine inner_cut_pair cfg t t' h b nb (pre.length + 1) (Ptr.node B) pre post A B la lb psA psB
    L R prev0 _ _ _ m k sep hcapL hp hk hst hlen (fun c hc => ?_) hA' hB'
    hb' (by simp; omega) e5 hp.nodeA.par_eq hp.nodeA.level_eq e1.symm (by rw [e2]) ?_
    hp.nodeB.par_eq hp.nodeB.level_eq e3.symm (by rw [e4])
    (by rw [e4, leavesOf_append, items_append, List.length_append, hp.nodeB.size_eq]
        exact Nat.add_comm _ _)
    (fun q hq => ?_) (fun q hq => ?_) (by omega) (by omega) (by simp; omega) (by simp; omega)
    (Or.inr ⟨rfl, rfl⟩)
  · simp only [List.mem_cons] at hc
    rcases hc with e | e | e | e
    · exact Or.inr (Or.inl e)
    · exact Or.inr (Or.inr (Or.inl e))
    · exact Or.inl e
    · exact Or.inr (Or.inr (Or.inr (Or.inl e)))
  · rw [e2]
    show wsub la.size _ = _
    rw [hp.nodeA.size_eq, wsub_of_le (by omega)]
    omega
  · rw [e2] at hq
    exact hch1 q hq
  · rw [e4] at hq
    rcases List.mem_append.1 hq with h1 | h1
    · exact hch2 q h1
    · refine Sub.step (hp.nodeB.subs q h1) hst.1 (fun c hc e => ?_)
      have hcB := mem_fpOf h1 hc
      simp only [List.mem_cons] at e
      rcases e with e | e | e | e
      · subst e; exact f9 hcB
      · subst e; exact f11 hcB
      · subst e; exact f6 hcB
      · exact f14 c e hcB

end InnerPairs

end BPP

/-! ## The repair of an inner node among its siblings -/

namespace BPP

section InnerLevel
variable {α : Type} [LinearOrder α]

/-- The inner node `X0` among the children of the node `b` right after it
is done with an erase below it: all of its invariant holds but the bounds of
its fill, and all the other children are well-formed. -/
structure InnerLvl (cfg : Config) (s : Tree α) (h : Nat) (b : Nat) (nb : InnerNode α)
    (pre post : List (Part α)) (X0 : Nat) (lx : InnerNode α) (psX : List (Part α))
    (L R : Leaves α) (prev0 : Ptr) : Prop where
  cell : s.node? (Ptr.node b) = some (Node.inner nb)
  kids : nb.children = (pre ++ Part.ofInner X0 psX :: post).map Part.ptr
  keys : nb.item.map some = (pre ++ Part.ofInner X0 psX :: post).dropLast.map Part.last
  nodeX : InnerAt cfg s h X0 lx psX (Ptr.node b)
  sibs : ∀ q ∈ pre ++ post, Sub cfg s (h + 1) false q.ptr (Ptr.node b) q.leaves q.fp
  fp_nodup : (b :: fpOf (pre ++ Part.ofInner X0 psX :: post)).Nodup
  chain : ChainOk s prev0 (L ++ leavesOf (pre ++ Part.ofInner X0 psX :: post) ++ R)
  ptrs_nodup : ((L ++ leavesOf (pre ++ Part.ofInner X0 psX :: post) ++ R).map Prod.fst).Nodup
  ends : ((L ++ leavesOf (pre ++ Part.ofInner X0 psX :: post) ++ R).getLast?).map Prod.fst
    = some s.right

theorem Part.eq_ofInner (y : Part α) (A : Nat) (psA : List (Part α)) (h1 : y.ptr = Ptr.node A)
    (h2 : y.leaves = leavesOf psA) (h3 : y.fp = A :: fpOf psA) : y = Part.ofInner A psA := by
  cases y
  simp only [Part.ofInner] at *
  subst h1 h2 h3
  rfl

theorem InnerLvl.ipair_left {cfg : Config} {s : Tree α} {h b : Nat} {nb : InnerNode α}
    {pre post : List (Part α)} {y : Part α} {X0 : Nat} {lx : InnerNode α}
    {psX : List (Part α)} {L R : Leaves α} {prev0 : Ptr}
    (hl : InnerLvl cfg s h b nb (pre ++ [y]) post X0 lx psX L R prev0) :
    ∃ Y ly psY, y = Part.ofInner Y psY ∧ s.node? (Ptr.node Y) = some (Node.inner ly) ∧
      cfg.maxInner / 2 ≤ ly.item.length ∧ ly.item.length ≤ cfg.maxInner ∧
      InnerPair cfg s h b nb pre post Y X0 ly lx psY psX L R prev0 := by
  have hy := hl.sibs y (by simp)
  obtain ⟨Y, ly, psY, e1, e2, e3, hY, hlo, hhi⟩ := InnerAt.of_sub hy
  have ey := Part.eq_ofInner y Y psY e1 e2 e3
  subst ey
  have e : (pre ++ [Part.ofInner Y psY]) ++ Part.ofInner X0 psX :: post
      = pre ++ Part.ofInner Y psY :: Part.ofInner X0 psX :: post := by simp
  have hk := hl.kids
  have hs := hl.keys
  have hn := hl.fp_nodup
  have hc := hl.chain
  have hp := hl.ptrs_nodup
  have he := hl.ends
  rw [e] at hk hs hn hc hp he
  refine ⟨Y, ly, psY, rfl, hY.cell, by simpa using hlo, hhi,
    ⟨hl.cell, hk, hs, hY, hl.nodeX, fun q hq => hl.sibs q ?_, hn, hc, hp, he⟩⟩
  simp only [List.mem_append, List.mem_singleton] at hq ⊢
  tauto

theorem InnerLvl.ipair_right {cfg : Config} {s : Tree α} {h b : Nat} {nb : InnerNode α}
    {pre post : List (Part α)} {y : Part α} {X0 : Nat} {lx : InnerNode α}
    {psX : List (Part α)} {L R : Leaves α} {prev0 : Ptr}
    (hl : InnerLvl cfg s h b nb pre (y :: post) X0 lx psX L R prev0) :
    ∃ Y ly psY, y = Part.ofInner Y psY ∧ s.node? (Ptr.node Y) = some (Node.inner ly) ∧
      cfg.maxInner / 2 ≤ ly.item.length ∧ ly.item.length ≤ cfg.maxInner ∧
      InnerPair cfg s h b nb pre post X0 Y lx ly psX psY L R prev0 := by
  have hy := hl.sibs y (by simp)
  obtain ⟨Y, ly, psY, e1, e2, e3, hY, hlo, hhi⟩ := InnerAt.of_sub hy
  have ey := Part.eq_ofInner y Y psY e1 e2 e3
  subst ey
  refine ⟨Y, ly, psY, rfl, hY.cell, by simpa using hlo, hhi,
    ⟨hl.cell, hl.kids, hl.keys, hl.nodeX, hY, fun q hq => hl.sibs q ?_, hl.fp_nodup, hl.chain,
      hl.ptrs_nodup, hl.ends⟩⟩
  simp only [List.mem_append, List.mem_cons] at hq ⊢
  tauto

/-- A level on which nothing has to be repaired. -/
theorem InnerLvl.lvl_rebOut {cfg : Config} {s : Tree α} {h b : Nat} {nb : InnerNode α}
    {pre post : List (Part α)} {X0 : Nat} {lx : InnerNode α} {psX : List (Part α)}
    {L R : Leaves α} {prev0 : Ptr} (hl : InnerLvl cfg s h b nb pre post X0 lx psX L R prev0)
    (hlo : cfg.maxInner / 2 ≤ lx.item.length) (hhi : lx.item.length ≤ cfg.maxInner) :
    RebOut cfg s s (h + 1) b nb pre.length (pre ++ Part.ofInner X0 psX :: post)
      (items (leavesOf (pre ++ Part.ofInner X0 psX :: post))) (Ptr.node X0) L R prev0
      false := by
  refine RebOut.of_istep cfg s s (h + 1) b nb pre.length _ _ _ _ L R prev0 false []
    (IStep.istep_refl s []) rfl (fun c hc => by simp at hc) rfl rfl (fun c hc => hc)
    (List.nodup_cons.1 hl.fp_nodup).2 hl.chain hl.ptrs_nodup hl.ends (fun _ => ?_) ?_
  · simp only [List.map_append, List.map_cons, Part.ofInner_ptr]
    rw [List.getElem?_append_right (by simp)]
    simp
  · unfold Pend
    refine ⟨nb, hl.cell, rfl, rfl, rfl, rfl, by simp, fun q hq => ?_, ?_⟩
    · rcases List.mem_append.1 hq with h1 | h1
      · exact hl.sibs q (List.mem_append_left _ h1)
      · rcases List.mem_cons.1 h1 with h2 | h2
        · subst h2
          exact hl.nodeX.to_sub false (by simpa using hlo) hhi
        · exact hl.sibs q (List.mem_append_right _ h2)
    · rw [if_neg (by simp)]
      exact ⟨hl.kids, hl.keys⟩

theorem InnerLvl.slots {cfg : Config} {s : Tree α} {h b : Nat} {nb : InnerNode α}
    {pre post : List (Part α)} {X0 : Nat} {lx : InnerNode α} {psX : List (Part α)}
    {L R : Leaves α} {prev0 : Ptr} (hl : InnerLvl cfg s h b nb pre post X0 lx psX L R prev0) :
    nb.children = pre.map Part.ptr ++ Ptr.node X0 :: post.map Part.ptr ∧
      pre.length + post.length = nb.item.length := by
  refine ⟨by rw [hl.kids]; simp, ?_⟩
  have := congrArg List.length hl.keys
  simp only [List.length_map, List.length_dropLast, List.length_append, List.length_cons] at this
  omega

/-- The rule `rebalance_inner_` applies to an inner node that lost a child,
given the neighbours its caller found: one rule on the node and a sibling. -/
theorem inner_fix_core (cfg : Config) (s : Tree α) (h b : Nat) (nb : InnerNode α)
    (pre post : List (Part α)) (X0 : Nat) (lx : InnerNode α) (psX : List (Part α))
    (L R : Leaves α) (prev0 : Ptr) (r0 : Result α) (left lp right rp : Ptr)
    (hcapL : 2 ≤ cfg.maxLeaf)
    (hlv : InnerLvl cfg s h b nb pre post X0 lx psX L R prev0)
    (hlo : cfg.maxInner / 2 ≤ lx.item.length + 1) (hu : lx.item.length < cfg.maxInner / 2)
    (hsib : pre ≠ [] ∨ post ≠ [])
    (hl2 : pre = [] → lp ≠ Ptr.node b ∧
      (left = Ptr.null ∨ ∃ par ls fp, Sub cfg s (h + 1) false left par ls fp))
    (hl3 : ∀ pre' q, pre = pre' ++ [q] → lp = Ptr.node b ∧ left = q.ptr)
    (hr2 : post = [] → rp ≠ Ptr.node b ∧
      (right = Ptr.null ∨ ∃ par ls fp, Sub cfg s (h + 1) false right par ls fp))
    (hr3 : ∀ q post', post = q :: post' → rp = Ptr.node b ∧ right = q.ptr)
    (hr0 : r0.fixmerge = false) :
    ¬ (left = Ptr.null ∧ right = Ptr.null) ∧
    ∃ t1 res,
      rebalance_inner_ cfg s (Ptr.node X0) left right lp rp (Ptr.node b) pre.length r0
        = some (t1, res) ∧
      res.last_key = r0.last_key ∧ res.not_found = r0.not_found ∧
      RebOut cfg s t1 (h + 1) b nb pre.length (pre ++ Part.ofInner X0 psX :: post)
        (items (leavesOf (pre ++ Part.ofInner X0 psX :: post))) (Ptr.node X0) L R prev0
        res.fixmerge := by
  have hrd : ∀ {x par ls fp}, Sub cfg s (h + 1) false x par ls fp →
      x ≠ Ptr.null ∧ ∃ l, s.inner? x = some l := by
    intro x par ls fp hs
    obtain ⟨A, la, psA, hp, -, -, hA, -⟩ := InnerAt.of_sub hs
    exact ⟨by rw [hp]; simp, la, by rw [hp]; exact inner?_of_node? hA.cell⟩
  have hNl : NbInner s left lp (Ptr.node b) := by
    rcases List.eq_nil_or_concat pre with hpre | ⟨pre', y, hpre⟩
    · obtain ⟨h1, h2⟩ := hl2 hpre
      refine Or.inr ⟨h1, ?_⟩
      rcases h2 with h2 | ⟨par, ls, fp, hs⟩
      · exact Or.inl h2
      · exact Or.inr (hrd hs).2
    · obtain ⟨h1, h2⟩ := hl3 pre' y (by simpa using hpre)
      have := hrd (hlv.sibs y (by rw [hpre]; simp))
      rw [← h2] at this
      exact Or.inl ⟨h1, this⟩
  have hNr : NbInner s right rp (Ptr.node b) := by
    cases hpost : post with
    | nil =>
      obtain ⟨h1, h2⟩ := hr2 hpost
      refine Or.inr ⟨h1, ?_⟩
      rcases h2 with h2 | ⟨par, ls, fp, hs⟩
      · exact Or.inl h2
      · exact Or.inr (hrd hs).2
    | cons y post' =>
      obtain ⟨h1, h2⟩ := hr3 y post' hpost
      have := hrd (hlv.sibs y (by rw [hpost]; simp))
      rw [← h2] at this
      exact Or.inl ⟨h1, this⟩
  have hone : lp = Ptr.node b ∨ rp = Ptr.node b := by
    rcases hsib with h | h
    · rcases List.eq_nil_or_concat pre with hpre | ⟨pre', y, hpre⟩
      · exact absurd hpre h
      · exact Or.inl (hl3 pre' y (by simpa using hpre)).1
    · cases hpost : post with
      | nil => exact absurd hpost h
      | cons y post' => exact Or.inr (hr3 y post' hpost).1
  have hnn : ¬ (left = Ptr.null ∧ right = Ptr.null) := by
    rintro ⟨h1, h2⟩
    rcases hNl with ⟨-, h, -⟩ | ⟨hl, -⟩
    · exact h h1
    rcases hNr with ⟨-, h, -⟩ | ⟨hr, -⟩
    · exact h h2
    rcases hone with h | h
    · exact hl h
    · exact hr h
  refine ⟨hnn, ?_⟩
  rcases rebalance_inner_sel cfg s (Ptr.node X0) left right lp rp (Ptr.node b) pre.length r0
    hNl hNr hone with ⟨hlp, ⟨l, hl, hfew⟩, heq⟩ | ⟨hrp, ⟨l, hl, hfew⟩, heq⟩ |
      ⟨hrp, ⟨l, hl, hfew⟩, heq⟩ | ⟨hlp, ⟨l, hl, hfew⟩, heq⟩
  · -- merge with the left sibling
    rcases List.eq_nil_or_concat pre with hpre | ⟨pre', y, hpre⟩
    · exact absurd hlp (hl2 hpre).1
    simp only [List.concat_eq_append] at hpre
    subst hpre
    obtain ⟨hlpe, hleft⟩ := hl3 pre' y rfl
    obtain ⟨Y, ly, psY, hy, hY, hylo, hyhi, hpair⟩ := hlv.ipair_left
    subst hy
    have e : l = ly := by
      rw [hleft, Part.ofInner_ptr, inner?_of_node? hY] at hl
      exact (Option.some.inj hl).symm
    subst e
    obtain ⟨t', hm, hreb⟩ := inner_merge_full cfg s h b nb (pre'.length + 1) (Ptr.node X0)
      pre' post Y X0 l lx psY psX L R prev0 hcapL hpair (by omega) (by omega) (Or.inr rfl)
    have hw : wsub (pre' ++ [Part.ofInner Y psY]).length 1 = pre'.length := by
      rw [wsub_of_le (by simp)]; simp
    have hm' : merge_inners_ cfg s left (Ptr.node X0) lp
        (wsub (pre' ++ [Part.ofInner Y psY]).length 1) = some (t', Result.fix) := by
      rw [hleft, hlpe, hw]; exact hm
    rw [hm'] at heq
    refine ⟨t', r0.or Result.fix, by rw [heq]; rfl, r0.or_fix.1, r0.or_fix.2.1, ?_⟩
    rw [r0.or_fix.2.2]
    have e : (pre' ++ [Part.ofInner Y psY]) ++ Part.ofInner X0 psX :: post
        = pre' ++ Part.ofInner Y psY :: Part.ofInner X0 psX :: post := by simp
    rw [e, List.length_append, List.length_singleton]
    exact hreb
  · -- merge with the right sibling
    cases hpost : post with
    | nil => exact absurd hrp (hr2 hpost).1
    | cons y post' =>
      subst hpost
      obtain ⟨hrpe, hright⟩ := hr3 y post' rfl
      obtain ⟨Y, ly, psY, hy, hY, hylo, hyhi, hpair⟩ := hlv.ipair_right
      subst hy
      have e : l = ly := by
        rw [hright, Part.ofInner_ptr, inner?_of_node? hY] at hl
        exact (Option.some.inj hl).symm
      subst e
      obtain ⟨t', hm, hreb⟩ := inner_merge_full cfg s h b nb pre.length (Ptr.node X0) pre post'
        X0 Y lx l psX psY L R prev0 hcapL hpair (by omega) (by omega) (Or.inl rfl)
      have hm' : merge_inners_ cfg s (Ptr.node X0) right rp pre.length
          = some (t', Result.fix) := by
        rw [hright, hrpe]; exact hm
      rw [hm'] at heq
      refine ⟨t', r0.or Result.fix, by rw [heq]; rfl, r0.or_fix.1, r0.or_fix.2.1, ?_⟩
      rw [r0.or_fix.2.2]
      exact hreb
  · -- shift from the right sibling
    cases hpost : post with
    | nil => exact absurd hrp (hr2 hpost).1
    | cons y post' =>
      subst hpost
      obtain ⟨hrpe, hright⟩ := hr3 y post' rfl
      obtain ⟨Y, ly, psY, hy, hY, hylo, hyhi, hpair⟩ := hlv.ipair_right
      subst hy
      have e : l = ly := by
        rw [hright, Part.ofInner_ptr, inner?_of_node? hY] at hl
        exact (Option.some.inj hl).symm
      subst e
      obtain ⟨t', hm, hreb⟩ := inner_shift_left_full cfg s h b nb pre post' X0 Y lx l psX psY
        L R prev0 hcapL hpair hlo hu hfew hyhi
      have hm' : shift_left_inner_ cfg s (Ptr.node X0) right rp pre.length = some t' := by
        rw [hright, hrpe]; exact hm
      rw [hm'] at heq
      refine ⟨t', r0, by rw [heq]; rfl, rfl, rfl, ?_⟩
      rw [hr0]
      exact hreb
  · -- shift from the left sibling
    rcases List.eq_nil_or_concat pre with hpre | ⟨pre', y, hpre⟩
    · exact absurd hlp (hl2 hpre).1
    simp only [List.concat_eq_append] at hpre
    subst hpre
    obtain ⟨hlpe, hleft⟩ := hl3 pre' y rfl
    obtain ⟨Y, ly, psY, hy, hY, hylo, hyhi, hpair⟩ := hlv.ipair_left
    subst hy
    have e : l = ly := by
      rw [hleft, Part.ofInner_ptr, inner?_of_node? hY] at hl
      exact (Option.some.inj hl).symm
    subst e
    obtain ⟨t', hm, hreb⟩ := inner_shift_right_full cfg s h b nb pre' post Y X0 l lx psY psX
      L R prev0 hcapL hpair hlo hu hfew hyhi
    have hw : wsub (pre' ++ [Part.ofInner Y psY]).length 1 = pre'.length := by
      rw [wsub_of_le (by simp)]; simp
    have hm' : shift_right_inner_ cfg s left (Ptr.node X0) lp
        (wsub (pre' ++ [Part.ofInner Y psY]).length 1) = some t' := by
      rw [hleft, hlpe, hw]; exact hm
    rw [hm'] at heq
    refine ⟨t', r0, by rw [heq]; rfl, rfl, rfl, ?_⟩
    rw [hr0]
    have e : (pre' ++ [Part.ofInner Y psY]) ++ Part.ofInner X0 psX :: post
        = pre' ++ Part.ofInner Y psY :: Part.ofInner X0 psX :: post := by simp
    rw [e, List.length_append, List.length_singleton]
    exact hreb

end InnerLevel

end BPP

/-! ## The removal of a dead child -/

namespace BPP

section FixMerge
variable {α : Type} [LinearOrder α]

/-- What `free_node_` does to the memory: one cell is given back. -/
theorem free_node_spec (t : Tree α) (D : Nat) (x : Node α)
    (h : t.node? (Ptr.node D) = some x) :
    ∃ t', t.free_node_ (Ptr.node D) = some t' ∧ t'.node? (Ptr.node D) = none ∧
      (∀ c, c ≠ D → t'.node? (Ptr.node c) = t.node? (Ptr.node c)) ∧
      t'.mem.length = t.mem.length ∧ t'.parent = t.parent ∧ t'.size = t.size ∧
      t'.left = t.left ∧ t'.right = t.right := by
  refine ⟨{ t with mem := t.mem.set D none }, by simp [Tree.free_node_, h], ?_, ?_, by simp,
    rfl, rfl, rfl, rfl⟩
  · simp only [Tree.node?, List.getElem?_set]
    by_cases hl : D < t.mem.length <;> simp [hl]
  · intro c hc
    simp only [Tree.node?, List.getElem?_set]
    rw [if_neg (Ne.symm hc)]

theorem eraseIdx_take_cons_drop {β : Type} (l : List β) (d : Nat) (x : β) (hd : d ≤ l.length) :
    (l.take d ++ x :: l.drop d).eraseIdx d = l := by
  rw [List.eraseIdx_append_of_length_le (by simp [hd])]
  simp [hd]

theorem getElem?_take_cons_drop {β : Type} (l : List β) (d : Nat) (x : β) (hd : d ≤ l.length) :
    (l.take d ++ x :: l.drop d)[d]? = some x := by
  rw [List.getElem?_append_right (by simp [hd])]
  simp [hd]

theorem set_same {β : Type} (l : List β) (i : Nat) (x : β) (h : l[i]? = some x) :
    l.set i x = l := by
  refine List.ext_getElem? (fun j => ?_)
  rw [List.getElem?_set]
  split_ifs with h1 h2
  · subst h1; exact h.symm
  · subst h1
    rw [List.getElem?_eq_none (by omega)] at h
    simp at h
  · rfl

/-- What `fixmerge_` leaves behind: the dead child is given back, and the
node lists the children that remain and their separators. -/
theorem fixmerge_spec (cfg : Config) (t : Tree α) (h a : Nat) (n : InnerNode α) (w : Nat)
    (ps : List (Part α)) (F : List Nat) (hcapL : 2 ≤ cfg.maxLeaf)
    (hpend : Pend cfg t h a n w ps F true) (hlev : n.level = h + 1)
    (hhi : n.item.length ≤ cfg.maxInner) :
    ∃ t' n2 D, fixmerge_ cfg t (Ptr.node a) w = some t' ∧
      t'.node? (Ptr.node a) = some (Node.inner n2) ∧ n2.parent = n.parent ∧
      n2.level = n.level ∧ n2.size = n.size ∧ n2.children = ps.map Part.ptr ∧
      n2.item.map some = ps.dropLast.map Part.last ∧ n2.item.length + 1 = n.item.length ∧
      D ∈ F ∧ D ≠ a ∧ D ∉ fpOf ps ∧ t'.node? (Ptr.node D) = none ∧
      (∀ c, c ≠ a → c ≠ D → t'.node? (Ptr.node c) = t.node? (Ptr.node c)) ∧
      t'.mem.length = t.mem.length ∧ t'.parent = t.parent ∧ t'.size = t.size ∧
      t'.left = t.left ∧ t'.right = t.right := by
  unfold Pend at hpend
  obtain ⟨n1, hn1, hp1, hl1, hs1, hi1, hne, hch, hfix⟩ := hpend
  rw [if_pos rfl] at hfix
  obtain ⟨d, D, hd1, hdw, hdle, hc, hilen, hsep, hDa, hDf, ⟨x, hDx⟩, hDpar, hDF⟩ := hfix
  have hcsl : (ps.map Part.ptr).length = ps.length := by simp
  have hdead : n1.children[d]? = some (Ptr.node D) := by
    rw [hc]; exact getElem?_take_cons_drop _ _ _ (by omega)
  -- the slot the dead child is found at
  have hwh : ∃ c cp, n1.children[w]? = some c ∧ t.parent? c = some cp ∧
      (if cp ≠ Ptr.null then w + 1 else w) = d := by
    rcases hdw with e | e
    · refine ⟨Ptr.node D, Ptr.null, by rw [← e]; exact hdead, hDpar e, ?_⟩
      rw [if_neg (by simp), e]
    · have hw : w < ps.length := by omega
      refine ⟨ps[w].ptr, Ptr.node a, ?_, Sub.parent? (hch _ (List.getElem_mem hw)), ?_⟩
      · rw [hc, List.getElem?_append_left (by simp; omega), List.getElem?_take_of_lt (by omega),
          List.getElem?_map, List.getElem?_eq_getElem hw]
        rfl
      · rw [if_pos (by simp), e]
  obtain ⟨c, cp, hcw, hcp, hwd⟩ := hwh
  obtain ⟨t2, hfree, hD2, hfr2, hlen2, ha2, hb2, hc2, hd2⟩ := free_node_spec t D x hDx
  have hn2 : t2.node? (Ptr.node a) = some (Node.inner n1) := by
    rw [hfr2 a (Ne.symm hDa)]; exact hn1
  have e1 : slice? n1.item 0 n1.item.length = some n1.item := by
    rw [slice?_eq _ _ _ (Nat.zero_le _) (le_refl _), List.take_length, List.drop_zero]
  have e2 : eraseAt? n1.item (wsub d 1) = some (n1.item.eraseIdx (d - 1)) := by
    rw [wsub_of_le hd1]
    unfold eraseAt?
    rw [if_pos (by omega)]
  have hcl : n1.children.length = n1.item.length + 1 := by
    rw [hc]
    simp only [List.length_append, List.length_take, List.length_cons, List.length_drop,
      List.length_map]
    omega
  have e3 : slice? n1.children 0 (n1.item.length + 1) = some n1.children := by
    rw [slice?_eq _ _ _ (Nat.zero_le _) (by omega), ← hcl, List.take_length, List.drop_zero]
  have e4 : eraseAt? n1.children d = some (ps.map Part.ptr) := by
    unfold eraseAt?
    rw [if_pos (by omega), hc, eraseIdx_take_cons_drop _ _ _ (by omega)]
  obtain ⟨t3, hmod, hn3, hst3, hlen3⟩ := modInner_istep t2 a n1
    (fun m => { m with item := n1.item.eraseIdx (d - 1), children := ps.map Part.ptr }) hn2
  have hfr3 : ∀ c, c ≠ a → t3.node? (Ptr.node c) = t2.node? (Ptr.node c) :=
    fun c hc => hst3.1.node_eq hlen3 c (by simpa using hc)
  have hlen' : (n1.item.eraseIdx (d - 1)).length + 1 = n1.item.length := by
    rw [List.length_eraseIdx, if_pos (by omega)]
    omega
  by_cases hlvl : n1.level = 1
  · -- level 1: the separator of the child that remains is written again
    have hh : h = 0 := by omega
    subst hh
    have hdp : d - 1 < ps.length := by omega
    obtain ⟨bq, l, hq, hbq, -, hlo, -⟩ := Sub.ofLeaf (hch _ (List.getElem_mem hdp))
    have hbqa : bq ≠ a := by
      intro e; rw [e, hn1] at hbq; simp at hbq
    have hbqD : bq ≠ D := by
      intro e
      refine hDf (mem_fpOf (List.getElem_mem hdp) ?_)
      rw [hq, Part.ofLeaf_fp, e]; simp
    have hbq3 : t3.node? (Ptr.node bq) = some (Node.leaf l) := by
      rw [hfr3 bq hbqa, hfr2 bq hbqD]; exact hbq
    have hl1' : 1 ≤ l.item.length := by
      have : 1 ≤ cfg.maxLeaf / 2 := by omega
      simp only [Bool.false_eq_true, if_false] at hlo
      omega
    have hlne : l.item ≠ [] := by
      intro e; rw [e] at hl1'; simp at hl1'
    obtain ⟨k, hk⟩ : ∃ k, l.item.getLast? = some k := by
      cases hg : l.item.getLast? with
      | none => exact absurd (List.getLast?_eq_none_iff.1 hg) hlne
      | some k => exact ⟨k, rfl⟩
    have hk' : l.item[wsub l.item.length 1]? = some k := by
      rw [getLast?_eq_getElem?_wsub _ hlne]; exact hk
    have hchild : (ps.map Part.ptr)[wsub d 1]? = some (Ptr.node bq) := by
      rw [wsub_of_le hd1, List.getElem?_map, List.getElem?_eq_getElem hdp, hq]
      rfl
    have hstore : store? cfg.maxInner (n1.item.eraseIdx (d - 1)) (wsub d 1) k
        = some (n1.item.eraseIdx (d - 1)) := by
      rw [wsub_of_le hd1]
      unfold store?
      by_cases hlt : d - 1 < (n1.item.eraseIdx (d - 1)).length
      · rw [if_pos hlt]
        congr 1
        refine set_same _ _ _ ?_
        have h1 : ((n1.item.eraseIdx (d - 1)).map some)[d - 1]? = (some ps[d - 1].last) := by
          rw [hsep, List.getElem?_map, List.dropLast_eq_take,
            List.getElem?_take_of_lt (by omega), List.getElem?_eq_getElem hdp]
          rfl
        rw [List.getElem?_map] at h1
        cases hg : (n1.item.eraseIdx (d - 1))[d - 1]? with
        | none => rw [hg] at h1; simp at h1
        | some y =>
          rw [hg] at h1
          simp only [Option.map_some', Option.some.injEq] at h1
          rw [hq, Part.ofLeaf_last, hk] at h1
          rw [h1]
      · rw [if_neg hlt, if_pos (by omega)]
    obtain ⟨t4, hmod4, hn4, hst4, hlen4⟩ := modInner_istep t3 a _
      (fun m => { m with item := n1.item.eraseIdx (d - 1) }) hn3
    have hfr4 : ∀ c, c ≠ a → t4.node? (Ptr.node c) = t3.node? (Ptr.node c) :=
      fun c hc => hst4.1.node_eq hlen4 c (by simpa using hc)
    refine ⟨t4, _, D, ?_, hn4, hp1, hl1, hs1, rfl, hsep, by rw [← hi1]; exact hlen', hDF, hDa, hDf,
      ?_, fun c h1 h2 => ?_, by omega, ?_, ?_, ?_, ?_⟩
    · simp only [fixmerge_, inner?_of_node? hn1, hcw, hcp, hwd, hdead, hfree,
        inner?_of_node? hn2, e1, e2, e3, e4, hmod, hlvl, if_true, hchild,
        leaf?_of_node? hbq3, hk', store_key_, inner?_of_node? hn3, hstore, hmod4,
        Option.pure_def, Option.bind_eq_bind, Option.some_bind]
    · rw [hfr4 D hDa, hfr3 D hDa]; exact hD2
    · rw [hfr4 c h1, hfr3 c h1, hfr2 c h2]
    · rw [hst4.2.1.1, hst3.2.1.1, ha2]
    · rw [hst4.2.1.2.1, hst3.2.1.2.1, hb2]
    · rw [hst4.2.1.2.2.1, hst3.2.1.2.2.1, hc2]
    · rw [hst4.2.1.2.2.2, hst3.2.1.2.2.2, hd2]
  · refine ⟨t3, _, D, ?_, hn3, hp1, hl1, hs1, rfl, hsep, by rw [← hi1]; exact hlen', hDF, hDa, hDf,
      ?_, fun c h1 h2 => ?_, by omega, ?_, ?_, ?_, ?_⟩
    · simp only [fixmerge_, inner?_of_node? hn1, hcw, hcp, hwd, hdead, hfree,
        inner?_of_node? hn2, e1, e2, e3, e4, hmod, hlvl, if_false,
        Option.pure_def, Option.bind_eq_bind, Option.some_bind]
    · rw [hfr3 D hDa]; exact hD2
    · rw [hfr3 c h1, hfr2 c h2]
    · rw [hst3.2.1.1, ha2]
    · rw [hst3.2.1.2.1, hb2]
    · rw [hst3.2.1.2.2.1, hc2]
    · rw [hst3.2.1.2.2.2, hd2]

end FixMerge

end BPP

/-! ## The turn of an inner node after an erase below it -/

namespace BPP

section NodeStage
variable {α : Type} [LinearOrder α]

/-- A pending state only reads the node, its children and the dead child. -/
theorem Pend.congr {cfg : Config} {t t' : Tree α} {h a : Nat} {n : InnerNode α} {w : Nat}
    {ps : List (Part α)} {F : List Nat} {fix : Bool} (hP : Pend cfg t h a n w ps F fix)
    (hfr : ∀ c ∈ a :: F, t'.node? (Ptr.node c) = t.node? (Ptr.node c))
    (hsub : ∀ c ∈ fpOf ps, c ∈ F) : Pend cfg t' h a n w ps F fix := by
  unfold Pend at hP ⊢
  obtain ⟨n1, g1, g2, g3, g4, g5, g6, g7, g8⟩ := hP
  refine ⟨n1, by rw [hfr a (List.mem_cons_self _ _)]; exact g1, g2, g3, g4, g5, g6,
    fun q hq => ?_, ?_⟩
  · refine Sub.frame (g7 q hq) (fun c hc => SameCore.of_eq (hfr c ?_))
    exact List.mem_cons_of_mem _ (hsub c (mem_fpOf hq hc))
  · cases fix with
    | false => exact g8
    | true =>
      simp only [if_true] at g8 ⊢
      obtain ⟨d, D, k1, k2, k3, k4, k5, k6, k7, k8, ⟨x, k9⟩, k10, k11⟩ := g8
      have hD := hfr D (List.mem_cons_of_mem _ k11)
      refine ⟨d, D, k1, k2, k3, k4, k5, k6, k7, k8, ⟨x, by rw [hD]; exact k9⟩, fun e => ?_, k11⟩
      have := k10 e
      simp only [Tree.parent?] at this ⊢
      rw [hD]; exact this

/-- A pending state after the node counted the element out. -/
theorem Pend.resize {cfg : Config} {t : Tree α} {h a : Nat} {n : InnerNode α} {w : Nat}
    {ps : List (Part α)} {F : List Nat} {fix : Bool} (hP : Pend cfg t h a n w ps F fix)
    (haF : a ∉ F) (hsub : ∀ c ∈ fpOf ps, c ∈ F) :
    ∃ t', t.modInner (Ptr.node a) (fun m => { m with size := wsub m.size 1 }) = some t' ∧
      Pend cfg t' h a { n with size := wsub n.size 1 } w ps F fix ∧
      IStep t t' [a] ∧ t'.mem.length = t.mem.length := by
  unfold Pend at hP ⊢
  obtain ⟨n1, g1, g2, g3, g4, g5, g6, g7, g8⟩ := hP
  obtain ⟨t', hmod, hn', hst, hlen⟩ := modInner_istep t a n1
    (fun m => { m with size := wsub m.size 1 }) g1
  have hfr : ∀ c, c ≠ a → t'.node? (Ptr.node c) = t.node? (Ptr.node c) :=
    fun c hc => hst.1.node_eq hlen c (by simpa using hc)
  refine ⟨t', hmod, ⟨_, hn', g2, g3, by simp only [g4], g5, g6, fun q hq => ?_, ?_⟩, hst, hlen⟩
  · refine Sub.step (g7 q hq) hst.1 (fun c hc e => ?_)
    simp only [List.mem_singleton] at e
    subst e
    exact haF (hsub c (mem_fpOf hq hc))
  · cases fix with
    | false => exact g8
    | true =>
      simp only [if_true] at g8 ⊢
      obtain ⟨d, D, k1, k2, k3, k4, k5, k6, k7, k8, ⟨x, k9⟩, k10, k11⟩ := g8
      have hDa : D ≠ a := fun e => haF (e ▸ k11)
      have hD := hfr D hDa
      refine ⟨d, D, k1, k2, k3, k4, k5, k6, k7, k8, ⟨x, by rw [hD]; exact k9⟩, fun e => ?_, k11⟩
      have := k10 e
      simp only [Tree.parent?] at this ⊢
      rw [hD]; exact this

theorem leaf?_congr {t t' : Tree α} {c : Nat}
    (h : t'.node? (Ptr.node c) = t.node? (Ptr.node c)) :
    t'.leaf? (Ptr.node c) = t.leaf? (Ptr.node c) := by
  simp only [Tree.leaf?, h]

/-- The part of an inner node's turn that concerns the node itself: after it
counted the element out, it drops a child that was merged away. -/
theorem node_local (cfg : Config) (u2 : Tree α) (h a : Nat) (n : InnerNode α) (w : Nat)
    (ps : List (Part α)) (F : List Nat) (fix : Bool) (hcapL : 2 ≤ cfg.maxLeaf)
    (hpend : Pend cfg u2 h a n w ps F fix) (hlev : n.level = h + 1)
    (hhi : n.item.length ≤ cfg.maxInner) (hsz : n.size = (items (leavesOf ps)).length)
    (haF : a ∉ F) (hsub : ∀ c ∈ fpOf ps, c ∈ F) :
    ∃ s n2, (if fix then fixmerge_ cfg u2 (Ptr.node a) w else some u2) = some s ∧
      InnerAt cfg s h a n2 ps n.parent ∧
      n2.item.length + (if fix then 1 else 0) = n.item.length ∧
      s.mem.length = u2.mem.length ∧ s.parent = u2.parent ∧ s.size = u2.size ∧
      s.left = u2.left ∧ s.right = u2.right ∧
      (∀ c, c ≠ a → (c ∈ F → c ∈ fpOf ps) → s.node? (Ptr.node c) = u2.node? (Ptr.node c)) := by
  cases fix with
  | true =>
    obtain ⟨s, n2, D, hf, hn2, e1, e2, e3, e4, e5, e6, hDF, hDa, hDf, hD, hfr, hlen, a1, a2,
      a3, a4⟩ := fixmerge_spec cfg u2 h a n w ps F hcapL hpend hlev hhi
    unfold Pend at hpend
    obtain ⟨n1, g1, g2, g3, g4, g5, g6, g7, g8⟩ := hpend
    refine ⟨s, n2, by rw [if_pos rfl]; exact hf,
      ⟨hn2, e1, by rw [e2, hlev], by rw [e3, hsz], e4, e5, g6, fun q hq => ?_⟩,
      by simpa using e6, hlen, a1, a2, a3, a4, fun c hc hcF => ?_⟩
    · refine Sub.frame (g7 q hq) (fun c hc => SameCore.of_eq (hfr c ?_ ?_))
      · intro e; subst e; exact haF (hsub c (mem_fpOf hq hc))
      · intro e; subst e; exact hDf (mem_fpOf hq hc)
    · refine hfr c hc (fun e => ?_)
      subst e
      exact hDf (hcF hDF)
  | false =>
    unfold Pend at hpend
    obtain ⟨n1, g1, g2, g3, g4, g5, g6, g7, g8⟩ := hpend
    rw [if_neg (by simp)] at g8
    refine ⟨u2, n1, by simp, ⟨g1, g2, by rw [g3, hlev], by rw [g4, hsz], g8.1, g8.2, g6, g7⟩,
      by simpa using g5, rfl, rfl, rfl, rfl, rfl, fun _ _ _ => rfl⟩

/-- A new last key from below goes into the separator of the child, when
the child has one. -/
theorem inner_last_key_in (cfg : Config) (u : Tree α) (b : Nat) (nb : InnerNode α) (pw : Nat)
    (k : α) (hb : u.node? (Ptr.node b) = some (Node.inner nb)) (hpw : pw < nb.item.length) :
    ∃ u', inner_last_key_ cfg u (Ptr.node b) pw k = some (u', Result.ok) ∧
      u'.node? (Ptr.node b) = some (Node.inner { nb with item := nb.item.set pw k }) ∧
      IStep u u' [b] ∧ u'.mem.length = u.mem.length := by
  obtain ⟨u', h1, h2, h3, h4⟩ := store_key_spec cfg u b nb pw k hb hpw
  refine ⟨u', ?_, h2, h3, h4⟩
  simp only [inner_last_key_, inner?_of_node? hb, hpw, h1, ne_eq, reduceCtorEq, not_false_eq_true,
    if_true, decide_True, Option.pure_def, Option.bind_eq_bind, Option.some_bind]

/-- A new last key from below is handed up by the last child. -/
theorem inner_last_key_up (cfg : Config) (u : Tree α) (b : Nat) (nb : InnerNode α) (pw : Nat)
    (k : α) (hb : u.node? (Ptr.node b) = some (Node.inner nb)) (hpw : ¬ pw < nb.item.length) :
    inner_last_key_ cfg u (Ptr.node b) pw k = some (u, Result.lastKey k) := by
  simp [inner_last_key_, inner?_of_node? hb, hpw]

/-- A new last key from below is handed up by the real root. -/
theorem inner_last_key_top (cfg : Config) (u : Tree α) (pw : Nat) (k : α) :
    inner_last_key_ cfg u Ptr.null pw k = some (u, Result.lastKey k) := by
  simp [inner_last_key_]

theorem nodup_replace_sub {β : Type} (X M M' Y : List β) (h : (X ++ (M ++ Y)).Nodup)
    (hM : M'.Nodup) (hsub : ∀ c ∈ M', c ∈ M) : (X ++ (M' ++ Y)).Nodup := by
  obtain ⟨h1, h2, h3⟩ := List.nodup_append.1 h
  obtain ⟨h4, h5, h6⟩ := List.nodup_append.1 h2
  refine List.nodup_append.2 ⟨h1, List.nodup_append.2 ⟨hM, h5, fun c hc hc' => h6 (hsub c hc) hc'⟩,
    fun c hc hc' => ?_⟩
  rcases List.mem_append.1 hc' with e | e
  · exact h3 hc (List.mem_append_left _ (hsub c e))
  · exact h3 hc (List.mem_append_right _ e)

theorem ChainOk.is_leaf {t : Tree α} :
    ∀ (ls : Leaves α) (prev : Ptr), ChainOk t prev ls → ∀ e ∈ ls, ∃ l, t.leaf? e.1 = some l := by
  intro ls
  induction ls with
  | nil => intro _ _ e he; simp at he
  | cons x xs ih =>
    intro prev hc e he
    obtain ⟨p, lx⟩ := x
    obtain ⟨l, hl1, -, -, hrest⟩ := hc
    rcases List.mem_cons.1 he with rfl | h
    · exact ⟨l, hl1⟩
    · exact ih p hrest e h

theorem dropLast_mid_last (pre post : List (Part α)) (q q' : Part α) (h : q'.last = q.last) :
    (pre ++ q' :: post).dropLast.map Part.last = (pre ++ q :: post).dropLast.map Part.last := by
  cases post with
  | nil => simp [List.dropLast_concat]
  | cons y ys =>
    rw [List.dropLast_append_of_ne_nil _ (by simp), List.dropLast_append_of_ne_nil _ (by simp)]
    simp [List.dropLast, h]

/-- The turn of the inner node `a` below the node `b`, up to the repair of an
underflow: the node counts the element out, hands a new last key to `b` and
drops a child that was merged away. -/
theorem inner_node_stage (cfg : Config) (t t1 : Tree α) (h a b : Nat) (n nb : InnerNode α)
    (w : Nat) (ps : List (Part α)) (xs : List α) (X : Ptr) (pre post : List (Part α))
    (L R : Leaves α) (prev0 : Ptr) (res : Result α) (hcapL : 2 ≤ cfg.maxLeaf)
    (hlv : InnerLvl cfg t h b nb pre post a n ps L R prev0)
    (hnhi : n.item.length ≤ cfg.maxInner)
    (hout : ∀ p ∈ (L ++ R).map Prod.fst,
      ∀ c ∈ fpOf (pre ++ Part.ofInner a ps :: post), p ≠ Ptr.node c)
    (hreb : RebOut cfg t t1 h a n w ps xs X (L ++ leavesOf pre) (leavesOf post ++ R) prev0
      res.fixmerge)
    (hxs : xs.length + 1 = (items (leavesOf ps)).length)
    (hk1 : ∀ k, res.last_key = some k → xs.getLast? = some k)
    (hk2 : res.last_key = none → xs.getLast? = (items (leavesOf ps)).getLast?) :
    ∃ u1 u2 s r1 nb' n' ps',
      t1.modInner (Ptr.node a) (fun m => { m with size := wsub m.size 1 }) = some u1 ∧
      get_parent_ u1 (Ptr.node a) = some (Ptr.node b, pre.length) ∧
      (match res.last_key with
        | some k => inner_last_key_ cfg u1 (Ptr.node b) pre.length k
        | none => some (u1, Result.ok)) = some (u2, r1) ∧
      (if res.fixmerge then fixmerge_ cfg u2 (Ptr.node a) w else some u2) = some s ∧
      InnerLvl cfg s h b nb' pre post a n' ps' L R prev0 ∧ items (leavesOf ps') = xs ∧
      nb'.parent = nb.parent ∧ nb'.level = nb.level ∧ nb'.size = nb.size ∧
      nb'.item.length = nb.item.length ∧
      n'.item.length + (if res.fixmerge then 1 else 0) = n.item.length ∧
      s.mem.length = t.mem.length ∧ s.parent = t.parent ∧ s.size = t.size ∧ s.left = t.left ∧
      (∀ c, c ∉ b :: fpOf (pre ++ Part.ofInner a ps :: post) → SameCore t s c) ∧
      (∀ c ∈ fpOf ps', c ∈ fpOf ps) ∧
      ((L ++ leavesOf (pre ++ Part.ofInner a ps' :: post) ++ R).head?).map Prod.fst
        = ((L ++ leavesOf (pre ++ Part.ofInner a ps :: post) ++ R).head?).map Prod.fst ∧
      r1.fixmerge = false ∧ r1.not_found = false ∧
      (∀ k, r1.last_key = some k →
        (items (leavesOf (pre ++ Part.ofInner a ps' :: post))).getLast? = some k) ∧
      (r1.last_key = none →
        (items (leavesOf (pre ++ Part.ofInner a ps' :: post))).getLast?
          = (items (leavesOf (pre ++ Part.ofInner a ps :: post))).getLast?) := by
  unfold RebOut at hreb
  obtain ⟨rlen, rpar, rsz, rleft, rfr, ps', ritems, rfp, rnd, rchain, rptrs, rhead, rends, rX,
    rpend⟩ := hreb
  -- the footprints
  have hnd := hlv.fp_nodup
  simp only [fpOf_append, fpOf_cons, Part.ofInner_fp, List.cons_append] at hnd
  obtain ⟨hbn, hnd0⟩ := List.nodup_cons.1 hnd
  obtain ⟨hndpre, hnd1, hdis1⟩ := List.nodup_append.1 hnd0
  obtain ⟨haN, hnd2⟩ := List.nodup_cons.1 hnd1
  obtain ⟨hndps, hndpost, hdis2⟩ := List.nodup_append.1 hnd2
  simp only [List.mem_append, List.mem_cons, not_or] at hbn haN
  have hba : b ≠ a := hbn.2.1
  have haF : a ∉ fpOf ps := haN.1
  have hbF : b ∉ fpOf ps := hbn.2.2.1
  obtain ⟨hkids, hslots⟩ := hlv.slots
  -- the node counts the element out
  obtain ⟨u1, hmod, hP1, hst1, hlen1⟩ := rpend.resize haF rfp
  have hfr1 : ∀ c, c ≠ a → u1.node? (Ptr.node c) = t1.node? (Ptr.node c) :=
    fun c hc => hst1.1.node_eq hlen1 c (by simpa using hc)
  have hb1 : t1.node? (Ptr.node b) = some (Node.inner nb) :=
    (rfr b (by simp [hba, hbF])).inner hlv.cell
  have hbu1 : u1.node? (Ptr.node b) = some (Node.inner nb) := by rw [hfr1 b hba]; exact hb1
  have hpa : u1.parent? (Ptr.node a) = some (Ptr.node b) := by
    unfold Pend at hP1
    obtain ⟨n1, g1, g2, -⟩ := hP1
    rw [parent?_inner g1, g2]
    exact congrArg some hlv.nodeX.par_eq
  have hgp : get_parent_ u1 (Ptr.node a) = some (Ptr.node b, pre.length) := by
    refine get_parent_child u1 b nb pre post (Part.ofInner a ps) hbu1 hlv.kids
      (by simp only [List.length_append, List.length_cons]; omega) hpa ?_
    intro hmem
    obtain ⟨q', hq', hq'p⟩ := List.mem_map.1 hmem
    obtain ⟨c', tl, hp', hfp'⟩ := Sub.ptr (hlv.sibs q' (List.mem_append_left _ hq'))
    rw [hq'p, Part.ofInner_ptr] at hp'
    simp only [Ptr.node.injEq] at hp'
    subst hp'
    have h1 : a ∈ fpOf pre := mem_fpOf hq' (by rw [hfp']; simp)
    exact hdis1 h1 (List.mem_cons_self _ _)
  -- the last key
  have hlk : ∃ u2 r1 nb', (match res.last_key with
        | some k => inner_last_key_ cfg u1 (Ptr.node b) pre.length k
        | none => some (u1, Result.ok)) = some (u2, r1) ∧
      u2.node? (Ptr.node b) = some (Node.inner nb') ∧
      (∀ c, c ≠ b → u2.node? (Ptr.node c) = u1.node? (Ptr.node c)) ∧
      u2.mem.length = u1.mem.length ∧ Anchor u1 u2 ∧
      nb'.parent = nb.parent ∧ nb'.level = nb.level ∧ nb'.size = nb.size ∧
      nb'.item.length = nb.item.length ∧ nb'.children = nb.children ∧
      r1.fixmerge = false ∧ r1.not_found = false ∧
      (∀ k, r1.last_key = some k → post = [] ∧ res.last_key = some k) ∧
      (r1.last_key = none → res.last_key = none ∨ post ≠ []) ∧
      (∀ q' : Part α, q'.last = xs.getLast? →
        nb'.item.map some = (pre ++ q' :: post).dropLast.map Part.last) := by
    cases hrk : res.last_key with
    | none =>
      refine ⟨u1, Result.ok, nb, rfl, hbu1, fun _ _ => rfl, rfl, Anchor.anchor_refl _, rfl, rfl,
        rfl, rfl, rfl, rfl, rfl, fun k hk => by simp [Result.ok] at hk, fun _ => Or.inl rfl,
        fun q' hq' => ?_⟩
      rw [dropLast_mid_last pre post (Part.ofInner a ps) q'
        (by rw [hq', hk2 hrk, Part.ofInner_last])]
      exact hlv.keys
    | some k =>
      by_cases hpw : pre.length < nb.item.length
      · have hpost : post ≠ [] := by
          intro e; rw [e] at hslots; simp at hslots; omega
        obtain ⟨u2, h1, h2, h3, h4⟩ := inner_last_key_in cfg u1 b nb pre.length k hbu1 hpw
        refine ⟨u2, Result.ok, _, h1, h2,
          fun c hc => h3.1.node_eq h4 c (by simpa using hc), h4, h3.2.1, rfl, rfl, rfl,
          by simp, rfl, rfl, rfl, fun k hk => by simp [Result.ok] at hk,
          fun _ => Or.inr hpost, fun q' hq' => ?_⟩
        exact sep_store pre post (Part.ofInner a ps) q' nb.item k hlv.keys
          (by rw [hq', hk1 k hrk]) hpost
      · have hpost : post = [] := by
          cases post with
          | nil => rfl
          | cons y ys => simp at hslots; omega
        refine ⟨u1, Result.lastKey k, nb, inner_last_key_up cfg u1 b nb pre.length k hbu1 hpw,
          hbu1, fun _ _ => rfl, rfl, Anchor.anchor_refl _, rfl, rfl, rfl, rfl, rfl, rfl, rfl,
          fun k' hk' => ⟨hpost, by simpa [Result.lastKey] using hk'⟩,
          fun hk' => by simp [Result.lastKey] at hk', fun q' hq' => ?_⟩
        have := hlv.keys
        rw [hpost] at this ⊢
        simpa [List.dropLast_concat] using this
  obtain ⟨u2, r1, nb', hlk1, hbu2, hfr2, hlen2, han2, e1, e2, e3, e4, e5, hr1, hr2, hr3, hr4,
    hkeys⟩ := hlk
  -- the dead child
  have hP2 : Pend cfg u2 h a { n with size := wsub n.size 1 } w ps' (fpOf ps) res.fixmerge := by
    refine hP1.congr (fun c hc => hfr2 c ?_) rfp
    rcases List.mem_cons.1 hc with e | e
    · rw [e]; exact Ne.symm hba
    · intro e'; subst e'; exact hbF e
  obtain ⟨s, n2, hfix, hAt, hn2len, slen, sa1, sa2, sa3, sa4, hfrs⟩ :=
    node_local cfg u2 h a { n with size := wsub n.size 1 } w ps' (fpOf ps) res.fixmerge hcapL
      hP2 hlv.nodeX.level_eq hnhi
      (by show wsub n.size 1 = _
          rw [hlv.nodeX.size_eq, ritems, wsub_of_le (by omega)]; omega) haF rfp
  have hfrAll : ∀ c, c ≠ a → c ≠ b → (c ∈ fpOf ps → c ∈ fpOf ps') →
      s.node? (Ptr.node c) = t1.node? (Ptr.node c) := by
    intro c h1 h2 h3
    rw [hfrs c h1 h3, hfr2 c h2, hfr1 c h1]
  have hcore : ∀ c, c ≠ a → c ≠ b → c ∉ fpOf ps → SameCore t s c := by
    intro c h1 h2 h3
    refine (rfr c (by simp [h1, h3])).trans (SameCore.of_eq (hfrAll c h1 h2 (fun e => absurd e h3)))
  have elist : ∀ zs : List (Part α), L ++ leavesOf (pre ++ Part.ofInner a zs :: post) ++ R
      = L ++ leavesOf pre ++ leavesOf zs ++ (leavesOf post ++ R) := by
    intro zs
    simp [leavesOf_append, leavesOf_cons, List.append_assoc]
  have hsibs : ∀ q ∈ pre ++ post, Sub cfg s (h + 1) false q.ptr (Ptr.node b) q.leaves q.fp := by
    intro q hq
    refine Sub.frame (hlv.sibs q hq) (fun c hc => ?_)
    rcases List.mem_append.1 hq with h1 | h1
    · have hcp := mem_fpOf h1 hc
      refine hcore c ?_ ?_ ?_
      · intro e; subst e; exact hdis1 hcp (List.mem_cons_self _ _)
      · intro e; subst e; exact hbn.1 hcp
      · intro e; exact hdis1 hcp (List.mem_cons_of_mem _ (List.mem_append_left _ e))
    · have hcp := mem_fpOf h1 hc
      refine hcore c ?_ ?_ ?_
      · intro e; subst e; exact haN.2 hcp
      · intro e; subst e; exact hbn.2.2.2 hcp
      · intro e; exact hdis2 e hcp
  have hat1 : ∃ n1, t1.node? (Ptr.node a) = some (Node.inner n1) := by
    unfold Pend at rpend
    obtain ⟨n1, g1, -⟩ := rpend
    exact ⟨n1, g1⟩
  have hleafs : ∀ e ∈ L ++ leavesOf pre ++ leavesOf ps' ++ (leavesOf post ++ R),
      s.leaf? e.1 = t1.leaf? e.1 := by
    intro e he
    obtain ⟨l, hl⟩ := ChainOk.is_leaf _ _ rchain e he
    obtain ⟨p, ex⟩ := e
    cases p with
    | null => simp [Tree.leaf?, Tree.node?] at hl
    | root => simp [Tree.leaf?, Tree.node?] at hl
    | node c =>
      simp only at hl ⊢
      refine leaf?_congr (hfrAll c ?_ ?_ ?_)
      · intro e; subst e
        obtain ⟨n1, g1⟩ := hat1
        simp [Tree.leaf?, g1] at hl
      · intro e; subst e
        simp [Tree.leaf?, hb1] at hl
      · intro hcF
        have hcw : c ∈ fpOf (pre ++ Part.ofInner a ps :: post) := by
          simp [fpOf_append, fpOf_cons, hcF]
        simp only [List.mem_append] at he
        rcases he with ((he | he) | he) | he | he
        · exact absurd rfl (hout (Ptr.node c) (List.mem_map.2 ⟨(Ptr.node c, ex), by simp [he], rfl⟩) c hcw)
        · obtain ⟨a', h1, h2⟩ := leavesOf_mem pre
            (fun q hq => hlv.sibs q (List.mem_append_left _ hq)) _ he
          simp only [Ptr.node.injEq] at h1
          subst h1
          exact absurd (List.mem_cons_of_mem _ (List.mem_append_left _ hcF)) (hdis1 h2)
        · obtain ⟨a', h1, h2⟩ := leavesOf_mem ps' hAt.subs _ he
          simp only [Ptr.node.injEq] at h1
          subst h1
          exact h2
        · obtain ⟨a', h1, h2⟩ := leavesOf_mem post
            (fun q hq => hlv.sibs q (List.mem_append_right _ hq)) _ he
          simp only [Ptr.node.injEq] at h1
          subst h1
          exact absurd h2 (hdis2 hcF)
        · exact absurd rfl (hout (Ptr.node c) (List.mem_map.2 ⟨(Ptr.node c, ex), by simp [he], rfl⟩) c hcw)
  have hright : s.right = t1.right := by rw [sa4, han2.2.2.2, hst1.2.1.2.2.2]
  refine ⟨u1, u2, s, r1, nb', n2, ps', hmod, hgp, hlk1, hfix, ?_, ritems, e1, e2, e3, e4,
    hn2len, ?_, ?_, ?_, ?_, fun c hc => ?_, rfp, ?_, hr1, hr2, fun k hk => ?_, fun hk => ?_⟩
  · refine ⟨?_, ?_, hkeys _ (by rw [Part.ofInner_last, ritems]), ?_, hsibs, ?_, ?_, ?_, ?_⟩
    · rw [hfrs b hba (fun e => absurd e hbF)]; exact hbu2
    · rw [e5, hlv.kids]; simp
    · have := hlv.nodeX.par_eq
      simp only [] at hAt
      rw [this] at hAt
      exact hAt
    · simp only [fpOf_append, fpOf_cons, Part.ofInner_fp, List.cons_append]
      refine List.nodup_cons.2 ⟨?_, ?_⟩
      · simp only [List.mem_append, List.mem_cons, not_or]
        exact ⟨hbn.1, hbn.2.1, fun e => hbn.2.2.1 (rfp b e), hbn.2.2.2⟩
      · have h0 : (fpOf pre ++ ((a :: fpOf ps) ++ fpOf post)).Nodup := by simpa using hnd0
        have := nodup_replace_sub (fpOf pre) (a :: fpOf ps) (a :: fpOf ps') (fpOf post) h0
          (List.nodup_cons.2 ⟨fun e => haF (rfp a e), rnd⟩) (fun c hc => by
            rcases List.mem_cons.1 hc with e | e
            · rw [e]; exact List.mem_cons_self _ _
            · exact List.mem_cons_of_mem _ (rfp c e))
        simpa using this
    · rw [elist]
      exact ChainOk.congr_leaves _ _ hleafs rchain
    · rw [elist]; exact rptrs
    · rw [elist, rends, hright]
  · rw [slen, hlen2, hlen1, rlen]
  · rw [sa1, han2.1, hst1.2.1.1, rpar]
  · rw [sa2, han2.2.1, hst1.2.1.2.1, rsz]
  · rw [sa3, han2.2.2.1, hst1.2.1.2.2.1, rleft]
  · simp only [fpOf_append, fpOf_cons, Part.ofInner_fp, List.mem_cons, List.mem_append,
      not_or] at hc
    exact hcore c hc.2.2.1.1 hc.1 hc.2.2.1.2
  · rw [elist, elist]; exact rhead
  · obtain ⟨hpost, hrk⟩ := hr3 k hk
    have hx := hk1 k hrk
    have hxne : xs ≠ [] := by
      intro e; rw [e] at hx; simp at hx
    rw [hpost]
    simp only [leavesOf_append, leavesOf_cons, leavesOf_nil, items_append, Part.ofInner_leaves,
      List.append_nil, ritems]
    rw [List.getLast?_append_of_ne_nil _ hxne]
    exact hx
  · simp only [leavesOf_append, leavesOf_cons, items_append, Part.ofInner_leaves, ritems]
    rcases hr4 hk with hrk | hpost
    · rw [← List.append_assoc, ← List.append_assoc]
      exact getLast?_mid_congr _ _ _ _ (hk2 hrk)
    · have hne : items (leavesOf post) ≠ [] :=
        items_leavesOf_ne_nil hcapL post hpost
          (fun q hq => hlv.sibs q (List.mem_append_right _ hq))
      rw [← List.append_assoc, ← List.append_assoc, List.getLast?_append_of_ne_nil _ hne,
        List.getLast?_append_of_ne_nil _ hne]

end NodeStage

end BPP

/-! ## One level of the positional erase -/

namespace BPP

section LevelStep
variable {α : Type} [LinearOrder α]

theorem size_down_mono : ∀ (f : Nat) (t : Tree α) (p : Ptr) (T : Tree α),
    size_down_ f t p = some T → ∀ f', f ≤ f' → size_down_ f' t p = some T := by
  intro f
  induction f with
  | zero => intro t p T h; simp [size_down_] at h
  | succ f ih =>
    intro t p T h f' hf
    obtain ⟨f', rfl⟩ : ∃ g, f' = g + 1 := ⟨f' - 1, by omega⟩
    rw [size_down_] at h ⊢
    cases h1 : t.parent? p with
    | none => simp [h1] at h
    | some pp =>
      cases h2 : t.size? pp with
      | none => simp [h1, h2] at h
      | some s =>
        cases h3 : t.setSize pp (wsub s 1) with
        | none => simp [h1, h2, h3] at h
        | some t1 =>
          simp only [h1, h2, h3, Option.pure_def, Option.bind_eq_bind, Option.some_bind] at h ⊢
          by_cases hp : pp ≠ Ptr.root
          · rw [if_pos hp] at h ⊢
            exact ih t1 pp T h f' (by omega)
          · rw [if_neg hp] at h ⊢
            exact h

theorem erase_up_mono (cfg : Config) (f1 g1 f2 : Nat) (t : Tree α) (p : Ptr) (w : Nat) (x : Ptr)
    (r : Result α) (T : Tree α) (h : erase_up_ cfg f1 f2 t p w x r = some T) (hf : f1 ≤ g1) :
    erase_up_ cfg g1 f2 t p w x r = some T := by
  unfold erase_up_ at h ⊢
  split_ifs at h ⊢ with h1 h2
  · exact h
  · exact h
  · exact size_down_mono f1 t x T h g1 hf

/-- The second part of `erase_pos_descend_` below the node `b`: nothing to
repair, or one rule applied to the node and a sibling. -/
theorem inner_fix_stage (cfg : Config) (s : Tree α) (h b : Nat) (nb : InnerNode α)
    (pre post : List (Part α)) (X0 : Nat) (lx : InnerNode α) (psX : List (Part α))
    (L R : Leaves α) (prev0 : Ptr) (D : Nat) (r0 : Result α) (hcapL : 2 ≤ cfg.maxLeaf)
    (hcapI : 2 ≤ cfg.maxInner) (hlv : InnerLvl cfg s h b nb pre post X0 lx psX L R prev0)
    (hlo : cfg.maxInner / 2 ≤ lx.item.length + 1) (hhi : lx.item.length ≤ cfg.maxInner)
    (hsib : pre ≠ [] ∨ post ≠ []) (hroot : s.parent ≠ Ptr.node X0)
    (hL : LeftNb cfg s (h + 2) (Ptr.node b) D) (hR : RightNb cfg s (h + 2) (Ptr.node b) D)
    (hD : D ≤ s.mem.length + 1) (hr0 : r0.fixmerge = false) :
    ∃ t1 res,
      erase_desc_fix_ cfg s (Ptr.node X0) (Ptr.node b) pre.length r0
        = some (Sum.inr (t1, res)) ∧
      res.last_key = r0.last_key ∧ res.not_found = r0.not_found ∧
      RebOut cfg s t1 (h + 1) b nb pre.length (pre ++ Part.ofInner X0 psX :: post)
        (items (leavesOf (pre ++ Part.ofInner X0 psX :: post))) (Ptr.node X0) L R prev0
        res.fixmerge := by
  have hX := hlv.nodeX.cell
  by_cases hu : lx.item.length < cfg.maxInner / 2
  swap
  · refine ⟨s, r0, ?_, rfl, rfl, ?_⟩
    · unfold erase_desc_fix_
      simp only [inner?_of_node? hX, if_neg (fun h : lx.item.length < cfg.maxInner / 2 ∧
        ¬ (Ptr.node X0 = s.parent ∧ lx.item.length ≥ 1) => hu h.1)]
    · rw [hr0]; exact hlv.lvl_rebOut (by omega) hhi
  have hif : lx.item.length < cfg.maxInner / 2 ∧
      ¬ (Ptr.node X0 = s.parent ∧ lx.item.length ≥ 1) := ⟨hu, fun h => hroot h.1.symm⟩
  obtain ⟨hc', hlen⟩ := hlv.slots
  obtain ⟨left, lp, hl1, hl2, hl3⟩ := lrp_left_spec cfg s (h + 1) b nb pre post (Ptr.node X0) D
    hcapI hc' hL hD
  obtain ⟨right, rp, hr1, hr2, hr3⟩ := lrp_right_spec cfg s (h + 1) b nb pre post (Ptr.node X0)
    D hc' hlen hR hD
  have hlrp := get_left_right_parent_eq s b nb pre.length (left, lp) (right, rp)
    (inner?_of_node? hlv.cell) hl1 hr1
  simp only [] at hlrp
  obtain ⟨hnn, t1, res, hreb, e1, e2, hout⟩ := inner_fix_core cfg s h b nb pre post X0 lx psX L R
    prev0 r0 left lp right rp hcapL hlv hlo hu hsib hl2 hl3 hr2 hr3 hr0
  refine ⟨t1, res, ?_, e1, e2, hout⟩
  unfold erase_desc_fix_
  simp only [inner?_of_node? hX, if_pos hif, hlrp, if_neg hnn, hreb, Option.pure_def,
    Option.bind_eq_bind, Option.some_bind]

theorem items_leavesOf_inner (pre post : List (Part α)) (a : Nat) (ps : List (Part α)) :
    items (leavesOf (pre ++ Part.ofInner a ps :: post))
      = items (leavesOf pre) ++ items (leavesOf ps) ++ items (leavesOf post) := by
  simp [leavesOf_append, leavesOf_cons, items_append]

/-- One level of the climb of `erase_pos_`: what happens above the node `a`,
a child of the node `b`, is the turn of `a` and then what happens above `b`. -/
theorem erase_level_step (cfg : Config) (t t1 : Tree α) (h a b : Nat) (n nb : InnerNode α)
    (w : Nat) (ps : List (Part α)) (xs : List α) (X : Ptr) (pre post : List (Part α))
    (L R : Leaves α) (prev0 : Ptr) (res : Result α) (D : Nat) (hcapL : 2 ≤ cfg.maxLeaf)
    (hcapI : 2 ≤ cfg.maxInner)
    (hlv : InnerLvl cfg t h b nb pre post a n ps L R prev0)
    (hnlo : cfg.maxInner / 2 ≤ n.item.length) (hnhi : n.item.length ≤ cfg.maxInner)
    (hbitem : 1 ≤ nb.item.length) (hroot : t.parent ≠ Ptr.node a)
    (hout : ∀ p ∈ (L ++ R).map Prod.fst,
      ∀ c ∈ fpOf (pre ++ Part.ofInner a ps :: post), p ≠ Ptr.node c)
    (hok : NbOk cfg t (h + 2) b (b :: fpOf (pre ++ Part.ofInner a ps :: post)) D)
    (hD : D ≤ t.mem.length + 1)
    (hreb : RebOut cfg t t1 h a n w ps xs X (L ++ leavesOf pre) (leavesOf post ++ R) prev0
      res.fixmerge)
    (hxs : xs.length + 1 = (items (leavesOf ps)).length)
    (hk1 : ∀ k, res.last_key = some k → xs.getLast? = some k)
    (hk2 : res.last_key = none → xs.getLast? = (items (leavesOf ps)).getLast?) :
    ∃ t2 res2,
      RebOut cfg t t2 (h + 1) b nb pre.length (pre ++ Part.ofInner a ps :: post)
        (items (leavesOf pre) ++ xs ++ items (leavesOf post)) (Ptr.node a) L R prev0
        res2.fixmerge ∧
      res2.not_found = false ∧
      (∀ k, res2.last_key = some k →
        (items (leavesOf pre) ++ xs ++ items (leavesOf post)).getLast? = some k) ∧
      (res2.last_key = none →
        (items (leavesOf pre) ++ xs ++ items (leavesOf post)).getLast?
          = (items (leavesOf (pre ++ Part.ofInner a ps :: post))).getLast?) ∧
      ∀ f1 f2 T, f1 ≤ t.mem.length + 1 →
        erase_up_ cfg f1 f2 t2 (Ptr.node b) pre.length (Ptr.node a) res2 = some T →
        erase_up_ cfg (f1 + 1) (f2 + 1) t1 (Ptr.node a) w X res = some T := by
  obtain ⟨u1, u2, s, r1, nb', n', ps', hmod, hgp, hlk1, hfix, hlvs, hitems, e1, e2, e3, e4,
    hn'len, slen, spar, ssz, sleft, sfr, sfp, shead, hr1f, hr1n, hk1', hk2'⟩ :=
    inner_node_stage cfg t t1 h a b n nb w ps xs X pre post L R prev0 res hcapL hlv hnhi hout
      hreb hxs hk1 hk2
  have hxsb : items (leavesOf (pre ++ Part.ofInner a ps' :: post))
      = items (leavesOf pre) ++ xs ++ items (leavesOf post) := by
    rw [items_leavesOf_inner, hitems]
  rw [hxsb] at hk1' hk2'
  have hpb : s.parent? (Ptr.node b) = t.parent? (Ptr.node b) := by
    rw [parent?_inner hlvs.cell, parent?_inner hlv.cell, e1]
  obtain ⟨hL, hR⟩ := hok s slen sfr hpb
  obtain ⟨-, hslots⟩ := hlv.slots
  have hsib : pre ≠ [] ∨ post ≠ [] := by
    by_contra hcon
    simp only [not_or, not_not] at hcon
    rw [hcon.1, hcon.2] at hslots
    simp at hslots
    omega
  have hfpsub : ∀ c ∈ fpOf (pre ++ Part.ofInner a ps' :: post),
      c ∈ fpOf (pre ++ Part.ofInner a ps :: post) := by
    intro c hc
    simp only [fpOf_append, fpOf_cons, Part.ofInner_fp, List.mem_append, List.mem_cons] at hc ⊢
    rcases hc with hc | (hc | hc) | hc
    · exact Or.inl hc
    · exact Or.inr (Or.inl (Or.inl hc))
    · exact Or.inr (Or.inl (Or.inr (sfp c hc)))
    · exact Or.inr (Or.inr hc)
  have hnode : erase_desc_node_ cfg t1 (Ptr.node a) w res
      = some (s, Ptr.node b, pre.length, r1) := by
    cases hrk : res.last_key with
    | none =>
      rw [hrk] at hlk1
      simp only [] at hlk1
      simp only [erase_desc_node_, hmod, hgp, hrk, hlk1, hfix, Option.pure_def,
        Option.bind_eq_bind, Option.some_bind]
    | some k =>
      rw [hrk] at hlk1
      simp only [] at hlk1
      simp only [erase_desc_node_, hmod, hgp, hrk, hlk1, hfix, Option.pure_def,
        Option.bind_eq_bind, Option.some_bind]
  by_cases hact : res.last_key.isSome ∨ res.fixmerge
  · -- the result of the level below goes through the node
    obtain ⟨t2, res2, hfixeq, e5, e6, hreb2⟩ := inner_fix_stage cfg s h b nb' pre post a n' ps'
      L R prev0 D r1 hcapL hcapI hlvs (by split_ifs at hn'len <;> omega)
      (by split_ifs at hn'len <;> omega) hsib (by rw [spar]; exact hroot) hL hR
      (by rw [slen]; exact hD) hr1f
    have hlen2 : t2.mem.length = s.mem.length := hreb2.1
    refine ⟨t2, res2, ?_, by rw [e6]; exact hr1n, fun k hk => hk1' k (by rw [← e5]; exact hk),
      fun hk => hk2' (by rw [← e5]; exact hk), fun f1 f2 T hf1 hT => ?_⟩
    · rw [← hxsb]
      exact RebOut.comp cfg t s t2 (h + 1) b nb nb' pre.length _ _ _ _ L R prev0 _ slen spar ssz
        sleft sfr hfpsub shead e1 e2 e3 e4 hreb2
    · have hT' := erase_up_mono cfg f1 (t2.mem.length + 1) f2 t2 _ _ _ _ T hT
        (by rw [hlen2, slen]; exact hf1)
      unfold erase_up_
      rw [if_pos hact, if_neg (by simp), erase_pos_descend_eq, hnode]
      simp only [Option.some_bind, hfixeq]
      exact hT'
  · -- nothing but the count is left to do
    simp only [not_or, Bool.not_eq_true, Option.not_isSome, Option.isNone_iff_eq_none] at hact
    obtain ⟨hrk, hrf⟩ := hact
    rw [hrk] at hlk1
    simp only [Option.some.injEq, Prod.mk.injEq] at hlk1
    obtain ⟨rfl, rfl⟩ := hlk1
    rw [hrf] at hfix hn'len
    simp only [Bool.false_eq_true, if_false, Option.some.injEq, Nat.add_zero] at hfix hn'len
    subst hfix
    have hrebs := hlvs.lvl_rebOut (by omega) (by omega)
    refine ⟨u1, Result.ok, ?_, rfl, hk1', hk2', fun f1 f2 T hf1 hT => ?_⟩
    · rw [← hxsb]
      exact RebOut.comp cfg t u1 u1 (h + 1) b nb nb' pre.length _ _ _ _ L R prev0 _ slen spar
        ssz sleft sfr hfpsub shead e1 e2 e3 e4 hrebs
    · unfold RebOut at hreb
      obtain ⟨-, -, -, -, -, ps'', -, -, -, -, -, -, -, rX, rpend⟩ := hreb
      unfold Pend at rpend
      obtain ⟨n1, g1, g2, g3, g4, g5, g6, g7, g8⟩ := rpend
      have hXw := rX hrf
      rw [List.getElem?_map] at hXw
      cases hq : ps''[w]? with
      | none => rw [hq] at hXw; simp at hXw
      | some q =>
        rw [hq] at hXw
        simp only [Option.map_some', Option.some.injEq] at hXw
        have hpX : t1.parent? X = some (Ptr.node a) := by
          rw [← hXw]; exact Sub.parent? (g7 q (List.getElem?_mem hq))
        have hset : t1.setSize (Ptr.node a) (wsub n1.size 1) = some u1 := by
          rw [setSize_inner_eq t1 a n1 _ g1, ← hmod, modInner_eq t1 a n1 _ g1]
        unfold erase_up_ at hT ⊢
        rw [if_neg (by simp [Result.ok])] at hT
        rw [if_neg (by simp [hrk, hrf])]
        rw [size_down_]
        simp only [hpX, size?_inner g1, hset, ne_eq, reduceCtorEq, not_false_eq_true, if_true,
          Option.pure_def, Option.bind_eq_bind, Option.some_bind]
        exact hT

end LevelStep

end BPP

/-! ## The climb of the positional erase -/

namespace BPP

section EraseClimb
variable {α : Type} [LinearOrder α]

theorem erase_pos_descend_mono (cfg : Config) : ∀ (f : Nat) (t : Tree α) (p : Ptr) (w : Nat)
    (r : Result α) (T : Tree α), erase_pos_descend_ cfg f t p w r = some T →
      ∀ g, f ≤ g → erase_pos_descend_ cfg g t p w r = some T := by
  intro f
  induction f with
  | zero => intro t p w r T h; simp [erase_pos_descend_] at h
  | succ f ih =>
    intro t p w r T h g hg
    obtain ⟨g, rfl⟩ : ∃ g', g = g' + 1 := ⟨g - 1, by omega⟩
    rw [erase_pos_descend_eq] at h ⊢
    cases h1 : erase_desc_node_ cfg t p w r with
    | none => simp [h1] at h
    | some s =>
      rw [h1] at h
      simp only [Option.some_bind] at h ⊢
      cases h2 : erase_desc_fix_ cfg s.1 p s.2.1 s.2.2.1 s.2.2.2 with
      | none => simp [h2] at h
      | some step =>
        rw [h2] at h
        simp only [Option.some_bind] at h ⊢
        cases step with
        | inl t' => exact h
        | inr x =>
          obtain ⟨t', r'⟩ := x
          simp only at h ⊢
          unfold erase_up_ at h ⊢
          split_ifs at h ⊢ with h3 h4
          · exact h
          · exact ih _ _ _ _ _ h g (by omega)
          · exact h

theorem erase_up_mono2 (cfg : Config) (f1 g1 f2 g2 : Nat) (t : Tree α) (p : Ptr) (w : Nat)
    (x : Ptr) (r : Result α) (T : Tree α) (h : erase_up_ cfg f1 f2 t p w x r = some T)
    (hf1 : f1 ≤ g1) (hf2 : f2 ≤ g2) : erase_up_ cfg g1 g2 t p w x r = some T := by
  unfold erase_up_ at h ⊢
  split_ifs at h ⊢ with h1 h2
  · exact h
  · exact erase_pos_descend_mono cfg f2 t p w r T h g2 hf2
  · exact size_down_mono f1 t x T h g1 hf1

theorem Part.eq_ofLeaf (y : Part α) (b : Nat) (xs : List α) (h1 : y.ptr = Ptr.node b)
    (h2 : y.leaves = [(Ptr.node b, xs)]) (h3 : y.fp = [b]) : y = Part.ofLeaf b xs := by
  cases y
  simp only [Part.ofLeaf] at *
  subst h1 h2 h3
  rfl

/-- The climb of `erase_pos_` through a subtree that holds the leaf: what is
left to do starts at the root of the subtree. -/
theorem erase_pos_sub (cfg : Config) (lf : Ptr) (i : Nat) (hcapL : 4 ≤ cfg.maxLeaf)
    (hcapI : 2 ≤ cfg.maxInner) :
    ∀ (h : Nat) (t : Tree α) (a : Nat) (n : InnerNode α) (ps : List (Part α)) (par : Ptr)
      (L R : Leaves α) (prev0 : Ptr) (A B : Leaves α) (l : List α) (D : Nat),
      InnerAt cfg t h a n ps par → 1 ≤ n.item.length → n.item.length ≤ cfg.maxInner →
      (a :: fpOf ps).Nodup → leavesOf ps = A ++ (lf, l) :: B → i < l.length →
      ChainOk t prev0 (L ++ leavesOf ps ++ R) →
      ((L ++ leavesOf ps ++ R).map Prod.fst).Nodup →
      ((L ++ leavesOf ps ++ R).getLast?).map Prod.fst = some t.right →
      (∀ p ∈ (L ++ R).map Prod.fst, ∀ c ∈ a :: fpOf ps, p ≠ Ptr.node c) →
      (∀ r, t.parent = Ptr.node r → t.parent? (Ptr.node r) = some Ptr.root) →
      NbOk cfg t (h + 1) a (a :: fpOf ps) D → D + h ≤ t.mem.length + 1 →
      ∃ t1 res w X,
        RebOut cfg t t1 h a n w ps
          ((items (leavesOf ps)).eraseIdx ((items A).length + i)) X L R prev0 res.fixmerge ∧
        res.not_found = false ∧
        (∀ k, res.last_key = some k →
          ((items (leavesOf ps)).eraseIdx ((items A).length + i)).getLast? = some k) ∧
        (res.last_key = none →
          ((items (leavesOf ps)).eraseIdx ((items A).length + i)).getLast?
            = (items (leavesOf ps)).getLast?) ∧
        ∀ f1 f2 T, f1 + h ≤ t.mem.length + 1 → f2 + h ≤ t.mem.length + 1 →
          erase_up_ cfg f1 f2 t1 (Ptr.node a) w X res = some T →
          erase_pos_ cfg t lf i = some T := by
  intro h
  induction h with
  | zero =>
    intro t a n ps par L R prev0 A B l D hA hn1 hn2 hnd hls hi hchain hptrs hends hout hrp hok hD
    obtain ⟨pre, q, post, A', B', hps, hql, hAe, hBe⟩ := leavesOf_split (lf, l) ps A B hls
    subst hps
    obtain ⟨X0, lx, hq, hX, hXpar, hlo, hhi⟩ := Sub.ofLeaf (hA.subs q (by simp))
    subst hq
    simp only [Part.ofLeaf_leaves] at hql
    have hA' : A' = [] := by
      cases A' with
      | nil => rfl
      | cons y ys =>
        have := congrArg List.length hql
        simp at this
    subst hA'
    simp only [List.nil_append, List.cons.injEq, Prod.mk.injEq] at hql
    obtain ⟨⟨hlf, hl⟩, -⟩ := hql
    subst hlf hl
    simp only [List.append_nil] at hAe
    subst hAe
    have hlvl : LeafLvl cfg t a n pre post X0 lx L R prev0 :=
      ⟨hA.cell, hA.kids, hA.keys, hX, hXpar,
        fun q hq => hA.subs q (by
          simp only [List.mem_append, List.mem_cons] at hq ⊢; tauto),
        hnd, hchain, hptrs, hends⟩
    have hroot : t.parent ≠ Ptr.node X0 := by
      intro e
      have := hrp X0 e
      rw [parent?_leaf hX, hXpar] at this
      simp at this
    obtain ⟨t1, res, heq, hreb, hnf, hk1, hk2⟩ := erase_leaf_level cfg t a n pre post X0 lx i
      L R prev0 D hcapL hcapI hlvl (by simpa using hlo) hhi hi hn1 hroot hok (by omega)
    have hlen : t1.mem.length = t.mem.length := hreb.1
    refine ⟨t1, res, pre.length, Ptr.node X0, hreb, hnf, hk1, hk2, fun f1 f2 T hf1 hf2 hT => ?_⟩
    rw [heq]
    exact erase_up_mono2 cfg f1 _ f2 _ t1 _ _ _ _ T hT (by omega) (by omega)
  | succ h ih =>
    intro t a n ps par L R prev0 A B l D hA hn1 hn2 hnd hls hi hchain hptrs hends hout hrp hok hD
    obtain ⟨pre, q, post, A', B', hps, hql, hAe, hBe⟩ := leavesOf_split (lf, l) ps A B hls
    subst hps
    have hq := hA.subs q (by simp)
    obtain ⟨c, nc, psc, e1, e2, e3, hC, hclo, hchi⟩ := InnerAt.of_sub hq
    have eq := Part.eq_ofInner q c psc e1 e2 e3
    subst eq
    simp only [Part.ofInner_leaves] at hql
    -- the footprints
    have hnd' := hnd
    simp only [fpOf_append, fpOf_cons, Part.ofInner_fp, List.cons_append] at hnd'
    obtain ⟨han, hnd0⟩ := List.nodup_cons.1 hnd'
    obtain ⟨hndpre, hnd1, hdis1⟩ := List.nodup_append.1 hnd0
    obtain ⟨hcN, hnd2⟩ := List.nodup_cons.1 hnd1
    obtain ⟨hndps, hndpost, hdis2⟩ := List.nodup_append.1 hnd2
    have elist : L ++ leavesOf (pre ++ Part.ofInner c psc :: post) ++ R
        = (L ++ leavesOf pre) ++ leavesOf psc ++ (leavesOf post ++ R) := by
      simp [leavesOf_append, leavesOf_cons, List.append_assoc]
    have hroot : t.parent ≠ Ptr.node c := by
      intro e
      have := hrp c e
      rw [parent?_inner hC.cell, hC.par_eq] at this
      simp at this
    have hokc : NbOk cfg t (h + 1) c (Part.ofInner c psc).fp (D + 1) :=
      NbOk.child cfg t (h + 1) a n pre post (Part.ofInner c psc) c D hcapI hA.cell hA.kids
        hA.kids_length hA.subs hnd rfl hok
    have houtc : ∀ p ∈ ((L ++ leavesOf pre) ++ (leavesOf post ++ R)).map Prod.fst,
        ∀ c' ∈ c :: fpOf psc, p ≠ Ptr.node c' := by
      intro p hp c' hc' e
      subst e
      have hc'w : c' ∈ a :: fpOf (pre ++ Part.ofInner c psc :: post) := by
        simp only [fpOf_append, fpOf_cons, Part.ofInner_fp, List.mem_append, List.mem_cons]
        simp only [List.mem_cons] at hc'
        tauto
      obtain ⟨e, he, hep⟩ := List.mem_map.1 hp
      simp only [List.mem_append] at he
      rcases he with (he | he) | he | he
      · exact hout _ (List.mem_map.2 ⟨e, by simp [he], hep⟩) c' hc'w rfl
      · obtain ⟨a', h1, h2⟩ := leavesOf_mem pre
          (fun q hq => hA.subs q (List.mem_append_left _ hq)) _ he
        rw [hep] at h1
        simp only [Ptr.node.injEq] at h1
        subst h1
        exact hdis1 h2 (by
          simp only [List.mem_cons, List.mem_append]
          simp only [List.mem_cons] at hc'
          tauto)
      · obtain ⟨a', h1, h2⟩ := leavesOf_mem post
          (fun q hq => hA.subs q (List.mem_append_right _ (List.mem_cons_of_mem _ hq))) _ he
        rw [hep] at h1
        simp only [Ptr.node.injEq] at h1
        subst h1
        rcases List.mem_cons.1 hc' with e | e
        · subst e
          simp only [List.mem_append, not_or] at hcN
          exact hcN.2 h2
        · exact hdis2 e h2
      · exact hout _ (List.mem_map.2 ⟨e, by simp [he], hep⟩) c' hc'w rfl
    rw [elist] at hchain hptrs hends
    obtain ⟨t1, res, w, X, hreb, hnf, hk1, hk2, hfuel⟩ := ih t c nc psc (Ptr.node a)
      (L ++ leavesOf pre) (leavesOf post ++ R) prev0 A' B' l (D + 1) hC
      (by simp only [Bool.false_eq_true, if_false] at hclo; omega) hchi
      (by simpa using hnd1.sublist (List.Sublist.cons₂ _ (List.sublist_append_left _ _)))
      hql hi hchain hptrs hends houtc hrp hokc (by omega)
    have hlvl : InnerLvl cfg t h a n pre post c nc psc L R prev0 :=
      ⟨hA.cell, hA.kids, hA.keys, hC,
        fun q hq => hA.subs q (by
          simp only [List.mem_append, List.mem_cons] at hq ⊢; tauto),
        hnd, by rw [elist]; exact hchain, by rw [elist]; exact hptrs,
        by rw [elist]; exact hends⟩
    have hlt : (items A').length + i < (items (leavesOf psc)).length := by
      rw [hql]
      simp only [items_append, items_cons, List.length_append]
      omega
    obtain ⟨t2, res2, hreb2, hnf2, hk1', hk2', hstep⟩ := erase_level_step cfg t t1 h c a nc n w
      psc _ X pre post L R prev0 res D (by omega) hcapI hlvl
      (by simp only [Bool.false_eq_true, if_false] at hclo; exact hclo) hchi hn1 hroot
      (fun p hp c' hc' => hout p hp c' (List.mem_cons_of_mem _ hc')) hok (by omega) hreb
      (by rw [List.length_eraseIdx, if_pos hlt]; omega) hk1 hk2
    have hxs : items (leavesOf pre) ++
        (items (leavesOf psc)).eraseIdx ((items A').length + i) ++ items (leavesOf post)
        = (items (leavesOf (pre ++ Part.ofInner c psc :: post))).eraseIdx
            ((items A).length + i) := by
      rw [items_leavesOf_inner, hAe, items_append, List.length_append, Nat.add_assoc,
        eraseIdx_mid _ _ _ _ hlt]
    rw [hxs] at hreb2 hk1' hk2'
    refine ⟨t2, res2, pre.length, Ptr.node c, hreb2, hnf2, hk1', hk2',
      fun f1 f2 T hf1 hf2 hT => ?_⟩
    exact hfuel (f1 + 1) (f2 + 1) T (by omega) (by omega) (hstep f1 f2 T (by omega) hT)

end EraseClimb

end BPP

/-! ## The positional erase at the real root -/

namespace BPP

section RootFinish
variable {α : Type} [LinearOrder α]

/-- A container whose real root has all of its invariant, after the anchor
counted the element out. -/
theorem shaped_of_innerAt (cfg : Config) (s : Tree α) (h r : Nat) (n2 : InnerNode α)
    (ps : List (Part α)) (xs : List α) (hA : InnerAt cfg s h r n2 ps Ptr.root)
    (h1 : 1 ≤ n2.item.length) (h2 : n2.item.length ≤ cfg.maxInner)
    (hroot : s.parent = Ptr.node r) (hnd : (r :: fpOf ps).Nodup)
    (hitems : items (leavesOf ps) = xs) (hsize : s.size = xs.length + 1)
    (hchain : ChainOk s Ptr.root (leavesOf ps))
    (hhead : ((leavesOf ps).head?).map Prod.fst = some s.left)
    (hlast : ((leavesOf ps).getLast?).map Prod.fst = some s.right) :
    Shaped cfg { s with size := wsub s.size 1 } xs := by
  have hs := hA.to_sub true (by simpa using h1) h2
  simp only [Part.ofInner_ptr, Part.ofInner_leaves, Part.ofInner_fp] at hs
  generalize hT : ({ s with size := wsub s.size 1 } : Tree α) = T
  have e1 : T.parent = s.parent := by rw [← hT]
  have e2 : T.size = wsub s.size 1 := by rw [← hT]
  have e3 : T.left = s.left := by rw [← hT]
  have e4 : T.right = s.right := by rw [← hT]
  have e5 : ∀ p, T.node? p = s.node? p := by intro p; rw [← hT]; rfl
  have e6 : ∀ p, T.leaf? p = s.leaf? p := by intro p; rw [← hT]; rfl
  refine ⟨h + 1, leavesOf ps, r :: fpOf ps, ?_, hnd, hitems, ?_, ?_, by rw [e3]; exact hhead,
    by rw [e4]; exact hlast⟩
  · rw [e1, hroot]
    exact Sub.frame hs (fun b _ => SameCore.of_eq (e5 _))
  · rw [e2, hsize, wsub_of_le (by omega)]
    omega
  · exact ChainOk.congr_leaves _ _ (fun e _ => e6 e.1) hchain

/-- A well-linked run stays one when its leaves keep their links. -/
theorem ChainOk.congr_links {t t' : Tree α} :
    ∀ (ls : Leaves α) (prev : Ptr),
      (∀ e ∈ ls, ∃ l l', t.leaf? e.1 = some l ∧ t'.leaf? e.1 = some l' ∧ l'.prev = l.prev ∧
        l'.next = l.next) →
      ChainOk t prev ls → ChainOk t' prev ls := by
  intro ls
  induction ls with
  | nil => intro _ _ _; trivial
  | cons x xs ih =>
    intro prev hl hc
    obtain ⟨p, lx⟩ := x
    obtain ⟨l, hl1, hp, hnx, hrest⟩ := hc
    obtain ⟨l0, l', h0, h1, h2, h3⟩ := hl (p, lx) (List.mem_cons_self _ _)
    simp only at h0 h1
    rw [hl1] at h0
    obtain rfl := Option.some.inj h0
    exact ⟨l', h1, by rw [h2, hp], by rw [h3, hnx],
      ih p (fun e he => hl e (List.mem_cons_of_mem _ he)) hrest⟩

/-- The collapse of a real root that is left with one child: the child becomes
the real root. -/
theorem root_collapse (cfg : Config) (s : Tree α) (h r : Nat) (n2 : InnerNode α) (q0 : Part α)
    (xs : List α) (r1 : Result α) (hcapL : 2 ≤ cfg.maxLeaf) (hcapI : 2 ≤ cfg.maxInner)
    (hA : InnerAt cfg s h r n2 [q0] Ptr.root) (hroot : s.parent = Ptr.node r)
    (hnd : (r :: q0.fp).Nodup) (hitems : items q0.leaves = xs)
    (hsize : s.size = xs.length + 1) (hchain : ChainOk s Ptr.root q0.leaves)
    (hhead : (q0.leaves.head?).map Prod.fst = some s.left)
    (hlast : (q0.leaves.getLast?).map Prod.fst = some s.right) :
    ∃ T, erase_desc_fix_ cfg s (Ptr.node r) Ptr.null 0 r1 = some (Sum.inl T) ∧
      Shaped cfg T xs := by
  have hlen0 : n2.item.length = 0 := by
    have := hA.kids_length
    simp only [List.length_singleton] at this
    omega
  have hq := hA.subs q0 (by simp)
  obtain ⟨c, tl, x, hp, hfp, hx⟩ := Sub.node hq
  obtain ⟨hrfp, hndq⟩ := List.nodup_cons.1 hnd
  have hcr : c ≠ r := by
    intro e; subst e; exact hrfp (by rw [hfp]; simp)
  have hc0 : n2.children[0]? = some (Ptr.node c) := by
    rw [hA.kids, ← hp]; rfl
  generalize hs' : ({ s with parent := Ptr.node c } : Tree α) = s'
  have a1 : s'.parent = Ptr.node c := by rw [← hs']
  have a2 : s'.size = s.size := by rw [← hs']
  have a3 : s'.left = s.left := by rw [← hs']
  have a4 : s'.right = s.right := by rw [← hs']
  have a5 : ∀ p, s'.node? p = s.node? p := by intro p; rw [← hs']; rfl
  have a6 : s'.mem.length = s.mem.length := by rw [← hs']
  obtain ⟨s2, hset, hst2, hlen2, hl2, hi2⟩ := setParent_istep s' c x Ptr.root
    (by rw [a5]; exact hx)
  have hr2 : s2.node? (Ptr.node r) = some (Node.inner n2) := by
    rw [hst2.1.node_eq hlen2 r (by simpa using Ne.symm hcr), a5]; exact hA.cell
  obtain ⟨s3, hmod, hn3, hst3, hlen3⟩ := modInner_istep s2 r n2
    (fun m => { m with item := [] }) hr2
  obtain ⟨s4, hfree, hD4, hfr4, hlen4, b1, b2, b3, b4⟩ := free_node_spec s3 r _ hn3
  generalize hT : ({ s4 with size := wsub s4.size 1 } : Tree α) = T
  have c1 : T.parent = s4.parent := by rw [← hT]
  have c2 : T.size = wsub s4.size 1 := by rw [← hT]
  have c3 : T.left = s4.left := by rw [← hT]
  have c4 : T.right = s4.right := by rw [← hT]
  have c5 : ∀ p, T.node? p = s4.node? p := by intro p; rw [← hT]; rfl
  have c6 : ∀ p, T.leaf? p = s4.leaf? p := by intro p; rw [← hT]; rfl
  have hfrT : ∀ b, b ≠ r → b ≠ c → T.node? (Ptr.node b) = s.node? (Ptr.node b) := by
    intro b h1 h2
    rw [c5, hfr4 b h1, hst3.1.node_eq hlen3 b (by simpa using h1),
      hst2.1.node_eq hlen2 b (by simpa using h2), a5]
  have hcT : T.node? (Ptr.node c) = s2.node? (Ptr.node c) := by
    rw [c5, hfr4 c hcr, hst3.1.node_eq hlen3 c (by simpa using hcr)]
  refine ⟨T, ?_, ?_⟩
  · have hif : n2.item.length < cfg.maxInner / 2 ∧
        ¬ (Ptr.node r = s.parent ∧ n2.item.length ≥ 1) := by
      refine ⟨by omega, fun e => ?_⟩
      omega
    unfold erase_desc_fix_
    simp only [inner?_of_node? hA.cell, if_pos hif, get_left_right_parent_, if_true, and_self,
      hc0, hs', a1, hset, hmod, hfree, hT, Option.pure_def, Option.bind_eq_bind,
      Option.some_bind]
  · have hsubc : Sub cfg T h false (Ptr.node c) Ptr.root q0.leaves q0.fp := by
      rw [hp] at hq
      refine Sub.reparent hq hndq (fun b hb hbc => SameCore.of_eq (hfrT b ?_ hbc)) ?_ ?_
      · intro e; subst e; exact hrfp hb
      · intro l hl
        rw [hx] at hl
        exact ⟨{ l with parent := Ptr.root }, by rw [hcT]; exact hl2 l (Option.some.inj hl),
          rfl, rfl⟩
      · intro n hn
        rw [hx] at hn
        rw [hcT]; exact hi2 n (Option.some.inj hn)
    have hlinks : ∀ e ∈ q0.leaves,
        ∃ l l', s.leaf? e.1 = some l ∧ T.leaf? e.1 = some l' ∧ l'.prev = l.prev ∧
          l'.next = l.next := by
      intro e he
      obtain ⟨l, hl⟩ := ChainOk.is_leaf _ _ hchain e he
      obtain ⟨b, hb1, hb2⟩ := Sub.leaf_mem hq e he
      have hbr : b ≠ r := by intro e'; subst e'; exact hrfp hb2
      rw [hb1] at hl ⊢
      by_cases hbc : b = c
      · subst hbc
        have hxl : x = Node.leaf l := by
          simp only [Tree.leaf?, hx] at hl
          cases x with
          | leaf l0 => simp at hl; rw [hl]
          | inner n0 => simp at hl
        refine ⟨l, { l with parent := Ptr.root }, hl, ?_, rfl, rfl⟩
        simp only [Tree.leaf?, hcT, hl2 l hxl]
      · refine ⟨l, l, hl, ?_, rfl, rfl⟩
        rw [← hl]
        exact leaf?_congr (hfrT b hbr hbc)
    have hchT : ChainOk T Ptr.root q0.leaves := ChainOk.congr_links _ _ hlinks hchain
    refine ⟨h, q0.leaves, q0.fp, ?_, hndq, hitems, ?_, hchT, ?_, ?_⟩
    · rw [c1, b1, hst3.2.1.1, hst2.2.1.1, a1]
      exact Sub.to_root hcapL hcapI hsubc
    · rw [c2, b2, hst3.2.1.2.1, hst2.2.1.2.1, a2, hsize, wsub_of_le (by omega)]
      omega
    · rw [c3, b3, hst3.2.1.2.2.1, hst2.2.1.2.2.1, a3]; exact hhead
    · rw [c4, b4, hst3.2.1.2.2.2, hst2.2.1.2.2.2, a4]; exact hlast

/-- The climb of `erase_pos_` at the real root: the root takes its turn, the
anchor counts the element out, and the container keeps I2–I7. -/
theorem erase_root_finish (cfg : Config) (t t1 : Tree α) (h r : Nat) (n : InnerNode α) (w : Nat)
    (ps : List (Part α)) (xs : List α) (X : Ptr) (res : Result α) (hcapL : 2 ≤ cfg.maxLeaf)
    (hcapI : 2 ≤ cfg.maxInner) (hA : InnerAt cfg t h r n ps Ptr.root)
    (hn1 : 1 ≤ n.item.length) (hn2 : n.item.length ≤ cfg.maxInner)
    (hnd : (r :: fpOf ps).Nodup) (hroot : t.parent = Ptr.node r)
    (hsize : t.size = (items (leavesOf ps)).length)
    (hhead : ((leavesOf ps).head?).map Prod.fst = some t.left)
    (hreb : RebOut cfg t t1 h r n w ps xs X [] [] Ptr.root res.fixmerge)
    (hxs : xs.length + 1 = (items (leavesOf ps)).length) :
    ∃ T, erase_up_ cfg 2 1 t1 (Ptr.node r) w X res = some T ∧ Shaped cfg T xs := by
  have hreb0 := hreb
  unfold RebOut at hreb
  obtain ⟨rlen, rpar, rsz, rleft, rfr, ps', ritems, rfp, rnd, rchain, rptrs, rhead, rends, rX,
    rpend⟩ := hreb
  simp only [List.nil_append, List.append_nil] at rchain rptrs rhead rends
  obtain ⟨haF, hndps⟩ := List.nodup_cons.1 hnd
  obtain ⟨u1, hmod, hP1, hst1, hlen1⟩ := rpend.resize haF rfp
  have hfr1 : ∀ c, c ≠ r → u1.node? (Ptr.node c) = t1.node? (Ptr.node c) :=
    fun c hc => hst1.1.node_eq hlen1 c (by simpa using hc)
  obtain ⟨s, n2, hfix, hAt, hn2len, slen, sa1, sa2, sa3, sa4, hfrs⟩ :=
    node_local cfg u1 h r { n with size := wsub n.size 1 } w ps' (fpOf ps) res.fixmerge hcapL
      hP1 hA.level_eq hn2
      (by show wsub n.size 1 = _
          rw [hA.size_eq, ritems, wsub_of_le (by omega)]; omega) haF rfp
  have hpar : ({ n with size := wsub n.size 1 } : InnerNode α).parent = Ptr.root := hA.par_eq
  rw [hpar] at hAt
  have hn2len' : n2.item.length + (if res.fixmerge then 1 else 0) = n.item.length := hn2len
  clear hn2len
  have hn2hi : n2.item.length ≤ cfg.maxInner := by
    split_ifs at hn2len' <;> omega
  have hrF' : r ∉ fpOf ps' := fun e => haF (rfp r e)
  have hleafs : ∀ e ∈ leavesOf ps', s.leaf? e.1 = t1.leaf? e.1 := by
    intro e he
    obtain ⟨c, h1, h2⟩ := leavesOf_mem ps' hAt.subs e he
    rw [h1]
    have hcr : c ≠ r := by intro e'; subst e'; exact hrF' h2
    exact leaf?_congr (by rw [hfrs c hcr (fun _ => h2), hfr1 c hcr])
  have hchs : ChainOk s Ptr.root (leavesOf ps') := ChainOk.congr_leaves _ _ hleafs rchain
  have hsp : s.parent = Ptr.node r := by rw [sa1, hst1.2.1.1, rpar, hroot]
  have hss : s.size = xs.length + 1 := by rw [sa2, hst1.2.1.2.1, rsz, hsize, hxs]
  have hsl : ((leavesOf ps').head?).map Prod.fst = some s.left := by
    rw [rhead, hhead, sa3, hst1.2.1.2.2.1, rleft]
  have hsr : ((leavesOf ps').getLast?).map Prod.fst = some s.right := by
    rw [rends, sa4, hst1.2.1.2.2.2]
  have hnd' : (r :: fpOf ps').Nodup := List.nodup_cons.2 ⟨hrF', rnd⟩
  have hpr1 : u1.parent? (Ptr.node r) = some Ptr.root := by
    unfold Pend at hP1
    obtain ⟨n1, g1, g2, -⟩ := hP1
    rw [parent?_inner g1, g2]
    exact congrArg some hA.par_eq
  have hgp : get_parent_ u1 (Ptr.node r) = some (Ptr.null, 0) := get_parent_top u1 _ hpr1
  -- what the anchor does last
  have hdown : ∀ f, size_down_ (f + 1) s (Ptr.node r) = some { s with size := wsub s.size 1 } := by
    intro f
    rw [size_down_]
    simp only [parent?_inner hAt.cell, hAt.par_eq, Tree.size?, Tree.setSize, ne_eq,
      not_true_eq_false, if_false, Option.pure_def, Option.bind_eq_bind, Option.some_bind]
  by_cases hact : res.last_key.isSome ∨ res.fixmerge
  · obtain ⟨r1, hlk, hr1f⟩ : ∃ r1, (match res.last_key with
          | some k => inner_last_key_ cfg u1 Ptr.null 0 k
          | none => some (u1, Result.ok)) = some (u1, r1) ∧ r1.fixmerge = false := by
      cases hrk : res.last_key with
      | none => exact ⟨Result.ok, rfl, rfl⟩
      | some k => exact ⟨Result.lastKey k, inner_last_key_top cfg u1 0 k, rfl⟩
    have hnode : erase_desc_node_ cfg t1 (Ptr.node r) w res = some (s, Ptr.null, 0, r1) := by
      cases hrk : res.last_key with
      | none =>
        rw [hrk] at hlk
        simp only [] at hlk
        simp only [erase_desc_node_, hmod, hgp, hrk, hlk, hfix, Option.pure_def,
          Option.bind_eq_bind, Option.some_bind]
      | some k =>
        rw [hrk] at hlk
        simp only [] at hlk
        simp only [erase_desc_node_, hmod, hgp, hrk, hlk, hfix, Option.pure_def,
          Option.bind_eq_bind, Option.some_bind]
    unfold erase_up_
    rw [if_pos hact, if_neg (by simp), erase_pos_descend_eq, hnode]
    simp only [Option.some_bind]
    by_cases hz : n2.item.length = 0
    · -- the root is left with one child
      have hkl := hAt.kids_length
      obtain ⟨q0, hq0⟩ : ∃ q0, ps' = [q0] := by
        cases hps : ps' with
        | nil => rw [hps] at hkl; simp at hkl
        | cons q0 rest =>
          cases rest with
          | nil => exact ⟨q0, rfl⟩
          | cons _ _ => rw [hps] at hkl; simp at hkl; omega
      subst hq0
      simp only [leavesOf_cons, leavesOf_nil, List.append_nil, fpOf_cons, fpOf_nil] at *
      obtain ⟨T, hT1, hT2⟩ := root_collapse cfg s h r n2 q0 xs r1 hcapL hcapI hAt hsp hnd'
        ritems hss hchs hsl hsr
      exact ⟨T, by rw [hT1]; rfl, hT2⟩
    · have hpos : 1 ≤ n2.item.length := Nat.one_le_iff_ne_zero.2 hz
      have hfixs : erase_desc_fix_ cfg s (Ptr.node r) Ptr.null 0 r1 = some (Sum.inr (s, r1)) := by
        unfold erase_desc_fix_
        have hif : ¬ (n2.item.length < cfg.maxInner / 2 ∧
            ¬ (Ptr.node r = s.parent ∧ n2.item.length ≥ 1)) := by
          intro e
          exact e.2 ⟨hsp.symm, hpos⟩
        simp only [inner?_of_node? hAt.cell, if_neg hif]
      refine ⟨{ s with size := wsub s.size 1 }, ?_, shaped_of_innerAt cfg s h r n2 ps' xs hAt
        hpos hn2hi hsp hnd' ritems hss hchs hsl hsr⟩
      rw [hfixs]
      simp only [Option.some_bind]
      unfold erase_up_
      by_cases h1 : r1.last_key.isSome ∨ r1.fixmerge
      · rw [if_pos h1, if_pos rfl]
      · rw [if_neg h1]
        exact hdown _
  · simp only [not_or, Bool.not_eq_true, Option.not_isSome, Option.isNone_iff_eq_none] at hact
    obtain ⟨hrk, hrf⟩ := hact
    rw [hrf] at hfix hn2len'
    simp only [Bool.false_eq_true, if_false, Option.some.injEq, Nat.add_zero] at hfix hn2len'
    subst hfix
    refine ⟨{ u1 with size := wsub u1.size 1 }, ?_, shaped_of_innerAt cfg u1 h r n2 ps' xs hAt
      (by omega) hn2hi hsp hnd' ritems hss hchs hsl hsr⟩
    unfold Pend at rpend
    obtain ⟨n1, g1, g2, g3, g4, g5, g6, g7, g8⟩ := rpend
    have hXw := rX hrf
    rw [List.getElem?_map] at hXw
    cases hq : ps'[w]? with
    | none => rw [hq] at hXw; simp at hXw
    | some q =>
      rw [hq] at hXw
      simp only [Option.map_some', Option.some.injEq] at hXw
      have hpX : t1.parent? X = some (Ptr.node r) := by
        rw [← hXw]; exact Sub.parent? (g7 q (List.getElem?_mem hq))
      have hset : t1.setSize (Ptr.node r) (wsub n1.size 1) = some u1 := by
        rw [setSize_inner_eq t1 r n1 _ g1, ← hmod, modInner_eq t1 r n1 _ g1]
      unfold erase_up_
      rw [if_neg (by simp [hrk, hrf])]
      rw [size_down_]
      simp only [hpX, size?_inner g1, hset, ne_eq, reduceCtorEq, not_false_eq_true, if_true,
        Option.pure_def, Option.bind_eq_bind, Option.some_bind]
      exact hdown 0

/-- The invariants I2–I7 of a container whose in-order sequence is `ys`, the
empty container included. -/
def ShapedE (cfg : Config) (T : Tree α) (ys : List α) : Prop :=
  (ys = [] ∧ T.parent = Ptr.root ∧ T.left = Ptr.root ∧ T.right = Ptr.root ∧ T.size = 0) ∨
    Shaped cfg T ys

/-- The positional erase on a container whose real root is a leaf. -/
theorem erase_pos_leaf_root (cfg : Config) (t : Tree α) (X0 : Nat) (lx : LeafNode α) (i : Nat)
    (hcapL : 2 ≤ cfg.maxLeaf) (hX : t.node? (Ptr.node X0) = some (Node.leaf lx))
    (hpar : lx.parent = Ptr.root) (hroot : t.parent = Ptr.node X0)
    (hhi : lx.item.length ≤ cfg.maxLeaf) (hi : i < lx.item.length)
    (hsize : t.size = lx.item.length)
    (hchain : ChainOk t Ptr.root [(Ptr.node X0, lx.item)])
    (hleft : t.left = Ptr.node X0) (hright : t.right = Ptr.node X0) :
    ∃ T, erase_pos_ cfg t (Ptr.node X0) i = some T ∧ ShapedE cfg T (lx.item.eraseIdx i) := by
  obtain ⟨t', hmod, hX', hst, hlen⟩ := modLeaf_istep t X0 lx
    (fun m => { m with item := lx.item.eraseIdx i }) hX rfl rfl
  have hpX : t'.parent? (Ptr.node X0) = some Ptr.root := by
    rw [parent?_leaf hX']; exact congrArg some hpar
  have hgp : get_parent_ t' (Ptr.node X0) = some (Ptr.null, 0) := get_parent_top t' _ hpX
  have hlen' : (lx.item.eraseIdx i).length + 1 = lx.item.length := by
    rw [List.length_eraseIdx, if_pos hi]; omega
  have hlk : ∃ res, leaf_last_key_ cfg t' (Ptr.node X0) Ptr.null 0 = some (t', res) := by
    unfold leaf_last_key_
    simp only [leaf?_of_node? hX', ne_eq, not_true_eq_false, if_false, Bool.false_eq_true,
      Option.pure_def, Option.bind_eq_bind, Option.some_bind]
    by_cases hge : (lx.item.eraseIdx i).length ≥ 1
    · have hne : lx.item.eraseIdx i ≠ [] := by
        intro e; rw [e] at hge; simp at hge
      obtain ⟨k, hk⟩ : ∃ k, (lx.item.eraseIdx i)[wsub (lx.item.eraseIdx i).length 1]? = some k := by
        rw [getLast?_eq_getElem?_wsub _ hne]
        cases hg : (lx.item.eraseIdx i).getLast? with
        | none => exact absurd (List.getLast?_eq_none_iff.1 hg) hne
        | some k => exact ⟨k, rfl⟩
      exact ⟨Result.lastKey k, by simp only [if_pos hge, hk]⟩
    · exact ⟨Result.ok, by simp only [if_neg hge]⟩
  obtain ⟨res0, hlk⟩ := hlk
  obtain ⟨res, hleaf⟩ : ∃ res, erase_pos_leaf_ cfg t (Ptr.node X0) i
      = some (t', res, Ptr.null, 0, (lx.item.eraseIdx i).length) := by
    unfold erase_pos_leaf_
    unfold eraseAt?
    by_cases hw : i = (lx.item.eraseIdx i).length
    · refine ⟨res0, ?_⟩
      simp only [leaf?_of_node? hX, if_pos hi, hmod, if_pos hw, hgp, hlk, Option.pure_def,
        Option.bind_eq_bind, Option.some_bind]
    · refine ⟨Result.ok, ?_⟩
      simp only [leaf?_of_node? hX, if_pos hi, hmod, if_neg hw, Option.pure_def,
        Option.bind_eq_bind, Option.some_bind]
  have hp' : t'.parent = Ptr.node X0 := by rw [hst.2.1.1, hroot]
  rw [erase_pos_eq, hleaf]
  simp only [Option.some_bind]
  by_cases hz : (lx.item.eraseIdx i).length = 0
  · -- the last element leaves the container
    obtain ⟨t2, hfree, -, -, -, -, hsz2, -, -⟩ := free_node_spec t' X0 _ hX'
    have hif : (lx.item.eraseIdx i).length < cfg.maxLeaf / 2 ∧
        ¬ (Ptr.node X0 = t'.parent ∧ (lx.item.eraseIdx i).length ≥ 1) := by
      refine ⟨by omega, fun e => ?_⟩
      omega
    have hs1 : wsub t2.size 1 = 0 := by
      rw [hsz2, hst.2.1.2.1, hsize, ← hlen', hz]; rfl
    have hfx : ∃ T, erase_pos_fix_ cfg t' (Ptr.node X0) (lx.item.eraseIdx i).length res
        Ptr.null 0 = some (Sum.inl T) ∧ T.parent = Ptr.root ∧ T.left = Ptr.root ∧
        T.right = Ptr.root ∧ T.size = wsub t2.size 1 := by
      unfold erase_pos_fix_
      rw [if_pos hif]
      simp only [if_true, hgp, get_left_right_parent_, and_self, hp', hfree,
        Option.pure_def, Option.bind_eq_bind, Option.some_bind]
      exact ⟨_, rfl, rfl, rfl, rfl, rfl⟩
    obtain ⟨T, hT, d1, d2, d3, d4⟩ := hfx
    exact ⟨T, by rw [hT]; rfl, Or.inl ⟨List.length_eq_zero.1 hz, d1, d2, d3, by rw [d4, hs1]⟩⟩
  · have hge : (lx.item.eraseIdx i).length ≥ 1 := Nat.one_le_iff_ne_zero.2 hz
    have hif : ¬ ((lx.item.eraseIdx i).length < cfg.maxLeaf / 2 ∧
        ¬ (Ptr.node X0 = t'.parent ∧ (lx.item.eraseIdx i).length ≥ 1)) :=
      fun e => e.2 ⟨hp'.symm, hge⟩
    have hfixeq : erase_pos_fix_ cfg t' (Ptr.node X0) (lx.item.eraseIdx i).length res Ptr.null 0
        = some (Sum.inr (t', res, Ptr.null, 0)) := by
      unfold erase_pos_fix_
      rw [if_neg hif]
    rw [hfixeq]
    simp only [Option.some_bind]
    generalize hT : ({ t' with size := wsub t'.size 1 } : Tree α) = T
    have c1 : T.parent = t'.parent := by rw [← hT]
    have c2 : T.size = wsub t'.size 1 := by rw [← hT]
    have c3 : T.left = t'.left := by rw [← hT]
    have c4 : T.right = t'.right := by rw [← hT]
    have c5 : ∀ p, T.node? p = t'.node? p := by intro p; rw [← hT]; rfl
    have c6 : ∀ p, T.leaf? p = t'.leaf? p := by intro p; rw [← hT]; rfl
    have hdown : size_down_ (t'.mem.length + 1) t' (Ptr.node X0) = some T := by
      rw [size_down_]
      simp only [hpX, Tree.size?, Tree.setSize, ne_eq, not_true_eq_false, if_false, hT,
        Option.pure_def, Option.bind_eq_bind, Option.some_bind]
    refine ⟨T, ?_, Or.inr ⟨0, [(Ptr.node X0, lx.item.eraseIdx i)], [X0], ?_, by simp, by simp [items],
      ?_, ?_, ?_, ?_⟩⟩
    · unfold erase_up_
      by_cases h1 : res.last_key.isSome ∨ res.fixmerge
      · rw [if_pos h1, if_pos rfl, hT]
      · rw [if_neg h1]
        exact hdown
    · rw [c1, hp']
      refine Sub.zero_iff.2 ⟨X0, { lx with item := lx.item.eraseIdx i }, rfl,
        by rw [c5]; exact hX', hpar, rfl, rfl, ?_, ?_⟩
      · simpa using hge
      · show (lx.item.eraseIdx i).length ≤ cfg.maxLeaf
        omega
    · rw [c2, hst.2.1.2.1, hsize, wsub_of_le (by omega)]
      omega
    · obtain ⟨l0, h0, h1, h2, -⟩ := hchain
      rw [leaf?_of_node? hX] at h0
      have e0 : lx = l0 := Option.some.inj h0
      rw [← e0] at h1 h2
      exact ⟨{ lx with item := lx.item.eraseIdx i }, by rw [c6]; exact leaf?_of_node? hX', h1, h2,
        trivial⟩
    · simp only [List.head?_cons, Option.map_some']
      rw [c3, hst.2.1.2.2.1, hleft]
    · simp only [List.getLast?_singleton, Option.map_some']
      rw [c4, hst.2.1.2.2.2, hright]

/-- The positional erase on a non-empty container, at a stored position: it
returns, removes the element at the index of the position and keeps I2–I7. -/
theorem erase_pos_shaped (cfg : Config) (t : Tree α) (xs : List α) (lf : Ptr) (i : Nat)
    (A B : Leaves α) (l : List α) (hcapL : 4 ≤ cfg.maxLeaf) (hcapI : 2 ≤ cfg.maxInner)
    (hsh : Shaped cfg t xs) (hll : leafList t = some (A ++ (lf, l) :: B)) (hi : i < l.length) :
    ∃ T, erase_pos_ cfg t lf i = some T ∧
      ShapedE cfg T (xs.eraseIdx ((items A).length + i)) := by
  obtain ⟨h, ls, fp, hs, hnd, hitems, hsize, hchain, hhead, hlast⟩ := hsh
  have hls := leafList_of_sub hs hnd
  rw [hll] at hls
  have hls' : ls = A ++ (lf, l) :: B := (Option.some.inj hls).symm
  subst hitems
  cases h with
  | zero =>
    obtain ⟨a, lx, hp, hn, hpar, hl, hfp, hlo, hhi⟩ := Sub.zero_iff.1 hs
    rw [hp] at hn
    rw [hl] at hls'
    have hA : A = [] := by
      cases A with
      | nil => rfl
      | cons y ys =>
        have := congrArg List.length hls'
        simp at this
    subst hA
    simp only [List.nil_append, List.cons.injEq, Prod.mk.injEq] at hls'
    obtain ⟨⟨e1, e2⟩, -⟩ := hls'
    subst e2
    rw [← e1, hp]
    rw [hl, hp] at hchain hhead hlast
    simp only [List.head?_cons, Option.map_some', Option.some.injEq, List.getLast?_singleton]
      at hhead hlast
    have hx : items ls = lx.item := by rw [hl]; simp [items]
    rw [hx] at hsize ⊢
    simp only [items_nil, List.length_nil, Nat.zero_add]
    exact erase_pos_leaf_root cfg t a lx i (by omega) hn hpar hp hhi hi hsize hchain hhead.symm
      hlast.symm
  | succ h =>
    obtain ⟨a, n, ps, hp, e1, e2, hA, hlo, hhi⟩ := InnerAt.of_sub hs
    subst e1 e2
    have hn1 : 1 ≤ n.item.length := by simpa using hlo
    have hpa : t.parent? (Ptr.node a) = some Ptr.root := by
      rw [parent?_inner hA.cell, hA.par_eq]
    have hfuel0 := Sub.fuel hs hnd
    obtain ⟨t1, res, w, X, hreb, hnf, hk1, hk2, hfuel⟩ := erase_pos_sub cfg lf i hcapL hcapI h t a
      n ps Ptr.root [] [] Ptr.root A B l 1 hA hn1 hhi hnd hls' hi (by simpa using hchain)
      (by simpa using Sub.leaf_ptrs_nodup hs hnd) (by simpa using hlast)
      (fun p hp' => by simp at hp')
      (fun r hr => by
        rw [hp] at hr
        simp only [Ptr.node.injEq] at hr
        subst hr
        exact hpa)
      (NbOk.top cfg t (h + 1) a _ hpa) (by omega)
    have hlt : (items A).length + i < (items (leavesOf ps)).length := by
      rw [hls']
      simp only [items_append, items_cons, List.length_append]
      omega
    obtain ⟨T, hT1, hT2⟩ := erase_root_finish cfg t t1 h a n w ps _ X res (by omega) hcapI hA hn1
      hhi hnd hp hsize hhead hreb (by rw [List.length_eraseIdx, if_pos hlt]; omega)
    exact ⟨T, hfuel 2 1 T (by omega) (by omega) hT1, Or.inr hT2⟩

end RootFinish

end BPP

/-! ## The erase through an iterator -/

namespace BPP

section EraseIterator
variable {α : Type} [LinearOrder α]

theorem ShapedE.e_toList {cfg : Config} {T : Tree α} {ys : List α} (h : ShapedE cfg T ys) :
    toList T = some ys := by
  rcases h with ⟨hy, hp, -⟩ | h
  · simp [toList, leafList, hp, hy]
  · exact h.toList_eq

theorem ShapedE.e_size {cfg : Config} {T : Tree α} {ys : List α} (h : ShapedE cfg T ys) :
    T.size = ys.length := by
  rcases h with ⟨hy, -, -, -, hs⟩ | h
  · rw [hs, hy]; rfl
  · obtain ⟨_, _, _, -, -, -, hsz, -⟩ := h
    exact hsz

theorem Shaped.size_eq {cfg : Config} {T : Tree α} {ys : List α} (h : Shaped cfg T ys) :
    T.size = ys.length := by
  obtain ⟨_, _, _, -, -, -, hsz, -⟩ := h
  exact hsz

/-- The erase through an iterator that designates the stored index `r`: it
returns, removes the element at `r` and keeps I2–I7. -/
theorem erase_indexOf (cfg : Config) (t : Tree α) (xs : List α) (it : Pos) (r : Nat)
    (hcapL : 4 ≤ cfg.maxLeaf) (hcapI : 2 ≤ cfg.maxInner) (hsh : Shaped cfg t xs)
    (hit : BPP.indexOf t it = some r) (hr : r < xs.length) :
    ∃ T, erase cfg t it = some T ∧ ShapedE cfg T (xs.eraseIdx r) := by
  have hne := hsh.ne_root
  have hx := hsh.toList_eq
  obtain ⟨h, ls, fp, hs, hnd, hitm, -⟩ := id hsh
  have hll := leafList_of_sub hs hnd
  have hend : it ≠ (Ptr.root, 0) := by
    intro e
    rw [BPP.indexOf, if_pos e, hx] at hit
    simp only [Option.map_some', Option.some.injEq] at hit
    omega
  rw [BPP.indexOf, if_neg hend, hll, Option.some_bind] at hit
  obtain ⟨l, hm, hw, -, -⟩ := indexIn_get ls it r hit
  obtain ⟨A, B, rfl⟩ := List.append_of_mem hm
  have hmid := indexIn_mid A it.1 l B it.2 (Sub.leaf_ptrs_nodup hs hnd) hw
  rw [hit] at hmid
  have hr' : r = (items A).length + it.2 := Option.some.inj hmid
  obtain ⟨T, hT, hS⟩ := erase_pos_shaped cfg t xs it.1 it.2 A B l hcapL hcapI hsh hll hw
  refine ⟨T, ?_, by rw [hr']; exact hS⟩
  rw [erase, if_neg hne, hT]

/-- C6: on a container that satisfies I1–I7 (leaf capacity at least 4),
`erase(it)` for an iterator that designates the stored rank `r` returns, the
in-order sequence afterwards is the old one with position `r` deleted, and the
size is one less. -/
theorem erase_iterator (cfg : Config) (t : Tree α) (it : Pos) (xs : List α) (r : Nat)
    (hwf : WF cfg t) (hcapL : 4 ≤ cfg.maxLeaf) (hxs : toList t = some xs)
    (hit : BPP.indexOf t it = some r) (hr : r < xs.length) :
    ∃ T, erase cfg t it = some T ∧ toList T = some (xs.eraseIdx r) ∧ T.size + 1 = t.size := by
  have hne : t.parent ≠ Ptr.root := by
    intro e
    simp only [toList, leafList, if_pos e, Option.map_some', Option.some.injEq] at hxs
    rw [← hxs] at hr
    simp at hr
  obtain ⟨ys, hsh, -⟩ := hwf.shaped hne
  have e : ys = xs := by
    have := hsh.toList_eq
    rw [hxs] at this
    exact (Option.some.inj this).symm
  subst e
  obtain ⟨T, hT, hS⟩ := erase_indexOf cfg t ys it r hcapL hwf.2.1 hsh hit hr
  refine ⟨T, hT, hS.e_toList, ?_⟩
  rw [hS.e_size, hsh.size_eq, List.length_eraseIdx, if_pos hr]
  omega

theorem erase_iterator_witness :
    ∃ T, erase ⟨false, 4, 4⟩ sample5 (Ptr.node 1, 1) = some T ∧
      toList T = some ([10, 20, 30, 40, 50].eraseIdx 3) ∧ T.size + 1 = sample5.size :=
  erase_iterator ⟨false, 4, 4⟩ sample5 (Ptr.node 1, 1) [10, 20, 30, 40, 50] 3
    (sample5_wf false) (by decide) (by decide) (by decide) (by decide)

theorem eraseIdx_ins (xs : List α) (v : α) (b : Nat) (hb : b ≤ xs.length) :
    (xs.take b ++ v :: xs.drop b).eraseIdx b = xs := by
  have hl : (xs.take b).length = b := by rw [List.length_take]; omega
  rw [List.eraseIdx_append_of_length_le (by omega), hl, Nat.sub_self]
  simp

end EraseIterator

end BPP

/-! ## Runs of the erase on a container of two leaves -/

namespace BPP

section KeyEraseRuns

/-- The container 10, 20, 30, 40 in two leaves of two items below an inner
root: the container 10, 20, 30, 40, 50 after `erase(50)`. -/
def sample4 : Tree Nat :=
  ⟨Ptr.node 2, 4, Ptr.node 0, Ptr.node 1,
    [some (Node.leaf ⟨Ptr.node 2, Ptr.root, Ptr.node 1, [10, 20]⟩),
     some (Node.leaf ⟨Ptr.node 2, Ptr.node 0, Ptr.root, [30, 40]⟩),
     some (Node.inner ⟨Ptr.root, 4, 1, [Ptr.node 0, Ptr.node 1], [20]⟩)]⟩

/-- The slot the level-1 re-sync of `fixmerge` assigns to, with the number of
separators the node has at that moment: the code of `fixmerge_` up to the
assignment `inner_node->item[where] = ...`; `none` above level 1. -/
def resync_slot_ (t : Tree α) (inner_node : Ptr) (where0 : Nat) : Option (Option (Nat × Nat)) := do
  let some n := t.inner? inner_node | none
  let some c := n.children[where0]? | none
  let some cp := t.parent? c | none
  let «where» := if cp ≠ Ptr.null then where0 + 1 else where0
  let some dead := n.children[«where»]? | none
  let some t := t.free_node_ dead | none
  let some n := t.inner? inner_node | none
  let some pre := slice? n.item 0 (n.item.length) | none
  let some items := eraseAt? pre (wsub «where» 1) | none
  let some cs := slice? n.children 0 (n.item.length + 1) | none
  let some children := eraseAt? cs «where» | none
  let some t := t.modInner inner_node (fun m => { m with item := items, children := children }) | none
  if n.level = 1 then
    let w := wsub «where» 1
    let some m := t.inner? inner_node | none
    some (some (w, m.item.length))
  else some none

theorem sample4_wf (u : Bool) : WF ⟨u, 4, 4⟩ sample4 := by
  refine ⟨by simp, by simp, Or.inr ⟨1,
    [(Ptr.node 0, [10, 20]), (Ptr.node 1, [30, 40])], [2, 0, 1], ?_, by decide,
    by simp [SIZE_MAX], by decide, ?_, ?_, by decide, by decide⟩⟩
  · refine Sub.succ_iff.2 ⟨2, ⟨Ptr.root, 4, 1, [Ptr.node 0, Ptr.node 1], [20]⟩,
      [⟨Ptr.node 0, [(Ptr.node 0, [10, 20])], [0]⟩,
       ⟨Ptr.node 1, [(Ptr.node 1, [30, 40])], [1]⟩],
      rfl, rfl, rfl, rfl, by decide, rfl, by decide, by simp, ?_, rfl, rfl, by simp, by simp⟩
    intro q hq
    simp only [List.mem_cons, List.mem_singleton, List.not_mem_nil, or_false] at hq
    rcases hq with rfl | rfl
    · exact Sub.zero_iff.2 ⟨0, ⟨Ptr.node 2, Ptr.root, Ptr.node 1, [10, 20]⟩, rfl, rfl, rfl, rfl,
        rfl, by simp, by simp⟩
    · exact Sub.zero_iff.2 ⟨1, ⟨Ptr.node 2, Ptr.node 0, Ptr.root, [30, 40]⟩, rfl, rfl, rfl,
        rfl, rfl, by simp, by simp⟩
  · refine ⟨by decide, fun _ => by decide⟩
  · exact ⟨⟨Ptr.node 2, Ptr.root, Ptr.node 1, [10, 20]⟩, rfl, rfl, rfl,
      ⟨Ptr.node 2, Ptr.node 0, Ptr.root, [30, 40]⟩, rfl, rfl, rfl, trivial⟩

/-- The state of `sample4` in the middle of `erase(10)`, by key or by
iterator: the leaf `[20]` has taken the items of its right sibling, which is
marked dead by a null parent; the inner root has not been told yet. -/
def sample4_merged : Tree Nat :=
  ⟨Ptr.node 2, 4, Ptr.node 0, Ptr.node 0,
    [some (Node.leaf ⟨Ptr.node 2, Ptr.root, Ptr.root, [20, 30, 40]⟩),
     some (Node.leaf ⟨Ptr.null, Ptr.node 0, Ptr.root, []⟩),
     some (Node.inner ⟨Ptr.root, 4, 1, [Ptr.node 0, Ptr.node 1], [20]⟩)]⟩

/-- C32, the claim fails: on 10, 20, 30, 40 in two leaves, `erase(10)` by key
merges the two children of the inner root and makes the remaining leaf the
real root, but that leaf's parent field still names the freed inner node, so
`rank` of its iterators reads freed memory; `erase` of the same element by
iterator resets the field to the anchor. -/
theorem erase_key_root_shrink :
    WF ⟨false, 4, 4⟩ sample4 ∧
      erase_key ⟨false, 4, 4⟩ sample4 10
        = some (⟨Ptr.node 0, 3, Ptr.node 0, Ptr.node 0,
            [some (Node.leaf ⟨Ptr.node 2, Ptr.root, Ptr.root, [20, 30, 40]⟩), none, none]⟩, 1) ∧
      ((erase_key ⟨false, 4, 4⟩ sample4 10).bind (fun r => r.1.parent? r.1.parent))
        = some (Ptr.node 2) ∧
      ((erase_key ⟨false, 4, 4⟩ sample4 10).map (fun r => r.1.node? (Ptr.node 2))) = some none ∧
      ((erase_key ⟨false, 4, 4⟩ sample4 10).map (fun r => rank_it r.1 (Ptr.node 0, 1)))
        = some none ∧
      erase ⟨false, 4, 4⟩ sample4 (Ptr.node 0, 0)
        = some ⟨Ptr.node 0, 3, Ptr.node 0, Ptr.node 0,
            [some (Node.leaf ⟨Ptr.root, Ptr.root, Ptr.root, [20, 30, 40]⟩), none, none]⟩ := by
  refine ⟨sample4_wf false, ?_⟩
  decide

/-- C38, the claim fails: on 10, 20, 30, 40 in two leaves, `erase(10)`, by key
(the call of `erase_one_descend_` on the first leaf) or by iterator (the two
stages of `erase_pos_` on it), merges the two leaves and reports `fixmerge`;
the inner root then drops the dead child and its only separator, which leaves
it no separator at all, and the level-1 re-sync assigns to `item[0]`, the
slot right after the used ones. -/
theorem fixmerge_resync_past_used :
    WF ⟨false, 4, 4⟩ sample4 ∧
      erase_one_descend_ ⟨false, 4, 4⟩ 10 3 sample4 (Ptr.node 0) Ptr.null (Ptr.node 1) Ptr.null
        (Ptr.node 2) (Ptr.node 2) 0 = some (sample4_merged, Result.fix) ∧
      ((erase_pos_leaf_ ⟨false, 4, 4⟩ sample4 (Ptr.node 0) 0).bind (fun s =>
        erase_pos_fix_ ⟨false, 4, 4⟩ s.1 (Ptr.node 0) s.2.2.2.2 s.2.1 s.2.2.1 s.2.2.2.1))
        = some (Sum.inr (sample4_merged, Result.fix, Ptr.node 2, 0)) ∧
      ((sample4_merged.modInner (Ptr.node 2) (fun m => { m with size := wsub m.size 1 })).bind
        (fun t => resync_slot_ t (Ptr.node 2) 0)) = some (some (0, 0)) := by
  refine ⟨sample4_wf false, ?_⟩
  decide

end KeyEraseRuns

end BPP

/-! ## The two branches of the per-node bounds -/

namespace BPP

section NodeBounds
variable {α : Type}

/-- A strict weak order given by its comparator. -/
structure StrictWeak (comp : α → α → Bool) : Prop where
  irrefl : ∀ a, comp a a = false
  trans : ∀ a b c, comp a b = true → comp b c = true → comp a c = true
  incomp : ∀ a b c, comp a b = false → comp b a = false → comp b c = false →
    comp c b = false → comp a c = false ∧ comp c a = false

/-- The scalar branch of the per-node bounds, `while(begin != end && p(*begin))
++begin`: the number of leading items on which `p` holds. -/
def scan (p : α → Bool) : List α → Nat
  | [] => 0
  | x :: xs => if p x then scan p xs + 1 else 0

/-- The halving loop of the standard library's `std::lower_bound` and
`std::upper_bound` on the slots `[first, first + len)`: look at the middle, go
on with the slots after it when `p` holds there and with the slots before it
otherwise. -/
def bisect (p : α → Bool) (items : List α) : Nat → Nat → Nat → Nat
  | 0, first, _ => first
  | fuel + 1, first, len =>
    if len = 0 then first
    else
      match items[first + len / 2]? with
      | some m =>
        if p m then bisect p items fuel (first + len / 2 + 1) (len - len / 2 - 1)
        else bisect p items fuel first (len / 2)
      | none => first

/-- The scalar branch of the per-node `lower_bound_`. -/
def lower_scan (comp : α → α → Bool) (items : List α) (key : α) : Nat :=
  scan (fun x => comp x key) items

/-- The other branch of the per-node `lower_bound_`: `std::lower_bound` with
the comparator `comp(item, key)`. -/
def lower_bisect (comp : α → α → Bool) (items : List α) (key : α) : Nat :=
  bisect (fun x => comp x key) items items.length 0 items.length

/-- The scalar branch of the per-node `upper_bound_`. -/
def upper_scan (comp : α → α → Bool) (items : List α) (key : α) : Nat :=
  scan (fun x => !comp key x) items

/-- The other branch of the per-node `upper_bound_`: `std::upper_bound` with
the comparator `comp(key, item)`. -/
def upper_bisect (comp : α → α → Bool) (items : List α) (key : α) : Nat :=
  bisect (fun x => !comp key x) items items.length 0 items.length

/-- The position of the first item with the property `q`, or the number of
items if there is none. -/
def first_where (q : α → Bool) : List α → Nat
  | [] => 0
  | x :: xs => if q x then 0 else first_where q xs + 1

theorem scan_eq_first_where (p : α → Bool) (l : List α) :
    scan p l = first_where (fun x => !p x) l := by
  induction l with
  | nil => rfl
  | cons x xs ih =>
    simp only [scan, first_where, ih]
    by_cases h : p x = true
    · simp [h]
    · simp [h]

theorem scan_le (p : α → Bool) (l : List α) : scan p l ≤ l.length := by
  induction l with
  | nil => simp [scan]
  | cons x xs ih =>
    simp only [scan, List.length_cons]
    split <;> omega

theorem scan_lt (p : α → Bool) (l : List α) (i : Nat) (hi : i < scan p l) :
    ∃ x, l[i]? = some x ∧ p x = true := by
  induction l generalizing i with
  | nil => simp [scan] at hi
  | cons x xs ih =>
    simp only [scan] at hi
    split at hi
    · cases i with
      | zero => exact ⟨x, by simp, ‹_›⟩
      | succ i =>
        obtain ⟨y, hy, hp⟩ := ih i (by omega)
        exact ⟨y, by simpa using hy, hp⟩
    · omega

theorem scan_at (p : α → Bool) (l : List α) (x : α) (hx : l[scan p l]? = some x) :
    p x = false := by
  induction l with
  | nil => simp at hx
  | cons y ys ih =>
    simp only [scan] at hx
    split at hx
    · exact ih (by simpa using hx)
    · rename_i hn
      simp only [List.getElem?_cons_zero, Option.some.injEq] at hx
      subst hx
      simpa using hn

/-- The halving loop on slots where `p` holds before it fails: it returns the
number of leading slots on which `p` holds. -/
theorem bisect_spec (p : α → Bool) (l : List α)
    (hmono : ∀ (i j : Nat) (x y : α), i < j → l[i]? = some x → l[j]? = some y → p y = true →
      p x = true) :
    ∀ fuel first len, len ≤ fuel → first + len ≤ l.length →
      (∀ (i : Nat) (x : α), i < first → l[i]? = some x → p x = true) →
      (∀ (i : Nat) (x : α), first + len ≤ i → l[i]? = some x → p x = false) →
      bisect p l fuel first len = scan p l := by
  intro fuel
  induction fuel with
  | zero =>
    intro first len h1 h2 hlo hhi
    have h0 : len = 0 := by omega
    subst h0
    have hle := scan_le p l
    simp only [bisect]
    by_contra hne
    rcases Nat.lt_or_gt_of_ne hne with h | h
    · obtain ⟨x, hx, hp⟩ := scan_lt p l first h
      have := hhi first x (by omega) hx
      rw [this] at hp
      cases hp
    · have hs : scan p l < l.length := by omega
      have := scan_at p l _ (List.getElem?_eq_getElem hs)
      have h2 := hlo _ _ h (List.getElem?_eq_getElem hs)
      rw [this] at h2
      cases h2
  | succ fuel ih =>
    intro first len h1 h2 hlo hhi
    rw [bisect]
    by_cases h0 : len = 0
    · rw [if_pos h0]
      subst h0
      by_contra hne
      rcases Nat.lt_or_gt_of_ne hne with h | h
      · obtain ⟨x, hx, hp⟩ := scan_lt p l first h
        have := hhi first x (by omega) hx
        rw [this] at hp
        cases hp
      · have hle := scan_le p l
        have hs : scan p l < l.length := by omega
        have := scan_at p l _ (List.getElem?_eq_getElem hs)
        have h2 := hlo _ _ h (List.getElem?_eq_getElem hs)
        rw [this] at h2
        cases h2
    · rw [if_neg h0]
      have hm : first + len / 2 < l.length := by omega
      rw [List.getElem?_eq_getElem hm]
      simp only []
      by_cases hp : p l[first + len / 2] = true
      · rw [if_pos hp]
        refine ih _ _ (by omega) (by omega) (fun i x hi hx => ?_) (fun i x hi hx => ?_)
        · rcases Nat.lt_or_ge i (first + len / 2) with h | h
          · exact hmono i _ x _ h hx (List.getElem?_eq_getElem hm) hp
          · have e : i = first + len / 2 := by omega
            subst e
            rw [List.getElem?_eq_getElem hm] at hx
            rw [← Option.some.inj hx]; exact hp
        · exact hhi i x (by omega) hx
      · rw [if_neg hp]
        refine ih _ _ (by omega) (by omega) hlo (fun i x hi hx => ?_)
        rcases Nat.lt_or_ge (first + len / 2) i with h | h
        · cases hq : p x with
          | false => rfl
          | true => exact absurd (hmono _ i _ x h (List.getElem?_eq_getElem hm) hx hq) hp
        · have e : i = first + len / 2 := by omega
          subst e
          rw [List.getElem?_eq_getElem hm] at hx
          rw [← Option.some.inj hx]; simpa using hp

theorem StrictWeak.split {comp : α → α → Bool} (hsw : StrictWeak comp) (a b c : α)
    (hab : comp a b = true) : comp a c = true ∨ comp c b = true := by
  cases h1 : comp a c with
  | true => exact Or.inl rfl
  | false =>
    cases h2 : comp c b with
    | true => exact Or.inr rfl
    | false =>
      exfalso
      cases h3 : comp c a with
      | true =>
        have := hsw.trans c a b h3 hab
        rw [h2] at this; cases this
      | false =>
        cases h4 : comp b c with
        | true =>
          have := hsw.trans a b c hab h4
          rw [h1] at this; cases this
        | false =>
          have := (hsw.incomp a c b h1 h3 h2 h4).1
          rw [hab] at this; cases this

theorem pairwise_getElem? {r : α → α → Prop} {l : List α} (h : l.Pairwise r) (i j : Nat) (x y : α)
    (hij : i < j) (hx : l[i]? = some x) (hy : l[j]? = some y) : r x y := by
  obtain ⟨hi, rfl⟩ := List.getElem?_eq_some.1 hx
  obtain ⟨hj, rfl⟩ := List.getElem?_eq_some.1 hy
  exact List.pairwise_iff_getElem.1 h i j hi hj hij

/-- C36: for items sorted by a comparator that is a strict weak order, the
linear scan and the binary search of the per-node `lower_bound_` return the
same index, the position of the first item not less than the key (the number
of items if there is none), and both branches of the per-node `upper_bound_`
return the position of the first item greater than the key (the number of
items if there is none). -/
theorem node_bound_branches (comp : α → α → Bool) (hsw : StrictWeak comp) (items : List α)
    (hsorted : items.Pairwise (fun a b => comp b a = false)) (key : α) :
    lower_bisect comp items key = lower_scan comp items key ∧
      lower_scan comp items key = first_where (fun x => !comp x key) items ∧
      upper_bisect comp items key = upper_scan comp items key ∧
      upper_scan comp items key = first_where (fun x => comp key x) items := by
  refine ⟨?_, scan_eq_first_where _ _, ?_, ?_⟩
  · refine bisect_spec _ items (fun i j x y hij hx hy hp => ?_) _ 0 _ (le_refl _) (by omega)
      (fun i x hi => by omega) (fun i x hi hx => ?_)
    · have hyx : comp y x = false := pairwise_getElem? hsorted i j x y hij hx hy
      rcases hsw.split y key x hp with h | h
      · rw [hyx] at h; cases h
      · exact h
    · have := (List.getElem?_eq_some.1 hx).1
      omega
  · refine bisect_spec _ items (fun i j x y hij hx hy hp => ?_) _ 0 _ (le_refl _) (by omega)
      (fun i x hi => by omega) (fun i x hi hx => ?_)
    · have hyx : comp y x = false := pairwise_getElem? hsorted i j x y hij hx hy
      cases hkx : comp key x with
      | false => rfl
      | true =>
        rcases hsw.split key x y hkx with h | h
        · simp [h] at hp
        · rw [hyx] at h; cases h
    · have := (List.getElem?_eq_some.1 hx).1
      omega
  · rw [upper_scan, scan_eq_first_where]
    congr 1
    funext x
    simp

theorem strictWeak_lt : StrictWeak (fun a b : Nat => decide (a < b)) :=
  ⟨fun a => by simp, fun a b c h1 h2 => by simp at h1 h2 ⊢; omega,
    fun a b c h1 h2 h3 h4 => by simp at h1 h2 h3 h4 ⊢; omega⟩

theorem node_bound_branches_witness :
    lower_bisect (fun a b : Nat => decide (a < b)) [10, 20, 20, 30, 40] 20
        = lower_scan (fun a b : Nat => decide (a < b)) [10, 20, 20, 30, 40] 20 ∧
      lower_scan (fun a b : Nat => decide (a < b)) [10, 20, 20, 30, 40] 20
        = first_where (fun x => !decide (x < 20)) [10, 20, 20, 30, 40] ∧
      upper_bisect (fun a b : Nat => decide (a < b)) [10, 20, 20, 30, 40] 20
        = upper_scan (fun a b : Nat => decide (a < b)) [10, 20, 20, 30, 40] 20 ∧
      upper_scan (fun a b : Nat => decide (a < b)) [10, 20, 20, 30, 40] 20
        = first_where (fun x => decide (20 < x)) [10, 20, 20, 30, 40] :=
  node_bound_branches _ strictWeak_lt [10, 20, 20, 30, 40] (by decide) 20

end NodeBounds

section NodeBoundsModel
variable {α : Type} [LinearOrder α]

/-- The per-node `lower_bound_` of the container model is the scalar branch
for the comparator `<`. -/
theorem lower_bound_node_eq_scan (l : List α) (k : α) :
    lower_bound_node l k = lower_scan (fun a b => decide (a < b)) l k := by
  induction l with
  | nil => rfl
  | cons x xs ih =>
    simp only [lower_bound_node, lower_scan, scan, decide_eq_true_eq] at ih ⊢
    rw [ih]

theorem upper_bound_node_eq_scan (l : List α) (k : α) :
    upper_bound_node l k = upper_scan (fun a b => decide (a < b)) l k := by
  induction l with
  | nil => rfl
  | cons x xs ih =>
    simp only [upper_bound_node, upper_scan, scan, Bool.not_eq_true', decide_eq_false_iff_not] at ih ⊢
    rw [ih]

end NodeBoundsModel

end BPP

/-! ## Reverse iterators -/

namespace BPP

section ReverseIterators
variable {α : Type} [LinearOrder α]

/-- The constructor `reverse_iterator(iterator const &)`: copy the position,
then `++*this`, which is `advance_prev_`. -/
def reverse_iterator (t : Tree α) (other : Pos) : Option Pos :=
  advance_prev_ t other.1 other.2

/-- The member `reverse_iterator::base`: `++iterator(node, where)`, which is
`advance_next_`. -/
def base (t : Tree α) (rit : Pos) : Option Pos :=
  advance_next_ t rit.1 rit.2

/-- The reverse iterator `rend()`. -/
def rend : Pos := (Ptr.root, 0)

theorem indexOf_inj (cfg : Config) (t : Tree α) (hwf : WF cfg t) (p q : Pos) (r : Nat)
    (hp : indexOf t p = some r) (hq : indexOf t q = some r) : p = q := by
  have h1 := (rank_at_of_indexOf cfg t p r hwf hp).2
  have h2 := (rank_at_of_indexOf cfg t q r hwf hq).2
  rw [h1] at h2
  exact Option.some.inj h2

/-- C39: on a container that satisfies I1–I7, the empty one included, for
every iterator `it` of the container (one that designates an index, `end()`
included) the reverse iterator made from `it` exists and its `base()` is `it`;
made from `end()` of a non-empty container it designates the last element, and
made from `begin()` it is `rend()`. -/
theorem reverse_base (cfg : Config) (t : Tree α) (hwf : WF cfg t) (it : Pos) (r : Nat)
    (hit : indexOf t it = some r) :
    ∃ rit, reverse_iterator t it = some rit ∧ base t rit = some it ∧
      (it = «end» → 0 < t.size → indexOf t rit = some (t.size - 1)) ∧
      (it = «begin» t → rit = rend) := by
  have hle := indexOf_le_size cfg t it r hwf hit
  obtain ⟨hcap, -, hem | ⟨h, ls, fp, hs, hnd, hh, hsz, -, hchain, hhead, hright⟩⟩ := id hwf
  · obtain ⟨hp, hl, hr, hz⟩ := hem
    have hr0 : r = 0 := by omega
    have he : it = (Ptr.root, 0) := hle.2.2 (by omega)
    subst he
    refine ⟨(Ptr.root, 0), ?_, ?_, fun _ h0 => by omega, fun _ => rfl⟩
    · simp [reverse_iterator, advance_prev_, Tree.level?, SIZE_MAX, hr]
    · simp [base, advance_next_, Tree.level?, SIZE_MAX, hl]
  · by_cases hr0 : 0 < r
    · obtain ⟨rit, h1, h2⟩ := (step_index cfg t hwf it r hit).2 hr0
      obtain ⟨it2, h3, h4⟩ := (step_index cfg t hwf rit (r - 1) h2).1 (by omega)
      have e : r - 1 + 1 = r := by omega
      rw [e] at h4
      have e2 := indexOf_inj cfg t hwf it2 it r h4 hit
      subst e2
      refine ⟨rit, h1, h3, fun he _ => ?_, fun hb => ?_⟩
      · have := hle.2.1 he
        rw [← this]; exact h2
      · exfalso
        cases ls with
        | nil => simp at hhead
        | cons e rest =>
          obtain ⟨p, l⟩ := e
          simp only [List.head?_cons, Option.map_some', Option.some.injEq] at hhead
          have hne := Sub.leaf_nonempty hcap hs (p, l) (by simp)
          have h0 : indexOf t («begin» t) = some 0 := by
            refine Shaped.indexOf hs hnd _ _ ?_
            rw [«begin», ← hhead]
            exact indexIn_head p l rest 0 (List.length_pos.2 hne)
          rw [← hb, h4] at h0
          simp only [Option.some.injEq] at h0
          omega
    · have hr0' : r = 0 := by omega
      subst hr0'
      cases ls with
      | nil => simp at hhead
      | cons e rest =>
        obtain ⟨p, l⟩ := e
        simp only [List.head?_cons, Option.map_some', Option.some.injEq] at hhead
        have hne := Sub.leaf_nonempty hcap hs (p, l) (by simp)
        have h0 : indexOf t (p, 0) = some 0 :=
          Shaped.indexOf hs hnd _ _ (indexIn_head p l rest 0 (List.length_pos.2 hne))
        have e2 := indexOf_inj cfg t hwf it (p, 0) 0 hit h0
        subst e2
        obtain ⟨lf, hlf, hprev, -, -⟩ := hchain
        obtain ⟨b, hb⟩ : ∃ b, p = Ptr.node b := by
          cases hp' : p with
          | null => rw [hp'] at hlf; simp [Tree.leaf?, Tree.node?] at hlf
          | root => rw [hp'] at hlf; simp [Tree.leaf?, Tree.node?] at hlf
          | node b => exact ⟨b, rfl⟩
        subst hb
        have hnode : t.node? (Ptr.node b) = some (Node.leaf lf) := by
          simp only [Tree.leaf?] at hlf
          split at hlf
          · rename_i l' hl'
            rw [hl', ← Option.some.inj hlf]
          · cases hlf
        refine ⟨(Ptr.root, 0), ?_, ?_, fun he h0 => ?_, fun _ => rfl⟩
        · simp [reverse_iterator, advance_prev_, Tree.level?, SIZE_MAX, hnode, hlf, hprev]
        · simp [base, advance_next_, Tree.level?, SIZE_MAX, hhead]
        · simp [«end»] at he

theorem reverse_base_witness :
    ∃ rit, reverse_iterator sample5 (Ptr.node 1, 0) = some rit ∧
      base sample5 rit = some (Ptr.node 1, 0) ∧
      ((Ptr.node 1, 0) = «end» → 0 < sample5.size → indexOf sample5 rit = some (sample5.size - 1)) ∧
      ((Ptr.node 1, 0) = «begin» sample5 → rit = rend) :=
  reverse_base ⟨false, 4, 4⟩ sample5 (sample5_wf false) (Ptr.node 1, 0) 2 (by decide)

end ReverseIterators

end BPP

/-! ## Parent fields after an insert or an erase -/

namespace BPP

section ParentFields
variable {α : Type} [LinearOrder α]

/-- I5 below the node `p`, by a walk: the parent field of `p` is `par`, and
the parent field of every node below `p` names the inner node that lists it
among its children. -/
def parents_ok (t : Tree α) : Nat → Ptr → Ptr → Bool
  | 0, _, _ => false
  | fuel + 1, p, par =>
    match t.node? p with
    | some (Node.leaf l) => decide (l.parent = par)
    | some (Node.inner n) =>
      decide (n.parent = par) && n.children.all (fun c => parents_ok t fuel c p)
    | none => false

/-- I5 for a container: it is empty, or the parent field of the real root
names the anchor and the walk from the real root finds every other parent
field right. -/
def ParentsOk (T : Tree α) : Prop :=
  T.parent = Ptr.root ∨ parents_ok T (T.mem.length + 1) T.parent Ptr.root = true

theorem Sub.parents_ok {cfg : Config} {t : Tree α} :
    ∀ {h : Nat} {isRoot : Bool} {p par : Ptr} {ls : Leaves α} {fp : List Nat} (fuel : Nat),
      Sub cfg t h isRoot p par ls fp → h + 1 ≤ fuel → BPP.parents_ok t fuel p par = true := by
  intro h
  induction h with
  | zero =>
    intro isRoot p par ls fp fuel hs hf
    obtain ⟨a, l, hp, hn, hpar, -⟩ := Sub.zero_iff.1 hs
    obtain ⟨f, rfl⟩ : ∃ f, fuel = f + 1 := ⟨fuel - 1, by omega⟩
    simp [BPP.parents_ok, hn, hpar]
  | succ h ih =>
    intro isRoot p par ls fp fuel hs hf
    obtain ⟨a, n, ps, hp, hn, hpar, hlev, hsz, hc, hkeys, hne, hch, hls, hfp, hlo, hhi⟩ :=
      Sub.succ_iff.1 hs
    obtain ⟨f, rfl⟩ : ∃ f, fuel = f + 1 := ⟨fuel - 1, by omega⟩
    simp only [BPP.parents_ok, hn, Bool.and_eq_true, List.all_eq_true, decide_eq_true_eq]
    refine ⟨hpar, fun c hcm => ?_⟩
    rw [hc] at hcm
    simp only [List.mem_map] at hcm
    obtain ⟨q, hq, rfl⟩ := hcm
    exact ih f (hch q hq) (by omega)

theorem Shaped.parentsOk {cfg : Config} {T : Tree α} {ys : List α} (hsh : Shaped cfg T ys) :
    ParentsOk T := by
  obtain ⟨h, ls, fp, hs, hnd, -⟩ := hsh
  exact Or.inr (Sub.parents_ok _ hs (Sub.fuel hs hnd))

theorem ShapedE.e_parentsOk {cfg : Config} {T : Tree α} {ys : List α} (hsh : ShapedE cfg T ys) :
    ParentsOk T := by
  rcases hsh with ⟨-, hp, -⟩ | hsh
  · exact Or.inl hp
  · exact hsh.parentsOk

/-- Whatever `insert(value)` or `insert(hint, value)` returns on a container
that satisfies I1–I7, for a hint that is an iterator of the container: the
result is not empty and satisfies I1–I7. -/
theorem insert_result_shaped (cfg : Config) (t T : Tree α) (v : α) (hint pos : Pos) (b : Bool)
    (hwf : WF cfg t)
    (hins : insert cfg t v = some (T, (pos, b)) ∨
      ((∃ i, BPP.indexOf t hint = some i) ∧ insert_hint cfg t hint v = some (T, (pos, b)))) :
    ∃ ys, Shaped cfg T ys ∧ Ordered cfg ys := by
  have hcapL := hwf.1
  have hcapI := hwf.2.1
  by_cases hne : t.parent = Ptr.root
  · obtain ⟨t', h1, h2, -⟩ := insert_first_spec cfg t v hcapL
    have hT : T = t' := by
      rcases hins with h | ⟨-, h⟩
      · simp only [insert, insert_nohint_, if_pos hne, h1, Option.some.injEq,
          Prod.mk.injEq] at h
        exact h.1.symm
      · simp only [insert_hint, insert_hint_, if_pos hne, h1, Option.some.injEq,
          Prod.mk.injEq] at h
        exact h.1.symm
    subst hT
    exact ⟨[v], h2, by simp, fun _ => by simp⟩
  · obtain ⟨xs, hsh, hord⟩ := hwf.shaped hne
    have hgood : HintOrd cfg t xs v (some (T, (pos, b))) := by
      rcases hins with h | ⟨hhint, h⟩
      · rw [← h]
        exact HintOrd.ord_nohint cfg false t xs v hcapL hcapI hsh hord (fun _ => rfl)
      · rw [← h]
        exact insert_hint_ordered cfg t xs v _ _ hcapL hcapI hsh hord
          (fun hn => by
            obtain ⟨i, hi⟩ := hhint
            by_cases hr : hint.1 = Ptr.root
            · rw [if_pos hr] at hn; exact absurd rfl hn
            · rw [if_neg hr]
              have hne' : hint ≠ (Ptr.root, 0) := fun e => hr (by rw [e])
              simp only [BPP.indexOf, if_neg hne'] at hi
              cases hll : leafList t with
              | none => simp [hll] at hi
              | some ls =>
                rw [hll] at hi
                exact ⟨ls, i, rfl, hi⟩)
    cases b with
    | true =>
      obtain ⟨j, -, h2, h3⟩ := hgood.1 T pos rfl
      exact ⟨_, h2, h3⟩
    | false =>
      have := hgood.2 T pos rfl
      subst this
      exact ⟨xs, hsh, hord⟩

/-- The erase through an iterator that designates a stored element of a
container that satisfies I1–I7: it returns, and the result is empty or
satisfies I2–I7, with the element removed. -/
theorem erase_result_shaped (cfg : Config) (t : Tree α) (it : Pos) (r : Nat) (hwf : WF cfg t)
    (hcapL : 4 ≤ cfg.maxLeaf) (hit : BPP.indexOf t it = some r) (hr : r < t.size) :
    ∃ T xs, erase cfg t it = some T ∧ toList t = some xs ∧ ShapedE cfg T (xs.eraseIdx r) := by
  have hne : t.parent ≠ Ptr.root := by
    intro e
    obtain ⟨-, -, hem | ⟨h, ls, fp, hs, -⟩⟩ := hwf
    · omega
    · obtain ⟨a, tl, hp, -⟩ := Sub.ptr hs
      rw [hp] at e; simp at e
  obtain ⟨ys, hsh, -⟩ := hwf.shaped hne
  obtain ⟨T, hT, hS⟩ := erase_indexOf cfg t ys it r hcapL hwf.2.1 hsh hit
    (by rw [← hsh.size_eq]; exact hr)
  exact ⟨T, ys, hT, hsh.toList_eq, hS⟩

end ParentFields

end BPP

/-! ## Child scans under I4 and I5 -/

namespace BPP

section Counted
variable {α : Type}

/-- I4 and I5 below the node `p`, whose parent field is `par`, for `h` levels
of inner nodes above the leaves: every inner node has one child more than
separators, its `size` is the sum of the `size` fields of its children (the
`size` of a leaf is its fill), its level is one more than its children's, and
the parent field of every child names it. -/
def Cnt (t : Tree α) : Nat → Ptr → Ptr → Prop
  | 0, p, par => ∃ l, t.node? p = some (Node.leaf l) ∧ l.parent = par
  | h + 1, p, par =>
    ∃ n, t.node? p = some (Node.inner n) ∧ n.parent = par ∧ n.level = h + 1 ∧
      n.children.length = n.item.length + 1 ∧
      n.size = (n.children.map (fun c => (t.size? c).getD 0)).sum ∧
      ∀ c ∈ n.children, Cnt t h c p

/-- The node `x` is `h` levels below the node `p`. -/
def Below (t : Tree α) : Nat → Ptr → Ptr → Prop
  | 0, p, x => x = p
  | h + 1, p, x => ∃ n c, t.node? p = some (Node.inner n) ∧ c ∈ n.children ∧ Below t h c x

theorem Cnt.cnt_node {t : Tree α} {h : Nat} {p par : Ptr} (hc : Cnt t h p par) :
    ∃ a x, p = Ptr.node a ∧ t.node? (Ptr.node a) = some x ∧ a < t.mem.length := by
  have : ∃ x, t.node? p = some x := by
    cases h with
    | zero => obtain ⟨l, hl, -⟩ := hc; exact ⟨_, hl⟩
    | succ h => obtain ⟨n, hn, -⟩ := hc; exact ⟨_, hn⟩
  obtain ⟨x, hx⟩ := this
  cases p with
  | null => simp [Tree.node?] at hx
  | root => simp [Tree.node?] at hx
  | node a => exact ⟨a, x, rfl, hx, lt_mem_of_node? hx⟩

theorem Cnt.cnt_size {t : Tree α} {h : Nat} {p par : Ptr} (hc : Cnt t h p par) :
    ∃ s, t.size? p = some s := by
  obtain ⟨a, x, rfl, hx, -⟩ := hc.cnt_node
  cases x with
  | inner n => exact ⟨n.size, by simp [Tree.size?, hx]⟩
  | leaf l => exact ⟨l.item.length, by simp [Tree.size?, hx]⟩

theorem Cnt.cnt_level {t : Tree α} {h : Nat} {p par : Ptr} (hc : Cnt t h p par) :
    t.level? p = some h := by
  obtain ⟨a, x, rfl, hx, -⟩ := hc.cnt_node
  cases h with
  | zero =>
    obtain ⟨l, hl, -⟩ := hc
    simp [Tree.level?, hl]
  | succ h =>
    obtain ⟨n, hn, -, hlev, -⟩ := hc
    simp [Tree.level?, hn, hlev]

theorem Cnt.cnt_parent {t : Tree α} {h : Nat} {p par : Ptr} (hc : Cnt t h p par) :
    t.parent? p = some par := by
  obtain ⟨a, x, rfl, hx, -⟩ := hc.cnt_node
  cases h with
  | zero =>
    obtain ⟨l, hl, hp⟩ := hc
    simp [Tree.parent?, hl, hp]
  | succ h =>
    obtain ⟨n, hn, hp, -⟩ := hc
    simp [Tree.parent?, hn, hp]

/-- Below a node of level `h` there is a node of each smaller level. -/
theorem Cnt.levels {t : Tree α} : ∀ {h : Nat} {p par : Ptr}, Cnt t h p par →
    ∀ i, i ≤ h → ∃ a, a < t.mem.length ∧ t.level? (Ptr.node a) = some i := by
  intro h
  induction h with
  | zero =>
    intro p par hc i hi
    obtain ⟨a, x, rfl, hx, ha⟩ := hc.cnt_node
    have : i = 0 := by omega
    subst this
    exact ⟨a, ha, hc.cnt_level⟩
  | succ h ih =>
    intro p par hc i hi
    rcases Nat.lt_or_ge i (h + 1) with hlt | hge
    · obtain ⟨n, hn, -, -, hlen, -, hch⟩ := hc
      obtain ⟨c, hcm⟩ : ∃ c, c ∈ n.children := by
        cases hcs : n.children with
        | nil => rw [hcs] at hlen; simp at hlen
        | cons c cs => exact ⟨c, by simp⟩
      exact ih (hch c hcm) i (by omega)
    · obtain ⟨a, x, rfl, hx, ha⟩ := hc.cnt_node
      have : i = h + 1 := by omega
      subst this
      exact ⟨a, ha, hc.cnt_level⟩

/-- The heap holds more cells than a counted subtree has levels of inner
nodes. -/
theorem Cnt.cnt_fuel {t : Tree α} {h : Nat} {p par : Ptr} (hc : Cnt t h p par) :
    h + 1 ≤ t.mem.length := by
  have hl := hc.levels
  choose f hf using fun (i : Fin (h + 1)) => hl i.1 (by omega)
  have hinj : Function.Injective (fun i : Fin (h + 1) => (⟨f i, (hf i).1⟩ : Fin t.mem.length)) := by
    intro i j hij
    simp only [Fin.mk.injEq] at hij
    have h1 := (hf i).2
    have h2 := (hf j).2
    rw [hij, h2] at h1
    exact Fin.ext (Option.some.inj h1).symm
  have := Fintype.card_le_of_injective _ hinj
  simpa using this

/-- The scan of `access_index_` over children whose sizes add up to more than
the index stops at a listed child, with the rest of the index below that
child's size. -/
theorem access_scan_inside (t : Tree α) :
    ∀ (cs : List Ptr) (index : Nat), (∀ c ∈ cs, ∃ s, t.size? c = some s) →
      index < (cs.map (fun c => (t.size? c).getD 0)).sum →
      ∃ i c r s, access_index_scan t cs index = some (c, r) ∧ i < cs.length ∧ cs[i]? = some c ∧
        t.size? c = some s ∧ r < s := by
  intro cs
  induction cs with
  | nil => intro index _ h; simp at h
  | cons c cs ih =>
    intro index hs hlt
    obtain ⟨s, hsc⟩ := hs c (by simp)
    simp only [List.map_cons, List.sum_cons, hsc, Option.getD_some] at hlt
    by_cases hge : index ≥ s
    · obtain ⟨i, c', r, s', h1, h2, h3, h4, h5⟩ := ih (index - s)
        (fun c' hc' => hs c' (List.mem_cons_of_mem _ hc')) (by omega)
      refine ⟨i + 1, c', r, s', ?_, by simp; omega, by simpa using h3, h4, h5⟩
      simp only [access_index_scan, hsc, if_pos hge]
      exact h1
    · refine ⟨0, c, index, s, ?_, by simp, by simp, hsc, by omega⟩
      simp only [access_index_scan, hsc, if_neg hge]

/-- The scan of `advance_root_` over children that list the node finds it. -/
theorem root_scan_inside (t : Tree α) (node : Ptr) :
    ∀ (cs : List Ptr) (w : Nat), (∀ c ∈ cs, ∃ s, t.size? c = some s) → node ∈ cs →
      ∃ i w', advance_root_scan t node cs w = some w' ∧ i < cs.length ∧ cs[i]? = some node := by
  intro cs
  induction cs with
  | nil => intro w _ h; simp at h
  | cons c cs ih =>
    intro w hs hm
    by_cases hc : c = node
    · exact ⟨0, w, by simp [ advance_root_scan, hc], by simp, by simp [hc]⟩
    · obtain ⟨s, hsc⟩ := hs c (by simp)
      have hm' : node ∈ cs := by
        rcases List.mem_cons.1 hm with e | e
        · exact absurd e.symm hc
        · exact e
      obtain ⟨i, w', h1, h2, h3⟩ := ih (w + s) (fun c' hc' => hs c' (List.mem_cons_of_mem _ hc')) hm'
      refine ⟨i + 1, w', ?_, by simp; omega, by simpa using h3⟩
      simp only [ advance_root_scan, if_neg hc, hsc]
      exact h1

/-- The descent of `access_index_` below a counted node ends inside a leaf. -/
theorem access_loop_inside (t : Tree α) :
    ∀ (h : Nat) (p par : Ptr) (fuel index s : Nat), Cnt t h p par → h + 1 ≤ fuel →
      t.size? p = some s → index < s →
      ∃ leaf off l, access_index_loop t fuel p index = some (leaf, off) ∧
        t.leaf? leaf = some l ∧ off < l.item.length := by
  intro h
  induction h with
  | zero =>
    intro p par fuel index s hc hf hs hlt
    obtain ⟨f, rfl⟩ : ∃ f, fuel = f + 1 := ⟨fuel - 1, by omega⟩
    have hlev := hc.cnt_level
    obtain ⟨a, x, rfl, hx, -⟩ := hc.cnt_node
    obtain ⟨l, hl, -⟩ := hc
    refine ⟨Ptr.node a, index, l, ?_, leaf?_of_node? hl, ?_⟩
    · simp [access_index_loop, hlev]
    · simp only [Tree.size?, hl, Option.some.injEq] at hs
      omega
  | succ h ih =>
    intro p par fuel index s hc hf hs hlt
    obtain ⟨f, rfl⟩ : ∃ f, fuel = f + 1 := ⟨fuel - 1, by omega⟩
    have hlev := hc.cnt_level
    obtain ⟨a, x, rfl, hx, -⟩ := hc.cnt_node
    obtain ⟨n, hn, -, -, hlen, hsz, hch⟩ := hc
    have hs' : s = n.size := by
      simp only [Tree.size?, hn, Option.some.injEq] at hs
      exact hs.symm
    obtain ⟨i, c, r, s', h1, h2, h3, h4, h5⟩ := access_scan_inside t n.children index
      (fun c hcm => (hch c hcm).cnt_size) (by rw [← hsz, ← hs']; exact hlt)
    have hcm : c ∈ n.children := by
      obtain ⟨hi, e⟩ := List.getElem?_eq_some.1 h3
      rw [← e]; exact List.getElem_mem _
    obtain ⟨leaf, off, l, h6, h7, h8⟩ := ih c (Ptr.node a) f r s' (hch c hcm) (by omega) h4 h5
    refine ⟨leaf, off, l, ?_, h7, h8⟩
    simp only [access_index_loop, hlev, inner?_of_node? hn, h1]
    simpa using h6

/-- The climb of `advance_root_` from a node `h` levels below a counted node
`p` arrives at `p`. -/
theorem climb_inside (t : Tree α) :
    ∀ (h : Nat) (p par x : Ptr) (w : Nat), Cnt t h p par → h < SIZE_MAX → Below t h p x →
      ∃ w', ∀ fuel, advance_root_ t (fuel + h) x w = advance_root_ t fuel p w' := by
  intro h
  induction h with
  | zero =>
    intro p par x w hc hh hb
    simp only [Below] at hb
    subst hb
    exact ⟨w, fun fuel => rfl⟩
  | succ h ih =>
    intro p par x w hc hh hb
    obtain ⟨n', c, hn', hcm, hb'⟩ := hb
    have hlev := hc.cnt_level
    obtain ⟨n, hn, -, -, hlen, hsz, hch⟩ := hc
    rw [hn] at hn'
    simp only [Option.some.injEq, Node.inner.injEq] at hn'
    subst hn'
    obtain ⟨w1, h1⟩ := ih c p x w (hch c hcm) (by omega) hb'
    obtain ⟨i, w2, h2, -, -⟩ := root_scan_inside t c n.children w1
      (fun c' hc' => (hch c' hc').cnt_size) hcm
    refine ⟨w2, fun fuel => ?_⟩
    have e : fuel + (h + 1) = (fuel + 1) + h := by omega
    rw [e, h1 (fuel + 1)]
    have hne : h + 1 ≠ SIZE_MAX := by omega
    simp only [ advance_root_, (hch c hcm).cnt_parent, hlev, inner?_of_node? hn, h2]
    simp [hne]

/-- C37: in a tree whose nodes satisfy I4 and I5 (`Cnt`, for a node `p` of
level `h`): `access_index_` called on `p` with an index below the size of `p`
returns a position inside a leaf, and when `p` is an inner node the scan of
its children stops at a child slot `i ≤ used` with the rest of the index below
that child's size; the scan of `advance_root_` over the children of `p` finds
every child of `p` at a slot `i ≤ used`; and when `p` is the real root (its
parent is the anchor), `advance_root_` called on a node `h` levels below `p`
stops at `p`. -/
theorem child_scans_inside (t : Tree α) (h : Nat) (p par : Ptr) (hcnt : Cnt t h p par) :
    (∀ index s, t.size? p = some s → index < s →
      ∃ leaf off l, access_index_ t p index = some (leaf, off) ∧ t.leaf? leaf = some l ∧
        off < l.item.length) ∧
    (∀ n, t.inner? p = some n → ∀ index, index < n.size →
      ∃ i c r s, access_index_scan t n.children index = some (c, r) ∧ i ≤ n.item.length ∧
        n.children[i]? = some c ∧ t.size? c = some s ∧ r < s) ∧
    (∀ n, t.inner? p = some n → ∀ c ∈ n.children, ∀ w,
      ∃ i w', advance_root_scan t c n.children w = some w' ∧ i ≤ n.item.length ∧
        n.children[i]? = some c) ∧
    (par = Ptr.root → h < SIZE_MAX → ∀ x w, Below t h p x →
      ∃ r, advance_root_ t (t.mem.length + 1) x w = some (p, r)) := by
  have hinner : ∀ n, t.inner? p = some n → ∃ k, h = k + 1 ∧
      n.children.length = n.item.length + 1 ∧
      n.size = (n.children.map (fun c => (t.size? c).getD 0)).sum ∧
      ∀ c ∈ n.children, Cnt t k c p := by
    intro n hn
    cases h with
    | zero =>
      obtain ⟨l, hl, -⟩ := hcnt
      simp [Tree.inner?, hl] at hn
    | succ k =>
      obtain ⟨n', hn', -, -, hlen, hsz, hch⟩ := hcnt
      have : n = n' := by
        simp only [Tree.inner?, hn', Option.some.injEq] at hn
        exact hn.symm
      subst this
      exact ⟨k, rfl, hlen, hsz, hch⟩
  refine ⟨fun index s hs hlt => ?_, fun n hn index hlt => ?_, fun n hn c hcm w => ?_,
    fun hpar hh x w hb => ?_⟩
  · obtain ⟨leaf, off, l, h1, h2, h3⟩ := access_loop_inside t h p par (t.mem.length + 1) index s
      hcnt (by have := hcnt.cnt_fuel; omega) hs hlt
    refine ⟨leaf, off, l, ?_, h2, h3⟩
    simp only [access_index_, hs]
    rw [if_neg (by omega)]
    exact h1
  · obtain ⟨k, -, hlen, hsz, hch⟩ := hinner n hn
    obtain ⟨i, c, r, s, h1, h2, h3, h4, h5⟩ := access_scan_inside t n.children index
      (fun c hcm => (hch c hcm).cnt_size) (by rw [← hsz]; exact hlt)
    exact ⟨i, c, r, s, h1, by omega, h3, h4, h5⟩
  · obtain ⟨k, -, hlen, hsz, hch⟩ := hinner n hn
    obtain ⟨i, w', h1, h2, h3⟩ := root_scan_inside t c n.children w
      (fun c hcm => (hch c hcm).cnt_size) hcm
    exact ⟨i, w', h1, by omega, h3⟩
  · subst hpar
    obtain ⟨w', h1⟩ := climb_inside t h p Ptr.root x w hcnt hh hb
    have hf := hcnt.cnt_fuel
    have e : t.mem.length + 1 = (t.mem.length + 1 - h) + h := by omega
    rw [e, h1]
    obtain ⟨f, hfe⟩ : ∃ f, t.mem.length + 1 - h = f + 1 := ⟨t.mem.length - h, by omega⟩
    rw [hfe]
    refine ⟨w', ?_⟩
    simp [ advance_root_, hcnt.cnt_parent, Tree.level?]

end Counted

section CountedWF
variable {α : Type} [LinearOrder α]

/-- A subtree that satisfies I2–I5 satisfies I4 and I5. -/
theorem Sub.cnt {cfg : Config} {t : Tree α} :
    ∀ {h : Nat} {isRoot : Bool} {p par : Ptr} {ls : Leaves α} {fp : List Nat},
      Sub cfg t h isRoot p par ls fp → Cnt t h p par := by
  intro h
  induction h with
  | zero =>
    intro isRoot p par ls fp hs
    obtain ⟨a, l, hp, hn, hpar, -⟩ := Sub.zero_iff.1 hs
    exact ⟨l, hn, hpar⟩
  | succ h ih =>
    intro isRoot p par ls fp hs
    obtain ⟨a, n, ps, hp, hn, hpar, hlev, hsz, hc, hkeys, hne, hch, hls, hfp, hlo, hhi⟩ :=
      Sub.succ_iff.1 hs
    refine ⟨n, hn, hpar, hlev, ?_, ?_, fun c hcm => ?_⟩
    · have := congrArg List.length hkeys
      simp only [List.length_map, List.length_dropLast] at this
      rw [hc, List.length_map, this]
      have := List.length_pos.2 hne
      omega
    · rw [hsz, hls, items_leavesOf_length, hc, List.map_map]
      congr 1
      apply List.map_congr_left
      intro q hq
      simp [Sub.size? (hch q hq)]
    · rw [hc] at hcm
      simp only [List.mem_map] at hcm
      obtain ⟨q, hq, rfl⟩ := hcm
      exact ih (hch q hq)

theorem sample5_cnt : Cnt sample5 1 (Ptr.node 2) Ptr.root := by
  obtain ⟨-, -, hem | ⟨h, ls, fp, hs, -⟩⟩ := sample5_wf false
  · exact absurd hem.1 (by decide)
  · have hl := Sub.level? hs
    have : h = 1 := by
      have e : sample5.level? sample5.parent = some 1 := by decide
      rw [e] at hl
      exact (Option.some.inj hl).symm
    subst this
    exact Sub.cnt hs

/-- The statement of `child_scans_inside` at the real root of the container
10, 20, 30, 40, 50, with the access to index 3 and the climb from the second
leaf evaluated. -/
theorem child_scans_inside_witness :
    ((∀ index s, sample5.size? (Ptr.node 2) = some s → index < s →
      ∃ leaf off l, access_index_ sample5 (Ptr.node 2) index = some (leaf, off) ∧
        sample5.leaf? leaf = some l ∧ off < l.item.length) ∧
    (∀ n, sample5.inner? (Ptr.node 2) = some n → ∀ index, index < n.size →
      ∃ i c r s, access_index_scan sample5 n.children index = some (c, r) ∧ i ≤ n.item.length ∧
        n.children[i]? = some c ∧ sample5.size? c = some s ∧ r < s) ∧
    (∀ n, sample5.inner? (Ptr.node 2) = some n → ∀ c ∈ n.children, ∀ w,
      ∃ i w', advance_root_scan sample5 c n.children w = some w' ∧ i ≤ n.item.length ∧
        n.children[i]? = some c) ∧
    ((Ptr.root : Ptr) = Ptr.root → 1 < SIZE_MAX → ∀ x w, Below sample5 1 (Ptr.node 2) x →
      ∃ r, advance_root_ sample5 (sample5.mem.length + 1) x w = some (Ptr.node 2, r))) ∧
    access_index_ sample5 (Ptr.node 2) 3 = some (Ptr.node 1, 1) ∧
    advance_root_ sample5 (sample5.mem.length + 1) (Ptr.node 1) 1 = some (Ptr.node 2, 3) :=
  ⟨child_scans_inside sample5 1 (Ptr.node 2) Ptr.root sample5_cnt, by decide, by decide⟩

end CountedWF

end BPP

/-! ## The halves of a split inner node -/

namespace BPP

section SplitPlacement
variable {α : Type} [LinearOrder α]

/-- The state of an insert into the container 10, 30, 40 with
`MAX_LEAF = MAX_INNER = 2` after the first leaf has been split: the full inner
root still has to take the separator 10 and the new leaf `[20]`. -/
def sampleFull : Tree Nat :=
  ⟨Ptr.node 3, 3, Ptr.node 0, Ptr.node 2,
    [some (Node.leaf ⟨Ptr.node 3, Ptr.root, Ptr.node 4, [10]⟩),
     some (Node.leaf ⟨Ptr.node 3, Ptr.node 4, Ptr.node 2, [30]⟩),
     some (Node.leaf ⟨Ptr.node 3, Ptr.node 1, Ptr.root, [40]⟩),
     some (Node.inner ⟨Ptr.root, 4, 1, [Ptr.node 0, Ptr.node 1, Ptr.node 2], [20, 30]⟩),
     some (Node.leaf ⟨Ptr.null, Ptr.node 0, Ptr.node 1, [20]⟩)]⟩

/-- C35: a full inner node (`used = MAX_INNER ≥ 2`) of a subtree that
satisfies I2–I5 takes a new separator `k` for slot `i ∈ [0, MAX_INNER]` and a
new child for the slot after it: `split_inner_node_` and the placement (into
the left half, into the right half, or the rejoin case) leave two nodes that
together hold `MAX_INNER` keys, each at least `MIN_INNER`, the two counts
differing by at most 1, and the left keys, the promoted key and the right
keys (likewise the left and the right children) are the old sequence with the
new separator (the new child) inserted. -/
theorem split_placement {cfg : Config} {h : Nat} (t : Tree α) (a : Nat)
    (n : InnerNode α) (i : Nat) (k : α) (ps : List (Part α)) (q2 : Part α)
    (hcapL : 2 ≤ cfg.maxLeaf) (hcapI : 2 ≤ cfg.maxInner)
    (hn : t.node? (Ptr.node a) = some (Node.inner n)) (hlev : n.level = h + 1)
    (hc : n.children = ps.map Part.ptr) (hlen : ps.length = n.item.length + 1)
    (hi : i < ps.length)
    (hsep : (n.item.take i ++ k :: n.item.drop i).map some
      = (ps.take (i + 1) ++ q2 :: ps.drop (i + 1)).dropLast.map Part.last)
    (hsz : n.size = (items (leavesOf (ps.take (i + 1) ++ q2 :: ps.drop (i + 1)))).length)
    (hch : ∀ q ∈ ps, Sub cfg t h false q.ptr (Ptr.node a) q.leaves q.fp)
    (hq2 : Sub cfg t h false q2.ptr Ptr.null q2.leaves q2.fp)
    (hnd : (a :: fpOf (ps.take (i + 1) ++ q2 :: ps.drop (i + 1))).Nodup)
    (hfull : n.item.length = cfg.maxInner) :
    ∃ t' k' nA nN, place_child_ cfg t (Ptr.node a) i k q2.ptr
        = some (t', some (k', Ptr.node t.mem.length)) ∧
      t'.inner? (Ptr.node a) = some nA ∧ t'.inner? (Ptr.node t.mem.length) = some nN ∧
      nA.item.length + nN.item.length = cfg.maxInner ∧
      cfg.maxInner / 2 ≤ nA.item.length ∧ cfg.maxInner / 2 ≤ nN.item.length ∧
      nA.item.length ≤ nN.item.length + 1 ∧ nN.item.length ≤ nA.item.length + 1 ∧
      nA.item ++ k' :: nN.item = n.item.take i ++ k :: n.item.drop i ∧
      nA.children ++ nN.children
        = n.children.take (i + 1) ++ q2.ptr :: n.children.drop (i + 1) := by
  obtain ⟨t', k', m, h1, -, -, -, -, -, nA, nN, hA, hN, hAi, hNi, hk, hAc, hNc, hb1, hb2⟩ :=
    place_child_split t a n i k ps q2 hcapL hcapI hn hlev hc hlen hi hsep hsz hch hq2 hnd hfull
  have hil : (n.item.take i ++ k :: n.item.drop i).length = n.item.length + 1 :=
    ins_length _ _ _ (by omega)
  have hm : m < n.item.length + 1 := by
    rw [← hil]
    exact (List.getElem?_eq_some.1 hk).1
  have hlA : nA.item.length = m := by rw [hAi, List.length_take, hil]; omega
  have hlN : nN.item.length = n.item.length - m := by rw [hNi, List.length_drop, hil]; omega
  refine ⟨t', k', nA, nN, h1, inner?_of_node? hA, inner?_of_node? hN, by omega, by omega,
    by omega, by omega, by omega, ?_, ?_⟩
  · rw [hAi, hNi]
    obtain ⟨hlt, e⟩ := List.getElem?_eq_some.1 hk
    rw [← e, ← List.drop_eq_getElem_cons hlt, List.take_append_drop]
  · rw [hAc, hNc, ← List.map_append, List.take_append_drop, hc, List.map_append, List.map_cons,
      List.map_take, List.map_drop]

theorem split_placement_witness :
    ∃ t' k' nA nN, place_child_ ⟨false, 2, 2⟩ sampleFull (Ptr.node 3) 0 10 (Ptr.node 4)
        = some (t', some (k', Ptr.node sampleFull.mem.length)) ∧
      t'.inner? (Ptr.node 3) = some nA ∧ t'.inner? (Ptr.node sampleFull.mem.length) = some nN ∧
      nA.item.length + nN.item.length = 2 ∧
      2 / 2 ≤ nA.item.length ∧ 2 / 2 ≤ nN.item.length ∧
      nA.item.length ≤ nN.item.length + 1 ∧ nN.item.length ≤ nA.item.length + 1 ∧
      nA.item ++ k' :: nN.item = ([20, 30] : List Nat).take 0 ++ 10 :: ([20, 30] : List Nat).drop 0 ∧
      nA.children ++ nN.children
        = [Ptr.node 0, Ptr.node 1, Ptr.node 2].take (0 + 1) ++ Ptr.node 4 ::
          [Ptr.node 0, Ptr.node 1, Ptr.node 2].drop (0 + 1) :=
  split_placement sampleFull 3 ⟨Ptr.root, 4, 1, [Ptr.node 0, Ptr.node 1, Ptr.node 2], [20, 30]⟩
    0 10
    [⟨Ptr.node 0, [(Ptr.node 0, [10])], [0]⟩, ⟨Ptr.node 1, [(Ptr.node 1, [30])], [1]⟩,
      ⟨Ptr.node 2, [(Ptr.node 2, [40])], [2]⟩]
    ⟨Ptr.node 4, [(Ptr.node 4, [20])], [4]⟩
    (by decide) (by decide) rfl rfl rfl rfl (by decide) (by decide) (by decide)
    (by
      intro q hq
      simp only [List.mem_cons, List.mem_singleton, List.not_mem_nil, or_false] at hq
      rcases hq with rfl | rfl | rfl
      · exact Sub.zero_iff.2 ⟨0, ⟨Ptr.node 3, Ptr.root, Ptr.node 4, [10]⟩, rfl, rfl, rfl, rfl,
          rfl, by decide, by decide⟩
      · exact Sub.zero_iff.2 ⟨1, ⟨Ptr.node 3, Ptr.node 4, Ptr.node 2, [30]⟩, rfl, rfl, rfl, rfl,
          rfl, by decide, by decide⟩
      · exact Sub.zero_iff.2 ⟨2, ⟨Ptr.node 3, Ptr.node 1, Ptr.root, [40]⟩, rfl, rfl, rfl, rfl,
          rfl, by decide, by decide⟩)
    (Sub.zero_iff.2 ⟨4, ⟨Ptr.null, Ptr.node 0, Ptr.node 1, [20]⟩, rfl, rfl, rfl, rfl, rfl,
      by decide, by decide⟩)
    (by decide) rfl

end SplitPlacement

end BPP

/-! ## The stages of the erase by key -/

namespace BPP

section KeyEraseStages
variable {α : Type} [LinearOrder α]

/-- The left neighbour and its parent that `erase_one_descend_` hands to the
child at slot `where` of the inner node `node`. -/
def self_left_ (t : Tree α) (node : Ptr) (inner_node : InnerNode α) («where» : Nat)
    (left left_parent : Ptr) : Option (Ptr × Ptr) :=
  if «where» = 0 then
    if left = Ptr.null then some (Ptr.null, left_parent)
    else do
      let il ← t.inner? left
      let c ← il.children[wsub il.item.length 1]?
      some (c, left_parent)
  else do
    let c ← inner_node.children[«where» - 1]?
    some (c, node)

/-- The right neighbour and its parent that `erase_one_descend_` hands to the
child at slot `where` of the inner node `node`. -/
def self_right_ (t : Tree α) (node : Ptr) (inner_node : InnerNode α) («where» : Nat)
    (right right_parent : Ptr) : Option (Ptr × Ptr) :=
  if «where» = inner_node.item.length then
    if right = Ptr.null then some (Ptr.null, right_parent)
    else do
      let ir ← t.inner? right
      let c ← ir.children[0]?
      some (c, right_parent)
  else do
    let c ← inner_node.children[«where» + 1]?
    some (c, node)

/-- The first part of `erase_one_descend_` in a leaf that holds the key at
`where`: the item leaves the leaf and, when it was the last one, the new last
key goes to the parent. -/
def erase_one_head_ (cfg : Config) (t : Tree α) (node : Ptr) («where» : Nat) (parent : Ptr)
    (parent_where : Nat) : Option (Tree α × Result α × Nat) := do
  let some leaf_node := t.leaf? node | none
  let some items := eraseAt? leaf_node.item «where» | none
  let some t := t.modLeaf node (fun m => { m with item := items }) | none
  let some (t, result) := (
    if «where» = items.length then leaf_last_key_ cfg t node parent parent_where
    else some (t, Result.ok))
    | none
  some (t, result, items.length)

/-- The second part of `erase_one_descend_` in a leaf: the repair of an
underflow. -/
def erase_one_leaf_fix_ (cfg : Config) (t : Tree α) (node : Ptr) (len : Nat) (result : Result α)
    (left right left_parent right_parent parent : Ptr) (parent_where : Nat) :
    Option (Tree α × Result α) :=
  if len < cfg.maxLeaf / 2 ∧ ¬ (node = t.parent ∧ len ≥ 1) then
    if left = Ptr.null ∧ right = Ptr.null then do
      let some t := t.free_node_ t.parent | none
      some ({ t with parent := Ptr.root, left := Ptr.null, right := Ptr.null }, Result.ok)
    else
      rebalance_leaf_ cfg t node left right left_parent right_parent parent parent_where result
  else some (t, result)

/-- What `erase_one_descend_` does in an inner node once the call on the child
at slot `where` has returned with an element removed: the node counts the
element out, hands a new last key to its parent, drops a child merged away
below, and repairs an underflow of its own. -/
def erase_one_after_ (cfg : Config) (t : Tree α) (node left right left_parent right_parent
    parent : Ptr) (parent_where «where» : Nat) (result : Result α) :
    Option (Tree α × Result α) := do
  let some t := t.modInner node (fun m => { m with size := wsub m.size 1 }) | none
  let some (t, self_result) := (
    match result.last_key with
    | some k => inner_last_key_ cfg t parent parent_where k
    | none => some (t, Result.ok))
    | none
  let some t := if result.fixmerge then fixmerge_ cfg t node «where» else some t | none
  let some n := t.inner? node | none
  if n.item.length < cfg.maxInner / 2 ∧ ¬ (node = t.parent ∧ n.item.length ≥ 1) then
    if left = Ptr.null ∧ right = Ptr.null then
      let some c0 := n.children[0]? | none
      let t := { t with parent := c0 }
      let some t := t.modInner node (fun m => { m with item := [] }) | none
      let some t := t.free_node_ node | none
      some (t, Result.ok)
    else
      rebalance_inner_ cfg t node left right left_parent right_parent parent parent_where
        self_result
  else some (t, self_result)

/-- The call of `erase_one_descend_` on a leaf that holds the key. -/
theorem erase_one_descend_leaf (cfg : Config) (key : α) (fuel : Nat) (t : Tree α)
    (node left right lp rp parent : Ptr) (pw : Nat) (l : LeafNode α) (x : α)
    (hlev : t.level? node = some 0) (hl : t.leaf? node = some l)
    (hx : l.item[lower_bound_node l.item key]? = some x) (hkx : ¬ key < x) :
    erase_one_descend_ cfg key (fuel + 1) t node left right lp rp parent pw
      = (erase_one_head_ cfg t node (lower_bound_node l.item key) parent pw).bind (fun s =>
          erase_one_leaf_fix_ cfg s.1 node s.2.2 s.2.1 left right lp rp parent pw) := by
  have hlt : lower_bound_node l.item key < l.item.length := (List.getElem?_eq_some.1 hx).1
  have hnge : ¬ lower_bound_node l.item key ≥ l.item.length := by omega
  rw [erase_one_descend_]
  unfold erase_one_head_
  simp only [hlev, hl, if_pos, if_neg hnge, hx, hkx, Option.pure_def, Option.bind_eq_bind,
    Option.some_bind, not_false_eq_true, decide_True, not_true_eq_false, if_false, if_true]
  cases h2 : eraseAt? l.item (lower_bound_node l.item key) with
  | none => simp [h2]
  | some its =>
    cases h3 : t.modLeaf node (fun m => { m with item := its }) with
    | none => simp [h2, h3]
    | some t1 =>
      simp only [h2, h3, Option.some_bind]
      generalize (if lower_bound_node l.item key = its.length then
          leaf_last_key_ cfg t1 node parent pw else some (t1, Result.ok)) = o
      rcases o with _ | ⟨s, r0⟩
      · rfl
      · simp only [Option.some_bind]
        unfold erase_one_leaf_fix_
        rfl

/-- The call of `erase_one_descend_` on a leaf that does not hold the key. -/
theorem erase_one_descend_leaf_absent (cfg : Config) (key : α) (fuel : Nat) (t : Tree α)
    (node left right lp rp parent : Ptr) (pw : Nat) (l : LeafNode α)
    (hlev : t.level? node = some 0) (hl : t.leaf? node = some l)
    (hx : ∀ x, l.item[lower_bound_node l.item key]? = some x → key < x) :
    erase_one_descend_ cfg key (fuel + 1) t node left right lp rp parent pw
      = some (t, Result.notFound) := by
  rw [erase_one_descend_]
  by_cases hge : lower_bound_node l.item key ≥ l.item.length
  · simp [hlev, hl, hge]
  · have hlt : lower_bound_node l.item key < l.item.length := by omega
    have hk := hx _ (List.getElem?_eq_getElem hlt)
    simp [hlev, hl, hge, List.getElem?_eq_getElem hlt, hk]

/-- The call of `erase_one_descend_` on an inner node: the call on the child
the key leads to, then the node's own turn unless the key was not found. -/
theorem erase_one_descend_inner (cfg : Config) (key : α) (fuel : Nat) (t : Tree α)
    (node left right lp rp parent : Ptr) (pw : Nat) (n : InnerNode α) (k : Nat)
    (sl sr : Ptr × Ptr) (child : Ptr) (r : Tree α × Result α)
    (hlev : t.level? node = some (k + 1)) (hn : t.inner? node = some n)
    (hsl : self_left_ t node n (lower_bound_node n.item key) left lp = some sl)
    (hsr : self_right_ t node n (lower_bound_node n.item key) right rp = some sr)
    (hc : n.children[lower_bound_node n.item key]? = some child)
    (hrec : erase_one_descend_ cfg key fuel t child sl.1 sr.1 sl.2 sr.2 node
      (lower_bound_node n.item key) = some r) :
    erase_one_descend_ cfg key (fuel + 1) t node left right lp rp parent pw
      = if r.2.not_found then some r
        else erase_one_after_ cfg r.1 node left right lp rp parent pw
          (lower_bound_node n.item key) r.2 := by
  rw [erase_one_descend_]
  unfold self_left_ at hsl
  unfold self_right_ at hsr
  obtain ⟨sl1, sl2⟩ := sl
  obtain ⟨sr1, sr2⟩ := sr
  obtain ⟨t1, res⟩ := r
  have hk : ¬ (k + 1 = 0) := by omega
  simp only [Option.pure_def, Option.bind_eq_bind] at hsl hsr hrec
  simp only [hlev, hn, hk, if_false, hc, Option.pure_def, Option.bind_eq_bind,
    Option.some_bind]
  rw [hsl, hsr]
  simp only [hrec]
  by_cases hnf : res.not_found = true
  · simp [hnf]
  · simp only [hnf, if_false, Bool.false_eq_true]
    unfold erase_one_after_
    rfl

end KeyEraseStages

end BPP

/-! ## The erase by key in a leaf below a level-1 node -/

namespace BPP

section LeafFixCore
variable {α : Type} [LinearOrder α]

/-- The rule `rebalance_leaf_` applies to a leaf that lost an item, given the
neighbours its caller found: one rule on the leaf and a sibling. -/
theorem leaf_fix_core (cfg : Config) (s : Tree α) (a : Nat) (n : InnerNode α)
    (pre post : List (Part α)) (X0 : Nat) (lx : LeafNode α) (L R : Leaves α) (prev0 : Ptr)
    (r0 : Result α) (left lp right rp : Ptr) (hcapL : 4 ≤ cfg.maxLeaf)
    (hlv : LeafLvl cfg s a n pre post X0 lx L R prev0)
    (hlo : cfg.maxLeaf / 2 ≤ lx.item.length + 1) (hu : lx.item.length < cfg.maxLeaf / 2)
    (hsib : pre ≠ [] ∨ post ≠ [])
    (hl2 : pre = [] → lp ≠ Ptr.node a ∧
      (left = Ptr.null ∨ ∃ par ls fp, Sub cfg s 0 false left par ls fp))
    (hl3 : ∀ pre' q, pre = pre' ++ [q] → lp = Ptr.node a ∧ left = q.ptr)
    (hr2 : post = [] → rp ≠ Ptr.node a ∧
      (right = Ptr.null ∨ ∃ par ls fp, Sub cfg s 0 false right par ls fp))
    (hr3 : ∀ q post', post = q :: post' → rp = Ptr.node a ∧ right = q.ptr)
    (hr0 : r0.fixmerge = false) :
    ¬ (left = Ptr.null ∧ right = Ptr.null) ∧
    ∃ t1 res,
      rebalance_leaf_ cfg s (Ptr.node X0) left right lp rp (Ptr.node a) pre.length r0
        = some (t1, res) ∧
      res.last_key = r0.last_key ∧ res.not_found = r0.not_found ∧
      RebOut cfg s t1 0 a n pre.length (pre ++ Part.ofLeaf X0 lx.item :: post)
        (items (leavesOf (pre ++ Part.ofLeaf X0 lx.item :: post))) (Ptr.node X0) L R prev0
        res.fixmerge := by
  obtain ⟨hc', hlen⟩ := hlv.lvl_slot
  have hn := hlv.1
  have hX := hlv.2.2.2.1
  have hch := hlv.2.2.2.2.2.1
  have hrd : ∀ {x par ls fp}, Sub cfg s 0 false x par ls fp →
      x ≠ Ptr.null ∧ ∃ l, s.leaf? x = some l := by
    intro x par ls fp hs
    obtain ⟨b, l, hp, hnl, -⟩ := Sub.zero_iff.1 hs
    exact ⟨by rw [hp]; simp, l, leaf?_of_node? hnl⟩
  have hNl : NbLeaf s left lp (Ptr.node a) := by
    rcases List.eq_nil_or_concat pre with hpre | ⟨pre', y, hpre⟩
    · obtain ⟨h1, h2⟩ := hl2 hpre
      refine Or.inr ⟨h1, ?_⟩
      rcases h2 with h2 | ⟨par, ls, fp, hs⟩
      · exact Or.inl h2
      · exact Or.inr (hrd hs).2
    · obtain ⟨h1, h2⟩ := hl3 pre' y (by simpa using hpre)
      have := hrd (hch y (by rw [hpre]; simp))
      rw [← h2] at this
      exact Or.inl ⟨h1, this⟩
  have hNr : NbLeaf s right rp (Ptr.node a) := by
    cases hpost : post with
    | nil =>
      obtain ⟨h1, h2⟩ := hr2 hpost
      refine Or.inr ⟨h1, ?_⟩
      rcases h2 with h2 | ⟨par, ls, fp, hs⟩
      · exact Or.inl h2
      · exact Or.inr (hrd hs).2
    | cons y post' =>
      obtain ⟨h1, h2⟩ := hr3 y post' hpost
      have := hrd (hch y (by rw [hpost]; simp))
      rw [← h2] at this
      exact Or.inl ⟨h1, this⟩
  have hone : lp = Ptr.node a ∨ rp = Ptr.node a := by
    rcases hsib with h | h
    · rcases List.eq_nil_or_concat pre with hpre | ⟨pre', y, hpre⟩
      · exact absurd hpre h
      · exact Or.inl (hl3 pre' y (by simpa using hpre)).1
    · cases hpost : post with
      | nil => exact absurd hpost h
      | cons y post' => exact Or.inr (hr3 y post' hpost).1
  have hnn : ¬ (left = Ptr.null ∧ right = Ptr.null) := by
    rintro ⟨h1, h2⟩
    rcases hNl with ⟨-, h, -⟩ | ⟨hl, -⟩
    · exact h h1
    rcases hNr with ⟨-, h, -⟩ | ⟨hr, -⟩
    · exact h h2
    rcases hone with h | h
    · exact hl h
    · exact hr h
  refine ⟨hnn, ?_⟩
  have hl1x : 1 ≤ lx.item.length := by omega
  rcases rebalance_leaf_sel cfg s (Ptr.node X0) left right lp rp (Ptr.node a) pre.length r0
    hNl hNr hone with ⟨hlp, ⟨l, hl, hfew⟩, heq⟩ | ⟨hrp, ⟨l, hl, hfew⟩, heq⟩ |
      ⟨hrp, ⟨l, hl, hfew⟩, heq⟩ | ⟨hlp, ⟨l, hl, hfew⟩, heq⟩
  · -- merge with the left sibling
    rcases List.eq_nil_or_concat pre with hpre | ⟨pre', y, hpre⟩
    · exact absurd hlp (hl2 hpre).1
    simp only [List.concat_eq_append] at hpre
    subst hpre
    obtain ⟨-, hleft⟩ := hl3 pre' y rfl
    obtain ⟨Y, ly, hy, hY, hylo, hyhi, hpair⟩ := hlv.pair_left
    subst hy
    have e : l = ly := by
      rw [hleft, Part.ofLeaf_ptr, leaf?_of_node? hY] at hl
      exact (Option.some.inj hl).symm
    subst e
    obtain ⟨t', hm, hreb⟩ := leaf_merge_full cfg s a n (pre'.length + 1) (Ptr.node X0) pre' post
      Y X0 l lx L R prev0 hpair (by omega) (by omega)
      (by intro e; rw [e] at hl1x; simp at hl1x) (Or.inr rfl)
    have hm' : merge_leaves_ cfg s left (Ptr.node X0) = some (t', Result.fix) := by
      rw [hleft]; exact hm
    rw [hm'] at heq
    refine ⟨t', r0.or Result.fix, by rw [heq]; rfl, r0.or_fix.1, r0.or_fix.2.1, ?_⟩
    rw [r0.or_fix.2.2]
    have e : (pre' ++ [Part.ofLeaf Y l.item]) ++ Part.ofLeaf X0 lx.item :: post
        = pre' ++ Part.ofLeaf Y l.item :: Part.ofLeaf X0 lx.item :: post := by simp
    rw [e, List.length_append, List.length_singleton]
    exact hreb
  · -- merge with the right sibling
    cases hpost : post with
    | nil => exact absurd hrp (hr2 hpost).1
    | cons y post' =>
      subst hpost
      obtain ⟨-, hright⟩ := hr3 y post' rfl
      obtain ⟨Y, ly, hy, hY, hylo, hyhi, hpair⟩ := hlv.pair_right
      subst hy
      have e : l = ly := by
        rw [hright, Part.ofLeaf_ptr, leaf?_of_node? hY] at hl
        exact (Option.some.inj hl).symm
      subst e
      obtain ⟨t', hm, hreb⟩ := leaf_merge_full cfg s a n pre.length (Ptr.node X0) pre post'
        X0 Y lx l L R prev0 hpair (by omega) (by omega)
        (by intro e; rw [e] at hylo; simp at hylo; omega) (Or.inl rfl)
      have hm' : merge_leaves_ cfg s (Ptr.node X0) right = some (t', Result.fix) := by
        rw [hright]; exact hm
      rw [hm'] at heq
      refine ⟨t', r0.or Result.fix, by rw [heq]; rfl, r0.or_fix.1, r0.or_fix.2.1, ?_⟩
      rw [r0.or_fix.2.2]
      exact hreb
  · -- shift from the right sibling
    cases hpost : post with
    | nil => exact absurd hrp (hr2 hpost).1
    | cons y post' =>
      subst hpost
      obtain ⟨hrpe, hright⟩ := hr3 y post' rfl
      obtain ⟨Y, ly, hy, hY, hylo, hyhi, hpair⟩ := hlv.pair_right
      subst hy
      have e : l = ly := by
        rw [hright, Part.ofLeaf_ptr, leaf?_of_node? hY] at hl
        exact (Option.some.inj hl).symm
      subst e
      obtain ⟨t', hm, hreb⟩ := leaf_shift_left_full cfg s a n pre post' X0 Y lx l L R prev0
        hpair hcapL hlo hu hfew hyhi
      have hm' : shift_left_leaf_ cfg s (Ptr.node X0) right rp pre.length
          = some (t', Result.ok) := by
        rw [hright, hrpe]; exact hm
      rw [hm'] at heq
      refine ⟨t', r0, by rw [heq]; simp [Result.or_ok], rfl, rfl, ?_⟩
      rw [hr0]
      exact hreb
  · -- shift from the left sibling
    rcases List.eq_nil_or_concat pre with hpre | ⟨pre', y, hpre⟩
    · exact absurd hlp (hl2 hpre).1
    simp only [List.concat_eq_append] at hpre
    subst hpre
    obtain ⟨hlpe, hleft⟩ := hl3 pre' y rfl
    obtain ⟨Y, ly, hy, hY, hylo, hyhi, hpair⟩ := hlv.pair_left
    subst hy
    have e : l = ly := by
      rw [hleft, Part.ofLeaf_ptr, leaf?_of_node? hY] at hl
      exact (Option.some.inj hl).symm
    subst e
    obtain ⟨t', hm, hreb⟩ := leaf_shift_right_full cfg s a n pre' post Y X0 l lx L R prev0
      hpair hcapL hlo hu hfew hyhi
    have hw : wsub (pre' ++ [Part.ofLeaf Y l.item]).length 1 = pre'.length := by
      rw [wsub_of_le (by simp)]; simp
    have hm' : shift_right_leaf_ cfg s left (Ptr.node X0) lp
        (wsub (pre' ++ [Part.ofLeaf Y l.item]).length 1) = some t' := by
      rw [hleft, hlpe, hw]; exact hm
    rw [hm'] at heq
    refine ⟨t', r0, by rw [heq]; rfl, rfl, rfl, ?_⟩
    rw [hr0]
    have e : (pre' ++ [Part.ofLeaf Y l.item]) ++ Part.ofLeaf X0 lx.item :: post
        = pre' ++ Part.ofLeaf Y l.item :: Part.ofLeaf X0 lx.item :: post := by simp
    rw [e, List.length_append, List.length_singleton]
    exact hreb

/-- The first part of the erase in a leaf is the same for both erases when the
leaf's parent and slot are the ones handed down. -/
theorem erase_one_head_of_pos (cfg : Config) (t : Tree α) (node : Ptr) (i : Nat) (parent : Ptr)
    (pw : Nat) (s : Tree α) (r0 : Result α) (p0 : Ptr) (w0 len : Nat)
    (h : erase_pos_leaf_ cfg t node i = some (s, r0, p0, w0, len))
    (hp : i = len → p0 = parent ∧ w0 = pw) :
    erase_one_head_ cfg t node i parent pw = some (s, r0, len) := by
  unfold erase_pos_leaf_ at h
  unfold erase_one_head_
  cases h1 : t.leaf? node with
  | none => simp [h1] at h
  | some l =>
    cases h2 : eraseAt? l.item i with
    | none => simp [h1, h2] at h
    | some its =>
      cases h3 : t.modLeaf node (fun m => { m with item := its }) with
      | none => simp [h1, h2, h3] at h
      | some t1 =>
        simp only [h1, h2, h3, Option.pure_def, Option.bind_eq_bind, Option.some_bind] at h ⊢
        by_cases hi : i = its.length
        · rw [if_pos hi] at h ⊢
          rcases h4 : get_parent_ t1 node with _ | ⟨p, w⟩
          · simp [h4] at h
          · simp only [h4, Option.some_bind] at h
            rcases h5 : leaf_last_key_ cfg t1 node p w with _ | ⟨s', r'⟩
            · simp [h5] at h
            · simp only [h5, Option.some_bind, Option.some.injEq, Prod.mk.injEq] at h
              obtain ⟨rfl, rfl, rfl, rfl, rfl⟩ := h
              obtain ⟨rfl, rfl⟩ := hp hi
              simp [h5]
        · rw [if_neg hi] at h ⊢
          simp only [Option.some.injEq, Prod.mk.injEq] at h
          obtain ⟨rfl, rfl, -, -, rfl⟩ := h
          rfl

/-- The call of `erase_one_descend_` on a leaf below a level-1 node, for a key
the leaf holds: the item leaves the leaf and an underflow is repaired with a
sibling. -/
theorem erase_one_leaf_level (cfg : Config) (key : α) (t : Tree α) (a : Nat) (n : InnerNode α)
    (pre post : List (Part α)) (X0 : Nat) (l : LeafNode α) (L R : Leaves α)
    (prev0 : Ptr) (left lp right rp : Ptr) (fuel : Nat) (x : α) (hcapL : 4 ≤ cfg.maxLeaf)
    (hlv : LeafLvl cfg t a n pre post X0 l L R prev0)
    (hlo : cfg.maxLeaf / 2 ≤ l.item.length) (hhi : l.item.length ≤ cfg.maxLeaf)
    (hx : l.item[lower_bound_node l.item key]? = some x) (hkx : ¬ key < x)
    (hitem : 1 ≤ n.item.length) (hroot : t.parent ≠ Ptr.node X0)
    (hl2 : pre = [] → lp ≠ Ptr.node a ∧
      (left = Ptr.null ∨ ∃ par ls fp, Sub cfg t 0 false left par ls fp ∧
        ∀ c ∈ fp, c ∉ a :: fpOf (pre ++ Part.ofLeaf X0 l.item :: post)))
    (hl3 : ∀ pre' q, pre = pre' ++ [q] → lp = Ptr.node a ∧ left = q.ptr)
    (hr2 : post = [] → rp ≠ Ptr.node a ∧
      (right = Ptr.null ∨ ∃ par ls fp, Sub cfg t 0 false right par ls fp ∧
        ∀ c ∈ fp, c ∉ a :: fpOf (pre ++ Part.ofLeaf X0 l.item :: post)))
    (hr3 : ∀ q post', post = q :: post' → rp = Ptr.node a ∧ right = q.ptr) :
    ∃ t1 res,
      erase_one_descend_ cfg key (fuel + 1) t (Ptr.node X0) left right lp rp (Ptr.node a)
        pre.length = some (t1, res) ∧
      RebOut cfg t t1 0 a n pre.length (pre ++ Part.ofLeaf X0 l.item :: post)
        ((items (leavesOf (pre ++ Part.ofLeaf X0 l.item :: post))).eraseIdx
          ((items (leavesOf pre)).length + lower_bound_node l.item key)) (Ptr.node X0) L R prev0
        res.fixmerge ∧
      res.not_found = false ∧
      (∀ k, res.last_key = some k →
        ((items (leavesOf (pre ++ Part.ofLeaf X0 l.item :: post))).eraseIdx
          ((items (leavesOf pre)).length + lower_bound_node l.item key)).getLast? = some k) ∧
      (res.last_key = none →
        ((items (leavesOf (pre ++ Part.ofLeaf X0 l.item :: post))).eraseIdx
          ((items (leavesOf pre)).length + lower_bound_node l.item key)).getLast?
          = (items (leavesOf (pre ++ Part.ofLeaf X0 l.item :: post))).getLast?) := by
  have hi : lower_bound_node l.item key < l.item.length := (List.getElem?_eq_some.1 hx).1
  generalize hie : lower_bound_node l.item key = i at hi hx ⊢
  have hxs : (items (leavesOf (pre ++ Part.ofLeaf X0 l.item :: post))).eraseIdx
      ((items (leavesOf pre)).length + i)
      = items (leavesOf (pre ++ Part.ofLeaf X0 (l.item.eraseIdx i) :: post)) := by
    rw [items_leavesOf_mid, items_leavesOf_mid, eraseIdx_mid _ _ _ _ hi]
  rw [hxs]
  obtain ⟨hc', hlen⟩ := hlv.lvl_slot
  have hX := hlv.2.2.2.1
  obtain ⟨s, r0, p0, w0, n', hs1, hlv', hn1, hn2, hn3, hst, hls, hp0, hgp, hr1, hr2', hr3', hk1,
    hk2, hplast⟩ := erase_pos_leaf_spec cfg t a n pre post X0 l i L R prev0 hcapL hlv hlo hi
  have hhead := erase_one_head_of_pos cfg t (Ptr.node X0) i (Ptr.node a) pre.length s r0 p0 w0 _
    hs1 hplast
  have hfpeq : fpOf (pre ++ Part.ofLeaf X0 (l.item.eraseIdx i) :: post)
      = fpOf (pre ++ Part.ofLeaf X0 l.item :: post) := by
    simp [fpOf_append, fpOf_cons]
  have hfr : ∀ b, b ∉ a :: fpOf (pre ++ Part.ofLeaf X0 l.item :: post) → SameCore t s b := by
    intro b hb
    refine SameCore.of_eq (hst.1.node_eq hls b (fun e => hb ?_))
    simp only [List.mem_cons, List.mem_singleton, List.not_mem_nil, or_false] at e
    rcases e with e | e
    · rw [e]; exact List.mem_cons_of_mem _ (by simp [fpOf_append, fpOf_cons])
    · rw [e]; exact List.mem_cons_self _ _
  have hnew : (l.item.eraseIdx i).length = l.item.length - 1 := by
    rw [List.length_eraseIdx, if_pos hi]
  have hsib : pre ≠ [] ∨ post ≠ [] := by
    by_contra hc
    push_neg at hc
    rw [hc.1, hc.2] at hlen
    simp at hlen
    omega
  have hcomp : ∀ t1 fix, RebOut cfg s t1 0 a n' pre.length
        (pre ++ Part.ofLeaf X0 (l.item.eraseIdx i) :: post)
        (items (leavesOf (pre ++ Part.ofLeaf X0 (l.item.eraseIdx i) :: post))) (Ptr.node X0) L R
        prev0 fix →
      RebOut cfg t t1 0 a n pre.length (pre ++ Part.ofLeaf X0 l.item :: post)
        (items (leavesOf (pre ++ Part.ofLeaf X0 (l.item.eraseIdx i) :: post))) (Ptr.node X0) L R
        prev0 fix := by
    intro t1 fix hreb
    refine RebOut.comp cfg t s t1 0 a n n' pre.length _ _ _ _ L R prev0 _ hls hst.2.1.1
      hst.2.1.2.1 hst.2.1.2.2.1 hfr (fun b hb => by rw [← hfpeq]; exact hb) ?_ hn1 hn2 hn3
      (by have := hlv'.lvl_slot.2; omega) hreb
    rw [← List.head?_map, ← List.head?_map]
    congr 1
    simp [leavesOf_append, leavesOf_cons]
  have hstart : erase_one_descend_ cfg key (fuel + 1) t (Ptr.node X0) left right lp rp
      (Ptr.node a) pre.length
      = erase_one_leaf_fix_ cfg s (Ptr.node X0) (l.item.eraseIdx i).length r0 left right lp rp
          (Ptr.node a) pre.length := by
    rw [erase_one_descend_leaf cfg key fuel t _ left right lp rp _ _ l x (level?_leaf hX)
      (leaf?_of_node? hX) (by rw [hie]; exact hx) hkx, hie, hhead]
    rfl
  by_cases hu : (l.item.eraseIdx i).length < cfg.maxLeaf / 2
  swap
  · refine ⟨s, r0, ?_, ?_, hr2', fun k hk => hk1 k hk, fun hk => hk2 hk⟩
    · rw [hstart]
      unfold erase_one_leaf_fix_
      rw [if_neg (fun h => hu h.1)]
    · rw [hr1]
      exact hcomp s false (hlv'.rebOut (by simpa using Nat.le_of_not_lt hu)
        (by simp only [hnew]; omega))
  have hsub : ∀ {y par ls fp}, Sub cfg t 0 false y par ls fp →
      (∀ c ∈ fp, c ∉ a :: fpOf (pre ++ Part.ofLeaf X0 l.item :: post)) →
      Sub cfg s 0 false y par ls fp := fun hs hd => Sub.frame hs (fun c hc => hfr c (hd c hc))
  obtain ⟨hnn, t1, res, hreb, e1, e2, hout⟩ := leaf_fix_core cfg s a n' pre post X0
    { l with item := l.item.eraseIdx i } L R prev0 r0 left lp right rp hcapL hlv'
    (by simp only [hnew]; omega) hu hsib
    (fun hp => ⟨(hl2 hp).1, by
      rcases (hl2 hp).2 with h | ⟨par, ls, fp, hs, hd⟩
      · exact Or.inl h
      · exact Or.inr ⟨par, ls, fp, hsub hs hd⟩⟩)
    hl3
    (fun hp => ⟨(hr2 hp).1, by
      rcases (hr2 hp).2 with h | ⟨par, ls, fp, hs, hd⟩
      · exact Or.inl h
      · exact Or.inr ⟨par, ls, fp, hsub hs hd⟩⟩)
    hr3 hr1
  refine ⟨t1, res, ?_, hcomp t1 _ hout, by rw [e2, hr2'], fun k hk => hk1 k (by rw [← e1, hk]),
    fun hk => hk2 (by rw [← e1, hk])⟩
  rw [hstart]
  unfold erase_one_leaf_fix_
  rw [if_pos ⟨hu, fun h => hroot (by rw [← hst.2.1.1]; exact h.1.symm)⟩, if_neg hnn]
  exact hreb

end LeafFixCore

end BPP

/-! ## One level of the erase by key -/

namespace BPP

section KeyEraseLevel
variable {α : Type} [LinearOrder α]

/-- The lower bound of a key among three runs of items, when the first run
holds only items below the key and the second one, unless it is the last,
holds an item not below it. -/
theorem lb_mid (P Q S : List α) (key x : α) (hP : ∀ y ∈ P, y < key)
    (hQ : S = [] ∨ ∃ y ∈ Q, ¬ y < key)
    (hx : (P ++ Q ++ S)[lower_bound_node (P ++ Q ++ S) key]? = some x) :
    lower_bound_node (P ++ Q ++ S) key = P.length + lower_bound_node Q key ∧
      Q[lower_bound_node Q key]? = some x := by
  have e1 : lower_bound_node (P ++ Q ++ S) key = P.length + lower_bound_node Q key := by
    rw [List.append_assoc, lower_bound_node_append_of_lt _ _ _ hP]
    rcases hQ with h | h
    · rw [h, List.append_nil]
    · rw [lower_bound_node_append_of_not_lt _ _ _ h]
  refine ⟨e1, ?_⟩
  rw [e1] at hx
  have hlt : lower_bound_node Q key < Q.length := by
    rcases hQ with h | h
    · have := (List.getElem?_eq_some.1 hx).1
      rw [h] at this
      simp only [List.append_nil, List.length_append] at this
      omega
    · exact lower_bound_node_lt_of_exists _ _ h
  rw [List.append_assoc, List.getElem?_append_right (by omega)] at hx
  simp only [Nat.add_sub_cancel_left] at hx
  rw [List.getElem?_append_left hlt] at hx
  exact hx

/-- The lower bound of a key that is not found among three runs of items. -/
theorem lb_mid_absent (P Q S : List α) (key : α) (hP : ∀ y ∈ P, y < key)
    (hQ : S = [] ∨ ∃ y ∈ Q, ¬ y < key)
    (hx : ∀ x, (P ++ Q ++ S)[lower_bound_node (P ++ Q ++ S) key]? = some x → key < x) :
    ∀ x, Q[lower_bound_node Q key]? = some x → key < x := by
  intro x hq
  have hlt := (List.getElem?_eq_some.1 hq).1
  have e1 : lower_bound_node (P ++ Q ++ S) key = P.length + lower_bound_node Q key := by
    rw [List.append_assoc, lower_bound_node_append_of_lt _ _ _ hP]
    rcases hQ with h | h
    · rw [h, List.append_nil]
    · rw [lower_bound_node_append_of_not_lt _ _ _ h]
  refine hx x ?_
  rw [e1, List.append_assoc, List.getElem?_append_right (by omega)]
  simp only [Nat.add_sub_cancel_left]
  rw [List.getElem?_append_left hlt]
  exact hq

/-- The left neighbour `erase_one_descend_` hands to the child `q` of the
node `a`: a sibling of `q`, or nothing or a well-formed subtree apart from the
one of `a`. -/
theorem self_left_spec (cfg : Config) (t : Tree α) (h a : Nat) (n : InnerNode α)
    (pre post : List (Part α)) (q : Part α) (left lp : Ptr) (hcapI : 2 ≤ cfg.maxInner)
    (hc : n.children = (pre ++ q :: post).map Part.ptr)
    (hch : ∀ q' ∈ pre ++ q :: post, Sub cfg t h false q'.ptr (Ptr.node a) q'.leaves q'.fp)
    (hnd : (a :: fpOf (pre ++ q :: post)).Nodup)
    (hL : left = Ptr.null ∨ ∃ par ls fp, Sub cfg t (h + 1) false left par ls fp ∧
      ∀ c ∈ fp, c ∉ a :: fpOf (pre ++ q :: post))
    (hlp : ∀ c ∈ a :: fpOf (pre ++ q :: post), lp ≠ Ptr.node c) :
    ∃ sl slp, self_left_ t (Ptr.node a) n pre.length left lp = some (sl, slp) ∧
      (pre = [] → slp ≠ Ptr.node a ∧
        (sl = Ptr.null ∨ ∃ par ls fp, Sub cfg t h false sl par ls fp ∧
          ∀ c ∈ fp, c ∉ a :: fpOf (pre ++ q :: post))) ∧
      (∀ pre' q', pre = pre' ++ [q'] → slp = Ptr.node a ∧ sl = q'.ptr) ∧
      (sl = Ptr.null ∨ ∃ par ls fp, Sub cfg t h false sl par ls fp ∧ ∀ c ∈ fp, c ∉ q.fp) ∧
      (∀ c ∈ q.fp, slp ≠ Ptr.node c) := by
  have hqsub : ∀ c ∈ q.fp, c ∈ a :: fpOf (pre ++ q :: post) := fun c hc =>
    List.mem_cons_of_mem _ (mem_fpOf (by simp) hc)
  rcases List.eq_nil_or_concat pre with hpre | ⟨pre', y, hpre⟩
  · subst hpre
    rcases hL with hL | ⟨par, ls, fp, hs, hd⟩
    · subst hL
      refine ⟨Ptr.null, lp, by simp [self_left_], fun _ => ⟨hlp a (by simp), Or.inl rfl⟩,
        fun pre' q' e => by simp at e, Or.inl rfl, fun c hc => hlp c (hqsub c hc)⟩
    · obtain ⟨b, nl, psl, hp, hnl, -, -, -, hcl, hkl, hne, hchl, -, hfpl, hlol, -⟩ :=
        Sub.succ_iff.1 hs
      have hlen : psl.length = nl.item.length + 1 := by
        have := congrArg List.length hkl
        simp only [List.length_map, List.length_dropLast] at this
        have : 0 < psl.length := List.length_pos.2 hne
        omega
      have hlo1 : 1 ≤ nl.item.length := by
        simp only [Bool.false_eq_true, if_false] at hlol
        omega
      have hidx : nl.item.length - 1 < psl.length := by omega
      have hq' : psl[nl.item.length - 1] ∈ psl := List.getElem_mem _
      have hne0 : left ≠ Ptr.null := by rw [hp]; simp
      have hsub := hchl _ hq'
      have hdis : ∀ c ∈ (psl[nl.item.length - 1]).fp, c ∉ a :: fpOf ([] ++ q :: post) := by
        intro c hc
        refine hd c ?_
        rw [hfpl]
        exact List.mem_cons_of_mem _ (mem_fpOf hq' hc)
      refine ⟨(psl[nl.item.length - 1]).ptr, lp, ?_, fun _ => ⟨hlp a (by simp), Or.inr ⟨_, _, _, hsub, hdis⟩⟩,
        fun pre' q' e => by simp at e, Or.inr ⟨_, _, _, hsub, fun c hc hcq => hdis c hc (hqsub c hcq)⟩,
        fun c hc => hlp c (hqsub c hc)⟩
      have hw : wsub nl.item.length 1 = nl.item.length - 1 := by
        simp only [wsub]
        split <;> omega
      simp only [self_left_, List.length_nil, if_true, hne0, if_false, inner?_of_node? hnl,
        Option.pure_def, Option.bind_eq_bind, Option.some_bind, hw, hcl, List.getElem?_map,
        List.getElem?_eq_getElem hidx, Option.map_some']
  · rw [List.concat_eq_append] at hpre
    subst hpre
    have hw : (pre' ++ [y]).length ≠ 0 := by simp
    have hidx : n.children[(pre' ++ [y]).length - 1]? = some y.ptr := by
      rw [hc]
      simp only [List.map_append, List.map_cons, List.map_nil, List.length_append,
        List.length_singleton, Nat.add_sub_cancel, List.append_assoc]
      rw [List.getElem?_append_right (by simp)]
      simp
    refine ⟨y.ptr, Ptr.node a, ?_, fun e => by simp at e, fun pre2 q2 e => ?_, ?_, ?_⟩
    · simp only [self_left_, hw, if_false, hidx, Option.pure_def, Option.bind_eq_bind,
        Option.some_bind]
    · obtain ⟨-, e2⟩ := List.append_inj' e rfl
      simp only [List.cons.injEq, and_true] at e2
      exact ⟨rfl, by rw [e2]⟩
    · refine Or.inr ⟨_, _, _, hch y (by simp), fun c hc hcq => ?_⟩
      exact fp_disjoint_of_nodup (pre' ++ [y]) post q (List.nodup_cons.1 hnd).2 y (by simp) c hc
        hcq
    · intro c hc e
      have : a = c := by simpa using e
      subst this
      exact (List.nodup_cons.1 hnd).1 (mem_fpOf (by simp) hc)

/-- The right neighbour `erase_one_descend_` hands to the child `q` of the
node `a`: a sibling of `q`, or nothing or a well-formed subtree apart from the
one of `a`. -/
theorem self_right_spec (cfg : Config) (t : Tree α) (h a : Nat) (n : InnerNode α)
    (pre post : List (Part α)) (q : Part α) (right rp : Ptr)
    (hc : n.children = (pre ++ q :: post).map Part.ptr)
    (hlen : (pre ++ q :: post).length = n.item.length + 1)
    (hch : ∀ q' ∈ pre ++ q :: post, Sub cfg t h false q'.ptr (Ptr.node a) q'.leaves q'.fp)
    (hnd : (a :: fpOf (pre ++ q :: post)).Nodup)
    (hR : right = Ptr.null ∨ ∃ par ls fp, Sub cfg t (h + 1) false right par ls fp ∧
      ∀ c ∈ fp, c ∉ a :: fpOf (pre ++ q :: post))
    (hrp : ∀ c ∈ a :: fpOf (pre ++ q :: post), rp ≠ Ptr.node c) :
    ∃ sr srp, self_right_ t (Ptr.node a) n pre.length right rp = some (sr, srp) ∧
      (post = [] → srp ≠ Ptr.node a ∧
        (sr = Ptr.null ∨ ∃ par ls fp, Sub cfg t h false sr par ls fp ∧
          ∀ c ∈ fp, c ∉ a :: fpOf (pre ++ q :: post))) ∧
      (∀ q' post', post = q' :: post' → srp = Ptr.node a ∧ sr = q'.ptr) ∧
      (sr = Ptr.null ∨ ∃ par ls fp, Sub cfg t h false sr par ls fp ∧ ∀ c ∈ fp, c ∉ q.fp) ∧
      (∀ c ∈ q.fp, srp ≠ Ptr.node c) := by
  have hqsub : ∀ c ∈ q.fp, c ∈ a :: fpOf (pre ++ q :: post) := fun c hc =>
    List.mem_cons_of_mem _ (mem_fpOf (by simp) hc)
  cases post with
  | nil =>
    have hw : pre.length = n.item.length := by
      simp only [List.length_append, List.length_cons, List.length_nil] at hlen
      omega
    rcases hR with hR | ⟨par, ls, fp, hs, hd⟩
    · subst hR
      refine ⟨Ptr.null, rp, by simp [self_right_, hw], fun _ => ⟨hrp a (by simp), Or.inl rfl⟩,
        fun q' post' e => by simp at e, Or.inl rfl, fun c hc => hrp c (hqsub c hc)⟩
    · obtain ⟨b, nl, psl, hp, hnl, -, -, -, hcl, hkl, hne, hchl, -, hfpl, hlol, -⟩ :=
        Sub.succ_iff.1 hs
      have hidx : 0 < psl.length := List.length_pos.2 hne
      have hq' : psl[0] ∈ psl := List.getElem_mem _
      have hne0 : right ≠ Ptr.null := by rw [hp]; simp
      have hsub := hchl _ hq'
      have hdis : ∀ c ∈ (psl[0]).fp, c ∉ a :: fpOf (pre ++ [q]) := by
        intro c hc
        refine hd c ?_
        rw [hfpl]
        exact List.mem_cons_of_mem _ (mem_fpOf hq' hc)
      refine ⟨(psl[0]).ptr, rp, ?_, fun _ => ⟨hrp a (by simp), Or.inr ⟨_, _, _, hsub, hdis⟩⟩,
        fun q' post' e => by simp at e, Or.inr ⟨_, _, _, hsub, fun c hc hcq => hdis c hc (hqsub c hcq)⟩,
        fun c hc => hrp c (hqsub c hc)⟩
      simp only [self_right_, hw, if_true, hne0, if_false, inner?_of_node? hnl,
        Option.pure_def, Option.bind_eq_bind, Option.some_bind, hcl, List.getElem?_map,
        List.getElem?_eq_getElem hidx, Option.map_some']
  | cons y post' =>
    have hw : pre.length ≠ n.item.length := by
      simp only [List.length_append, List.length_cons] at hlen
      omega
    have hidx : n.children[pre.length + 1]? = some y.ptr := by
      rw [hc]
      simp only [List.map_append, List.map_cons]
      rw [List.getElem?_append_right (by simp)]
      simp
    refine ⟨y.ptr, Ptr.node a, ?_, fun e => by simp at e, fun q2 post2 e => ?_, ?_, ?_⟩
    · simp only [self_right_, hw, if_false, hidx, Option.pure_def, Option.bind_eq_bind,
        Option.some_bind]
    · simp only [List.cons.injEq] at e
      exact ⟨rfl, by rw [e.1]⟩
    · refine Or.inr ⟨_, _, _, hch y (by simp), fun c hc hcq => ?_⟩
      exact fp_disjoint_of_nodup pre (y :: post') q (List.nodup_cons.1 hnd).2 y (by simp) c hc
        hcq
    · intro c hc e
      have : a = c := by simpa using e
      subst this
      exact (List.nodup_cons.1 hnd).1 (mem_fpOf (by simp) hc)

/-- One level of `erase_one_descend_` on the way back: the turn of the node
`a`, a child of the node `b`, with the neighbours the level above handed
down. -/
theorem erase_one_level_step (cfg : Config) (t t1 : Tree α) (h a b : Nat) (n nb : InnerNode α)
    (w : Nat) (ps : List (Part α)) (xs : List α) (X : Ptr) (pre post : List (Part α))
    (L R : Leaves α) (prev0 : Ptr) (res : Result α) (left lp right rp : Ptr)
    (hcapL : 2 ≤ cfg.maxLeaf)
    (hlv : InnerLvl cfg t h b nb pre post a n ps L R prev0)
    (hnlo : cfg.maxInner / 2 ≤ n.item.length) (hnhi : n.item.length ≤ cfg.maxInner)
    (hbitem : 1 ≤ nb.item.length) (hroot : t.parent ≠ Ptr.node a)
    (hout : ∀ p ∈ (L ++ R).map Prod.fst,
      ∀ c ∈ fpOf (pre ++ Part.ofInner a ps :: post), p ≠ Ptr.node c)
    (hl2 : pre = [] → lp ≠ Ptr.node b ∧
      (left = Ptr.null ∨ ∃ par ls fp, Sub cfg t (h + 1) false left par ls fp ∧
        ∀ c ∈ fp, c ∉ b :: fpOf (pre ++ Part.ofInner a ps :: post)))
    (hl3 : ∀ pre' q, pre = pre' ++ [q] → lp = Ptr.node b ∧ left = q.ptr)
    (hr2 : post = [] → rp ≠ Ptr.node b ∧
      (right = Ptr.null ∨ ∃ par ls fp, Sub cfg t (h + 1) false right par ls fp ∧
        ∀ c ∈ fp, c ∉ b :: fpOf (pre ++ Part.ofInner a ps :: post)))
    (hr3 : ∀ q post', post = q :: post' → rp = Ptr.node b ∧ right = q.ptr)
    (hreb : RebOut cfg t t1 h a n w ps xs X (L ++ leavesOf pre) (leavesOf post ++ R) prev0
      res.fixmerge)
    (hxs : xs.length + 1 = (items (leavesOf ps)).length)
    (hk1 : ∀ k, res.last_key = some k → xs.getLast? = some k)
    (hk2 : res.last_key = none → xs.getLast? = (items (leavesOf ps)).getLast?) :
    ∃ t2 res2,
      erase_one_after_ cfg t1 (Ptr.node a) left right lp rp (Ptr.node b) pre.length w res
        = some (t2, res2) ∧
      RebOut cfg t t2 (h + 1) b nb pre.length (pre ++ Part.ofInner a ps :: post)
        (items (leavesOf pre) ++ xs ++ items (leavesOf post)) (Ptr.node a) L R prev0
        res2.fixmerge ∧
      res2.not_found = false ∧
      (∀ k, res2.last_key = some k →
        (items (leavesOf pre) ++ xs ++ items (leavesOf post)).getLast? = some k) ∧
      (res2.last_key = none →
        (items (leavesOf pre) ++ xs ++ items (leavesOf post)).getLast?
          = (items (leavesOf (pre ++ Part.ofInner a ps :: post))).getLast?) := by
  obtain ⟨u1, u2, s, r1, nb', n', ps', hmod, hgp, hlk1, hfix, hlvs, hitems, e1, e2, e3, e4,
    hn'len, slen, spar, ssz, sleft, sfr, sfp, shead, hr1f, hr1n, hk1', hk2'⟩ :=
    inner_node_stage cfg t t1 h a b n nb w ps xs X pre post L R prev0 res hcapL hlv hnhi hout
      hreb hxs hk1 hk2
  have hxsb : items (leavesOf (pre ++ Part.ofInner a ps' :: post))
      = items (leavesOf pre) ++ xs ++ items (leavesOf post) := by
    rw [items_leavesOf_inner, hitems]
  rw [hxsb] at hk1' hk2'
  obtain ⟨-, hslots⟩ := hlv.slots
  have hsib : pre ≠ [] ∨ post ≠ [] := by
    by_contra hcon
    simp only [not_or, not_not] at hcon
    rw [hcon.1, hcon.2] at hslots
    simp at hslots
    omega
  have hfpsub : ∀ c ∈ fpOf (pre ++ Part.ofInner a ps' :: post),
      c ∈ fpOf (pre ++ Part.ofInner a ps :: post) := by
    intro c hc
    simp only [fpOf_append, fpOf_cons, Part.ofInner_fp, List.mem_append, List.mem_cons] at hc ⊢
    rcases hc with hc | (hc | hc) | hc
    · exact Or.inl hc
    · exact Or.inr (Or.inl (Or.inl hc))
    · exact Or.inr (Or.inl (Or.inr (sfp c hc)))
    · exact Or.inr (Or.inr hc)
  have hX := hlvs.nodeX.cell
  have hroots : s.parent ≠ Ptr.node a := by rw [spar]; exact hroot
  have hhead1 : ¬ (n'.item.length < cfg.maxInner / 2 ∧
      ¬ (Ptr.node a = s.parent ∧ n'.item.length ≥ 1)) →
      erase_one_after_ cfg t1 (Ptr.node a) left right lp rp (Ptr.node b) pre.length w res
        = some (s, r1) := by
    intro hif
    cases hrk : res.last_key with
    | none =>
      rw [hrk] at hlk1
      simp only [] at hlk1
      simp only [erase_one_after_, hmod, hrk, hlk1, hfix, Option.pure_def,
        Option.bind_eq_bind, Option.some_bind, inner?_of_node? hX, if_neg hif]
    | some k =>
      rw [hrk] at hlk1
      simp only [] at hlk1
      simp only [erase_one_after_, hmod, hrk, hlk1, hfix, Option.pure_def,
        Option.bind_eq_bind, Option.some_bind, inner?_of_node? hX, if_neg hif]
  have hhead2 : (n'.item.length < cfg.maxInner / 2 ∧
      ¬ (Ptr.node a = s.parent ∧ n'.item.length ≥ 1)) → ¬ (left = Ptr.null ∧ right = Ptr.null) →
      erase_one_after_ cfg t1 (Ptr.node a) left right lp rp (Ptr.node b) pre.length w res
        = rebalance_inner_ cfg s (Ptr.node a) left right lp rp (Ptr.node b) pre.length r1 := by
    intro hif hnn
    cases hrk : res.last_key with
    | none =>
      rw [hrk] at hlk1
      simp only [] at hlk1
      simp only [erase_one_after_, hmod, hrk, hlk1, hfix, Option.pure_def,
        Option.bind_eq_bind, Option.some_bind, inner?_of_node? hX, if_pos hif, if_neg hnn]
    | some k =>
      rw [hrk] at hlk1
      simp only [] at hlk1
      simp only [erase_one_after_, hmod, hrk, hlk1, hfix, Option.pure_def,
        Option.bind_eq_bind, Option.some_bind, inner?_of_node? hX, if_pos hif, if_neg hnn]
  by_cases hu : n'.item.length < cfg.maxInner / 2
  · have hif : n'.item.length < cfg.maxInner / 2 ∧
        ¬ (Ptr.node a = s.parent ∧ n'.item.length ≥ 1) := ⟨hu, fun h => hroots h.1.symm⟩
    have tr : ∀ {x : Ptr}, (x = Ptr.null ∨ ∃ par ls fp, Sub cfg t (h + 1) false x par ls fp ∧
        ∀ c ∈ fp, c ∉ b :: fpOf (pre ++ Part.ofInner a ps :: post)) →
        (x = Ptr.null ∨ ∃ par ls fp, Sub cfg s (h + 1) false x par ls fp) := by
      intro x hx
      rcases hx with hx | ⟨par, ls, fp, hs, hd⟩
      · exact Or.inl hx
      · exact Or.inr ⟨par, ls, fp, hs.frame (fun c hc => sfr c (hd c hc))⟩
    obtain ⟨hnn, t2, res2, hrebi, e5, e6, hreb2⟩ := inner_fix_core cfg s h b nb' pre post a n' ps'
      L R prev0 r1 left lp right rp hcapL hlvs (by split_ifs at hn'len <;> omega) hu hsib
      (fun e => ⟨(hl2 e).1, tr (hl2 e).2⟩) hl3 (fun e => ⟨(hr2 e).1, tr (hr2 e).2⟩) hr3 hr1f
    refine ⟨t2, res2, by rw [hhead2 hif hnn, hrebi], ?_, by rw [e6]; exact hr1n,
      fun k hk => hk1' k (by rw [← e5]; exact hk), fun hk => hk2' (by rw [← e5]; exact hk)⟩
    · rw [← hxsb]
      exact RebOut.comp cfg t s t2 (h + 1) b nb nb' pre.length _ _ _ _ L R prev0 _ slen spar ssz
        sleft sfr hfpsub shead e1 e2 e3 e4 hreb2
  · have hrebs := hlvs.lvl_rebOut (by omega) (by split_ifs at hn'len <;> omega)
    refine ⟨s, r1, hhead1 (fun h => hu h.1), ?_, hr1n, hk1', hk2'⟩
    · rw [← hxsb, hr1f]
      exact RebOut.comp cfg t s s (h + 1) b nb nb' pre.length _ _ _ _ L R prev0 _ slen spar
        ssz sleft sfr hfpsub shead e1 e2 e3 e4 hrebs

end KeyEraseLevel

end BPP

/-! ## The descent of the erase by key -/

namespace BPP

section KeyEraseDescent
variable {α : Type} [LinearOrder α]

theorem leavesOf_nil_items : items (leavesOf ([] : List (Part α))) = [] := by
  simp [leavesOf, items]

/-- The descent of `erase_one_descend_` through a subtree that holds the key:
the element at the lower bound of the key leaves its leaf, the levels below
the root of the subtree are repaired, and the turn of that root is left to
do. -/
theorem erase_one_sub (cfg : Config) (key : α) (hcapL : 4 ≤ cfg.maxLeaf)
    (hcapI : 2 ≤ cfg.maxInner) :
    ∀ (h : Nat) (t : Tree α) (a : Nat) (n : InnerNode α) (ps : List (Part α)) (par : Ptr)
      (L R : Leaves α) (prev0 : Ptr) (left right lp rp parent : Ptr) (pw fuel : Nat) (x : α),
      InnerAt cfg t h a n ps par → 1 ≤ n.item.length → n.item.length ≤ cfg.maxInner →
      (a :: fpOf ps).Nodup → (items (leavesOf ps)).Pairwise (· ≤ ·) →
      (items (leavesOf ps))[lower_bound_node (items (leavesOf ps)) key]? = some x →
      ¬ key < x →
      ChainOk t prev0 (L ++ leavesOf ps ++ R) →
      ((L ++ leavesOf ps ++ R).map Prod.fst).Nodup →
      ((L ++ leavesOf ps ++ R).getLast?).map Prod.fst = some t.right →
      (∀ p ∈ (L ++ R).map Prod.fst, ∀ c ∈ a :: fpOf ps, p ≠ Ptr.node c) →
      (∀ c ∈ fpOf ps, t.parent ≠ Ptr.node c) →
      (left = Ptr.null ∨ ∃ par ls fp, Sub cfg t (h + 1) false left par ls fp ∧
        ∀ c ∈ fp, c ∉ a :: fpOf ps) →
      (∀ c ∈ a :: fpOf ps, lp ≠ Ptr.node c) →
      (right = Ptr.null ∨ ∃ par ls fp, Sub cfg t (h + 1) false right par ls fp ∧
        ∀ c ∈ fp, c ∉ a :: fpOf ps) →
      (∀ c ∈ a :: fpOf ps, rp ≠ Ptr.node c) →
      h + 2 ≤ fuel →
      ∃ t1 res w X,
        RebOut cfg t t1 h a n w ps
          ((items (leavesOf ps)).eraseIdx (lower_bound_node (items (leavesOf ps)) key)) X L R
          prev0 res.fixmerge ∧
        res.not_found = false ∧
        (∀ k, res.last_key = some k →
          ((items (leavesOf ps)).eraseIdx
            (lower_bound_node (items (leavesOf ps)) key)).getLast? = some k) ∧
        (res.last_key = none →
          ((items (leavesOf ps)).eraseIdx
            (lower_bound_node (items (leavesOf ps)) key)).getLast?
            = (items (leavesOf ps)).getLast?) ∧
        erase_one_descend_ cfg key fuel t (Ptr.node a) left right lp rp parent pw
          = erase_one_after_ cfg t1 (Ptr.node a) left right lp rp parent pw w res := by
  intro h
  induction h with
  | zero =>
    intro t a n ps par L R prev0 left right lp rp parent pw fuel x hA hn1 hn2 hnd hsort hx hkx
      hchain hptrs hends hout hrt hL hlp hR hrp hfuel
    obtain ⟨pre, q, post, hps, hlen, hpre, hpost⟩ :=
      key_lower_split ps n.item key hA.keys hA.kids_ne hsort
    subst hps
    obtain ⟨X0, lx, hq, hX, hXpar, hlo, hhi⟩ := Sub.ofLeaf (hA.subs q (by simp))
    subst hq
    have hS : items (leavesOf post) = [] ∨ ∃ y ∈ lx.item, ¬ y < key := by
      cases post with
      | nil => exact Or.inl leavesOf_nil_items
      | cons y ys => exact Or.inr (by simpa using hpost (by simp))
    rw [items_leavesOf_mid] at hx
    obtain ⟨hlb, hxq⟩ := lb_mid _ _ _ key x hpre hS hx
    have hlvl : LeafLvl cfg t a n pre post X0 lx L R prev0 :=
      ⟨hA.cell, hA.kids, hA.keys, hX, hXpar,
        fun q hq => hA.subs q (by
          simp only [List.mem_append, List.mem_cons] at hq ⊢
          rcases hq with hq | hq
          · exact Or.inl hq
          · exact Or.inr (Or.inr hq)),
        hnd, hchain, hptrs, hends⟩
    obtain ⟨sl, slp, hsl, hl2, hl3, -, -⟩ := self_left_spec cfg t 0 a n pre post
      (Part.ofLeaf X0 lx.item) left lp hcapI hA.kids hA.subs hnd hL hlp
    obtain ⟨sr, srp, hsr, hr2, hr3, -, -⟩ := self_right_spec cfg t 0 a n pre post
      (Part.ofLeaf X0 lx.item) right rp hA.kids hA.kids_length hA.subs hnd hR hrp
    obtain ⟨f, rfl⟩ : ∃ f, fuel = f + 2 := ⟨fuel - 2, by omega⟩
    obtain ⟨t1, res, heq, hreb, hnf, hk1, hk2⟩ := erase_one_leaf_level cfg key t a n pre post X0
      lx L R prev0 sl slp sr srp f x hcapL hlvl (by simpa using hlo) hhi hxq hkx hn1
      (hrt X0 (by simp [fpOf_append, fpOf_cons, Part.ofLeaf])) hl2 hl3 hr2 hr3
    have hc : n.children[lower_bound_node n.item key]? = some (Ptr.node X0) := by
      rw [← hlen, hA.kids]
      simp only [List.map_append, List.map_cons]
      rw [List.getElem?_append_right (by simp)]
      simp [Part.ofLeaf]
    rw [hlen] at hsl hsr heq
    have hdesc := erase_one_descend_inner cfg key (f + 1) t (Ptr.node a) left right lp rp parent
      pw n 0 (sl, slp) (sr, srp) (Ptr.node X0) (t1, res)
      (by rw [level?_inner hA.cell, hA.level_eq]) (inner?_of_node? hA.cell) hsl hsr hc heq
    simp only [hnf, Bool.false_eq_true, if_false] at hdesc
    rw [items_leavesOf_mid, hlb, ← items_leavesOf_mid]
    rw [← hlen] at hdesc
    exact ⟨t1, res, pre.length, Ptr.node X0, hreb, hnf, hk1, hk2, hdesc⟩
  | succ h ih =>
    intro t a n ps par L R prev0 left right lp rp parent pw fuel x hA hn1 hn2 hnd hsort hx hkx
      hchain hptrs hends hout hrt hL hlp hR hrp hfuel
    obtain ⟨pre, q, post, hps, hlen, hpre, hpost⟩ :=
      key_lower_split ps n.item key hA.keys hA.kids_ne hsort
    subst hps
    have hq := hA.subs q (by simp)
    obtain ⟨c, nc, psc, e1, e2, e3, hC, hclo, hchi⟩ := InnerAt.of_sub hq
    have eq := Part.eq_ofInner q c psc e1 e2 e3
    subst eq
    have hS : items (leavesOf post) = [] ∨ ∃ y ∈ items (leavesOf psc), ¬ y < key := by
      cases post with
      | nil => exact Or.inl leavesOf_nil_items
      | cons y ys => exact Or.inr (by simpa using hpost (by simp))
    rw [items_leavesOf_inner] at hx hsort
    obtain ⟨hlb, hxq⟩ := lb_mid _ _ _ key x hpre hS hx
    -- the footprints
    have hnd' := hnd
    simp only [fpOf_append, fpOf_cons, Part.ofInner_fp, List.cons_append] at hnd'
    obtain ⟨han, hnd0⟩ := List.nodup_cons.1 hnd'
    obtain ⟨hndpre, hnd1, hdis1⟩ := List.nodup_append.1 hnd0
    obtain ⟨hcN, hnd2⟩ := List.nodup_cons.1 hnd1
    obtain ⟨hndps, hndpost, hdis2⟩ := List.nodup_append.1 hnd2
    have elist : L ++ leavesOf (pre ++ Part.ofInner c psc :: post) ++ R
        = (L ++ leavesOf pre) ++ leavesOf psc ++ (leavesOf post ++ R) := by
      simp [leavesOf_append, leavesOf_cons, List.append_assoc]
    have hroot : t.parent ≠ Ptr.node c :=
      hrt c (by simp [fpOf_append, fpOf_cons])
    have houtc : ∀ p ∈ ((L ++ leavesOf pre) ++ (leavesOf post ++ R)).map Prod.fst,
        ∀ c' ∈ c :: fpOf psc, p ≠ Ptr.node c' := by
      intro p hp c' hc' e
      subst e
      have hc'w : c' ∈ a :: fpOf (pre ++ Part.ofInner c psc :: post) := by
        simp only [fpOf_append, fpOf_cons, Part.ofInner_fp, List.mem_append, List.mem_cons]
        simp only [List.mem_cons] at hc'
        exact Or.inr (Or.inr (Or.inl hc'))
      obtain ⟨e, he, hep⟩ := List.mem_map.1 hp
      simp only [List.mem_append] at he
      rcases he with (he | he) | he | he
      · exact hout _ (List.mem_map.2 ⟨e, by simp [he], hep⟩) c' hc'w rfl
      · obtain ⟨a', h1, h2⟩ := leavesOf_mem pre
          (fun q hq => hA.subs q (List.mem_append_left _ hq)) _ he
        rw [hep] at h1
        simp only [Ptr.node.injEq] at h1
        subst h1
        exact hdis1 h2 (by
          simp only [List.mem_cons, List.mem_append]
          simp only [List.mem_cons] at hc'
          rcases hc' with hc' | hc'
          · exact Or.inl hc'
          · exact Or.inr (Or.inl hc'))
      · obtain ⟨a', h1, h2⟩ := leavesOf_mem post
          (fun q hq => hA.subs q (List.mem_append_right _ (List.mem_cons_of_mem _ hq))) _ he
        rw [hep] at h1
        simp only [Ptr.node.injEq] at h1
        subst h1
        rcases List.mem_cons.1 hc' with e | e
        · subst e
          simp only [List.mem_append, not_or] at hcN
          exact hcN.2 h2
        · exact hdis2 e h2
      · exact hout _ (List.mem_map.2 ⟨e, by simp [he], hep⟩) c' hc'w rfl
    rw [elist] at hchain hptrs hends
    obtain ⟨sl, slp, hsl, hl2, hl3, hl4, hl5⟩ := self_left_spec cfg t (h + 1) a n pre post
      (Part.ofInner c psc) left lp hcapI hA.kids hA.subs hnd hL hlp
    obtain ⟨sr, srp, hsr, hr2, hr3, hr4, hr5⟩ := self_right_spec cfg t (h + 1) a n pre post
      (Part.ofInner c psc) right rp hA.kids hA.kids_length hA.subs hnd hR hrp
    obtain ⟨f, rfl⟩ : ∃ f, fuel = f + 1 := ⟨fuel - 1, by omega⟩
    obtain ⟨t1, res, w, X, hreb, hnf, hk1, hk2, hdc⟩ := ih t c nc psc (Ptr.node a)
      (L ++ leavesOf pre) (leavesOf post ++ R) prev0 sl sr slp srp (Ptr.node a) pre.length f x hC
      (by simp only [Bool.false_eq_true, if_false] at hclo; omega) hchi
      (by simpa using hnd1.sublist (List.Sublist.cons₂ _ (List.sublist_append_left _ _)))
      (List.pairwise_append.1 (List.pairwise_append.1 hsort).1).2.1 hxq hkx
      hchain hptrs hends houtc
      (fun c' hc' => hrt c' (by
        simp only [fpOf_append, fpOf_cons, Part.ofInner_fp, List.mem_append, List.mem_cons]
        exact Or.inr (Or.inl (Or.inr hc'))))
      hl4 hl5 hr4 hr5 (by omega)
    have hlvl : InnerLvl cfg t h a n pre post c nc psc L R prev0 :=
      ⟨hA.cell, hA.kids, hA.keys, hC,
        fun q hq => hA.subs q (by
          simp only [List.mem_append, List.mem_cons] at hq ⊢
          rcases hq with hq | hq
          · exact Or.inl hq
          · exact Or.inr (Or.inr hq)),
        hnd, by rw [elist]; exact hchain, by rw [elist]; exact hptrs,
        by rw [elist]; exact hends⟩
    have hlt : lower_bound_node (items (leavesOf psc)) key < (items (leavesOf psc)).length :=
      (List.getElem?_eq_some.1 hxq).1
    obtain ⟨t2, res2, hafter, hreb2, hnf2, hk1', hk2'⟩ := erase_one_level_step cfg t t1 h c a nc
      n w psc _ X pre post L R prev0 res sl slp sr srp (by omega) hlvl
      (by simp only [Bool.false_eq_true, if_false] at hclo; exact hclo) hchi hn1 hroot
      (fun p hp c' hc' => hout p hp c' (List.mem_cons_of_mem _ hc')) hl2 hl3 hr2 hr3 hreb
      (by rw [List.length_eraseIdx, if_pos hlt]; omega) hk1 hk2
    have hxs : items (leavesOf pre) ++
        (items (leavesOf psc)).eraseIdx (lower_bound_node (items (leavesOf psc)) key)
          ++ items (leavesOf post)
        = (items (leavesOf (pre ++ Part.ofInner c psc :: post))).eraseIdx
            (lower_bound_node (items (leavesOf (pre ++ Part.ofInner c psc :: post))) key) := by
      rw [items_leavesOf_inner, hlb, eraseIdx_mid _ _ _ _ hlt]
    rw [hxs] at hreb2 hk1' hk2'
    have hc : n.children[lower_bound_node n.item key]? = some (Ptr.node c) := by
      rw [← hlen, hA.kids]
      simp only [List.map_append, List.map_cons]
      rw [List.getElem?_append_right (by simp)]
      simp [Part.ofInner]
    rw [hlen] at hsl hsr hdc hafter
    have hdesc := erase_one_descend_inner cfg key f t (Ptr.node a) left right lp rp parent
      pw n (h + 1) (sl, slp) (sr, srp) (Ptr.node c) (t2, res2)
      (by rw [level?_inner hA.cell, hA.level_eq]) (inner?_of_node? hA.cell) hsl hsr hc
      (by rw [hdc]; exact hafter)
    simp only [hnf2, Bool.false_eq_true, if_false] at hdesc
    rw [← hlen] at hdesc
    exact ⟨t2, res2, pre.length, Ptr.node c, hreb2, hnf2, hk1', hk2', hdesc⟩

/-- The descent of `erase_one_descend_` through a subtree that does not
hold the key: nothing changes and the result says so. -/
theorem erase_one_absent (cfg : Config) (key : α) (hcapI : 2 ≤ cfg.maxInner) :
    ∀ (h : Nat) (t : Tree α) (a : Nat) (n : InnerNode α) (ps : List (Part α)) (par : Ptr)
      (left right lp rp parent : Ptr) (pw fuel : Nat),
      InnerAt cfg t h a n ps par → (a :: fpOf ps).Nodup →
      (items (leavesOf ps)).Pairwise (· ≤ ·) →
      (∀ x, (items (leavesOf ps))[lower_bound_node (items (leavesOf ps)) key]? = some x →
        key < x) →
      (left = Ptr.null ∨ ∃ par ls fp, Sub cfg t (h + 1) false left par ls fp ∧
        ∀ c ∈ fp, c ∉ a :: fpOf ps) →
      (∀ c ∈ a :: fpOf ps, lp ≠ Ptr.node c) →
      (right = Ptr.null ∨ ∃ par ls fp, Sub cfg t (h + 1) false right par ls fp ∧
        ∀ c ∈ fp, c ∉ a :: fpOf ps) →
      (∀ c ∈ a :: fpOf ps, rp ≠ Ptr.node c) →
      h + 2 ≤ fuel →
      erase_one_descend_ cfg key fuel t (Ptr.node a) left right lp rp parent pw
        = some (t, Result.notFound) := by
  intro h
  induction h with
  | zero =>
    intro t a n ps par left right lp rp parent pw fuel hA hnd hsort hx hL hlp hR hrp hfuel
    obtain ⟨pre, q, post, hps, hlen, hpre, hpost⟩ :=
      key_lower_split ps n.item key hA.keys hA.kids_ne hsort
    subst hps
    obtain ⟨X0, lx, hq, hX, hXpar, hlo, hhi⟩ := Sub.ofLeaf (hA.subs q (by simp))
    subst hq
    have hS : items (leavesOf post) = [] ∨ ∃ y ∈ lx.item, ¬ y < key := by
      cases post with
      | nil => exact Or.inl leavesOf_nil_items
      | cons y ys => exact Or.inr (by simpa using hpost (by simp))
    rw [items_leavesOf_mid] at hx
    have hxq := lb_mid_absent _ _ _ key hpre hS hx
    obtain ⟨sl, slp, hsl, -⟩ := self_left_spec cfg t 0 a n pre post
      (Part.ofLeaf X0 lx.item) left lp hcapI hA.kids hA.subs hnd hL hlp
    obtain ⟨sr, srp, hsr, -⟩ := self_right_spec cfg t 0 a n pre post
      (Part.ofLeaf X0 lx.item) right rp hA.kids hA.kids_length hA.subs hnd hR hrp
    obtain ⟨f, rfl⟩ : ∃ f, fuel = f + 2 := ⟨fuel - 2, by omega⟩
    have heq := erase_one_descend_leaf_absent cfg key f t (Ptr.node X0) sl sr slp srp (Ptr.node a)
      pre.length lx (level?_leaf hX) (leaf?_of_node? hX) hxq
    have hc : n.children[lower_bound_node n.item key]? = some (Ptr.node X0) := by
      rw [← hlen, hA.kids]
      simp only [List.map_append, List.map_cons]
      rw [List.getElem?_append_right (by simp)]
      simp [Part.ofLeaf]
    rw [hlen] at hsl hsr heq
    have hdesc := erase_one_descend_inner cfg key (f + 1) t (Ptr.node a) left right lp rp parent
      pw n 0 (sl, slp) (sr, srp) (Ptr.node X0) (t, Result.notFound)
      (by rw [level?_inner hA.cell, hA.level_eq]) (inner?_of_node? hA.cell) hsl hsr hc heq
    simpa [Result.notFound] using hdesc
  | succ h ih =>
    intro t a n ps par left right lp rp parent pw fuel hA hnd hsort hx hL hlp hR hrp hfuel
    obtain ⟨pre, q, post, hps, hlen, hpre, hpost⟩ :=
      key_lower_split ps n.item key hA.keys hA.kids_ne hsort
    subst hps
    have hq := hA.subs q (by simp)
    obtain ⟨c, nc, psc, e1, e2, e3, hC, hclo, hchi⟩ := InnerAt.of_sub hq
    have eq := Part.eq_ofInner q c psc e1 e2 e3
    subst eq
    have hS : items (leavesOf post) = [] ∨ ∃ y ∈ items (leavesOf psc), ¬ y < key := by
      cases post with
      | nil => exact Or.inl leavesOf_nil_items
      | cons y ys => exact Or.inr (by simpa using hpost (by simp))
    rw [items_leavesOf_inner] at hx hsort
    have hxq := lb_mid_absent _ _ _ key hpre hS hx
    have hnd' := hnd
    simp only [fpOf_append, fpOf_cons, Part.ofInner_fp, List.cons_append] at hnd'
    obtain ⟨han, hnd0⟩ := List.nodup_cons.1 hnd'
    obtain ⟨hndpre, hnd1, hdis1⟩ := List.nodup_append.1 hnd0
    obtain ⟨sl, slp, hsl, -, -, hl4, hl5⟩ := self_left_spec cfg t (h + 1) a n pre post
      (Part.ofInner c psc) left lp hcapI hA.kids hA.subs hnd hL hlp
    obtain ⟨sr, srp, hsr, -, -, hr4, hr5⟩ := self_right_spec cfg t (h + 1) a n pre post
      (Part.ofInner c psc) right rp hA.kids hA.kids_length hA.subs hnd hR hrp
    obtain ⟨f, rfl⟩ : ∃ f, fuel = f + 1 := ⟨fuel - 1, by omega⟩
    have hdc := ih t c nc psc (Ptr.node a) sl sr slp srp (Ptr.node a) pre.length f hC
      (by simpa using hnd1.sublist (List.Sublist.cons₂ _ (List.sublist_append_left _ _)))
      (List.pairwise_append.1 (List.pairwise_append.1 hsort).1).2.1 hxq
      hl4 hl5 hr4 hr5 (by omega)
    have hc : n.children[lower_bound_node n.item key]? = some (Ptr.node c) := by
      rw [← hlen, hA.kids]
      simp only [List.map_append, List.map_cons]
      rw [List.getElem?_append_right (by simp)]
      simp [Part.ofInner]
    rw [hlen] at hsl hsr hdc
    have hdesc := erase_one_descend_inner cfg key f t (Ptr.node a) left right lp rp parent
      pw n (h + 1) (sl, slp) (sr, srp) (Ptr.node c) (t, Result.notFound)
      (by rw [level?_inner hA.cell, hA.level_eq]) (inner?_of_node? hA.cell) hsl hsr hc hdc
    simpa [Result.notFound] using hdesc

end KeyEraseDescent

end BPP

/-! ## The erase by key at the real root -/

namespace BPP

section KeyEraseRoot
variable {α : Type} [LinearOrder α]

/-- The structural invariants I2–I7 of a non-empty container whose in-order
sequence is `xs`, but for the parent field of the real root, which may hold
anything. -/
def ShapedP (cfg : Config) (t : Tree α) (xs : List α) : Prop :=
  ∃ par h ls fp, Sub cfg t h true t.parent par ls fp ∧ fp.Nodup ∧ items ls = xs ∧
    t.size = xs.length ∧ ChainOk t Ptr.root ls ∧ (ls.head?).map Prod.fst = some t.left ∧
    (ls.getLast?).map Prod.fst = some t.right

/-- The state of a container whose in-order sequence is `ys` after an erase by
key: empty with size 0, or the invariants but for the parent field of the
real root. -/
def ShapedPE (cfg : Config) (T : Tree α) (ys : List α) : Prop :=
  (ys = [] ∧ T.parent = Ptr.root ∧ T.size = 0) ∨ ShapedP cfg T ys

theorem Shaped.shapedP {cfg : Config} {t : Tree α} {xs : List α} (h : Shaped cfg t xs) :
    ShapedP cfg t xs := by
  obtain ⟨h, ls, fp, hs⟩ := h
  exact ⟨Ptr.root, h, ls, fp, hs⟩

theorem ShapedP.p_ne_root {cfg : Config} {t : Tree α} {xs : List α} (hsh : ShapedP cfg t xs) :
    t.parent ≠ Ptr.root := by
  obtain ⟨par, h, ls, fp, hs, -⟩ := hsh
  obtain ⟨a, tl, hp, -⟩ := Sub.ptr hs
  rw [hp]; simp

theorem ShapedP.p_toList {cfg : Config} {t : Tree α} {xs : List α} (hsh : ShapedP cfg t xs) :
    toList t = some xs := by
  have hne := hsh.p_ne_root
  obtain ⟨par, h, ls, fp, hs, hnd, hit, -⟩ := hsh
  simp [toList, leafList, if_neg hne, Sub.leaves_eq _ hs (Sub.fuel hs hnd), hit]

theorem ShapedPE.pe_toList {cfg : Config} {t : Tree α} {xs : List α}
    (hsh : ShapedPE cfg t xs) : toList t = some xs := by
  rcases hsh with ⟨h1, h2, -⟩ | h
  · simp [toList, leafList, h1, h2, items]
  · exact h.p_toList

theorem ShapedPE.pe_size {cfg : Config} {t : Tree α} {xs : List α}
    (hsh : ShapedPE cfg t xs) : t.size = xs.length := by
  rcases hsh with ⟨h1, -, h3⟩ | h
  · rw [h1, h3]; rfl
  · obtain ⟨par, h, ls, fp, -, -, -, hsz, -⟩ := h
    exact hsz

/-- A container whose real root has all of its invariant, after the anchor
counted the element out. -/
theorem shapedP_of_innerAt (cfg : Config) (s : Tree α) (h r : Nat) (n2 : InnerNode α)
    (ps : List (Part α)) (xs : List α) (par : Ptr) (hA : InnerAt cfg s h r n2 ps par)
    (h1 : 1 ≤ n2.item.length) (h2 : n2.item.length ≤ cfg.maxInner)
    (hroot : s.parent = Ptr.node r) (hnd : (r :: fpOf ps).Nodup)
    (hitems : items (leavesOf ps) = xs) (hsize : s.size = xs.length + 1)
    (hchain : ChainOk s Ptr.root (leavesOf ps))
    (hhead : ((leavesOf ps).head?).map Prod.fst = some s.left)
    (hlast : ((leavesOf ps).getLast?).map Prod.fst = some s.right) :
    ShapedP cfg { s with size := wsub s.size 1 } xs := by
  have hs := hA.to_sub true (by simpa using h1) h2
  simp only [Part.ofInner_ptr, Part.ofInner_leaves, Part.ofInner_fp] at hs
  generalize hT : ({ s with size := wsub s.size 1 } : Tree α) = T
  have e1 : T.parent = s.parent := by rw [← hT]
  have e2 : T.size = wsub s.size 1 := by rw [← hT]
  have e3 : T.left = s.left := by rw [← hT]
  have e4 : T.right = s.right := by rw [← hT]
  have e5 : ∀ p, T.node? p = s.node? p := by intro p; rw [← hT]; rfl
  have e6 : ∀ p, T.leaf? p = s.leaf? p := by intro p; rw [← hT]; rfl
  refine ⟨par, h + 1, leavesOf ps, r :: fpOf ps, ?_, hnd, hitems, ?_, ?_, by rw [e3]; exact hhead,
    by rw [e4]; exact hlast⟩
  · rw [e1, hroot]
    exact Sub.frame hs (fun b _ => SameCore.of_eq (e5 _))
  · rw [e2, hsize, wsub_of_le (by omega)]
    omega
  · exact ChainOk.congr_leaves _ _ (fun e _ => e6 e.1) hchain

/-- The collapse of a real root that is left with one child in
`erase_one_descend_`: the child becomes the real root and keeps its parent
field. -/
theorem root_collapse_one (cfg : Config) (s : Tree α) (h r : Nat) (n2 : InnerNode α)
    (q0 : Part α) (xs : List α) (par : Ptr) (hcapL : 2 ≤ cfg.maxLeaf) (hcapI : 2 ≤ cfg.maxInner)
    (hA : InnerAt cfg s h r n2 [q0] par) (hnd : (r :: q0.fp).Nodup)
    (hitems : items q0.leaves = xs)
    (hsize : s.size = xs.length + 1) (hchain : ChainOk s Ptr.root q0.leaves)
    (hhead : (q0.leaves.head?).map Prod.fst = some s.left)
    (hlast : (q0.leaves.getLast?).map Prod.fst = some s.right) :
    ∃ c s3 T, n2.children[0]? = some c ∧
      ({ s with parent := c } : Tree α).modInner (Ptr.node r) (fun m => { m with item := [] })
        = some s3 ∧
      s3.free_node_ (Ptr.node r) = some T ∧
      ShapedP cfg { T with size := wsub T.size 1 } xs := by
  have hq := hA.subs q0 (by simp)
  obtain ⟨c, tl, x, hp, hfp, hx⟩ := Sub.node hq
  obtain ⟨hrfp, hndq⟩ := List.nodup_cons.1 hnd
  have hcr : c ≠ r := by
    intro e; subst e; exact hrfp (by rw [hfp]; simp)
  have hc0 : n2.children[0]? = some (Ptr.node c) := by
    rw [hA.kids, ← hp]; rfl
  generalize hs' : ({ s with parent := Ptr.node c } : Tree α) = s'
  have a1 : s'.parent = Ptr.node c := by rw [← hs']
  have a2 : s'.size = s.size := by rw [← hs']
  have a3 : s'.left = s.left := by rw [← hs']
  have a4 : s'.right = s.right := by rw [← hs']
  have a5 : ∀ p, s'.node? p = s.node? p := by intro p; rw [← hs']; rfl
  have hr2 : s'.node? (Ptr.node r) = some (Node.inner n2) := by rw [a5]; exact hA.cell
  obtain ⟨s3, hmod, hn3, hst3, hlen3⟩ := modInner_istep s' r n2
    (fun m => { m with item := [] }) hr2
  obtain ⟨s4, hfree, hD4, hfr4, hlen4, b1, b2, b3, b4⟩ := free_node_spec s3 r _ hn3
  generalize hT : ({ s4 with size := wsub s4.size 1 } : Tree α) = T
  have c1 : T.parent = s4.parent := by rw [← hT]
  have c2 : T.size = wsub s4.size 1 := by rw [← hT]
  have c3 : T.left = s4.left := by rw [← hT]
  have c4 : T.right = s4.right := by rw [← hT]
  have c5 : ∀ p, T.node? p = s4.node? p := by intro p; rw [← hT]; rfl
  have c6 : ∀ p, T.leaf? p = s4.leaf? p := by intro p; rw [← hT]; rfl
  have hfrT : ∀ b, b ≠ r → T.node? (Ptr.node b) = s.node? (Ptr.node b) := by
    intro b h1
    rw [c5, hfr4 b h1, hst3.1.node_eq hlen3 b (by simpa using h1), a5]
  refine ⟨Ptr.node c, s3, s4, hc0, by rw [hs']; exact hmod, hfree, ?_⟩
  rw [hT]
  have hsubc : Sub cfg T h false (Ptr.node c) (Ptr.node r) q0.leaves q0.fp := by
    rw [hp] at hq
    refine Sub.frame hq (fun b hb => SameCore.of_eq (hfrT b ?_))
    intro e; subst e; exact hrfp hb
  have hleafs : ∀ e ∈ q0.leaves, T.leaf? e.1 = s.leaf? e.1 := by
    intro e he
    obtain ⟨b, hb1, hb2⟩ := Sub.leaf_mem hq e he
    have hbr : b ≠ r := by intro e'; subst e'; exact hrfp hb2
    rw [hb1]
    exact leaf?_congr (hfrT b hbr)
  refine ⟨Ptr.node r, h, q0.leaves, q0.fp, ?_, hndq, hitems, ?_,
    ChainOk.congr_leaves _ _ hleafs hchain, ?_, ?_⟩
  · rw [c1, b1, hst3.2.1.1, a1]
    exact Sub.to_root hcapL hcapI hsubc
  · rw [c2, b2, hst3.2.1.2.1, a2, hsize, wsub_of_le (by omega)]
    omega
  · rw [c3, b3, hst3.2.1.2.2.1, a3]; exact hhead
  · rw [c4, b4, hst3.2.1.2.2.2, a4]; exact hlast

/-- The turn of the real root in `erase_one_descend_`, and the count of the
anchor after it: the container keeps I2–I7 but for the parent field of a new
real root. -/
theorem erase_one_root_finish (cfg : Config) (t t1 : Tree α) (h r : Nat) (n : InnerNode α)
    (w : Nat) (ps : List (Part α)) (xs : List α) (X : Ptr) (res : Result α) (par : Ptr)
    (hcapL : 2 ≤ cfg.maxLeaf) (hcapI : 2 ≤ cfg.maxInner) (hA : InnerAt cfg t h r n ps par)
    (hn2 : n.item.length ≤ cfg.maxInner)
    (hnd : (r :: fpOf ps).Nodup) (hroot : t.parent = Ptr.node r)
    (hsize : t.size = (items (leavesOf ps)).length)
    (hhead : ((leavesOf ps).head?).map Prod.fst = some t.left)
    (hreb : RebOut cfg t t1 h r n w ps xs X [] [] Ptr.root res.fixmerge)
    (hxs : xs.length + 1 = (items (leavesOf ps)).length) :
    ∃ T r2, erase_one_after_ cfg t1 (Ptr.node r) Ptr.null Ptr.null Ptr.null Ptr.null Ptr.null 0
        w res = some (T, r2) ∧
      r2.not_found = false ∧ ShapedP cfg { T with size := wsub T.size 1 } xs := by
  unfold RebOut at hreb
  obtain ⟨rlen, rpar, rsz, rleft, rfr, ps', ritems, rfp, rnd, rchain, rptrs, rhead, rends, rX,
    rpend⟩ := hreb
  simp only [List.nil_append, List.append_nil] at rchain rptrs rhead rends
  obtain ⟨haF, hndps⟩ := List.nodup_cons.1 hnd
  obtain ⟨u1, hmod, hP1, hst1, hlen1⟩ := rpend.resize haF rfp
  have hfr1 : ∀ c, c ≠ r → u1.node? (Ptr.node c) = t1.node? (Ptr.node c) :=
    fun c hc => hst1.1.node_eq hlen1 c (by simpa using hc)
  obtain ⟨s, n2, hfix, hAt, hn2len, slen, sa1, sa2, sa3, sa4, hfrs⟩ :=
    node_local cfg u1 h r { n with size := wsub n.size 1 } w ps' (fpOf ps) res.fixmerge hcapL
      hP1 hA.level_eq hn2
      (by show wsub n.size 1 = _
          rw [hA.size_eq, ritems, wsub_of_le (by omega)]; omega) haF rfp
  have hpar : ({ n with size := wsub n.size 1 } : InnerNode α).parent = par := hA.par_eq
  rw [hpar] at hAt
  have hn2len' : n2.item.length + (if res.fixmerge then 1 else 0) = n.item.length := hn2len
  clear hn2len
  have hn2hi : n2.item.length ≤ cfg.maxInner := by
    split_ifs at hn2len' <;> omega
  have hrF' : r ∉ fpOf ps' := fun e => haF (rfp r e)
  have hleafs : ∀ e ∈ leavesOf ps', s.leaf? e.1 = t1.leaf? e.1 := by
    intro e he
    obtain ⟨c, h1, h2⟩ := leavesOf_mem ps' hAt.subs e he
    rw [h1]
    have hcr : c ≠ r := by intro e'; subst e'; exact hrF' h2
    exact leaf?_congr (by rw [hfrs c hcr (fun _ => h2), hfr1 c hcr])
  have hchs : ChainOk s Ptr.root (leavesOf ps') := ChainOk.congr_leaves _ _ hleafs rchain
  have hsp : s.parent = Ptr.node r := by rw [sa1, hst1.2.1.1, rpar, hroot]
  have hss : s.size = xs.length + 1 := by rw [sa2, hst1.2.1.2.1, rsz, hsize, hxs]
  have hsl : ((leavesOf ps').head?).map Prod.fst = some s.left := by
    rw [rhead, hhead, sa3, hst1.2.1.2.2.1, rleft]
  have hsr : ((leavesOf ps').getLast?).map Prod.fst = some s.right := by
    rw [rends, sa4, hst1.2.1.2.2.2]
  have hnd' : (r :: fpOf ps').Nodup := List.nodup_cons.2 ⟨hrF', rnd⟩
  obtain ⟨r1, hlk, hr1n⟩ : ∃ r1, (match res.last_key with
        | some k => inner_last_key_ cfg u1 Ptr.null 0 k
        | none => some (u1, Result.ok)) = some (u1, r1) ∧ r1.not_found = false := by
    cases hrk : res.last_key with
    | none => exact ⟨Result.ok, rfl, rfl⟩
    | some k => exact ⟨Result.lastKey k, inner_last_key_top cfg u1 0 k, rfl⟩
  by_cases hz : n2.item.length = 0
  · -- the root is left with one child
    have hkl := hAt.kids_length
    obtain ⟨q0, hq0⟩ : ∃ q0, ps' = [q0] := by
      cases hps : ps' with
      | nil => rw [hps] at hkl; simp at hkl
      | cons q0 rest =>
        cases rest with
        | nil => exact ⟨q0, rfl⟩
        | cons _ _ => rw [hps] at hkl; simp at hkl; omega
    subst hq0
    simp only [leavesOf_cons, leavesOf_nil, List.append_nil, fpOf_cons, fpOf_nil] at *
    obtain ⟨c, s3, T, hc0, hm3, hfree, hT⟩ := root_collapse_one cfg s h r n2 q0 xs par hcapL
      hcapI hAt hnd' ritems hss hchs hsl hsr
    have hif : n2.item.length < cfg.maxInner / 2 ∧
        ¬ (Ptr.node r = s.parent ∧ n2.item.length ≥ 1) := by
      refine ⟨by omega, fun e => ?_⟩
      omega
    refine ⟨T, Result.ok, ?_, rfl, hT⟩
    cases hrk : res.last_key with
    | none =>
      rw [hrk] at hlk
      simp only [] at hlk
      simp only [erase_one_after_, hmod, hrk, hlk, hfix, Option.pure_def,
        Option.bind_eq_bind, Option.some_bind, inner?_of_node? hAt.cell, if_pos hif, and_self,
        if_true, hc0, hm3, hfree]
    | some k =>
      rw [hrk] at hlk
      simp only [] at hlk
      simp only [erase_one_after_, hmod, hrk, hlk, hfix, Option.pure_def,
        Option.bind_eq_bind, Option.some_bind, inner?_of_node? hAt.cell, if_pos hif, and_self,
        if_true, hc0, hm3, hfree]
  · have hpos : 1 ≤ n2.item.length := Nat.one_le_iff_ne_zero.2 hz
    have hif : ¬ (n2.item.length < cfg.maxInner / 2 ∧
        ¬ (Ptr.node r = s.parent ∧ n2.item.length ≥ 1)) := by
      intro e
      exact e.2 ⟨hsp.symm, hpos⟩
    refine ⟨s, r1, ?_, hr1n, shapedP_of_innerAt cfg s h r n2 ps' xs par hAt
      hpos hn2hi hsp hnd' ritems hss hchs hsl hsr⟩
    cases hrk : res.last_key with
    | none =>
      rw [hrk] at hlk
      simp only [] at hlk
      simp only [erase_one_after_, hmod, hrk, hlk, hfix, Option.pure_def,
        Option.bind_eq_bind, Option.some_bind, inner?_of_node? hAt.cell, if_neg hif]
    | some k =>
      rw [hrk] at hlk
      simp only [] at hlk
      simp only [erase_one_after_, hmod, hrk, hlk, hfix, Option.pure_def,
        Option.bind_eq_bind, Option.some_bind, inner?_of_node? hAt.cell, if_neg hif]

/-- The erase by key on a container whose real root is a leaf that holds the
key. -/
theorem erase_one_leaf_root (cfg : Config) (key : α) (t : Tree α) (X0 : Nat) (lx : LeafNode α)
    (x : α) (fuel : Nat) (hcapL : 2 ≤ cfg.maxLeaf)
    (hX : t.node? (Ptr.node X0) = some (Node.leaf lx))
    (hroot : t.parent = Ptr.node X0)
    (hhi : lx.item.length ≤ cfg.maxLeaf)
    (hx : lx.item[lower_bound_node lx.item key]? = some x) (hkx : ¬ key < x)
    (hsize : t.size = lx.item.length)
    (hchain : ChainOk t Ptr.root [(Ptr.node X0, lx.item)])
    (hleft : t.left = Ptr.node X0) (hright : t.right = Ptr.node X0) :
    ∃ T r2, erase_one_descend_ cfg key (fuel + 1) t (Ptr.node X0) Ptr.null Ptr.null Ptr.null
        Ptr.null Ptr.null 0 = some (T, r2) ∧ r2.not_found = false ∧
      ShapedPE cfg { T with size := wsub T.size 1 }
        (lx.item.eraseIdx (lower_bound_node lx.item key)) := by
  have hi : lower_bound_node lx.item key < lx.item.length := (List.getElem?_eq_some.1 hx).1
  rw [erase_one_descend_leaf cfg key fuel t (Ptr.node X0) Ptr.null Ptr.null Ptr.null Ptr.null
    Ptr.null 0 lx x (level?_leaf hX) (leaf?_of_node? hX) hx hkx]
  generalize lower_bound_node lx.item key = i at hi
  obtain ⟨t', hmod, hX', hst, hlen⟩ := modLeaf_istep t X0 lx
    (fun m => { m with item := lx.item.eraseIdx i }) hX rfl rfl
  have hlen' : (lx.item.eraseIdx i).length + 1 = lx.item.length := by
    rw [List.length_eraseIdx, if_pos hi]; omega
  have hlk : ∃ res, leaf_last_key_ cfg t' (Ptr.node X0) Ptr.null 0 = some (t', res) ∧
      res.not_found = false := by
    unfold leaf_last_key_
    simp only [leaf?_of_node? hX', ne_eq, not_true_eq_false, if_false, Bool.false_eq_true,
      Option.pure_def, Option.bind_eq_bind, Option.some_bind]
    by_cases hge : (lx.item.eraseIdx i).length ≥ 1
    · have hne : lx.item.eraseIdx i ≠ [] := by
        intro e; rw [e] at hge; simp at hge
      obtain ⟨k, hk⟩ : ∃ k, (lx.item.eraseIdx i)[wsub (lx.item.eraseIdx i).length 1]? = some k := by
        rw [getLast?_eq_getElem?_wsub _ hne]
        cases hg : (lx.item.eraseIdx i).getLast? with
        | none => exact absurd (List.getLast?_eq_none_iff.1 hg) hne
        | some k => exact ⟨k, rfl⟩
      exact ⟨Result.lastKey k, by simp only [if_pos hge, hk], rfl⟩
    · exact ⟨Result.ok, by simp only [if_neg hge], rfl⟩
  obtain ⟨res0, hlk, hres0⟩ := hlk
  obtain ⟨res, hhead, hresn⟩ : ∃ res, erase_one_head_ cfg t (Ptr.node X0) i Ptr.null 0
      = some (t', res, (lx.item.eraseIdx i).length) ∧ res.not_found = false := by
    unfold erase_one_head_
    unfold eraseAt?
    by_cases hw : i = (lx.item.eraseIdx i).length
    · refine ⟨res0, ?_, hres0⟩
      simp only [leaf?_of_node? hX, if_pos hi, hmod, if_pos hw, hlk, Option.pure_def,
        Option.bind_eq_bind, Option.some_bind]
    · refine ⟨Result.ok, ?_, rfl⟩
      simp only [leaf?_of_node? hX, if_pos hi, hmod, if_neg hw, Option.pure_def,
        Option.bind_eq_bind, Option.some_bind]
  have hp' : t'.parent = Ptr.node X0 := by rw [hst.2.1.1, hroot]
  rw [hhead]
  simp only [Option.some_bind]
  by_cases hz : (lx.item.eraseIdx i).length = 0
  · -- the last element leaves the container
    obtain ⟨t2, hfree, -, -, -, -, hsz2, -, -⟩ := free_node_spec t' X0 _ hX'
    have hif : (lx.item.eraseIdx i).length < cfg.maxLeaf / 2 ∧
        ¬ (Ptr.node X0 = t'.parent ∧ (lx.item.eraseIdx i).length ≥ 1) := by
      refine ⟨by omega, fun e => ?_⟩
      omega
    have hs1 : wsub t2.size 1 = 0 := by
      rw [hsz2, hst.2.1.2.1, hsize, ← hlen', hz]; rfl
    refine ⟨{ t2 with parent := Ptr.root, left := Ptr.null, right := Ptr.null }, Result.ok, ?_,
      rfl, Or.inl ⟨List.length_eq_zero.1 hz, rfl, hs1⟩⟩
    unfold erase_one_leaf_fix_
    rw [if_pos hif]
    simp only [and_self, if_true, hp', hfree, Option.pure_def, Option.bind_eq_bind,
      Option.some_bind]
  · have hge : (lx.item.eraseIdx i).length ≥ 1 := Nat.one_le_iff_ne_zero.2 hz
    have hif : ¬ ((lx.item.eraseIdx i).length < cfg.maxLeaf / 2 ∧
        ¬ (Ptr.node X0 = t'.parent ∧ (lx.item.eraseIdx i).length ≥ 1)) :=
      fun e => e.2 ⟨hp'.symm, hge⟩
    generalize hT : ({ t' with size := wsub t'.size 1 } : Tree α) = T
    have c1 : T.parent = t'.parent := by rw [← hT]
    have c2 : T.size = wsub t'.size 1 := by rw [← hT]
    have c3 : T.left = t'.left := by rw [← hT]
    have c4 : T.right = t'.right := by rw [← hT]
    have c5 : ∀ p, T.node? p = t'.node? p := by intro p; rw [← hT]; rfl
    have c6 : ∀ p, T.leaf? p = t'.leaf? p := by intro p; rw [← hT]; rfl
    refine ⟨t', res, ?_, hresn, ?_⟩
    · unfold erase_one_leaf_fix_
      rw [if_neg hif]
    rw [hT]
    refine Or.inr ⟨lx.parent, 0, [(Ptr.node X0, lx.item.eraseIdx i)], [X0], ?_, by simp,
      by simp [items], ?_, ?_, ?_, ?_⟩
    · rw [c1, hp']
      refine Sub.zero_iff.2 ⟨X0, { lx with item := lx.item.eraseIdx i }, rfl,
        by rw [c5]; exact hX', rfl, rfl, rfl, ?_, ?_⟩
      · simpa using hge
      · show (lx.item.eraseIdx i).length ≤ cfg.maxLeaf
        omega
    · rw [c2, hst.2.1.2.1, hsize, wsub_of_le (by omega)]
      omega
    · obtain ⟨l0, h0, h1, h2, -⟩ := hchain
      rw [leaf?_of_node? hX] at h0
      have e0 : lx = l0 := Option.some.inj h0
      rw [← e0] at h1 h2
      exact ⟨{ lx with item := lx.item.eraseIdx i }, by rw [c6]; exact leaf?_of_node? hX', h1, h2,
        trivial⟩
    · simp only [List.head?_cons, Option.map_some']
      rw [c3, hst.2.1.2.2.1, hleft]
    · simp only [List.getLast?_singleton, Option.map_some']
      rw [c4, hst.2.1.2.2.2, hright]

/-- The erase of one element by key on a container that holds the key: the
element at the lower bound of the key is removed. -/
theorem erase_one_found (cfg : Config) (key : α) (t : Tree α) (xs : List α) (x : α)
    (hcapL : 4 ≤ cfg.maxLeaf) (hcapI : 2 ≤ cfg.maxInner) (hsh : ShapedP cfg t xs)
    (hord : xs.Pairwise (· ≤ ·)) (hx : xs[lower_bound_node xs key]? = some x)
    (hkx : ¬ key < x) :
    ∃ T, erase_one_ cfg t key = some (T, true) ∧
      ShapedPE cfg T (xs.eraseIdx (lower_bound_node xs key)) := by
  have hne := hsh.p_ne_root
  obtain ⟨par, h, ls, fp, hs, hnd, hit, hsz, hchain, hhead, hlast⟩ := hsh
  have hfuel := Sub.fuel hs hnd
  cases h with
  | zero =>
    obtain ⟨a, l, hp, hn, hpar, hls, hfp, hlo, hhi⟩ := Sub.zero_iff.1 hs
    have hil : items ls = l.item := by rw [hls]; simp [items]
    rw [hil] at hit
    subst hit
    rw [hls, hp] at hchain hhead hlast
    simp only [List.head?_cons, List.getLast?_singleton, Option.map_some',
      Option.some.injEq] at hhead hlast
    rw [hp] at hn
    obtain ⟨T, r2, hdesc, hnf, hT⟩ := erase_one_leaf_root cfg key t a l x t.mem.length
      (by omega) hn hp hhi hx hkx hsz hchain hhead.symm hlast.symm
    refine ⟨_, ?_, hT⟩
    rw [erase_one_, if_neg hne, hp]
    simp only [hdesc, hnf, Bool.false_eq_true, if_false, Option.pure_def, Option.bind_eq_bind,
      Option.some_bind]
  | succ h =>
    obtain ⟨A, la, psA, hp, hls, hfp, hA, hlo, hhi⟩ := InnerAt.of_sub hs
    subst hls hfp
    subst hit
    obtain ⟨hAF, hndps⟩ := List.nodup_cons.1 hnd
    have hlt : lower_bound_node (items (leavesOf psA)) key < (items (leavesOf psA)).length :=
      (List.getElem?_eq_some.1 hx).1
    obtain ⟨t1, res, w, X, hreb, hnf, hk1, hk2, hdesc⟩ := erase_one_sub cfg key hcapL hcapI h t A
      la psA par [] [] Ptr.root Ptr.null Ptr.null Ptr.null Ptr.null Ptr.null 0 (t.mem.length + 1)
      x hA (by simpa using hlo) hhi hnd hord hx hkx (by simpa using hchain) (by
        simpa using Sub.leaf_ptrs_nodup hs hnd) (by simpa using hlast) (by simp)
      (fun c hc e => by
        rw [hp] at e
        simp only [Ptr.node.injEq] at e
        subst e
        exact hAF hc)
      (Or.inl rfl) (fun c _ => by simp) (Or.inl rfl) (fun c _ => by simp) (by omega)
    obtain ⟨T, r2, hafter, hr2, hT⟩ := erase_one_root_finish cfg t t1 h A la w psA _ X res par
      (by omega) hcapI hA hhi hnd hp hsz hhead hreb
      (by rw [List.length_eraseIdx, if_pos hlt]; omega)
    refine ⟨_, ?_, Or.inr hT⟩
    rw [erase_one_, if_neg hne, hp]
    simp only [hdesc, hafter, hr2, Bool.false_eq_true, if_false, Option.pure_def,
      Option.bind_eq_bind, Option.some_bind]

/-- The erase of one element by key on a container that does not hold the
key: nothing changes. -/
theorem erase_one_missing (cfg : Config) (key : α) (t : Tree α) (xs : List α)
    (hcapI : 2 ≤ cfg.maxInner) (hsh : ShapedPE cfg t xs)
    (hord : xs.Pairwise (· ≤ ·))
    (hx : ∀ x, xs[lower_bound_node xs key]? = some x → key < x) :
    erase_one_ cfg t key = some (t, false) := by
  rcases hsh with ⟨-, he, -⟩ | hsh
  · rw [erase_one_, if_pos he]
  have hne := hsh.p_ne_root
  obtain ⟨par, h, ls, fp, hs, hnd, hit, hsz, hchain, hhead, hlast⟩ := hsh
  have hfuel := Sub.fuel hs hnd
  cases h with
  | zero =>
    obtain ⟨a, l, hp, hn, hpar, hls, hfp, hlo, hhi⟩ := Sub.zero_iff.1 hs
    have hil : items ls = l.item := by rw [hls]; simp [items]
    rw [hil] at hit
    subst hit
    rw [hp] at hn
    have hdesc := erase_one_descend_leaf_absent cfg key t.mem.length t (Ptr.node a) Ptr.null
      Ptr.null Ptr.null Ptr.null Ptr.null 0 l (level?_leaf hn) (leaf?_of_node? hn) hx
    rw [erase_one_, if_neg hne, hp]
    simp [hdesc, Result.notFound]
  | succ h =>
    obtain ⟨A, la, psA, hp, hls, hfp, hA, hlo, hhi⟩ := InnerAt.of_sub hs
    subst hls hfp
    subst hit
    have hdesc := erase_one_absent cfg key hcapI h t A la psA par Ptr.null Ptr.null Ptr.null
      Ptr.null Ptr.null 0 (t.mem.length + 1) hA hnd hord hx (Or.inl rfl) (fun c _ => by simp)
      (Or.inl rfl) (fun c _ => by simp) (by omega)
    rw [erase_one_, if_neg hne, hp]
    simp [hdesc, Result.notFound]

end KeyEraseRoot

section KeyEraseLists
variable {α : Type} [LinearOrder α]

/-- The item at the lower bound of a key is not below the key. -/
theorem lower_bound_node_not_lt (xs : List α) (key x : α)
    (hx : xs[lower_bound_node xs key]? = some x) : ¬ x < key := by
  induction xs with
  | nil => simp at hx
  | cons y ys ih =>
    by_cases hy : y < key
    · simp only [lower_bound_node, if_pos hy, List.getElem?_cons_succ] at hx
      exact ih hx
    · simp only [lower_bound_node, if_neg hy, List.getElem?_cons_zero,
        Option.some.injEq] at hx
      rw [← hx]; exact hy

/-- A sorted run whose item at the lower bound of a key is above the key does
not hold the key. -/
theorem not_mem_of_lower_bound (xs : List α) (key : α) (hs : xs.Pairwise (· ≤ ·))
    (hx : ∀ x, xs[lower_bound_node xs key]? = some x → key < x) : key ∉ xs := by
  induction xs with
  | nil => simp
  | cons y ys ih =>
    obtain ⟨h1, h2⟩ := List.pairwise_cons.1 hs
    by_cases hy : y < key
    · simp only [lower_bound_node, if_pos hy, List.getElem?_cons_succ] at hx
      simp only [List.mem_cons, not_or]
      exact ⟨ne_of_gt hy, ih h2 hx⟩
    · simp only [lower_bound_node, if_neg hy, List.getElem?_cons_zero, Option.some.injEq,
        forall_eq'] at hx
      simp only [List.mem_cons, not_or]
      exact ⟨ne_of_lt hx, fun hm => absurd (lt_of_lt_of_le hx (h1 key hm)) (lt_irrefl _)⟩

/-- Removing one occurrence of a key changes neither the other elements nor
their order, and takes one from the count of the key. -/
theorem filter_eraseIdx_key (xs : List α) (key : α) (i : Nat) (hx : xs[i]? = some key) :
    (xs.eraseIdx i).filter (fun y => decide (y ≠ key)) = xs.filter (fun y => decide (y ≠ key)) ∧
      (xs.eraseIdx i).count key + 1 = xs.count key := by
  induction xs generalizing i with
  | nil => simp at hx
  | cons y ys ih =>
    cases i with
    | zero =>
      simp only [List.getElem?_cons_zero, Option.some.injEq] at hx
      subst hx
      simp
    | succ i =>
      simp only [List.getElem?_cons_succ] at hx
      obtain ⟨h1, h2⟩ := ih i hx
      simp only [List.eraseIdx_cons_succ, List.filter_cons, h1, List.count_cons, true_and]
      omega

theorem count_eq_zero_filter (xs : List α) (key : α) (h : key ∉ xs) :
    xs.filter (fun y => decide (y ≠ key)) = xs ∧ xs.count key = 0 := by
  refine ⟨List.filter_eq_self.2 (fun y hy => ?_), List.count_eq_zero.2 h⟩
  simp only [ne_eq, decide_eq_true_eq]
  intro e; subst e; exact h hy

end KeyEraseLists

section KeyEraseLoop
variable {α : Type} [LinearOrder α]

/-- The loop of `erase(key)` in multi mode: it removes every element equal
to the key and counts them. -/
theorem erase_key_loop_multi (cfg : Config) (key : α) (hcapL : 4 ≤ cfg.maxLeaf)
    (hcapI : 2 ≤ cfg.maxInner) (hu : cfg.unique = false) :
    ∀ (fuel : Nat) (t : Tree α) (xs : List α) (cnt : Nat), ShapedPE cfg t xs →
      xs.Pairwise (· ≤ ·) → xs.count key + 1 ≤ fuel →
      ∃ T, erase_key_loop cfg key fuel t cnt = some (T, cnt + xs.count key) ∧
        ShapedPE cfg T (xs.filter (fun y => decide (y ≠ key))) ∧ (key ∉ xs → T = t) := by
  intro fuel
  induction fuel with
  | zero => intro t xs cnt _ _ h; omega
  | succ fuel ih =>
    intro t xs cnt hsh hord hfuel
    by_cases hfound : ∃ x, xs[lower_bound_node xs key]? = some x ∧ ¬ key < x
    · obtain ⟨x, hx, hkx⟩ := hfound
      have hxk : x = key :=
        le_antisymm (not_lt.1 hkx) (not_lt.1 (lower_bound_node_not_lt _ _ _ hx))
      subst hxk
      have hshP : ShapedP cfg t xs := by
        rcases hsh with ⟨h1, -⟩ | h
        · rw [h1] at hx; simp at hx
        · exact h
      obtain ⟨T1, h1, hT1⟩ := erase_one_found cfg x t xs x hcapL hcapI hshP hord hx hkx
      obtain ⟨e1, e2⟩ := filter_eraseIdx_key xs x _ hx
      obtain ⟨T, hT, hTs, -⟩ := ih T1 (xs.eraseIdx (lower_bound_node xs x)) (cnt + 1) hT1
        (hord.sublist (List.eraseIdx_sublist _ _)) (by omega)
      refine ⟨T, ?_, by rw [← e1]; exact hTs, fun hn => absurd (List.getElem?_mem hx) hn⟩
      rw [erase_key_loop]
      simp only [h1, hu, Bool.false_eq_true, if_false, if_true, Option.pure_def,
        Option.bind_eq_bind, Option.some_bind]
      rw [hT, ← e2]
      congr 2
      omega
    · have hx : ∀ x, xs[lower_bound_node xs key]? = some x → key < x := by
        intro x hx
        by_contra hk
        exact hfound ⟨x, hx, hk⟩
      have hmem := not_mem_of_lower_bound xs key hord hx
      obtain ⟨e1, e2⟩ := count_eq_zero_filter xs key hmem
      refine ⟨t, ?_, by rw [e1]; exact hsh, fun _ => rfl⟩
      rw [erase_key_loop, erase_one_missing cfg key t xs hcapI hsh hord hx]
      simp [e2]

/-- The loop of `erase(key)` in unique mode: it removes the element equal to
the key, if there is one. -/
theorem erase_key_loop_unique (cfg : Config) (key : α) (hcapL : 4 ≤ cfg.maxLeaf)
    (hcapI : 2 ≤ cfg.maxInner) (hu : cfg.unique = true) (fuel : Nat) (t : Tree α) (xs : List α)
    (hsh : ShapedPE cfg t xs) (hord : xs.Pairwise (· < ·)) :
    ∃ T, erase_key_loop cfg key (fuel + 1) t 0 = some (T, xs.count key) ∧
      ShapedPE cfg T (xs.filter (fun y => decide (y ≠ key))) ∧ (key ∉ xs → T = t) ∧
      xs.count key ≤ 1 := by
  have hle : xs.Pairwise (· ≤ ·) := hord.imp (fun h => le_of_lt h)
  have hnd : xs.Nodup := hord.imp (fun h => ne_of_lt h)
  have hc1 : xs.count key ≤ 1 := List.nodup_iff_count_le_one.1 hnd key
  by_cases hfound : ∃ x, xs[lower_bound_node xs key]? = some x ∧ ¬ key < x
  · obtain ⟨x, hx, hkx⟩ := hfound
    have hxk : x = key :=
      le_antisymm (not_lt.1 hkx) (not_lt.1 (lower_bound_node_not_lt _ _ _ hx))
    subst hxk
    have hshP : ShapedP cfg t xs := by
      rcases hsh with ⟨h1, -⟩ | h
      · rw [h1] at hx; simp at hx
      · exact h
    obtain ⟨T1, h1, hT1⟩ := erase_one_found cfg x t xs x hcapL hcapI hshP hle hx hkx
    obtain ⟨e1, e2⟩ := filter_eraseIdx_key xs x _ hx
    have hnm : x ∉ xs.eraseIdx (lower_bound_node xs x) :=
      List.count_eq_zero.1 (by omega)
    have e3 := (count_eq_zero_filter _ x hnm).1
    refine ⟨T1, ?_, by rw [← e1, e3]; exact hT1, fun hn => absurd (List.getElem?_mem hx) hn, hc1⟩
    rw [erase_key_loop]
    simp only [h1, hu, if_true, Option.pure_def, Option.bind_eq_bind, Option.some_bind]
    congr 2
    omega
  · have hx : ∀ x, xs[lower_bound_node xs key]? = some x → key < x := by
      intro x hx
      by_contra hk
      exact hfound ⟨x, hx, hk⟩
    have hmem := not_mem_of_lower_bound xs key hle hx
    obtain ⟨e1, e2⟩ := count_eq_zero_filter xs key hmem
    refine ⟨t, ?_, by rw [e1]; exact hsh, fun _ => rfl, hc1⟩
    rw [erase_key_loop, erase_one_missing cfg key t xs hcapI hsh hle hx]
    simp [e2]

/-- The public `erase(key)` on a container in the state an erase by key
leaves: every element equal to the key is removed and counted, in unique
mode at most one. -/
theorem erase_key_shaped (cfg : Config) (key : α) (t : Tree α) (xs : List α)
    (hcapL : 4 ≤ cfg.maxLeaf) (hcapI : 2 ≤ cfg.maxInner) (hsh : ShapedPE cfg t xs)
    (hord : Ordered cfg xs) :
    ∃ T, erase_key cfg t key = some (T, xs.count key) ∧
      ShapedPE cfg T (xs.filter (fun y => decide (y ≠ key))) ∧ (key ∉ xs → T = t) ∧
      (cfg.unique = true → xs.count key ≤ 1) := by
  unfold erase_key
  cases hu : cfg.unique with
  | true =>
    obtain ⟨T, h1, h2, h3, h4⟩ := erase_key_loop_unique cfg key hcapL hcapI hu t.size t xs hsh
      (hord.2 hu)
    exact ⟨T, h1, h2, h3, fun _ => h4⟩
  | false =>
    obtain ⟨T, h1, h2, h3⟩ := erase_key_loop_multi cfg key hcapL hcapI hu (t.size + 1) t xs 0 hsh
      hord.1 (by
        rw [hsh.pe_size]
        have := List.count_le_length key xs
        omega)
    rw [Nat.zero_add] at h1
    exact ⟨T, h1, h2, h3, fun h => by simp at h⟩

end KeyEraseLoop

end BPP

/-! ## The erase by key: count and sequence -/

namespace BPP

section KeyEraseClaim
variable {α : Type} [LinearOrder α]

/-- A container that satisfies I1–I7 is in a state the erase by key accepts,
and its in-order sequence is ordered. -/
theorem WF.shapedPE {cfg : Config} {t : Tree α} (hwf : WF cfg t) :
    ∃ xs, ShapedPE cfg t xs ∧ Ordered cfg xs ∧ toList t = some xs := by
  by_cases hne : t.parent = Ptr.root
  · obtain ⟨-, -, hem | ⟨h, ls, fp, hs, -⟩⟩ := hwf
    · exact ⟨[], Or.inl ⟨rfl, hem.1, hem.2.2.2⟩, ⟨List.Pairwise.nil, fun _ => List.Pairwise.nil⟩,
        by simp [toList, leafList, hne, items]⟩
    · obtain ⟨a, tl, hp, -⟩ := Sub.ptr hs
      rw [hp] at hne; simp at hne
  · obtain ⟨xs, hsh, hord⟩ := hwf.shaped hne
    exact ⟨xs, Or.inr hsh.shapedP, hord, hsh.toList_eq⟩

/-- The container after inserting 3, 1, 2, 3, 3, 2 in multi mode with
`MAX_LEAF = 4` and `MAX_INNER = 4`: an inner root over two leaves. -/
def sample6 : Tree Nat :=
  ⟨Ptr.node 2, 6, Ptr.node 0, Ptr.node 1,
    [some (Node.leaf ⟨Ptr.node 2, Ptr.root, Ptr.node 1, [1, 2]⟩),
     some (Node.leaf ⟨Ptr.node 2, Ptr.node 0, Ptr.root, [2, 3, 3, 3]⟩),
     some (Node.inner ⟨Ptr.root, 6, 1, [Ptr.node 0, Ptr.node 1], [2]⟩)]⟩

theorem sample6_eq_inserts :
    ([3, 1, 2, 3, 3, 2].foldlM (fun t x => (insert ⟨false, 4, 4⟩ t x).map (·.1))
      (empty : Tree Nat)) = some sample6 := by
  decide

theorem sample6_wf : WF ⟨false, 4, 4⟩ sample6 := by
  refine ⟨by simp, by simp, Or.inr ⟨1,
    [(Ptr.node 0, [1, 2]), (Ptr.node 1, [2, 3, 3, 3])], [2, 0, 1], ?_, by decide,
    by simp [SIZE_MAX], by decide, ?_, ?_, by decide, by decide⟩⟩
  · refine Sub.succ_iff.2 ⟨2, ⟨Ptr.root, 6, 1, [Ptr.node 0, Ptr.node 1], [2]⟩,
      [⟨Ptr.node 0, [(Ptr.node 0, [1, 2])], [0]⟩,
       ⟨Ptr.node 1, [(Ptr.node 1, [2, 3, 3, 3])], [1]⟩],
      rfl, rfl, rfl, rfl, by decide, rfl, by decide, by simp, ?_, rfl, rfl, by simp, by simp⟩
    intro q hq
    simp only [List.mem_cons, List.mem_singleton, List.not_mem_nil, or_false] at hq
    rcases hq with rfl | rfl
    · exact Sub.zero_iff.2 ⟨0, ⟨Ptr.node 2, Ptr.root, Ptr.node 1, [1, 2]⟩, rfl, rfl, rfl, rfl,
        rfl, by simp, by simp⟩
    · exact Sub.zero_iff.2 ⟨1, ⟨Ptr.node 2, Ptr.node 0, Ptr.root, [2, 3, 3, 3]⟩, rfl, rfl, rfl,
        rfl, rfl, by simp, by simp⟩
  · refine ⟨by decide, fun h => by simp at h⟩
  · exact ⟨⟨Ptr.node 2, Ptr.root, Ptr.node 1, [1, 2]⟩, rfl, rfl, rfl,
      ⟨Ptr.node 2, Ptr.node 0, Ptr.root, [2, 3, 3, 3]⟩, rfl, rfl, rfl, trivial⟩

/-- C5: on a container that satisfies I1–I7 (leaf capacity at least 4) and
whose in-order sequence is `xs`, `erase(k)` returns; the count it returns is
the number of elements of `xs` equal to `k`, and the in-order sequence
afterwards is `xs` with exactly those elements deleted, the others kept in
order. When no element equals `k` the container is unchanged, and in unique
mode the count is at most 1. -/
theorem erase_key_count (cfg : Config) (t : Tree α) (k : α) (xs : List α) (hwf : WF cfg t)
    (hcapL : 4 ≤ cfg.maxLeaf) (hxs : toList t = some xs) :
    ∃ T, erase_key cfg t k = some (T, xs.count k) ∧
      toList T = some (xs.filter (fun y => decide (y ≠ k))) ∧ (k ∉ xs → T = t) ∧
      (cfg.unique = true → xs.count k ≤ 1) := by
  obtain ⟨ys, hsh, hord, hys⟩ := hwf.shapedPE
  rw [hxs] at hys
  obtain rfl := Option.some.inj hys
  obtain ⟨T, h1, h2, h3, h4⟩ := erase_key_shaped cfg k t xs hcapL hwf.2.1 hsh hord
  exact ⟨T, h1, h2.pe_toList, h3, h4⟩

/-- The statement of `erase_key_count` for `erase(3)` on the container
1, 2, 2, 3, 3, 3: it returns 3 and leaves 1, 2, 2. -/
theorem erase_key_count_witness :
    (∃ T, erase_key ⟨false, 4, 4⟩ sample6 3 = some (T, [1, 2, 2, 3, 3, 3].count 3) ∧
      toList T = some ([1, 2, 2, 3, 3, 3].filter (fun y => decide (y ≠ 3))) ∧
      (3 ∉ [1, 2, 2, 3, 3, 3] → T = sample6) ∧
      ((⟨false, 4, 4⟩ : Config).unique = true → [1, 2, 2, 3, 3, 3].count 3 ≤ 1)) ∧
    (erase_key ⟨false, 4, 4⟩ sample6 3).map (fun r => (r.2, toList r.1))
      = some (3, some [1, 2, 2]) :=
  ⟨erase_key_count ⟨false, 4, 4⟩ sample6 3 [1, 2, 2, 3, 3, 3] sample6_wf (by decide)
    (by decide), by decide⟩

end KeyEraseClaim

end BPP

/-! ## What an erase leaves -/

namespace BPP

section ErasedObservers
variable {α : Type} [LinearOrder α]

/-- I4 after `c` elements were erased from `t`: the walk from the real root,
if there is one, finds every inner node's size equal to the sum of its
children's sizes, every leaf's size is its fill, and the anchor's size is `c`
less than before and is the number of stored elements. -/
def SizesErased (t T : Tree α) (c : Nat) : Prop :=
  (T.parent = Ptr.root ∨ BPP.sizes_ok T (T.mem.length + 1) T.parent = true) ∧
  (∀ ls, leafList T = some ls → ∀ e ∈ ls, T.size? e.1 = some e.2.length) ∧
  T.size + c = t.size ∧ (toList T).map List.length = some T.size

/-- The fill bounds below the node `p`, by a walk: every node has at most
`MAX` items, every node but the real root at least `MIN = MAX / 2`, and the
real root at least one. -/
def fill_ok (cfg : Config) (t : Tree α) : Nat → Bool → Ptr → Bool
  | 0, _, _ => false
  | fuel + 1, isRoot, p =>
    match t.node? p with
    | some (Node.leaf l) =>
      decide ((if isRoot then 1 else cfg.maxLeaf / 2) ≤ l.item.length) &&
        decide (l.item.length ≤ cfg.maxLeaf)
    | some (Node.inner n) =>
      decide ((if isRoot then 1 else cfg.maxInner / 2) ≤ n.item.length) &&
        decide (n.item.length ≤ cfg.maxInner) &&
        n.children.all (fun c => fill_ok cfg t fuel false c)
    | none => false

/-- The shape of a container: it is empty, or all leaves are at the same
depth and the fill bounds hold in every node. -/
def Balanced (cfg : Config) (T : Tree α) : Prop :=
  T.parent = Ptr.root ∨
    ((depth? T (T.mem.length + 1) T.parent).isSome = true ∧
      fill_ok cfg T (T.mem.length + 1) true T.parent = true)

/-- I6 of a non-empty container: the leaves in ascending order, `ls`, are
linked in that order, `root_.left` is the first and `root_.right` the last of
them, the first one's `prev` and the last one's `next` are the anchor, and
each other `next` is the following leaf, whose `prev` is the leaf itself. -/
def Linked (cfg : Config) (T : Tree α) : Prop :=
  ∃ ls, leafList T = some ls ∧ ls ≠ [] ∧ Ordered cfg (items ls) ∧
    (ls.head?).map Prod.fst = some T.left ∧ (ls.getLast?).map Prod.fst = some T.right ∧
    ChainOk T Ptr.root ls

theorem ShapedE.e_shapedPE {cfg : Config} {T : Tree α} {ys : List α} (h : ShapedE cfg T ys) :
    ShapedPE cfg T ys := by
  rcases h with ⟨h1, h2, -, -, h5⟩ | h
  · exact Or.inl ⟨h1, h2, h5⟩
  · exact Or.inr h.shapedP

theorem ShapedPE.pe_sizes {cfg : Config} {t T : Tree α} {ys : List α} {c : Nat}
    (hsh : ShapedPE cfg T ys) (hlen : ys.length + c = t.size) : SizesErased t T c := by
  have hx := hsh.pe_toList
  have hz := hsh.pe_size
  rcases hsh with ⟨h1, h2, h3⟩ | hsh
  · refine ⟨Or.inl h2, fun ls hll e he => ?_, by rw [hz]; exact hlen, by rw [hx, hz]; rfl⟩
    simp only [leafList, if_pos h2, Option.some.injEq] at hll
    subst hll
    simp at he
  · have hne := hsh.p_ne_root
    obtain ⟨par, h, ls, fp, hs, hnd, hit, hsz, -⟩ := hsh
    refine ⟨Or.inr (Sub.sizes_ok _ hs (Sub.fuel hs hnd)), fun ls' hll e he => ?_,
      by rw [hz]; exact hlen, by rw [hx, hz]; rfl⟩
    rw [leafList, if_neg hne, Sub.leaves_eq _ hs (Sub.fuel hs hnd)] at hll
    simp only [Option.some.injEq] at hll
    subst hll
    obtain ⟨l, hl, hitem⟩ := Sub.leaf_node hs e he
    obtain ⟨b, hb, -⟩ := Sub.leaf_mem hs e he
    rw [hb] at hl ⊢
    rw [size?_leaf hl, hitem]

theorem ShapedPE.pe_seps {cfg : Config} {T : Tree α} {ys : List α} (hcap : 2 ≤ cfg.maxLeaf)
    (hsh : ShapedPE cfg T ys) (hord : Ordered cfg ys) :
    T.parent = Ptr.root ∨ BPP.seps_ok cfg T (T.mem.length + 1) T.parent = true := by
  rcases hsh with ⟨-, h2, -⟩ | hsh
  · exact Or.inl h2
  · obtain ⟨par, h, ls, fp, hs, hnd, hit, -⟩ := hsh
    exact Or.inr (Sub.seps_ok hcap _ hs (by rw [hit]; exact hord) (Sub.fuel hs hnd))

/-- All leaves of a well-formed subtree of height `h` are `h` levels below
its root. -/
theorem Sub.depth {cfg : Config} {t : Tree α} :
    ∀ {h : Nat} {isRoot : Bool} {p par : Ptr} {ls : Leaves α} {fp : List Nat} (fuel : Nat),
      Sub cfg t h isRoot p par ls fp → h + 1 ≤ fuel → depth? t fuel p = some (h + 1) := by
  intro h
  induction h with
  | zero =>
    intro isRoot p par ls fp fuel hs hf
    obtain ⟨a, l, hp, hn, -⟩ := Sub.zero_iff.1 hs
    obtain ⟨f, rfl⟩ : ∃ f, fuel = f + 1 := ⟨fuel - 1, by omega⟩
    simp [depth?, hn]
  | succ h ih =>
    intro isRoot p par ls fp fuel hs hf
    obtain ⟨a, n, ps, hp, hn, -, -, -, hc, hk, hne, hch, -⟩ := Sub.succ_iff.1 hs
    obtain ⟨f, rfl⟩ : ∃ f, fuel = f + 1 := ⟨fuel - 1, by omega⟩
    have hlen : ps.length = n.item.length + 1 := by
      have := congrArg List.length hk
      simp only [List.length_map, List.length_dropLast] at this
      have : 0 < ps.length := List.length_pos.2 hne
      omega
    have hall : (n.children.take (n.item.length + 1)).map (depth? t f)
        = List.replicate ps.length (some (h + 1)) := by
      rw [hc, ← hlen, ← List.length_map ps Part.ptr, List.take_length, List.map_map]
      refine List.eq_replicate_iff.2 ⟨by simp, fun b hb => ?_⟩
      obtain ⟨q, hq, e⟩ := List.mem_map.1 hb
      rw [← e]
      exact ih f (hch q hq) (by omega)
    obtain ⟨m, hm⟩ : ∃ m, ps.length = m + 1 := ⟨ps.length - 1, by omega⟩
    rw [depth?, hn]
    simp only [hall, hm, List.replicate_succ]
    rw [if_pos (by simp)]
    rfl

/-- The fill bounds hold below the root of a well-formed subtree. -/
theorem Sub.fill_ok {cfg : Config} {t : Tree α} :
    ∀ {h : Nat} {isRoot : Bool} {p par : Ptr} {ls : Leaves α} {fp : List Nat} (fuel : Nat),
      Sub cfg t h isRoot p par ls fp → h + 1 ≤ fuel → BPP.fill_ok cfg t fuel isRoot p = true := by
  intro h
  induction h with
  | zero =>
    intro isRoot p par ls fp fuel hs hf
    obtain ⟨a, l, hp, hn, -, -, -, hlo, hhi⟩ := Sub.zero_iff.1 hs
    obtain ⟨f, rfl⟩ : ∃ f, fuel = f + 1 := ⟨fuel - 1, by omega⟩
    simp only [BPP.fill_ok, hn, Bool.and_eq_true, decide_eq_true_eq]
    exact ⟨hlo, hhi⟩
  | succ h ih =>
    intro isRoot p par ls fp fuel hs hf
    obtain ⟨a, n, ps, hp, hn, -, -, -, hc, hk, hne, hch, -, -, hlo, hhi⟩ := Sub.succ_iff.1 hs
    obtain ⟨f, rfl⟩ : ∃ f, fuel = f + 1 := ⟨fuel - 1, by omega⟩
    simp only [BPP.fill_ok, hn, Bool.and_eq_true, decide_eq_true_eq, List.all_eq_true]
    refine ⟨⟨hlo, hhi⟩, fun c hcm => ?_⟩
    rw [hc] at hcm
    obtain ⟨q, hq, e⟩ := List.mem_map.1 hcm
    rw [← e]
    exact ih f (hch q hq) (by omega)

theorem ShapedPE.pe_balanced {cfg : Config} {T : Tree α} {ys : List α}
    (hsh : ShapedPE cfg T ys) : Balanced cfg T := by
  rcases hsh with ⟨-, h2, -⟩ | hsh
  · exact Or.inl h2
  · obtain ⟨par, h, ls, fp, hs, hnd, -⟩ := hsh
    exact Or.inr ⟨by rw [Sub.depth _ hs (Sub.fuel hs hnd)]; rfl,
      Sub.fill_ok _ hs (Sub.fuel hs hnd)⟩

theorem ShapedP.p_linked {cfg : Config} {T : Tree α} {ys : List α}
    (hsh : ShapedP cfg T ys) (hord : Ordered cfg ys) : Linked cfg T := by
  have hne := hsh.p_ne_root
  obtain ⟨par, h, ls, fp, hs, hnd, hit, hsz, hchain, hhead, hlast⟩ := hsh
  refine ⟨ls, by rw [leafList, if_neg hne, Sub.leaves_eq _ hs (Sub.fuel hs hnd)], ?_,
    by rw [hit]; exact hord, hhead, hlast, hchain⟩
  intro e
  rw [e] at hhead
  simp at hhead

theorem ShapedPE.pe_linked {cfg : Config} {T : Tree α} {ys : List α}
    (hsh : ShapedPE cfg T ys) (hord : Ordered cfg ys) (hne : T.parent ≠ Ptr.root) :
    Linked cfg T := by
  rcases hsh with ⟨-, h2, -⟩ | hsh
  · exact absurd h2 hne
  · exact hsh.p_linked hord

theorem Ordered.sublist {cfg : Config} {xs ys : List α} (h : Ordered cfg xs)
    (hs : ys.Sublist xs) : Ordered cfg ys :=
  ⟨h.1.sublist hs, fun hu => (h.2 hu).sublist hs⟩

theorem filter_length_count (xs : List α) (k : α) :
    (xs.filter (fun y => decide (y ≠ k))).length + xs.count k = xs.length := by
  induction xs with
  | nil => simp
  | cons y ys ih =>
    by_cases e : y = k
    · subst e
      have h1 : (y :: ys).filter (fun z => decide (z ≠ y)) = ys.filter (fun z => decide (z ≠ y)) :=
        List.filter_cons_of_neg (by simp)
      rw [h1, List.count_cons_self, List.length_cons]
      omega
    · have h1 : (y :: ys).filter (fun z => decide (z ≠ k))
          = y :: ys.filter (fun z => decide (z ≠ k)) :=
        List.filter_cons_of_pos (by simpa using e)
      rw [h1, List.count_cons_of_ne (fun h => e h.symm), List.length_cons, List.length_cons]
      omega

/-- What the erase through an iterator and the erase by key leave of a
container that satisfies I1–I7: the state an erase by key leaves, with the
in-order sequence ordered. -/
theorem erase_results (cfg : Config) (t : Tree α) (it : Pos) (k : α) (xs : List α)
    (hwf : WF cfg t) (hcapL : 4 ≤ cfg.maxLeaf) (hxs : toList t = some xs) :
    t.size = xs.length ∧
    (∀ r, BPP.indexOf t it = some r → r < t.size →
      ∃ T, erase cfg t it = some T ∧ ShapedPE cfg T (xs.eraseIdx r) ∧
        Ordered cfg (xs.eraseIdx r)) ∧
    (∃ T, erase_key cfg t k = some (T, xs.count k) ∧
      ShapedPE cfg T (xs.filter (fun y => decide (y ≠ k))) ∧
      Ordered cfg (xs.filter (fun y => decide (y ≠ k)))) := by
  obtain ⟨ys, hsh, hord, hys⟩ := hwf.shapedPE
  rw [hxs] at hys
  obtain rfl := Option.some.inj hys
  refine ⟨hsh.pe_size, fun r hit hr => ?_, ?_⟩
  · obtain ⟨T, xs', hT, hx', hS⟩ := erase_result_shaped cfg t it r hwf hcapL hit hr
    rw [hxs] at hx'
    obtain rfl := Option.some.inj hx'
    exact ⟨T, hT, hS.e_shapedPE, hord.sublist (List.eraseIdx_sublist _ _)⟩
  · obtain ⟨T, h1, h2, -⟩ := erase_key_shaped cfg k t xs hcapL hwf.2.1 hsh hord
    exact ⟨T, h1, h2, hord.sublist (List.filter_sublist _)⟩

end ErasedObservers

section ErasedClaims
variable {α : Type} [LinearOrder α]

/-- C21: on a container that satisfies I1–I7 (leaf capacity at least 4) and
whose in-order sequence is `xs`, `erase(it)` for an iterator at a stored
element returns, and `erase(k)` returns the number of elements equal to `k`
(one for a single-element erase); after either, whichever repairs were made
(merge, shift, a new last key handed up, collapse of the real root), every
inner node's size is the sum of its children's sizes, every leaf's size is its
fill, and the anchor's size is less than before by the number of elements
removed, one for `erase(it)`, and is the number of stored elements. -/
theorem erase_keeps_sizes (cfg : Config) (t : Tree α) (it : Pos) (k : α) (xs : List α)
    (hwf : WF cfg t) (hcapL : 4 ≤ cfg.maxLeaf) (hxs : toList t = some xs) :
    (∀ r, BPP.indexOf t it = some r → r < t.size →
      ∃ T, erase cfg t it = some T ∧ SizesErased t T 1) ∧
    (∃ T, erase_key cfg t k = some (T, xs.count k) ∧ SizesErased t T (xs.count k)) := by
  obtain ⟨hsz, h1, T, hT, hS, -⟩ := erase_results cfg t it k xs hwf hcapL hxs
  refine ⟨fun r hit hr => ?_, T, hT, hS.pe_sizes (by rw [hsz]; exact filter_length_count xs k)⟩
  obtain ⟨T1, hT1, hS1, -⟩ := h1 r hit hr
  refine ⟨T1, hT1, hS1.pe_sizes ?_⟩
  rw [List.length_eraseIdx, if_pos (by omega)]
  omega

/-- The statement of `erase_keeps_sizes` on the container 10, 20, 30, 40, 50
with `MAX_LEAF = MAX_INNER = 4`, for the iterator at 10 and the key 30, and
the walks after the two erases. -/
theorem erase_keeps_sizes_witness :
    ((∀ r, BPP.indexOf sample5 (Ptr.node 0, 0) = some r → r < sample5.size →
      ∃ T, erase ⟨false, 4, 4⟩ sample5 (Ptr.node 0, 0) = some T ∧ SizesErased sample5 T 1) ∧
    (∃ T, erase_key ⟨false, 4, 4⟩ sample5 30 = some (T, [10, 20, 30, 40, 50].count 30) ∧
      SizesErased sample5 T ([10, 20, 30, 40, 50].count 30))) ∧
    ((erase ⟨false, 4, 4⟩ sample5 (Ptr.node 0, 0)).map
      (fun T => (BPP.sizes_ok T (T.mem.length + 1) T.parent, T.size))) = some (true, 4) ∧
    ((erase_key ⟨false, 4, 4⟩ sample5 30).map
      (fun r => (BPP.sizes_ok r.1 (r.1.mem.length + 1) r.1.parent, r.1.size, r.2)))
      = some (true, 4, 1) :=
  ⟨erase_keeps_sizes ⟨false, 4, 4⟩ sample5 (Ptr.node 0, 0) 30 [10, 20, 30, 40, 50]
    (sample5_wf false) (by decide) (by decide), by decide, by decide⟩

/-- C29: on a container that satisfies I1–I7 (leaf capacity at least 4) and
whose in-order sequence is `xs`, after `erase(it)` for an iterator at a stored
element and after `erase(k)`, both of which return, the container is empty or
every inner node's separator `i` is the largest key below child `i` and is
smaller than (unique mode) or not larger than (multi mode) the smallest key
below child `i + 1`, wherever the removed element was and whichever repair
followed. -/
theorem erase_keeps_separators (cfg : Config) (t : Tree α) (it : Pos) (k : α) (xs : List α)
    (hwf : WF cfg t) (hcapL : 4 ≤ cfg.maxLeaf) (hxs : toList t = some xs) :
    (∀ r, BPP.indexOf t it = some r → r < t.size →
      ∃ T, erase cfg t it = some T ∧
        (T.parent = Ptr.root ∨ BPP.seps_ok cfg T (T.mem.length + 1) T.parent = true)) ∧
    (∃ T, erase_key cfg t k = some (T, xs.count k) ∧
      (T.parent = Ptr.root ∨ BPP.seps_ok cfg T (T.mem.length + 1) T.parent = true)) := by
  obtain ⟨-, h1, T, hT, hS, hO⟩ := erase_results cfg t it k xs hwf hcapL hxs
  refine ⟨fun r hit hr => ?_, T, hT, hS.pe_seps (by omega) hO⟩
  obtain ⟨T1, hT1, hS1, hO1⟩ := h1 r hit hr
  exact ⟨T1, hT1, hS1.pe_seps (by omega) hO1⟩

/-- The statement of `erase_keeps_separators` on the container
1, 2, 2, 3, 3, 3 with `MAX_LEAF = MAX_INNER = 4`, for the iterator at the
second 2, the last slot of the first leaf, and the key 2, and the walks after
the two erases. -/
theorem erase_keeps_separators_witness :
    ((∀ r, BPP.indexOf sample6 (Ptr.node 0, 1) = some r → r < sample6.size →
      ∃ T, erase ⟨false, 4, 4⟩ sample6 (Ptr.node 0, 1) = some T ∧
        (T.parent = Ptr.root ∨
          BPP.seps_ok ⟨false, 4, 4⟩ T (T.mem.length + 1) T.parent = true)) ∧
    (∃ T, erase_key ⟨false, 4, 4⟩ sample6 2 = some (T, [1, 2, 2, 3, 3, 3].count 2) ∧
      (T.parent = Ptr.root ∨
        BPP.seps_ok ⟨false, 4, 4⟩ T (T.mem.length + 1) T.parent = true))) ∧
    ((erase ⟨false, 4, 4⟩ sample6 (Ptr.node 0, 1)).map
      (fun T => BPP.seps_ok ⟨false, 4, 4⟩ T (T.mem.length + 1) T.parent)) = some true ∧
    ((erase_key ⟨false, 4, 4⟩ sample6 2).map
      (fun r => (BPP.seps_ok ⟨false, 4, 4⟩ r.1 (r.1.mem.length + 1) r.1.parent, toList r.1)))
      = some (true, some [1, 3, 3, 3]) :=
  ⟨erase_keeps_separators ⟨false, 4, 4⟩ sample6 (Ptr.node 0, 1) 2 [1, 2, 2, 3, 3, 3]
    sample6_wf (by decide) (by decide), by decide, by decide⟩

end ErasedClaims

end BPP

/-! ## The repair rule of an underflowing leaf -/

namespace BPP

section LeafRepairRule
variable {α : Type} [LinearOrder α]

/-- The repairs of an underflowing leaf. -/
inductive Repair where
  | merge_left
  | merge_right
  | shift_from_right
  | shift_from_left
  deriving DecidableEq

/-- What the rule list of the specification looks at in a neighbour of the
underflowing leaf on its level: whether it is few (`used ≤ MIN`), whether it is
a child of the leaf's parent, and its fill. -/
structure Sibling where
  few : Bool
  shares : Bool
  fill : Nat

/-- The rule list of the specification for an underflowing leaf that is not
the real root, read for the neighbours `l` and `r` (`none`: absent, which
counts as few as in the first rule): whether the repair `x` is what the first
matching rule prescribes. Both few or absent: merge with the one that shares
the parent, the left one if it does. Left few, right ample: shift from the
right if it shares the parent, else merge with the left. Left ample, right
few: shift from the left if it shares the parent, else merge with the right.
Both ample under the same parent: shift from the larger one. Both ample under
different parents: shift from the one that shares the parent. -/
def spec_repair_ok (l r : Option Sibling) (x : Repair) : Bool :=
  let lf : Bool := (l.map (fun s => s.few)).getD true
  let rf : Bool := (r.map (fun s => s.few)).getD true
  let ls : Bool := (l.map (fun s => s.shares)).getD false
  let rs : Bool := (r.map (fun s => s.shares)).getD false
  let lfill : Nat := (l.map (fun s => s.fill)).getD 0
  let rfill : Nat := (r.map (fun s => s.fill)).getD 0
  if lf && rf then decide (x = if ls then Repair.merge_left else Repair.merge_right)
  else if lf then decide (x = if rs then Repair.shift_from_right else Repair.merge_left)
  else if rf then decide (x = if ls then Repair.shift_from_left else Repair.merge_right)
  else if ls && rs then
    (decide (x = Repair.shift_from_right) && decide (lfill ≤ rfill)) ||
      (decide (x = Repair.shift_from_left) && decide (rfill ≤ lfill))
  else decide (x = if ls then Repair.shift_from_left else Repair.shift_from_right)

/-- The calls the code makes for a repair of the leaf `node` with the
neighbours `left` and `right`: `merge_leaves_`, `shift_left_leaf_` and
`shift_right_leaf_` with the arguments of the rule branches. -/
def run_repair (cfg : Config) (t : Tree α) (x : Repair) (node left right lp rp : Ptr)
    (pw : Nat) (result : Result α) : Option (Tree α × Result α) :=
  match x with
  | Repair.merge_left =>
    (merge_leaves_ cfg t left node).bind (fun y => some (y.1, result.or y.2))
  | Repair.merge_right =>
    (merge_leaves_ cfg t node right).bind (fun y => some (y.1, result.or y.2))
  | Repair.shift_from_right =>
    (shift_left_leaf_ cfg t node right rp pw).bind (fun y => some (y.1, result.or y.2))
  | Repair.shift_from_left =>
    (shift_right_leaf_ cfg t left node lp (wsub pw 1)).bind (fun y => some (y, result))

/-- The neighbour a repair acts on. -/
def Repair.partner (x : Repair) (left right : Ptr) : Ptr :=
  match x with
  | Repair.merge_left => left
  | Repair.shift_from_left => left
  | Repair.merge_right => right
  | Repair.shift_from_right => right

/-- The description `S` fits the neighbour of a leaf on one side: when the
leaf has a sibling `q` on that side among the children of its parent, `S`
describes that sibling; when it has none, `S` is absent or describes a leaf
under another parent, of whatever fill. -/
def SibOf (cfg : Config) (t : Tree α) (q : Option (Part α)) (S : Option Sibling) : Prop :=
  match q with
  | some q => ∃ l, t.leaf? q.ptr = some l ∧
      S = some ⟨decide (l.item.length ≤ cfg.maxLeaf / 2), true, l.item.length⟩
  | none => ∀ sb, S = some sb → sb.shares = false

/-- One side of an underflowing leaf below the node `a`, as the rules see it:
a sibling under `a`, or no neighbour or one under another parent. -/
theorem side_cases (cfg : Config) (s : Tree α) (a : Nat) (n : InnerNode α) (nb nbp : Ptr)
    (q : Option (Part α)) (S : Option Sibling)
    (hq : ∀ q', q = some q' → nbp = Ptr.node a ∧ nb = q'.ptr ∧ q'.ptr ∈ n.children ∧
      Sub cfg s 0 false q'.ptr (Ptr.node a) q'.leaves q'.fp)
    (hn : q = none → nbp ≠ Ptr.node a ∧
      (nb = Ptr.null ∨ ∃ par ls fp, Sub cfg s 0 false nb par ls fp))
    (hS : SibOf cfg s q S) :
    (nbp = Ptr.node a ∧ nb ≠ Ptr.null ∧ nb ∈ n.children ∧
      ∃ l, s.leaf? nb = some l ∧ l.parent = Ptr.node a ∧
        S = some ⟨decide (l.item.length ≤ cfg.maxLeaf / 2), true, l.item.length⟩) ∨
    (nbp ≠ Ptr.node a ∧ (nb = Ptr.null ∨ (nb ≠ Ptr.null ∧ ∃ l, s.leaf? nb = some l)) ∧
      (S.map (fun s => s.shares)).getD false = false) := by
  cases q with
  | some q' =>
    obtain ⟨h1, h2, h3, h4⟩ := hq q' rfl
    obtain ⟨b, l, hp, hnl, hpar, -⟩ := Sub.zero_iff.1 h4
    obtain ⟨l', hl', hS'⟩ := hS
    rw [leaf?_of_node? hnl] at hl'
    obtain rfl := Option.some.inj hl'
    refine Or.inl ⟨h1, by rw [h2, hp]; simp, by rw [h2]; exact h3, l, by
      rw [h2]; exact leaf?_of_node? hnl, hpar, hS'⟩
  | none =>
    obtain ⟨h1, h2⟩ := hn rfl
    refine Or.inr ⟨h1, ?_, ?_⟩
    · rcases h2 with h2 | ⟨par, ls, fp, hs⟩
      · exact Or.inl h2
      · obtain ⟨b, l, hp, hnl, -⟩ := Sub.zero_iff.1 hs
        exact Or.inr ⟨by rw [hp]; simp, l, leaf?_of_node? hnl⟩
    · cases S with
      | none => rfl
      | some sb => exact hS sb rfl

/-- The rule `rebalance_leaf_` applies to an underflowing leaf with a sibling
under its parent on both sides. -/
theorem rebalance_leaf_both (cfg : Config) (t : Tree α) (node left right parent : Ptr)
    (pw : Nat) (result : Result α) (ll rr : LeafNode α) (hln : left ≠ Ptr.null)
    (hrn : right ≠ Ptr.null) (hll : t.leaf? left = some ll) (hrr : t.leaf? right = some rr) :
    ∃ x, spec_repair_ok (some ⟨decide (ll.item.length ≤ cfg.maxLeaf / 2), true, ll.item.length⟩)
        (some ⟨decide (rr.item.length ≤ cfg.maxLeaf / 2), true, rr.item.length⟩) x = true ∧
      rebalance_leaf_ cfg t node left right parent parent parent pw result
        = run_repair cfg t x node left right parent parent pw result := by
  by_cases hfl : ll.item.length ≤ cfg.maxLeaf / 2 <;>
  by_cases hfr : rr.item.length ≤ cfg.maxLeaf / 2
  · refine ⟨Repair.merge_left, by simp [spec_repair_ok, hfl, hfr], ?_⟩
    simp only [rebalance_leaf_, leaf_is_few, hll, hrr, hln, hrn, hfl, hfr, if_false, if_true,
      run_repair, decide_True, or_true, and_self, Option.pure_def, Option.bind_eq_bind,
      Option.some_bind]
    cases merge_leaves_ cfg t left node <;> rfl
  · refine ⟨Repair.shift_from_right, by simp [spec_repair_ok, hfl, hfr], ?_⟩
    simp only [rebalance_leaf_, leaf_is_few, hll, hrr, hln, hrn, hfl, hfr, if_false, if_true,
      run_repair, decide_True, decide_False, or_true, or_false, and_self, and_true, and_false,
      ne_eq, not_false_eq_true, Bool.false_eq_true, not_true_eq_false, Option.pure_def,
      Option.bind_eq_bind, Option.some_bind]
    cases shift_left_leaf_ cfg t node right parent pw <;> rfl
  · refine ⟨Repair.shift_from_left, by simp [spec_repair_ok, hfl, hfr], ?_⟩
    simp only [rebalance_leaf_, leaf_is_few, hll, hrr, hln, hrn, hfl, hfr, if_false, if_true,
      run_repair, decide_True, decide_False, or_true, or_false, and_self, and_true, and_false,
      ne_eq, not_false_eq_true, Bool.false_eq_true, not_true_eq_false, Option.pure_def,
      Option.bind_eq_bind, Option.some_bind]
    cases shift_right_leaf_ cfg t left node parent (wsub pw 1) <;> rfl
  · by_cases hcmp : ll.item.length ≤ rr.item.length
    · refine ⟨Repair.shift_from_right, by simp [spec_repair_ok, hfl, hfr, hcmp], ?_⟩
      simp only [rebalance_leaf_, leaf_is_few, hll, hrr, hln, hrn, hfl, hfr, hcmp, if_false,
        if_true, run_repair, decide_True, decide_False, or_true, or_false, and_self, and_true,
        and_false, ne_eq, not_false_eq_true, Bool.false_eq_true, not_true_eq_false,
        Option.pure_def, Option.bind_eq_bind, Option.some_bind]
      cases shift_left_leaf_ cfg t node right parent pw <;> rfl
    · refine ⟨Repair.shift_from_left, by
        simp only [spec_repair_ok, Option.map_some', Option.getD_some, hfl, hfr, hcmp,
          decide_False, decide_True, Bool.and_self, Bool.false_eq_true, if_false, if_true,
          Bool.and_false, Bool.false_or, Bool.true_and, decide_eq_true_eq, reduceCtorEq]
        omega, ?_⟩
      simp only [rebalance_leaf_, leaf_is_few, hll, hrr, hln, hrn, hfl, hfr, hcmp, if_false,
        if_true, run_repair, decide_True, decide_False, or_true, or_false, and_self, and_true,
        and_false, ne_eq, not_false_eq_true, Bool.false_eq_true, not_true_eq_false,
        Option.pure_def, Option.bind_eq_bind, Option.some_bind]
      cases shift_right_leaf_ cfg t left node parent (wsub pw 1) <;> rfl

/-- The rule `rebalance_leaf_` applies to an underflowing leaf that is the
first child of its parent: it depends on the right sibling only. -/
theorem rebalance_leaf_first (cfg : Config) (t : Tree α) (node left right lp parent : Ptr)
    (pw : Nat) (result : Result α) (rr : LeafNode α) (Ls : Option Sibling) (hlp : lp ≠ parent)
    (hl : left = Ptr.null ∨ (left ≠ Ptr.null ∧ ∃ ll, t.leaf? left = some ll))
    (hLs : (Ls.map (fun s => s.shares)).getD false = false)
    (hrn : right ≠ Ptr.null) (hrr : t.leaf? right = some rr) :
    ∃ x, spec_repair_ok Ls
        (some ⟨decide (rr.item.length ≤ cfg.maxLeaf / 2), true, rr.item.length⟩) x = true ∧
      x.partner left right = right ∧
      rebalance_leaf_ cfg t node left right lp parent parent pw result
        = run_repair cfg t x node left right lp parent pw result := by
  by_cases hfr : rr.item.length ≤ cfg.maxLeaf / 2
  · refine ⟨Repair.merge_right, ?_, rfl, ?_⟩
    · cases Ls with
      | none => simp [spec_repair_ok, hfr]
      | some sb =>
        obtain ⟨f, sh, fl⟩ := sb
        simp only [Option.map_some', Option.getD_some] at hLs
        subst hLs
        cases f <;> simp [spec_repair_ok, hfr]
    · rcases hl with hl | ⟨hln, ll, hll⟩
      · subst hl
        simp only [rebalance_leaf_, leaf_is_few, hrr, hrn, hfr, hlp, if_false, if_true,
          run_repair, decide_True, true_or, or_true, and_self, Option.pure_def,
          Option.bind_eq_bind, Option.some_bind]
        cases merge_leaves_ cfg t node right <;> rfl
      · by_cases hfl : ll.item.length ≤ cfg.maxLeaf / 2
        · simp only [rebalance_leaf_, leaf_is_few, hll, hrr, hln, hrn, hfl, hfr, hlp, if_false,
            if_true, run_repair, decide_True, or_true, and_self, Option.pure_def,
            Option.bind_eq_bind, Option.some_bind]
          cases merge_leaves_ cfg t node right <;> rfl
        · simp only [rebalance_leaf_, leaf_is_few, hll, hrr, hln, hrn, hfl, hfr, hlp, if_false,
            if_true, run_repair, decide_True, decide_False, or_true, or_false, and_self,
            and_true, and_false, ne_eq, not_false_eq_true, Bool.false_eq_true,
            not_true_eq_false, Option.pure_def, Option.bind_eq_bind, Option.some_bind]
          cases merge_leaves_ cfg t node right <;> rfl
  · refine ⟨Repair.shift_from_right, ?_, rfl, ?_⟩
    · cases Ls with
      | none => simp [spec_repair_ok, hfr]
      | some sb =>
        obtain ⟨f, sh, fl⟩ := sb
        simp only [Option.map_some', Option.getD_some] at hLs
        subst hLs
        cases f <;> simp [spec_repair_ok, hfr]
    · rcases hl with hl | ⟨hln, ll, hll⟩
      · subst hl
        simp only [rebalance_leaf_, leaf_is_few, hrr, hrn, hfr, hlp, if_false, if_true,
          run_repair, decide_True, decide_False, true_or, or_true, or_false, and_self, and_true,
          and_false, ne_eq, not_true_eq_false, not_false_eq_true, false_and,
          Bool.false_eq_true, Option.pure_def, Option.bind_eq_bind, Option.some_bind]
        cases shift_left_leaf_ cfg t node right parent pw <;> rfl
      · by_cases hfl : ll.item.length ≤ cfg.maxLeaf / 2
        · simp only [rebalance_leaf_, leaf_is_few, hll, hrr, hln, hrn, hfl, hfr, hlp, if_false,
            if_true, run_repair, decide_True, decide_False, or_true, or_false, and_self,
            and_true, and_false, ne_eq, not_false_eq_true, Bool.false_eq_true,
            not_true_eq_false, Option.pure_def, Option.bind_eq_bind, Option.some_bind]
          cases shift_left_leaf_ cfg t node right parent pw <;> rfl
        · simp only [rebalance_leaf_, leaf_is_few, hll, hrr, hln, hrn, hfl, hfr, hlp, if_false,
            if_true, run_repair, decide_True, decide_False, or_true, or_false, and_self,
            and_true, and_false, ne_eq, not_false_eq_true, Bool.false_eq_true,
            not_true_eq_false, false_and, Option.pure_def, Option.bind_eq_bind,
            Option.some_bind]
          cases shift_left_leaf_ cfg t node right parent pw <;> rfl

/-- The rule `rebalance_leaf_` applies to an underflowing leaf that is the
last child of its parent: it depends on the left sibling only. -/
theorem rebalance_leaf_last (cfg : Config) (t : Tree α) (node left right rp parent : Ptr)
    (pw : Nat) (result : Result α) (ll : LeafNode α) (Rs : Option Sibling) (hrp : rp ≠ parent)
    (hr : right = Ptr.null ∨ (right ≠ Ptr.null ∧ ∃ rr, t.leaf? right = some rr))
    (hRs : (Rs.map (fun s => s.shares)).getD false = false)
    (hln : left ≠ Ptr.null) (hll : t.leaf? left = some ll) :
    ∃ x, spec_repair_ok
        (some ⟨decide (ll.item.length ≤ cfg.maxLeaf / 2), true, ll.item.length⟩) Rs x = true ∧
      x.partner left right = left ∧
      rebalance_leaf_ cfg t node left right parent rp parent pw result
        = run_repair cfg t x node left right parent rp pw result := by
  have hpr : parent ≠ rp := fun e => hrp e.symm
  by_cases hfl : ll.item.length ≤ cfg.maxLeaf / 2
  · refine ⟨Repair.merge_left, ?_, rfl, ?_⟩
    · cases Rs with
      | none => simp [spec_repair_ok, hfl]
      | some sb =>
        obtain ⟨f, sh, fl⟩ := sb
        simp only [Option.map_some', Option.getD_some] at hRs
        subst hRs
        cases f <;> simp [spec_repair_ok, hfl]
    · rcases hr with hr | ⟨hrn, rr, hrr⟩
      · subst hr
        simp only [rebalance_leaf_, leaf_is_few, hll, hln, hfl, hrp, if_false, if_true,
          run_repair, decide_True, true_or, or_true, and_self, Option.pure_def,
          Option.bind_eq_bind, Option.some_bind]
        cases merge_leaves_ cfg t left node <;> rfl
      · by_cases hfr : rr.item.length ≤ cfg.maxLeaf / 2
        · simp only [rebalance_leaf_, leaf_is_few, hll, hrr, hln, hrn, hfl, hfr, hrp, if_false,
            if_true, run_repair, decide_True, or_true, and_self, Option.pure_def,
            Option.bind_eq_bind, Option.some_bind]
          cases merge_leaves_ cfg t left node <;> rfl
        · simp only [rebalance_leaf_, leaf_is_few, hll, hrr, hln, hrn, hfl, hfr, hrp, if_false,
            if_true, run_repair, decide_True, decide_False, or_true, or_false, and_self,
            and_true, and_false, ne_eq, not_false_eq_true, Bool.false_eq_true,
            not_true_eq_false, Option.pure_def, Option.bind_eq_bind, Option.some_bind]
          cases merge_leaves_ cfg t left node <;> rfl
  · refine ⟨Repair.shift_from_left, ?_, rfl, ?_⟩
    · cases Rs with
      | none => simp [spec_repair_ok, hfl]
      | some sb =>
        obtain ⟨f, sh, fl⟩ := sb
        simp only [Option.map_some', Option.getD_some] at hRs
        subst hRs
        cases f <;> simp [spec_repair_ok, hfl]
    · rcases hr with hr | ⟨hrn, rr, hrr⟩
      · subst hr
        simp only [rebalance_leaf_, leaf_is_few, hll, hln, hfl, hrp, hpr, if_false, if_true,
          run_repair, decide_True, decide_False, true_or, or_true, or_false, and_self, and_true,
          and_false, ne_eq, not_true_eq_false, not_false_eq_true, false_and, and_false,
          Bool.false_eq_true, Option.pure_def, Option.bind_eq_bind, Option.some_bind]
        cases shift_right_leaf_ cfg t left node parent (wsub pw 1) <;> rfl
      · by_cases hfr : rr.item.length ≤ cfg.maxLeaf / 2
        · simp only [rebalance_leaf_, leaf_is_few, hll, hrr, hln, hrn, hfl, hfr, hrp, hpr,
            if_false, if_true, run_repair, decide_True, decide_False, or_true, or_false,
            and_self, and_true, and_false, ne_eq, not_false_eq_true, Bool.false_eq_true,
            not_true_eq_false, Option.pure_def, Option.bind_eq_bind, Option.some_bind]
          cases shift_right_leaf_ cfg t left node parent (wsub pw 1) <;> rfl
        · simp only [rebalance_leaf_, leaf_is_few, hll, hrr, hln, hrn, hfl, hfr, hrp, hpr,
            if_false, if_true, run_repair, decide_True, decide_False, or_true, or_false,
            and_self, and_true, and_false, ne_eq, not_false_eq_true, Bool.false_eq_true,
            not_true_eq_false, false_and, Option.pure_def, Option.bind_eq_bind,
            Option.some_bind]
          cases shift_right_leaf_ cfg t left node parent (wsub pw 1) <;> rfl

/-- C34: in the state in which a leaf `X0` that is not the real root, a
child of the level-1 node `a`, underflows after an erase, with the neighbours
`left` and `right` and their parents as `erase(key)` hands them down and as
`erase(iterator)` looks them up (a sibling under `a` where there is one, else
nothing or a leaf under another parent), and for every description `Ls`, `Rs`
of the two neighbours on the leaf's level that fits: the repair both erases
apply is one that the first matching rule of the specification prescribes,
and the sibling it merges with or shifts from is a child of the leaf's own
parent. -/
theorem leaf_repair_rule (cfg : Config) (s : Tree α) (a : Nat) (n : InnerNode α)
    (pre post : List (Part α)) (X0 : Nat) (lx : LeafNode α) (L R : Leaves α) (prev0 : Ptr)
    (r0 : Result α) (left lp right rp : Ptr) (Ls Rs : Option Sibling)
    (hlv : LeafLvl cfg s a n pre post X0 lx L R prev0)
    (hu : lx.item.length < cfg.maxLeaf / 2) (hroot : s.parent ≠ Ptr.node X0)
    (hitem : 1 ≤ n.item.length)
    (hl2 : pre = [] → lp ≠ Ptr.node a ∧
      (left = Ptr.null ∨ ∃ par ls fp, Sub cfg s 0 false left par ls fp))
    (hl3 : ∀ pre' q, pre = pre' ++ [q] → lp = Ptr.node a ∧ left = q.ptr)
    (hr2 : post = [] → rp ≠ Ptr.node a ∧
      (right = Ptr.null ∨ ∃ par ls fp, Sub cfg s 0 false right par ls fp))
    (hr3 : ∀ q post', post = q :: post' → rp = Ptr.node a ∧ right = q.ptr)
    (hLs : SibOf cfg s pre.getLast? Ls) (hRs : SibOf cfg s post.head? Rs) :
    ∃ x, spec_repair_ok Ls Rs x = true ∧
      (x.partner left right ∈ n.children ∧
        ∃ lq, s.leaf? (x.partner left right) = some lq ∧ lq.parent = lx.parent) ∧
      erase_one_leaf_fix_ cfg s (Ptr.node X0) lx.item.length r0 left right lp rp (Ptr.node a)
          pre.length
        = run_repair cfg s x (Ptr.node X0) left right lp rp pre.length r0 ∧
      (∀ p0 w0,
        (if p0 = Ptr.null then get_parent_ s (Ptr.node X0) else some (p0, w0))
          = some (Ptr.node a, pre.length) →
        get_left_right_parent_ s (Ptr.node a) pre.length = some (left, lp, right, rp) →
        erase_pos_fix_ cfg s (Ptr.node X0) lx.item.length r0 p0 w0
          = (run_repair cfg s x (Ptr.node X0) left right lp rp pre.length r0).map
              (fun y => Sum.inr (y.1, y.2, Ptr.node a, pre.length))) := by
  obtain ⟨hc', hslots⟩ := hlv.lvl_slot
  obtain ⟨hn, hc, hsep, hX, hXpar, hch, hnd, hchain, hndl, hright⟩ := hlv
  have hif : lx.item.length < cfg.maxLeaf / 2 ∧
      ¬ (Ptr.node X0 = s.parent ∧ lx.item.length ≥ 1) := ⟨hu, fun h => hroot h.1.symm⟩
  have hside_l := side_cases cfg s a n left lp pre.getLast? Ls
    (fun q' hq' => by
      obtain ⟨pre', e⟩ : ∃ pre', pre = pre' ++ [q'] := by
        rcases List.eq_nil_or_concat pre with e | ⟨pre', y, e⟩
        · rw [e] at hq'; simp at hq'
        · rw [List.concat_eq_append] at e
          rw [e, List.getLast?_concat] at hq'
          exact ⟨pre', by rw [e, Option.some.inj hq']⟩
      obtain ⟨h1, h2⟩ := hl3 pre' q' e
      refine ⟨h1, h2, ?_, hch q' (by rw [e]; simp)⟩
      rw [hc, e]
      simp)
    (fun hq' => hl2 (by
      rcases List.eq_nil_or_concat pre with e | ⟨pre', y, e⟩
      · exact e
      · rw [List.concat_eq_append] at e
        rw [e, List.getLast?_concat] at hq'; simp at hq'))
    hLs
  have hside_r := side_cases cfg s a n right rp post.head? Rs
    (fun q' hq' => by
      obtain ⟨post', e⟩ : ∃ post', post = q' :: post' := by
        cases post with
        | nil => simp at hq'
        | cons y ys => exact ⟨ys, by rw [List.head?_cons, Option.some.injEq] at hq'; rw [hq']⟩
      obtain ⟨h1, h2⟩ := hr3 q' post' e
      refine ⟨h1, h2, ?_, hch q' (by rw [e]; simp)⟩
      rw [hc, e]
      simp)
    (fun hq' => hr2 (by
      cases post with
      | nil => rfl
      | cons y ys => simp at hq'))
    hRs
  have key : ∃ x, spec_repair_ok Ls Rs x = true ∧
      (x.partner left right ∈ n.children ∧
        ∃ lq, s.leaf? (x.partner left right) = some lq ∧ lq.parent = lx.parent) ∧
      ¬ (left = Ptr.null ∧ right = Ptr.null) ∧
      rebalance_leaf_ cfg s (Ptr.node X0) left right lp rp (Ptr.node a) pre.length r0
        = run_repair cfg s x (Ptr.node X0) left right lp rp pre.length r0 := by
    rcases hside_l with ⟨hlp, hln, hlm, ll, hll, hlpar, hLs'⟩ | ⟨hlp, hlq, hLs'⟩
    · rcases hside_r with ⟨hrp, hrn, hrm, rr, hrr, hrpar, hRs'⟩ | ⟨hrp, hrq, hRs'⟩
      · obtain ⟨x, h1, h2⟩ := rebalance_leaf_both cfg s (Ptr.node X0) left right (Ptr.node a)
          pre.length r0 ll rr hln hrn hll hrr
        refine ⟨x, by rw [hLs', hRs']; exact h1, ?_, fun e => hln e.1, by rw [hlp, hrp]; exact h2⟩
        cases x
        · exact ⟨hlm, ll, hll, by rw [hlpar, hXpar]⟩
        · exact ⟨hrm, rr, hrr, by rw [hrpar, hXpar]⟩
        · exact ⟨hrm, rr, hrr, by rw [hrpar, hXpar]⟩
        · exact ⟨hlm, ll, hll, by rw [hlpar, hXpar]⟩
      · obtain ⟨x, h1, h2, h3⟩ := rebalance_leaf_last cfg s (Ptr.node X0) left right rp
          (Ptr.node a) pre.length r0 ll Rs hrp hrq hRs' hln hll
        refine ⟨x, by rw [hLs']; exact h1, ?_, fun e => hln e.1, by rw [hlp]; exact h3⟩
        rw [h2]
        exact ⟨hlm, ll, hll, by rw [hlpar, hXpar]⟩
    · rcases hside_r with ⟨hrp, hrn, hrm, rr, hrr, hrpar, hRs'⟩ | ⟨hrp, hrq, hRs'⟩
      · obtain ⟨x, h1, h2, h3⟩ := rebalance_leaf_first cfg s (Ptr.node X0) left right lp
          (Ptr.node a) pre.length r0 rr Ls hlp hlq hLs' hrn hrr
        refine ⟨x, by rw [hRs']; exact h1, ?_, fun e => hrn e.2, by rw [hrp]; exact h3⟩
        rw [h2]
        exact ⟨hrm, rr, hrr, by rw [hrpar, hXpar]⟩
      · exfalso
        have hpre : pre = [] := by
          rcases List.eq_nil_or_concat pre with e | ⟨pre', y, e⟩
          · exact e
          · rw [List.concat_eq_append] at e
            exact absurd (hl3 pre' y e).1 hlp
        have hpost : post = [] := by
          cases hp : post with
          | nil => rfl
          | cons y ys => exact absurd (hr3 y ys hp).1 hrp
        rw [hpre, hpost] at hslots
        simp at hslots
        omega
  obtain ⟨x, h1, h2, hnn, h3⟩ := key
  refine ⟨x, h1, h2, ?_, fun p0 w0 hp0 hget => ?_⟩
  · unfold erase_one_leaf_fix_
    rw [if_pos hif, if_neg hnn, h3]
  · unfold erase_pos_fix_
    rw [if_pos hif]
    by_cases hp : p0 = Ptr.null
    · rw [if_pos hp] at hp0
      simp only [if_pos hp, hp0, hget, if_neg hnn, h3, Option.pure_def, Option.bind_eq_bind,
        Option.some_bind]
      cases run_repair cfg s x (Ptr.node X0) left right lp rp pre.length r0 <;> rfl
    · rw [if_neg hp] at hp0
      simp only [Option.some.injEq, Prod.mk.injEq] at hp0
      obtain ⟨rfl, rfl⟩ := hp0
      simp only [if_neg hp, hget, if_neg hnn, h3, Option.pure_def, Option.bind_eq_bind,
        Option.some_bind]
      cases run_repair cfg s x (Ptr.node X0) left right lp rp pre.length r0 <;> rfl

/-- The container 10, 20, 30, 40 of `sample4` in the middle of `erase(10)`:
the item has left the first leaf, which underflows. -/
def sample4_under : Tree Nat :=
  ⟨Ptr.node 2, 4, Ptr.node 0, Ptr.node 1,
    [some (Node.leaf ⟨Ptr.node 2, Ptr.root, Ptr.node 1, [20]⟩),
     some (Node.leaf ⟨Ptr.node 2, Ptr.node 0, Ptr.root, [30, 40]⟩),
     some (Node.inner ⟨Ptr.root, 4, 1, [Ptr.node 0, Ptr.node 1], [20]⟩)]⟩

theorem sample4_under_lvl :
    LeafLvl ⟨false, 4, 4⟩ sample4_under 2 ⟨Ptr.root, 4, 1, [Ptr.node 0, Ptr.node 1], [20]⟩ []
      [Part.ofLeaf 1 [30, 40]] 0 ⟨Ptr.node 2, Ptr.root, Ptr.node 1, [20]⟩ [] [] Ptr.root := by
  refine ⟨rfl, rfl, by decide, rfl, rfl, fun q hq => ?_, by decide, ?_, by decide, by decide⟩
  · simp only [List.nil_append, List.mem_singleton] at hq
    subst hq
    exact Sub.zero_iff.2 ⟨1, ⟨Ptr.node 2, Ptr.node 0, Ptr.root, [30, 40]⟩, rfl, rfl, rfl,
      rfl, rfl, by simp, by simp⟩
  · exact ⟨⟨Ptr.node 2, Ptr.root, Ptr.node 1, [20]⟩, rfl, rfl, rfl,
      ⟨Ptr.node 2, Ptr.node 0, Ptr.root, [30, 40]⟩, rfl, rfl, rfl, trivial⟩

/-- The statement of `leaf_repair_rule` for the first leaf of `sample4` after
10 has left it: no left neighbour, the right sibling `[30, 40]` is few, and
the rule is the merge with the right sibling. -/
theorem leaf_repair_rule_witness :
    (∃ x, spec_repair_ok none (some ⟨true, true, 2⟩) x = true ∧
      (x.partner Ptr.null (Ptr.node 1)
          ∈ (⟨Ptr.root, 4, 1, [Ptr.node 0, Ptr.node 1], [20]⟩ : InnerNode Nat).children ∧
        ∃ lq, sample4_under.leaf? (x.partner Ptr.null (Ptr.node 1)) = some lq ∧
          lq.parent = (⟨Ptr.node 2, Ptr.root, Ptr.node 1, [20]⟩ : LeafNode Nat).parent) ∧
      erase_one_leaf_fix_ ⟨false, 4, 4⟩ sample4_under (Ptr.node 0)
          (⟨Ptr.node 2, Ptr.root, Ptr.node 1, [20]⟩ : LeafNode Nat).item.length Result.ok Ptr.null
          (Ptr.node 1) Ptr.null (Ptr.node 2) (Ptr.node 2) ([] : List (Part Nat)).length
        = run_repair ⟨false, 4, 4⟩ sample4_under x (Ptr.node 0) Ptr.null (Ptr.node 1) Ptr.null
            (Ptr.node 2) ([] : List (Part Nat)).length Result.ok ∧
      (∀ p0 w0,
        (if p0 = Ptr.null then get_parent_ sample4_under (Ptr.node 0) else some (p0, w0))
          = some (Ptr.node 2, ([] : List (Part Nat)).length) →
        get_left_right_parent_ sample4_under (Ptr.node 2) ([] : List (Part Nat)).length
          = some (Ptr.null, Ptr.null, Ptr.node 1, Ptr.node 2) →
        erase_pos_fix_ ⟨false, 4, 4⟩ sample4_under (Ptr.node 0)
            (⟨Ptr.node 2, Ptr.root, Ptr.node 1, [20]⟩ : LeafNode Nat).item.length Result.ok p0 w0
          = (run_repair ⟨false, 4, 4⟩ sample4_under x (Ptr.node 0) Ptr.null (Ptr.node 1) Ptr.null
              (Ptr.node 2) ([] : List (Part Nat)).length Result.ok).map
              (fun y => Sum.inr (y.1, y.2, Ptr.node 2, ([] : List (Part Nat)).length)))) ∧
    erase_one_leaf_fix_ ⟨false, 4, 4⟩ sample4_under (Ptr.node 0) 1 Result.ok Ptr.null
        (Ptr.node 1) Ptr.null (Ptr.node 2) (Ptr.node 2) 0
      = run_repair ⟨false, 4, 4⟩ sample4_under Repair.merge_right (Ptr.node 0) Ptr.null
          (Ptr.node 1) Ptr.null (Ptr.node 2) 0 Result.ok ∧
    get_left_right_parent_ sample4_under (Ptr.node 2) 0
      = some (Ptr.null, Ptr.null, Ptr.node 1, Ptr.node 2) ∧
    (run_repair ⟨false, 4, 4⟩ sample4_under Repair.merge_right (Ptr.node 0) Ptr.null
      (Ptr.node 1) Ptr.null (Ptr.node 2) 0 Result.ok).map (fun y => y.1) = some sample4_merged :=
  ⟨leaf_repair_rule ⟨false, 4, 4⟩ sample4_under 2 ⟨Ptr.root, 4, 1, [Ptr.node 0, Ptr.node 1], [20]⟩
    [] [Part.ofLeaf 1 [30, 40]] 0 ⟨Ptr.node 2, Ptr.root, Ptr.node 1, [20]⟩ [] [] Ptr.root
    Result.ok Ptr.null Ptr.null (Ptr.node 1) (Ptr.node 2) none (some ⟨true, true, 2⟩)
    sample4_under_lvl (by decide) (by decide) (by decide)
    (fun _ => ⟨by decide, Or.inl rfl⟩) (fun pre' q e => by simp at e)
    (fun e => by simp at e) (fun q post' e => by
      simp only [List.cons.injEq] at e
      exact ⟨rfl, by rw [← e.1]; rfl⟩)
    (fun sb e => by simp at e) ⟨⟨Ptr.node 2, Ptr.node 0, Ptr.root, [30, 40]⟩, rfl, rfl⟩,
    by decide, by decide, by decide⟩

end LeafRepairRule

end BPP

/-! ## Giving back all nodes -/

namespace BPP

section ClearAll
variable {α : Type} [LinearOrder α]

/-- A loop over the indices of a list that reads the element at each index is
the loop over the elements. -/
theorem foldlM_range_getElem? {β γ : Type} (l : List β) (f : γ → β → Option γ)
    (g : γ → Nat → Option γ) (hg : ∀ t i c, l[i]? = some c → g t i = f t c) :
    ∀ (k : Nat) (x : γ), k ≤ l.length →
      (List.range k).foldlM g x = (l.take k).foldlM f x := by
  intro k
  induction k with
  | zero => intro x _; simp
  | succ k ih =>
    intro x hk
    have hlt : k < l.length := by omega
    rw [List.range_succ, List.foldlM_append, ih x (by omega), List.take_succ,
      List.foldlM_append, List.getElem?_eq_getElem hlt]
    cases (l.take k).foldlM f x with
    | none => rfl
    | some y => simp [hg y k _ (List.getElem?_eq_getElem hlt)]

/-- The recursive `free_node_<true>` on a run of well-formed subtrees whose
cells are still as they were: it returns and changes nothing outside of
them. -/
theorem free_run_spec (cfg : Config) (h fuel : Nat) (t0 : Tree α) (par : Ptr)
    (ih : ∀ (t : Tree α) (p : Ptr) (ls : Leaves α) (fp : List Nat),
      Sub cfg t0 h false p par ls fp → fp.Nodup →
      (∀ c ∈ fp, t.node? (Ptr.node c) = t0.node? (Ptr.node c)) →
      ∃ t', free_node_rec fuel t p = some t' ∧
        (∀ c, c ∉ fp → t'.node? (Ptr.node c) = t.node? (Ptr.node c)) ∧
        t'.parent = t.parent ∧ t'.size = t.size ∧ t'.left = t.left ∧ t'.right = t.right) :
    ∀ (qs : List (Part α)) (t : Tree α),
      (∀ q ∈ qs, Sub cfg t0 h false q.ptr par q.leaves q.fp) → (fpOf qs).Nodup →
      (∀ c ∈ fpOf qs, t.node? (Ptr.node c) = t0.node? (Ptr.node c)) →
      ∃ t', (qs.map Part.ptr).foldlM (free_node_rec fuel) t = some t' ∧
        (∀ c, c ∉ fpOf qs → t'.node? (Ptr.node c) = t.node? (Ptr.node c)) ∧
        t'.parent = t.parent ∧ t'.size = t.size ∧ t'.left = t.left ∧ t'.right = t.right := by
  intro qs
  induction qs with
  | nil => intro t _ _ _; exact ⟨t, rfl, fun _ _ => rfl, rfl, rfl, rfl, rfl⟩
  | cons q rest ihr =>
    intro t hch hnd hsame
    rw [fpOf_cons] at hnd hsame
    obtain ⟨hndq, hndr, hdis⟩ := List.nodup_append.1 hnd
    obtain ⟨t1, h1, hfr1, a1, a2, a3, a4⟩ := ih t q.ptr q.leaves q.fp (hch q (by simp)) hndq
      (fun c hc => hsame c (List.mem_append_left _ hc))
    obtain ⟨t2, h2, hfr2, b1, b2, b3, b4⟩ := ihr t1 (fun q' hq' => hch q' (by simp [hq'])) hndr
      (fun c hc => by
        rw [hfr1 c (fun e => hdis e hc)]
        exact hsame c (List.mem_append_right _ hc))
    refine ⟨t2, by simp only [List.map_cons, List.foldlM_cons, h1, Option.bind_eq_bind,
      Option.some_bind, h2], fun c hc => ?_, by rw [b1, a1], by rw [b2, a2], by rw [b3, a3],
      by rw [b4, a4]⟩
    rw [fpOf_cons, List.mem_append, not_or] at hc
    rw [hfr2 c hc.2, hfr1 c hc.1]

/-- The recursive `free_node_<true>` on a well-formed subtree whose cells are
still as they were: it returns and changes nothing but the cells of the
subtree. -/
theorem free_node_rec_spec (cfg : Config) (t0 : Tree α) :
    ∀ (h fuel : Nat) (t : Tree α) (isRoot : Bool) (p par : Ptr) (ls : Leaves α) (fp : List Nat),
      Sub cfg t0 h isRoot p par ls fp → fp.Nodup →
      (∀ c ∈ fp, t.node? (Ptr.node c) = t0.node? (Ptr.node c)) → h + 1 ≤ fuel →
      ∃ t', free_node_rec fuel t p = some t' ∧
        (∀ c, c ∉ fp → t'.node? (Ptr.node c) = t.node? (Ptr.node c)) ∧
        t'.parent = t.parent ∧ t'.size = t.size ∧ t'.left = t.left ∧ t'.right = t.right := by
  intro h
  induction h with
  | zero =>
    intro fuel t isRoot p par ls fp hs hnd hsame hf
    obtain ⟨a, l, hp, hn, -, -, hfp, -⟩ := Sub.zero_iff.1 hs
    obtain ⟨f, rfl⟩ : ∃ f, fuel = f + 1 := ⟨fuel - 1, by omega⟩
    subst hp
    have hn' : t.node? (Ptr.node a) = some (Node.leaf l) := by
      rw [hsame a (by rw [hfp]; simp)]; exact hn
    obtain ⟨t', h1, -, h3, -, h5, h6, h7, h8⟩ := free_node_spec t a _ hn'
    refine ⟨t', by rw [free_node_rec, hn']; exact h1, fun c hc => h3 c ?_, h5, h6, h7, h8⟩
    intro e; subst e; exact hc (by rw [hfp]; simp)
  | succ h ih =>
    intro fuel t isRoot p par ls fp hs hnd hsame hf
    obtain ⟨a, n, ps, hp, hn, -, -, -, hc, hk, hne, hch, -, hfp, -⟩ := Sub.succ_iff.1 hs
    obtain ⟨f, rfl⟩ : ∃ f, fuel = f + 1 := ⟨fuel - 1, by omega⟩
    subst hp hfp
    obtain ⟨haF, hndps⟩ := List.nodup_cons.1 hnd
    have hn' : t.node? (Ptr.node a) = some (Node.inner n) := by
      rw [hsame a (by simp)]; exact hn
    have hlen : n.children.length = n.item.length + 1 := by
      have := congrArg List.length hk
      simp only [List.length_map, List.length_dropLast] at this
      have : 0 < ps.length := List.length_pos.2 hne
      rw [hc, List.length_map]
      omega
    obtain ⟨t1, h1, hfr1, a1, a2, a3, a4⟩ := free_run_spec cfg h f t0 (Ptr.node a)
      (fun t p ls fp hs' hnd' hsame' => ih f t false p (Ptr.node a) ls fp hs' hnd' hsame'
        (by omega)) ps t hch hndps (fun c hc' => hsame c (List.mem_cons_of_mem _ hc'))
    have hn1 : t1.node? (Ptr.node a) = some (Node.inner n) := by rw [hfr1 a haF]; exact hn'
    obtain ⟨t', g1, -, g3, -, g5, g6, g7, g8⟩ := free_node_spec t1 a _ hn1
    refine ⟨t', ?_, fun c hc' => ?_, by rw [g5, a1], by rw [g6, a2], by rw [g7, a3],
      by rw [g8, a4]⟩
    · rw [free_node_rec, hn']
      simp only [Option.pure_def, Option.bind_eq_bind]
      have htake : (n.children.take (n.item.length + 1)).foldlM (free_node_rec f) t
          = some t1 := by
        rw [← hlen, List.take_length, hc]; exact h1
      have hfold : ∀ (g : Tree α → Nat → Option (Tree α)),
          (∀ t i c, n.children[i]? = some c → g t i = free_node_rec f t c) →
          (List.range (n.item.length + 1)).foldlM g t = some t1 := fun g hg =>
        (foldlM_range_getElem? n.children (free_node_rec f) g hg (n.item.length + 1) t
          (by omega)).trans htake
      split
      · next t2 heq =>
        have e1 := (hfold _ (fun t i c e => by simp only [e])).symm.trans heq
        obtain rfl := Option.some.inj e1
        exact g1
      · next hnone =>
        exact absurd (hfold _ (fun t i c e => by simp only [e])) (hnone t1)
    · rw [List.mem_cons, not_or] at hc'
      rw [g3 c hc'.1, hfr1 c hc'.2]

/-- The public `clear()` on a container in the state an erase by key leaves:
it returns, and leaves the container empty with size 0. -/
theorem clear_spec (cfg : Config) (t : Tree α) (xs : List α) (hsh : ShapedPE cfg t xs) :
    ∃ T, clear t = some T ∧ T.parent = Ptr.root ∧ T.size = 0 ∧
      (t.parent ≠ Ptr.root → T.left = Ptr.root ∧ T.right = Ptr.root) ∧
      (t.parent = Ptr.root → T = t) := by
  rcases hsh with ⟨-, h2, h3⟩ | hsh
  · exact ⟨t, by simp [clear, h2], h2, h3, fun e => absurd h2 e, fun _ => rfl⟩
  · have hne := hsh.p_ne_root
    obtain ⟨par, h, ls, fp, hs, hnd, -⟩ := hsh
    obtain ⟨t', h1, -⟩ := free_node_rec_spec cfg t h (t.mem.length + 1) t true t.parent par ls fp
      hs hnd (fun _ _ => rfl) (Sub.fuel hs hnd)
    refine ⟨{ t' with parent := Ptr.root, left := Ptr.root, right := Ptr.root, size := 0 }, ?_,
      rfl, rfl, fun _ => ⟨rfl, rfl⟩, fun e => absurd e hne⟩
    simp only [clear, hne, ne_eq, not_false_eq_true, if_true, h1, Option.pure_def,
      Option.bind_eq_bind, Option.some_bind]

end ClearAll

end BPP

/-! ## The erase of a range -/

namespace BPP

section EraseRange
variable {α : Type} [LinearOrder α]

theorem eraseIdx_pred_take_drop {β : Type} (ys : List β) (pb pe : Nat) (h1 : pb < pe)
    (h2 : pe ≤ ys.length) :
    (ys.eraseIdx (pe - 1)).take pb ++ (ys.eraseIdx (pe - 1)).drop (pe - 1)
      = ys.take pb ++ ys.drop pe := by
  obtain ⟨k, rfl⟩ : ∃ k, pe = k + 1 := ⟨pe - 1, by omega⟩
  simp only [Nat.add_sub_cancel]
  rw [List.eraseIdx_eq_take_drop_succ]
  have hk : (ys.take k).length = k := by rw [List.length_take]; omega
  congr 1
  · rw [List.take_append_of_le_length (by omega), List.take_take, Nat.min_eq_left (by omega)]
  · rw [List.drop_append_of_le_length (by omega)]
    have : (ys.take k).drop k = [] := by
      rw [List.drop_eq_nil_iff]; omega
    rw [this, List.nil_append]

/-- The iterator `at(i)` of a container that is empty or satisfies I2–I7, for
an index up to the size: it designates the index `i`, and is `end()` at the
size. -/
theorem at_shapedE (cfg : Config) (t : Tree α) (ys : List α) (i : Nat) (hsh : ShapedE cfg t ys)
    (hi : i ≤ ys.length) :
    ∃ pos, «at» t i = some pos ∧ BPP.indexOf t pos = some i ∧
      (i = ys.length → pos = (Ptr.root, 0)) := by
  have hx := hsh.e_toList
  rcases hsh with ⟨h1, h2, -, -, h5⟩ | hsh
  · subst h1
    have hi0 : i = 0 := by simpa using hi
    subst hi0
    exact ⟨(Ptr.root, 0), at_empty t 0 h2 h5, by simp [BPP.indexOf, hx], fun _ => rfl⟩
  · obtain ⟨h, ls, fp, hs, hnd, hit, -⟩ := id hsh
    subst hit
    by_cases hlt : i < (items ls).length
    · obtain ⟨b, w, hat, hidx⟩ := at_of_lt hs hnd i hlt
      exact ⟨(Ptr.node b, w), hat, Shaped.indexOf hs hnd _ i hidx, fun e => by omega⟩
    · have he : i = (items ls).length := by omega
      refine ⟨(Ptr.root, 0), at_of_ge hs i (by omega), ?_, fun _ => rfl⟩
      simp [BPP.indexOf, hx, he]

/-- The loop of `erase(first, last)` from the position `pe` down to `pb`: it
returns, the elements at the indices from `pb` up to `pe` are gone, and the
iterator returned designates the index `pb`. -/
theorem erase_range_loop_spec (cfg : Config) (hcapL : 4 ≤ cfg.maxLeaf)
    (hcapI : 2 ≤ cfg.maxInner) :
    ∀ (fuel : Nat) (t : Tree α) (ys : List α) (pb pe : Nat), ShapedE cfg t ys → pb ≤ pe →
      pe ≤ ys.length → pe - pb + 1 ≤ fuel →
      ∃ T pos, erase_range_loop cfg fuel t pb pe = some (T, pos) ∧
        ShapedE cfg T (ys.take pb ++ ys.drop pe) ∧ BPP.indexOf T pos = some pb ∧
        ((ys.take pb ++ ys.drop pe).length = pb → pos = (Ptr.root, 0)) := by
  intro fuel
  induction fuel with
  | zero => intro t ys pb pe _ _ _ h; omega
  | succ fuel ih =>
    intro t ys pb pe hsh hle hpe hfuel
    by_cases heq : pb = pe
    · subst heq
      obtain ⟨pos, hat, hidx, hend⟩ := at_shapedE cfg t ys pb hsh hpe
      rw [List.take_append_drop]
      refine ⟨t, pos, ?_, hsh, hidx, fun e => hend e.symm⟩
      rw [erase_range_loop]
      simp [hat]
    · have hlt : pb < pe := by omega
      have hw : wsub pe 1 = pe - 1 := wsub_of_le (by omega)
      obtain ⟨it, hat, hidx, -⟩ := at_shapedE cfg t ys (pe - 1) hsh (by omega)
      have hshS : Shaped cfg t ys := by
        rcases hsh with ⟨h1, -⟩ | h
        · rw [h1] at hpe; simp at hpe; omega
        · exact h
      obtain ⟨T1, hT1, hS1⟩ := erase_indexOf cfg t ys it (pe - 1) hcapL hcapI hshS hidx
        (by omega)
      obtain ⟨T, pos, hT, hS, hpos, hend⟩ := ih T1 (ys.eraseIdx (pe - 1)) pb (pe - 1) hS1
        (by omega) (by rw [List.length_eraseIdx, if_pos (by omega)]; omega) (by omega)
      rw [eraseIdx_pred_take_drop ys pb pe hlt hpe] at hS hend
      refine ⟨T, pos, ?_, hS, hpos, hend⟩
      rw [erase_range_loop]
      simp only [ne_eq, heq, not_false_eq_true, if_true, hw, hat, hT1, hT, Option.pure_def,
        Option.bind_eq_bind, Option.some_bind]

/-- A container that satisfies I1–I7 is empty or satisfies I2–I7. -/
theorem WF.shapedE {cfg : Config} {t : Tree α} (hwf : WF cfg t) :
    ∃ xs, ShapedE cfg t xs ∧ toList t = some xs := by
  by_cases hne : t.parent = Ptr.root
  · obtain ⟨-, -, hem | ⟨h, ls, fp, hs, -⟩⟩ := hwf
    · exact ⟨[], Or.inl ⟨rfl, hem⟩, by simp [toList, leafList, hne, items]⟩
    · obtain ⟨a, tl, hp, -⟩ := Sub.ptr hs
      rw [hp] at hne; simp at hne
  · obtain ⟨xs, hsh, -⟩ := hwf.shaped hne
    exact ⟨xs, Or.inr hsh, hsh.toList_eq⟩

/-- C19: on a container that satisfies I1–I7 (leaf capacity at least 4) and
whose in-order sequence is `xs`, for iterators `first` and `last` of the
container that designate the indices `i ≤ j`, `erase(first, last)` returns; it
removes exactly the elements at the indices from `i` up to `j`, keeps all
others in order, and the iterator it returns designates the index `i` of the
resulting container, which is `end()` when no element follows. -/
theorem erase_range_removes (cfg : Config) (t : Tree α) (first last : Pos) (i j : Nat)
    (xs : List α) (hwf : WF cfg t) (hcapL : 4 ≤ cfg.maxLeaf) (hxs : toList t = some xs)
    (hi : BPP.indexOf t first = some i) (hj : BPP.indexOf t last = some j) (hij : i ≤ j) :
    ∃ T pos, erase_range cfg t first last = some (T, pos) ∧
      toList T = some (xs.take i ++ xs.drop j) ∧ BPP.indexOf T pos = some i ∧
      ((xs.take i ++ xs.drop j).length = i → pos = (Ptr.root, 0)) := by
  obtain ⟨ys, hshE, hys⟩ := hwf.shapedE
  rw [hxs] at hys
  obtain rfl := Option.some.inj hys
  have hsz : t.size = xs.length := hshE.e_size
  have hjle := (indexOf_le_size cfg t last j hwf hj).1
  by_cases hall : first = (t.left, 0) ∧ last = (Ptr.root, 0)
  · -- the whole container
    obtain ⟨hf, hl⟩ := hall
    have hjn : j = xs.length := by
      have := (indexOf_le_size cfg t last j hwf hj).2.1 hl
      omega
    have hi0 : i = 0 := by
      obtain ⟨p0, hat0, hidx0, -, -⟩ := at_indexOf cfg t 0 hwf
      rw [Nat.zero_min] at hidx0
      rcases hshE with ⟨h1, h2, h3, -⟩ | hsh
      · rw [h1] at hjn; simp at hjn; omega
      · obtain ⟨h, ls, fp, hs, hnd, hit, -, -, hhead, -⟩ := hsh
        have hne : p0 ≠ (Ptr.root, 0) := by
          intro e
          rw [e] at hidx0
          simp only [BPP.indexOf, if_true, hxs, Option.map_some', Option.some.injEq] at hidx0
          have := Sub.items_ne_nil hwf.1 hs
          rw [hit] at this
          exact this (List.length_eq_zero.1 hidx0)
        have hidx0' := hidx0
        rw [BPP.indexOf, if_neg hne, leafList_of_sub hs hnd, Option.some_bind] at hidx0'
        obtain ⟨e1, e2⟩ := index_zero_first hwf.1 hs hnd hhead p0.1 p0.2 hidx0'
        have hp0 : p0 = first := by rw [hf]; exact Prod.ext e1 e2
        rw [hp0, hi] at hidx0
        exact Option.some.inj hidx0
    obtain ⟨T, hT, hTp, hTs, hTl, hTe⟩ := clear_spec cfg t xs hshE.e_shapedPE
    have hleft : T.left = Ptr.root := by
      by_cases hne : t.parent = Ptr.root
      · rw [hTe hne]
        obtain ⟨-, -, hem | ⟨h, ls, fp, hs, -⟩⟩ := hwf
        · exact hem.2.1
        · obtain ⟨a, tl, hp, -⟩ := Sub.ptr hs
          rw [hp] at hne; simp at hne
      · exact (hTl hne).1
    have hnil : xs.take i ++ xs.drop j = [] := by
      rw [hi0, hjn]; simp
    rw [hnil]
    refine ⟨T, (Ptr.root, 0), ?_, by simp [toList, leafList, hTp, items], ?_, fun _ => rfl⟩
    · rw [erase_range, if_pos ⟨hf, hl⟩]
      simp only [hT, hleft, Option.pure_def, Option.bind_eq_bind, Option.some_bind]
    · rw [hi0]
      simp [BPP.indexOf, toList, leafList, hTp, items]
  · have hr1 := (rank_at_of_indexOf cfg t first i hwf hi).1
    have hr2 := (rank_at_of_indexOf cfg t last j hwf hj).1
    unfold rank_it at hr1 hr2
    obtain ⟨T, pos, hT, hS, hpos, hend⟩ := erase_range_loop_spec cfg hcapL hwf.2.1 (t.size + 1) t xs
      i j hshE hij (by omega) (by omega)
    refine ⟨T, pos, ?_, hS.e_toList, hpos, hend⟩
    rw [erase_range, if_neg hall]
    simp only [hr1, hr2, hT, Option.pure_def, Option.bind_eq_bind, Option.some_bind]

/-- The statement of `erase_range_removes` on the container
10, 20, 30, 40, 50 with `MAX_LEAF = MAX_INNER = 4`, for the iterators at 20
and at 40: the elements 20 and 30 are removed and the iterator returned is at
40, the index 1 of the result. -/
theorem erase_range_removes_witness :
    (∃ T pos, erase_range ⟨false, 4, 4⟩ sample5 (Ptr.node 0, 1) (Ptr.node 1, 1) = some (T, pos) ∧
      toList T = some ([10, 20, 30, 40, 50].take 1 ++ [10, 20, 30, 40, 50].drop 3) ∧
      BPP.indexOf T pos = some 1 ∧
      (([10, 20, 30, 40, 50].take 1 ++ [10, 20, 30, 40, 50].drop 3).length = 1 →
        pos = (Ptr.root, 0))) ∧
    (erase_range ⟨false, 4, 4⟩ sample5 (Ptr.node 0, 1) (Ptr.node 1, 1)).map
      (fun r => (toList r.1, r.1.key? r.2)) = some (some [10, 40, 50], some 40) ∧
    (erase_range ⟨false, 4, 4⟩ sample5 (Ptr.node 0, 0) (Ptr.root, 0)).map
      (fun r => (toList r.1, r.2)) = some (some [], (Ptr.root, 0)) :=
  ⟨erase_range_removes ⟨false, 4, 4⟩ sample5 (Ptr.node 0, 1) (Ptr.node 1, 1) 1 3
    [10, 20, 30, 40, 50] (sample5_wf false) (by decide) (by decide) (by decide) (by decide)
    (by decide), by decide, by decide⟩

end EraseRange

end BPP

/-! ## Sequences of inserts, erases by key and clears -/

namespace BPP

section CallSequences
variable {α : Type} [LinearOrder α]

/-- The end of `insert_nohint_` after a successful descent in a container
whose real root has any parent field: count the element and grow the root when
the real root was split. -/
theorem insert_finish_p (cfg : Config) (t t1 : Tree α) (v : α) (xs : List α) (j : Nat)
    (h : Nat) (ls : Leaves α) (fp : List Nat) (pos : Pos) (up : Option (α × Ptr)) (par : Ptr)
    (hcapI : 2 ≤ cfg.maxInner) (hit : items ls = xs) (hsz : t.size = xs.length)
    (hj : j ≤ xs.length) (hhead : (ls.head?).map Prod.fst = some t.left)
    (hpost : InsPost cfg t h true t.parent par ls fp v j [] [] Ptr.root t1 pos up) :
    ∃ t', (match up with
        | none => some ((Tree.mk t1.parent (t1.size + 1) t1.left t1.right t1.mem), (pos, true))
        | some (key_out, new_child) =>
          match grow_root_ (Tree.mk t1.parent (t1.size + 1) t1.left t1.right t1.mem) key_out
            new_child with
          | none => none
          | some t2 => some (t2, (pos, true))) = some (t', (pos, true)) ∧
      ShapedP cfg t' (xs.take j ++ v :: xs.drop j) := by
  obtain ⟨hlen1, hpar1, hsize1, hleft1, hfr1, ls', fp', hitems, hidx, hnd', hfresh, hchain1, hhead1,
    hright1, hmatch⟩ := hpost
  simp only [List.nil_append, List.append_nil] at hchain1 hhead1 hright1
  subst hit
  have hsz' : t1.size + 1 = ((items ls).take j ++ v :: (items ls).drop j).length := by
    rw [ins_length _ _ _ hj]; omega
  have hlinks : ∀ x, SameLinks t1
      (Tree.mk t1.parent (t1.size + 1) t1.left t1.right t1.mem) x := fun _ => rfl
  cases up with
  | none =>
    simp only [] at hmatch
    have hs2 : Sub cfg (Tree.mk t1.parent (t1.size + 1) t1.left t1.right t1.mem) h true
        t1.parent par ls' fp' := by
      rw [hpar1]; exact Sub.frame hmatch (fun _ _ => rfl)
    exact ⟨_, rfl, ⟨par, h, ls', fp', hs2, hnd', hitems, hsz',
      ChainOk.chain_step hlinks _ _ hchain1, by rw [hhead1, hhead, hleft1], hright1⟩⟩
  | some kq =>
    obtain ⟨k, q⟩ := kq
    obtain ⟨ls1, fp1, ls2, fp2, els, efp, hs1, hs2, hk⟩ := hmatch
    subst els efp
    obtain ⟨t3, h3, hpar3, hsize3, hleft3, hright3, hlinks3, hlen3, hs3⟩ :=
      grow_root_spec (Tree.mk t1.parent (t1.size + 1) t1.left t1.right t1.mem) t.parent q
        par ls1 ls2 fp1 fp2 k hcapI hpar1 (Sub.frame hs1 (fun _ _ => rfl))
        (Sub.frame hs2 (fun _ _ => rfl)) hnd' hk
    have hN : ∀ b ∈ fp1 ++ fp2, b ≠ t1.mem.length := by
      intro b hb e
      rcases List.mem_append.1 hb with hb | hb
      · have := Sub.fp_lt hs1 b hb; omega
      · have := Sub.fp_lt hs2 b hb; omega
    have hs3' : Sub cfg t3 (h + 1) true t3.parent Ptr.root (ls1 ++ ls2)
        (t1.mem.length :: (fp1 ++ fp2)) := by rw [hpar3]; exact hs3
    have hnd3 : (t1.mem.length :: (fp1 ++ fp2)).Nodup :=
      List.nodup_cons.2 ⟨fun e => hN _ e rfl, hnd'⟩
    refine ⟨t3, by simp only [h3], ⟨Ptr.root, h + 1, ls1 ++ ls2, _, hs3', hnd3, hitems, ?_, ?_,
      ?_, ?_⟩⟩
    · rw [hsize3]; exact hsz'
    · exact ChainOk.chain_step hlinks3 _ _ (ChainOk.chain_step hlinks _ _ hchain1)
    · rw [hhead1, hhead, hleft3, hleft1]
    · rw [hright1, hright3]

/-- Multi mode: the insert into a container in the state an erase by key
leaves. It returns with the flag `true`, places the value after the elements
that are not greater, and leaves that state. -/
theorem insert_multi_shapedPE (cfg : Config) (t : Tree α) (v : α) (xs : List α)
    (hu : cfg.unique = false) (hcapL : 2 ≤ cfg.maxLeaf) (hcapI : 2 ≤ cfg.maxInner)
    (hsh : ShapedPE cfg t xs) (hsort : xs.Pairwise (· ≤ ·)) :
    ∃ t' pos, insert cfg t v = some (t', (pos, true)) ∧
      ShapedP cfg t' (xs.take (upper_bound_node xs v) ++ v :: xs.drop (upper_bound_node xs v)) := by
  rcases hsh with ⟨h1, h2, -⟩ | hsh
  · obtain ⟨t', e1, e2, -⟩ := insert_first_spec cfg t v hcapL
    subst h1
    exact ⟨t', (Ptr.node t.mem.length, 0), by simp [insert, insert_nohint_, h2, e1],
      by simpa [upper_bound_node] using e2.shapedP⟩
  have hne := hsh.p_ne_root
  obtain ⟨par, h, ls, fp, hs, hnd, hit, hsz, hchain, hhead, hlast⟩ := hsh
  have hdesc := insert_descend_spec cfg false v hcapL hcapI h (t.mem.length + 1) t true t.parent
    par ls fp [] [] Ptr.root (by have := Sub.fuel hs hnd; omega) hs hnd
    (by rw [hit]; exact hsort) (by simpa using hchain)
    (by simpa using Sub.leaf_ptrs_nodup hs hnd) (by simpa using hlast)
  rw [hit] at hdesc
  obtain ⟨t1, pos, up, ho⟩ := hdesc.1 hu
  obtain ⟨t', e1, e2⟩ := insert_finish_p cfg t t1 v xs _ h ls fp pos up par hcapI hit hsz
    (bound_node_le false xs v) hhead (hdesc.2.1 t1 pos up ho)
  refine ⟨t', pos, ?_, e2⟩
  rw [← e1]
  simp only [insert, insert_nohint_, if_neg hne, ho, if_true, Option.pure_def,
    Option.bind_eq_bind, Option.some_bind]
  cases up with
  | none => rfl
  | some kq =>
    obtain ⟨k, q⟩ := kq
    simp only []
    cases grow_root_ (Tree.mk t1.parent (t1.size + 1) t1.left t1.right t1.mem) k q <;> rfl

/-- A call on the container: `insert(value)`, `erase(key)` or `clear()`. -/
inductive Op (α : Type) where
  | insert (v : α)
  | erase (k : α)
  | clear

/-- One call on a container, with the two numbers the claim speaks of: the
number of insertions and the total of the counts `erase(key)` returned, both
since the last `clear()`. -/
def step_op (cfg : Config) (s : Tree α × Nat × Nat) : Op α → Option (Tree α × Nat × Nat)
  | Op.insert v => (insert cfg s.1 v).map (fun r => (r.1, s.2.1 + 1, s.2.2))
  | Op.erase k => (erase_key cfg s.1 k).map (fun r => (r.1, s.2.1, s.2.2 + r.2))
  | Op.clear => (clear s.1).map (fun t => (t, 0, 0))

/-- A sequence of calls on the default-constructed container. -/
def run_ops (cfg : Config) (ops : List (Op α)) : Option (Tree α × Nat × Nat) :=
  ops.foldlM (step_op cfg) (empty, 0, 0)

theorem ShapedPE.pe_empty_iff {cfg : Config} {T : Tree α} {xs : List α} (hcap : 2 ≤ cfg.maxLeaf)
    (hsh : ShapedPE cfg T xs) : T.parent = Ptr.root ↔ T.size = 0 := by
  rcases hsh with ⟨-, h2, h3⟩ | hsh
  · exact ⟨fun _ => h3, fun _ => h2⟩
  · have hne := hsh.p_ne_root
    obtain ⟨par, h, ls, fp, hs, hnd, hit, hsz, -⟩ := hsh
    have := Sub.items_ne_nil hcap hs
    rw [hit] at this
    have : 0 < xs.length := List.length_pos.2 this
    exact ⟨fun e => absurd e hne, fun e => by omega⟩

/-- A sequence of calls from a state an erase by key leaves: every call
returns, and the size plus the counts of the erases is the number of
insertions. -/
theorem run_from (cfg : Config) (hu : cfg.unique = false) (hcapL : 4 ≤ cfg.maxLeaf)
    (hcapI : 2 ≤ cfg.maxInner) :
    ∀ (ops : List (Op α)) (t : Tree α) (ins er : Nat) (xs : List α), ShapedPE cfg t xs →
      xs.Pairwise (· ≤ ·) → xs.length + er = ins →
      ∃ T ins' er' ys, ops.foldlM (step_op cfg) (t, ins, er) = some (T, ins', er') ∧
        ShapedPE cfg T ys ∧ ys.length + er' = ins' := by
  intro ops
  induction ops with
  | nil => intro t ins er xs hsh _ hn; exact ⟨t, ins, er, xs, rfl, hsh, hn⟩
  | cons op rest ih =>
    intro t ins er xs hsh hord hn
    cases op with
    | insert v =>
      obtain ⟨t', pos, h1, h2⟩ := insert_multi_shapedPE cfg t v xs hu (by omega) hcapI hsh hord
      obtain ⟨T, ins', er', ys, h3, h4, h5⟩ := ih t' (ins + 1) er _ (Or.inr h2)
        (sorted_ins_upper xs v hord).1 (by
          rw [ins_length _ _ _ (upper_bound_node_le xs v)]; omega)
      refine ⟨T, ins', er', ys, ?_, h4, h5⟩
      simp only [List.foldlM_cons, step_op, h1, Option.map_some', Option.bind_eq_bind,
        Option.some_bind]
      exact h3
    | erase k =>
      obtain ⟨t', h1, h2, -⟩ := erase_key_shaped cfg k t xs hcapL hcapI hsh
        ⟨hord, fun h => by rw [hu] at h; simp at h⟩
      obtain ⟨T, ins', er', ys, h3, h4, h5⟩ := ih t' ins (er + xs.count k) _ h2
        (hord.sublist (List.filter_sublist _)) (by
          have := filter_length_count xs k
          omega)
      refine ⟨T, ins', er', ys, ?_, h4, h5⟩
      simp only [List.foldlM_cons, step_op, h1, Option.map_some', Option.bind_eq_bind,
        Option.some_bind]
      exact h3
    | clear =>
      obtain ⟨t', h1, h2, h3, -⟩ := clear_spec cfg t xs hsh
      obtain ⟨T, ins', er', ys, h4, h5, h6⟩ := ih t' 0 0 [] (Or.inl ⟨rfl, h2, h3⟩)
        List.Pairwise.nil rfl
      refine ⟨T, ins', er', ys, ?_, h5, h6⟩
      simp only [List.foldlM_cons, step_op, h1, Option.map_some', Option.bind_eq_bind,
        Option.some_bind]
      exact h4

/-- C40: in multi mode with `MAX_LEAF ≥ 4` and `MAX_INNER ≥ 4`, every finite
sequence of `insert(value)`, `erase(key)` and `clear()` calls on the
default-constructed container returns, and afterwards `empty()`
(`root_.parent == &root_`) holds exactly when `size()` is 0, and `size()` is
the number of insertions minus the total of the counts that `erase(key)`
returned, both since the last `clear()`. -/
theorem calls_keep_count (cfg : Config) (ops : List (Op α)) (hu : cfg.unique = false)
    (hcapL : 4 ≤ cfg.maxLeaf) (hcapI : 4 ≤ cfg.maxInner) :
    ∃ T ins er, run_ops cfg ops = some (T, ins, er) ∧
      (T.parent = Ptr.root ↔ T.size = 0) ∧ T.size + er = ins := by
  obtain ⟨T, ins, er, ys, h1, h2, h3⟩ := run_from cfg hu hcapL (by omega) ops
    (empty : Tree α) 0 0 [] (Or.inl ⟨rfl, rfl, rfl⟩) List.Pairwise.nil rfl
  exact ⟨T, ins, er, h1, h2.pe_empty_iff (by omega), by rw [h2.pe_size]; exact h3⟩

/-- The statement of `calls_keep_count` for the calls `insert` of 10, 20, 30,
40, 50, 20, then `erase(20)`, `erase(10)`, `erase(30)`, `erase(7)`, with
`MAX_LEAF = MAX_INNER = 4`, and the run itself: the two erases that follow
`erase(20)` work on a real root whose parent field names a freed node, and two
elements are left of six insertions and four removals. -/
theorem calls_keep_count_witness :
    (∃ T ins er, run_ops ⟨false, 4, 4⟩ [Op.insert 10, Op.insert 20, Op.insert 30, Op.insert 40,
        Op.insert 50, Op.insert 20, Op.erase 20, Op.erase 10, Op.erase 30, Op.erase 7]
        = some (T, ins, er) ∧
      (T.parent = Ptr.root ↔ T.size = 0) ∧ T.size + er = ins) ∧
    (run_ops ⟨false, 4, 4⟩ [Op.insert 10, Op.insert 20, Op.insert 30, Op.insert 40,
        Op.insert 50, Op.insert 20, Op.erase 20, Op.erase 10, Op.erase 30, Op.erase 7]).map
      (fun s => (toList s.1, s.1.size, s.2)) = some (some [40, 50], 2, 6, 4) ∧
    (run_ops ⟨false, 4, 4⟩ [Op.insert 1, Op.insert 2, Op.erase 2, Op.erase 1, Op.insert 3,
        Op.clear, Op.insert 4]).map
      (fun s => (toList s.1, s.1.size, s.2)) = some (some [4], 1, 1, 0) :=
  ⟨calls_keep_count ⟨false, 4, 4⟩ _ rfl (by decide) (by decide), by decide, by decide⟩

end CallSequences

end BPP

/-! ## The insert with a result for the read through the anchor -/

namespace BPP

section StrayRead
variable {α : Type} [LinearOrder α]

/-- The C++ `insert_one_descend_` with a result for the one read that
`insert_one_descend_` of this file leaves undefined. In unique mode with
`where == 0` the code tests `leaf_node->prev != nullptr`; the `prev` of the
first leaf is `&root_`, so the test holds and the anchor is read as a leaf:
`prev_leaf_node->bound()` is `root_.size` and
`prev_leaf_node->item[root_.size - 1]` lies outside of the anchor. `stray` is
the key that read yields; it is not under the control of the program. All
other reads and all stores are those of `insert_one_descend_`. -/
def insert_one_descend_stray (cfg : Config) (stray : α) (is_leftish : Bool) (value : α) :
    Nat → Tree α → Ptr → Option (Tree α × (Pos × Bool) × Option (α × Ptr))
  | 0, _, _ => none
  | fuel + 1, t, node => do
    let some level := t.level? node | none
    if level > 0 then
      let some inner_node := t.inner? node | none
      let «where» :=
        if is_leftish then lower_bound_node inner_node.item value
        else upper_bound_node inner_node.item value
      let some child := inner_node.children[«where»]? | none
      let some (t, result, new) :=
        insert_one_descend_stray cfg stray is_leftish value fuel t child | none
      let some t := if result.2 then t.modInner node (fun m => { m with size := m.size + 1 }) else some t | none
      match new with
      | none => some (t, result, none)
      | some (key_out, new_child) =>
        let some (t, up) := place_child_ cfg t node «where» key_out new_child | none
        some (t, result, up)
    else
      let some leaf_node := t.leaf? node | none
      let «where» :=
        if is_leftish then lower_bound_node leaf_node.item value
        else upper_bound_node leaf_node.item value
      if is_leftish then
        if cfg.unique then
          let some x := leaf_node.item[«where»]? | none
          if ¬ value < x then some (t, ((node, «where»), false), none)
          else
            let some (t, pos, up) := insert_leaf_ cfg t node «where» value | none
            some (t, (pos, true), up)
        else
          let some (t, pos, up) := insert_leaf_ cfg t node «where» value | none
          some (t, (pos, true), up)
      else
        if cfg.unique ∧ («where» > 0 ∨ leaf_node.prev ≠ Ptr.null) then
          if «where» = 0 then
            if leaf_node.prev = Ptr.root then
              if ¬ stray < value then
                some (t, ((Ptr.root, wsub t.size 1), false), none)
              else
                let some (t, pos, up) := insert_leaf_ cfg t node «where» value | none
                some (t, (pos, true), up)
            else
              let some prev_leaf_node := t.leaf? leaf_node.prev | none
              let some x := prev_leaf_node.item[wsub prev_leaf_node.item.length 1]? | none
              if ¬ x < value then
                some (t, ((leaf_node.prev, wsub prev_leaf_node.item.length 1), false), none)
              else
                let some (t, pos, up) := insert_leaf_ cfg t node «where» value | none
                some (t, (pos, true), up)
          else
            let some x := leaf_node.item[«where» - 1]? | none
            if ¬ x < value then some (t, ((node, «where» - 1), false), none)
            else
              let some (t, pos, up) := insert_leaf_ cfg t node «where» value | none
              some (t, (pos, true), up)
        else
          let some (t, pos, up) := insert_leaf_ cfg t node «where» value | none
          some (t, (pos, true), up)

/-- The C++ `insert_nohint_<is_leftish>` over `insert_one_descend_stray`. -/
def insert_nohint_stray (cfg : Config) (stray : α) (is_leftish : Bool) (t : Tree α)
    (value : α) : Option (Tree α × (Pos × Bool)) := do
  if t.parent = Ptr.root then insert_first_ t value
  else
    let some (t, result, new) := (
      insert_one_descend_stray cfg stray is_leftish value (t.mem.length + 1) t t.parent)
      | none
    let t := if result.2 then { t with size := t.size + 1 } else t
    match new with
    | none => some (t, result)
    | some (key_out, new_child) =>
      let some t := grow_root_ t key_out new_child | none
      some (t, result)

/-- The public `insert(value)` over `insert_one_descend_stray`. -/
def insert_stray (cfg : Config) (stray : α) (t : Tree α) (value : α) :
    Option (Tree α × (Pos × Bool)) :=
  insert_nohint_stray cfg stray false t value

/-- The C++ `insert_hint_` over `insert_one_descend_stray`: its fallback is
`insert_nohint_stray`; `leaf_node` is null for the hint `end()`. -/
def insert_hint_stray_ (cfg : Config) (stray : α) (t : Tree α) (leaf_node : Ptr)
    («where» : Nat) (value : α) : Option (Tree α × (Pos × Bool)) :=
  if t.parent = Ptr.root then insert_first_ t value
  else if cfg.unique then
    if leaf_node = t.left ∧ «where» = 0 then do
      let some x := t.key? (leaf_node, «where») | none
      if value < x then insert_pos_ cfg t leaf_node 0 value
      else insert_nohint_stray cfg stray false t value
    else if leaf_node = Ptr.null then do
      let some tail := t.leaf? t.right | none
      let some x := tail.item[wsub tail.item.length 1]? | none
      if x < value then insert_pos_ cfg t t.right tail.item.length value
      else insert_nohint_stray cfg stray false t value
    else do
      let some x := t.key? (leaf_node, «where») | none
      let some accept3 := (
        if value < x then do
          let other ← advance_prev_pos t (leaf_node, «where»)
          let y ← t.key? other
          some (decide (y < value))
        else some false)
        | none
      if accept3 then insert_pos_ cfg t leaf_node «where» value
      else if x < value then do
        let some other := advance_next_pos t (leaf_node, «where») | none
        if other.1 = Ptr.null then insert_tail_ cfg t value
        else
          let some y := t.key? other | none
          if value < y then insert_pos_ cfg t other.1 other.2 value
          else insert_nohint_stray cfg stray false t value
      else insert_nohint_stray cfg stray false t value
  else
    if leaf_node = t.left ∧ «where» = 0 then do
      let some x := t.key? (leaf_node, «where») | none
      if ¬ x < value then insert_pos_ cfg t leaf_node 0 value
      else insert_nohint_stray cfg stray true t value
    else if leaf_node = Ptr.null then do
      let some tail := t.leaf? t.right | none
      let some x := tail.item[wsub tail.item.length 1]? | none
      if ¬ value < x then insert_pos_ cfg t t.right tail.item.length value
      else insert_nohint_stray cfg stray false t value
    else do
      let some x := t.key? (leaf_node, «where») | none
      let some accept3 := (
        if ¬ x < value then do
          let other ← advance_prev_pos t (leaf_node, «where»)
          let y ← t.key? other
          some (decide (¬ value < y))
        else some false)
        | none
      if accept3 then insert_pos_ cfg t leaf_node «where» value
      else if ¬ value < x then do
        let some other := advance_next_pos t (leaf_node, «where») | none
        if other.1 = Ptr.null then insert_tail_ cfg t value
        else
          let some y := t.key? other | none
          if ¬ y < value then insert_pos_ cfg t other.1 other.2 value
          else insert_nohint_stray cfg stray true t value
      else insert_nohint_stray cfg stray true t value

/-- The public `insert(hint, value)` over `insert_one_descend_stray`. -/
def insert_hint_stray (cfg : Config) (stray : α) (t : Tree α) (hint : Pos) (value : α) :
    Option (Tree α × (Pos × Bool)) :=
  insert_hint_stray_ cfg stray t (if hint.1 = Ptr.root then Ptr.null else hint.1) hint.2 value

end StrayRead

section StrayDescent
variable {α : Type} [LinearOrder α]

/-- The inner branch of `insert_one_descend_stray`. -/
theorem insert_stray_inner (cfg : Config) (x : α) (lt : Bool) (v : α) (fuel : Nat) (t : Tree α)
    (a : Nat) (n : InnerNode α) (c : Ptr) (hn : t.node? (Ptr.node a) = some (Node.inner n))
    (hlev : n.level > 0) (hc : n.children[bound_node lt n.item v]? = some c) :
    insert_one_descend_stray cfg x lt v (fuel + 1) t (Ptr.node a)
      = (insert_one_descend_stray cfg x lt v fuel t c).bind
          (insert_ascend_ cfg (Ptr.node a) (bound_node lt n.item v)) := by
  unfold bound_node at hc ⊢
  rw [insert_one_descend_stray]
  simp only [level?_inner hn, hlev, if_true, inner?_of_node? hn, hc]
  cases hr : insert_one_descend_stray cfg x lt v fuel t c with
  | none => rfl
  | some r =>
    obtain ⟨t1, result, new⟩ := r
    simp only [Option.some_bind, insert_ascend_]
    cases hm : (if result.2 = true then
        t1.modInner (Ptr.node a) (fun m => { m with size := m.size + 1 }) else some t1) with
    | none => rfl
    | some t2 =>
      cases new with
      | none => rfl
      | some kq =>
        obtain ⟨key_out, new_child⟩ := kq
        simp only []
        cases place_child_ cfg t2 (Ptr.node a) (if lt = true then lower_bound_node n.item v
          else upper_bound_node n.item v) key_out new_child with
        | none => rfl
        | some tu => rfl

/-- The leaf branch of `insert_one_descend_stray` in multi mode: the
insertion at the slot of the key. -/
theorem insert_stray_leaf_multi (cfg : Config) (x : α) (lt : Bool) (v : α) (fuel : Nat)
    (t : Tree α) (a : Nat) (l : LeafNode α) (hn : t.node? (Ptr.node a) = some (Node.leaf l))
    (hu : cfg.unique = false) :
    insert_one_descend_stray cfg x lt v (fuel + 1) t (Ptr.node a)
      = (insert_leaf_ cfg t (Ptr.node a) (bound_node lt l.item v) v).map
          (fun r => (r.1, (r.2.1, true), r.2.2)) := by
  unfold bound_node
  rw [insert_one_descend_stray]
  simp only [level?_leaf hn, gt_iff_lt, lt_self_iff_false, if_false, leaf?_of_node? hn, hu]
  cases lt <;> simp only [Bool.false_eq_true, if_false, if_true, false_and]
  · cases hi : insert_leaf_ cfg t (Ptr.node a) (upper_bound_node l.item v) v <;> rfl
  · cases hi : insert_leaf_ cfg t (Ptr.node a) (lower_bound_node l.item v) v <;> rfl

/-- The leaf branch of `insert_one_descend_stray` in unique mode, slot
above 0: the key is compared with the item before its slot. -/
theorem insert_stray_leaf_pos (cfg : Config) (x : α) (v : α) (fuel : Nat)
    (t : Tree α) (a : Nat) (l : LeafNode α) (hn : t.node? (Ptr.node a) = some (Node.leaf l))
    (hu : cfg.unique = true) (y : α) (h0 : 0 < upper_bound_node l.item v)
    (hy : l.item[upper_bound_node l.item v - 1]? = some y) :
    insert_one_descend_stray cfg x false v (fuel + 1) t (Ptr.node a)
      = if y < v then (insert_leaf_ cfg t (Ptr.node a) (upper_bound_node l.item v) v).map
          (fun r => (r.1, (r.2.1, true), r.2.2))
        else some (t, ((Ptr.node a, upper_bound_node l.item v - 1), false), none) := by
  rw [insert_one_descend_stray]
  simp only [level?_leaf hn, gt_iff_lt, lt_self_iff_false, if_false, leaf?_of_node? hn, hu,
    Bool.false_eq_true, true_and]
  rw [if_pos (Or.inl h0), if_neg (by omega)]
  simp only [hy]
  by_cases hlt : y < v
  · simp only [hlt, not_true_eq_false, if_false, if_true]
    cases hi : insert_leaf_ cfg t (Ptr.node a) (upper_bound_node l.item v) v <;> rfl
  · simp only [hlt, not_false_eq_true, if_true, if_false]

/-- The leaf branch of `insert_one_descend_stray` in unique mode, slot 0 of
the first leaf: the key is compared with the stray key. -/
theorem insert_stray_leaf_first (cfg : Config) (x : α) (v : α) (fuel : Nat)
    (t : Tree α) (a : Nat) (l : LeafNode α) (hn : t.node? (Ptr.node a) = some (Node.leaf l))
    (hu : cfg.unique = true) (h0 : upper_bound_node l.item v = 0) (hp : l.prev = Ptr.root) :
    insert_one_descend_stray cfg x false v (fuel + 1) t (Ptr.node a)
      = if x < v then (insert_leaf_ cfg t (Ptr.node a) 0 v).map
          (fun r => (r.1, (r.2.1, true), r.2.2))
        else some (t, ((Ptr.root, wsub t.size 1), false), none) := by
  rw [insert_one_descend_stray]
  simp only [level?_leaf hn, gt_iff_lt, lt_self_iff_false, if_false, leaf?_of_node? hn, hu,
    Bool.false_eq_true, true_and, h0, hp]
  rw [if_pos (Or.inr (by simp))]
  simp only [if_true]
  by_cases hlt : x < v
  · simp only [hlt, not_true_eq_false, if_false, if_true]
    cases hi : insert_leaf_ cfg t (Ptr.node a) 0 v <;> rfl
  · simp only [hlt, not_false_eq_true, if_true, if_false]

/-- The leaf branch of `insert_one_descend_stray` in unique mode, slot 0 of a
later leaf: the key is compared with the last item of the leaf before. -/
theorem insert_stray_leaf_prev (cfg : Config) (x : α) (v : α) (fuel : Nat)
    (t : Tree α) (a : Nat) (l pl : LeafNode α) (y : α)
    (hn : t.node? (Ptr.node a) = some (Node.leaf l))
    (hu : cfg.unique = true) (h0 : upper_bound_node l.item v = 0) (hp : l.prev ≠ Ptr.root)
    (hnn : l.prev ≠ Ptr.null) (hpl : t.leaf? l.prev = some pl)
    (hy : pl.item[wsub pl.item.length 1]? = some y) :
    insert_one_descend_stray cfg x false v (fuel + 1) t (Ptr.node a)
      = if y < v then (insert_leaf_ cfg t (Ptr.node a) 0 v).map
          (fun r => (r.1, (r.2.1, true), r.2.2))
        else some (t, ((l.prev, wsub pl.item.length 1), false), none) := by
  rw [insert_one_descend_stray]
  simp only [level?_leaf hn, gt_iff_lt, lt_self_iff_false, if_false, leaf?_of_node? hn, hu,
    Bool.false_eq_true, true_and, h0]
  rw [if_pos (Or.inr hnn)]
  simp only [if_true, if_neg hp, hpl, hy]
  by_cases hlt : y < v
  · simp only [hlt, not_true_eq_false, if_false, if_true]
    cases hi : insert_leaf_ cfg t (Ptr.node a) 0 v <;> rfl
  · simp only [hlt, not_false_eq_true, if_true, if_false]

/-- At a leaf whose `prev` is not the anchor, `insert_one_descend_stray` is
`insert_one_descend_`. -/
theorem insert_stray_leaf_eq (cfg : Config) (x : α) (lt : Bool) (v : α) (fuel : Nat)
    (t : Tree α) (a : Nat) (l : LeafNode α) (hn : t.node? (Ptr.node a) = some (Node.leaf l))
    (hp : l.prev ≠ Ptr.root) :
    insert_one_descend_stray cfg x lt v (fuel + 1) t (Ptr.node a)
      = insert_one_descend_ cfg lt v (fuel + 1) t (Ptr.node a) := by
  rw [insert_one_descend_stray, insert_one_descend_]
  simp only [level?_leaf hn, gt_iff_lt, lt_self_iff_false, if_false, leaf?_of_node? hn, if_neg hp]
  all_goals rfl

/-- At the first leaf, `insert_one_descend_` returns only what
`insert_one_descend_stray` returns. -/
theorem insert_stray_leaf_of (cfg : Config) (x : α) (lt : Bool) (v : α) (fuel : Nat)
    (t : Tree α) (a : Nat) (l : LeafNode α) (hn : t.node? (Ptr.node a) = some (Node.leaf l))
    (r : Tree α × (Pos × Bool) × Option (α × Ptr))
    (h : insert_one_descend_ cfg lt v (fuel + 1) t (Ptr.node a) = some r) :
    insert_one_descend_stray cfg x lt v (fuel + 1) t (Ptr.node a) = some r := by
  by_cases hp : l.prev = Ptr.root
  · rw [← h, insert_one_descend_stray, insert_one_descend_]
    rw [insert_one_descend_] at h
    simp only [level?_leaf hn, gt_iff_lt, lt_self_iff_false, if_false, leaf?_of_node? hn, hp]
      at h ⊢
    by_cases hc : lt = false ∧ cfg.unique = true ∧ upper_bound_node l.item v = 0
    · obtain ⟨h1, h2, h3⟩ := hc
      subst h1
      simp [h2, h3, Tree.leaf?, Tree.node?] at h
    · cases lt
      · cases hu : cfg.unique
        · simp only [Bool.false_eq_true, if_false, false_and]
          all_goals rfl
        · have h3 : ¬ upper_bound_node l.item v = 0 := fun e => hc ⟨rfl, hu, e⟩
          simp only [Bool.false_eq_true, if_false, true_and, if_neg h3]
          all_goals rfl
      · simp only [if_true]
        all_goals rfl
  · rw [insert_stray_leaf_eq cfg x lt v fuel t a l hn hp]; exact h

end StrayDescent

section StraySpec
variable {α : Type} [LinearOrder α]

/-- What the descent of `insert_one_descend_stray` owes for a subtree whose
leaves stand in the chain after the run `L`: it returns; in multi mode it
succeeds; a success is the insertion at the slot `j` of the key and, in unique
mode, has found the element before the slot below the key; a refusal leaves
the state alone and has found an element before the slot that is not below
the key, or, at the front of the chain, a stray key that is not below it. -/
def StrayOK (cfg : Config) (x : α) (t : Tree α) (h : Nat) (isRoot : Bool) (p par : Ptr)
    (ls : Leaves α) (fp : List Nat) (v : α) (j : Nat) (L R : Leaves α)
    (o : Option (Tree α × (Pos × Bool) × Option (α × Ptr))) : Prop :=
  ∃ t' pos b up, o = some (t', (pos, b), up) ∧
    (cfg.unique = false → b = true) ∧
    (b = true → InsPost cfg t h isRoot p par ls fp v j L R Ptr.root t' pos up ∧
      (cfg.unique = true →
        ∀ y, (items L ++ (items ls).take j).getLast? = some y → y < v)) ∧
    (b = false → t' = t ∧ up = none ∧
      ((∃ y, (items L ++ (items ls).take j).getLast? = some y ∧ ¬ y < v) ∨
        (items L = [] ∧ j = 0 ∧ ¬ x < v)))

/-- The leaf case of the descent of `insert_one_descend_stray`. -/
theorem insert_stray_leaf_spec (cfg : Config) (x : α) (lt : Bool) (v : α)
    (hcapL : 2 ≤ cfg.maxLeaf) (hlt : cfg.unique = true → lt = false) (fuel : Nat) (t : Tree α)
    (isRoot : Bool) (p par : Ptr) (ls : Leaves α) (fp : List Nat) (L R : Leaves α)
    (hs : Sub cfg t 0 isRoot p par ls fp)
    (hchain : ChainOk t Ptr.root (L ++ ls ++ R))
    (hndl : ((L ++ ls ++ R).map Prod.fst).Nodup)
    (hright : ((L ++ ls ++ R).getLast?).map Prod.fst = some t.right)
    (hL : ∀ e ∈ L, (∃ l, t.node? e.1 = some (Node.leaf l) ∧ l.item = e.2) ∧ e.2 ≠ []) :
    StrayOK cfg x t 0 isRoot p par ls fp v (bound_node lt (items ls) v) L R
      (insert_one_descend_stray cfg x lt v (fuel + 1) t p) := by
  obtain ⟨a, l, hp, hn, hpar, hls, hfp, hlo, hhi⟩ := Sub.zero_iff.1 hs
  have hit : items ls = l.item := by rw [hls]; simp
  unfold StrayOK
  rw [hit]
  obtain ⟨t1, pos1, up1, h1, hpost1⟩ := insert_leaf_post cfg t isRoot p par ls fp v
    (bound_node lt l.item v) L R Ptr.root hcapL hs (by rw [hit]; exact bound_node_le lt _ v)
    hchain hndl hright
  subst hp
  have hchain' : ChainOk t Ptr.root (L ++ (Ptr.node a, l.item) :: R) := by
    rw [hls] at hchain; simpa using hchain
  cases hu : cfg.unique with
  | false =>
    refine ⟨t1, pos1, true, up1, ?_, fun _ => rfl, fun _ => ⟨hpost1, fun h => by simp at h⟩,
      fun h => by simp at h⟩
    rw [insert_stray_leaf_multi cfg x lt v fuel t a l hn hu, h1]; rfl
  | true =>
    have hl := hlt hu
    subst hl
    simp only [bound_node, Bool.false_eq_true, if_false] at h1 hpost1 ⊢
    have hle := upper_bound_node_le l.item v
    by_cases h0 : 0 < upper_bound_node l.item v
    · -- the item before the slot is in the leaf
      obtain ⟨y, hy⟩ : ∃ y, l.item[upper_bound_node l.item v - 1]? = some y :=
        ⟨_, List.getElem?_eq_getElem (by omega)⟩
      have hne : l.item.take (upper_bound_node l.item v) ≠ [] := by
        intro e
        have := congrArg List.length e
        simp only [List.length_take, List.length_nil] at this
        omega
      have hlast : (items L ++ l.item.take (upper_bound_node l.item v)).getLast? = some y := by
        rw [List.getLast?_append_of_ne_nil _ hne, List.getLast?_eq_getElem?,
          List.getElem?_take_of_lt (by rw [List.length_take]; omega), List.length_take,
          Nat.min_eq_left hle, hy]
      have he := insert_stray_leaf_pos cfg x v fuel t a l hn hu y h0 hy
      by_cases hyv : y < v
      · rw [if_pos hyv, h1] at he
        refine ⟨t1, pos1, true, up1, he, fun _ => rfl, fun _ => ⟨hpost1, fun _ y' hy' => ?_⟩,
          fun h => by simp at h⟩
        rw [hlast] at hy'
        rw [← Option.some.inj hy']; exact hyv
      · rw [if_neg hyv] at he
        exact ⟨t, _, false, none, he, fun h => by simp at h,
          fun h => by simp at h, fun _ => ⟨rfl, rfl, Or.inl ⟨y, hlast, hyv⟩⟩⟩
    · have h0' : upper_bound_node l.item v = 0 := by omega
      rw [h0'] at h1 hpost1 ⊢
      rcases List.eq_nil_or_concat L with hnil | ⟨L', e, hLe⟩
      · -- the first leaf: the read through the anchor
        subst hnil
        obtain ⟨n, hn', hprev, -⟩ := ChainOk.prev_mid [] (Ptr.node a) l.item R Ptr.root
          (by simpa using hchain')
        rw [leaf?_of_node? hn] at hn'
        obtain rfl := Option.some.inj hn'
        have he := insert_stray_leaf_first cfg x v fuel t a l hn hu h0' (hprev rfl)
        by_cases hxv : x < v
        · rw [if_pos hxv, h1] at he
          exact ⟨t1, pos1, true, up1, he, fun _ => rfl,
            fun _ => ⟨hpost1, fun _ y' hy' => by simp at hy'⟩, fun h => by simp at h⟩
        · rw [if_neg hxv] at he
          exact ⟨t, _, false, none, he, fun h => by simp at h,
            fun h => by simp at h, fun _ => ⟨rfl, rfl, Or.inr ⟨by simp, rfl, hxv⟩⟩⟩
      · -- a later leaf: the last item of the leaf before
        rw [List.concat_eq_append] at hLe
        subst hLe
        obtain ⟨⟨le, hle', hitem⟩, hene⟩ := hL e (by simp)
        obtain ⟨n, hn', -, hprev⟩ := ChainOk.prev_mid (L' ++ [e]) (Ptr.node a) l.item R Ptr.root
          hchain'
        rw [leaf?_of_node? hn] at hn'
        obtain rfl := Option.some.inj hn'
        have hpe : l.prev = e.1 := hprev e (by simp)
        have hnn : l.prev ≠ Ptr.null := by
          rw [hpe]; intro e0; rw [e0] at hle'; simp [Tree.node?] at hle'
        have hnr : l.prev ≠ Ptr.root := by
          rw [hpe]; intro e0; rw [e0] at hle'; simp [Tree.node?] at hle'
        have hpl : t.leaf? l.prev = some le := by rw [hpe]; exact leaf?_of_node? hle'
        obtain ⟨y, hy⟩ : ∃ y, le.item[wsub le.item.length 1]? = some y := by
          have hne : le.item ≠ [] := by rw [hitem]; exact hene
          have := List.length_pos.2 hne
          exact ⟨_, by rw [wsub_of_le (by omega)]; exact List.getElem?_eq_getElem (by omega)⟩
        have hlast : (items (L' ++ [e]) ++ l.item.take 0).getLast? = some y := by
          rw [List.take_zero, List.append_nil, getLast?_items_snoc _ _ hene, ← hitem,
            ← getLast?_eq_getElem?_wsub _ (by rw [hitem]; exact hene), hy]
        have he := insert_stray_leaf_prev cfg x v fuel t a l le y hn hu h0' hnr hnn hpl hy
        by_cases hyv : y < v
        · rw [if_pos hyv, h1] at he
          refine ⟨t1, pos1, true, up1, he, fun _ => rfl,
            fun _ => ⟨hpost1, fun _ y' hy' => ?_⟩, fun h => by simp at h⟩
          rw [hlast] at hy'
          rw [← Option.some.inj hy']; exact hyv
        · rw [if_neg hyv] at he
          exact ⟨t, _, false, none, he, fun h => by simp at h,
            fun h => by simp at h, fun _ => ⟨rfl, rfl, Or.inl ⟨y, hlast, hyv⟩⟩⟩

/-- The descent of `insert_one_descend_stray` through a subtree of any
height; the leftish descent is only run in multi mode. -/
theorem insert_stray_spec (cfg : Config) (x : α) (lt : Bool) (v : α) (hcapL : 2 ≤ cfg.maxLeaf)
    (hcapI : 2 ≤ cfg.maxInner) (hlt : cfg.unique = true → lt = false) :
    ∀ (h fuel : Nat) (t : Tree α) (isRoot : Bool) (p par : Ptr) (ls : Leaves α) (fp : List Nat)
      (L R : Leaves α), h < fuel → Sub cfg t h isRoot p par ls fp → fp.Nodup →
      (items ls).Pairwise (· ≤ ·) → ChainOk t Ptr.root (L ++ ls ++ R) →
      ((L ++ ls ++ R).map Prod.fst).Nodup →
      ((L ++ ls ++ R).getLast?).map Prod.fst = some t.right →
      (∀ e ∈ L, (∃ l, t.node? e.1 = some (Node.leaf l) ∧ l.item = e.2) ∧ e.2 ≠ []) →
      StrayOK cfg x t h isRoot p par ls fp v (bound_node lt (items ls) v) L R
        (insert_one_descend_stray cfg x lt v fuel t p) := by
  intro h
  induction h with
  | zero =>
    intro fuel t isRoot p par ls fp L R hfuel hs hnd hsort hchain hndl hright hL
    obtain ⟨fuel, rfl⟩ : ∃ f, fuel = f + 1 := ⟨fuel - 1, by omega⟩
    exact insert_stray_leaf_spec cfg x lt v hcapL hlt fuel t isRoot p par ls fp L R hs hchain
      hndl hright hL
  | succ h ih =>
    intro fuel t isRoot p par ls fp L R hfuel hs hnd hsort hchain hndl hright hL
    obtain ⟨fuel, rfl⟩ : ∃ f, fuel = f + 1 := ⟨fuel - 1, by omega⟩
    obtain ⟨a, n, ps, hp, hn, hpar, hlev, hsz, hc, hkeys, hne, hch, hls, hfp, hlo, hhi⟩ :=
      Sub.succ_iff.1 hs
    subst hp hls hfp
    obtain ⟨pre, q, post, hps, hplen, hbound, hlast⟩ :=
      key_bound_split lt ps n.item v hkeys hne hsort
    subst hps
    have hcq : n.children[bound_node lt n.item v]? = some q.ptr := by
      rw [hc, ← hplen, List.map_append, List.map_cons,
        List.getElem?_append_right (by simp)]
      simp
    rw [insert_stray_inner cfg x lt v fuel t a n q.ptr hn (by omega) hcq, hbound, ← hplen]
    have hqm : q ∈ pre ++ q :: post := by simp
    have eassoc : L ++ leavesOf pre ++ q.leaves ++ (leavesOf post ++ R)
        = L ++ leavesOf (pre ++ q :: post) ++ R := by
      rw [leavesOf_append, leavesOf_cons]; simp only [List.append_assoc]
    have hitems : items (leavesOf (pre ++ q :: post))
        = items (leavesOf pre) ++ (items q.leaves ++ items (leavesOf post)) := by simp
    have hndq : q.fp.Nodup := by
      have := (List.nodup_cons.1 hnd).2
      rw [fpOf_append, fpOf_cons] at this
      exact (List.nodup_append.1 (List.nodup_append.1 this).2.1).1
    have hsortq : (items q.leaves).Pairwise (· ≤ ·) := by
      rw [hitems] at hsort
      exact (List.pairwise_append.1 (List.pairwise_append.1 hsort).2.1).1
    have hL' : ∀ e ∈ L ++ leavesOf pre,
        (∃ l, t.node? e.1 = some (Node.leaf l) ∧ l.item = e.2) ∧ e.2 ≠ [] := by
      intro e he
      rcases List.mem_append.1 he with he | he
      · exact hL e he
      · obtain ⟨r, hr, her⟩ := mem_leavesOf he
        exact ⟨Sub.leaf_node (hch r (by simp [hr])) e her,
          Sub.leaf_nonempty hcapL (hch r (by simp [hr])) e her⟩
    have hlist : items (L ++ leavesOf pre) ++ (items q.leaves).take (bound_node lt (items q.leaves) v)
        = items L ++ (items (leavesOf (pre ++ q :: post))).take
            ((items (leavesOf pre)).length + bound_node lt (items q.leaves) v) := by
      rw [hitems, List.take_append, List.take_append_of_le_length (bound_node_le lt _ v),
        items_append, List.append_assoc]
    obtain ⟨t1, pos, b, upq, ho, hmulti, htrue, hfalse⟩ :=
      ih fuel t false q.ptr (Ptr.node a) q.leaves q.fp (L ++ leavesOf pre)
        (leavesOf post ++ R) (by omega) (hch q hqm) hndq hsortq (by rw [eassoc]; exact hchain)
        (by rw [eassoc]; exact hndl) (by rw [eassoc]; exact hright) hL'
    rw [ho, Option.some_bind]
    cases b with
    | true =>
      obtain ⟨hpostq, hstrict⟩ := htrue rfl
      obtain ⟨t', up, h1, hpost⟩ := insert_ascend_spec cfg t t1 h isRoot a par n pre post q v _ L R
        Ptr.root pos upq hcapL hcapI hn hpar hlev hsz hkeys hlo hhi hc hch hnd
        (bound_node_le lt _ v) hlast hpostq
      refine ⟨t', pos, true, up, h1, fun _ => rfl, fun _ => ⟨hpost, fun hu y hy => ?_⟩,
        fun hb => by simp at hb⟩
      rw [← hlist] at hy
      exact hstrict hu y hy
    | false =>
      obtain ⟨e1, e2, hwhy⟩ := hfalse rfl
      subst e1 e2
      refine ⟨t1, pos, false, none, by simp [insert_ascend_], hmulti, fun hb => by simp at hb,
        fun _ => ⟨rfl, rfl, ?_⟩⟩
      rcases hwhy with ⟨y, hy, hyv⟩ | ⟨hnil, hj0, hxv⟩
      · left
        rw [hlist] at hy
        exact ⟨y, hy, hyv⟩
      · right
        rw [items_append, List.append_eq_nil] at hnil
        refine ⟨hnil.1, ?_, hxv⟩
        rw [hnil.2, hj0]; rfl

/-- Whatever `insert_one_descend_` returns below a well-formed subtree,
`insert_one_descend_stray` returns too. -/
theorem insert_stray_of (cfg : Config) (x : α) (lt : Bool) (v : α) :
    ∀ (h fuel : Nat) (t : Tree α) (isRoot : Bool) (p par : Ptr) (ls : Leaves α) (fp : List Nat),
      Sub cfg t h isRoot p par ls fp → (items ls).Pairwise (· ≤ ·) →
      ∀ r, insert_one_descend_ cfg lt v fuel t p = some r →
        insert_one_descend_stray cfg x lt v fuel t p = some r := by
  intro h
  induction h with
  | zero =>
    intro fuel t isRoot p par ls fp hs hsort r hr
    obtain ⟨a, l, hp, hn, -⟩ := Sub.zero_iff.1 hs
    subst hp
    cases fuel with
    | zero => rw [insert_one_descend_] at hr; simp at hr
    | succ fuel => exact insert_stray_leaf_of cfg x lt v fuel t a l hn r hr
  | succ h ih =>
    intro fuel t isRoot p par ls fp hs hsort r hr
    cases fuel with
    | zero => rw [insert_one_descend_] at hr; simp at hr
    | succ fuel =>
      obtain ⟨a, n, ps, hp, hn, hpar, hlev, hsz, hc, hkeys, hne, hch, hls, hfp, hlo, hhi⟩ :=
        Sub.succ_iff.1 hs
      subst hp hls hfp
      obtain ⟨pre, q, post, hps, hplen, hbound, hlast⟩ :=
        key_bound_split lt ps n.item v hkeys hne hsort
      subst hps
      have hcq : n.children[bound_node lt n.item v]? = some q.ptr := by
        rw [hc, ← hplen, List.map_append, List.map_cons,
          List.getElem?_append_right (by simp)]
        simp
      have hitems : items (leavesOf (pre ++ q :: post))
          = items (leavesOf pre) ++ (items q.leaves ++ items (leavesOf post)) := by simp
      have hsortq : (items q.leaves).Pairwise (· ≤ ·) := by
        rw [hitems] at hsort
        exact (List.pairwise_append.1 (List.pairwise_append.1 hsort).2.1).1
      rw [insert_descend_inner cfg lt v fuel t a n q.ptr hn (by omega) hcq] at hr
      rw [insert_stray_inner cfg x lt v fuel t a n q.ptr hn (by omega) hcq]
      cases hq : insert_one_descend_ cfg lt v fuel t q.ptr with
      | none => rw [hq] at hr; simp at hr
      | some rq =>
        rw [ih fuel t false q.ptr (Ptr.node a) q.leaves q.fp (hch q (by simp)) hsortq rq hq]
        rw [hq] at hr
        exact hr

end StraySpec

end BPP

/-! ## The insert and the hinted insert, whatever the stray key -/

namespace BPP

section StrayTop
variable {α : Type} [LinearOrder α]

/-- What a call of the insert owes on a container whose in-order sequence is
`xs`: it returns; in multi mode it succeeds; a success has placed the value at
an index, kept I2–I7 and the order, and returns the position of the value; a
refusal leaves the container alone, which is not empty then. -/
def InsOut (cfg : Config) (t : Tree α) (xs : List α) (v : α)
    (o : Option (Tree α × (Pos × Bool))) : Prop :=
  ∃ T pos b, o = some (T, (pos, b)) ∧ (cfg.unique = false → b = true) ∧
    (b = true → ∃ j, j ≤ xs.length ∧ Shaped cfg T (xs.take j ++ v :: xs.drop j) ∧
      Ordered cfg (xs.take j ++ v :: xs.drop j) ∧ BPP.indexOf T pos = some j) ∧
    (b = false → T = t ∧ Shaped cfg t xs)

/-- The order after an insertion at the bound of the key, when in unique mode
the element before the slot is below the key. -/
theorem ordered_at_bound (cfg : Config) (lt : Bool) (xs : List α) (v : α)
    (hord : Ordered cfg xs) (hlt : cfg.unique = true → lt = false)
    (hstrict : cfg.unique = true →
      ∀ y, (xs.take (bound_node lt xs v)).getLast? = some y → y < v) :
    Ordered cfg (xs.take (bound_node lt xs v) ++ v :: xs.drop (bound_node lt xs v)) := by
  refine ordered_ins cfg xs v _ hord (bound_node_le lt xs v) (fun y hj0 hy => ?_)
    (fun z hz => ?_)
  · by_cases hu : cfg.unique = true
    · rw [if_pos hu]
      refine hstrict hu y ?_
      rw [List.getLast?_eq_getElem?, List.length_take,
        Nat.min_eq_left (bound_node_le lt xs v), List.getElem?_take_of_lt (by omega)]
      exact hy
    · rw [if_neg hu]
      have hm : y ∈ xs.take (bound_node lt xs v) := by
        have : (xs.take (bound_node lt xs v))[bound_node lt xs v - 1]? = some y := by
          rw [List.getElem?_take_of_lt (by omega)]; exact hy
        exact List.getElem?_mem this
      cases lt with
      | false =>
        simp only [bound_node, Bool.false_eq_true, if_false] at hm
        exact not_lt.1 ((sorted_ins_upper xs v hord.1).2.1 y hm)
      | true =>
        simp only [bound_node, if_true] at hm
        exact le_of_lt (lower_bound_node_before xs v y hm)
  · have hzm : z ∈ xs.drop (bound_node lt xs v) := by
      have : (xs.drop (bound_node lt xs v))[0]? = some z := by
        rw [List.getElem?_drop]; exact hz
      exact List.getElem?_mem this
    cases lt with
    | false =>
      simp only [bound_node, Bool.false_eq_true, if_false] at hzm
      have := (sorted_ins_upper xs v hord.1).2.2 z hzm
      split
      · exact this
      · exact le_of_lt this
    | true =>
      have hu : ¬ cfg.unique = true := fun hu => by have := hlt hu; simp at this
      rw [if_neg hu]
      simp only [bound_node, if_true] at hz
      exact not_lt.1 (lower_bound_node_at xs v z hz)

/-- The hintless insert over `insert_one_descend_stray` on a non-empty
container: it returns; in multi mode it succeeds; a success places the value
at the bound of its key and keeps I2–I7 and the order; a refusal leaves the
container alone and is due to an equal stored key or, for a key below all
stored keys, to a stray key that is not below it. The leftish variant is only
run in multi mode. -/
theorem insert_nohint_stray_shaped (cfg : Config) (x : α) (lt : Bool) (t : Tree α) (v : α)
    (xs : List α) (hcapL : 2 ≤ cfg.maxLeaf) (hcapI : 2 ≤ cfg.maxInner) (hsh : Shaped cfg t xs)
    (hord : Ordered cfg xs) (hlt : cfg.unique = true → lt = false) :
    ∃ T pos b, insert_nohint_stray cfg x lt t v = some (T, (pos, b)) ∧
      (cfg.unique = false → b = true) ∧
      (b = true →
        Shaped cfg T (xs.take (bound_node lt xs v) ++ v :: xs.drop (bound_node lt xs v)) ∧
        Ordered cfg (xs.take (bound_node lt xs v) ++ v :: xs.drop (bound_node lt xs v)) ∧
        BPP.indexOf T pos = some (bound_node lt xs v)) ∧
      (b = false → T = t ∧ (v ∈ xs ∨ ((∀ y ∈ xs, v < y) ∧ ¬ x < v))) := by
  have hne := hsh.ne_root
  obtain ⟨h, ls, fp, hs, hnd, hit, hsz, hchain, hhead, hlast⟩ := hsh
  obtain ⟨t1, pos, b, up, ho, hmulti, htrue, hfalse⟩ :=
    insert_stray_spec cfg x lt v hcapL hcapI hlt h (t.mem.length + 1) t true t.parent
      Ptr.root ls fp [] [] (by have := Sub.fuel hs hnd; omega) hs hnd
      (by rw [hit]; exact hord.1) (by simpa using hchain)
      (by simpa using Sub.leaf_ptrs_nodup hs hnd) (by simpa using hlast) (by simp)
  rw [hit] at htrue hfalse
  simp only [items_nil, List.nil_append] at htrue hfalse
  cases b with
  | true =>
    obtain ⟨hpost, hstrict⟩ := htrue rfl
    obtain ⟨t', h1, h2, h3⟩ := insert_finish_spec cfg t t1 v xs _ h ls fp pos up hcapI hit hsz
      (bound_node_le lt xs v) hhead hpost
    refine ⟨t', pos, true, ?_, fun _ => rfl,
      fun _ => ⟨h2, ordered_at_bound cfg lt xs v hord hlt hstrict, h3⟩, fun hb => by simp at hb⟩
    rw [← h1]
    simp only [insert_nohint_stray, if_neg hne, ho, if_true, Option.pure_def,
      Option.bind_eq_bind, Option.some_bind]
    cases up with
    | none => rfl
    | some kq =>
      obtain ⟨k, q⟩ := kq
      simp only []
      cases grow_root_ (Tree.mk t1.parent (t1.size + 1) t1.left t1.right t1.mem) k q <;> rfl
  | false =>
    obtain ⟨e1, e2, hwhy⟩ := hfalse rfl
    subst e1 e2
    have hu : cfg.unique = true := by
      cases hc : cfg.unique with
      | true => rfl
      | false => exact absurd (hmulti hc) (by simp)
    have hl := hlt hu
    subst hl
    refine ⟨t1, pos, false, ?_, hmulti, fun hb => by simp at hb, fun _ => ⟨rfl, ?_⟩⟩
    · simp [insert_nohint_stray, if_neg hne, ho]
    · simp only [bound_node, Bool.false_eq_true, if_false] at hwhy
      rcases hwhy with ⟨y, hy, hyv⟩ | ⟨-, hj0, hxv⟩
      · left
        have hm : y ∈ xs.take (upper_bound_node xs v) := mem_of_getLast? _ _ hy
        have h1 := (sorted_ins_upper xs v hord.1).2.1 y hm
        have e : y = v := le_antisymm (not_lt.1 h1) (not_lt.1 hyv)
        rw [← e]; exact List.mem_of_mem_take hm
      · right
        refine ⟨fun y hy => ?_, hxv⟩
        have := (sorted_ins_upper xs v hord.1).2.2 y (by rw [hj0]; simpa using hy)
        exact this

/-- Whatever `insert_nohint_` returns on a non-empty container that satisfies
I2–I7, `insert_nohint_stray` returns too. -/
theorem insert_nohint_stray_of (cfg : Config) (x : α) (lt : Bool) (t : Tree α) (v : α)
    (xs : List α) (hsh : Shaped cfg t xs) (hord : Ordered cfg xs)
    (r : Tree α × (Pos × Bool)) (hr : insert_nohint_ cfg lt t v = some r) :
    insert_nohint_stray cfg x lt t v = some r := by
  have hne := hsh.ne_root
  obtain ⟨h, ls, fp, hs, hnd, hit, hsz, hchain, hhead, hlast⟩ := hsh
  cases hd : insert_one_descend_ cfg lt v (t.mem.length + 1) t t.parent with
  | none => simp [insert_nohint_, if_neg hne, hd] at hr
  | some rd =>
    have hd' := insert_stray_of cfg x lt v h (t.mem.length + 1) t true t.parent Ptr.root ls fp
      hs (by rw [hit]; exact hord.1) rd hd
    rw [← hr]
    obtain ⟨t1, result, new⟩ := rd
    simp only [insert_nohint_stray, insert_nohint_, if_neg hne, hd, hd', Option.pure_def,
      Option.bind_eq_bind, Option.some_bind]
    all_goals rcases new with _ | ⟨k, q⟩
    all_goals first
      | rfl
      | (simp only []
         cases grow_root_ (if result.2 = true then
           { parent := t1.parent, size := t1.size + 1, left := t1.left, right := t1.right,
             mem := t1.mem } else t1) k q <;> rfl)

end StrayTop

section StrayHint
variable {α : Type} [LinearOrder α]

/-- The tests and branches that `insert_hint_` runs on a non-empty container,
in either mode: `S` is the test of the key against the element at a slot, `P`
the test against the element before a slot, `ipos` the insertion at a
position, `itail` the insertion after the last element, and `fb1`, `fb2`,
`fb3` the fallbacks of the three kinds of hint (the first position, `end()`,
any other position). -/
def hint_tests (t : Tree α) (S P : α → Prop) [DecidablePred S] [DecidablePred P]
    (ipos : Ptr → Nat → Option (Tree α × (Pos × Bool)))
    (itail fb1 fb2 fb3 : Option (Tree α × (Pos × Bool))) (leaf_node : Ptr) («where» : Nat) :
    Option (Tree α × (Pos × Bool)) :=
  if leaf_node = t.left ∧ «where» = 0 then do
    let some x := t.key? (leaf_node, «where») | none
    if S x then ipos leaf_node 0
    else fb1
  else if leaf_node = Ptr.null then do
    let some tail := t.leaf? t.right | none
    let some x := tail.item[wsub tail.item.length 1]? | none
    if P x then ipos t.right tail.item.length
    else fb2
  else do
    let some x := t.key? (leaf_node, «where») | none
    let some accept3 := (
      if S x then do
        let other ← advance_prev_pos t (leaf_node, «where»)
        let y ← t.key? other
        some (decide (P y))
      else some false)
      | none
    if accept3 then ipos leaf_node «where»
    else if P x then do
      let some other := advance_next_pos t (leaf_node, «where») | none
      if other.1 = Ptr.null then itail
      else
        let some y := t.key? other | none
        if S y then ipos other.1 other.2
        else fb3
    else fb3

theorem insert_hint_eq_tests (cfg : Config) (t : Tree α) (lf : Ptr) (w : Nat) (v : α) :
    insert_hint_ cfg t lf w v =
      if t.parent = Ptr.root then insert_first_ t v
      else if cfg.unique then
        hint_tests t (fun z => v < z) (fun y => y < v) (fun a b => insert_pos_ cfg t a b v)
          (insert_tail_ cfg t v) (insert_nohint_ cfg false t v) (insert_nohint_ cfg false t v)
          (insert_nohint_ cfg false t v) lf w
      else
        hint_tests t (fun z => ¬ z < v) (fun y => ¬ v < y) (fun a b => insert_pos_ cfg t a b v)
          (insert_tail_ cfg t v) (insert_nohint_ cfg true t v) (insert_nohint_ cfg false t v)
          (insert_nohint_ cfg true t v) lf w := rfl

theorem insert_hint_stray_eq_tests (cfg : Config) (x : α) (t : Tree α) (lf : Ptr) (w : Nat)
    (v : α) :
    insert_hint_stray_ cfg x t lf w v =
      if t.parent = Ptr.root then insert_first_ t v
      else if cfg.unique then
        hint_tests t (fun z => v < z) (fun y => y < v) (fun a b => insert_pos_ cfg t a b v)
          (insert_tail_ cfg t v) (insert_nohint_stray cfg x false t v)
          (insert_nohint_stray cfg x false t v) (insert_nohint_stray cfg x false t v) lf w
      else
        hint_tests t (fun z => ¬ z < v) (fun y => ¬ v < y) (fun a b => insert_pos_ cfg t a b v)
          (insert_tail_ cfg t v) (insert_nohint_stray cfg x true t v)
          (insert_nohint_stray cfg x false t v) (insert_nohint_stray cfg x true t v) lf w := rfl

/-- The insertion at a slot of a leaf of the container, or at the end of its
last leaf, when the order allows it. -/
theorem InsOut.of_pos (cfg : Config) (t : Tree α) (xs : List α) (v : α) (ls : Leaves α)
    (lf : Ptr) (w : Nat) (hcapL : 2 ≤ cfg.maxLeaf) (hcapI : 2 ≤ cfg.maxInner)
    (hsh : Shaped cfg t xs) (hll : leafList t = some ls) (hv : ValidAt ls lf w)
    (ho : HintOrd cfg t xs v (insert_pos_ cfg t lf w v)) :
    InsOut cfg t xs v (insert_pos_ cfg t lf w v) := by
  have hg := HintGood.hint_pos cfg t xs v ls lf w hcapL hcapI hsh hll hv
  obtain ⟨A, B, l, hls, hw⟩ := hv
  subst hls
  obtain ⟨T, pos, h1, -⟩ := insert_pos_shaped cfg t v xs lf w A B l hcapL hcapI hsh hll hw
  obtain ⟨j1, hj1, hs1, hi1⟩ := hg T pos h1
  obtain ⟨j2, hj2, hs2, ho2⟩ := ho.1 T pos h1
  have e : xs.take j1 ++ v :: xs.drop j1 = xs.take j2 ++ v :: xs.drop j2 :=
    Option.some.inj (hs1.toList_eq.symm.trans hs2.toList_eq)
  exact ⟨T, pos, true, h1, fun _ => rfl, fun _ => ⟨j1, hj1, hs1, by rw [e]; exact ho2, hi1⟩,
    fun hb => by simp at hb⟩

/-- The first position of a non-empty container has the index 0. -/
theorem index_first {cfg : Config} {t : Tree α} {h : Nat} {ls : Leaves α} {fp : List Nat}
    (hcapL : 2 ≤ cfg.maxLeaf) (hs : Sub cfg t h true t.parent Ptr.root ls fp) (hnd : fp.Nodup)
    (hhead : (ls.head?).map Prod.fst = some t.left) : indexIn ls (t.left, 0) = some 0 := by
  have hndl := Sub.leaf_ptrs_nodup hs hnd
  cases ls with
  | nil => simp at hhead
  | cons e rest =>
    obtain ⟨p, l⟩ := e
    simp only [List.head?_cons, Option.map_some', Option.some.injEq] at hhead
    subst hhead
    have hne := Sub.leaf_nonempty hcapL hs (t.left, l) (by simp)
    have := indexIn_mid [] t.left l rest 0 (by simpa using hndl) (List.length_pos.2 hne)
    simpa using this

/-- Every path through the tests of `insert_hint_` on a non-empty container,
for the hint `end()` or a stored position, given what the fallbacks do: the
call returns and keeps I2–I7 and the order, and with fallbacks that return
more it returns more. -/
theorem hint_tests_spec (cfg : Config) (t : Tree α) (xs : List α) (v : α)
    (S P : α → Prop) [DecidablePred S] [DecidablePred P]
    (hcapL : 2 ≤ cfg.maxLeaf) (hcapI : 2 ≤ cfg.maxInner) (hsh : Shaped cfg t xs)
    (hord : Ordered cfg xs)
    (hP : ∀ y, P y → if cfg.unique = true then y < v else y ≤ v)
    (hS : ∀ z, S z → if cfg.unique = true then v < z else v ≤ z)
    (f1 f2 f3 g1 g2 g3 : Option (Tree α × (Pos × Bool)))
    (h1 : InsOut cfg t xs v g1 ∧ ∀ r, f1 = some r → g1 = some r)
    (h2 : InsOut cfg t xs v g2 ∧ ∀ r, f2 = some r → g2 = some r)
    (h3 : InsOut cfg t xs v g3 ∧ ∀ r, f3 = some r → g3 = some r)
    (lf : Ptr) (w : Nat)
    (hvalid : lf ≠ Ptr.null → ∃ ls i, leafList t = some ls ∧ indexIn ls (lf, w) = some i) :
    InsOut cfg t xs v (hint_tests t S P (fun a b => insert_pos_ cfg t a b v)
      (insert_tail_ cfg t v) g1 g2 g3 lf w) ∧
    ∀ r, hint_tests t S P (fun a b => insert_pos_ cfg t a b v) (insert_tail_ cfg t v) f1 f2 f3
        lf w = some r →
      hint_tests t S P (fun a b => insert_pos_ cfg t a b v) (insert_tail_ cfg t v) g1 g2 g3
        lf w = some r := by
  obtain ⟨F1, F2, F3, F4, F5⟩ := hint_branches cfg t xs v P S hcapL hcapI hsh hord hP hS
  obtain ⟨h, ls, fp, hs, hnd, hit, hsz, hchain, hhead, hlast⟩ := id hsh
  have hll := leafList_of_sub hs hnd
  have hkey : ∀ pos i, indexIn ls pos = some i → ∃ k, t.key? pos = some k := by
    intro pos i hidx
    obtain ⟨l, -, -, hlt, -⟩ := indexIn_get ls pos i hidx
    rw [hit] at hlt
    rw [Shaped.key? hsh pos i (Shaped.indexOf hs hnd pos i hidx) hlt]
    exact ⟨_, List.getElem?_eq_getElem hlt⟩
  have hacc : ∀ lf' w', ValidAt ls lf' w' → HintOrd cfg t xs v (insert_pos_ cfg t lf' w' v) →
      InsOut cfg t xs v (insert_pos_ cfg t lf' w' v) ∧
        ∀ r, insert_pos_ cfg t lf' w' v = some r → insert_pos_ cfg t lf' w' v = some r :=
    fun lf' w' hv ho =>
      ⟨InsOut.of_pos cfg t xs v ls lf' w' hcapL hcapI hsh hll hv ho, fun _ hr => hr⟩
  obtain ⟨tail, htl, xl, hxl⟩ : ∃ tail, t.leaf? t.right = some tail ∧
      ∃ xl, tail.item[wsub tail.item.length 1]? = some xl := by
    cases hl : ls.getLast? with
    | none => rw [hl] at hlast; simp at hlast
    | some e =>
      rw [hl] at hlast
      simp only [Option.map_some', Option.some.injEq] at hlast
      have hm := mem_of_getLast? _ _ hl
      obtain ⟨l', hl', hitem⟩ := Sub.leaf_node hs e hm
      have hne := Sub.leaf_nonempty hcapL hs e hm
      rw [hlast] at hl'
      refine ⟨l', leaf?_of_node? hl', ?_⟩
      have hne' : l'.item ≠ [] := by rw [hitem]; exact hne
      have := List.length_pos.2 hne'
      exact ⟨_, by rw [wsub_of_le (by omega)]; exact List.getElem?_eq_getElem (by omega)⟩
  by_cases hb : lf = t.left ∧ w = 0
  · -- the hint is the first position
    obtain ⟨rfl, rfl⟩ := hb
    obtain ⟨x0, hk⟩ := hkey _ 0 (index_first hcapL hs hnd hhead)
    have e : ∀ fb1 fb2 fb3, hint_tests t S P (fun a b => insert_pos_ cfg t a b v)
        (insert_tail_ cfg t v) fb1 fb2 fb3 t.left 0
        = if S x0 then insert_pos_ cfg t t.left 0 v else fb1 := by
      intro fb1 fb2 fb3
      simp only [hint_tests, and_self, if_true, hk, Option.pure_def, Option.bind_eq_bind]
    rw [e, e]
    by_cases hs0 : S x0
    · rw [if_pos hs0, if_pos hs0]
      exact hacc _ _ (ValidAt.first hcapL hs hhead) (F1 _ _ x0 ⟨rfl, rfl⟩ hk hs0)
    · rw [if_neg hs0, if_neg hs0]; exact h1
  · by_cases hnull : lf = Ptr.null
    · -- the hint is `end()`
      subst hnull
      have e : ∀ fb1 fb2 fb3, hint_tests t S P (fun a b => insert_pos_ cfg t a b v)
          (insert_tail_ cfg t v) fb1 fb2 fb3 Ptr.null w
          = if P xl then insert_pos_ cfg t t.right tail.item.length v else fb2 := by
        intro fb1 fb2 fb3
        simp only [hint_tests, if_neg hb, if_true, htl, hxl, Option.pure_def,
          Option.bind_eq_bind]
      rw [e, e]
      by_cases hp0 : P xl
      · rw [if_pos hp0, if_pos hp0]
        exact hacc _ _ (ValidAt.tail hs hlast tail htl) (F2 tail xl htl hxl hp0)
      · rw [if_neg hp0, if_neg hp0]; exact h2
    · -- the hint is a stored position other than the first
      have hv := hvalid hnull
      obtain ⟨ls', i, hll', hidx⟩ := id hv
      rw [hll] at hll'
      obtain rfl := Option.some.inj hll'
      have hi0 : 0 < i := by
        rcases Nat.eq_zero_or_pos i with e | e
        · subst e
          exact absurd (index_zero_first hcapL hs hnd hhead lf w hidx) hb
        · exact e
      obtain ⟨xk, hk⟩ := hkey _ i hidx
      obtain ⟨pv, hpv, hpidx⟩ := prev_pos_index hcapL hs hnd hchain (lf, w) i hidx hi0
      obtain ⟨yk, hyk⟩ := hkey _ _ hpidx
      obtain ⟨nx, hnx, hnend, hnidx⟩ := next_pos_index hcapL hs hnd hchain (lf, w) i hidx
      have e : ∀ fb1 fb2 fb3, hint_tests t S P (fun a b => insert_pos_ cfg t a b v)
          (insert_tail_ cfg t v) fb1 fb2 fb3 lf w
          = if S xk ∧ P yk then insert_pos_ cfg t lf w v
            else if P xk then
              (if nx.1 = Ptr.null then insert_tail_ cfg t v
               else match t.key? nx with
                 | none => none
                 | some y => if S y then insert_pos_ cfg t nx.1 nx.2 v else fb3)
            else fb3 := by
        intro fb1 fb2 fb3
        simp only [hint_tests, if_neg hb, if_neg hnull, hk, hpv, hyk, hnx, Option.pure_def,
          Option.bind_eq_bind, Option.some_bind]
        by_cases hs0 : S xk
        · by_cases hp0 : P yk
          · simp only [hs0, hp0, if_true, decide_True, and_self]
          · simp only [hs0, hp0, if_true, decide_False, and_false, if_false,
              Bool.false_eq_true]
            by_cases hp1 : P xk
            · simp only [hp1, if_true]
              by_cases hn0 : nx.1 = Ptr.null
              · simp only [hn0, if_true]
              · simp only [hn0, if_false]
                cases t.key? nx <;> rfl
            · simp only [hp1, if_false]
        · simp only [hs0, if_false, false_and, Bool.false_eq_true]
          by_cases hp1 : P xk
          · simp only [hp1, if_true]
            by_cases hn0 : nx.1 = Ptr.null
            · simp only [hn0, if_true]
            · simp only [hn0, if_false]
              cases t.key? nx <;> rfl
          · simp only [hp1, if_false]
      rw [e, e]
      by_cases hacc3 : S xk ∧ P yk
      · rw [if_pos hacc3, if_pos hacc3]
        exact hacc _ _ (ValidAt.of_index ls lf w i hidx)
          (F3 lf w xk pv yk hv hb hk hacc3.1 hpv hyk hacc3.2)
      · rw [if_neg hacc3, if_neg hacc3]
        by_cases hp1 : P xk
        · rw [if_pos hp1, if_pos hp1]
          by_cases hn0 : nx.1 = Ptr.null
          · rw [if_pos hn0, if_pos hn0]
            have et : insert_tail_ cfg t v = insert_pos_ cfg t t.right tail.item.length v := by
              simp only [insert_tail_, htl, Option.pure_def, Option.bind_eq_bind]
            rw [et]
            exact hacc _ _ (ValidAt.tail hs hlast tail htl) (F4 lf w xk nx tail hv hk hp1 hnx hn0 htl)
          · rw [if_neg hn0, if_neg hn0]
            obtain ⟨zk, hzk⟩ := hkey _ _ (hnidx hn0)
            simp only [hzk]
            by_cases hs1 : S zk
            · rw [if_pos hs1, if_pos hs1]
              exact hacc _ _ (ValidAt.next hcapL hs hchain lf w i hidx nx hnx hn0)
                (F5 lf w xk nx zk hv hk hp1 hnx hn0 hzk hs1)
            · rw [if_neg hs1, if_neg hs1]; exact h3
        · rw [if_neg hp1, if_neg hp1]; exact h3

end StrayHint

section StrayWF
variable {α : Type} [LinearOrder α]

/-- The insert into the empty container. -/
theorem InsOut.of_first (cfg : Config) (t : Tree α) (v : α) (hcapL : 2 ≤ cfg.maxLeaf) :
    InsOut cfg t [] v (insert_first_ t v) := by
  obtain ⟨t', h1, h2, h3⟩ := insert_first_spec cfg t v hcapL
  exact ⟨t', _, true, h1, fun _ => rfl,
    fun _ => ⟨0, by simp, by simpa using h2, ⟨by simp, fun _ => by simp⟩, h3⟩,
    fun hb => by simp at hb⟩

/-- The in-order sequence of an empty container. -/
theorem toList_empty {t : Tree α} {xs : List α}
    (hne : t.parent = Ptr.root) (hxs : toList t = some xs) : xs = [] := by
  simp only [toList, leafList, hne, if_true, Option.map_some', items_nil,
    Option.some.injEq] at hxs
  exact hxs.symm

/-- The in-order sequence of a non-empty container that satisfies I1–I7. -/
theorem WF.shaped_of_toList {cfg : Config} {t : Tree α} {xs : List α} (hwf : WF cfg t)
    (hne : t.parent ≠ Ptr.root) (hxs : toList t = some xs) :
    Shaped cfg t xs ∧ Ordered cfg xs := by
  obtain ⟨ys, hsh, hord⟩ := hwf.shaped hne
  have := hsh.toList_eq
  rw [hxs] at this
  obtain rfl := Option.some.inj this
  exact ⟨hsh, hord⟩

/-- A hint that is an iterator of a non-empty container is `end()` or a
stored position. -/
theorem hint_valid (t : Tree α) (hint : Pos) (hhint : ∃ i, BPP.indexOf t hint = some i) :
    (if hint.1 = Ptr.root then Ptr.null else hint.1) ≠ Ptr.null →
      ∃ ls i, leafList t = some ls ∧
        indexIn ls ((if hint.1 = Ptr.root then Ptr.null else hint.1), hint.2) = some i := by
  intro hn
  obtain ⟨i, hi⟩ := hhint
  by_cases hr : hint.1 = Ptr.root
  · rw [if_pos hr] at hn; exact absurd rfl hn
  · rw [if_neg hr]
    have hne' : hint ≠ (Ptr.root, 0) := fun e => hr (by rw [e])
    simp only [BPP.indexOf, if_neg hne'] at hi
    cases hll : leafList t with
    | none => simp [hll] at hi
    | some ls =>
      rw [hll] at hi
      exact ⟨ls, i, rfl, hi⟩

/-- The public `insert(value)` over `insert_one_descend_stray` on a container
that satisfies I1–I7 and whose in-order sequence is `xs`: it returns, whatever
the stray key; in multi mode it succeeds; a success has placed the value and
kept I2–I7 and the order; a refusal leaves the container alone and is due to
an equal stored key or, for a key below all stored keys, to a stray key that
is not below it; and what `insert` returns, it returns. -/
theorem insert_stray_wf (cfg : Config) (x : α) (t : Tree α) (v : α) (xs : List α)
    (hwf : WF cfg t) (hxs : toList t = some xs) :
    InsOut cfg t xs v (insert_stray cfg x t v) ∧
    (∀ T pos, insert_stray cfg x t v = some (T, (pos, false)) →
      v ∈ xs ∨ ((∀ y ∈ xs, v < y) ∧ ¬ x < v)) ∧
    (∀ r, insert cfg t v = some r → insert_stray cfg x t v = some r) := by
  have hcapL := hwf.1
  have hcapI := hwf.2.1
  by_cases hne : t.parent = Ptr.root
  · obtain rfl := toList_empty hne hxs
    have e1 : insert_stray cfg x t v = insert_first_ t v := by
      simp [insert_stray, insert_nohint_stray, if_pos hne]
    have e2 : insert cfg t v = insert_first_ t v := by
      simp [insert, insert_nohint_, if_pos hne]
    rw [e1, e2]
    refine ⟨InsOut.of_first cfg t v hcapL, fun T pos h => ?_, fun _ hr => hr⟩
    obtain ⟨t', h1, -⟩ := insert_first_spec cfg t v hcapL
    rw [h1] at h; simp at h
  · obtain ⟨hsh, hord⟩ := hwf.shaped_of_toList hne hxs
    obtain ⟨T, pos, b, h1, h2, h3, h4⟩ := insert_nohint_stray_shaped cfg x false t v xs hcapL
      hcapI hsh hord (fun _ => rfl)
    refine ⟨⟨T, pos, b, h1, h2, fun hb => ?_, fun hb => ⟨(h4 hb).1, hsh⟩⟩, fun T' pos' h => ?_,
      fun r hr => insert_nohint_stray_of cfg x false t v xs hsh hord r hr⟩
    · obtain ⟨i1, i2, i3⟩ := h3 hb
      exact ⟨_, bound_node_le false xs v, i1, i2, i3⟩
    · unfold insert_stray at h
      rw [h1] at h
      simp only [Option.some.injEq, Prod.mk.injEq] at h
      exact (h4 h.2.2).2

/-- The public `insert(hint, value)` over `insert_one_descend_stray` on a
container that satisfies I1–I7 and whose in-order sequence is `xs`, for a
hint that is an iterator of the container: it returns, whatever the stray
key; in multi mode it succeeds; a success has placed the value and kept I2–I7
and the order; a refusal leaves the container alone; and what `insert_hint`
returns, it returns. -/
theorem insert_hint_stray_wf (cfg : Config) (x : α) (t : Tree α) (hint : Pos) (v : α)
    (xs : List α) (hwf : WF cfg t) (hxs : toList t = some xs)
    (hhint : ∃ i, BPP.indexOf t hint = some i) :
    InsOut cfg t xs v (insert_hint_stray cfg x t hint v) ∧
    (∀ r, insert_hint cfg t hint v = some r → insert_hint_stray cfg x t hint v = some r) := by
  have hcapL := hwf.1
  have hcapI := hwf.2.1
  unfold insert_hint_stray insert_hint
  rw [insert_hint_stray_eq_tests, insert_hint_eq_tests]
  by_cases hne : t.parent = Ptr.root
  · obtain rfl := toList_empty hne hxs
    rw [if_pos hne, if_pos hne]
    exact ⟨InsOut.of_first cfg t v hcapL, fun _ hr => hr⟩
  · obtain ⟨hsh, hord⟩ := hwf.shaped_of_toList hne hxs
    rw [if_neg hne, if_neg hne]
    have hfb : ∀ lt, (cfg.unique = true → lt = false) →
        InsOut cfg t xs v (insert_nohint_stray cfg x lt t v) ∧
          ∀ r, insert_nohint_ cfg lt t v = some r → insert_nohint_stray cfg x lt t v = some r := by
      intro lt hlt
      obtain ⟨T, pos, b, h1, h2, h3, h4⟩ := insert_nohint_stray_shaped cfg x lt t v xs hcapL
        hcapI hsh hord hlt
      refine ⟨⟨T, pos, b, h1, h2, fun hb => ?_, fun hb => ⟨(h4 hb).1, hsh⟩⟩,
        fun r hr => insert_nohint_stray_of cfg x lt t v xs hsh hord r hr⟩
      obtain ⟨i1, i2, i3⟩ := h3 hb
      exact ⟨_, bound_node_le lt xs v, i1, i2, i3⟩
    cases hu : cfg.unique with
    | true =>
      simp only [if_true]
      exact hint_tests_spec cfg t xs v (fun z => v < z) (fun y => y < v) hcapL hcapI hsh hord
        (fun y hy => by rw [if_pos hu]; exact hy) (fun z hz => by rw [if_pos hu]; exact hz)
        _ _ _ _ _ _ (hfb false (fun _ => rfl)) (hfb false (fun _ => rfl))
        (hfb false (fun _ => rfl)) _ _ (hint_valid t hint hhint)
    | false =>
      have hu' : ¬ cfg.unique = true := by rw [hu]; simp
      simp only [Bool.false_eq_true, if_false]
      exact hint_tests_spec cfg t xs v (fun z => ¬ z < v) (fun y => ¬ v < y) hcapL hcapI hsh
        hord (fun y hy => by rw [if_neg hu']; exact not_lt.1 hy)
        (fun z hz => by rw [if_neg hu']; exact not_lt.1 hz)
        _ _ _ _ _ _ (hfb true (fun h => absurd h hu')) (hfb false (fun _ => rfl))
        (hfb true (fun h => absurd h hu')) _ _ (hint_valid t hint hhint)

end StrayWF

end BPP

/-! ## What the inserts and the erases keep -/

namespace BPP

section InsertResults
variable {α : Type} [LinearOrder α]

/-- What an insert has returned: the container `T` satisfies I2–I7 with the
ordered in-order sequence `ys`; in multi mode the flag `b` is `true`; with the
flag `true`, `ys` is `xs` with the value at the index of the position
returned; with the flag `false`, nothing has changed. -/
def InsRes (cfg : Config) (t T : Tree α) (xs ys : List α) (v : α) (pos : Pos) (b : Bool) :
    Prop :=
  Shaped cfg T ys ∧ Ordered cfg ys ∧ (cfg.unique = false → b = true) ∧
  (b = true → ∃ j, j ≤ xs.length ∧ ys = xs.take j ++ v :: xs.drop j ∧
    BPP.indexOf T pos = some j) ∧
  (b = false → T = t ∧ ys = xs)

theorem InsOut.res {cfg : Config} {t : Tree α} {xs : List α} {v : α}
    {o : Option (Tree α × (Pos × Bool))} (ho : InsOut cfg t xs v o) (hwf : WF cfg t)
    (hxs : toList t = some xs) :
    ∃ T pos b ys, o = some (T, (pos, b)) ∧ InsRes cfg t T xs ys v pos b := by
  obtain ⟨T, pos, b, h1, h2, h3, h4⟩ := ho
  cases b with
  | true =>
    obtain ⟨j, hj, i1, i2, i3⟩ := h3 rfl
    exact ⟨T, pos, true, _, h1, i1, i2, h2, fun _ => ⟨j, hj, rfl, i3⟩, fun hb => by simp at hb⟩
  | false =>
    obtain ⟨e, hsh⟩ := h4 rfl
    subst e
    exact ⟨T, pos, false, xs, h1, hsh, (hwf.shaped_of_toList hsh.ne_root hxs).2, h2,
      fun hb => by simp at hb, fun _ => ⟨rfl, rfl⟩⟩

/-- Both inserts on a container that satisfies I1–I7 and whose in-order
sequence is `xs`, whatever the stray key, for a hint that is an iterator of
the container: each returns a result as `InsRes` describes, and that is the
result of `insert` and of `insert_hint` where they return. -/
theorem insert_outcomes (cfg : Config) (stray : α) (t : Tree α) (v : α) (hint : Pos)
    (xs : List α) (hwf : WF cfg t) (hxs : toList t = some xs)
    (hhint : ∃ i, BPP.indexOf t hint = some i) :
    (∃ T pos b ys, insert_stray cfg stray t v = some (T, (pos, b)) ∧
      InsRes cfg t T xs ys v pos b ∧
      (b = false → v ∈ xs ∨ ((∀ y ∈ xs, v < y) ∧ ¬ stray < v)) ∧
      ∀ r, insert cfg t v = some r → r = (T, (pos, b))) ∧
    (∃ T pos b ys, insert_hint_stray cfg stray t hint v = some (T, (pos, b)) ∧
      InsRes cfg t T xs ys v pos b ∧
      ∀ r, insert_hint cfg t hint v = some r → r = (T, (pos, b))) := by
  obtain ⟨a1, a2, a3⟩ := insert_stray_wf cfg stray t v xs hwf hxs
  obtain ⟨b1, b2⟩ := insert_hint_stray_wf cfg stray t hint v xs hwf hxs hhint
  obtain ⟨T, pos, b, ys, h1, h2⟩ := a1.res hwf hxs
  obtain ⟨T', pos', b', ys', h1', h2'⟩ := b1.res hwf hxs
  refine ⟨⟨T, pos, b, ys, h1, h2, fun hb => ?_, fun r hr => ?_⟩,
    ⟨T', pos', b', ys', h1', h2', fun r hr => ?_⟩⟩
  · subst hb; exact a2 T pos h1
  · have := a3 r hr
    rw [h1] at this
    exact (Option.some.inj this).symm
  · have := b2 r hr
    rw [h1'] at this
    exact (Option.some.inj this).symm

end InsertResults

section InsertClaimsTotal
variable {α : Type} [LinearOrder α]

/-- C1: on a container that satisfies I1–I7 (leaf capacity at least 4) and
whose in-order sequence is `xs`, each of `insert(value)`,
`insert(hint, value)` (the hint an iterator of the container), `erase(key)`
and `erase(it)` (the iterator at a stored element) returns, and returns a
container whose in-order sequence is ordered: non-decreasing, and strictly
increasing in unique mode. The inserts are taken with whatever key the read
through the anchor yields; where `insert` and `insert_hint` return, their
result is the one stated. The sequence is `xs` with the value placed, `xs`
itself after a refusal, `xs` without the elements equal to the key, or `xs`
without the element erased. -/
theorem ops_keep_order (cfg : Config) (stray : α) (t : Tree α) (v k : α) (hint it : Pos)
    (xs : List α) (hwf : WF cfg t) (hcapL : 4 ≤ cfg.maxLeaf) (hxs : toList t = some xs)
    (hhint : ∃ i, BPP.indexOf t hint = some i) :
    (∃ T pos b ys, insert_stray cfg stray t v = some (T, (pos, b)) ∧
      toList T = some ys ∧ Ordered cfg ys ∧
      (b = true → ∃ j, ys = xs.take j ++ v :: xs.drop j) ∧ (b = false → ys = xs) ∧
      ∀ r, insert cfg t v = some r → r = (T, (pos, b))) ∧
    (∃ T pos b ys, insert_hint_stray cfg stray t hint v = some (T, (pos, b)) ∧
      toList T = some ys ∧ Ordered cfg ys ∧
      (b = true → ∃ j, ys = xs.take j ++ v :: xs.drop j) ∧ (b = false → ys = xs) ∧
      ∀ r, insert_hint cfg t hint v = some r → r = (T, (pos, b))) ∧
    (∃ T, erase_key cfg t k = some (T, xs.count k) ∧
      toList T = some (xs.filter (fun y => decide (y ≠ k))) ∧
      Ordered cfg (xs.filter (fun y => decide (y ≠ k)))) ∧
    (∀ r, BPP.indexOf t it = some r → r < t.size →
      ∃ T, erase cfg t it = some T ∧ toList T = some (xs.eraseIdx r) ∧
        Ordered cfg (xs.eraseIdx r)) := by
  obtain ⟨⟨T, pos, b, ys, a1, ⟨a2, a3, -, a5, a6⟩, -, a7⟩,
    ⟨T', pos', b', ys', b1, ⟨b2, b3, -, b5, b6⟩, b7⟩⟩ :=
    insert_outcomes cfg stray t v hint xs hwf hxs hhint
  obtain ⟨-, e1, T2, e2, e3, e4⟩ := erase_results cfg t it k xs hwf hcapL hxs
  refine ⟨⟨T, pos, b, ys, a1, a2.toList_eq, a3, fun hb => ?_, fun hb => (a6 hb).2, a7⟩,
    ⟨T', pos', b', ys', b1, b2.toList_eq, b3, fun hb => ?_, fun hb => (b6 hb).2, b7⟩,
    ⟨T2, e2, e3.pe_toList, e4⟩, fun r hr hlt => ?_⟩
  · obtain ⟨j, -, hj, -⟩ := a5 hb
    exact ⟨j, hj⟩
  · obtain ⟨j, -, hj, -⟩ := b5 hb
    exact ⟨j, hj⟩
  · obtain ⟨T1, h1, h2, h3⟩ := e1 r hr hlt
    exact ⟨T1, h1, h2.pe_toList, h3⟩

/-- The statement of `ops_keep_order` in unique mode on the container
10, 20, 30, 40, 50 with `MAX_LEAF = MAX_INNER = 4`, for the key 5 below all
stored keys and the stray key 7, and the runs: with the stray key 7 the insert
of 5 refuses, with the stray key 3 it places 5 first; the hinted insert with
the hint at 30 does the same, and with the hint at the first element it places 5
without the read. -/
theorem ops_keep_order_witness :
    ((∃ T pos b ys, insert_stray ⟨true, 4, 4⟩ 7 sample5 5 = some (T, (pos, b)) ∧
      toList T = some ys ∧ Ordered ⟨true, 4, 4⟩ ys ∧
      (b = true → ∃ j, ys = [10, 20, 30, 40, 50].take j ++ 5 :: [10, 20, 30, 40, 50].drop j) ∧
      (b = false → ys = [10, 20, 30, 40, 50]) ∧
      ∀ r, insert ⟨true, 4, 4⟩ sample5 5 = some r → r = (T, (pos, b))) ∧
    (∃ T pos b ys, insert_hint_stray ⟨true, 4, 4⟩ 7 sample5 (Ptr.node 1, 0) 5
        = some (T, (pos, b)) ∧
      toList T = some ys ∧ Ordered ⟨true, 4, 4⟩ ys ∧
      (b = true → ∃ j, ys = [10, 20, 30, 40, 50].take j ++ 5 :: [10, 20, 30, 40, 50].drop j) ∧
      (b = false → ys = [10, 20, 30, 40, 50]) ∧
      ∀ r, insert_hint ⟨true, 4, 4⟩ sample5 (Ptr.node 1, 0) 5 = some r → r = (T, (pos, b))) ∧
    (∃ T, erase_key ⟨true, 4, 4⟩ sample5 20 = some (T, [10, 20, 30, 40, 50].count 20) ∧
      toList T = some ([10, 20, 30, 40, 50].filter (fun y => decide (y ≠ 20))) ∧
      Ordered ⟨true, 4, 4⟩ ([10, 20, 30, 40, 50].filter (fun y => decide (y ≠ 20)))) ∧
    (∀ r, BPP.indexOf sample5 (Ptr.node 0, 0) = some r → r < sample5.size →
      ∃ T, erase ⟨true, 4, 4⟩ sample5 (Ptr.node 0, 0) = some T ∧
        toList T = some ([10, 20, 30, 40, 50].eraseIdx r) ∧
        Ordered ⟨true, 4, 4⟩ ([10, 20, 30, 40, 50].eraseIdx r))) ∧
    (insert_stray ⟨true, 4, 4⟩ 7 sample5 5).map (fun r => (toList r.1, r.2))
      = some (some [10, 20, 30, 40, 50], (Ptr.root, 4), false) ∧
    (insert_stray ⟨true, 4, 4⟩ 3 sample5 5).map (fun r => (toList r.1, r.2))
      = some (some [5, 10, 20, 30, 40, 50], (Ptr.node 0, 0), true) ∧
    (insert_hint_stray ⟨true, 4, 4⟩ 7 sample5 (Ptr.node 1, 0) 5).map
      (fun r => (toList r.1, r.2)) = some (some [10, 20, 30, 40, 50], (Ptr.root, 4), false) ∧
    (insert_hint_stray ⟨true, 4, 4⟩ 7 sample5 (Ptr.node 0, 0) 5).map
      (fun r => (toList r.1, r.2)) = some (some [5, 10, 20, 30, 40, 50], (Ptr.node 0, 0), true) ∧
    insert ⟨true, 4, 4⟩ sample5 5 = none :=
  ⟨ops_keep_order ⟨true, 4, 4⟩ 7 sample5 5 20 (Ptr.node 1, 0) (Ptr.node 0, 0)
    [10, 20, 30, 40, 50] (sample5_wf true) (by decide) (by decide) ⟨2, by decide⟩,
    by decide, by decide, by decide, by decide, by decide⟩

/-- The size of a container that satisfies I1–I7 is the length of its in-order
sequence. -/
theorem WF.size_toList {cfg : Config} {t : Tree α} {xs : List α} (hwf : WF cfg t)
    (hxs : toList t = some xs) : t.size = xs.length := by
  obtain ⟨ys, hsh, -, hys⟩ := hwf.shapedPE
  rw [hxs] at hys
  obtain rfl := Option.some.inj hys
  exact hsh.pe_size

/-- C20: on a container that satisfies I1–I7 and whose in-order sequence is
`xs`, `insert(value)` and `insert(hint, value)` (the hint an iterator of the
container) return, whatever key the read through the anchor yields, and after
a success (the flag `true`; in multi mode every call succeeds, in unique mode
`insert(value)` refuses only for an equal stored key or, for a key below all
stored keys, for a stray key that is not below it), through whichever path
(leaf split, cascading inner splits, the rejoin case, root grow): every inner
node's size is the sum of its children's sizes, every leaf's size is its fill,
and the anchor's size is one more than before and is the number of stored
elements. A refusal changes nothing. Where `insert` and `insert_hint` return,
their result is the one stated. -/
theorem insert_updates_sizes (cfg : Config) (stray : α) (t : Tree α) (v : α) (hint : Pos)
    (xs : List α) (hwf : WF cfg t) (hxs : toList t = some xs)
    (hhint : ∃ i, BPP.indexOf t hint = some i) :
    (∃ T pos b, insert_stray cfg stray t v = some (T, (pos, b)) ∧
      (cfg.unique = false → b = true) ∧ (b = true → SizesAfter t T) ∧
      (b = false → T = t ∧ (v ∈ xs ∨ ((∀ y ∈ xs, v < y) ∧ ¬ stray < v))) ∧
      ∀ r, insert cfg t v = some r → r = (T, (pos, b))) ∧
    (∃ T pos b, insert_hint_stray cfg stray t hint v = some (T, (pos, b)) ∧
      (cfg.unique = false → b = true) ∧ (b = true → SizesAfter t T) ∧ (b = false → T = t) ∧
      ∀ r, insert_hint cfg t hint v = some r → r = (T, (pos, b))) := by
  have hsz := hwf.size_toList hxs
  obtain ⟨⟨T, pos, b, ys, a1, ⟨a2, a3, a4, a5, a6⟩, a8, a7⟩,
    ⟨T', pos', b', ys', b1, ⟨b2, b3, b4, b5, b6⟩, b7⟩⟩ :=
    insert_outcomes cfg stray t v hint xs hwf hxs hhint
  refine ⟨⟨T, pos, b, a1, a4, fun hb => ?_, fun hb => ⟨(a6 hb).1, a8 hb⟩, a7⟩,
    ⟨T', pos', b', b1, b4, fun hb => ?_, fun hb => (b6 hb).1, b7⟩⟩
  · obtain ⟨j, hj, e, -⟩ := a5 hb
    exact a2.sizes (by rw [e, ins_length _ _ _ hj, hsz])
  · obtain ⟨j, hj, e, -⟩ := b5 hb
    exact b2.sizes (by rw [e, ins_length _ _ _ hj, hsz])

/-- The statement of `insert_updates_sizes` in unique mode on the container
10, 20, 30, 40, 50 with `MAX_LEAF = MAX_INNER = 4`, for the value 25 and the
hint at 30, and the sizes after the runs: after `insert(25)`, after
`insert(hint, 25)`, and after `insert(5)` of a key below all stored keys when
the stray key 3 lets it succeed. -/
theorem insert_updates_sizes_witness :
    ((∃ T pos b, insert_stray ⟨true, 4, 4⟩ 7 sample5 25 = some (T, (pos, b)) ∧
      ((⟨true, 4, 4⟩ : Config).unique = false → b = true) ∧ (b = true → SizesAfter sample5 T) ∧
      (b = false → T = sample5 ∧
        (25 ∈ [10, 20, 30, 40, 50] ∨ ((∀ y ∈ [10, 20, 30, 40, 50], 25 < y) ∧ ¬ 7 < 25))) ∧
      ∀ r, insert ⟨true, 4, 4⟩ sample5 25 = some r → r = (T, (pos, b))) ∧
    (∃ T pos b, insert_hint_stray ⟨true, 4, 4⟩ 7 sample5 (Ptr.node 1, 0) 25
        = some (T, (pos, b)) ∧
      ((⟨true, 4, 4⟩ : Config).unique = false → b = true) ∧ (b = true → SizesAfter sample5 T) ∧
      (b = false → T = sample5) ∧
      ∀ r, insert_hint ⟨true, 4, 4⟩ sample5 (Ptr.node 1, 0) 25 = some r →
        r = (T, (pos, b)))) ∧
    insert_stray ⟨true, 4, 4⟩ 7 sample5 25 = some (sample5_25, ((Ptr.node 1, 0), true)) ∧
    insert ⟨true, 4, 4⟩ sample5 25 = some (sample5_25, ((Ptr.node 1, 0), true)) ∧
    insert_hint_stray ⟨true, 4, 4⟩ 7 sample5 (Ptr.node 1, 0) 25
      = some (sample5_25, ((Ptr.node 1, 0), true)) ∧
    insert_hint ⟨true, 4, 4⟩ sample5 (Ptr.node 1, 0) 25
      = some (sample5_25, ((Ptr.node 1, 0), true)) ∧
    sizes_ok sample5_25 (sample5_25.mem.length + 1) sample5_25.parent = true ∧
    sample5_25.size = sample5.size + 1 ∧
    (insert_stray ⟨true, 4, 4⟩ 3 sample5 5).map
      (fun r => (sizes_ok r.1 (r.1.mem.length + 1) r.1.parent, r.1.size, toList r.1, r.2.2))
      = some (true, 6, some [5, 10, 20, 30, 40, 50], true) :=
  ⟨insert_updates_sizes ⟨true, 4, 4⟩ 7 sample5 25 (Ptr.node 1, 0) [10, 20, 30, 40, 50]
    (sample5_wf true) (by decide) ⟨2, by decide⟩,
    by decide, by decide, by decide, by decide, by decide, by decide, by decide⟩

/-- C28: on a container that satisfies I1–I7 and whose in-order sequence is
`xs`, `insert(value)` and `insert(hint, value)` (the hint an iterator of the
container) return, whatever key the read through the anchor yields, and after
them (whichever path was taken: leaf split, inner split with the rejoin case,
root grow, or a refusal in unique mode) every inner node's separator `i` is
the largest key below child `i` and is smaller than (unique mode) or not
larger than (multi mode) the smallest key below child `i + 1`; where `insert`
and `insert_hint` return, their result is the one stated; and an insertion
into a full leaf of the container hands up the last key of the left half as it
is after the new item has been placed. -/
theorem insert_sets_separators (cfg : Config) (stray : α) (t : Tree α) (v : α) (hint : Pos)
    (xs : List α) (hwf : WF cfg t) (hxs : toList t = some xs)
    (hhint : ∃ i, BPP.indexOf t hint = some i) :
    (∃ T pos b, insert_stray cfg stray t v = some (T, (pos, b)) ∧
      seps_ok cfg T (T.mem.length + 1) T.parent = true ∧
      ∀ r, insert cfg t v = some r → r = (T, (pos, b))) ∧
    (∃ T pos b, insert_hint_stray cfg stray t hint v = some (T, (pos, b)) ∧
      seps_ok cfg T (T.mem.length + 1) T.parent = true ∧
      ∀ r, insert_hint cfg t hint v = some r → r = (T, (pos, b))) ∧
    (∀ ls lf l w, leafList t = some ls → (lf, l) ∈ ls → l.length = cfg.maxLeaf → w ≤ l.length →
      ∃ t' pos' k q l', insert_leaf_ cfg t lf w v = some (t', pos', some (k, q)) ∧
        t'.leaf? lf = some l' ∧ l'.item.getLast? = some k ∧
        ∃ r, t'.leaf? q = some r ∧ l'.item ++ r.item = l.take w ++ v :: l.drop w) := by
  obtain ⟨⟨T, pos, b, ys, a1, ⟨a2, a3, -⟩, -, a7⟩, ⟨T', pos', b', ys', b1, ⟨b2, b3, -⟩, b7⟩⟩ :=
    insert_outcomes cfg stray t v hint xs hwf hxs hhint
  exact ⟨⟨T, pos, b, a1, a2.seps hwf.1 a3, a7⟩, ⟨T', pos', b', b1, b2.seps hwf.1 b3, b7⟩,
    fun ls lf l w hll hm hfull hw => insert_leaf_promotes cfg t v hwf ls hll lf l hm hfull w hw⟩

/-- The statement of `insert_sets_separators` in unique mode on the
container 10, 20, 30, 40, 50 with `MAX_LEAF = MAX_INNER = 4`, for the key 5
below all stored keys, the stray key 7 and the hint at 30; and the runs of both
inserts of 35 into the container 10, 20, 25, 30, 40, 50, whose second leaf is
full (the hint at 40): they split the full leaf and hand up 30, the last key
of the left half 25, 30. -/
theorem insert_sets_separators_witness :
    ((∃ T pos b, insert_stray ⟨true, 4, 4⟩ 7 sample5 5 = some (T, (pos, b)) ∧
      seps_ok ⟨true, 4, 4⟩ T (T.mem.length + 1) T.parent = true ∧
      ∀ r, insert ⟨true, 4, 4⟩ sample5 5 = some r → r = (T, (pos, b))) ∧
    (∃ T pos b, insert_hint_stray ⟨true, 4, 4⟩ 7 sample5 (Ptr.node 1, 0) 5
        = some (T, (pos, b)) ∧
      seps_ok ⟨true, 4, 4⟩ T (T.mem.length + 1) T.parent = true ∧
      ∀ r, insert_hint ⟨true, 4, 4⟩ sample5 (Ptr.node 1, 0) 5 = some r → r = (T, (pos, b))) ∧
    (∀ ls lf l w, leafList sample5 = some ls → (lf, l) ∈ ls →
      l.length = (⟨true, 4, 4⟩ : Config).maxLeaf → w ≤ l.length →
      ∃ t' pos' k q l', insert_leaf_ ⟨true, 4, 4⟩ sample5 lf w 5 = some (t', pos', some (k, q)) ∧
        t'.leaf? lf = some l' ∧ l'.item.getLast? = some k ∧
        ∃ r, t'.leaf? q = some r ∧ l'.item ++ r.item = l.take w ++ 5 :: l.drop w)) ∧
    (insert_stray ⟨true, 4, 4⟩ 7 sample5_25 35).map (fun r =>
      (seps_ok ⟨true, 4, 4⟩ r.1 (r.1.mem.length + 1) r.1.parent, (r.1.inner? r.1.parent).map
        (fun n => n.item), (leafList r.1).map (fun ls => ls.map Prod.snd), r.2.2))
      = some (true, some [20, 30], some [[10, 20], [25, 30], [35, 40, 50]], true) ∧
    (insert_hint_stray ⟨true, 4, 4⟩ 7 sample5_25 (Ptr.node 1, 2) 35).map (fun r =>
      (seps_ok ⟨true, 4, 4⟩ r.1 (r.1.mem.length + 1) r.1.parent, (r.1.inner? r.1.parent).map
        (fun n => n.item), (leafList r.1).map (fun ls => ls.map Prod.snd), r.2.2))
      = some (true, some [20, 30], some [[10, 20], [25, 30], [35, 40, 50]], true) :=
  ⟨insert_sets_separators ⟨true, 4, 4⟩ 7 sample5 5 (Ptr.node 1, 0) [10, 20, 30, 40, 50]
    (sample5_wf true) (by decide) ⟨2, by decide⟩, by decide, by decide⟩

/-- C30: on a container that satisfies I1–I7 (leaf capacity at least 4) and
whose in-order sequence is `xs`, each of `insert(value)`,
`insert(hint, value)` (the hint an iterator of the container), `erase(it)`
(the iterator at a stored element) and `erase(k)` returns, the inserts with
whatever key the read through the anchor yields, and returns a container that
is empty (after an erase only) or in which all leaves are at the same depth,
every node has at most `MAX` items, every node but the real root at least
`MIN`, and the real root at least one. Where `insert` and `insert_hint`
return, their result is the one stated. -/
theorem ops_stay_balanced (cfg : Config) (stray : α) (t : Tree α) (v : α) (hint it : Pos)
    (k : α) (xs : List α) (hwf : WF cfg t) (hcapL : 4 ≤ cfg.maxLeaf)
    (hxs : toList t = some xs) (hhint : ∃ i, BPP.indexOf t hint = some i) :
    (∃ T pos b, insert_stray cfg stray t v = some (T, (pos, b)) ∧
      (depth? T (T.mem.length + 1) T.parent).isSome = true ∧
      fill_ok cfg T (T.mem.length + 1) true T.parent = true ∧
      ∀ r, insert cfg t v = some r → r = (T, (pos, b))) ∧
    (∃ T pos b, insert_hint_stray cfg stray t hint v = some (T, (pos, b)) ∧
      (depth? T (T.mem.length + 1) T.parent).isSome = true ∧
      fill_ok cfg T (T.mem.length + 1) true T.parent = true ∧
      ∀ r, insert_hint cfg t hint v = some r → r = (T, (pos, b))) ∧
    (∀ r, BPP.indexOf t it = some r → r < t.size →
      ∃ T, erase cfg t it = some T ∧ Balanced cfg T) ∧
    (∃ T, erase_key cfg t k = some (T, xs.count k) ∧ Balanced cfg T) := by
  obtain ⟨⟨T, pos, b, ys, a1, ⟨a2, -⟩, -, a7⟩, ⟨T', pos', b', ys', b1, ⟨b2, -⟩, b7⟩⟩ :=
    insert_outcomes cfg stray t v hint xs hwf hxs hhint
  obtain ⟨-, e1, T2, e2, e3, -⟩ := erase_results cfg t it k xs hwf hcapL hxs
  have hbal : ∀ (U : Tree α) (zs : List α), Shaped cfg U zs →
      (depth? U (U.mem.length + 1) U.parent).isSome = true ∧
        fill_ok cfg U (U.mem.length + 1) true U.parent = true := by
    intro U zs hU
    rcases ShapedPE.pe_balanced (Or.inr hU.shapedP) with h | h
    · exact absurd h hU.ne_root
    · exact h
  refine ⟨⟨T, pos, b, a1, (hbal T ys a2).1, (hbal T ys a2).2, a7⟩,
    ⟨T', pos', b', b1, (hbal T' ys' b2).1, (hbal T' ys' b2).2, b7⟩, fun r hr hlt => ?_,
    ⟨T2, e2, e3.pe_balanced⟩⟩
  obtain ⟨T1, h1, h2, -⟩ := e1 r hr hlt
  exact ⟨T1, h1, h2.pe_balanced⟩

/-- The statement of `ops_stay_balanced` in unique mode on the container
10, 20, 30, 40, 50 with `MAX_LEAF = MAX_INNER = 4`, for the key 5 below all
stored keys, the stray key 7 and the hint at 30, and the depth and the fill
walk after the runs: `insert(5)` when the stray key 3 lets it succeed, both
inserts of 35 into the container 10, 20, 25, 30, 40, 50 (a leaf split), the
erase of 10 through its iterator and `erase(20)`. -/
theorem ops_stay_balanced_witness :
    ((∃ T pos b, insert_stray ⟨true, 4, 4⟩ 7 sample5 5 = some (T, (pos, b)) ∧
      (depth? T (T.mem.length + 1) T.parent).isSome = true ∧
      fill_ok ⟨true, 4, 4⟩ T (T.mem.length + 1) true T.parent = true ∧
      ∀ r, insert ⟨true, 4, 4⟩ sample5 5 = some r → r = (T, (pos, b))) ∧
    (∃ T pos b, insert_hint_stray ⟨true, 4, 4⟩ 7 sample5 (Ptr.node 1, 0) 5
        = some (T, (pos, b)) ∧
      (depth? T (T.mem.length + 1) T.parent).isSome = true ∧
      fill_ok ⟨true, 4, 4⟩ T (T.mem.length + 1) true T.parent = true ∧
      ∀ r, insert_hint ⟨true, 4, 4⟩ sample5 (Ptr.node 1, 0) 5 = some r → r = (T, (pos, b))) ∧
    (∀ r, BPP.indexOf sample5 (Ptr.node 0, 0) = some r → r < sample5.size →
      ∃ T, erase ⟨true, 4, 4⟩ sample5 (Ptr.node 0, 0) = some T ∧ Balanced ⟨true, 4, 4⟩ T) ∧
    (∃ T, erase_key ⟨true, 4, 4⟩ sample5 20 = some (T, [10, 20, 30, 40, 50].count 20) ∧
      Balanced ⟨true, 4, 4⟩ T)) ∧
    ((insert_stray ⟨true, 4, 4⟩ 3 sample5 5).map (fun r =>
      (depth? r.1 (r.1.mem.length + 1) r.1.parent,
        fill_ok ⟨true, 4, 4⟩ r.1 (r.1.mem.length + 1) true r.1.parent)))
      = some (some 2, true) ∧
    ((insert_stray ⟨true, 4, 4⟩ 7 sample5_25 35).map (fun r =>
      (depth? r.1 (r.1.mem.length + 1) r.1.parent,
        fill_ok ⟨true, 4, 4⟩ r.1 (r.1.mem.length + 1) true r.1.parent)))
      = some (some 2, true) ∧
    ((insert_hint_stray ⟨true, 4, 4⟩ 7 sample5_25 (Ptr.node 1, 2) 35).map (fun r =>
      (depth? r.1 (r.1.mem.length + 1) r.1.parent,
        fill_ok ⟨true, 4, 4⟩ r.1 (r.1.mem.length + 1) true r.1.parent)))
      = some (some 2, true) ∧
    ((erase ⟨true, 4, 4⟩ sample5 (Ptr.node 0, 0)).map (fun T =>
      (depth? T (T.mem.length + 1) T.parent,
        fill_ok ⟨true, 4, 4⟩ T (T.mem.length + 1) true T.parent)))
      = some (some 2, true) ∧
    ((erase_key ⟨true, 4, 4⟩ sample5 20).map (fun r =>
      (depth? r.1 (r.1.mem.length + 1) r.1.parent,
        fill_ok ⟨true, 4, 4⟩ r.1 (r.1.mem.length + 1) true r.1.parent)))
      = some (some 2, true) :=
  ⟨ops_stay_balanced ⟨true, 4, 4⟩ 7 sample5 5 (Ptr.node 1, 0) (Ptr.node 0, 0) 20
    [10, 20, 30, 40, 50] (sample5_wf true) (by decide) (by decide) ⟨2, by decide⟩,
    by decide, by decide, by decide, by decide, by decide⟩

/-- C31: on a container that satisfies I1–I7 (leaf capacity at least 4) and
whose in-order sequence is `xs`, `insert(value)`, `insert(hint, value)` (the
hint an iterator of the container) and `erase(it)` (the iterator at a stored
element) return, the inserts with whatever key the read through the anchor
yields, and afterwards the real root's parent field names the anchor and the
parent field of every other node names the inner node that lists it among its
children (after an erase the container may be empty instead). Where `insert`
and `insert_hint` return, their result is the one stated. -/
theorem ops_keep_parents (cfg : Config) (stray : α) (t : Tree α) (v : α) (hint it : Pos)
    (xs : List α) (hwf : WF cfg t) (hcapL : 4 ≤ cfg.maxLeaf) (hxs : toList t = some xs)
    (hhint : ∃ i, BPP.indexOf t hint = some i) :
    (∃ T pos b, insert_stray cfg stray t v = some (T, (pos, b)) ∧
      parents_ok T (T.mem.length + 1) T.parent Ptr.root = true ∧
      ∀ r, insert cfg t v = some r → r = (T, (pos, b))) ∧
    (∃ T pos b, insert_hint_stray cfg stray t hint v = some (T, (pos, b)) ∧
      parents_ok T (T.mem.length + 1) T.parent Ptr.root = true ∧
      ∀ r, insert_hint cfg t hint v = some r → r = (T, (pos, b))) ∧
    (∀ r, BPP.indexOf t it = some r → r < t.size →
      ∃ T, erase cfg t it = some T ∧ ParentsOk T) := by
  obtain ⟨⟨T, pos, b, ys, a1, ⟨a2, -⟩, -, a7⟩, ⟨T', pos', b', ys', b1, ⟨b2, -⟩, b7⟩⟩ :=
    insert_outcomes cfg stray t v hint xs hwf hxs hhint
  have hpar : ∀ (U : Tree α) (zs : List α), Shaped cfg U zs →
      parents_ok U (U.mem.length + 1) U.parent Ptr.root = true := by
    intro U zs hU
    rcases hU.parentsOk with h | h
    · exact absurd h hU.ne_root
    · exact h
  refine ⟨⟨T, pos, b, a1, hpar T ys a2, a7⟩, ⟨T', pos', b', b1, hpar T' ys' b2, b7⟩,
    fun r hr hlt => ?_⟩
  obtain ⟨T1, zs, h1, -, h2⟩ := erase_result_shaped cfg t it r hwf hcapL hr hlt
  exact ⟨T1, h1, h2.e_parentsOk⟩

/-- The statement of `ops_keep_parents` in unique mode on the container
10, 20, 30, 40, 50 with `MAX_LEAF = MAX_INNER = 4`, for the key 5 below all
stored keys, the stray key 7 and the hint at 30, and the walks after the runs:
`insert(5)` when the stray key 3 lets it succeed, both inserts of 35 into the
container 10, 20, 25, 30, 40, 50 (a leaf split) and the erase of 10 through its
iterator. -/
theorem ops_keep_parents_witness :
    ((∃ T pos b, insert_stray ⟨true, 4, 4⟩ 7 sample5 5 = some (T, (pos, b)) ∧
      parents_ok T (T.mem.length + 1) T.parent Ptr.root = true ∧
      ∀ r, insert ⟨true, 4, 4⟩ sample5 5 = some r → r = (T, (pos, b))) ∧
    (∃ T pos b, insert_hint_stray ⟨true, 4, 4⟩ 7 sample5 (Ptr.node 1, 0) 5
        = some (T, (pos, b)) ∧
      parents_ok T (T.mem.length + 1) T.parent Ptr.root = true ∧
      ∀ r, insert_hint ⟨true, 4, 4⟩ sample5 (Ptr.node 1, 0) 5 = some r → r = (T, (pos, b))) ∧
    (∀ r, BPP.indexOf sample5 (Ptr.node 0, 0) = some r → r < sample5.size →
      ∃ T, erase ⟨true, 4, 4⟩ sample5 (Ptr.node 0, 0) = some T ∧ ParentsOk T)) ∧
    ((insert_stray ⟨true, 4, 4⟩ 3 sample5 5).map
      (fun r => parents_ok r.1 (r.1.mem.length + 1) r.1.parent Ptr.root)) = some true ∧
    ((insert_stray ⟨true, 4, 4⟩ 7 sample5_25 35).map
      (fun r => parents_ok r.1 (r.1.mem.length + 1) r.1.parent Ptr.root)) = some true ∧
    ((insert_hint_stray ⟨true, 4, 4⟩ 7 sample5_25 (Ptr.node 1, 2) 35).map
      (fun r => parents_ok r.1 (r.1.mem.length + 1) r.1.parent Ptr.root)) = some true ∧
    ((erase ⟨true, 4, 4⟩ sample5 (Ptr.node 0, 0)).map
      (fun T => parents_ok T (T.mem.length + 1) T.parent Ptr.root)) = some true :=
  ⟨ops_keep_parents ⟨true, 4, 4⟩ 7 sample5 5 (Ptr.node 1, 0) (Ptr.node 0, 0)
    [10, 20, 30, 40, 50] (sample5_wf true) (by decide) (by decide) ⟨2, by decide⟩,
    by decide, by decide, by decide, by decide⟩

/-- C33: on a container that satisfies I1–I7 (leaf capacity at least 4) and
whose in-order sequence is `xs`, each of `insert(value)`,
`insert(hint, value)` (the hint an iterator of the container), `erase(it)`
(the iterator at a stored element) and `erase(k)` returns, the inserts with
whatever key the read through the anchor yields, and when it leaves the
container non-empty (as the inserts always do): the leaves in ascending order
form a doubly linked list, `root_.left` is the first leaf and `root_.right`
the last, the first leaf's `prev` and the last leaf's `next` are the anchor,
and every other `next` is the following leaf, whose `prev` is the leaf
itself. Where `insert` and `insert_hint` return, their result is the one
stated. -/
theorem ops_keep_leaf_chain (cfg : Config) (stray : α) (t : Tree α) (v : α) (hint it : Pos)
    (k : α) (xs : List α) (hwf : WF cfg t) (hcapL : 4 ≤ cfg.maxLeaf)
    (hxs : toList t = some xs) (hhint : ∃ i, BPP.indexOf t hint = some i) :
    (∃ T pos b, insert_stray cfg stray t v = some (T, (pos, b)) ∧ Linked cfg T ∧
      ∀ r, insert cfg t v = some r → r = (T, (pos, b))) ∧
    (∃ T pos b, insert_hint_stray cfg stray t hint v = some (T, (pos, b)) ∧ Linked cfg T ∧
      ∀ r, insert_hint cfg t hint v = some r → r = (T, (pos, b))) ∧
    (∀ r, BPP.indexOf t it = some r → r < t.size →
      ∃ T, erase cfg t it = some T ∧ (T.parent ≠ Ptr.root → Linked cfg T)) ∧
    (∃ T, erase_key cfg t k = some (T, xs.count k) ∧ (T.parent ≠ Ptr.root → Linked cfg T)) := by
  obtain ⟨⟨T, pos, b, ys, a1, ⟨a2, a3, -⟩, -, a7⟩, ⟨T', pos', b', ys', b1, ⟨b2, b3, -⟩, b7⟩⟩ :=
    insert_outcomes cfg stray t v hint xs hwf hxs hhint
  obtain ⟨-, e1, T2, e2, e3, e4⟩ := erase_results cfg t it k xs hwf hcapL hxs
  refine ⟨⟨T, pos, b, a1, a2.shapedP.p_linked a3, a7⟩,
    ⟨T', pos', b', b1, b2.shapedP.p_linked b3, b7⟩, fun r hr hlt => ?_,
    ⟨T2, e2, e3.pe_linked e4⟩⟩
  obtain ⟨T1, h1, h2, h3⟩ := e1 r hr hlt
  exact ⟨T1, h1, h2.pe_linked h3⟩

/-- The statement of `ops_keep_leaf_chain` in unique mode on the container
10, 20, 30, 40, 50 with `MAX_LEAF = MAX_INNER = 4`, for the key 5 below all
stored keys, the stray key 7 and the hint at 30, and the leaf chain read
forward after the runs: `insert(5)` when the stray key 3 lets it succeed, both
inserts of 60 into the container 10, 20, 25, 30, 40, 50 (the tail leaf is
split), the erase of 10 through its iterator and `erase(20)`. -/
theorem ops_keep_leaf_chain_witness :
    ((∃ T pos b, insert_stray ⟨true, 4, 4⟩ 7 sample5 5 = some (T, (pos, b)) ∧
      Linked ⟨true, 4, 4⟩ T ∧
      ∀ r, insert ⟨true, 4, 4⟩ sample5 5 = some r → r = (T, (pos, b))) ∧
    (∃ T pos b, insert_hint_stray ⟨true, 4, 4⟩ 7 sample5 (Ptr.node 1, 0) 5
        = some (T, (pos, b)) ∧ Linked ⟨true, 4, 4⟩ T ∧
      ∀ r, insert_hint ⟨true, 4, 4⟩ sample5 (Ptr.node 1, 0) 5 = some r → r = (T, (pos, b))) ∧
    (∀ r, BPP.indexOf sample5 (Ptr.node 0, 0) = some r → r < sample5.size →
      ∃ T, erase ⟨true, 4, 4⟩ sample5 (Ptr.node 0, 0) = some T ∧
        (T.parent ≠ Ptr.root → Linked ⟨true, 4, 4⟩ T)) ∧
    (∃ T, erase_key ⟨true, 4, 4⟩ sample5 20 = some (T, [10, 20, 30, 40, 50].count 20) ∧
      (T.parent ≠ Ptr.root → Linked ⟨true, 4, 4⟩ T))) ∧
    ((insert_stray ⟨true, 4, 4⟩ 3 sample5 5).map (fun r => iterate r.1))
      = some (some [5, 10, 20, 30, 40, 50]) ∧
    ((insert_stray ⟨true, 4, 4⟩ 7 sample5_25 60).map (fun r => (iterate r.1,
      (leafList r.1).map (fun ls => ls.map Prod.snd), r.1.right)))
      = some (some [10, 20, 25, 30, 40, 50, 60], some [[10, 20], [25, 30], [40, 50, 60]],
          Ptr.node 3) ∧
    ((insert_hint_stray ⟨true, 4, 4⟩ 7 sample5_25 (Ptr.root, 0) 60).map (fun r => (iterate r.1,
      (leafList r.1).map (fun ls => ls.map Prod.snd), r.1.right)))
      = some (some [10, 20, 25, 30, 40, 50, 60], some [[10, 20], [25, 30], [40, 50, 60]],
          Ptr.node 3) ∧
    ((erase ⟨true, 4, 4⟩ sample5 (Ptr.node 0, 0)).map iterate) = some (some [20, 30, 40, 50]) ∧
    ((erase_key ⟨true, 4, 4⟩ sample5 20).map (fun r => iterate r.1))
      = some (some [10, 30, 40, 50]) :=
  ⟨ops_keep_leaf_chain ⟨true, 4, 4⟩ 7 sample5 5 (Ptr.node 1, 0) (Ptr.node 0, 0) 20
    [10, 20, 30, 40, 50] (sample5_wf true) (by decide) (by decide) ⟨2, by decide⟩,
    by decide, by decide, by decide, by decide, by decide⟩

end InsertClaimsTotal

end BPP

/-! ## A key below all stored keys in unique mode -/

namespace BPP

section BelowMinimum
variable {α : Type} [LinearOrder α]

/-- The insert followed by the erase of the iterator it returned, on a
container that satisfies I1–I7 (leaf capacity at least 4) and whose in-order
sequence is `xs`: the insert returns, whatever the stray key; when it
succeeds, the erase returns a container with the in-order sequence and the
size from before the insert; it succeeds in multi mode, and in unique mode
unless an equal key is stored or the key is below all stored keys and the
stray key is not below it. -/
theorem insert_stray_roundtrip (cfg : Config) (stray : α) (t : Tree α) (v : α) (xs : List α)
    (hwf : WF cfg t) (hcapL : 4 ≤ cfg.maxLeaf) (hxs : toList t = some xs) :
    ∃ T1 pos b, insert_stray cfg stray t v = some (T1, (pos, b)) ∧
      (b = true → ∃ T2, erase cfg T1 pos = some T2 ∧ toList T2 = some xs ∧ T2.size = t.size) ∧
      (b = false → cfg.unique = true ∧ T1 = t ∧
        (v ∈ xs ∨ ((∀ y ∈ xs, v < y) ∧ ¬ stray < v))) := by
  obtain ⟨a1, a2, -⟩ := insert_stray_wf cfg stray t v xs hwf hxs
  obtain ⟨T, pos, b, ys, h1, h2, h3, h4, h5, h6⟩ := a1.res hwf hxs
  refine ⟨T, pos, b, h1, fun hb => ?_, fun hb => ⟨?_, (h6 hb).1, ?_⟩⟩
  · obtain ⟨j, hj, e, hidx⟩ := h5 hb
    subst e
    obtain ⟨T2, hT, hS⟩ := erase_indexOf cfg T _ pos j hcapL hwf.2.1 h2 hidx
      (by rw [ins_length _ _ _ hj]; omega)
    rw [eraseIdx_ins _ _ _ hj] at hS
    exact ⟨T2, hT, hS.e_toList, by rw [hS.e_size, hwf.size_toList hxs]⟩
  · cases hu : cfg.unique with
    | true => rfl
    | false => rw [h4 hu] at hb; simp at hb
  · subst hb; exact a2 T pos h1

end BelowMinimum

/-- C16, the claim fails in unique mode for a key below all stored keys: on
`{5}`, which satisfies I1–I7, the key 3 is stored nowhere, and `insert(3)`
compares it with a key read through the anchor. When that stray key is not
below 3 (7 here), the insert refuses, stores nothing, and returns the anchor
with `root_.size - 1` for an iterator; the erase of that iterator does not
give the container back. `insert` leaves the read undefined. -/
theorem insert_refused_below_min :
    WF ⟨true, 4, 4⟩ (single 5) ∧ toList (single 5) = some [5] ∧
      insert_stray ⟨true, 4, 4⟩ 7 (single 5) 3 = some (single 5, ((Ptr.root, 0), false)) ∧
      erase ⟨true, 4, 4⟩ (single 5) (Ptr.root, 0) = none ∧
      insert ⟨true, 4, 4⟩ (single 5) 3 = none ∧
      (insert_stray ⟨true, 4, 4⟩ 1 (single 5) 3).map (fun r => (toList r.1, r.2))
        = some (some [3, 5], (Ptr.node 0, 0), true) :=
  ⟨single_wf _ 5 (by decide) (by decide), by decide, by decide, by decide, by decide, by decide⟩

/-- C23, the claim fails in unique mode for a key below all stored keys and
the hint at the first element: on `{5}`, which satisfies I1–I7,
`insert(begin(), 3)` accepts the hint, places 3 before 5 and returns `true`,
without the read through the anchor; `insert(3)` compares 3 with the key read
through the anchor and, when that stray key is not below 3 (7 here), refuses
and leaves `{5}`. `insert` leaves the read undefined. -/
theorem insert_hint_begin_below_min :
    WF ⟨true, 4, 4⟩ (single 5) ∧ toList (single 5) = some [5] ∧
      «begin» (single 5) = (Ptr.node 0, 0) ∧
      (insert_hint ⟨true, 4, 4⟩ (single 5) (Ptr.node 0, 0) 3).map
        (fun r => (toList r.1, r.1.size, r.2)) = some (some [3, 5], 2, (Ptr.node 0, 0), true) ∧
      (insert_hint_stray ⟨true, 4, 4⟩ 7 (single 5) (Ptr.node 0, 0) 3).map
        (fun r => (toList r.1, r.1.size, r.2)) = some (some [3, 5], 2, (Ptr.node 0, 0), true) ∧
      (insert_stray ⟨true, 4, 4⟩ 7 (single 5) 3).map
        (fun r => (toList r.1, r.1.size, r.2)) = some (some [5], 1, (Ptr.root, 0), false) ∧
      insert ⟨true, 4, 4⟩ (single 5) 3 = none :=
  ⟨single_wf _ 5 (by decide) (by decide), by decide, by decide, by decide, by decide, by decide,
    by decide⟩

end BPP

/-! ## Where the insert and the insert with the stray key differ -/

namespace BPP

section StrayOnly
variable {α : Type} [LinearOrder α]

/-- At a leaf, `insert_one_descend_stray` is `insert_one_descend_` unless the
mode is unique, the leaf is the first one and the slot of the key is 0. -/
theorem insert_stray_leaf_same (cfg : Config) (x : α) (lt : Bool) (v : α) (fuel : Nat)
    (t : Tree α) (a : Nat) (l : LeafNode α) (hn : t.node? (Ptr.node a) = some (Node.leaf l))
    (hc : ¬ (lt = false ∧ cfg.unique = true ∧ upper_bound_node l.item v = 0 ∧
      l.prev = Ptr.root)) :
    insert_one_descend_stray cfg x lt v (fuel + 1) t (Ptr.node a)
      = insert_one_descend_ cfg lt v (fuel + 1) t (Ptr.node a) := by
  by_cases hp : l.prev = Ptr.root
  · rw [insert_one_descend_stray, insert_one_descend_]
    simp only [level?_leaf hn, gt_iff_lt, lt_self_iff_false, if_false, leaf?_of_node? hn, hp]
    cases lt
    · cases hu : cfg.unique
      · simp only [Bool.false_eq_true, if_false, false_and]
        all_goals rfl
      · have h3 : ¬ upper_bound_node l.item v = 0 := fun e => hc ⟨rfl, hu, e, hp⟩
        simp only [Bool.false_eq_true, if_false, true_and, if_neg h3]
        all_goals rfl
    · simp only [if_true]
      all_goals rfl
  · exact insert_stray_leaf_eq cfg x lt v fuel t a l hn hp

/-- In unique mode at slot 0 of the first leaf, `insert_one_descend_` has no
result: it reads the anchor as a leaf. -/
theorem insert_leaf_first_none (cfg : Config) (v : α) (fuel : Nat)
    (t : Tree α) (a : Nat) (l : LeafNode α) (hn : t.node? (Ptr.node a) = some (Node.leaf l))
    (hu : cfg.unique = true) (h0 : upper_bound_node l.item v = 0) (hp : l.prev = Ptr.root) :
    insert_one_descend_ cfg false v (fuel + 1) t (Ptr.node a) = none := by
  rw [insert_one_descend_]
  simp only [level?_leaf hn, gt_iff_lt, lt_self_iff_false, if_false, leaf?_of_node? hn, hu,
    Bool.false_eq_true, true_and, h0, hp]
  simp [Tree.leaf?, Tree.node?]

/-- Below a well-formed subtree, `insert_one_descend_stray` is
`insert_one_descend_` unless the mode is unique, the subtree is at the front
of the chain and the slot of the key is 0; then `insert_one_descend_` has no
result. -/
theorem insert_stray_same (cfg : Config) (x : α) (lt : Bool) (v : α) (hcapL : 2 ≤ cfg.maxLeaf) :
    ∀ (h fuel : Nat) (t : Tree α) (isRoot : Bool) (p par : Ptr) (ls : Leaves α) (fp : List Nat)
      (L R : Leaves α), Sub cfg t h isRoot p par ls fp →
      (items ls).Pairwise (· ≤ ·) → ChainOk t Ptr.root (L ++ ls ++ R) →
      (∀ e ∈ L, (∃ l, t.node? e.1 = some (Node.leaf l) ∧ l.item = e.2) ∧ e.2 ≠ []) →
      (¬ (lt = false ∧ cfg.unique = true ∧ items L = [] ∧ bound_node lt (items ls) v = 0) →
        insert_one_descend_stray cfg x lt v fuel t p = insert_one_descend_ cfg lt v fuel t p) ∧
      ((lt = false ∧ cfg.unique = true ∧ items L = [] ∧ bound_node lt (items ls) v = 0) →
        insert_one_descend_ cfg lt v fuel t p = none) := by
  intro h
  induction h with
  | zero =>
    intro fuel t isRoot p par ls fp L R hs hsort hchain hL
    obtain ⟨a, l, hp, hn, hpar, hls, hfp, hlo, hhi⟩ := Sub.zero_iff.1 hs
    have hit : items ls = l.item := by rw [hls]; simp
    rw [hit]
    subst hp
    have hchain' : ChainOk t Ptr.root (L ++ (Ptr.node a, l.item) :: R) := by
      rw [hls] at hchain; simpa using hchain
    obtain ⟨n, hn', hprev0, hprev1⟩ := ChainOk.prev_mid L (Ptr.node a) l.item R Ptr.root hchain'
    rw [leaf?_of_node? hn] at hn'
    obtain rfl := Option.some.inj hn'
    have hfront : l.prev = Ptr.root ↔ items L = [] := by
      rcases List.eq_nil_or_concat L with hnil | ⟨L', e, hLe⟩
      · subst hnil
        exact ⟨fun _ => rfl, fun _ => hprev0 rfl⟩
      · rw [List.concat_eq_append] at hLe
        subst hLe
        obtain ⟨⟨le, hle', hitem⟩, hene⟩ := hL e (by simp)
        have hpe : l.prev = e.1 := hprev1 e (by simp)
        constructor
        · intro e0; rw [hpe] at e0; rw [e0] at hle'; simp [Tree.node?] at hle'
        · intro e0
          obtain ⟨p0, l0⟩ := e
          simp only [items_append, items_cons, items_nil, List.append_nil,
            List.append_eq_nil] at e0
          exact absurd e0.2 hene
    cases fuel with
    | zero =>
      refine ⟨fun _ => ?_, fun _ => ?_⟩
      · rw [insert_one_descend_stray, insert_one_descend_]
      · rw [insert_one_descend_]
    | succ fuel =>
      refine ⟨fun hc => ?_, fun hc => ?_⟩
      · refine insert_stray_leaf_same cfg x lt v fuel t a l hn (fun hcc => hc ?_)
        obtain ⟨h1, h2, h3, h4⟩ := hcc
        subst h1
        exact ⟨rfl, h2, hfront.1 h4, by simpa [bound_node] using h3⟩
      · obtain ⟨h1, h2, h3, h4⟩ := hc
        subst h1
        exact insert_leaf_first_none cfg v fuel t a l hn h2 (by simpa [bound_node] using h4)
          (hfront.2 h3)
  | succ h ih =>
    intro fuel t isRoot p par ls fp L R hs hsort hchain hL
    cases fuel with
    | zero =>
      refine ⟨fun _ => ?_, fun _ => ?_⟩
      · rw [insert_one_descend_stray, insert_one_descend_]
      · rw [insert_one_descend_]
    | succ fuel =>
      obtain ⟨a, n, ps, hp, hn, hpar, hlev, hsz, hc, hkeys, hne, hch, hls, hfp, hlo, hhi⟩ :=
        Sub.succ_iff.1 hs
      subst hp hls hfp
      obtain ⟨pre, q, post, hps, hplen, hbound, hlast⟩ :=
        key_bound_split lt ps n.item v hkeys hne hsort
      subst hps
      have hcq : n.children[bound_node lt n.item v]? = some q.ptr := by
        rw [hc, ← hplen, List.map_append, List.map_cons,
          List.getElem?_append_right (by simp)]
        simp
      have hqm : q ∈ pre ++ q :: post := by simp
      have eassoc : L ++ leavesOf pre ++ q.leaves ++ (leavesOf post ++ R)
          = L ++ leavesOf (pre ++ q :: post) ++ R := by
        rw [leavesOf_append, leavesOf_cons]; simp only [List.append_assoc]
      have hitems : items (leavesOf (pre ++ q :: post))
          = items (leavesOf pre) ++ (items q.leaves ++ items (leavesOf post)) := by simp
      have hsortq : (items q.leaves).Pairwise (· ≤ ·) := by
        rw [hitems] at hsort
        exact (List.pairwise_append.1 (List.pairwise_append.1 hsort).2.1).1
      have hL' : ∀ e ∈ L ++ leavesOf pre,
          (∃ l, t.node? e.1 = some (Node.leaf l) ∧ l.item = e.2) ∧ e.2 ≠ [] := by
        intro e he
        rcases List.mem_append.1 he with he | he
        · exact hL e he
        · obtain ⟨r, hr, her⟩ := mem_leavesOf he
          exact ⟨Sub.leaf_node (hch r (by simp [hr])) e her,
            Sub.leaf_nonempty hcapL (hch r (by simp [hr])) e her⟩
      obtain ⟨i1, i2⟩ := ih fuel t false q.ptr (Ptr.node a) q.leaves q.fp (L ++ leavesOf pre)
        (leavesOf post ++ R) (hch q hqm) hsortq (by rw [eassoc]; exact hchain) hL'
      have hfront : (items (L ++ leavesOf pre) = [] ∧ bound_node lt (items q.leaves) v = 0) ↔
          (items L = [] ∧ bound_node lt (items (leavesOf (pre ++ q :: post))) v = 0) := by
        rw [hbound, items_append, List.append_eq_nil]
        constructor
        · rintro ⟨⟨e1, e2⟩, e3⟩
          exact ⟨e1, by rw [e2, e3]; rfl⟩
        · rintro ⟨e1, e2⟩
          have e3 : (items (leavesOf pre)).length = 0 := by omega
          exact ⟨⟨e1, List.length_eq_zero.1 e3⟩, by omega⟩
      rw [insert_descend_inner cfg lt v fuel t a n q.ptr hn (by omega) hcq,
        insert_stray_inner cfg x lt v fuel t a n q.ptr hn (by omega) hcq]
      refine ⟨fun hc' => ?_, fun hc' => ?_⟩
      · rw [i1 (fun hcc => hc' ⟨hcc.1, hcc.2.1, hfront.1 hcc.2.2⟩)]
      · rw [i2 ⟨hc'.1, hc'.2.1, hfront.2 hc'.2.2⟩]; rfl

/-- The `insert` of this file, which leaves the read through the anchor
undefined, against `insert_stray` on a container that satisfies I1–I7 and
whose in-order sequence is `xs`: they are the same, but for a key below all
stored keys in unique mode, where `insert` has no result. -/
theorem insert_eq_stray_or_none (cfg : Config) (x : α) (t : Tree α) (v : α) (xs : List α)
    (hwf : WF cfg t) (hxs : toList t = some xs) :
    insert cfg t v = insert_stray cfg x t v ∨
      (cfg.unique = true ∧ xs ≠ [] ∧ (∀ y ∈ xs, v < y) ∧ insert cfg t v = none) := by
  by_cases hne : t.parent = Ptr.root
  · left
    simp [insert, insert_nohint_, insert_stray, insert_nohint_stray, if_pos hne]
  · obtain ⟨hsh, hord⟩ := hwf.shaped_of_toList hne hxs
    obtain ⟨h, ls, fp, hs, hnd, hit, hsz, hchain, hhead, hlast⟩ := id hsh
    obtain ⟨i1, i2⟩ := insert_stray_same cfg x false v hwf.1 h (t.mem.length + 1) t true t.parent
      Ptr.root ls fp [] [] hs (by rw [hit]; exact hord.1) (by simpa using hchain) (by simp)
    rw [hit] at i1 i2
    by_cases hc : cfg.unique = true ∧ bound_node false xs v = 0
    · right
      have hd := i2 ⟨rfl, hc.1, by simp, hc.2⟩
      have hj : upper_bound_node xs v = 0 := by simpa [bound_node] using hc.2
      refine ⟨hc.1, ?_, fun y hy => ?_, ?_⟩
      · rw [← hit]; exact Sub.items_ne_nil hwf.1 hs
      · exact (sorted_ins_upper xs v hord.1).2.2 y (by rw [hj]; simpa using hy)
      · simp [insert, insert_nohint_, if_neg hne, hd]
    · left
      have hd := i1 (fun hcc => hc ⟨hcc.2.1, hcc.2.2.2⟩)
      cases hr : insert_one_descend_ cfg false v (t.mem.length + 1) t t.parent with
      | none =>
        rw [hr] at hd
        simp [insert, insert_nohint_, insert_stray, insert_nohint_stray, if_neg hne, hr, hd]
      | some rd =>
        rw [hr] at hd
        obtain ⟨t1, result, new⟩ := rd
        simp only [insert, insert_stray, insert_nohint_stray, insert_nohint_, if_neg hne, hr, hd,
          Option.pure_def, Option.bind_eq_bind, Option.some_bind]
        all_goals rcases new with _ | ⟨k, q⟩
        all_goals first
          | rfl
          | (simp only []
             cases grow_root_ (if result.2 = true then
               { parent := t1.parent, size := t1.size + 1, left := t1.left, right := t1.right,
                 mem := t1.mem } else t1) k q <;> rfl)

end StrayOnly

end BPP
